import Mathlib

/-!
# LOX_GO: a shallow embedding of the tree-walking Lox interpreter

The Go packages `scanner`, `errors`, `parser`, `resolver` and `interpreter` are
translated function by function.  Conventions of the embedding:

* a Go `string` is a sequence of bytes; the source text is a `List Char` in which
  every `Char` stands for one byte, and a lexeme is the `String` of such a slice;
* `float64` is Lean's `Float` (IEEE-754 binary64, as in Go);
* Go pointers that are compared or used as map keys become natural-number
  identities handed out by an allocation counter;
* a Go map is an association list read with `Map.get` and written with
  `Map.set`;
* the package-level variables of `errors` and the text written to stderr form the
  record `Errors`, threaded through every stage;
* a Go run-time panic and the exhaustion of the fuel that bounds the loops of the
  model are the two ways a model function can fail to return (`Fail`).
-/

namespace Lox

/-! ## Failure of a run -/

/-- The ways a translated function can fail to return a result. -/
inductive Fail where
  | panic (msg : String)
  | outOfFuel
  deriving Repr, DecidableEq

/-! ## Go maps with string keys -/

/-- A Go map: the first pair with a given key is the binding. -/
abbrev Map (κ α : Type) := List (κ × α)

/-- The lookup `m[k]` with its `ok` flag. -/
def Map.get {κ α : Type} [DecidableEq κ] : Map κ α → κ → Option α
  | [], _ => none
  | (k, v) :: m, key => if k = key then some v else Map.get m key

/-- The store `m[k] = v`: an existing binding is replaced in place, a new one is added. -/
def Map.set {κ α : Type} [DecidableEq κ] : Map κ α → κ → α → Map κ α
  | [], key, v => [(key, v)]
  | (k, w) :: m, key, v => if k = key then (k, v) :: m else (k, w) :: Map.set m key v

/-! ## package errors -/

/-- The package-level state of `errors` together with the lines written to stderr. -/
structure Errors where
  HadError : Bool
  HadRuntimeError : Bool
  stderr : List String
  deriving Repr, DecidableEq

/-- The state at the start of `runWithInterpreter`, with nothing written yet. -/
def Errors.init : Errors := ⟨false, false, []⟩

def report (e : Errors) (line : Nat) (where_ : String) (message : String) : Errors :=
  { e with
    stderr := e.stderr ++ ["[line " ++ toString line ++ "] Error" ++ where_ ++ ": " ++ message]
    HadError := true }

def Error (e : Errors) (line : Nat) (message : String) : Errors :=
  report e line "" message

def ReportParseError (e : Errors) (line : Nat) (lexeme : String) (isAtEnd : Bool)
    (message : String) : Errors :=
  if isAtEnd then report e line " at end" message
  else report e line (" at '" ++ lexeme ++ "'") message

def ReportRuntimeError (e : Errors) (line : Nat) (message : String) : Errors :=
  { e with
    stderr := e.stderr ++ ["[line " ++ toString line ++ "] Runtime Error: " ++ message]
    HadRuntimeError := true }

def ReportResolverError (e : Errors) (message : String) : Errors :=
  { e with
    stderr := e.stderr ++ ["Resolver Error: " ++ message]
    HadError := true }

/-! ## package scanner: tokens -/

inductive TokenType where
  | LEFT_PAREN | RIGHT_PAREN | LEFT_BRACE | RIGHT_BRACE
  | COMMA | DOT | MINUS | PLUS | SEMICOLON | SLASH | STAR
  | BANG | BANG_EQUAL | EQUAL | EQUAL_EQUAL
  | GREATER | GREATER_EQUAL | LESS | LESS_EQUAL
  | IDENTIFIER | STRING | NUMBER
  | AND | CLASS | ELSE | FALSE | FUN | FOR | IF | NIL | OR
  | PRINT | RETURN | SUPER | THIS | TRUE | VAR | WHILE
  | EOF
  deriving Repr, DecidableEq

/-- The `interface{}` values carried by tokens and `Literal` nodes: nil, a `bool`,
a `float64` or a `string`. -/
inductive LiteralValue where
  | nil
  | bool (b : Bool)
  | number (f : Float)
  | string (s : String)
  deriving Repr

structure Token where
  type : TokenType
  Lexeme : String
  Literal : LiteralValue
  Line : Nat
  deriving Repr

/-- The zero value `scanner.Token{}`. -/
def Token.zero : Token := ⟨TokenType.LEFT_PAREN, "", LiteralValue.nil, 0⟩

/-- The package-level table `keywords`. -/
def keywords : Map String TokenType :=
  [("and", TokenType.AND), ("class", TokenType.CLASS), ("else", TokenType.ELSE),
   ("false", TokenType.FALSE), ("for", TokenType.FOR), ("fun", TokenType.FUN),
   ("if", TokenType.IF), ("nil", TokenType.NIL), ("or", TokenType.OR),
   ("print", TokenType.PRINT), ("return", TokenType.RETURN), ("super", TokenType.SUPER),
   ("this", TokenType.THIS), ("true", TokenType.TRUE), ("var", TokenType.VAR),
   ("while", TokenType.WHILE)]

/-! ## package scanner: the scanner -/

structure Scanner where
  source : List Char
  tokens : List Token
  start : Nat
  current : Nat
  line : Nat
  errors : Errors

def NewScanner (source : String) (errors : Errors) : Scanner :=
  { source := source.toList, tokens := [], start := 0, current := 0, line := 1,
    errors := errors }

def isDigit (c : Char) : Bool :=
  decide ('0' ≤ c) && decide (c ≤ '9')

def isAlpha (c : Char) : Bool :=
  (decide ('a' ≤ c) && decide (c ≤ 'z')) ||
  (decide ('A' ≤ c) && decide (c ≤ 'Z')) ||
  c == '_'

def isAlphaNumeric (c : Char) : Bool :=
  isAlpha c || isDigit c

/-- The slice expression `source[lo:hi]`, which panics when the bounds are out of range. -/
def sliceOf (source : List Char) (lo hi : Nat) : Except Fail String :=
  if lo ≤ hi ∧ hi ≤ source.length then
    .ok (String.mk ((source.drop lo).take (hi - lo)))
  else .error (.panic "slice bounds out of range")

namespace Scanner

def isAtEnd (s : Scanner) : Bool :=
  decide (s.current ≥ s.source.length)

def advance (s : Scanner) : Except Fail (Char × Scanner) :=
  match s.source[s.current]? with
  | some c => .ok (c, { s with current := s.current + 1 })
  | none => .error (.panic "index out of range")

def addToken (s : Scanner) (tokenType : TokenType) (literal : LiteralValue) :
    Except Fail Scanner := do
  let text ← sliceOf s.source s.start s.current
  pure { s with tokens := s.tokens ++ [⟨tokenType, text, literal, s.line⟩] }

def peek (s : Scanner) : Char :=
  if s.isAtEnd then '\x00' else s.source.getD s.current '\x00'

def peekNext (s : Scanner) : Char :=
  if s.current + 1 ≥ s.source.length then '\x00' else s.source.getD (s.current + 1) '\x00'

/-- The method `match`. -/
def «match» (s : Scanner) (expected : Char) : Bool × Scanner :=
  if s.isAtEnd then (false, s)
  else if s.source.getD s.current '\x00' ≠ expected then (false, s)
  else (true, { s with current := s.current + 1 })

/-- The loop `for s.peek() != '\n' && !s.isAtEnd() { s.advance() }` of a line comment. -/
def commentLoop : Nat → Scanner → Except Fail Scanner
  | 0, _ => .error .outOfFuel
  | n + 1, s =>
    if s.peek ≠ '\n' && !s.isAtEnd then do
      let (_, s) ← s.advance
      commentLoop n s
    else pure s

/-- The loop of `string`, counting the newlines inside the literal. -/
def stringLoop : Nat → Scanner → Except Fail Scanner
  | 0, _ => .error .outOfFuel
  | n + 1, s =>
    if s.peek ≠ '"' && !s.isAtEnd then do
      let s := if s.peek = '\n' then { s with line := s.line + 1 } else s
      let (_, s) ← s.advance
      stringLoop n s
    else pure s

/-- The method `string`. -/
def string (s : Scanner) : Except Fail Scanner := do
  let s ← stringLoop (s.source.length + 1) s
  if s.isAtEnd then
    pure { s with errors := Error s.errors s.line "Unterminated string." }
  else
    let (_, s) ← s.advance
    let value ← sliceOf s.source (s.start + 1) (s.current - 1)
    s.addToken TokenType.STRING (LiteralValue.string value)

/-- The loop `for isDigit(s.peek()) { s.advance() }`. -/
def digitLoop : Nat → Scanner → Except Fail Scanner
  | 0, _ => .error .outOfFuel
  | n + 1, s =>
    if isDigit s.peek then do
      let (_, s) ← s.advance
      digitLoop n s
    else pure s

/-- The loop `for isAlphaNumeric(s.peek()) { s.advance() }`. -/
def identifierLoop : Nat → Scanner → Except Fail Scanner
  | 0, _ => .error .outOfFuel
  | n + 1, s =>
    if isAlphaNumeric s.peek then do
      let (_, s) ← s.advance
      identifierLoop n s
    else pure s

end Scanner

/-- The value of a run of decimal digits. -/
def digitsValue (ds : List Char) : Nat :=
  ds.foldl (fun acc c => 10 * acc + (c.toNat - '0'.toNat)) 0

/-- The number `2^1024 - 2^970`, halfway between the largest `float64` and the next power
of two: a decimal at least as large does not round to a finite `float64`. -/
def float64Overflow : Nat :=
  179769313486231580793728971405303415079934132710037826936173778980444968292764750946649017977587207096330286416692887910946555547851940402630657488671505820681908902000708383676273854845817711531764475730270069855571366959622842914819860834936475292719074168444365510704342711559699508093042880177904174497792

/-- `strconv.ParseFloat(valueStr, 64)` belongs to the Go library, not to this
repository.  On the lexemes the scanner passes to it (digits, optionally followed
by `.` and digits) it is represented by the decimal-to-double conversion of
`Float.ofScientific`, and it fails with a range error (`none`) when the decimal is
at least `float64Overflow`, the least value that rounds to infinity.  That the two
conversions round every decimal to the same double is not established here; no
theorem of this development depends on which double the conversion returns. -/
def parseFloat (valueStr : String) : Option Float :=
  let intPart := valueStr.toList.takeWhile isDigit
  let fracPart := (valueStr.toList.dropWhile isDigit).drop 1
  let mantissa := digitsValue (intPart ++ fracPart)
  let exponent := fracPart.length
  if mantissa ≥ float64Overflow * 10 ^ exponent then none
  else some (Float.ofScientific mantissa true exponent)

namespace Scanner

/-- The method `number`. -/
def number (s : Scanner) : Except Fail Scanner := do
  let s ← digitLoop (s.source.length + 1) s
  let s ← (if s.peek = '.' && isDigit s.peekNext then
      s.advance >>= fun p => digitLoop (p.2.source.length + 1) p.2
    else pure s)
  let valueStr ← sliceOf s.source s.start s.current
  match parseFloat valueStr with
  | none => pure { s with errors := Error s.errors s.line "Invalid number." }
  | some value => s.addToken TokenType.NUMBER (LiteralValue.number value)

/-- The method `identifier`. -/
def identifier (s : Scanner) : Except Fail Scanner := do
  let s ← identifierLoop (s.source.length + 1) s
  let text ← sliceOf s.source s.start s.current
  let tokenType :=
    match Map.get keywords text with
    | some t => t
    | none => TokenType.IDENTIFIER
  s.addToken tokenType LiteralValue.nil

/-- The method `scanToken`. -/
def scanToken (s : Scanner) : Except Fail Scanner :=
  match s.advance with
  | .error e => .error e
  | .ok (c, s) =>
  if c = '(' then s.addToken TokenType.LEFT_PAREN LiteralValue.nil
  else if c = ')' then s.addToken TokenType.RIGHT_PAREN LiteralValue.nil
  else if c = '{' then s.addToken TokenType.LEFT_BRACE LiteralValue.nil
  else if c = '}' then s.addToken TokenType.RIGHT_BRACE LiteralValue.nil
  else if c = ',' then s.addToken TokenType.COMMA LiteralValue.nil
  else if c = '.' then s.addToken TokenType.DOT LiteralValue.nil
  else if c = '-' then s.addToken TokenType.MINUS LiteralValue.nil
  else if c = '+' then s.addToken TokenType.PLUS LiteralValue.nil
  else if c = ';' then s.addToken TokenType.SEMICOLON LiteralValue.nil
  else if c = '*' then s.addToken TokenType.STAR LiteralValue.nil
  else if c = '!' then
    match s.match '=' with
    | (true, s) => s.addToken TokenType.BANG_EQUAL LiteralValue.nil
    | (false, s) => s.addToken TokenType.BANG LiteralValue.nil
  else if c = '=' then
    match s.match '=' with
    | (true, s) => s.addToken TokenType.EQUAL_EQUAL LiteralValue.nil
    | (false, s) => s.addToken TokenType.EQUAL LiteralValue.nil
  else if c = '<' then
    match s.match '=' with
    | (true, s) => s.addToken TokenType.LESS_EQUAL LiteralValue.nil
    | (false, s) => s.addToken TokenType.LESS LiteralValue.nil
  else if c = '>' then
    match s.match '=' with
    | (true, s) => s.addToken TokenType.GREATER_EQUAL LiteralValue.nil
    | (false, s) => s.addToken TokenType.GREATER LiteralValue.nil
  else if c = '/' then
    match s.match '/' with
    | (true, s) => commentLoop (s.source.length + 1) s
    | (false, s) => s.addToken TokenType.SLASH LiteralValue.nil
  else if c = ' ' ∨ c = '\r' ∨ c = '\t' then pure s
  else if c = '\n' then pure { s with line := s.line + 1 }
  else if c = '"' then s.string
  else if isAlpha c then s.identifier
  else if isDigit c then s.number
  else pure { s with errors := Error s.errors s.line "Unexpected character." }

/-- The loop `for !s.isAtEnd() { s.start = s.current; s.scanToken() }`. -/
def scanLoop : Nat → Scanner → Except Fail Scanner
  | 0, _ => .error .outOfFuel
  | n + 1, s =>
    if !s.isAtEnd then do
      let s ← scanToken { s with start := s.current }
      scanLoop n s
    else pure s

/-- The method `ScanTokens`; the returned scanner holds the token list in `tokens`. -/
def ScanTokens (s : Scanner) : Except Fail Scanner := do
  let s ← scanLoop (s.source.length + 1) s
  pure { s with tokens := s.tokens ++ [⟨TokenType.EOF, "", LiteralValue.nil, s.line⟩] }

end Scanner

/-! ## package ast

Every expression node the resolver can key its side table on (`Variable`, `Assign`,
`This`, `Super`) carries the identity `id` of its allocation.  `Expr.nil` and
`Stmt.nil` are the nil interface values of Go, which the parser stores in optional
positions (`VarStmt.Initializer`, `ReturnStmt.Value`, `IfStmt.ElseBranch`) and also
wherever `primary` gave up. -/

structure Variable where
  id : Nat
  Name : Token
  deriving Repr

inductive Expr where
  | Binary (Left : Expr) (Operator : Token) (Right : Expr)
  | Grouping (Expression : Expr)
  | Literal (Value : LiteralValue)
  | Unary (Operator : Token) (Right : Expr)
  | Variable (v : Variable)
  | Assign (id : Nat) (Name : Token) (Value : Expr)
  | Logical (Left : Expr) (Operator : Token) (Right : Expr)
  | Call (Callee : Expr) (Paren : Token) (Arguments : List Expr)
  | Get (Object : Expr) (Name : Token)
  | Set (Object : Expr) (Name : Token) (Value : Expr)
  | This (id : Nat) (Keyword : Token)
  | Super (id : Nat) (Keyword : Token) (Method : Token)
  | nil
  deriving Repr

mutual
inductive Stmt where
  | ExpressionStmt (Expression : Expr)
  | PrintStmt (Expression : Expr)
  | VarStmt (Name : Token) (Initializer : Expr)
  | BlockStmt (Statements : List Stmt)
  | IfStmt (Condition : Expr) (ThenBranch : Stmt) (ElseBranch : Stmt)
  | WhileStmt (Condition : Expr) (Body : Stmt)
  | Function (f : FunctionStmt)
  | ReturnStmt (Keyword : Token) (Value : Expr)
  | ClassStmt (Name : Token) (Superclass : Option Variable) (Methods : List FunctionStmt)
  | nil
inductive FunctionStmt where
  | mk (Name : Token) (Params : List Token) (Body : List Stmt)
end

def FunctionStmt.Name : FunctionStmt → Token
  | .mk n _ _ => n

def FunctionStmt.Params : FunctionStmt → List Token
  | .mk _ ps _ => ps

def FunctionStmt.Body : FunctionStmt → List Stmt
  | .mk _ _ b => b

/-- The test `expr == nil` on an `ast.Expr`. -/
def Expr.isNil : Expr → Bool
  | .nil => true
  | _ => false

/-- The test `stmt == nil` on an `ast.Stmt`. -/
def Stmt.isNil : Stmt → Bool
  | .nil => true
  | _ => false

/-! ## package parser -/

/-- The parser.  `nextId` is the allocation counter that gives every `Variable`,
`Assign`, `This` and `Super` node its identity; `errors` is the state of package
`errors`. -/
structure Parser where
  tokens : List Token
  current : Nat
  errors : Errors
  nextId : Nat

/-- What a method of the parser does: it returns a value with a nil error, returns
the error `&ParseError{}`, panics, or the model runs out of fuel. -/
inductive PRes (α : Type) where
  | ok (a : α) (p : Parser)
  | err (p : Parser)
  | panic (msg : String)
  | outOfFuel

/-- Sequencing of `if err != nil { return nil, err }`. -/
def PRes.bind {α β : Type} (x : PRes α) (f : α → Parser → PRes β) : PRes β :=
  match x with
  | .ok a p => f a p
  | .err p => .err p
  | .panic m => .panic m
  | .outOfFuel => .outOfFuel

def NewParser (tokens : List Token) (errors : Errors) : Parser :=
  { tokens := tokens, current := 0, errors := errors, nextId := 0 }

namespace Parser

/-- The method `peek`: `p.tokens[p.current]`. -/
def peek (p : Parser) : PRes Token :=
  match p.tokens[p.current]? with
  | some t => .ok t p
  | none => .panic "index out of range"

/-- The method `previous`: `p.tokens[p.current-1]`. -/
def previous (p : Parser) : PRes Token :=
  if p.current = 0 then .panic "index out of range"
  else
    match p.tokens[p.current - 1]? with
    | some t => .ok t p
    | none => .panic "index out of range"

def isAtEnd (p : Parser) : PRes Bool :=
  p.peek.bind fun t p => .ok (t.type == TokenType.EOF) p

def check (p : Parser) (tokenType : TokenType) : PRes Bool :=
  p.isAtEnd.bind fun atEnd p =>
  if atEnd then .ok false p
  else p.peek.bind fun t p => .ok (t.type == tokenType) p

def advance (p : Parser) : PRes Token :=
  p.isAtEnd.bind fun atEnd p =>
  (if !atEnd then { p with current := p.current + 1 } else p).previous

/-- The method `match`, over its variadic list of token types. -/
def «match» (p : Parser) : List TokenType → PRes Bool
  | [] => .ok false p
  | t :: rest =>
    (p.check t).bind fun c p =>
    if c then p.advance.bind fun _ p => .ok true p
    else Parser.match p rest

/-- The method `error`: it reports and hands back the `*ParseError` to return. -/
def error (p : Parser) (token : Token) (message : String) : Parser :=
  let isAtEnd := token.type == TokenType.EOF
  { p with errors := ReportParseError p.errors token.Line token.Lexeme isAtEnd message }

def consume (p : Parser) (tokenType : TokenType) (message : String) : PRes Token :=
  (p.check tokenType).bind fun c p =>
  if c then p.advance
  else p.peek.bind fun t p => .err (p.error t message)

/-- The loop of `synchronize`. -/
def synchronizeLoop : Nat → Parser → PRes Unit
  | 0, _ => .outOfFuel
  | n + 1, p =>
    p.isAtEnd.bind fun atEnd p =>
    if atEnd then .ok () p
    else
      p.previous.bind fun prev p =>
      if prev.type = TokenType.SEMICOLON then .ok () p
      else
        p.peek.bind fun t p =>
        if t.type = TokenType.CLASS ∨ t.type = TokenType.FUN ∨ t.type = TokenType.VAR ∨
            t.type = TokenType.FOR ∨ t.type = TokenType.IF ∨ t.type = TokenType.WHILE ∨
            t.type = TokenType.PRINT ∨ t.type = TokenType.RETURN then .ok () p
        else p.advance.bind fun _ p => synchronizeLoop n p

def synchronize (p : Parser) : PRes Unit :=
  p.advance.bind fun _ p => synchronizeLoop (p.tokens.length + 1) p

/-- The loop over the parameters in `function`. -/
def parametersLoop : Nat → List Token → Parser → PRes (List Token)
  | 0, _, _ => .outOfFuel
  | n + 1, parameters, p =>
    (if parameters.length ≥ 255 then
        p.peek.bind fun t p => .ok () (p.error t "Cannot have more than 255 parameters.")
      else .ok () p).bind fun _ p =>
    (p.consume TokenType.IDENTIFIER "Expect parameter name.").bind fun param p =>
    (p.match [TokenType.COMMA]).bind fun more p =>
    if more then parametersLoop n (parameters ++ [param]) p
    else .ok (parameters ++ [param]) p

mutual
def primary : Nat → Parser → PRes Expr
  | 0, _ => .outOfFuel
  | n + 1, p =>
    (p.match [TokenType.FALSE]).bind fun m p =>
    if m then .ok (.Literal (.bool false)) p else
    (p.match [TokenType.TRUE]).bind fun m p =>
    if m then .ok (.Literal (.bool true)) p else
    (p.match [TokenType.NIL]).bind fun m p =>
    if m then .ok (.Literal .nil) p else
    (p.match [TokenType.NUMBER, TokenType.STRING]).bind fun m p =>
    if m then p.previous.bind fun t p => .ok (.Literal t.Literal) p else
    (p.match [TokenType.SUPER]).bind fun m p =>
    if m then
      p.previous.bind fun keyword p =>
      (p.consume TokenType.DOT "Expect '.' after 'super'.").bind fun _ p =>
      (p.consume TokenType.IDENTIFIER "Expect superclass method name.").bind fun method p =>
      .ok (.Super p.nextId keyword method) { p with nextId := p.nextId + 1 }
    else
    (p.match [TokenType.THIS]).bind fun m p =>
    if m then
      p.previous.bind fun keyword p =>
      .ok (.This p.nextId keyword) { p with nextId := p.nextId + 1 }
    else
    (p.match [TokenType.IDENTIFIER]).bind fun m p =>
    if m then
      p.previous.bind fun name p =>
      .ok (.Variable ⟨p.nextId, name⟩) { p with nextId := p.nextId + 1 }
    else
    (p.match [TokenType.LEFT_PAREN]).bind fun m p =>
    if m then
      (expression n p).bind fun expr p =>
      (p.consume TokenType.RIGHT_PAREN "Expect ')' after expression.").bind fun _ p =>
      .ok (.Grouping expr) p
    else
      -- `p.error(p.peek(), "Expect expression."); return nil, nil`
      p.peek.bind fun t p => .ok .nil (p.error t "Expect expression.")

/-- The loop over the arguments in `finishCall`. -/
def argumentsLoop : Nat → List Expr → Parser → PRes (List Expr)
  | 0, _, _ => .outOfFuel
  | n + 1, arguments, p =>
    (if arguments.length ≥ 255 then
        p.peek.bind fun t p => .ok () (p.error t "Cannot have more than 255 arguments.")
      else .ok () p).bind fun _ p =>
    (expression n p).bind fun argument p =>
    (p.match [TokenType.COMMA]).bind fun more p =>
    if more then argumentsLoop n (arguments ++ [argument]) p
    else .ok (arguments ++ [argument]) p

def finishCall : Nat → Expr → Parser → PRes Expr
  | 0, _, _ => .outOfFuel
  | n + 1, callee, p =>
    (p.check TokenType.RIGHT_PAREN).bind fun c p =>
    (if !c then argumentsLoop n [] p else .ok [] p).bind fun arguments p =>
    (p.consume TokenType.RIGHT_PAREN "Expect ')' after arguments.").bind fun paren p =>
    .ok (.Call callee paren arguments) p

/-- The loop of `call`. -/
def callLoop : Nat → Expr → Parser → PRes Expr
  | 0, _, _ => .outOfFuel
  | n + 1, expr, p =>
    (p.match [TokenType.LEFT_PAREN]).bind fun m p =>
    if m then (finishCall n expr p).bind fun expr p => callLoop n expr p
    else
    (p.match [TokenType.DOT]).bind fun m p =>
    if m then
      (p.consume TokenType.IDENTIFIER "Expect property name after '.'.").bind fun name p =>
      callLoop n (.Get expr name) p
    else .ok expr p

def call : Nat → Parser → PRes Expr
  | 0, _ => .outOfFuel
  | n + 1, p => (primary n p).bind fun expr p => callLoop n expr p

def unary : Nat → Parser → PRes Expr
  | 0, _ => .outOfFuel
  | n + 1, p =>
    (p.match [TokenType.BANG, TokenType.MINUS]).bind fun m p =>
    if m then
      p.previous.bind fun operator p =>
      (unary n p).bind fun right p => .ok (.Unary operator right) p
    else call n p

/-- The loop of `factor`. -/
def factorLoop : Nat → Expr → Parser → PRes Expr
  | 0, _, _ => .outOfFuel
  | n + 1, expr, p =>
    (p.match [TokenType.SLASH, TokenType.STAR]).bind fun m p =>
    if m then
      p.previous.bind fun operator p =>
      (unary n p).bind fun right p => factorLoop n (.Binary expr operator right) p
    else .ok expr p

def factor : Nat → Parser → PRes Expr
  | 0, _ => .outOfFuel
  | n + 1, p => (unary n p).bind fun expr p => factorLoop n expr p

/-- The loop of `term`. -/
def termLoop : Nat → Expr → Parser → PRes Expr
  | 0, _, _ => .outOfFuel
  | n + 1, expr, p =>
    (p.match [TokenType.MINUS, TokenType.PLUS]).bind fun m p =>
    if m then
      p.previous.bind fun operator p =>
      (factor n p).bind fun right p => termLoop n (.Binary expr operator right) p
    else .ok expr p

def term : Nat → Parser → PRes Expr
  | 0, _ => .outOfFuel
  | n + 1, p => (factor n p).bind fun expr p => termLoop n expr p

/-- The loop of `comparison`. -/
def comparisonLoop : Nat → Expr → Parser → PRes Expr
  | 0, _, _ => .outOfFuel
  | n + 1, expr, p =>
    (p.match [TokenType.GREATER, TokenType.GREATER_EQUAL, TokenType.LESS,
      TokenType.LESS_EQUAL]).bind fun m p =>
    if m then
      p.previous.bind fun operator p =>
      (term n p).bind fun right p => comparisonLoop n (.Binary expr operator right) p
    else .ok expr p

def comparison : Nat → Parser → PRes Expr
  | 0, _ => .outOfFuel
  | n + 1, p => (term n p).bind fun expr p => comparisonLoop n expr p

/-- The loop of `equality`. -/
def equalityLoop : Nat → Expr → Parser → PRes Expr
  | 0, _, _ => .outOfFuel
  | n + 1, expr, p =>
    (p.match [TokenType.BANG_EQUAL, TokenType.EQUAL_EQUAL]).bind fun m p =>
    if m then
      p.previous.bind fun operator p =>
      (comparison n p).bind fun right p => equalityLoop n (.Binary expr operator right) p
    else .ok expr p

def equality : Nat → Parser → PRes Expr
  | 0, _ => .outOfFuel
  | n + 1, p => (comparison n p).bind fun expr p => equalityLoop n expr p

/-- The loop of `logic_and`. -/
def logic_andLoop : Nat → Expr → Parser → PRes Expr
  | 0, _, _ => .outOfFuel
  | n + 1, expr, p =>
    (p.match [TokenType.AND]).bind fun m p =>
    if m then
      p.previous.bind fun operator p =>
      (equality n p).bind fun right p => logic_andLoop n (.Logical expr operator right) p
    else .ok expr p

def logic_and : Nat → Parser → PRes Expr
  | 0, _ => .outOfFuel
  | n + 1, p => (equality n p).bind fun expr p => logic_andLoop n expr p

/-- The loop of `logic_or`. -/
def logic_orLoop : Nat → Expr → Parser → PRes Expr
  | 0, _, _ => .outOfFuel
  | n + 1, expr, p =>
    (p.match [TokenType.OR]).bind fun m p =>
    if m then
      p.previous.bind fun operator p =>
      (logic_and n p).bind fun right p => logic_orLoop n (.Logical expr operator right) p
    else .ok expr p

def logic_or : Nat → Parser → PRes Expr
  | 0, _ => .outOfFuel
  | n + 1, p => (logic_and n p).bind fun expr p => logic_orLoop n expr p

def assignment : Nat → Parser → PRes Expr
  | 0, _ => .outOfFuel
  | n + 1, p =>
    (logic_or n p).bind fun expr p =>
    (p.match [TokenType.EQUAL]).bind fun m p =>
    if m then
      p.previous.bind fun equals p =>
      (assignment n p).bind fun value p =>
      match expr with
      | .Get object name => .ok (.Set object name value) p
      | .Variable v =>
        .ok (.Assign p.nextId v.Name value) { p with nextId := p.nextId + 1 }
      | _ => .ok expr (p.error equals "Invalid assignment target.")
    else .ok expr p

def expression : Nat → Parser → PRes Expr
  | 0, _ => .outOfFuel
  | n + 1, p => assignment n p
end

def printStatement (n : Nat) (p : Parser) : PRes Stmt :=
  (expression n p).bind fun value p =>
  (p.consume TokenType.SEMICOLON "Expect ';' after value.").bind fun _ p =>
  .ok (.PrintStmt value) p

def expressionStatement (n : Nat) (p : Parser) : PRes Stmt :=
  (expression n p).bind fun expr p =>
  (p.consume TokenType.SEMICOLON "Expect ';' after expression.").bind fun _ p =>
  .ok (.ExpressionStmt expr) p

def varDeclaration (n : Nat) (p : Parser) : PRes Stmt :=
  (p.consume TokenType.IDENTIFIER "Expect variable name.").bind fun name p =>
  (p.match [TokenType.EQUAL]).bind fun m p =>
  (if m then expression n p else .ok .nil p).bind fun initializer p =>
  (p.consume TokenType.SEMICOLON "Expect ';' after variable declaration.").bind fun _ p =>
  .ok (.VarStmt name initializer) p

def returnStatement (n : Nat) (p : Parser) : PRes Stmt :=
  p.previous.bind fun keyword p =>
  (p.check TokenType.SEMICOLON).bind fun c p =>
  (if !c then expression n p else .ok .nil p).bind fun value p =>
  (p.consume TokenType.SEMICOLON "Expect ';' after return value.").bind fun _ p =>
  .ok (.ReturnStmt keyword value) p

mutual
/-- The method `declaration`.  Its deferred `recover` handles a panic whose value is a
`*ParseError`; nothing in the package panics with one (errors are returned), so the
deferred function never synchronizes and a panic passes through unchanged. -/
def declaration : Nat → Parser → PRes Stmt
  | 0, _ => .outOfFuel
  | n + 1, p =>
    (p.match [TokenType.CLASS]).bind fun m p =>
    if m then classDeclaration n p else
    (p.match [TokenType.FUN]).bind fun m p =>
    if m then (function n "function" p).bind fun f p => .ok (.Function f) p else
    (p.match [TokenType.VAR]).bind fun m p =>
    if m then varDeclaration n p else
    statement n p

def statement : Nat → Parser → PRes Stmt
  | 0, _ => .outOfFuel
  | n + 1, p =>
    (p.match [TokenType.FOR]).bind fun m p =>
    if m then forStatement n p else
    (p.match [TokenType.IF]).bind fun m p =>
    if m then ifStatement n p else
    (p.match [TokenType.WHILE]).bind fun m p =>
    if m then whileStatement n p else
    (p.match [TokenType.PRINT]).bind fun m p =>
    if m then printStatement n p else
    (p.match [TokenType.RETURN]).bind fun m p =>
    if m then returnStatement n p else
    (p.match [TokenType.LEFT_BRACE]).bind fun m p =>
    if m then (block n p).bind fun statements p => .ok (.BlockStmt statements) p else
    expressionStatement n p

/-- The loop of `block`: a declaration that returns an error is dropped after
`synchronize`. -/
def blockLoop : Nat → List Stmt → Parser → PRes (List Stmt)
  | 0, _, _ => .outOfFuel
  | n + 1, statements, p =>
    (p.check TokenType.RIGHT_BRACE).bind fun c p =>
    p.isAtEnd.bind fun atEnd p =>
    if !c && !atEnd then
      match declaration n p with
      | .ok stmt p => blockLoop n (statements ++ [stmt]) p
      | .err p => p.synchronize.bind fun _ p => blockLoop n statements p
      | .panic m => .panic m
      | .outOfFuel => .outOfFuel
    else .ok statements p

def block : Nat → Parser → PRes (List Stmt)
  | 0, _ => .outOfFuel
  | n + 1, p =>
    (blockLoop n [] p).bind fun statements p =>
    (p.consume TokenType.RIGHT_BRACE "Expect '\x7d' after block.").bind fun _ p =>
    .ok statements p

def ifStatement : Nat → Parser → PRes Stmt
  | 0, _ => .outOfFuel
  | n + 1, p =>
    (p.consume TokenType.LEFT_PAREN "Expect '(' after 'if'.").bind fun _ p =>
    (expression n p).bind fun condition p =>
    (p.consume TokenType.RIGHT_PAREN "Expect ')' after if condition.").bind fun _ p =>
    (statement n p).bind fun thenBranch p =>
    (p.match [TokenType.ELSE]).bind fun m p =>
    (if m then statement n p else .ok .nil p).bind fun elseBranch p =>
    .ok (.IfStmt condition thenBranch elseBranch) p

def whileStatement : Nat → Parser → PRes Stmt
  | 0, _ => .outOfFuel
  | n + 1, p =>
    (p.consume TokenType.LEFT_PAREN "Expect '(' after 'while'.").bind fun _ p =>
    (expression n p).bind fun condition p =>
    (p.consume TokenType.RIGHT_PAREN "Expect ')' after condition.").bind fun _ p =>
    (statement n p).bind fun body p =>
    .ok (.WhileStmt condition body) p

def forStatement : Nat → Parser → PRes Stmt
  | 0, _ => .outOfFuel
  | n + 1, p =>
    (p.consume TokenType.LEFT_PAREN "Expect '(' after 'for'.").bind fun _ p =>
    ((p.match [TokenType.SEMICOLON]).bind fun m p =>
      if m then .ok .nil p else
      (p.match [TokenType.VAR]).bind fun m p =>
      if m then varDeclaration n p else expressionStatement n p).bind fun initializer p =>
    (p.check TokenType.SEMICOLON).bind fun c p =>
    (if !c then expression n p else .ok .nil p).bind fun condition p =>
    (p.consume TokenType.SEMICOLON "Expect ';' after loop condition.").bind fun _ p =>
    (p.check TokenType.RIGHT_PAREN).bind fun c p =>
    (if !c then expression n p else .ok .nil p).bind fun increment p =>
    (p.consume TokenType.RIGHT_PAREN "Expect ')' after for clauses.").bind fun _ p =>
    (statement n p).bind fun body p =>
    let body := if !increment.isNil then .BlockStmt [body, .ExpressionStmt increment] else body
    let condition := if condition.isNil then .Literal (.bool true) else condition
    let body := Stmt.WhileStmt condition body
    let body := if !initializer.isNil then .BlockStmt [initializer, body] else body
    .ok body p

/-- The method `function`; `kind` is "function" or "method". -/
def function : Nat → String → Parser → PRes FunctionStmt
  | 0, _, _ => .outOfFuel
  | n + 1, kind, p =>
    (p.consume TokenType.IDENTIFIER ("Expect " ++ kind ++ " name.")).bind fun name p =>
    (p.consume TokenType.LEFT_PAREN ("Expect '(' after " ++ kind ++ " name.")).bind fun _ p =>
    (p.check TokenType.RIGHT_PAREN).bind fun c p =>
    (if !c then parametersLoop (p.tokens.length + 1) [] p else .ok [] p).bind
      fun parameters p =>
    (p.consume TokenType.RIGHT_PAREN "Expect ')' after parameters.").bind fun _ p =>
    (p.consume TokenType.LEFT_BRACE ("Expect '\x7b' before " ++ kind ++ " body.")).bind fun _ p =>
    (block n p).bind fun body p =>
    .ok (.mk name parameters body) p

/-- The loop over the methods in `classDeclaration`. -/
def methodsLoop : Nat → List FunctionStmt → Parser → PRes (List FunctionStmt)
  | 0, _, _ => .outOfFuel
  | n + 1, methods, p =>
    (p.check TokenType.RIGHT_BRACE).bind fun c p =>
    p.isAtEnd.bind fun atEnd p =>
    if !c && !atEnd then
      (function n "method" p).bind fun method p => methodsLoop n (methods ++ [method]) p
    else .ok methods p

def classDeclaration : Nat → Parser → PRes Stmt
  | 0, _ => .outOfFuel
  | n + 1, p =>
    (p.consume TokenType.IDENTIFIER "Expect class name.").bind fun name p =>
    (p.match [TokenType.LESS]).bind fun m p =>
    (if m then
        (p.consume TokenType.IDENTIFIER "Expect superclass name.").bind fun _ p =>
        p.previous.bind fun t p =>
        .ok (some (Variable.mk p.nextId t)) { p with nextId := p.nextId + 1 }
      else .ok none p).bind fun superclass p =>
    (p.consume TokenType.LEFT_BRACE "Expect '\x7b' before class body.").bind fun _ p =>
    (methodsLoop n [] p).bind fun methods p =>
    (p.consume TokenType.RIGHT_BRACE "Expect '\x7d' after class body.").bind fun _ p =>
    .ok (.ClassStmt name superclass methods) p
end

/-- The loop of `Parse`: the first declaration that returns an error ends it. -/
def parseLoop : Nat → List Stmt → Parser → PRes (List Stmt)
  | 0, _, _ => .outOfFuel
  | n + 1, statements, p =>
    p.isAtEnd.bind fun atEnd p =>
    if !atEnd then
      (declaration n p).bind fun stmt p =>
      parseLoop n (if !stmt.isNil then statements ++ [stmt] else statements) p
    else .ok statements p

/-- The method `Parse`.  The fuel bounds the depth of the calls and the length of the
loops of the model. -/
def Parse (p : Parser) : PRes (List Stmt) :=
  parseLoop (20 * p.tokens.length + 20) [] p

end Parser

/-! ## package printer -/

namespace AstPrinter

/-- `fmt.Sprintf("%v", expr.Value)` for the value of a literal that is not nil, and
"nil" for nil.  The digits that the Go library prints for a number are not modelled:
Lean's printing of the float stands in their place and shows other digits (the number 1
is printed as `1` by Go and as `1.000000` here).  No theorem of this development reads
the printed form of a number. -/
def formatLiteral : LiteralValue → String
  | .nil => "nil"
  | .bool b => if b then "true" else "false"
  | .number v => toString v
  | .string s => s

/-- The method `parenthesize`, given the printed forms of its expressions: "(", the
name, each form after a blank, ")". -/
def parenthesize (name : String) (parts : List String) : String :=
  "(" ++ name ++ parts.foldl (fun builder s => builder ++ " " ++ s) "" ++ ")"

mutual
/-- The method `Print`, `expr.Accept(p)`, with the visitor methods; `Accept` on a nil
interface panics. -/
def Print : Expr → Except Fail String
  | .nil => .error (.panic "invalid memory address or nil pointer dereference")
  | .Binary left operator right => do
    let l ← Print left
    let r ← Print right
    pure (parenthesize operator.Lexeme [l, r])
  | .Grouping expression => do
    let e ← Print expression
    pure (parenthesize "group" [e])
  | .Literal value => pure (formatLiteral value)
  | .Unary operator right => do
    let r ← Print right
    pure (parenthesize operator.Lexeme [r])
  | .Variable v => pure v.Name.Lexeme
  | .Assign _ name value => do
    let v ← Print value
    pure (parenthesize ("assign " ++ name.Lexeme) [v])
  | .Logical left operator right => do
    let l ← Print left
    let r ← Print right
    pure (parenthesize operator.Lexeme [l, r])
  | .Call callee _ arguments => do
    let c ← Print callee
    let parts ← printAll arguments
    pure (parenthesize ("call " ++ c) parts)
  | .Get object name => do
    let o ← Print object
    pure (parenthesize ("get " ++ name.Lexeme) [o])
  | .Set object name value => do
    let o ← Print object
    let v ← Print value
    pure (parenthesize ("set " ++ name.Lexeme) [o, v])
  | .This _ _ => pure "this"
  | .Super _ _ _ => pure "super"
/-- The printed forms of the expressions of a list, in order. -/
def printAll : List Expr → Except Fail (List String)
  | [] => pure []
  | e :: rest => do
    let s ← Print e
    let parts ← printAll rest
    pure (s :: parts)
end

end AstPrinter

/-! ## package interpreter: values and state -/

/-- A `*LoxFunction`.  `ptr` is the identity of the allocation; `Closure` is the
`*Environment`, a position in the heap of environments. -/
structure LoxFunction where
  ptr : Nat
  Declaration : FunctionStmt
  Closure : Nat
  IsInitializer : Bool

/-- A `*LoxClass`.  A class is never modified after `VisitClassStmt` built it, so the
object is carried whole; `ptr` is the identity of the allocation. -/
inductive LoxClass where
  | mk (ptr : Nat) (Name : String) (Methods : Map String LoxFunction)
      (Superclass : Option LoxClass)

def LoxClass.ptr : LoxClass → Nat
  | .mk p _ _ _ => p

def LoxClass.Name : LoxClass → String
  | .mk _ n _ _ => n

def LoxClass.Methods : LoxClass → Map String LoxFunction
  | .mk _ _ m _ => m

def LoxClass.Superclass : LoxClass → Option LoxClass
  | .mk _ _ _ s => s

/-- The run-time values, the dynamic contents of an `interface{}`: `instance` is a
`*LoxInstance`, a position in the heap of instances. -/
inductive Value where
  | nil
  | bool (b : Bool)
  | number (f : Float)
  | string (s : String)
  | clock
  | function (f : LoxFunction)
  | class (c : LoxClass)
  | instance (ref : Nat)

structure Environment where
  Enclosing : Option Nat
  values : Map String Value

structure LoxInstance where
  Class : LoxClass
  Fields : Map String Value

/-- The interpreter together with the memory it works on: `envs` and `instances` are
the heaps of the mutable objects, `nextPtr` numbers the allocations of functions and
classes, `stdout` collects the printed lines, `clock` holds the successive readings of
`time.Now()` in seconds and `ticks` counts the readings taken. -/
structure Interpreter where
  environment : Nat
  globals : Nat
  locals : Map Nat Nat
  envs : List Environment
  instances : List LoxInstance
  nextPtr : Nat
  stdout : List String
  errors : Errors
  clock : Nat → Float
  ticks : Nat

/-- The values of Go's `error` interface that the interpreter produces.

Modelled from the spec: the type `Return` (used as `&Return{Value: value}` and matched
with `err.(*Return)`) is declared in a file that is not among the sources; it is the
"return with value" signal of the spec, an error value carrying `Value`. -/
inductive Err where
  | RuntimeError (Token : Token) (Message : String)
  | Return (Value : Value)
  | errorString (msg : String)

/-- The result of a call that reads the state only. -/
inductive Out (α : Type) where
  | ok (a : α)
  | err (e : Err)
  | panic (msg : String)
  | outOfFuel

/-- The result of a call of the interpreter: a value with a nil error, an error, a
panic (each with the state the call left behind), or the model ran out of fuel. -/
inductive Res (α : Type) where
  | ok (a : α) (i : Interpreter)
  | err (e : Err) (i : Interpreter)
  | panic (msg : String) (i : Interpreter)
  | outOfFuel

/-- Sequencing of `if err != nil { return nil, err }`. -/
def Res.bind {α β : Type} (x : Res α) (f : α → Interpreter → Res β) : Res β :=
  match x with
  | .ok a i => f a i
  | .err e i => .err e i
  | .panic m i => .panic m i
  | .outOfFuel => .outOfFuel

/-- A state-reading result placed in a state. -/
def Out.toRes {α : Type} (x : Out α) (i : Interpreter) : Res α :=
  match x with
  | .ok a => .ok a i
  | .err e => .err e i
  | .panic m => .panic m i
  | .outOfFuel => .outOfFuel

/-- The conversion of a literal's `interface{}` to a run-time value. -/
def LiteralValue.toValue : LiteralValue → Value
  | .nil => .nil
  | .bool b => .bool b
  | .number f => .number f
  | .string s => .string s

/-! ## package interpreter: environments -/

/-- `NewEnvironment(enclosing)`: the new frame is placed at the end of the heap. -/
def NewEnvironment (i : Interpreter) (enclosing : Option Nat) : Nat × Interpreter :=
  (i.envs.length, { i with envs := i.envs ++ [⟨enclosing, []⟩] })

/-- The update of one frame of the heap. -/
def setFrame (envs : List Environment) (env : Nat) (name : String) (value : Value) :
    List Environment :=
  match envs[env]? with
  | some fr => envs.set env { fr with values := Map.set fr.values name value }
  | none => envs

/-- The method `Define` of the environment at `env`. -/
def Interpreter.Define (i : Interpreter) (env : Nat) (name : String) (value : Value) :
    Interpreter :=
  { i with envs := setFrame i.envs env name value }

/-- The method `Get` of the environment at `env`; the fuel bounds the walk up the chain. -/
def envGet (envs : List Environment) : Nat → Nat → Token → Out Value
  | 0, _, _ => .outOfFuel
  | n + 1, env, name =>
    match envs[env]? with
    | none => .panic "invalid memory address or nil pointer dereference"
    | some fr =>
      match Map.get fr.values name.Lexeme with
      | some value => .ok value
      | none =>
        match fr.Enclosing with
        | some up => envGet envs n up name
        | none => .err (.RuntimeError name ("Undefined variable '" ++ name.Lexeme ++ "'."))

/-- The method `Assign` of the environment at `env`: the new heap, or the error. -/
def envAssign (envs : List Environment) : Nat → Nat → Token → Value → Out (List Environment)
  | 0, _, _, _ => .outOfFuel
  | n + 1, env, name, value =>
    match envs[env]? with
    | none => .panic "invalid memory address or nil pointer dereference"
    | some fr =>
      match Map.get fr.values name.Lexeme with
      | some _ => .ok (setFrame envs env name.Lexeme value)
      | none =>
        match fr.Enclosing with
        | some up => envAssign envs n up name value
        | none => .err (.RuntimeError name ("Undefined variable '" ++ name.Lexeme ++ "'."))

/-- The method `ancestor`: `distance` hops along `Enclosing`.  The result `none` is the
nil pointer, and a hop from the nil pointer panics. -/
def ancestor (envs : List Environment) : Nat → Option Nat → Out (Option Nat)
  | 0, env => .ok env
  | _ + 1, none => .panic "invalid memory address or nil pointer dereference"
  | d + 1, some env =>
    match envs[env]? with
    | none => .panic "invalid memory address or nil pointer dereference"
    | some fr => ancestor envs d fr.Enclosing

/-- The method `GetAt`. -/
def GetAt (envs : List Environment) (env : Nat) (distance : Nat) (name : String) : Out Value :=
  match ancestor envs distance (some env) with
  | .ok (some a) =>
    match envs[a]? with
    | none => .panic "invalid memory address or nil pointer dereference"
    | some fr =>
      match Map.get fr.values name with
      | some value => .ok value
      | none => .err (.errorString ("Undefined variable '" ++ name ++ "'."))
  | .ok none => .panic "invalid memory address or nil pointer dereference"
  | .err e => .err e
  | .panic m => .panic m
  | .outOfFuel => .outOfFuel

/-- The method `AssignAt`: the new heap, or the error. -/
def AssignAt (envs : List Environment) (env : Nat) (distance : Nat) (name : Token)
    (value : Value) : Out (List Environment) :=
  match ancestor envs distance (some env) with
  | .ok (some a) =>
    match envs[a]? with
    | none => .panic "invalid memory address or nil pointer dereference"
    | some fr =>
      match Map.get fr.values name.Lexeme with
      | some _ => .ok (setFrame envs a name.Lexeme value)
      | none => .err (.errorString ("Undefined variable '" ++ name.Lexeme ++ "'."))
  | .ok none => .panic "invalid memory address or nil pointer dereference"
  | .err e => .err e
  | .panic m => .panic m
  | .outOfFuel => .outOfFuel

/-! ## package interpreter: classes, instances and functions -/

/-- The method `findMethod`; `none` is the nil `*LoxFunction`. -/
def LoxClass.findMethod : LoxClass → String → Option LoxFunction
  | .mk _ _ methods superclass, name =>
    match Map.get methods name with
    | some method => some method
    | none =>
      match superclass with
      | some sc => LoxClass.findMethod sc name
      | none => none

def LoxFunction.Arity (f : LoxFunction) : Nat :=
  f.Declaration.Params.length

def LoxClass.Arity (c : LoxClass) : Nat :=
  match c.findMethod "init" with
  | some initializer => initializer.Arity
  | none => 0

/-- The method `bind`: a new environment over the closure that defines `this`, and a
new function object over it. -/
def LoxFunction.bind (f : LoxFunction) (instance_ : Nat) (i : Interpreter) :
    LoxFunction × Interpreter :=
  let (env, i) := NewEnvironment i (some f.Closure)
  let i := i.Define env "this" (.instance instance_)
  (⟨i.nextPtr, f.Declaration, env, f.IsInitializer⟩, { i with nextPtr := i.nextPtr + 1 })

/-- `NewLoxInstance(class)`: the new instance is placed at the end of the heap. -/
def NewLoxInstance (c : LoxClass) (i : Interpreter) : Nat × Interpreter :=
  (i.instances.length, { i with instances := i.instances ++ [⟨c, []⟩] })

/-- The method `Get` of the instance at `ref`. -/
def instanceGet (ref : Nat) (name : Token) (i : Interpreter) : Res Value :=
  match i.instances[ref]? with
  | none => .panic "invalid memory address or nil pointer dereference" i
  | some li =>
    match Map.get li.Fields name.Lexeme with
    | some value => .ok value i
    | none =>
      match li.Class.findMethod name.Lexeme with
      | some method =>
        let (bound, i) := method.bind ref i
        .ok (.function bound) i
      | none => .err (.RuntimeError name ("Undefined property '" ++ name.Lexeme ++ "'.")) i

/-- The method `Set` of the instance at `ref`. -/
def instanceSet (ref : Nat) (name : Token) (value : Value) (i : Interpreter) : Interpreter :=
  match i.instances[ref]? with
  | some li =>
    { i with instances := i.instances.set ref { li with Fields := Map.set li.Fields name.Lexeme value } }
  | none => i

/-! ## package interpreter: evaluation -/

def isTruthy : Value → Bool
  | .nil => false
  | .bool b => b
  | _ => true

/-- The function `isEqual`: after the tests for nil, the comparison `a == b` of two
interface values, equal when the dynamic types agree and the values are equal
(pointers by identity). -/
def isEqual : Value → Value → Bool
  | .nil, .nil => true
  | .nil, _ => false
  | .bool a, .bool b => a == b
  | .number a, .number b => a == b
  | .string a, .string b => a == b
  | .clock, .clock => true
  | .function f, .function g => f.ptr == g.ptr
  | .class c, .class d => c.ptr == d.ptr
  | .instance a, .instance b => a == b
  | _, _ => false

/-- `fmt.Sprintf("%g", v)` belongs to the Go library; the digits it prints are not
modelled: Lean's printing of the float stands in their place and shows other digits (the
number 1 is printed as `1` by Go and as `1.000000` here).  No theorem of this development
reads the printed form of a number. -/
def formatG (v : Float) : String :=
  toString v

/-- The function `stringify`.  `*ClockFunction`, `*LoxClass` and `*LoxInstance` have a
`String` method, which `%v` uses.  `*LoxFunction` has none: `%v` prints the fields of
the struct between `&{` and `}`, the two pointers as machine addresses, which are
represented by the identities of the embedding. -/
def stringify (instances : List LoxInstance) : Value → String
  | .nil => "nil"
  | .number v => formatG v
  | .bool b => if b then "true" else "false"
  | .string s => s
  | .clock => "<native fn>"
  | .class c => "<class " ++ c.Name ++ ">"
  | .instance ref =>
    match instances[ref]? with
    | some li => "<" ++ li.Class.Name ++ " instance>"
    | none => "<nil>"
  | .function f =>
    "&\x7b0x" ++ toString f.ptr ++ " 0x" ++ toString f.Closure ++ " " ++
      (if f.IsInitializer then "true" else "false") ++ "\x7d"

def newRuntimeError (token : Token) (message : String) : Err :=
  .RuntimeError token message

/-- The loop `for _, statement := range statements` of `executeBlock` and of
`executeBlockWithReturn`, over the method `execute` given as `exec`. -/
def executeStatements (exec : Stmt → Interpreter → Res Unit) :
    List Stmt → Interpreter → Res Unit
  | [], i => .ok () i
  | statement :: rest, i =>
    (exec statement i).bind fun _ i => executeStatements exec rest i

/-- The deferred `i.environment = previous`, which runs on every way out of the block,
a panic included. -/
def restoreEnvironment {α : Type} (previous : Nat) : Res α → Res α
  | .ok a i => .ok a { i with environment := previous }
  | .err e i => .err e { i with environment := previous }
  | .panic m i => .panic m { i with environment := previous }
  | .outOfFuel => .outOfFuel

/-- The method `executeBlock`, over the method `execute` given as `exec`. -/
def executeBlock (exec : Stmt → Interpreter → Res Unit) (statements : List Stmt)
    (environment : Nat) (i : Interpreter) : Res Unit :=
  let previous := i.environment
  restoreEnvironment previous (executeStatements exec statements { i with environment := environment })

/-- The method `executeBlockWithReturn`, over the method `execute` given as `exec`.  Both
branches of its test for `*Return` return the error; the value it stores through
`returnValue` is one the caller does not read. -/
def executeBlockWithReturn (exec : Stmt → Interpreter → Res Unit) (statements : List Stmt)
    (environment : Nat) (i : Interpreter) : Res Unit :=
  let previous := i.environment
  restoreEnvironment previous (executeStatements exec statements { i with environment := environment })

/-- The loop `for _, argument := range expr.Arguments` of `VisitCallExpr`, over the
method `evaluate` given as `eval`. -/
def evaluateArguments (eval : Expr → Interpreter → Res Value) :
    List Expr → List Value → Interpreter → Res (List Value)
  | [], arguments, i => .ok arguments i
  | argument :: rest, arguments, i =>
    (eval argument i).bind fun argValue i =>
    evaluateArguments eval rest (arguments ++ [argValue]) i

/-- The loop `for i, param := range f.Declaration.Params` of `LoxFunction.Call`;
`arguments[i]` panics when there are fewer arguments than parameters. -/
def defineParams (environment : Nat) : List Token → List Value → Interpreter → Res Unit
  | [], _, i => .ok () i
  | _ :: _, [], i => .panic "index out of range" i
  | param :: params, argument :: arguments, i =>
    defineParams environment params arguments (i.Define environment param.Lexeme argument)

/-- The method `lookUpVariable`, for the node with identity `id`. -/
def lookUpVariable (i : Interpreter) (name : Token) (id : Nat) : Res Value :=
  match Map.get i.locals id with
  | some distance => (GetAt i.envs i.environment distance name.Lexeme).toRes i
  | none => (envGet i.envs (i.envs.length + 1) i.globals name).toRes i

/-- The arithmetic and comparison cases of `VisitBinaryExpr` that need two numbers. -/
def numberOperands (operator : Token) (left right : Value) (f : Float → Float → Out Value) :
    Out Value :=
  match left, right with
  | .number l, .number r => f l r
  | _, _ => .err (newRuntimeError operator "Operands must be numbers.")

/-- The `switch expr.Operator.Type` of `VisitBinaryExpr`. -/
def binaryOp (operator : Token) (left right : Value) : Out Value :=
  match operator.type with
  | .MINUS => numberOperands operator left right fun l r => .ok (.number (l - r))
  | .SLASH => numberOperands operator left right fun l r =>
      if r == 0 then .err (newRuntimeError operator "Division by zero.")
      else .ok (.number (l / r))
  | .STAR => numberOperands operator left right fun l r => .ok (.number (l * r))
  | .PLUS =>
    match left, right with
    | .number l, .number r => .ok (.number (l + r))
    | .string l, .string r => .ok (.string (l ++ r))
    | _, _ => .err (newRuntimeError operator "Operands must be two numbers or two strings.")
  | .GREATER => numberOperands operator left right fun l r => .ok (.bool (decide (r < l)))
  | .GREATER_EQUAL => numberOperands operator left right fun l r => .ok (.bool (decide (r ≤ l)))
  | .LESS => numberOperands operator left right fun l r => .ok (.bool (decide (l < r)))
  | .LESS_EQUAL => numberOperands operator left right fun l r => .ok (.bool (decide (l ≤ r)))
  | .BANG_EQUAL => .ok (.bool (!isEqual left right))
  | .EQUAL_EQUAL => .ok (.bool (isEqual left right))
  | _ => .ok .nil

/-- The `switch expr.Operator.Type` of `VisitUnaryExpr`. -/
def unaryOp (operator : Token) (right : Value) : Out Value :=
  match operator.type with
  | .MINUS =>
    match right with
    | .number n => .ok (.number (-n))
    | _ => .err (newRuntimeError operator "Operand must be a number.")
  | .BANG => .ok (.bool (!isTruthy right))
  | _ => .ok .nil

/-- The methods of the class statement that build the method table:
`for _, method := range stmt.Methods`. -/
def buildMethods (environment : Nat) :
    List FunctionStmt → Map String LoxFunction → Interpreter → Map String LoxFunction × Interpreter
  | [], methods, i => (methods, i)
  | method :: rest, methods, i =>
    let isInitializer := method.Name.Lexeme == "init"
    let function : LoxFunction := ⟨i.nextPtr, method, environment, isInitializer⟩
    buildMethods environment rest (Map.set methods method.Name.Lexeme function)
      { i with nextPtr := i.nextPtr + 1 }

mutual
/-- The method `evaluate`, `expr.Accept(i)`, with the visitor methods for expressions. -/
def evaluate : Nat → Expr → Interpreter → Res Value
  | 0, _, _ => .outOfFuel
  | _ + 1, .nil, i => .panic "invalid memory address or nil pointer dereference" i
  | _ + 1, .Literal value, i => .ok value.toValue i
  | n + 1, .Grouping e, i => evaluate n e i
  | n + 1, .Unary operator right, i =>
    (evaluate n right i).bind fun right i => (unaryOp operator right).toRes i
  | n + 1, .Binary left operator right, i =>
    (evaluate n left i).bind fun left i =>
    (evaluate n right i).bind fun right i =>
    (binaryOp operator left right).toRes i
  | _ + 1, .Variable v, i => lookUpVariable i v.Name v.id
  | n + 1, .Assign id name value, i =>
    (evaluate n value i).bind fun value i =>
    let res := match Map.get i.locals id with
      | some distance => AssignAt i.envs i.environment distance name value
      | none => envAssign i.envs (i.envs.length + 1) i.globals name value
    match res with
    | .ok envs => .ok value { i with envs := envs }
    | .err e => .err e i
    | .panic m => .panic m i
    | .outOfFuel => .outOfFuel
  | n + 1, .Logical left operator right, i =>
    (evaluate n left i).bind fun left i =>
    if operator.type = TokenType.OR then
      if isTruthy left then .ok left i else evaluate n right i
    else
      if !isTruthy left then .ok left i else evaluate n right i
  | n + 1, .Call callee paren arguments, i =>
    (evaluate n callee i).bind fun callee i =>
    (evaluateArguments (evaluate n) arguments [] i).bind fun arguments i =>
    match callee with
    | .clock =>
      if arguments.length ≠ 0 then
        .err (.RuntimeError paren ("Expected 0 arguments but got " ++
          toString arguments.length ++ ".")) i
      else .ok (.number (i.clock i.ticks)) { i with ticks := i.ticks + 1 }
    | .function f =>
      if arguments.length ≠ f.Arity then
        .err (.RuntimeError paren ("Expected " ++ toString f.Arity ++ " arguments but got " ++
          toString arguments.length ++ ".")) i
      else callFunction n f arguments i
    | .class c =>
      if arguments.length ≠ c.Arity then
        .err (.RuntimeError paren ("Expected " ++ toString c.Arity ++ " arguments but got " ++
          toString arguments.length ++ ".")) i
      else callClass n c arguments i
    | _ => .err (.RuntimeError paren "Can only call functions and classes.") i
  | n + 1, .Get object name, i =>
    (evaluate n object i).bind fun object i =>
    match object with
    | .instance ref => instanceGet ref name i
    | _ => .err (.RuntimeError name "Only instances have properties.") i
  | n + 1, .Set object name value, i =>
    (evaluate n object i).bind fun object i =>
    match object with
    | .instance ref =>
      (evaluate n value i).bind fun value i => .ok value (instanceSet ref name value i)
    | _ => .err (.RuntimeError name "Only instances have fields.") i
  | _ + 1, .This id keyword, i => lookUpVariable i keyword id
  | _ + 1, .Super id _ method, i =>
    match Map.get i.locals id with
    | none => .err (.errorString "Undefined 'super' expression.") i
    | some distance =>
      (GetAt i.envs i.environment distance "super").toRes i |>.bind fun superclassInterface i =>
      match superclassInterface with
      | .class superclass =>
        -- `distance-1` is -1 for distance 0, and `ancestor` makes no hop for it either
        (GetAt i.envs i.environment (distance - 1) "this").toRes i |>.bind fun objectInterface i =>
        match objectInterface with
        | .instance object =>
          match superclass.findMethod method.Lexeme with
          | none =>
            .err (.RuntimeError method ("Undefined property '" ++ method.Lexeme ++ "'.")) i
          | some m =>
            let (bound, i) := m.bind object i
            .ok (.function bound) i
        | _ => .panic "interface conversion: interface {} is not *interpreter.LoxInstance" i
      | _ => .panic "interface conversion: interface {} is not *interpreter.LoxClass" i

/-- The method `execute`, `stmt.Accept(i)`, with the visitor methods for statements. -/
def execute : Nat → Stmt → Interpreter → Res Unit
  | 0, _, _ => .outOfFuel
  | _ + 1, .nil, i => .panic "invalid memory address or nil pointer dereference" i
  | n + 1, .ExpressionStmt e, i => (evaluate n e i).bind fun _ i => .ok () i
  | n + 1, .PrintStmt e, i =>
    (evaluate n e i).bind fun value i =>
    .ok () { i with stdout := i.stdout ++ [stringify i.instances value] }
  | n + 1, .VarStmt name initializer, i =>
    (if initializer.isNil then .ok Value.nil i else evaluate n initializer i).bind fun value i =>
    .ok () (i.Define i.environment name.Lexeme value)
  | n + 1, .BlockStmt statements, i =>
    let (environment, i) := NewEnvironment i (some i.environment)
    executeBlock (execute n) statements environment i
  | n + 1, .IfStmt condition thenBranch elseBranch, i =>
    (evaluate n condition i).bind fun conditionValue i =>
    if isTruthy conditionValue then execute n thenBranch i
    else if !elseBranch.isNil then execute n elseBranch i
    else .ok () i
  | n + 1, .WhileStmt condition body, i => whileLoop n condition body i
  | _ + 1, .Function stmt, i =>
    let function : LoxFunction := ⟨i.nextPtr, stmt, i.environment, false⟩
    let i := { i with nextPtr := i.nextPtr + 1 }
    .ok () (i.Define i.environment stmt.Name.Lexeme (.function function))
  | n + 1, .ReturnStmt _ value, i =>
    (if value.isNil then .ok Value.nil i else evaluate n value i).bind fun value i =>
    .err (.Return value) i
  | n + 1, .ClassStmt name superclassExpr methods, i =>
    (match superclassExpr with
      | some sc =>
        (evaluate n (.Variable sc) i).bind fun v i =>
        match v with
        | .class c => Res.ok (some c) i
        | _ => Res.err (.RuntimeError sc.Name "Superclass must be a class.") i
      | none => Res.ok none i).bind fun superclass i =>
    let i := i.Define i.environment name.Lexeme .nil
    let i := match superclass with
      | some c =>
        let (environment, i) := NewEnvironment i (some i.environment)
        let i := { i with environment := environment }
        i.Define i.environment "super" (.class c)
      | none => i
    let (table, i) := buildMethods i.environment methods [] i
    let class_ := LoxClass.mk i.nextPtr name.Lexeme table superclass
    let i := { i with nextPtr := i.nextPtr + 1 }
    (match superclass with
      | some _ =>
        match i.envs[i.environment]? with
        | none => Res.panic "invalid memory address or nil pointer dereference" i
        | some fr =>
          match fr.Enclosing with
          | some up => Res.ok () { i with environment := up }
          | none => Res.panic "invalid memory address or nil pointer dereference" i
      | none => Res.ok () i).bind fun _ i =>
    match envAssign i.envs (i.envs.length + 1) i.environment name (.class class_) with
    | .ok envs => .ok () { i with envs := envs }
    | .err e => .err e i
    | .panic m => .panic m i
    | .outOfFuel => .outOfFuel

/-- The loop `for { ... }` of `VisitWhileStmt`. -/
def whileLoop : Nat → Expr → Stmt → Interpreter → Res Unit
  | 0, _, _, _ => .outOfFuel
  | n + 1, condition, body, i =>
    (evaluate n condition i).bind fun conditionValue i =>
    if !isTruthy conditionValue then .ok () i
    else (execute n body i).bind fun _ i => whileLoop n condition body i

/-- The method `LoxFunction.Call`. -/
def callFunction : Nat → LoxFunction → List Value → Interpreter → Res Value
  | 0, _, _, _ => .outOfFuel
  | n + 1, f, arguments, i =>
    let (environment, i) := NewEnvironment i (some f.Closure)
    (defineParams environment f.Declaration.Params arguments i).bind fun _ i =>
    match executeBlockWithReturn (execute n) f.Declaration.Body environment i with
    | .err (.Return returnValue) i =>
      if f.IsInitializer then (GetAt i.envs f.Closure 0 "this").toRes i
      else .ok returnValue i
    | .err e i => .err e i
    | .ok _ i =>
      if f.IsInitializer then (GetAt i.envs f.Closure 0 "this").toRes i
      else .ok .nil i
    | .panic m i => .panic m i
    | .outOfFuel => .outOfFuel

/-- The method `LoxClass.Call`: what the call of the initializer returns, its error
included, is dropped. -/
def callClass : Nat → LoxClass → List Value → Interpreter → Res Value
  | 0, _, _, _ => .outOfFuel
  | n + 1, c, arguments, i =>
    let (instance_, i) := NewLoxInstance c i
    match c.findMethod "init" with
    | some initializer =>
      let (bound, i) := initializer.bind instance_ i
      match callFunction n bound arguments i with
      | .ok _ i => .ok (.instance instance_) i
      | .err _ i => .ok (.instance instance_) i
      | .panic m i => .panic m i
      | .outOfFuel => .outOfFuel
    | none => .ok (.instance instance_) i
end

/-- `NewInterpreter()`: the global environment with the native function `clock`. -/
def NewInterpreter (errors : Errors) (clock : Nat → Float) : Interpreter :=
  let i : Interpreter :=
    { environment := 0, globals := 0, locals := [], envs := [⟨none, []⟩], instances := [],
      nextPtr := 0, stdout := [], errors := errors, clock := clock, ticks := 0 }
  i.Define i.globals "clock" .clock

/-- The method `Interpreter.Resolve`. -/
def Interpreter.Resolve (i : Interpreter) (id : Nat) (depth : Nat) : Interpreter :=
  { i with locals := Map.set i.locals id depth }

/-- The loop of `Interpret`, over the method `execute` given as `exec`: only an error
that is a `*RuntimeError` is reported and ends the loop. -/
def interpretLoop (exec : Stmt → Interpreter → Res Unit) :
    List Stmt → Interpreter → Res Unit
  | [], i => .ok () i
  | statement :: rest, i =>
    match exec statement i with
    | .ok _ i => interpretLoop exec rest i
    | .err (.RuntimeError token message) i =>
      .err (.RuntimeError token message)
        { i with errors := ReportRuntimeError i.errors token.Line message }
    | .err _ i => interpretLoop exec rest i
    | .panic m i => .panic m i
    | .outOfFuel => .outOfFuel

/-- The method `Interpret`, run with `fuel`: the error it returns (`none` for nil) and
the state it leaves, or `none` when the fuel does not suffice.  Its deferred function
recovers from every panic, after which `Interpret` returns nil. -/
def Interpret (fuel : Nat) (i : Interpreter) (statements : List Stmt) :
    Option (Option Err × Interpreter) :=
  match interpretLoop (execute fuel) statements i with
  | .ok _ i => some (none, i)
  | .err e i => some (some e, i)
  | .panic _ i => some (none, i)
  | .outOfFuel => none

/-! ## package resolver -/

inductive ClassType where
  | ClassTypeNone | ClassTypeClass | ClassTypeSubclass
  deriving Repr, DecidableEq

inductive FunctionType where
  | FunctionTypeNone | FunctionTypeFunction | FunctionTypeInitializer | FunctionTypeMethod
  deriving Repr, DecidableEq

/-- The resolver.  `scopes` is the slice used as a stack, innermost scope first: the
head of the list is `scopes[len(scopes)-1]`.  `locals` is the side table
`interpreter.locals`, the only part of the interpreter the resolver touches (through
`Interpreter.Resolve`), keyed by node identity. -/
structure Resolver where
  locals : Map Nat Nat
  scopes : List (Map String Bool)
  currentClass : ClassType
  currentFunction : FunctionType
  errors : Errors
  deriving Repr

/-- What a visitor method of the resolver does: it returns a nil error, returns an
error (the message of a `fmt.Errorf`), or panics.  The resolver's state as the call
left it is kept in the first two cases. -/
inductive RRes where
  | ok (r : Resolver)
  | err (msg : String) (r : Resolver)
  | panic (msg : String)
  deriving Repr

/-- Sequencing of `if err != nil { return nil, err }`. -/
def RRes.andThen (x : RRes) (f : Resolver → RRes) : RRes :=
  match x with
  | .ok r => f r
  | .err m r => .err m r
  | .panic m => .panic m

/-- `NewResolver(interpreter)`, given the interpreter's side table. -/
def NewResolver (locals : Map Nat Nat) (errors : Errors) : Resolver :=
  { locals := locals, scopes := [], currentClass := ClassType.ClassTypeNone,
    currentFunction := FunctionType.FunctionTypeNone, errors := errors }

namespace Resolver

def beginScope (r : Resolver) : Resolver :=
  { r with scopes := [] :: r.scopes }

/-- The method `endScope`; re-slicing an empty slice to length -1 panics. -/
def endScope (r : Resolver) : RRes :=
  match r.scopes with
  | [] => .panic "slice bounds out of range"
  | _ :: rest => .ok { r with scopes := rest }

/-- The method `declare`. -/
def declare (r : Resolver) (name : Token) : RRes :=
  match r.scopes with
  | [] => .ok r
  | scope :: rest =>
    match Map.get scope name.Lexeme with
    | some _ => .err "Already a variable with this name in this scope." r
    | none => .ok { r with scopes := Map.set scope name.Lexeme false :: rest }

/-- The method `define`. -/
def define (r : Resolver) (name : Token) : Resolver :=
  match r.scopes with
  | [] => r
  | scope :: rest => { r with scopes := Map.set scope name.Lexeme true :: rest }

/-- The assignment `r.scopes[len(r.scopes)-1][key] = true`, which panics on an empty stack. -/
def setTop (r : Resolver) (key : String) : RRes :=
  match r.scopes with
  | [] => .panic "index out of range"
  | scope :: rest => .ok { r with scopes := Map.set scope key true :: rest }

/-- The loop of `resolveLocal` over the scopes from the innermost outwards; `depth` is
`len(r.scopes)-1-i`. -/
def resolveLocalLoop (r : Resolver) (id : Nat) (name : Token) : List (Map String Bool) → Nat →
    Resolver
  | [], _ => r
  | scope :: rest, depth =>
    match Map.get scope name.Lexeme with
    | some isDeclared =>
      let r1 := if !isDeclared then
          { r with
            errors := Error r.errors name.Line "Can't read local variable in its own initializer." }
        else r
      { r1 with locals := Map.set r1.locals id depth }
    | none => resolveLocalLoop r id name rest (depth + 1)

/-- The method `resolveLocal`, for the node with identity `id`. -/
def resolveLocal (r : Resolver) (id : Nat) (name : Token) : Resolver :=
  resolveLocalLoop r id name r.scopes 0

/-- The method `VisitVariableExpr`. -/
def VisitVariableExpr (r : Resolver) (v : Variable) : RRes :=
  match r.scopes with
  | scope :: _ =>
    match Map.get scope v.Name.Lexeme with
    | some false =>
      .err ("Cannot read local variable '" ++ v.Name.Lexeme ++ "' in its own initializer.") r
    | _ => .ok (r.resolveLocal v.id v.Name)
  | [] => .ok (r.resolveLocal v.id v.Name)

/-- The method `VisitThisExpr`. -/
def VisitThisExpr (r : Resolver) (id : Nat) (keyword : Token) : RRes :=
  if r.currentClass = ClassType.ClassTypeNone then
    .err "Can't use 'this' outside of a class." r
  else .ok (r.resolveLocal id keyword)

/-- The method `VisitSuperExpr`. -/
def VisitSuperExpr (r : Resolver) (id : Nat) (keyword : Token) : RRes :=
  if r.currentClass = ClassType.ClassTypeNone then
    .err "Can't use 'super' outside of a class." r
  else if r.currentClass ≠ ClassType.ClassTypeSubclass then
    .err "Can't use 'super' in a class with no superclass." r
  else .ok (r.resolveLocal id keyword)

mutual
/-- The method `resolveExpr`, `expr.Accept(r)`, with the visitor methods for
expressions; calling `Accept` on a nil interface panics. -/
def resolveExpr : Expr → Resolver → RRes
  | .nil, _ => .panic "invalid memory address or nil pointer dereference"
  | .Binary l _ rt, r => (resolveExpr l r).andThen fun r => resolveExpr rt r
  | .Grouping e, r => resolveExpr e r
  | .Literal _, r => .ok r
  | .Unary _ rt, r => resolveExpr rt r
  | .Variable v, r => r.VisitVariableExpr v
  | .Assign id name value, r =>
    (resolveExpr value r).andThen fun r => .ok (r.resolveLocal id name)
  | .Logical l _ rt, r => (resolveExpr l r).andThen fun r => resolveExpr rt r
  | .Call callee _ args, r => (resolveExpr callee r).andThen fun r => resolveArguments args r
  | .Get obj _, r => resolveExpr obj r
  | .Set obj _ value, r => (resolveExpr value r).andThen fun r => resolveExpr obj r
  | .This id kw, r => r.VisitThisExpr id kw
  | .Super id kw _, r => r.VisitSuperExpr id kw
/-- The loop `for _, arg := range expr.Arguments` of `VisitCallExpr`. -/
def resolveArguments : List Expr → Resolver → RRes
  | [], r => .ok r
  | arg :: rest, r => (resolveExpr arg r).andThen fun r => resolveArguments rest r
end

/-- The statement `r.declare(stmt.Name)` of `VisitClassStmt`, which drops the error that
`declare` may return. -/
def declareDroppingError (r : Resolver) (name : Token) : Resolver :=
  match r.declare name with
  | .ok r1 => r1
  | .err _ r1 => r1
  | .panic _ => r

/-- The part of `VisitClassStmt` before the loop over the methods. -/
def beginClass (r : Resolver) (name : Token) (superclass : Option Variable) : RRes :=
  let r := { r with currentClass := ClassType.ClassTypeClass }
  let r := (r.declareDroppingError name).define name
  (match superclass with
    | some sc =>
      if name.Lexeme = sc.Name.Lexeme then RRes.err "A class cannot inherit from itself." r
      else
        (resolveExpr (.Variable sc) { r with currentClass := ClassType.ClassTypeSubclass }).andThen
          fun r => r.beginScope.setTop "super"
    | none => RRes.ok r).andThen fun r =>
  r.beginScope.setTop "this"

/-- The part of `VisitClassStmt` after the loop over the methods. -/
def endClass (r : Resolver) (superclass : Option Variable) (enclosingClass : ClassType) : RRes :=
  r.endScope.andThen fun r =>
  (match superclass with
    | some _ => r.endScope
    | none => RRes.ok r).andThen fun r =>
  .ok { r with currentClass := enclosingClass }

/-- The loop over the parameters in `resolveFunction`. -/
def declareParams : List Token → Resolver → RRes
  | [], r => .ok r
  | param :: rest, r => (r.declare param).andThen fun r => declareParams rest (r.define param)

mutual
/-- The method `resolveStmt`, `stmt.Accept(r)`, with the visitor methods for statements. -/
def resolveStmt : Stmt → Resolver → RRes
  | .nil, _ => .panic "invalid memory address or nil pointer dereference"
  | .ExpressionStmt e, r => resolveExpr e r
  | .PrintStmt e, r => resolveExpr e r
  | .VarStmt name init, r =>
    (r.declare name).andThen fun r =>
    (if init.isNil then .ok r else resolveExpr init r).andThen fun r =>
    .ok (r.define name)
  | .BlockStmt stmts, r =>
    (resolveStatements stmts r.beginScope).andThen fun r => r.endScope
  | .IfStmt cond thenBranch elseBranch, r =>
    (resolveExpr cond r).andThen fun r =>
    (resolveStmt thenBranch r).andThen fun r =>
    match elseBranch with
    | .nil => .ok r
    | s => resolveStmt s r
  | .WhileStmt cond body, r =>
    (resolveExpr cond r).andThen fun r => resolveStmt body r
  | .Function f, r =>
    (r.declare f.Name).andThen fun r =>
    resolveFunction f FunctionType.FunctionTypeFunction (r.define f.Name)
  | .ReturnStmt _ value, r =>
    if r.currentFunction = FunctionType.FunctionTypeNone then
      .err "Can't return from top-level code." r
    else if r.currentFunction = FunctionType.FunctionTypeInitializer ∧ !value.isNil then
      .err "Can't return a value from an initializer." r
    else if !value.isNil then resolveExpr value r
    else .ok r
  | .ClassStmt name superclass methods, r =>
    let enclosingClass := r.currentClass
    (r.beginClass name superclass).andThen fun r =>
    (resolveMethods methods r).andThen fun r =>
    r.endClass superclass enclosingClass
/-- The method `resolveStatements`. -/
def resolveStatements : List Stmt → Resolver → RRes
  | [], r => .ok r
  | stmt :: rest, r => (resolveStmt stmt r).andThen fun r => resolveStatements rest r
/-- The method `resolveFunction`. -/
def resolveFunction : FunctionStmt → FunctionType → Resolver → RRes
  | .mk _ params body, functionType, r =>
    let enclosingFunction := r.currentFunction
    let r := { r with currentFunction := functionType }
    (declareParams params r.beginScope).andThen fun r =>
    (resolveStatements body r).andThen fun r =>
    r.endScope.andThen fun r =>
    .ok { r with currentFunction := enclosingFunction }
/-- The loop `for _, method := range stmt.Methods` of `VisitClassStmt`. -/
def resolveMethods : List FunctionStmt → Resolver → RRes
  | [], r => .ok r
  | method :: rest, r =>
    let declaration :=
      if method.Name.Lexeme = "init" then FunctionType.FunctionTypeInitializer
      else FunctionType.FunctionTypeMethod
    (resolveFunction method declaration r).andThen fun r => resolveMethods rest r
end

/-- The method `Resolve`: the error of `resolveStatements`, if any, is reported through
`errors.ReportResolverError` and returned. -/
def Resolve (r : Resolver) (statements : List Stmt) : RRes :=
  match resolveStatements statements r with
  | .err msg r => .err msg { r with errors := ReportResolverError r.errors msg }
  | res => res

end Resolver

/-! ## Reaching a return statement inside a function body -/

mutual
/-- `Unwinds n s i v j`: executing the statement `s` with fuel `n` from the state `i`
executes a return statement that carries the value `v`, leaving the state `j`; the
return statement is `s` itself or is nested in `s` inside blocks, branches of `if` and
bodies of `while`, in the first statement of each block that does not complete. -/
inductive Unwinds : Nat → Stmt → Interpreter → Value → Interpreter → Prop where
  | returnValue {n kw e i v j} :
      e.isNil = false → evaluate n e i = Res.ok v j →
      Unwinds (n + 1) (.ReturnStmt kw e) i v j
  | returnBare {n kw i} : Unwinds (n + 1) (.ReturnStmt kw .nil) i .nil i
  | block {n pre s post i i1 v j} :
      executeStatements (execute n) pre
        { i with envs := i.envs ++ [⟨some i.environment, []⟩], environment := i.envs.length } =
          Res.ok () i1 →
      Unwinds n s i1 v j →
      Unwinds (n + 1) (.BlockStmt (pre ++ s :: post)) i v { j with environment := i.environment }
  | ifThen {n c th el i cv i1 v j} :
      evaluate n c i = Res.ok cv i1 → isTruthy cv = true → Unwinds n th i1 v j →
      Unwinds (n + 1) (.IfStmt c th el) i v j
  | ifElse {n c th el i cv i1 v j} :
      evaluate n c i = Res.ok cv i1 → isTruthy cv = false → el.isNil = false →
      Unwinds n el i1 v j →
      Unwinds (n + 1) (.IfStmt c th el) i v j
  | whileBody {n c b i v j} :
      UnwindsLoop n c b i v j → Unwinds (n + 1) (.WhileStmt c b) i v j
/-- The same for the loop of a `while` statement: the return is executed in the
current iteration, or in a later one after the body completed. -/
inductive UnwindsLoop : Nat → Expr → Stmt → Interpreter → Value → Interpreter → Prop where
  | now {n c b i cv i1 v j} :
      evaluate n c i = Res.ok cv i1 → isTruthy cv = true → Unwinds n b i1 v j →
      UnwindsLoop (n + 1) c b i v j
  | later {n c b i cv i1 i2 v j} :
      evaluate n c i = Res.ok cv i1 → isTruthy cv = true → execute n b i1 = Res.ok () i2 →
      UnwindsLoop n c b i2 v j →
      UnwindsLoop (n + 1) c b i v j
end

/-! ## Where the resolver is when it visits a statement -/

/-- A construct of the program that encloses a statement and opens scopes in the
resolver: a block, a function declaration, a method of a class (with its name), and
a class body (with whether the class declares a superclass). -/
inductive Frame where
  | block
  | function
  | method (name : String)
  | classBody (hasSuperclass : Bool)
  deriving Repr, DecidableEq

/-- The kind of function that `resolveFunction` is given for a method of this name. -/
def methodType (name : String) : FunctionType :=
  if name = "init" then FunctionType.FunctionTypeInitializer else FunctionType.FunctionTypeMethod

/-- The kind of the nearest function or method among the enclosing constructs `path`
(outermost first), `outer` when there is none. -/
def enclosingFunction : List Frame → FunctionType → FunctionType
  | [], outer => outer
  | Frame.function :: path, _ => enclosingFunction path FunctionType.FunctionTypeFunction
  | Frame.method name :: path, _ => enclosingFunction path (methodType name)
  | _ :: path, outer => enclosingFunction path outer

/-- The kind of the nearest class body among the enclosing constructs `path`
(outermost first), `outer` when there is none. -/
def enclosingClass : List Frame → ClassType → ClassType
  | [], outer => outer
  | Frame.classBody true :: path, _ => enclosingClass path ClassType.ClassTypeSubclass
  | Frame.classBody false :: path, _ => enclosingClass path ClassType.ClassTypeClass
  | _ :: path, outer => enclosingClass path outer

/-- The number of scopes that the enclosing constructs `path` open. -/
def scopesOpened : List Frame → Nat
  | [] => 0
  | Frame.classBody true :: path => 2 + scopesOpened path
  | _ :: path => 1 + scopesOpened path

/-- What the resolver can be called on: a statement (`resolveStmt`), a list of
statements (`resolveStatements`), a function with the kind it is resolved as
(`resolveFunction`), and the methods of a class (the loop of `VisitClassStmt`). -/
inductive Node where
  | stmt (s : Stmt)
  | stmts (statements : List Stmt)
  | function (f : FunctionStmt) (functionType : FunctionType)
  | methods (ms : List FunctionStmt)

/-- The call of the resolver on a node. -/
def Node.resolve : Node → Resolver → RRes
  | .stmt s, r => Resolver.resolveStmt s r
  | .stmts statements, r => Resolver.resolveStatements statements r
  | .function f functionType, r => Resolver.resolveFunction f functionType r
  | .methods ms, r => Resolver.resolveMethods ms r

/-- `Reaches path r node r' t`: while the resolver runs on `node` from the state `r`,
every step before it having returned no error, it calls `resolveStmt t` in the state
`r'`, where `t` is a statement of `node` nested under the constructs `path` (outermost
first). -/
inductive Reaches : List Frame → Resolver → Node → Resolver → Stmt → Prop where
  | here (r : Resolver) (s : Stmt) : Reaches [] r (.stmt s) r s
  | block {path r ss r' t} :
      Reaches path r.beginScope (.stmts ss) r' t →
      Reaches (Frame.block :: path) r (.stmt (.BlockStmt ss)) r' t
  | ifThen {path r c th el r1 r' t} :
      Resolver.resolveExpr c r = .ok r1 → Reaches path r1 (.stmt th) r' t →
      Reaches path r (.stmt (.IfStmt c th el)) r' t
  | ifElse {path r c th el r1 r2 r' t} :
      Resolver.resolveExpr c r = .ok r1 → Resolver.resolveStmt th r1 = .ok r2 →
      el.isNil = false → Reaches path r2 (.stmt el) r' t →
      Reaches path r (.stmt (.IfStmt c th el)) r' t
  | whileBody {path r c b r1 r' t} :
      Resolver.resolveExpr c r = .ok r1 → Reaches path r1 (.stmt b) r' t →
      Reaches path r (.stmt (.WhileStmt c b)) r' t
  | functionBody {path r f r1 r' t} :
      r.declare f.Name = .ok r1 →
      Reaches path (r1.define f.Name) (.function f FunctionType.FunctionTypeFunction) r' t →
      Reaches (Frame.function :: path) r (.stmt (.Function f)) r' t
  | classBody {path r name sc ms r1 r' t} :
      r.beginClass name sc = .ok r1 → Reaches path r1 (.methods ms) r' t →
      Reaches (Frame.classBody sc.isSome :: path) r (.stmt (.ClassStmt name sc ms)) r' t
  | head {path r s ss r' t} :
      Reaches path r (.stmt s) r' t → Reaches path r (.stmts (s :: ss)) r' t
  | tail {path r s ss r1 r' t} :
      Resolver.resolveStmt s r = .ok r1 → Reaches path r1 (.stmts ss) r' t →
      Reaches path r (.stmts (s :: ss)) r' t
  | body {path r name params body functionType r1 r' t} :
      Resolver.declareParams params
        { r with currentFunction := functionType }.beginScope = .ok r1 →
      Reaches path r1 (.stmts body) r' t →
      Reaches path r (.function (.mk name params body) functionType) r' t
  | method {path r m ms r' t} :
      Reaches path r (.function m (methodType m.Name.Lexeme)) r' t →
      Reaches (Frame.method m.Name.Lexeme :: path) r (.methods (m :: ms)) r' t
  | nextMethod {path r m ms r1 r' t} :
      Resolver.resolveFunction m (methodType m.Name.Lexeme) r = .ok r1 →
      Reaches path r1 (.methods ms) r' t →
      Reaches path r (.methods (m :: ms)) r' t

/-- `Reads name e`: the expression `e` contains a `Variable` node that reads `name`. -/
inductive Reads (name : String) : Expr → Prop where
  | read (v : Variable) : v.Name.Lexeme = name → Reads name (.Variable v)
  | binaryLeft {l op r} : Reads name l → Reads name (.Binary l op r)
  | binaryRight {l op r} : Reads name r → Reads name (.Binary l op r)
  | grouping {e} : Reads name e → Reads name (.Grouping e)
  | unary {op r} : Reads name r → Reads name (.Unary op r)
  | assign {id n value} : Reads name value → Reads name (.Assign id n value)
  | logicalLeft {l op r} : Reads name l → Reads name (.Logical l op r)
  | logicalRight {l op r} : Reads name r → Reads name (.Logical l op r)
  | callee {c paren args} : Reads name c → Reads name (.Call c paren args)
  | argument {c paren args a} : a ∈ args → Reads name a → Reads name (.Call c paren args)
  | getObject {obj n} : Reads name obj → Reads name (.Get obj n)
  | setObject {obj n value} : Reads name obj → Reads name (.Set obj n value)
  | setValue {obj n value} : Reads name value → Reads name (.Set obj n value)

mutual
/-- The expression has no nil sub-expression, as every expression that the parser
builds without reporting an error. -/
def Expr.noNil : Expr → Bool
  | .nil => false
  | .Binary l _ r => l.noNil && r.noNil
  | .Grouping e => e.noNil
  | .Literal _ => true
  | .Unary _ r => r.noNil
  | .Variable _ => true
  | .Assign _ _ value => value.noNil
  | .Logical l _ r => l.noNil && r.noNil
  | .Call callee _ args => callee.noNil && Expr.noNilList args
  | .Get obj _ => obj.noNil
  | .Set obj _ value => obj.noNil && value.noNil
  | .This _ _ => true
  | .Super _ _ _ => true
/-- The same for a list of expressions. -/
def Expr.noNilList : List Expr → Bool
  | [] => true
  | e :: es => e.noNil && Expr.noNilList es
end

mutual
/-- The expression contains no `this` and no `super`. -/
def Expr.noThisSuper : Expr → Bool
  | .nil => true
  | .Binary l _ r => l.noThisSuper && r.noThisSuper
  | .Grouping e => e.noThisSuper
  | .Literal _ => true
  | .Unary _ r => r.noThisSuper
  | .Variable _ => true
  | .Assign _ _ value => value.noThisSuper
  | .Logical l _ r => l.noThisSuper && r.noThisSuper
  | .Call callee _ args => callee.noThisSuper && Expr.noThisSuperList args
  | .Get obj _ => obj.noThisSuper
  | .Set obj _ value => obj.noThisSuper && value.noThisSuper
  | .This _ _ => false
  | .Super _ _ _ => false
/-- The same for a list of expressions. -/
def Expr.noThisSuperList : List Expr → Bool
  | [] => true
  | e :: es => e.noThisSuper && Expr.noThisSuperList es
end

/-- The construct is a function declaration or a method. -/
def Frame.isFunction : Frame → Bool
  | .function => true
  | .method _ => true
  | _ => false

/-- The function state in which the resolver enters a node. -/
def Node.functionAt : Node → Resolver → FunctionType
  | .function _ functionType, _ => functionType
  | _, r => r.currentFunction

/-- The depth of the scope stack with which the resolver enters the statements of a node. -/
def Node.depthAt : Node → Resolver → Nat
  | .function _ _, r => r.scopes.length + 1
  | _, r => r.scopes.length

/-- `Occurs s e`: the expression `s` is `e` or a sub-expression of `e`. -/
inductive Occurs (s : Expr) : Expr → Prop where
  | here : Occurs s s
  | binaryLeft {l op r} : Occurs s l → Occurs s (.Binary l op r)
  | binaryRight {l op r} : Occurs s r → Occurs s (.Binary l op r)
  | grouping {e} : Occurs s e → Occurs s (.Grouping e)
  | unary {op r} : Occurs s r → Occurs s (.Unary op r)
  | assign {id n value} : Occurs s value → Occurs s (.Assign id n value)
  | logicalLeft {l op r} : Occurs s l → Occurs s (.Logical l op r)
  | logicalRight {l op r} : Occurs s r → Occurs s (.Logical l op r)
  | callee {c paren args} : Occurs s c → Occurs s (.Call c paren args)
  | argument {c paren args a} : a ∈ args → Occurs s a → Occurs s (.Call c paren args)
  | getObject {obj n} : Occurs s obj → Occurs s (.Get obj n)
  | setObject {obj n value} : Occurs s obj → Occurs s (.Set obj n value)
  | setValue {obj n value} : Occurs s value → Occurs s (.Set obj n value)

/-- The expressions that belong to a statement itself, not to a statement nested in it:
those that the visitor method of the statement hands to `resolveExpr`. -/
def Stmt.ownExprs : Stmt → List Expr
  | .ExpressionStmt e => [e]
  | .PrintStmt e => [e]
  | .VarStmt _ initializer => if initializer.isNil then [] else [initializer]
  | .IfStmt condition _ _ => [condition]
  | .WhileStmt condition _ => [condition]
  | .ReturnStmt _ value => if value.isNil then [] else [value]
  | _ => []

/-- The construct is a class body. -/
def Frame.isClassBody : Frame → Bool
  | .classBody _ => true
  | _ => false

/-- What the scopes of the resolver, innermost first, hold for a name. -/
def Resolver.bindings (r : Resolver) (key : String) : List (Option Bool) :=
  r.scopes.map fun scope => Map.get scope key

mutual
/-- The statement, or a statement or function nested in it, declares the name: as a
variable, a function, a class or a parameter. -/
def Stmt.declares (key : String) : Stmt → Bool
  | .VarStmt name _ => name.Lexeme == key
  | .BlockStmt statements => Stmt.declaresAny key statements
  | .IfStmt _ thenBranch elseBranch => thenBranch.declares key || elseBranch.declares key
  | .WhileStmt _ body => body.declares key
  | .Function f => f.declares key
  | .ClassStmt name _ methods => name.Lexeme == key || FunctionStmt.declaresAny key methods
  | _ => false
/-- The same for a list of statements. -/
def Stmt.declaresAny (key : String) : List Stmt → Bool
  | [] => false
  | s :: rest => s.declares key || Stmt.declaresAny key rest
/-- The same for a function: its name, its parameters and its body. -/
def FunctionStmt.declares (key : String) : FunctionStmt → Bool
  | .mk name params body =>
    name.Lexeme == key || params.any (fun param => param.Lexeme == key) ||
      Stmt.declaresAny key body
/-- The same for the methods of a class. -/
def FunctionStmt.declaresAny (key : String) : List FunctionStmt → Bool
  | [] => false
  | f :: rest => f.declares key || FunctionStmt.declaresAny key rest
end

/-- The same for what the resolver is called on. -/
def Node.declares (key : String) : Node → Bool
  | .stmt s => s.declares key
  | .stmts statements => Stmt.declaresAny key statements
  | .function f _ => f.declares key
  | .methods ms => FunctionStmt.declaresAny key ms

/-- `ThisBelowSuper this super`, for what the scopes (innermost first) hold for `this` and
for `super`: every scope that binds `super` has directly inside it a scope that binds
`this` and not `super`, and the innermost scope does not bind `super`. -/
inductive ThisBelowSuper : List (Option Bool) → List (Option Bool) → Prop where
  | none : ThisBelowSuper [] []
  | scope {t this super} : ThisBelowSuper this super →
      ThisBelowSuper (t :: this) (Option.none :: super)
  | class_ {t this super} : ThisBelowSuper this super →
      ThisBelowSuper (some true :: t :: this) (Option.none :: some true :: super)

/-- `Resolver.Grown declared r r'`: the scopes of `r'` are those of `r`, except that the
innermost one may bind more names, each of them in `declared`. -/
structure Resolver.Grown (declared : String → Bool) (r r' : Resolver) : Prop where
  tail : r'.scopes.tail = r.scopes.tail
  depth : r'.scopes.length = r.scopes.length
  bindings : ∀ key, declared key = false → r'.bindings key = r.bindings key

/-- `VisitsExpr r e r' s`: while the resolver runs on the expression `e` from the state
`r`, every step before it having returned no error, it calls `resolveExpr s` in the state
`r'`; `s` is `e` or one of its sub-expressions. -/
inductive VisitsExpr : Resolver → Expr → Resolver → Expr → Prop where
  | here (r : Resolver) (e : Expr) : VisitsExpr r e r e
  | binaryLeft {r l op rt r' s} : VisitsExpr r l r' s → VisitsExpr r (.Binary l op rt) r' s
  | binaryRight {r l op rt r1 r' s} : Resolver.resolveExpr l r = .ok r1 →
      VisitsExpr r1 rt r' s → VisitsExpr r (.Binary l op rt) r' s
  | grouping {r e r' s} : VisitsExpr r e r' s → VisitsExpr r (.Grouping e) r' s
  | unary {r op rt r' s} : VisitsExpr r rt r' s → VisitsExpr r (.Unary op rt) r' s
  | assign {r id name value r' s} : VisitsExpr r value r' s →
      VisitsExpr r (.Assign id name value) r' s
  | logicalLeft {r l op rt r' s} : VisitsExpr r l r' s → VisitsExpr r (.Logical l op rt) r' s
  | logicalRight {r l op rt r1 r' s} : Resolver.resolveExpr l r = .ok r1 →
      VisitsExpr r1 rt r' s → VisitsExpr r (.Logical l op rt) r' s
  | callee {r c paren args r' s} : VisitsExpr r c r' s → VisitsExpr r (.Call c paren args) r' s
  | argument {r c paren before a after r1 r2 r' s} : Resolver.resolveExpr c r = .ok r1 →
      Resolver.resolveArguments before r1 = .ok r2 → VisitsExpr r2 a r' s →
      VisitsExpr r (.Call c paren (before ++ a :: after)) r' s
  | getObject {r obj name r' s} : VisitsExpr r obj r' s → VisitsExpr r (.Get obj name) r' s
  | setValue {r obj name value r' s} : VisitsExpr r value r' s →
      VisitsExpr r (.Set obj name value) r' s
  | setObject {r obj name value r1 r' s} : Resolver.resolveExpr value r = .ok r1 →
      VisitsExpr r1 obj r' s → VisitsExpr r (.Set obj name value) r' s

/-- `StmtVisits r t r' e`: the visitor method of the statement `t`, called in the state
`r`, hands the expression `e` to `resolveExpr` in the state `r'`. -/
inductive StmtVisits : Resolver → Stmt → Resolver → Expr → Prop where
  | expression (r : Resolver) (e : Expr) : StmtVisits r (.ExpressionStmt e) r e
  | print (r : Resolver) (e : Expr) : StmtVisits r (.PrintStmt e) r e
  | var {r name init r1} : r.declare name = .ok r1 → init.isNil = false →
      StmtVisits r (.VarStmt name init) r1 init
  | ifCondition (r : Resolver) (c : Expr) (th el : Stmt) : StmtVisits r (.IfStmt c th el) r c
  | whileCondition (r : Resolver) (c : Expr) (b : Stmt) : StmtVisits r (.WhileStmt c b) r c
  | returnValue {r kw value} : r.currentFunction ≠ FunctionType.FunctionTypeNone →
      r.currentFunction ≠ FunctionType.FunctionTypeInitializer → value.isNil = false →
      StmtVisits r (.ReturnStmt kw value) r value
  | superclass {r name sc ms} : name.Lexeme ≠ sc.Name.Lexeme →
      StmtVisits r (.ClassStmt name (some sc) ms)
        { (Resolver.declareDroppingError { r with currentClass := ClassType.ClassTypeClass }
            name).define name with currentClass := ClassType.ClassTypeSubclass }
        (.Variable sc)

/-- What the resolver keeps true of its scopes while it runs on a program that declares
neither `this` nor `super`: `ThisBelowSuper`, and inside a class with a superclass some
scope binds `super`. -/
def SuperScopes (r : Resolver) : Prop :=
  ThisBelowSuper (r.bindings "this") (r.bindings "super") ∧
  (r.currentClass = ClassType.ClassTypeSubclass → some true ∈ r.bindings "super")

/-! ## The environment pointer, the lines of tokens, the positions of the parser -/

/-- The call returned, normally or with an error (a runtime error or a return signal),
and left the environment pointer at `environment`; nothing is said of a call that
panicked or of a model that ran out of fuel. -/
def Res.keepsEnvironment {α : Type} (environment : Nat) : Res α → Prop
  | .ok _ i => i.environment = environment
  | .err _ i => i.environment = environment
  | .panic _ _ => True
  | .outOfFuel => True

/-- The line of the position `stop` of a source: 1 plus the number of newline characters
before it. -/
def lineAt (source : List Char) (stop : Nat) : Nat :=
  1 + (source.take stop).count '\n'

/-- The counter `line` of the scanner is the line of its position `current`. -/
def Scanner.lineOk (s : Scanner) : Prop :=
  s.line = lineAt s.source s.current

/-- `TokensAt source start tokens`: the tokens lie in the source from the position
`start` on, one after the other in the order of the list; the lexeme of each is the
text between two positions `lo` and `hi`, and its line is the line of `hi`, the end of
its lexeme. -/
inductive TokensAt (source : List Char) : Nat → List Token → Prop where
  | done (start : Nat) : TokensAt source start []
  | token {start lo hi : Nat} {tok : Token} {rest : List Token} :
      start ≤ lo → lo ≤ hi → hi ≤ source.length →
      tok.Lexeme = String.mk ((source.drop lo).take (hi - lo)) →
      tok.Line = lineAt source hi →
      TokensAt source hi rest → TokensAt source start (tok :: rest)

/-- The scanner moved from `s` to `s'` without adding a token: same source, start and
tokens, `current` moved forward inside the source, and the counter `line` still the line
of `current` if it was. -/
structure Scanner.Moved (s s' : Scanner) : Prop where
  source : s'.source = s.source
  start : s'.start = s.start
  tokens : s'.tokens = s.tokens
  cur : s.current ≤ s'.current
  le : s'.current ≤ s'.source.length
  line : s.lineOk → s'.lineOk

/-- What a call of `scanToken` did, from `s` to `s'`: it moved forward as in
`Scanner.Moved` and added no token, or one token, whose lexeme is the text from `start`
to the new `current` and whose line is the new counter `line`. -/
structure Scanner.Scanned (s s' : Scanner) : Prop where
  source : s'.source = s.source
  cur : s.current ≤ s'.current
  le : s'.current ≤ s'.source.length
  line : s.lineOk → s'.lineOk
  tokens : s'.tokens = s.tokens ∨ ∃ tok : Token, s'.tokens = s.tokens ++ [tok] ∧
    tok.Lexeme = String.mk ((s.source.drop s.start).take (s'.current - s.start)) ∧
    tok.Line = s'.line

/-- The state `p'` is the state `p` moved forward, to a position inside the token list. -/
structure Parser.Within (p p' : Parser) : Prop where
  tokens : p'.tokens = p.tokens
  current : p.current ≤ p'.current
  inside : p'.current < p'.tokens.length

/-- The call returned, a value or an error, without panic and within the fuel, in a
state moved forward inside the token list; with `strict`, a call that returned a value
has consumed at least one token. -/
def PRes.within {α : Type} (p : Parser) (strict : Bool) : PRes α → Prop
  | .ok _ p' => Parser.Within p p' ∧ (strict = true → p.current < p'.current)
  | .err p' => Parser.Within p p'
  | .panic _ => False
  | .outOfFuel => False

/-- The token list ends in an EOF token. -/
def endsInEOF (tokens : List Token) : Prop :=
  ∃ (before : List Token) (eof : Token), tokens = before ++ [eof] ∧ eof.type = TokenType.EOF

/-- The parser is at a position inside a token list that ends in an EOF token. -/
def Parser.ready (p : Parser) : Prop :=
  endsInEOF p.tokens ∧ p.current < p.tokens.length

/-- Fuel that suffices for a method of the parser called in the state `p`: `level` for
the calls it makes before a token is consumed, and 20 for every token not yet consumed. -/
def Parser.fuelFor (level : Nat) (p : Parser) : Nat :=
  level + 20 * (p.tokens.length - p.current)

/-- With fuel `n`, each method for expressions returns from every state that is ready
and for which `n` suffices, in a state moved forward inside the token list. -/
structure Parser.ExprWithin (n : Nat) : Prop where
  primary : ∀ p : Parser, p.ready → p.fuelFor 1 ≤ n → (Parser.primary n p).within p false
  argumentsLoop : ∀ (p : Parser) (arguments : List Expr), p.ready → p.fuelFor 12 ≤ n →
    (Parser.argumentsLoop n arguments p).within p false
  finishCall : ∀ (p : Parser) (callee : Expr), p.ready → p.fuelFor 13 ≤ n →
    (Parser.finishCall n callee p).within p true
  callLoop : ∀ (p : Parser) (expr : Expr), p.ready → p.fuelFor 1 ≤ n →
    (Parser.callLoop n expr p).within p false
  call : ∀ p : Parser, p.ready → p.fuelFor 2 ≤ n → (Parser.call n p).within p false
  unary : ∀ p : Parser, p.ready → p.fuelFor 3 ≤ n → (Parser.unary n p).within p false
  factorLoop : ∀ (p : Parser) (expr : Expr), p.ready → p.fuelFor 1 ≤ n →
    (Parser.factorLoop n expr p).within p false
  factor : ∀ p : Parser, p.ready → p.fuelFor 4 ≤ n → (Parser.factor n p).within p false
  termLoop : ∀ (p : Parser) (expr : Expr), p.ready → p.fuelFor 1 ≤ n →
    (Parser.termLoop n expr p).within p false
  term : ∀ p : Parser, p.ready → p.fuelFor 5 ≤ n → (Parser.term n p).within p false
  comparisonLoop : ∀ (p : Parser) (expr : Expr), p.ready → p.fuelFor 1 ≤ n →
    (Parser.comparisonLoop n expr p).within p false
  comparison : ∀ p : Parser, p.ready → p.fuelFor 6 ≤ n → (Parser.comparison n p).within p false
  equalityLoop : ∀ (p : Parser) (expr : Expr), p.ready → p.fuelFor 1 ≤ n →
    (Parser.equalityLoop n expr p).within p false
  equality : ∀ p : Parser, p.ready → p.fuelFor 7 ≤ n → (Parser.equality n p).within p false
  logic_andLoop : ∀ (p : Parser) (expr : Expr), p.ready → p.fuelFor 1 ≤ n →
    (Parser.logic_andLoop n expr p).within p false
  logic_and : ∀ p : Parser, p.ready → p.fuelFor 8 ≤ n → (Parser.logic_and n p).within p false
  logic_orLoop : ∀ (p : Parser) (expr : Expr), p.ready → p.fuelFor 1 ≤ n →
    (Parser.logic_orLoop n expr p).within p false
  logic_or : ∀ p : Parser, p.ready → p.fuelFor 9 ≤ n → (Parser.logic_or n p).within p false
  assignment : ∀ p : Parser, p.ready → p.fuelFor 10 ≤ n → (Parser.assignment n p).within p false
  expression : ∀ p : Parser, p.ready → p.fuelFor 11 ≤ n → (Parser.expression n p).within p false

/-- The same for the methods for statements and declarations; those that return a
value have consumed a token, except the loops; `block` and its loop, which may call
`synchronize`, are called after a token has been consumed. -/
structure Parser.StmtWithin (n : Nat) : Prop where
  declaration : ∀ p : Parser, p.ready → p.fuelFor 13 ≤ n → (Parser.declaration n p).within p true
  statement : ∀ p : Parser, p.ready → p.fuelFor 12 ≤ n → (Parser.statement n p).within p true
  blockLoop : ∀ (p : Parser) (statements : List Stmt), p.ready → 1 ≤ p.current →
    p.fuelFor 14 ≤ n → (Parser.blockLoop n statements p).within p false
  block : ∀ p : Parser, p.ready → 1 ≤ p.current → p.fuelFor 15 ≤ n →
    (Parser.block n p).within p true
  ifStatement : ∀ p : Parser, p.ready → p.fuelFor 1 ≤ n → (Parser.ifStatement n p).within p true
  whileStatement : ∀ p : Parser, p.ready → p.fuelFor 1 ≤ n →
    (Parser.whileStatement n p).within p true
  forStatement : ∀ p : Parser, p.ready → p.fuelFor 1 ≤ n →
    (Parser.forStatement n p).within p true
  function : ∀ (p : Parser) (kind : String), p.ready → p.fuelFor 1 ≤ n →
    (Parser.function n kind p).within p true
  methodsLoop : ∀ (p : Parser) (methods : List FunctionStmt), p.ready → p.fuelFor 2 ≤ n →
    (Parser.methodsLoop n methods p).within p false
  classDeclaration : ∀ p : Parser, p.ready → p.fuelFor 1 ≤ n →
    (Parser.classDeclaration n p).within p true

/-! ## package main -/

/-- The function `runWithInterpreter`, with `fuel` for `Interpret`. The state of package
`errors` and the standard output are carried by the interpreter.  The expressions of
the Go program are heap objects and the table `locals` of the interpreter, which a
prompt session keeps from line to line, is keyed by them; the embedding keys it by
allocation counters, so the parser of this call starts to count at `nextId`, the number
of expressions allocated by the earlier calls, and the result carries the count after
this call.  `none`: a stage panicked or the fuel did not suffice. -/
def runWithInterpreter (fuel : Nat) (source : String) (interp : Interpreter) (nextId : Nat) :
    Option (Interpreter × Nat) :=
  let errors := { interp.errors with HadError := false, HadRuntimeError := false }
  match (NewScanner source errors).ScanTokens with
  | .error _ => none
  | .ok scanner =>
    if scanner.errors.HadError then some ({ interp with errors := scanner.errors }, nextId)
    else
      let parsed : Option (List Stmt × Parser) :=
        match ({ NewParser scanner.tokens scanner.errors with nextId := nextId }).Parse with
        | .ok statements p => some (statements, p)
        | .err p => some ([], p)
        | .panic _ => none
        | .outOfFuel => none
      match parsed with
      | none => none
      | some (statements, p) =>
        if p.errors.HadError then some ({ interp with errors := p.errors }, p.nextId)
        else
          match (NewResolver interp.locals p.errors).Resolve statements with
          | .panic _ => none
          | .err _ r => some ({ interp with locals := r.locals, errors := r.errors }, p.nextId)
          | .ok r =>
            let interp := { interp with locals := r.locals, errors := r.errors }
            if r.errors.HadError then some (interp, p.nextId)
            else
              match Interpret fuel interp statements with
              | some (_, interp) => some (interp, p.nextId)
              | none => none

/-- What a run of a script shows: the lines on stdout, the lines on stderr and the
two flags of package `errors` (`none` when the run did not finish). -/
def runFile (fuel : Nat) (source : String) : Option (List String × Errors) :=
  (runWithInterpreter fuel source (NewInterpreter Errors.init fun _ => 0) 0).map
    fun r => (r.1.stdout, r.1.errors)

/-! ## Relations between states used in the proofs -/

/-- Progress of the scanner from `s` to `s'`: same source and start, `current` moved
forward inside the source, and only tokens other than EOF were appended. -/
structure Scanner.Le (s s' : Scanner) : Prop where
  source : s'.source = s.source
  start : s'.start = s.start
  cur : s.current ≤ s'.current
  le : s'.current ≤ s'.source.length
  toks : ∃ ex, s'.tokens = s.tokens ++ ex ∧ ∀ t ∈ ex, t.type ≠ TokenType.EOF

/-- The bindings of a frame after the parameters were defined in order. -/
def bindAll : Map String Value → List Token → List Value → Map String Value
  | m, param :: params, argument :: arguments =>
    bindAll (Map.set m param.Lexeme argument) params arguments
  | m, _, _ => m

/-- The scope stack has the same depth and the function and class states are the same. -/
structure Resolver.Same (r r' : Resolver) : Prop where
  depth : r'.scopes.length = r.scopes.length
  fn : r'.currentFunction = r.currentFunction
  cls : r'.currentClass = r.currentClass

/-- An expression resolved without error leaves the scopes and the two states as they were. -/
structure Resolver.Kept (r r' : Resolver) : Prop where
  scopes : r'.scopes = r.scopes
  fn : r'.currentFunction = r.currentFunction
  cls : r'.currentClass = r.currentClass

/-! ## Kinds of values and chains of classes -/

/-- The dynamic type of the contents of an `interface{}`. -/
inductive Kind where
  | nil
  | bool
  | number
  | string
  | clock
  | function
  | klass
  | object
  deriving Repr, DecidableEq

/-- The dynamic type of a value. -/
def Value.kind : Value → Kind
  | .nil => Kind.nil
  | .bool _ => Kind.bool
  | .number _ => Kind.number
  | .string _ => Kind.string
  | .clock => Kind.clock
  | .function _ => Kind.function
  | .class _ => Kind.klass
  | .instance _ => Kind.object

/-- The value can be called: it is a function, a class or the native function. -/
def Value.isCallable : Value → Bool
  | .clock => true
  | .function _ => true
  | .class _ => true
  | _ => false

/-- The class, its superclass, the superclass of that, and so on. -/
def LoxClass.chain : LoxClass → List LoxClass
  | .mk ptr name methods superclass =>
    .mk ptr name methods superclass ::
      (match superclass with
        | some sc => LoxClass.chain sc
        | none => [])

/-! ## Reports of the stages on a source text -/

/-- The token list that `ScanTokens` returns for a source text (empty if it fails). -/
def tokensOf (source : String) : List Token :=
  match (NewScanner source Errors.init).ScanTokens with
  | .ok s => s.tokens
  | .error _ => []

/-- Whether `Parse` returned an error for the tokens of a source text, with the position
it stopped at and the lines it wrote to stderr (`none` when it did not return). -/
def parseReport (source : String) : Option (Bool × Nat × List String) :=
  match (NewParser (tokensOf source) Errors.init).Parse with
  | .ok _ p => some (false, p.current, p.errors.stderr)
  | .err p => some (true, p.current, p.errors.stderr)
  | .panic _ => none
  | .outOfFuel => none

/-- The error that `Resolve` returned for the program of a source text, if any, with
the lines on stderr after it (`none` when the scanner, the parser or the resolver did
not return). -/
def resolveReport (source : String) : Option (Option String × List String) :=
  match (NewParser (tokensOf source) Errors.init).Parse with
  | .ok statements p =>
    match (NewResolver [] p.errors).Resolve statements with
    | .ok r => some (none, r.errors.stderr)
    | .err msg r => some (some msg, r.errors.stderr)
    | .panic _ => none
  | _ => none

/-- The types and lexemes of the tokens that `ScanTokens` returns for a source text, and
the lines it wrote to stderr. -/
def scanReport (source : String) : List (TokenType × String) × List String :=
  match (NewScanner source Errors.init).ScanTokens with
  | .ok s => (s.tokens.map fun t => (t.type, t.Lexeme), s.errors.stderr)
  | .error _ => ([], [])

/-- The text that `AstPrinter.Print` gives for the expression that `expression()` returns
on the tokens of a source text (`none` when `expression()` returns an error), with the
lines written to stderr on the way; `none` when a step does not return. -/
def printParsed (source : String) : Option (Option String × List String) :=
  match (NewScanner source Errors.init).ScanTokens with
  | .error _ => none
  | .ok s =>
    match Parser.expression (20 * s.tokens.length + 20) (NewParser s.tokens s.errors) with
    | .ok e p =>
      match AstPrinter.Print e with
      | .ok text => some (some text, p.errors.stderr)
      | .error _ => none
    | .err p => some (none, p.errors.stderr)
    | .panic _ => none
    | .outOfFuel => none

/-- The reports of `function` and `finishCall` for the entries of a list of which
`count` came before: one for every entry that has 255 or more entries before it, at
the token the entry starts with. -/
def excessReports (message : String) : Nat → List Token → Errors → Errors
  | _, [], e => e
  | count, t :: rest, e =>
    excessReports message (count + 1) rest
      (if count ≥ 255 then ReportParseError e t.Line t.Lexeme (t.type == TokenType.EOF) message
       else e)

/-! ## Lists of tokens that the parser reads -/

/-- `ParamTokens tokens params`: `tokens` are the identifiers `params`, in order, with a
comma between each two. -/
inductive ParamTokens : List Token → List Token → Prop where
  | last (t : Token) : t.type = TokenType.IDENTIFIER → ParamTokens [t] [t]
  | more (t c : Token) (rest params : List Token) :
      t.type = TokenType.IDENTIFIER → c.type = TokenType.COMMA → ParamTokens rest params →
      ParamTokens (t :: c :: rest) (t :: params)

/-- The Variable nodes that the parser makes for the identifiers of a list, when the
first gets the identity `id`. -/
def variablesFrom : Nat → List Token → List Expr
  | _, [] => []
  | id, t :: rest => Expr.Variable ⟨id, t⟩ :: variablesFrom (id + 1) rest

/-- `OperatorChain types operand n p chain p'`: from the state `p`, with the fuel `n`, the
parser reads the operators (of the types `types`) and operands (parsed by `operand`) of
`chain`, in order, and then a token that is no operator of these types, in the state
`p'`. -/
inductive OperatorChain (types : List TokenType) (operand : Nat → Parser → PRes Expr) :
    Nat → Parser → List (Token × Expr) → Parser → Prop where
  | done {n p p'} : Parser.match p types = .ok false p' →
      OperatorChain types operand (n + 1) p [] p'
  | step {n p p1 operator right p2 chain p'} :
      Parser.match p types = .ok true p1 → p1.previous = .ok operator p1 →
      operand n p1 = .ok right p2 → OperatorChain types operand n p2 chain p' →
      OperatorChain types operand (n + 1) p ((operator, right) :: chain) p'

/-! ## The form of a number, in the words of the specification -/

/-- The text has the form of a number: one or more digits, or one or more digits
followed by `.` and one or more digits. -/
def isNumberForm (text : List Char) : Bool :=
  let digits := text.takeWhile isDigit
  let after := text.dropWhile isDigit
  !digits.isEmpty &&
    (after.isEmpty ||
      (after.head? == some '.' && !after.tail.isEmpty && after.tail.all isDigit))

/-- The lexeme that the method `number` takes from the source that starts at its first
digit: the digits, and the `.` with the digits after it when a digit follows the `.`. -/
def numberLexeme (rest : List Char) : List Char :=
  let digits := rest.takeWhile isDigit
  let after := rest.dropWhile isDigit
  if after.head? = some '.' ∧ isDigit (after.tail.headD '\x00') = true then
    digits ++ '.' :: after.tail.takeWhile isDigit
  else digits

/-- The state in which `Resolve` leaves the resolver on the program of a source text: the
error it returned, if any, the function state, the class state and the depth of the
scope stack (`none` when the scanner, the parser or the resolver did not return). -/
def resolveState (source : String) : Option (Option String × FunctionType × ClassType × Nat) :=
  match (NewParser (tokensOf source) Errors.init).Parse with
  | .ok statements p =>
    match (NewResolver [] p.errors).Resolve statements with
    | .ok r => some (none, r.currentFunction, r.currentClass, r.scopes.length)
    | .err msg r => some (some msg, r.currentFunction, r.currentClass, r.scopes.length)
    | .panic _ => none
  | _ => none

/-! ## Sample programs -/

/-- A token of line 1 without literal. -/
def sampleToken (type : TokenType) (lexeme : String) : Token :=
  ⟨type, lexeme, LiteralValue.nil, 1⟩

/-- The function value of `fun f(a, b) { print a; }`, declared in the global
environment. -/
def sampleFunction : LoxFunction :=
  { ptr := 0
    Declaration := FunctionStmt.mk (sampleToken TokenType.IDENTIFIER "f")
      [sampleToken TokenType.IDENTIFIER "a", sampleToken TokenType.IDENTIFIER "b"]
      [Stmt.PrintStmt (Expr.Variable ⟨0, sampleToken TokenType.IDENTIFIER "a"⟩)]
    Closure := 0
    IsInitializer := false }

/-- The statement `if (true) { return "r"; print "x"; }`. -/
def sampleNestedReturn : Stmt :=
  Stmt.IfStmt (Expr.Literal (LiteralValue.bool true))
    (Stmt.BlockStmt ([] ++
      Stmt.ReturnStmt (sampleToken TokenType.RETURN "return")
        (Expr.Literal (LiteralValue.string "r")) ::
      [Stmt.PrintStmt (Expr.Literal (LiteralValue.string "x"))]))
    Stmt.nil

/-- The function value of `fun g() { if (true) { return "r"; print "x"; } print "no"; }`,
declared in the global environment. -/
def sampleReturning : LoxFunction :=
  { ptr := 0
    Declaration := FunctionStmt.mk (sampleToken TokenType.IDENTIFIER "g") []
      ([] ++ sampleNestedReturn :: [Stmt.PrintStmt (Expr.Literal (LiteralValue.string "no"))])
    Closure := 0
    IsInitializer := false }

/-- The interpreter `NewInterpreter()` with no diagnostics and a clock that stands still. -/
def sampleInterpreter : Interpreter :=
  NewInterpreter Errors.init fun _ => 0

/-- The class value of `class A { f(a, b) { print a; } }`. -/
def sampleClass : LoxClass :=
  LoxClass.mk 0 "A" [("f", sampleFunction)] none

/-- The method `init() { <body> }` bound to the instance 0: its closure is the frame 1,
which binds `this`. -/
def sampleInitializer (body : List Stmt) : LoxFunction :=
  { ptr := 5
    Declaration := FunctionStmt.mk (sampleToken TokenType.IDENTIFIER "init") [] body
    Closure := 1
    IsInitializer := true }

/-- A state with one instance of `A`, the instance 0, and the frame 1 that a `bind` to
that instance makes over the global frame. -/
def sampleBoundState : Interpreter :=
  { sampleInterpreter with
    envs := sampleInterpreter.envs ++ [⟨some 0, [("this", Value.instance 0)]⟩]
    instances := [⟨sampleClass, []⟩] }

/-- The parser on the tokens of `nil - true - false`, at the token `current`. -/
def sampleChainParser (current : Nat) : Parser :=
  { NewParser [sampleToken TokenType.NIL "nil", sampleToken TokenType.MINUS "-",
      sampleToken TokenType.TRUE "true", sampleToken TokenType.MINUS "-",
      sampleToken TokenType.FALSE "false", sampleToken TokenType.EOF ""] Errors.init with
    current := current }

/-- The parser on the tokens of `( ; ; ) nil ;`, the rest of the statement `for (;;) nil;`
after `for`, at the token `current`. -/
def sampleForParser (current : Nat) : Parser :=
  { NewParser [sampleToken TokenType.LEFT_PAREN "(", sampleToken TokenType.SEMICOLON ";",
      sampleToken TokenType.SEMICOLON ";", sampleToken TokenType.RIGHT_PAREN ")",
      sampleToken TokenType.NIL "nil", sampleToken TokenType.SEMICOLON ";",
      sampleToken TokenType.EOF ""] Errors.init with
    current := current }

/-- The statement `super.m;`. -/
def sampleSuperStmt : Stmt :=
  Stmt.ExpressionStmt (Expr.Super 1 (sampleToken TokenType.SUPER "super")
    (sampleToken TokenType.IDENTIFIER "m"))

/-- The method `m() { super.m; }`. -/
def sampleSuperMethod : FunctionStmt :=
  FunctionStmt.mk (sampleToken TokenType.IDENTIFIER "m") [] [sampleSuperStmt]

/-- The program `class B < A { m() { super.m; } }`. -/
def sampleSubclass : List Stmt :=
  [Stmt.ClassStmt (sampleToken TokenType.IDENTIFIER "B")
    (some ⟨0, sampleToken TokenType.IDENTIFIER "A"⟩) [sampleSuperMethod]]

/-- The state of the resolver at the methods of `sampleSubclass`. -/
def sampleClassBodyState : Resolver :=
  { locals := [], scopes := [[("this", true)], [("super", true)]],
    currentClass := ClassType.ClassTypeSubclass,
    currentFunction := FunctionType.FunctionTypeNone, errors := Errors.init }

/-- The state of the resolver at the statement `super.m;` of `sampleSubclass`. -/
def sampleMethodBodyState : Resolver :=
  { locals := [], scopes := [[], [("this", true)], [("super", true)]],
    currentClass := ClassType.ClassTypeSubclass,
    currentFunction := FunctionType.FunctionTypeMethod, errors := Errors.init }

/-! ## Recorded distances, scopes and frames -/

/-- What a recorded distance promises for a name: if the side table `locals` holds a
distance for the node, the scope at that distance defines the name. -/
def NodeOk (locals : Map Nat Nat) (scopes : List (Map String Bool)) (id : Nat)
    (name : String) : Prop :=
  ∀ d, Map.get locals id = some d → ∃ scope, scopes[d]? = some scope ∧
    Map.get scope name = some true

/-- What a recorded distance promises for a `super` node: the scope at that distance
defines `super` and the scope one nearer defines `this`. -/
def SuperOk (locals : Map Nat Nat) (scopes : List (Map String Bool)) (id : Nat) : Prop :=
  ∀ d, Map.get locals id = some d → 1 ≤ d ∧
    (∃ scope, scopes[d]? = some scope ∧ Map.get scope "super" = some true) ∧
    (∃ scope, scopes[d - 1]? = some scope ∧ Map.get scope "this" = some true)

/-- A name that a declaration may bind: not one of the reserved words `this` and `super`. -/
def Token.declarable (name : Token) : Prop :=
  name.Lexeme ≠ "this" ∧ name.Lexeme ≠ "super"

/-- The lexeme of an identifier: a letter or underscore followed by letters, digits and
underscores, and no reserved word. -/
def Token.word (t : Token) : Prop :=
  ∃ c cs, t.Lexeme = String.mk (c :: cs) ∧ isAlpha c = true ∧
    (∀ x ∈ cs, isAlphaNumeric x = true) ∧ Map.get keywords t.Lexeme = none

mutual
/-- Every node of the expression that has a recorded distance names a scope of `scopes`
(innermost first) that defines its name, and no assignment names a reserved word. -/
def ScopedExpr (locals : Map Nat Nat) (scopes : List (Map String Bool)) : Expr → Prop
  | .nil => True
  | .Binary l _ r => ScopedExpr locals scopes l ∧ ScopedExpr locals scopes r
  | .Grouping e => ScopedExpr locals scopes e
  | .Literal _ => True
  | .Unary _ r => ScopedExpr locals scopes r
  | .Variable v => NodeOk locals scopes v.id v.Name.Lexeme
  | .Assign id name value =>
    ScopedExpr locals scopes value ∧ NodeOk locals scopes id name.Lexeme ∧ name.declarable
  | .Logical l _ r => ScopedExpr locals scopes l ∧ ScopedExpr locals scopes r
  | .Call callee _ args => ScopedExpr locals scopes callee ∧ ScopedExprs locals scopes args
  | .Get obj _ => ScopedExpr locals scopes obj
  | .Set obj _ value => ScopedExpr locals scopes obj ∧ ScopedExpr locals scopes value
  | .This id kw => NodeOk locals scopes id kw.Lexeme
  | .Super id _ _ => SuperOk locals scopes id
/-- The same for a list of expressions. -/
def ScopedExprs (locals : Map Nat Nat) (scopes : List (Map String Bool)) : List Expr → Prop
  | [] => True
  | e :: rest => ScopedExpr locals scopes e ∧ ScopedExprs locals scopes rest
end

/-- The scopes after a name was defined in the innermost one; nothing is recorded of the
global scope. -/
def defineTop (scopes : List (Map String Bool)) (name : String) : List (Map String Bool) :=
  match scopes with
  | [] => []
  | scope :: rest => Map.set scope name true :: rest

/-- The name that a statement declares in the scope it stands in. -/
def Stmt.declared : Stmt → Option String
  | .VarStmt name _ => some name.Lexeme
  | .Function f => some f.Name.Lexeme
  | .ClassStmt name _ _ => some name.Lexeme
  | _ => none

/-- The scopes after a statement. -/
def scopesAfter (scopes : List (Map String Bool)) (s : Stmt) : List (Map String Bool) :=
  match s.declared with
  | some name => defineTop scopes name
  | none => scopes

/-- The scope of the parameters of a function. -/
def paramScope (params : List Token) : Map String Bool :=
  params.foldl (fun scope param => Map.set scope param.Lexeme true) []

/-- The scopes of the methods of a class declared in `scopes`. -/
def methodScopes (scopes : List (Map String Bool)) (name : String) (hasSuper : Bool) :
    List (Map String Bool) :=
  if hasSuper then [("this", true)] :: [("super", true)] :: defineTop scopes name
  else [("this", true)] :: defineTop scopes name

mutual
/-- Every node of the statement that has a recorded distance names a scope that defines
its name, where the scopes are those that the constructs of the statement open over
`scopes`; the branches of `if` and the body of `while` declare nothing, and no
declaration binds a reserved word. -/
def ScopedStmt (locals : Map Nat Nat) : List (Map String Bool) → Stmt → Prop
  | _, .nil => True
  | scopes, .ExpressionStmt e => ScopedExpr locals scopes e
  | scopes, .PrintStmt e => ScopedExpr locals scopes e
  | scopes, .VarStmt name init => ScopedExpr locals scopes init ∧ name.declarable
  | scopes, .BlockStmt statements => ScopedStmts locals ([] :: scopes) statements
  | scopes, .IfStmt c th el =>
    ScopedExpr locals scopes c ∧ ScopedStmt locals scopes th ∧ th.declared = none ∧
      ScopedStmt locals scopes el ∧ el.declared = none
  | scopes, .WhileStmt c b =>
    ScopedExpr locals scopes c ∧ ScopedStmt locals scopes b ∧ b.declared = none
  | scopes, .Function f =>
    ScopedFun locals (defineTop scopes f.Name.Lexeme) f ∧ f.Name.declarable
  | scopes, .ReturnStmt _ value => ScopedExpr locals scopes value
  | scopes, .ClassStmt name superclass methods =>
    (match superclass with
      | some v => NodeOk locals scopes v.id v.Name.Lexeme
      | none => True) ∧
    ScopedMethods locals (methodScopes scopes name.Lexeme superclass.isSome) methods ∧
    name.declarable
/-- The same for the statements of a list, each in the scopes after those before it. -/
def ScopedStmts (locals : Map Nat Nat) : List (Map String Bool) → List Stmt → Prop
  | _, [] => True
  | scopes, s :: rest =>
    ScopedStmt locals scopes s ∧ ScopedStmts locals (scopesAfter scopes s) rest
/-- The same for the body of a function, under the scope of its parameters. -/
def ScopedFun (locals : Map Nat Nat) : List (Map String Bool) → FunctionStmt → Prop
  | scopes, .mk _ params body =>
    ScopedStmts locals (paramScope params :: scopes) body ∧ ∀ param ∈ params, param.declarable
/-- The same for the methods of a class. -/
def ScopedMethods (locals : Map Nat Nat) : List (Map String Bool) → List FunctionStmt → Prop
  | _, [] => True
  | scopes, m :: rest => ScopedFun locals scopes m ∧ ScopedMethods locals scopes rest
end

/-! ## The trees that the parser builds -/

mutual
/-- The identities of the nodes of an expression that the side table is keyed on. -/
def Expr.ids : Expr → List Nat
  | .Binary l _ r => l.ids ++ r.ids
  | .Grouping e => e.ids
  | .Literal _ => []
  | .Unary _ r => r.ids
  | .Variable v => [v.id]
  | .Assign id _ value => id :: value.ids
  | .Logical l _ r => l.ids ++ r.ids
  | .Call callee _ args => callee.ids ++ Expr.idsAll args
  | .Get obj _ => obj.ids
  | .Set obj _ value => obj.ids ++ value.ids
  | .This id _ => [id]
  | .Super id _ _ => [id]
  | .nil => []
/-- The same for a list of expressions. -/
def Expr.idsAll : List Expr → List Nat
  | [] => []
  | e :: rest => e.ids ++ Expr.idsAll rest
end

mutual
/-- The identities of the nodes of a statement that the side table is keyed on. -/
def Stmt.ids : Stmt → List Nat
  | .ExpressionStmt e => e.ids
  | .PrintStmt e => e.ids
  | .VarStmt _ init => init.ids
  | .BlockStmt statements => Stmt.idsAll statements
  | .IfStmt c th el => c.ids ++ (th.ids ++ el.ids)
  | .WhileStmt c b => c.ids ++ b.ids
  | .Function f => f.ids
  | .ReturnStmt _ value => value.ids
  | .ClassStmt _ superclass methods =>
    (match superclass with
      | some v => [v.id]
      | none => []) ++ FunctionStmt.idsAll methods
  | .nil => []
/-- The same for a list of statements. -/
def Stmt.idsAll : List Stmt → List Nat
  | [] => []
  | s :: rest => s.ids ++ Stmt.idsAll rest
/-- The same for a function. -/
def FunctionStmt.ids : FunctionStmt → List Nat
  | .mk _ _ body => Stmt.idsAll body
/-- The same for the methods of a class. -/
def FunctionStmt.idsAll : List FunctionStmt → List Nat
  | [] => []
  | m :: rest => m.ids ++ FunctionStmt.idsAll rest
end

mutual
/-- The shape of the expressions that the parser builds from the tokens of the scanner:
the name of a variable is an identifier, no assignment names a reserved word, and the
keyword of a `Super` node is the word `super`. -/
def Expr.shaped : Expr → Prop
  | .Binary l _ r => l.shaped ∧ r.shaped
  | .Grouping e => e.shaped
  | .Literal _ => True
  | .Unary _ r => r.shaped
  | .Variable v => v.Name.word
  | .Assign _ name value => name.declarable ∧ value.shaped
  | .Logical l _ r => l.shaped ∧ r.shaped
  | .Call callee _ args => callee.shaped ∧ Expr.shapedAll args
  | .Get obj _ => obj.shaped
  | .Set obj _ value => obj.shaped ∧ value.shaped
  | .This _ _ => True
  | .Super _ keyword _ => keyword.Lexeme = "super"
  | .nil => True
/-- The same for a list of expressions. -/
def Expr.shapedAll : List Expr → Prop
  | [] => True
  | e :: rest => e.shaped ∧ Expr.shapedAll rest
end

mutual
/-- The shape of the statements that the parser builds from the tokens of the scanner:
the branches of `if` and the body of `while` are statements, not declarations, and no
declaration binds a reserved word. -/
def Stmt.shaped : Stmt → Prop
  | .ExpressionStmt e => e.shaped
  | .PrintStmt e => e.shaped
  | .VarStmt name init => name.declarable ∧ init.shaped
  | .BlockStmt statements => Stmt.shapedAll statements
  | .IfStmt c th el =>
    c.shaped ∧ th.shaped ∧ th.declared = none ∧ el.shaped ∧ el.declared = none
  | .WhileStmt c b => c.shaped ∧ b.shaped ∧ b.declared = none
  | .Function f => f.shaped
  | .ReturnStmt _ value => value.shaped
  | .ClassStmt name _ methods => name.declarable ∧ FunctionStmt.shapedAll methods
  | .nil => True
/-- The same for a list of statements. -/
def Stmt.shapedAll : List Stmt → Prop
  | [] => True
  | s :: rest => s.shaped ∧ Stmt.shapedAll rest
/-- The same for a function: its name, its parameters and its body. -/
def FunctionStmt.shaped : FunctionStmt → Prop
  | .mk name params body =>
    name.declarable ∧ (∀ param ∈ params, param.declarable) ∧ Stmt.shapedAll body
/-- The same for the methods of a class. -/
def FunctionStmt.shapedAll : List FunctionStmt → Prop
  | [] => True
  | m :: rest => m.shaped ∧ FunctionStmt.shapedAll rest
end

/-- What the scanner gives the parser in a token: the lexeme of an identifier is a word
that is not reserved, and the lexeme of the keyword `super` is `super`. -/
def Token.scanned (t : Token) : Prop :=
  (t.type = TokenType.IDENTIFIER → t.word) ∧
  (t.type = TokenType.SUPER → t.Lexeme = "super")

/-- The tokens of the parser are tokens of the scanner. -/
def Parser.scanned (p : Parser) : Prop :=
  ∀ t ∈ p.tokens, t.scanned

/-- A tree of the parser built while the allocation counter went from `lo` to `hi`: it has
the shape `shaped`, and the identities `ids` of its nodes are distinct numbers from `lo`
up to, not including, `hi`. -/
def Built (shaped : Prop) (ids : List Nat) (lo hi : Nat) : Prop :=
  lo ≤ hi ∧ shaped ∧ ids.Nodup ∧ ∀ id ∈ ids, lo ≤ id ∧ id < hi

/-- What a method of the parser leaves when it returns, a value or an error: the token
list it had, an allocation counter that is not smaller, and `good` of a value. -/
def PRes.built {α : Type} (p : Parser) (good : α → Parser → Prop) : PRes α → Prop
  | .ok a p' => p'.tokens = p.tokens ∧ p.nextId ≤ p'.nextId ∧ good a p'
  | .err p' => p'.tokens = p.tokens ∧ p.nextId ≤ p'.nextId
  | .panic _ => True
  | .outOfFuel => True

/-- The expression that a method of the parser returns is built between the counter of
the state `p` (or `lo`, for a loop that extends an expression built from `lo`) and the
counter of the state it leaves. -/
def Expr.builtFrom (lo : Nat) (e : Expr) (p' : Parser) : Prop :=
  Built e.shaped e.ids lo p'.nextId

/-- The same for a list of expressions. -/
def Expr.allBuiltFrom (lo : Nat) (arguments : List Expr) (p' : Parser) : Prop :=
  Built (Expr.shapedAll arguments) (Expr.idsAll arguments) lo p'.nextId

/-- The same for a statement. -/
def Stmt.builtFrom (lo : Nat) (s : Stmt) (p' : Parser) : Prop :=
  Built s.shaped s.ids lo p'.nextId

/-- The same for a list of statements. -/
def Stmt.allBuiltFrom (lo : Nat) (statements : List Stmt) (p' : Parser) : Prop :=
  Built (Stmt.shapedAll statements) (Stmt.idsAll statements) lo p'.nextId

/-- The same for a function. -/
def FunctionStmt.builtFrom (lo : Nat) (f : FunctionStmt) (p' : Parser) : Prop :=
  Built f.shaped f.ids lo p'.nextId

/-- The same for the methods of a class. -/
def FunctionStmt.allBuiltFrom (lo : Nat) (methods : List FunctionStmt) (p' : Parser) : Prop :=
  Built (FunctionStmt.shapedAll methods) (FunctionStmt.idsAll methods) lo p'.nextId

/-- With fuel `n`, each method of the parser for expressions, on tokens of the scanner,
returns an expression built between the counters of the two states. -/
structure Parser.ExprBuilt (n : Nat) : Prop where
  primary : ∀ p : Parser, p.scanned → (Parser.primary n p).built p (Expr.builtFrom p.nextId)
  argumentsLoop : ∀ (p : Parser) (arguments : List Expr) (lo : Nat), p.scanned →
    Expr.allBuiltFrom lo arguments p →
    (Parser.argumentsLoop n arguments p).built p (Expr.allBuiltFrom lo)
  finishCall : ∀ (p : Parser) (callee : Expr) (lo : Nat), p.scanned → callee.builtFrom lo p →
    (Parser.finishCall n callee p).built p (Expr.builtFrom lo)
  callLoop : ∀ (p : Parser) (expr : Expr) (lo : Nat), p.scanned → expr.builtFrom lo p →
    (Parser.callLoop n expr p).built p (Expr.builtFrom lo)
  call : ∀ p : Parser, p.scanned → (Parser.call n p).built p (Expr.builtFrom p.nextId)
  unary : ∀ p : Parser, p.scanned → (Parser.unary n p).built p (Expr.builtFrom p.nextId)
  factorLoop : ∀ (p : Parser) (expr : Expr) (lo : Nat), p.scanned → expr.builtFrom lo p →
    (Parser.factorLoop n expr p).built p (Expr.builtFrom lo)
  factor : ∀ p : Parser, p.scanned → (Parser.factor n p).built p (Expr.builtFrom p.nextId)
  termLoop : ∀ (p : Parser) (expr : Expr) (lo : Nat), p.scanned → expr.builtFrom lo p →
    (Parser.termLoop n expr p).built p (Expr.builtFrom lo)
  term : ∀ p : Parser, p.scanned → (Parser.term n p).built p (Expr.builtFrom p.nextId)
  comparisonLoop : ∀ (p : Parser) (expr : Expr) (lo : Nat), p.scanned → expr.builtFrom lo p →
    (Parser.comparisonLoop n expr p).built p (Expr.builtFrom lo)
  comparison : ∀ p : Parser, p.scanned →
    (Parser.comparison n p).built p (Expr.builtFrom p.nextId)
  equalityLoop : ∀ (p : Parser) (expr : Expr) (lo : Nat), p.scanned → expr.builtFrom lo p →
    (Parser.equalityLoop n expr p).built p (Expr.builtFrom lo)
  equality : ∀ p : Parser, p.scanned → (Parser.equality n p).built p (Expr.builtFrom p.nextId)
  logic_andLoop : ∀ (p : Parser) (expr : Expr) (lo : Nat), p.scanned → expr.builtFrom lo p →
    (Parser.logic_andLoop n expr p).built p (Expr.builtFrom lo)
  logic_and : ∀ p : Parser, p.scanned →
    (Parser.logic_and n p).built p (Expr.builtFrom p.nextId)
  logic_orLoop : ∀ (p : Parser) (expr : Expr) (lo : Nat), p.scanned → expr.builtFrom lo p →
    (Parser.logic_orLoop n expr p).built p (Expr.builtFrom lo)
  logic_or : ∀ p : Parser, p.scanned → (Parser.logic_or n p).built p (Expr.builtFrom p.nextId)
  assignment : ∀ p : Parser, p.scanned →
    (Parser.assignment n p).built p (Expr.builtFrom p.nextId)
  expression : ∀ p : Parser, p.scanned →
    (Parser.expression n p).built p (Expr.builtFrom p.nextId)

/-- The same for the methods for statements and declarations; what `statement` and the
methods it calls return declares nothing. -/
structure Parser.StmtBuilt (n : Nat) : Prop where
  declaration : ∀ p : Parser, p.scanned →
    (Parser.declaration n p).built p (Stmt.builtFrom p.nextId)
  statement : ∀ p : Parser, p.scanned →
    (Parser.statement n p).built p fun s p' => s.builtFrom p.nextId p' ∧ s.declared = none
  blockLoop : ∀ (p : Parser) (statements : List Stmt) (lo : Nat), p.scanned →
    Stmt.allBuiltFrom lo statements p →
    (Parser.blockLoop n statements p).built p (Stmt.allBuiltFrom lo)
  block : ∀ p : Parser, p.scanned → (Parser.block n p).built p (Stmt.allBuiltFrom p.nextId)
  ifStatement : ∀ p : Parser, p.scanned →
    (Parser.ifStatement n p).built p fun s p' => s.builtFrom p.nextId p' ∧ s.declared = none
  whileStatement : ∀ p : Parser, p.scanned →
    (Parser.whileStatement n p).built p fun s p' => s.builtFrom p.nextId p' ∧ s.declared = none
  forStatement : ∀ p : Parser, p.scanned →
    (Parser.forStatement n p).built p fun s p' => s.builtFrom p.nextId p' ∧ s.declared = none
  function : ∀ (p : Parser) (kind : String), p.scanned →
    (Parser.function n kind p).built p (FunctionStmt.builtFrom p.nextId)
  methodsLoop : ∀ (p : Parser) (methods : List FunctionStmt) (lo : Nat), p.scanned →
    FunctionStmt.allBuiltFrom lo methods p →
    (Parser.methodsLoop n methods p).built p (FunctionStmt.allBuiltFrom lo)
  classDeclaration : ∀ p : Parser, p.scanned →
    (Parser.classDeclaration n p).built p (Stmt.builtFrom p.nextId)

/-- What the scopes of the resolver (innermost first) keep true of `super`: a scope that
holds `super` holds it as defined and lies directly outside a scope that defines `this`. -/
def SuperInv (scopes : List (Map String Bool)) : Prop :=
  ∀ d scope, scopes[d]? = some scope → Map.get scope "super" ≠ none →
    Map.get scope "super" = some true ∧
      ∃ k inner, d = k + 1 ∧ scopes[k]? = some inner ∧ Map.get inner "this" = some true

/-- `Resolver.Wrote ids r r'`: from `r` to `r'` the resolver reported nothing that was not
reported in `r'`, and wrote the side table at the nodes `ids` only. -/
structure Resolver.Wrote (ids : List Nat) (r r' : Resolver) : Prop where
  errors : r'.errors.HadError = false → r.errors.HadError = false
  others : ∀ id, id ∉ ids → Map.get r'.locals id = Map.get r.locals id

/-- `FrameChain envs env scopes`: the frames from `env` upwards are frames of the scopes
(innermost first): each holds the names that its scope defines, and has an enclosing
frame. -/
def FrameChain (envs : List Environment) : Nat → List (Map String Bool) → Prop
  | _, [] => True
  | env, scope :: rest =>
    ∃ fr, envs[env]? = some fr ∧
      (∀ name, Map.get scope name = some true → Map.get fr.values name ≠ none) ∧
      ∃ up, fr.Enclosing = some up ∧ FrameChain envs up rest

/-- A function value: its closure is a chain of frames of the scopes its declaration
was resolved in. -/
def FunOk (locals : Map Nat Nat) (envs : List Environment) (f : LoxFunction) : Prop :=
  ∃ scopes, FrameChain envs f.Closure scopes ∧ ScopedFun locals scopes f.Declaration

/-- A method in the table of a class: `bind` puts the frame of `this` over its closure. -/
def MethodOk (locals : Map Nat Nat) (envs : List Environment) (m : LoxFunction) : Prop :=
  ∃ scopes, FrameChain envs m.Closure scopes ∧
    ScopedFun locals ([("this", true)] :: scopes) m.Declaration

/-- A class value: the methods of the class and of its superclasses; the closure of a
method of a class that has a superclass is a frame that binds `super` to that
superclass. -/
def ClassOk (locals : Map Nat Nat) (envs : List Environment) (c : LoxClass) : Prop :=
  ∀ k ∈ c.chain, ∀ name m, Map.get k.Methods name = some m → MethodOk locals envs m ∧
    ∀ A, k.Superclass = some A →
      ∃ fr, envs[m.Closure]? = some fr ∧ Map.get fr.values "super" = some (.class A)

/-- A run-time value. -/
def ValOk (locals : Map Nat Nat) (envs : List Environment) : Value → Prop
  | .function f => FunOk locals envs f
  | .class c => ClassOk locals envs c
  | _ => True

/-- What a frame may hold under a reserved word: an instance under `this`, a class
under `super`. -/
def reservedValue (name : String) (v : Value) : Prop :=
  (name = "this" → ∃ x, v = .instance x) ∧ (name = "super" → ∃ c, v = .class c)

/-- The heap of the interpreter: every value stored in a frame or in a field, and the
class of every instance; a frame binds `this` to an instance only and `super` to a class
only. -/
structure HeapOk (locals : Map Nat Nat) (i : Interpreter) : Prop where
  table : i.locals = locals
  frames : ∀ fr ∈ i.envs, ∀ name v, Map.get fr.values name = some v → ValOk locals i.envs v
  classes : ∀ li ∈ i.instances, ClassOk locals i.envs li.Class
  fields : ∀ li ∈ i.instances, ∀ name v, Map.get li.Fields name = some v →
    ValOk locals i.envs v
  reserved : ∀ fr ∈ i.envs, ∀ name v, Map.get fr.values name = some v →
    reservedValue name v

/-- A reserved word that a frame may bind: `this` or `super`. -/
def reservedName (name : String) : Prop :=
  name = "this" ∨ name = "super"

/-- The heap of frames grew: every frame is where it was, with the enclosing frame it
had, at least the names it held, and the values it held for `this` and `super`. -/
def Grows (envs envs' : List Environment) : Prop :=
  ∀ (k : Nat) (fr : Environment), envs[k]? = some fr →
    ∃ fr' : Environment, envs'[k]? = some fr' ∧ fr'.Enclosing = fr.Enclosing ∧
      (∀ name, Map.get fr.values name ≠ none → Map.get fr'.values name ≠ none) ∧
      ∀ name v, reservedName name → Map.get fr.values name = some v →
        Map.get fr'.values name = some v

/-- What a call of the evaluator leaves when it returns, from a heap `envs`: a heap that
is in order and has grown, `post` of a value, and a value in order in a return signal. -/
def Res.kept {α : Type} (locals : Map Nat Nat) (envs : List Environment)
    (post : α → Interpreter → Prop) : Res α → Prop
  | .ok a j => HeapOk locals j ∧ Grows envs j.envs ∧ post a j
  | .err e j => HeapOk locals j ∧ Grows envs j.envs ∧
      ∀ v, e = Err.Return v → ValOk locals j.envs v
  | .panic _ _ => True
  | .outOfFuel => True

/-- The calls of the evaluator with fuel `n` keep the heap in order: from a heap in
order, with the frames of `scopes` from the current environment upwards and a tree
whose recorded distances name scopes of `scopes`, each call that returns leaves a heap
in order that has grown; a value it returns is in order, and after a statement the
frames are those of the scopes after the statement. -/
structure KeepsHeap (locals : Map Nat Nat) (n : Nat) : Prop where
  evaluate : ∀ e i scopes, HeapOk locals i → FrameChain i.envs i.environment scopes →
    ScopedExpr locals scopes e →
    (Lox.evaluate n e i).kept locals i.envs fun v j => ValOk locals j.envs v
  execute : ∀ s i scopes, HeapOk locals i → FrameChain i.envs i.environment scopes →
    ScopedStmt locals scopes s →
    (Lox.execute n s i).kept locals i.envs fun _ j =>
      FrameChain j.envs j.environment (scopesAfter scopes s)
  whileLoop : ∀ c b i scopes, HeapOk locals i → FrameChain i.envs i.environment scopes →
    ScopedExpr locals scopes c → ScopedStmt locals scopes b → b.declared = none →
    (Lox.whileLoop n c b i).kept locals i.envs fun _ _ => True
  callFunction : ∀ f arguments i, HeapOk locals i → FunOk locals i.envs f →
    (∀ a ∈ arguments, ValOk locals i.envs a) →
    (Lox.callFunction n f arguments i).kept locals i.envs fun v j => ValOk locals j.envs v
  callClass : ∀ c arguments i, HeapOk locals i → ClassOk locals i.envs c →
    (∀ a ∈ arguments, ValOk locals i.envs a) →
    (Lox.callClass n c arguments i).kept locals i.envs fun v j => ValOk locals j.envs v

/-! ## The calls of the evaluator -/

/-- What the evaluator is called on: an expression (`evaluate`), the arguments of a call,
a statement (`execute`), the statements of a block or body, a `while` loop, a function
with its arguments (`LoxFunction.Call`), a class with its arguments (`LoxClass.Call`),
and the statements of a program (`Interpret`). -/
inductive Site where
  | expr (e : Expr)
  | args (arguments : List Expr)
  | stmt (s : Stmt)
  | stmts (statements : List Stmt)
  | loop (condition : Expr) (body : Stmt)
  | fn (f : LoxFunction) (arguments : List Value)
  | cls (c : LoxClass) (arguments : List Value)
  | program (statements : List Stmt)

/-- `Evals n site i t j`: while the evaluator runs on `site` with fuel `n` from the state
`i`, every call before it having returned a value, it is called on `t` in the state `j`
(`evaluate` on the expression of `t`, `LoxFunction.Call` on its function, ...). -/
inductive Evals : Nat → Site → Interpreter → Site → Interpreter → Prop where
  | here (n : Nat) (site : Site) (i : Interpreter) : Evals n site i site i
  | grouping {n e i t i'} : Evals n (.expr e) i t i' →
      Evals (n + 1) (.expr (.Grouping e)) i t i'
  | unary {n op r i t i'} : Evals n (.expr r) i t i' →
      Evals (n + 1) (.expr (.Unary op r)) i t i'
  | binaryLeft {n l op r i t i'} : Evals n (.expr l) i t i' →
      Evals (n + 1) (.expr (.Binary l op r)) i t i'
  | binaryRight {n l op r i v j t i'} : evaluate n l i = .ok v j →
      Evals n (.expr r) j t i' → Evals (n + 1) (.expr (.Binary l op r)) i t i'
  | assignValue {n id name value i t i'} : Evals n (.expr value) i t i' →
      Evals (n + 1) (.expr (.Assign id name value)) i t i'
  | logicalLeft {n l op r i t i'} : Evals n (.expr l) i t i' →
      Evals (n + 1) (.expr (.Logical l op r)) i t i'
  | logicalRight {n l op r i v j t i'} : evaluate n l i = .ok v j →
      (if op.type = TokenType.OR then isTruthy v = false else isTruthy v = true) →
      Evals n (.expr r) j t i' → Evals (n + 1) (.expr (.Logical l op r)) i t i'
  | callee {n c paren arguments i t i'} : Evals n (.expr c) i t i' →
      Evals (n + 1) (.expr (.Call c paren arguments)) i t i'
  | arguments {n c paren arguments i v j t i'} : evaluate n c i = .ok v j →
      Evals n (.args arguments) j t i' →
      Evals (n + 1) (.expr (.Call c paren arguments)) i t i'
  | callFunction {n c paren arguments i f j vs k t i'} :
      evaluate n c i = .ok (.function f) j →
      evaluateArguments (evaluate n) arguments [] j = .ok vs k → vs.length = f.Arity →
      Evals n (.fn f vs) k t i' →
      Evals (n + 1) (.expr (.Call c paren arguments)) i t i'
  | callClass {n c paren arguments i cl j vs k t i'} :
      evaluate n c i = .ok (.class cl) j →
      evaluateArguments (evaluate n) arguments [] j = .ok vs k → vs.length = cl.Arity →
      Evals n (.cls cl vs) k t i' →
      Evals (n + 1) (.expr (.Call c paren arguments)) i t i'
  | getObject {n obj name i t i'} : Evals n (.expr obj) i t i' →
      Evals (n + 1) (.expr (.Get obj name)) i t i'
  | setObject {n obj name value i t i'} : Evals n (.expr obj) i t i' →
      Evals (n + 1) (.expr (.Set obj name value)) i t i'
  | setValue {n obj name value i ref j t i'} : evaluate n obj i = .ok (.instance ref) j →
      Evals n (.expr value) j t i' → Evals (n + 1) (.expr (.Set obj name value)) i t i'
  | argument {n a rest i t i'} : Evals n (.expr a) i t i' →
      Evals n (.args (a :: rest)) i t i'
  | nextArgument {n a rest i v j t i'} : evaluate n a i = .ok v j →
      Evals n (.args rest) j t i' → Evals n (.args (a :: rest)) i t i'
  | expressionStmt {n e i t i'} : Evals n (.expr e) i t i' →
      Evals (n + 1) (.stmt (.ExpressionStmt e)) i t i'
  | printStmt {n e i t i'} : Evals n (.expr e) i t i' →
      Evals (n + 1) (.stmt (.PrintStmt e)) i t i'
  | varInitializer {n name init i t i'} : init.isNil = false → Evals n (.expr init) i t i' →
      Evals (n + 1) (.stmt (.VarStmt name init)) i t i'
  | block {n statements i t i'} :
      Evals n (.stmts statements)
        { (NewEnvironment i (some i.environment)).2 with
          environment := (NewEnvironment i (some i.environment)).1 } t i' →
      Evals (n + 1) (.stmt (.BlockStmt statements)) i t i'
  | ifCondition {n c th el i t i'} : Evals n (.expr c) i t i' →
      Evals (n + 1) (.stmt (.IfStmt c th el)) i t i'
  | ifThen {n c th el i v j t i'} : evaluate n c i = .ok v j → isTruthy v = true →
      Evals n (.stmt th) j t i' → Evals (n + 1) (.stmt (.IfStmt c th el)) i t i'
  | ifElse {n c th el i v j t i'} : evaluate n c i = .ok v j → isTruthy v = false →
      el.isNil = false → Evals n (.stmt el) j t i' →
      Evals (n + 1) (.stmt (.IfStmt c th el)) i t i'
  | whileStmt {n c b i t i'} : Evals n (.loop c b) i t i' →
      Evals (n + 1) (.stmt (.WhileStmt c b)) i t i'
  | returnValue {n kw value i t i'} : value.isNil = false → Evals n (.expr value) i t i' →
      Evals (n + 1) (.stmt (.ReturnStmt kw value)) i t i'
  | superclass {n name sc methods i t i'} : Evals n (.expr (.Variable sc)) i t i' →
      Evals (n + 1) (.stmt (.ClassStmt name (some sc) methods)) i t i'
  | statement {n s rest i t i'} : Evals n (.stmt s) i t i' →
      Evals n (.stmts (s :: rest)) i t i'
  | nextStatement {n s rest i j t i'} : execute n s i = .ok () j →
      Evals n (.stmts rest) j t i' → Evals n (.stmts (s :: rest)) i t i'
  | loopCondition {n c b i t i'} : Evals n (.expr c) i t i' →
      Evals (n + 1) (.loop c b) i t i'
  | loopBody {n c b i v j t i'} : evaluate n c i = .ok v j → isTruthy v = true →
      Evals n (.stmt b) j t i' → Evals (n + 1) (.loop c b) i t i'
  | loopAgain {n c b i v j k t i'} : evaluate n c i = .ok v j → isTruthy v = true →
      execute n b j = .ok () k → Evals n (.loop c b) k t i' →
      Evals (n + 1) (.loop c b) i t i'
  | body {n f arguments i j t i'} :
      defineParams (NewEnvironment i (some f.Closure)).1 f.Declaration.Params arguments
        (NewEnvironment i (some f.Closure)).2 = .ok () j →
      Evals n (.stmts f.Declaration.Body)
        { j with environment := (NewEnvironment i (some f.Closure)).1 } t i' →
      Evals (n + 1) (.fn f arguments) i t i'
  | initializer {n c arguments i m t i'} : c.findMethod "init" = some m →
      Evals n (.fn (m.bind (NewLoxInstance c i).1 (NewLoxInstance c i).2).1 arguments)
        (m.bind (NewLoxInstance c i).1 (NewLoxInstance c i).2).2 t i' →
      Evals (n + 1) (.cls c arguments) i t i'
  | first {n s rest i t i'} : Evals n (.stmt s) i t i' →
      Evals n (.program (s :: rest)) i t i'
  | next {n s rest i j t i'} : execute n s i = .ok () j →
      Evals n (.program rest) j t i' → Evals n (.program (s :: rest)) i t i'
  | nextAfterError {n s rest i e j t i'} : execute n s i = .err e j →
      (∀ token message, e ≠ Err.RuntimeError token message) →
      Evals n (.program rest) j t i' → Evals n (.program (s :: rest)) i t i'

/-- What holds when the evaluator is called on a site: the frames from the current
environment upwards are frames of scopes in which the recorded distances of the site
name scopes that define the names, and the values handed to a call are in order. -/
def Site.ready (locals : Map Nat Nat) : Site → Interpreter → Prop
  | .expr e, i => ∃ scopes, FrameChain i.envs i.environment scopes ∧ ScopedExpr locals scopes e
  | .args arguments, i =>
    ∃ scopes, FrameChain i.envs i.environment scopes ∧ ScopedExprs locals scopes arguments
  | .stmt s, i => ∃ scopes, FrameChain i.envs i.environment scopes ∧ ScopedStmt locals scopes s
  | .stmts statements, i =>
    ∃ scopes, FrameChain i.envs i.environment scopes ∧ ScopedStmts locals scopes statements
  | .loop c b, i =>
    ∃ scopes, FrameChain i.envs i.environment scopes ∧ ScopedExpr locals scopes c ∧
      ScopedStmt locals scopes b ∧ b.declared = none
  | .fn f arguments, i => FunOk locals i.envs f ∧ ∀ a ∈ arguments, ValOk locals i.envs a
  | .cls c arguments, i => ClassOk locals i.envs c ∧ ∀ a ∈ arguments, ValOk locals i.envs a
  | .program statements, _ => ScopedStmts locals [] statements

/-- A class that the heap holds: the value of a name in a frame, the class of an
instance, or the value of a field. -/
def Interpreter.holds (i : Interpreter) (c : LoxClass) : Prop :=
  (∃ fr ∈ i.envs, ∃ name, Map.get fr.values name = some (.class c)) ∨
  (∃ li ∈ i.instances, li.Class = c) ∨
  (∃ li ∈ i.instances, ∃ name, Map.get li.Fields name = some (.class c))

/-- The state in which `runWithInterpreter` starts `Interpret`: the interpreter of
`NewInterpreter` with the side table and the error state that the resolver left. -/
def startOf (errors : Errors) (clock : Nat → Float) (r : Resolver) : Interpreter :=
  { NewInterpreter errors clock with locals := r.locals, errors := r.errors }

/-- Whether a text is an identifier of the scanner that is not a reserved word, or one
of the reserved words `this`, `true`, `false` and `nil`. -/
def isName (text : String) : Bool :=
  (match text.data with
    | [] => false
    | c :: cs => isAlpha c && cs.all isAlphaNumeric && (Map.get keywords text).isNone) ||
  text == "this" || text == "true" || text == "false" || text == "nil"

/-- Whether an expression is a variable, `this`, one of the literals `true`, `false`
and `nil`, or a string literal whose characters are a name (`isName`). -/
def Expr.plain : Expr → Bool
  | .Variable _ => true
  | .This _ _ => true
  | .Literal (.bool _) => true
  | .Literal .nil => true
  | .Literal (.string text) => isName text
  | _ => false

/-- The expression that `expression()` returned. -/
def exprOr (d : Expr × Parser) : PRes Expr → Expr × Parser
  | .ok e p => (e, p)
  | _ => d

/-! ## Following a run to a call of the evaluator -/

/-- A step from a call of the evaluator to a call that it makes: to a statement of a
program (`first`, or `next` after the first statement completed), into an expression
statement, to the callee of a call or the object of a property access, to the call of
the function or the class that the callee evaluated to, from the call of a class to the
call of its initializer, and from the call of a function to its body and the first
statement of the body. -/
inductive Move where
  | first | next | expressionStmt | callee | getObject | callFunction | callClass
  | initializer | body | statement
  deriving DecidableEq

/-- The call of the evaluator that the steps lead to, with the state in which it is
made; `none` when a step does not apply or a call before it did not return a value. -/
def follow : List Move → Nat → Site → Interpreter → Option (Site × Interpreter)
  | [], _, site, i => some (site, i)
  | .first :: ms, n, .program (s :: _), i => follow ms n (.stmt s) i
  | .next :: ms, n, .program (s :: rest), i =>
    match execute n s i with
    | .ok _ j => follow ms n (.program rest) j
    | _ => none
  | .expressionStmt :: ms, n + 1, .stmt (.ExpressionStmt e), i => follow ms n (.expr e) i
  | .callee :: ms, n + 1, .expr (.Call c _ _), i => follow ms n (.expr c) i
  | .getObject :: ms, n + 1, .expr (.Get obj _), i => follow ms n (.expr obj) i
  | .callFunction :: ms, n + 1, .expr (.Call c _ arguments), i =>
    match evaluate n c i with
    | .ok (.function f) j =>
      match evaluateArguments (evaluate n) arguments [] j with
      | .ok vs k => if vs.length = f.Arity then follow ms n (.fn f vs) k else none
      | _ => none
    | _ => none
  | .callClass :: ms, n + 1, .expr (.Call c _ arguments), i =>
    match evaluate n c i with
    | .ok (.class cl) j =>
      match evaluateArguments (evaluate n) arguments [] j with
      | .ok vs k => if vs.length = cl.Arity then follow ms n (.cls cl vs) k else none
      | _ => none
    | _ => none
  | .initializer :: ms, n + 1, .cls c arguments, i =>
    match c.findMethod "init" with
    | some m =>
      follow ms n (.fn (m.bind (NewLoxInstance c i).1 (NewLoxInstance c i).2).1 arguments)
        (m.bind (NewLoxInstance c i).1 (NewLoxInstance c i).2).2
    | none => none
  | .body :: ms, n + 1, .fn f arguments, i =>
    match defineParams (NewEnvironment i (some f.Closure)).1 f.Declaration.Params arguments
        (NewEnvironment i (some f.Closure)).2 with
    | .ok _ j =>
      follow ms n (.stmts f.Declaration.Body)
        { j with environment := (NewEnvironment i (some f.Closure)).1 }
    | _ => none
  | .statement :: ms, n, .stmts (s :: _), i => follow ms n (.stmt s) i
  | _, _, _, _ => none

/-- Whether the evaluator is called on a `super` expression. -/
def Site.isSuper : Site → Bool
  | .expr (.Super _ _ _) => true
  | _ => false

/-- The identity of the `super` expression that the evaluator is called on. -/
def Site.superId : Site → Nat
  | .expr (.Super id _ _) => id
  | _ => 0

/-- The keyword of the `super` expression that the evaluator is called on. -/
def Site.superKeyword : Site → Token
  | .expr (.Super _ keyword _) => keyword
  | _ => Token.zero

/-- The method name of the `super` expression that the evaluator is called on. -/
def Site.superMethod : Site → Token
  | .expr (.Super _ _ method) => method
  | _ => Token.zero

/-- Whether the evaluator is called on a function. -/
def Site.isFn : Site → Bool
  | .fn _ _ => true
  | _ => false

/-- The function that the evaluator is called on. -/
def Site.function (d : LoxFunction) : Site → LoxFunction
  | .fn f _ => f
  | _ => d

/-- The arguments that the evaluator is called with. -/
def Site.arguments : Site → List Value
  | .fn _ arguments => arguments
  | _ => []

/-- The instance that a lookup returned. -/
def Out.instance? : Out Value → Option Nat
  | .ok (.instance x) => some x
  | _ => none

/-- The name of the method that an evaluation returned as a function. -/
def Res.functionName : Res Value → Option String
  | .ok (.function f) _ => some f.Declaration.Name.Lexeme
  | _ => none

/-- The scanner that `ScanTokens` returned. -/
def scannerOr (d : Scanner) : Except Fail Scanner → Scanner
  | .ok a => a
  | .error _ => d

/-- Whether a method of the parser returned a value. -/
def PRes.isOk {α : Type} : PRes α → Bool
  | .ok _ _ => true
  | _ => false

/-- The value that a method of the parser returned, with the state it left. -/
def PRes.okOr {α : Type} (d : α × Parser) : PRes α → α × Parser
  | .ok a p => (a, p)
  | _ => d

/-- Whether the resolver returned without an error. -/
def RRes.isOk : RRes → Bool
  | .ok _ => true
  | _ => false

/-- The state that the resolver left. -/
def RRes.okOr (d : Resolver) : RRes → Resolver
  | .ok r => r
  | _ => d

/-! ## A sample run -/

/-- A program with an initializer, a subclass and a `super` expression. -/
def sampleRunSource : String :=
  "class A \x7b init() \x7b return; \x7d \x7d class B < A \x7b m() \x7b super.init; \x7d \x7d B().m();"

/-- The scanner after `ScanTokens` on the sample program. -/
def sampleRunScanner : Scanner :=
  scannerOr (NewScanner "" Errors.init) (NewScanner sampleRunSource Errors.init).ScanTokens

/-- The statements that `Parse` returns for the sample program, and the parser. -/
def sampleRunParsed : List Stmt × Parser :=
  ((NewParser sampleRunScanner.tokens sampleRunScanner.errors).Parse).okOr
    ([], NewParser [] Errors.init)

/-- The resolver after `Resolve` on the sample program. -/
def sampleRunResolved : Resolver :=
  ((NewResolver [] sampleRunParsed.2.errors).Resolve sampleRunParsed.1).okOr
    (NewResolver [] Errors.init)

/-- The state in which the sample program starts to run. -/
def sampleRunStart : Interpreter :=
  startOf Errors.init (fun _ => 0) sampleRunResolved

/-- The evaluation of `super.init` in the sample run: the call `B().m()` has bound `m`
to the new instance and runs the body of `m`. -/
def sampleRunSuper : Site × Interpreter :=
  (follow [.next, .next, .first, .expressionStmt, .callFunction, .body, .statement,
    .expressionStmt] 20 (.program sampleRunParsed.1) sampleRunStart).getD
    (.program [], sampleRunStart)

/-- The call of the initializer in the sample run, made by the call `B()` of the class. -/
def sampleRunInit : Site × Interpreter :=
  (follow [.next, .next, .first, .expressionStmt, .callee, .getObject, .callClass,
    .initializer] 20 (.program sampleRunParsed.1) sampleRunStart).getD
    (.program [], sampleRunStart)

/-! # Theorems -/

set_option maxHeartbeats 4000000
set_option maxRecDepth 100000

theorem Scanner.Le.stay (s : Scanner) (h : s.current ≤ s.source.length) : Scanner.Le s s :=
  ⟨rfl, rfl, Nat.le_refl _, h, [], by simp, by simp⟩

theorem Scanner.Le.step {a b c : Scanner} (h1 : Scanner.Le a b) (h2 : Scanner.Le b c) :
    Scanner.Le a c := by
  obtain ⟨e1, he1, hn1⟩ := h1.toks
  obtain ⟨e2, he2, hn2⟩ := h2.toks
  refine ⟨h2.source.trans h1.source, h2.start.trans h1.start, Nat.le_trans h1.cur h2.cur,
    h2.le, e1 ++ e2, ?_, ?_⟩
  · rw [he2, he1, List.append_assoc]
  · intro t ht
    rcases List.mem_append.mp ht with h | h
    · exact hn1 t h
    · exact hn2 t h

/-- Moving `current` (and the line counter or the error record) keeps the progress relation. -/
theorem Scanner.Le.move (s : Scanner) (c l : Nat) (e : Errors) (h1 : s.current ≤ c)
    (h2 : c ≤ s.source.length) :
    Scanner.Le s { s with current := c, line := l, errors := e } :=
  ⟨rfl, rfl, h1, h2, [], by simp, by simp⟩

theorem Scanner.advance_ok (s : Scanner) (h : s.current < s.source.length) :
    ∃ c, s.advance = .ok (c, { s with current := s.current + 1 }) := by
  unfold Scanner.advance
  rw [List.getElem?_eq_getElem h]
  exact ⟨_, rfl⟩

theorem Scanner.isAtEnd_false {s : Scanner} (h : s.isAtEnd = false) :
    s.current < s.source.length := by
  simpa [Scanner.isAtEnd] using h

theorem Scanner.peek_ne_zero {s : Scanner} (h : s.peek ≠ '\x00') :
    s.current < s.source.length := by
  by_cases he : s.isAtEnd = true
  · simp [Scanner.peek, he] at h
  · exact Scanner.isAtEnd_false (by simpa using he)

theorem Scanner.commentLoop_ok : ∀ (n : Nat) (s : Scanner), s.current ≤ s.source.length →
    s.source.length - s.current < n →
    ∃ s', Scanner.commentLoop n s = .ok s' ∧ Scanner.Le s s'
  | 0, s, _, hn => by omega
  | n + 1, s, hle, hn => by
    unfold Scanner.commentLoop
    split
    · rename_i hc
      have hlt : s.current < s.source.length := by
        simp at hc
        exact Scanner.isAtEnd_false hc.2
      obtain ⟨c, hc⟩ := Scanner.advance_ok s hlt
      obtain ⟨s', hs', hle'⟩ := Scanner.commentLoop_ok n { s with current := s.current + 1 }
        hlt (by simp; omega)
      refine ⟨s', ?_, ?_⟩
      · simp [hc, bind, Except.bind, hs']
      · exact Scanner.Le.step (Scanner.Le.move s _ s.line s.errors (Nat.le_succ _) hlt) hle'
    · exact ⟨s, rfl, Scanner.Le.stay s hle⟩

theorem Scanner.stringLoop_ok : ∀ (n : Nat) (s : Scanner), s.current ≤ s.source.length →
    s.source.length - s.current < n →
    ∃ s', Scanner.stringLoop n s = .ok s' ∧ Scanner.Le s s'
  | 0, s, _, hn => by omega
  | n + 1, s, hle, hn => by
    unfold Scanner.stringLoop
    split
    · rename_i hc
      have hlt : s.current < s.source.length := by
        simp at hc
        exact Scanner.isAtEnd_false hc.2
      by_cases hnl : s.peek = '\n'
      · obtain ⟨c, hc⟩ := Scanner.advance_ok { s with line := s.line + 1 } hlt
        obtain ⟨s', hs', hle'⟩ := Scanner.stringLoop_ok n
          { s with current := s.current + 1, line := s.line + 1 } hlt (by simp; omega)
        refine ⟨s', ?_, ?_⟩
        · simp only [hnl, if_true]
          simp [hc, bind, Except.bind, hs']
        · exact Scanner.Le.step (Scanner.Le.move s _ _ s.errors (Nat.le_succ _) hlt) hle'
      · obtain ⟨c, hc⟩ := Scanner.advance_ok s hlt
        obtain ⟨s', hs', hle'⟩ := Scanner.stringLoop_ok n
          { s with current := s.current + 1 } hlt (by simp; omega)
        refine ⟨s', ?_, ?_⟩
        · simp only [hnl, if_false]
          simp [hc, bind, Except.bind, hs']
        · exact Scanner.Le.step (Scanner.Le.move s _ s.line s.errors (Nat.le_succ _) hlt) hle'
    · exact ⟨s, rfl, Scanner.Le.stay s hle⟩

theorem isDigit_ne_zero {c : Char} (h : isDigit c = true) : c ≠ '\x00' := by
  intro hc
  subst hc
  revert h
  decide

theorem isAlphaNumeric_ne_zero {c : Char} (h : isAlphaNumeric c = true) : c ≠ '\x00' := by
  intro hc
  subst hc
  revert h
  decide

theorem Scanner.digitLoop_ok : ∀ (n : Nat) (s : Scanner), s.current ≤ s.source.length →
    s.source.length - s.current < n →
    ∃ s', Scanner.digitLoop n s = .ok s' ∧ Scanner.Le s s'
  | 0, s, _, hn => by omega
  | n + 1, s, hle, hn => by
    unfold Scanner.digitLoop
    split
    · rename_i hc
      have hlt : s.current < s.source.length := Scanner.peek_ne_zero (isDigit_ne_zero hc)
      obtain ⟨c, hc⟩ := Scanner.advance_ok s hlt
      obtain ⟨s', hs', hle'⟩ := Scanner.digitLoop_ok n { s with current := s.current + 1 }
        hlt (by simp; omega)
      refine ⟨s', ?_, ?_⟩
      · simp [hc, bind, Except.bind, hs']
      · exact Scanner.Le.step (Scanner.Le.move s _ s.line s.errors (Nat.le_succ _) hlt) hle'
    · exact ⟨s, rfl, Scanner.Le.stay s hle⟩

theorem Scanner.identifierLoop_ok : ∀ (n : Nat) (s : Scanner), s.current ≤ s.source.length →
    s.source.length - s.current < n →
    ∃ s', Scanner.identifierLoop n s = .ok s' ∧ Scanner.Le s s'
  | 0, s, _, hn => by omega
  | n + 1, s, hle, hn => by
    unfold Scanner.identifierLoop
    split
    · rename_i hc
      have hlt : s.current < s.source.length := Scanner.peek_ne_zero (isAlphaNumeric_ne_zero hc)
      obtain ⟨c, hc⟩ := Scanner.advance_ok s hlt
      obtain ⟨s', hs', hle'⟩ := Scanner.identifierLoop_ok n { s with current := s.current + 1 }
        hlt (by simp; omega)
      refine ⟨s', ?_, ?_⟩
      · simp [hc, bind, Except.bind, hs']
      · exact Scanner.Le.step (Scanner.Le.move s _ s.line s.errors (Nat.le_succ _) hlt) hle'
    · exact ⟨s, rfl, Scanner.Le.stay s hle⟩

theorem sliceOf_ok (source : List Char) (lo hi : Nat) (h1 : lo ≤ hi) (h2 : hi ≤ source.length) :
    ∃ t, sliceOf source lo hi = .ok t := by
  unfold sliceOf
  rw [if_pos ⟨h1, h2⟩]
  exact ⟨_, rfl⟩

theorem Scanner.addToken_ok (s : Scanner) (ty : TokenType) (lit : LiteralValue)
    (h1 : s.start ≤ s.current) (h2 : s.current ≤ s.source.length) (hty : ty ≠ TokenType.EOF) :
    ∃ s', s.addToken ty lit = .ok s' ∧ Scanner.Le s s' := by
  obtain ⟨t, ht⟩ := sliceOf_ok s.source s.start s.current h1 h2
  refine ⟨{ s with tokens := s.tokens ++ [⟨ty, t, lit, s.line⟩] }, ?_, ?_⟩
  · simp [Scanner.addToken, ht, bind, Except.bind, pure, Except.pure]
  · exact ⟨rfl, rfl, Nat.le_refl _, h2, [⟨ty, t, lit, s.line⟩], rfl, by simpa using hty⟩

theorem Scanner.string_ok (s : Scanner) (h1 : s.start + 1 ≤ s.current)
    (h2 : s.current ≤ s.source.length) :
    ∃ s', s.string = .ok s' ∧ Scanner.Le s s' := by
  obtain ⟨s1, hs1, hle1⟩ := Scanner.stringLoop_ok (s.source.length + 1) s h2 (by omega)
  unfold Scanner.string
  simp only [hs1, bind, Except.bind]
  by_cases he : s1.isAtEnd = true
  · simp only [he, if_true]
    exact ⟨_, rfl, Scanner.Le.step hle1 (Scanner.Le.move s1 _ _ _ (Nat.le_refl _) hle1.le)⟩
  · have hlt := Scanner.isAtEnd_false (by simpa using he)
    obtain ⟨c, hc⟩ := Scanner.advance_ok s1 hlt
    have hst : s1.start = s.start := hle1.start
    have hcur := hle1.cur
    obtain ⟨v, hv⟩ := sliceOf_ok s1.source (s1.start + 1) s1.current
      (by omega) (by omega)
    obtain ⟨s2, hs2, hle2⟩ := Scanner.addToken_ok { s1 with current := s1.current + 1 }
      TokenType.STRING (LiteralValue.string v) (by simp; omega) hlt (by decide)
    refine ⟨s2, ?_, ?_⟩
    · simp only [he]
      simp [hc, hv, hs2]
    · exact Scanner.Le.step hle1
        (Scanner.Le.step (Scanner.Le.move s1 _ s1.line s1.errors (Nat.le_succ _) hlt) hle2)

theorem Scanner.number_ok (s : Scanner) (h1 : s.start ≤ s.current)
    (h2 : s.current ≤ s.source.length) :
    ∃ s', s.number = .ok s' ∧ Scanner.Le s s' := by
  obtain ⟨s1, hs1, hle1⟩ := Scanner.digitLoop_ok (s.source.length + 1) s h2 (by omega)
  have hfrac : ∃ s2, (if (s1.peek = '.' && isDigit s1.peekNext) = true then
        s1.advance >>= fun p => Scanner.digitLoop (p.2.source.length + 1) p.2
      else pure s1) = Except.ok s2 ∧ Scanner.Le s1 s2 := by
    split
    · rename_i hc
      have hlt : s1.current < s1.source.length := by
        apply Scanner.peek_ne_zero
        simp at hc
        rw [hc.1]
        decide
      obtain ⟨c, hc⟩ := Scanner.advance_ok s1 hlt
      obtain ⟨s2, hs2, hle2⟩ := Scanner.digitLoop_ok (s1.source.length + 1)
        { s1 with current := s1.current + 1 } hlt (by simp; omega)
      refine ⟨s2, ?_, ?_⟩
      · simp only [hc, bind, Except.bind, hs2]
      · exact Scanner.Le.step (Scanner.Le.move s1 _ s1.line s1.errors (Nat.le_succ _) hlt) hle2
    · exact ⟨s1, rfl, Scanner.Le.stay s1 hle1.le⟩
  obtain ⟨s2, hs2, hle2⟩ := hfrac
  have hle := Scanner.Le.step hle1 hle2
  obtain ⟨v, hv⟩ := sliceOf_ok s2.source s2.start s2.current
    (by have := hle.start; have := hle.cur; omega) hle.le
  unfold Scanner.number
  simp only [hs1, bind, Except.bind] at hs2 ⊢
  simp only [hs2, hv]
  cases hp : parseFloat v with
  | none =>
    exact ⟨_, rfl, Scanner.Le.step hle (Scanner.Le.move s2 _ _ _ (Nat.le_refl _) hle.le)⟩
  | some f =>
    obtain ⟨s3, hs3, hle3⟩ := Scanner.addToken_ok s2 TokenType.NUMBER (LiteralValue.number f)
      (by have := hle.start; have := hle.cur; omega) hle.le (by decide)
    exact ⟨s3, hs3, Scanner.Le.step hle hle3⟩

theorem Map.get_mem {α : Type} : ∀ (m : Map String α) (k : String) (v : α),
    Map.get m k = some v → (k, v) ∈ m
  | [], _, _, h => by simp [Map.get] at h
  | (k', w) :: m, k, v, h => by
    unfold Map.get at h
    split at h
    · rename_i hk
      cases h
      simp [hk]
    · exact List.mem_cons_of_mem _ (Map.get_mem m k v h)

theorem keywords_ne_EOF (text : String) (t : TokenType) (h : Map.get keywords text = some t) :
    t ≠ TokenType.EOF := by
  have hall : ∀ p ∈ keywords, p.2 ≠ TokenType.EOF := by decide
  exact hall _ (Map.get_mem _ _ _ h)

theorem Scanner.identifier_ok (s : Scanner) (h1 : s.start ≤ s.current)
    (h2 : s.current ≤ s.source.length) :
    ∃ s', s.identifier = .ok s' ∧ Scanner.Le s s' := by
  obtain ⟨s1, hs1, hle1⟩ := Scanner.identifierLoop_ok (s.source.length + 1) s h2 (by omega)
  obtain ⟨v, hv⟩ := sliceOf_ok s1.source s1.start s1.current
    (by have := hle1.start; have := hle1.cur; omega) hle1.le
  unfold Scanner.identifier
  simp only [hs1, bind, Except.bind, hv]
  have hty : (match Map.get keywords v with
      | some t => t
      | none => TokenType.IDENTIFIER) ≠ TokenType.EOF := by
    cases hk : Map.get keywords v with
    | none => simp
    | some t => exact keywords_ne_EOF v t hk
  obtain ⟨s3, hs3, hle3⟩ := Scanner.addToken_ok s1 _ LiteralValue.nil
    (by have := hle1.start; have := hle1.cur; omega) hle1.le hty
  exact ⟨s3, hs3, Scanner.Le.step hle1 hle3⟩

theorem Scanner.match_ok (s : Scanner) (expected : Char) (h1 : s.start ≤ s.current)
    (h2 : s.current ≤ s.source.length) :
    Scanner.Le s (s.match expected).2 ∧ (s.match expected).2.start ≤ (s.match expected).2.current := by
  unfold Scanner.match
  split
  · exact ⟨Scanner.Le.stay s h2, h1⟩
  · rename_i he
    have hlt := Scanner.isAtEnd_false (by simpa using he)
    split
    · exact ⟨Scanner.Le.stay s h2, h1⟩
    · exact ⟨Scanner.Le.move s _ s.line s.errors (Nat.le_succ _) hlt, by simp; omega⟩

theorem Scanner.scanToken_ok (s : Scanner) (h1 : s.start = s.current)
    (h2 : s.current < s.source.length) :
    ∃ s', s.scanToken = .ok s' ∧ Scanner.Le s s' ∧ s.current < s'.current := by
  obtain ⟨c, hc⟩ := Scanner.advance_ok s h2
  have h0 : Scanner.Le s { s with current := s.current + 1 } :=
    Scanner.Le.move s _ s.line s.errors (Nat.le_succ _) h2
  suffices h : ∃ s', s.scanToken = .ok s' ∧ Scanner.Le { s with current := s.current + 1 } s' by
    obtain ⟨s', hs', hle⟩ := h
    exact ⟨s', hs', Scanner.Le.step h0 hle, Nat.lt_of_lt_of_le (Nat.lt_succ_self _) hle.cur⟩
  have hadd : ∀ (ty : TokenType), ty ≠ TokenType.EOF → ∀ s1 : Scanner,
      Scanner.Le { s with current := s.current + 1 } s1 →
      ∃ s', s1.addToken ty LiteralValue.nil = .ok s' ∧
        Scanner.Le { s with current := s.current + 1 } s' := by
    intro ty hty s1 hle
    obtain ⟨s', hs', hle'⟩ := Scanner.addToken_ok s1 ty LiteralValue.nil
      (by have := hle.start; have := hle.cur; simp at *; omega) hle.le hty
    exact ⟨s', hs', Scanner.Le.step hle hle'⟩
  have hr := Scanner.Le.stay { s with current := s.current + 1 } h2
  have hm : ∀ e : Char, Scanner.Le { s with current := s.current + 1 }
      (Scanner.match { s with current := s.current + 1 } e).2 := fun e =>
    (Scanner.match_ok { s with current := s.current + 1 } e (by simp; omega) h2).1
  unfold Scanner.scanToken
  rw [hc]
  show ∃ s', (if c = '(' then _ else _) = Except.ok s' ∧ _
  by_cases h : c = '('
  · rw [if_pos h]; exact hadd _ (by decide) _ hr
  rw [if_neg h]; clear h
  by_cases h : c = ')'
  · rw [if_pos h]; exact hadd _ (by decide) _ hr
  rw [if_neg h]; clear h
  by_cases h : c = '{'
  · rw [if_pos h]; exact hadd _ (by decide) _ hr
  rw [if_neg h]; clear h
  by_cases h : c = '}'
  · rw [if_pos h]; exact hadd _ (by decide) _ hr
  rw [if_neg h]; clear h
  by_cases h : c = ','
  · rw [if_pos h]; exact hadd _ (by decide) _ hr
  rw [if_neg h]; clear h
  by_cases h : c = '.'
  · rw [if_pos h]; exact hadd _ (by decide) _ hr
  rw [if_neg h]; clear h
  by_cases h : c = '-'
  · rw [if_pos h]; exact hadd _ (by decide) _ hr
  rw [if_neg h]; clear h
  by_cases h : c = '+'
  · rw [if_pos h]; exact hadd _ (by decide) _ hr
  rw [if_neg h]; clear h
  by_cases h : c = ';'
  · rw [if_pos h]; exact hadd _ (by decide) _ hr
  rw [if_neg h]; clear h
  by_cases h : c = '*'
  · rw [if_pos h]; exact hadd _ (by decide) _ hr
  rw [if_neg h]; clear h
  by_cases h : c = '!'
  · rw [if_pos h]
    split
    · rename_i b s1 hb
      have := hm '='; rw [hb] at this
      exact hadd _ (by decide) _ this
    · rename_i b s1 hb
      have := hm '='; rw [hb] at this
      exact hadd _ (by decide) _ this
  rw [if_neg h]; clear h
  by_cases h : c = '='
  · rw [if_pos h]
    split
    · rename_i b s1 hb
      have := hm '='; rw [hb] at this
      exact hadd _ (by decide) _ this
    · rename_i b s1 hb
      have := hm '='; rw [hb] at this
      exact hadd _ (by decide) _ this
  rw [if_neg h]; clear h
  by_cases h : c = '<'
  · rw [if_pos h]
    split
    · rename_i b s1 hb
      have := hm '='; rw [hb] at this
      exact hadd _ (by decide) _ this
    · rename_i b s1 hb
      have := hm '='; rw [hb] at this
      exact hadd _ (by decide) _ this
  rw [if_neg h]; clear h
  by_cases h : c = '>'
  · rw [if_pos h]
    split
    · rename_i b s1 hb
      have := hm '='; rw [hb] at this
      exact hadd _ (by decide) _ this
    · rename_i b s1 hb
      have := hm '='; rw [hb] at this
      exact hadd _ (by decide) _ this
  rw [if_neg h]; clear h
  by_cases h : c = '/'
  · rw [if_pos h]
    split
    · rename_i b s1 hb
      have := hm '/'; rw [hb] at this
      obtain ⟨s', hs', hle'⟩ := Scanner.commentLoop_ok (s1.source.length + 1) s1 this.le
        (by omega)
      exact ⟨s', hs', Scanner.Le.step this hle'⟩
    · rename_i b s1 hb
      have := hm '/'; rw [hb] at this
      exact hadd _ (by decide) _ this
  rw [if_neg h]; clear h
  by_cases h : c = ' ' ∨ c = '\r' ∨ c = '\t'
  · rw [if_pos h]; exact ⟨_, rfl, hr⟩
  rw [if_neg h]; clear h
  by_cases h : c = '\n'
  · rw [if_pos h]; exact ⟨_, rfl, Scanner.Le.move _ _ _ _ (Nat.le_refl _) h2⟩
  rw [if_neg h]; clear h
  by_cases h : c = '"'
  · rw [if_pos h]; exact Scanner.string_ok _ (by simp; omega) h2
  rw [if_neg h]; clear h
  by_cases h : isAlpha c = true
  · rw [if_pos h]; exact Scanner.identifier_ok _ (by simp; omega) h2
  rw [if_neg h]; clear h
  by_cases h : isDigit c = true
  · rw [if_pos h]; exact Scanner.number_ok _ (by simp; omega) h2
  rw [if_neg h]; clear h
  exact ⟨_, rfl, Scanner.Le.move _ _ _ _ (Nat.le_refl _) h2⟩

theorem Scanner.scanLoop_ok : ∀ (n : Nat) (s : Scanner), s.current ≤ s.source.length →
    s.source.length - s.current < n →
    ∃ s', Scanner.scanLoop n s = .ok s' ∧ s'.source = s.source ∧
      ∃ ex, s'.tokens = s.tokens ++ ex ∧ ∀ t ∈ ex, t.type ≠ TokenType.EOF
  | 0, s, _, hn => by omega
  | n + 1, s, hle, hn => by
    unfold Scanner.scanLoop
    split
    · rename_i hc
      have hlt : s.current < s.source.length := Scanner.isAtEnd_false (by simpa using hc)
      obtain ⟨s1, hs1, hle1, hlt1⟩ := Scanner.scanToken_ok { s with start := s.current } rfl hlt
      have hsrc : s1.source = s.source := hle1.source
      obtain ⟨s2, hs2, hsrc2, ex2, he2, hn2⟩ := Scanner.scanLoop_ok n s1 hle1.le
        (by rw [hsrc]; simp at hlt1; omega)
      obtain ⟨ex1, he1, hn1⟩ := hle1.toks
      refine ⟨s2, ?_, hsrc2.trans hsrc, ex1 ++ ex2, ?_, ?_⟩
      · simp only [hs1, bind, Except.bind, hs2]
      · rw [he2, he1, List.append_assoc]
      · intro t ht
        rcases List.mem_append.mp ht with h | h
        · exact hn1 t h
        · exact hn2 t h
    · exact ⟨s, rfl, rfl, [], by simp, by simp⟩

/-- C6: for every source string, `ScanTokens` returns, and the token list it returns is a
list of tokens none of which has type EOF, followed by exactly one EOF token with empty
lexeme, nil literal and the line of the scanner's final line counter. -/
theorem ScanTokens_ends_in_single_EOF (source : String) (errors : Errors) :
    ∃ (s' : Scanner) (toks : List Token),
      (NewScanner source errors).ScanTokens = Except.ok s' ∧
      s'.tokens = toks ++ [⟨TokenType.EOF, "", LiteralValue.nil, s'.line⟩] ∧
      ∀ t ∈ toks, t.type ≠ TokenType.EOF := by
  obtain ⟨s1, hs1, _, ex, hex, hn⟩ := Scanner.scanLoop_ok ((NewScanner source errors).source.length + 1)
    (NewScanner source errors) (Nat.zero_le _) (by simp [NewScanner])
  refine ⟨{ s1 with tokens := s1.tokens ++ [⟨TokenType.EOF, "", LiteralValue.nil, s1.line⟩] },
    ex, ?_, ?_, hn⟩
  · unfold Scanner.ScanTokens
    simp only [hs1, bind, Except.bind, pure, Except.pure]
  · simp [hex, NewScanner]

/-! ## Maps -/

theorem Map.get_set_self {κ α : Type} [DecidableEq κ] : ∀ (m : Map κ α) (k : κ) (v : α),
    Map.get (Map.set m k v) k = some v
  | [], k, v => by simp [Map.set, Map.get]
  | (k', w) :: m, k, v => by
    unfold Map.set
    by_cases h : k' = k
    · simp [h, Map.get]
    · simp [h, Map.get, Map.get_set_self m k v]

theorem Map.get_set_ne {κ α : Type} [DecidableEq κ] : ∀ (m : Map κ α) (k k' : κ) (v : α),
    k ≠ k' → Map.get (Map.set m k v) k' = Map.get m k'
  | [], k, k', v, h => by simp [Map.set, Map.get, h]
  | (k0, w) :: m, k, k', v, h => by
    unfold Map.set
    by_cases h0 : k0 = k
    · subst h0
      simp [Map.get, h]
    · by_cases h1 : k0 = k'
      · subst h1
        simp [h0, Map.get]
      · simp [h0, h1, Map.get, Map.get_set_ne m k k' v h]

/-! ## Frames -/

theorem setFrame_last (envs : List Environment) (fr : Environment) (name : String) (v : Value) :
    setFrame (envs ++ [fr]) envs.length name v =
      envs ++ [{ fr with values := Map.set fr.values name v }] := by
  unfold setFrame
  simp

/-- C7: on `var 1; var 2;` the first declaration fails to parse; `Parse` reports that
error, returns it at once with the parser still at the token `1`, and the parse error
of the second declaration is never reported.  Inside a block the same two
declarations are both reported, because `block` synchronizes. -/
theorem Parse_returns_at_first_top_level_error :
    parseReport "var 1; var 2;" =
      some (true, 1, ["[line 1] Error at '1': Expect variable name."]) ∧
    parseReport "{ var 1; var 2; }" =
      some (false, 8, ["[line 1] Error at '1': Expect variable name.",
        "[line 1] Error at '2': Expect variable name."]) := by
  decide!

/-- C8: the block `{ class A {} class A {} }` declares the name `A` twice in one
non-global scope and `Resolve` returns no error and reports nothing, while the same
redeclaration by `var` or `fun` is an error. -/
theorem Resolve_accepts_class_redeclared_in_block :
    resolveReport "{ class A {} class A {} }" = some (none, []) ∧
    resolveReport "{ var A; class A {} }" = some (none, []) ∧
    resolveReport "{ class A {} var A; }" =
      some (some "Already a variable with this name in this scope.",
        ["Resolver Error: Already a variable with this name in this scope."]) ∧
    resolveReport "{ fun A() {} fun A() {} }" =
      some (some "Already a variable with this name in this scope.",
        ["Resolver Error: Already a variable with this name in this scope."]) := by
  decide!

/-- C4: the initializer of `A` raises the runtime error "Operand must be a number.";
the call `A()` nevertheless returns the instance, which is printed, the next
statement runs, nothing is reported and the runtime-error flag stays clear. -/
theorem LoxClass_Call_drops_initializer_error :
    runFile 40 "class A { init() { -nil; } } print A(); print \"next\";" =
      some (["<A instance>", "next"], ⟨false, false, []⟩) ∧
    runFile 40 "class A { init() { -nil; } } A().init();" =
      some ([], ⟨false, true, ["[line 1] Runtime Error: Operand must be a number."]⟩) := by
  decide!

theorem interpretLoop_append (exec : Stmt → Interpreter → Res Unit) :
    ∀ (pre rest : List Stmt) (i0 i1 : Interpreter),
      interpretLoop exec pre i0 = Res.ok () i1 →
      interpretLoop exec (pre ++ rest) i0 = interpretLoop exec rest i1
  | [], rest, i0, i1, h => by
    simp only [interpretLoop] at h
    cases h
    rfl
  | s :: pre, rest, i0, i1, h => by
    simp only [interpretLoop, List.cons_append] at h ⊢
    cases hs : exec s i0 with
    | ok a j =>
      rw [hs] at h
      exact interpretLoop_append exec pre rest j i1 h
    | err e j =>
      rw [hs] at h
      cases e with
      | RuntimeError t m => cases h
      | Return v => exact interpretLoop_append exec pre rest j i1 h
      | errorString m => exact interpretLoop_append exec pre rest j i1 h
    | panic m j => rw [hs] at h; cases h
    | outOfFuel => rw [hs] at h; cases h

/-- C5: if the loop of `Interpret` gets through the statements `pre` and executing the
next statement `s` returns the runtime error `(token, message)` in state `i2`, then
`Interpret` returns that error, its final state is `i2` with one line
"[line L] Runtime Error: message" (L the line of `token`) added to stderr and the
runtime-error flag set, whatever statements `post` follow: none of them is executed. -/
theorem Interpret_reports_runtime_error_and_stops (fuel : Nat) (pre post : List Stmt)
    (s : Stmt) (i0 i1 i2 : Interpreter) (token : Token) (message : String)
    (hpre : interpretLoop (execute fuel) pre i0 = Res.ok () i1)
    (hs : execute fuel s i1 = Res.err (Err.RuntimeError token message) i2) :
    Interpret fuel i0 (pre ++ s :: post) =
      some (some (Err.RuntimeError token message),
        { i2 with errors :=
            { HadError := i2.errors.HadError
              HadRuntimeError := true
              stderr := i2.errors.stderr ++
                ["[line " ++ toString token.Line ++ "] Runtime Error: " ++ message] } }) := by
  unfold Interpret
  rw [interpretLoop_append (execute fuel) pre (s :: post) i0 i1 hpre]
  simp only [interpretLoop, hs]
  rfl

/-- C5 at the statements `-nil; print "b";` (no statement before the failing one): the
negation of nil fails, and nothing is printed. -/
theorem Interpret_reports_runtime_error_and_stops_witness :
    interpretLoop (execute 3) [] (NewInterpreter Errors.init fun _ => 0) =
      Res.ok () (NewInterpreter Errors.init fun _ => 0) ∧
    execute 3 (Stmt.ExpressionStmt (Expr.Unary ⟨TokenType.MINUS, "-", LiteralValue.nil, 7⟩
        (Expr.Literal LiteralValue.nil))) (NewInterpreter Errors.init fun _ => 0) =
      Res.err (Err.RuntimeError ⟨TokenType.MINUS, "-", LiteralValue.nil, 7⟩
        "Operand must be a number.") (NewInterpreter Errors.init fun _ => 0) ∧
    Interpret 3 (NewInterpreter Errors.init fun _ => 0)
        ([] ++ Stmt.ExpressionStmt (Expr.Unary ⟨TokenType.MINUS, "-", LiteralValue.nil, 7⟩
          (Expr.Literal LiteralValue.nil)) ::
          [Stmt.PrintStmt (Expr.Literal (LiteralValue.string "b"))]) =
      some (some (Err.RuntimeError ⟨TokenType.MINUS, "-", LiteralValue.nil, 7⟩
          "Operand must be a number."),
        { (NewInterpreter Errors.init fun _ => 0) with errors :=
            { HadError := false
              HadRuntimeError := true
              stderr := [] ++ ["[line " ++ toString 7 ++ "] Runtime Error: " ++
                "Operand must be a number."] } }) :=
  ⟨rfl, rfl, Interpret_reports_runtime_error_and_stops 3 [] _ _ _ _ _ _ _ rfl rfl⟩

/-! ## The frame of a call -/

theorem defineParams_last : ∀ (params : List Token) (arguments : List Value) (i : Interpreter)
    (envs : List Environment) (fr : Environment), params.length ≤ arguments.length →
    defineParams envs.length params arguments { i with envs := envs ++ [fr] } =
      Res.ok () { i with envs := envs ++ [{ fr with values := bindAll fr.values params arguments }] }
  | [], arguments, i, envs, fr, _ => by
    cases arguments <;> simp [defineParams, bindAll]
  | p :: ps, [], i, envs, fr, h => by simp at h
  | p :: ps, a :: as, i, envs, fr, h => by
    simp only [defineParams, Interpreter.Define, setFrame_last, bindAll]
    exact defineParams_last ps as _ envs _ (by simpa using h)

theorem bindAll_get_of_not_mem : ∀ (params : List Token) (arguments : List Value)
    (m : Map String Value) (name : String), name ∉ params.map Token.Lexeme →
    Map.get (bindAll m params arguments) name = Map.get m name
  | [], _, m, name, _ => by simp [bindAll]
  | p :: ps, [], m, name, _ => by simp [bindAll]
  | p :: ps, a :: as, m, name, h => by
    simp only [bindAll]
    simp only [List.map_cons, List.mem_cons, not_or] at h
    rw [bindAll_get_of_not_mem ps as _ name h.2]
    exact Map.get_set_ne m p.Lexeme name a (fun e => h.1 e.symm)

theorem bindAll_get : ∀ (params : List Token) (arguments : List Value) (m : Map String Value),
    (params.map Token.Lexeme).Nodup →
    ∀ (k : Nat) (hk : k < params.length) (ha : k < arguments.length),
      Map.get (bindAll m params arguments) (params[k]).Lexeme = some (arguments[k])
  | [], _, _, _, k, hk, _ => by simp at hk
  | p :: ps, [], _, _, k, _, ha => by simp at ha
  | p :: ps, a :: as, m, hnd, k, hk, ha => by
    simp only [List.map_cons, List.nodup_cons] at hnd
    simp only [bindAll]
    cases k with
    | zero =>
      simp only [List.getElem_cons_zero]
      rw [bindAll_get_of_not_mem ps as _ p.Lexeme hnd.1]
      exact Map.get_set_self m p.Lexeme a
    | succ k =>
      simp only [List.getElem_cons_succ]
      exact bindAll_get ps as _ hnd.2 k (by simpa using hk) (by simpa using ha)

/-- C1: a function declaration captures the environment that is current when it is
executed, and a call of a function `f` whose parameters have pairwise different names,
with as many arguments as parameters, executes the body of `f` with the current
environment set to a new frame (the next free position of the heap) whose parent is
`f.Closure`, whatever the environment at the call site is, and in which each parameter
is bound to the argument at the same position and nothing else is bound; the result
of the call is obtained from the result of the body as in `LoxFunction.Call`. -/
theorem Call_runs_body_in_new_frame_over_closure (n : Nat) (f : LoxFunction)
    (arguments : List Value) (i : Interpreter)
    (harity : arguments.length = f.Arity)
    (hparams : (f.Declaration.Params.map Token.Lexeme).Nodup) :
    (∀ (stmt : FunctionStmt) (j : Interpreter),
      execute (n + 1) (Stmt.Function stmt) j =
        Res.ok () (Interpreter.Define { j with nextPtr := j.nextPtr + 1 } j.environment
          stmt.Name.Lexeme (Value.function ⟨j.nextPtr, stmt, j.environment, false⟩))) ∧
    ∃ frame : Environment,
      frame.Enclosing = some f.Closure ∧
      (∀ (k : Nat) (hk : k < f.Declaration.Params.length) (ha : k < arguments.length),
        Map.get frame.values (f.Declaration.Params[k]).Lexeme = some (arguments[k])) ∧
      (∀ name : String, name ∉ f.Declaration.Params.map Token.Lexeme →
        Map.get frame.values name = none) ∧
      callFunction (n + 1) f arguments i =
        match restoreEnvironment i.environment
            (executeStatements (execute n) f.Declaration.Body
              { i with envs := i.envs ++ [frame], environment := i.envs.length }) with
        | Res.err (Err.Return returnValue) j =>
          if f.IsInitializer then (GetAt j.envs f.Closure 0 "this").toRes j
          else Res.ok returnValue j
        | Res.err e j => Res.err e j
        | Res.ok _ j =>
          if f.IsInitializer then (GetAt j.envs f.Closure 0 "this").toRes j
          else Res.ok Value.nil j
        | Res.panic m j => Res.panic m j
        | Res.outOfFuel => Res.outOfFuel := by
  refine ⟨fun stmt j => rfl, ?_⟩
  refine ⟨⟨some f.Closure, bindAll [] f.Declaration.Params arguments⟩, rfl, ?_, ?_, ?_⟩
  · intro k hk ha
    exact bindAll_get _ _ _ hparams k hk ha
  · intro name hname
    rw [bindAll_get_of_not_mem _ _ _ name hname]
    rfl
  · have hd := defineParams_last f.Declaration.Params arguments i i.envs ⟨some f.Closure, []⟩
      (by rw [harity]; exact Nat.le_refl _)
    unfold callFunction
    simp only [NewEnvironment, hd, Res.bind, executeBlockWithReturn]
    try rfl

/-- C1 at `fun f(a, b) { print a; }` called with "x" and "y": the new frame has the
closure (the global environment, 0) as parent, binds `a` to "x" and `b` to "y". -/
theorem Call_runs_body_in_new_frame_over_closure_witness :
    [Value.string "x", Value.string "y"].length = sampleFunction.Arity ∧
    (sampleFunction.Declaration.Params.map Token.Lexeme).Nodup ∧
    ∃ frame : Environment,
      frame.Enclosing = some 0 ∧
      Map.get frame.values "a" = some (Value.string "x") ∧
      Map.get frame.values "b" = some (Value.string "y") ∧
      Map.get frame.values "f" = none := by
  have hnd : (sampleFunction.Declaration.Params.map Token.Lexeme).Nodup := by decide
  obtain ⟨_, frame, h1, h2, h3, _⟩ := Call_runs_body_in_new_frame_over_closure 1 sampleFunction
    [Value.string "x", Value.string "y"] sampleInterpreter rfl hnd
  exact ⟨rfl, hnd, frame, h1, h2 0 (by decide) (by decide), h2 1 (by decide) (by decide),
    h3 "f" (by decide)⟩

theorem executeStatements_append (exec : Stmt → Interpreter → Res Unit) :
    ∀ (pre rest : List Stmt) (i i1 : Interpreter),
      executeStatements exec pre i = Res.ok () i1 →
      executeStatements exec (pre ++ rest) i = executeStatements exec rest i1
  | [], rest, i, i1, h => by
    simp only [executeStatements] at h
    cases h
    rfl
  | s :: pre, rest, i, i1, h => by
    simp only [executeStatements, List.cons_append] at h ⊢
    cases hs : exec s i with
    | ok a j =>
      rw [hs] at h
      simp only [Res.bind] at h ⊢
      exact executeStatements_append exec pre rest j i1 h
    | err e j => rw [hs] at h; simp [Res.bind] at h
    | panic m j => rw [hs] at h; simp [Res.bind] at h
    | outOfFuel => rw [hs] at h; simp [Res.bind] at h

/-- An error from a statement ends the list: the statements after it are not run. -/
theorem executeStatements_stops (exec : Stmt → Interpreter → Res Unit)
    (pre post : List Stmt) (s : Stmt) (i i1 j : Interpreter) (e : Err)
    (hpre : executeStatements exec pre i = Res.ok () i1) (hs : exec s i1 = Res.err e j) :
    executeStatements exec (pre ++ s :: post) i = Res.err e j := by
  rw [executeStatements_append exec pre (s :: post) i i1 hpre]
  simp only [executeStatements, hs, Res.bind]

/-- A return statement reached inside blocks, branches and loops makes `execute`
return the return signal with its value. -/
theorem Unwinds_execute : ∀ n : Nat,
    (∀ s i v j, Unwinds n s i v j → execute n s i = Res.err (Err.Return v) j) ∧
    (∀ c b i v j, UnwindsLoop n c b i v j → whileLoop n c b i = Res.err (Err.Return v) j)
  | 0 => by
    constructor
    · intro s i v j h; cases h
    · intro c b i v j h; cases h
  | n + 1 => by
    have ih := Unwinds_execute n
    constructor
    · intro s i v j h
      cases h with
      | returnValue hnil hev =>
        simp only [execute, hnil, hev, Res.bind]
        rfl
      | returnBare =>
        simp only [execute, Expr.isNil, Res.bind]
        rfl
      | block hpre hs =>
        rename_i pre s' post i1 j'
        simp only [execute, NewEnvironment, executeBlock]
        rw [executeStatements_stops (execute n) pre post s' _ i1 j' (Err.Return v) hpre
          (ih.1 _ _ _ _ hs)]
        rfl
      | ifThen hc ht hs =>
        simp only [execute, hc, Res.bind, ht, if_true]
        exact ih.1 _ _ _ _ hs
      | ifElse hc ht hnil hs =>
        simp only [execute, hc, Res.bind, ht, hnil]
        exact ih.1 _ _ _ _ hs
      | whileBody hl =>
        simp only [execute]
        exact ih.2 _ _ _ _ _ hl
    · intro c b i v j h
      cases h with
      | now hc ht hs =>
        simp only [whileLoop, hc, Res.bind, ht, ih.1 _ _ _ _ hs]
        rfl
      | later hc ht hb hl =>
        simp only [whileLoop, hc, Res.bind, ht, hb]
        exact ih.2 _ _ _ _ _ hl

theorem defineParams_environment (environment : Nat) : ∀ (params : List Token)
    (arguments : List Value) (i ib : Interpreter),
    defineParams environment params arguments i = Res.ok () ib → ib.environment = i.environment
  | [], _, i, ib, h => by
    simp only [defineParams] at h
    cases h
    rfl
  | p :: ps, [], i, ib, h => by simp [defineParams] at h
  | p :: ps, a :: as, i, ib, h => by
    simp only [defineParams] at h
    have := defineParams_environment environment ps as (i.Define environment p.Lexeme a) ib h
    exact this

/-- C3, amended: take a call of a function `f`, `ib` being the state in which the
parameters are bound in the new frame.  If the statements `pre` of the body complete and
the next statement `s` executes a return statement carrying `v`, at any depth inside
blocks, branches of `if` and bodies of `while` (`Unwinds`), then the call returns with a
nil error in the state the return statement left (the environment pointer restored): no
statement of `post` is executed and the return signal stops at the call.  What the call
returns is `v` when `f` is not an initializer, and what frame 0 of the closure binds to
`this` when `f` is an initializer.  If the statements of the body of a function that is
not an initializer all complete, the call returns nil. -/
theorem Call_returns_value_of_nested_return (n : Nat) (f : LoxFunction)
    (arguments : List Value) (i ib : Interpreter)
    (hbind : defineParams i.envs.length f.Declaration.Params arguments
      { i with envs := i.envs ++ [⟨some f.Closure, []⟩] } = Res.ok () ib) :
    (∀ (pre post : List Stmt) (s : Stmt) (i1 j : Interpreter) (v : Value),
      f.Declaration.Body = pre ++ s :: post →
      executeStatements (execute n) pre { ib with environment := i.envs.length } = Res.ok () i1 →
      Unwinds n s i1 v j →
      callFunction (n + 1) f arguments i =
        if f.IsInitializer then
          (GetAt j.envs f.Closure 0 "this").toRes { j with environment := i.environment }
        else Res.ok v { j with environment := i.environment }) ∧
    (∀ j : Interpreter,
      executeStatements (execute n) f.Declaration.Body
        { ib with environment := i.envs.length } = Res.ok () j →
      f.IsInitializer = false →
      callFunction (n + 1) f arguments i =
        Res.ok Value.nil { j with environment := i.environment }) := by
  have henv : ib.environment = i.environment :=
    defineParams_environment i.envs.length f.Declaration.Params arguments
      { i with envs := i.envs ++ [⟨some f.Closure, []⟩] } ib hbind
  constructor
  · intro pre post s i1 j v hbody hpre hs
    have h := executeStatements_stops (execute n) pre post s _ i1 j (Err.Return v) hpre
      ((Unwinds_execute n).1 _ _ _ _ hs)
    unfold callFunction
    simp only [NewEnvironment, hbind, Res.bind, executeBlockWithReturn, hbody, h,
      restoreEnvironment, henv]
  · intro j hj hinit
    unfold callFunction
    simp only [NewEnvironment, hbind, Res.bind, executeBlockWithReturn, hj,
      restoreEnvironment, hinit, henv]
    try rfl

/-- C3 at `fun g() { if (true) { return "r"; print "x"; } print "no"; }`: the call
returns "r", prints nothing, and leaves the environment pointer where it was. -/
theorem Call_returns_value_of_nested_return_witness :
    sampleReturning.IsInitializer = false ∧
    defineParams sampleInterpreter.envs.length sampleReturning.Declaration.Params []
      { sampleInterpreter with envs := sampleInterpreter.envs ++ [⟨some sampleReturning.Closure, []⟩] } =
      Res.ok () { sampleInterpreter with envs := sampleInterpreter.envs ++ [⟨some 0, []⟩] } ∧
    callFunction 5 sampleReturning [] sampleInterpreter =
      Res.ok (Value.string "r")
        { sampleInterpreter with
          envs := sampleInterpreter.envs ++ [⟨some 0, []⟩] ++ [⟨some 1, []⟩] } :=
  ⟨rfl, rfl,
    (Call_returns_value_of_nested_return 4 sampleReturning [] sampleInterpreter
      { sampleInterpreter with envs := sampleInterpreter.envs ++ [⟨some 0, []⟩] } rfl).1
      [] [Stmt.PrintStmt (Expr.Literal (LiteralValue.string "no"))] sampleNestedReturn
      { sampleInterpreter with envs := sampleInterpreter.envs ++ [⟨some 0, []⟩], environment := 1 }
      { sampleInterpreter with
        envs := sampleInterpreter.envs ++ [⟨some 0, []⟩] ++ [⟨some 1, []⟩], environment := 1 }
      (Value.string "r") rfl rfl
      (@Unwinds.ifThen 3 (Expr.Literal (LiteralValue.bool true)) _ Stmt.nil
        { sampleInterpreter with
          envs := sampleInterpreter.envs ++ [⟨some 0, []⟩], environment := 1 }
        (Value.bool true)
        { sampleInterpreter with
          envs := sampleInterpreter.envs ++ [⟨some 0, []⟩], environment := 1 }
        (Value.string "r")
        { sampleInterpreter with
          envs := sampleInterpreter.envs ++ [⟨some 0, []⟩] ++ [⟨some 1, []⟩], environment := 1 }
        rfl rfl
        (@Unwinds.block 2 []
          (Stmt.ReturnStmt (sampleToken TokenType.RETURN "return")
            (Expr.Literal (LiteralValue.string "r")))
          [Stmt.PrintStmt (Expr.Literal (LiteralValue.string "x"))]
          { sampleInterpreter with
            envs := sampleInterpreter.envs ++ [⟨some 0, []⟩], environment := 1 }
          { sampleInterpreter with
            envs := sampleInterpreter.envs ++ [⟨some 0, []⟩] ++ [⟨some 1, []⟩],
            environment := 2 }
          (Value.string "r")
          { sampleInterpreter with
            envs := sampleInterpreter.envs ++ [⟨some 0, []⟩] ++ [⟨some 1, []⟩],
            environment := 2 } rfl
          (@Unwinds.returnValue 1 (sampleToken TokenType.RETURN "return")
            (Expr.Literal (LiteralValue.string "r")) _ _ _ rfl rfl)))⟩

/-- C3 as stated fails for an initializer: the body of `init() \x7b return; \x7d` executes
a return statement that carries nil, and the call, on the method bound to the instance 0,
yields the instance 0; the script `class A \x7b init() \x7b return; \x7d \x7d` with
`print A().init();` prints the instance. -/
theorem Call_of_initializer_yields_instance :
    Unwinds 2 (Stmt.ReturnStmt (sampleToken TokenType.RETURN "return") Expr.nil)
      { sampleBoundState with
        envs := sampleBoundState.envs ++ [⟨some 1, []⟩], environment := 2 }
      Value.nil
      { sampleBoundState with
        envs := sampleBoundState.envs ++ [⟨some 1, []⟩], environment := 2 } ∧
    callFunction 3
        (sampleInitializer [Stmt.ReturnStmt (sampleToken TokenType.RETURN "return") Expr.nil])
        [] sampleBoundState =
      Res.ok (Value.instance 0)
        { sampleBoundState with envs := sampleBoundState.envs ++ [⟨some 1, []⟩] } ∧
    runFile 60 ("class A \x7b init() \x7b return; \x7d \x7d print A().init();") =
      some (["<A instance>"], ⟨false, false, []⟩) :=
  ⟨Unwinds.returnBare, rfl, by decide!⟩

/-! ## The resolver: what a call that returns no error leaves unchanged -/

theorem Resolver.Same.same_refl (r : Resolver) : Resolver.Same r r := ⟨rfl, rfl, rfl⟩

theorem Resolver.Same.andSame {a b c : Resolver} (h1 : Resolver.Same a b)
    (h2 : Resolver.Same b c) : Resolver.Same a c :=
  ⟨h2.depth.trans h1.depth, h2.fn.trans h1.fn, h2.cls.trans h1.cls⟩

theorem RRes.andThen_ok {x : RRes} {f : Resolver → RRes} {r' : Resolver}
    (h : x.andThen f = RRes.ok r') : ∃ r1, x = RRes.ok r1 ∧ f r1 = RRes.ok r' := by
  cases x with
  | ok r1 => exact ⟨r1, rfl, h⟩
  | err m r1 => simp [RRes.andThen] at h
  | panic m => simp [RRes.andThen] at h

theorem Resolver.resolveLocalLoop_scopes (r : Resolver) (id : Nat) (name : Token) :
    ∀ (scopes : List (Map String Bool)) (depth : Nat),
      (r.resolveLocalLoop id name scopes depth).scopes = r.scopes ∧
      (r.resolveLocalLoop id name scopes depth).currentFunction = r.currentFunction ∧
      (r.resolveLocalLoop id name scopes depth).currentClass = r.currentClass
  | [], depth => by simp [Resolver.resolveLocalLoop]
  | scope :: rest, depth => by
    unfold Resolver.resolveLocalLoop
    split
    · split <;> simp
    · exact Resolver.resolveLocalLoop_scopes r id name rest (depth + 1)

theorem Resolver.resolveLocal_scopes (r : Resolver) (id : Nat) (name : Token) :
    (r.resolveLocal id name).scopes = r.scopes ∧
    (r.resolveLocal id name).currentFunction = r.currentFunction ∧
    (r.resolveLocal id name).currentClass = r.currentClass :=
  Resolver.resolveLocalLoop_scopes r id name r.scopes 0

theorem Resolver.Kept.kept_refl (r : Resolver) : Resolver.Kept r r := ⟨rfl, rfl, rfl⟩

theorem Resolver.Kept.andKept {a b c : Resolver} (h1 : Resolver.Kept a b)
    (h2 : Resolver.Kept b c) : Resolver.Kept a c :=
  ⟨h2.scopes.trans h1.scopes, h2.fn.trans h1.fn, h2.cls.trans h1.cls⟩

theorem Resolver.Kept.same {a b : Resolver} (h : Resolver.Kept a b) : Resolver.Same a b :=
  ⟨by rw [h.scopes], h.fn, h.cls⟩

theorem Resolver.Kept.resolveLocal (r : Resolver) (id : Nat) (name : Token) :
    Resolver.Kept r (r.resolveLocal id name) :=
  ⟨(Resolver.resolveLocal_scopes r id name).1, (Resolver.resolveLocal_scopes r id name).2.1,
    (Resolver.resolveLocal_scopes r id name).2.2⟩

theorem Resolver.VisitVariableExpr_kept (r r' : Resolver) (v : Variable)
    (h : r.VisitVariableExpr v = RRes.ok r') : Resolver.Kept r r' := by
  unfold Resolver.VisitVariableExpr at h
  split at h
  · split at h
    · cases h
    · cases h; exact Resolver.Kept.resolveLocal r v.id v.Name
  · cases h; exact Resolver.Kept.resolveLocal r v.id v.Name

mutual
theorem Resolver.resolveExpr_kept : ∀ (e : Expr) (r r' : Resolver),
    Resolver.resolveExpr e r = RRes.ok r' → Resolver.Kept r r'
  | .nil, r, r', h => by simp [Resolver.resolveExpr] at h
  | .Binary l _ rt, r, r', h => by
    simp only [Resolver.resolveExpr] at h
    obtain ⟨r1, h1, h2⟩ := RRes.andThen_ok h
    exact (Resolver.resolveExpr_kept l r r1 h1).andKept (Resolver.resolveExpr_kept rt r1 r' h2)
  | .Grouping e, r, r', h => by
    simp only [Resolver.resolveExpr] at h
    exact Resolver.resolveExpr_kept e r r' h
  | .Literal _, r, r', h => by
    simp only [Resolver.resolveExpr] at h
    cases h; exact Resolver.Kept.kept_refl r
  | .Unary _ rt, r, r', h => by
    simp only [Resolver.resolveExpr] at h
    exact Resolver.resolveExpr_kept rt r r' h
  | .Variable v, r, r', h => by
    simp only [Resolver.resolveExpr] at h
    exact Resolver.VisitVariableExpr_kept r r' v h
  | .Assign id name value, r, r', h => by
    simp only [Resolver.resolveExpr] at h
    obtain ⟨r1, h1, h2⟩ := RRes.andThen_ok h
    cases h2
    exact (Resolver.resolveExpr_kept value r r1 h1).andKept (Resolver.Kept.resolveLocal r1 id name)
  | .Logical l _ rt, r, r', h => by
    simp only [Resolver.resolveExpr] at h
    obtain ⟨r1, h1, h2⟩ := RRes.andThen_ok h
    exact (Resolver.resolveExpr_kept l r r1 h1).andKept (Resolver.resolveExpr_kept rt r1 r' h2)
  | .Call callee _ args, r, r', h => by
    simp only [Resolver.resolveExpr] at h
    obtain ⟨r1, h1, h2⟩ := RRes.andThen_ok h
    exact (Resolver.resolveExpr_kept callee r r1 h1).andKept
      (Resolver.resolveArguments_kept args r1 r' h2)
  | .Get obj _, r, r', h => by
    simp only [Resolver.resolveExpr] at h
    exact Resolver.resolveExpr_kept obj r r' h
  | .Set obj _ value, r, r', h => by
    simp only [Resolver.resolveExpr] at h
    obtain ⟨r1, h1, h2⟩ := RRes.andThen_ok h
    exact (Resolver.resolveExpr_kept value r r1 h1).andKept (Resolver.resolveExpr_kept obj r1 r' h2)
  | .This id kw, r, r', h => by
    simp only [Resolver.resolveExpr, Resolver.VisitThisExpr] at h
    split at h
    · cases h
    · cases h; exact Resolver.Kept.resolveLocal r id kw
  | .Super id kw _, r, r', h => by
    simp only [Resolver.resolveExpr, Resolver.VisitSuperExpr] at h
    split at h
    · cases h
    · split at h
      · cases h
      · cases h; exact Resolver.Kept.resolveLocal r id kw
theorem Resolver.resolveArguments_kept : ∀ (args : List Expr) (r r' : Resolver),
    Resolver.resolveArguments args r = RRes.ok r' → Resolver.Kept r r'
  | [], r, r', h => by
    simp only [Resolver.resolveArguments] at h
    cases h; exact Resolver.Kept.kept_refl r
  | a :: rest, r, r', h => by
    simp only [Resolver.resolveArguments] at h
    obtain ⟨r1, h1, h2⟩ := RRes.andThen_ok h
    exact (Resolver.resolveExpr_kept a r r1 h1).andKept (Resolver.resolveArguments_kept rest r1 r' h2)
end

theorem Resolver.VisitVariableExpr_ne_panic (r : Resolver) (v : Variable) (m : String) :
    r.VisitVariableExpr v ≠ RRes.panic m := by
  unfold Resolver.VisitVariableExpr
  split
  · split <;> simp
  · simp

theorem RRes.andThen_ne_panic {x : RRes} {f : Resolver → RRes} {m : String}
    (hx : x ≠ RRes.panic m) (hf : ∀ r, f r ≠ RRes.panic m) : x.andThen f ≠ RRes.panic m := by
  cases x with
  | ok r1 => exact hf r1
  | err m' r1 => simp [RRes.andThen]
  | panic m' => simpa [RRes.andThen] using hx

mutual
/-- An expression without nil sub-expression is resolved without panic. -/
theorem Resolver.resolveExpr_ne_panic : ∀ (e : Expr) (r : Resolver) (m : String),
    e.noNil = true → Resolver.resolveExpr e r ≠ RRes.panic m
  | .nil, r, m, h => by simp [Expr.noNil] at h
  | .Binary l _ rt, r, m, h => by
    simp only [Expr.noNil, Bool.and_eq_true] at h
    simp only [Resolver.resolveExpr]
    exact RRes.andThen_ne_panic (Resolver.resolveExpr_ne_panic l r m h.1)
      (fun r1 => Resolver.resolveExpr_ne_panic rt r1 m h.2)
  | .Grouping e, r, m, h => by
    simp only [Expr.noNil] at h
    simp only [Resolver.resolveExpr]
    exact Resolver.resolveExpr_ne_panic e r m h
  | .Literal _, r, m, h => by simp [Resolver.resolveExpr]
  | .Unary _ rt, r, m, h => by
    simp only [Expr.noNil] at h
    simp only [Resolver.resolveExpr]
    exact Resolver.resolveExpr_ne_panic rt r m h
  | .Variable v, r, m, h => by
    simp only [Resolver.resolveExpr]
    exact Resolver.VisitVariableExpr_ne_panic r v m
  | .Assign id name value, r, m, h => by
    simp only [Expr.noNil] at h
    simp only [Resolver.resolveExpr]
    exact RRes.andThen_ne_panic (Resolver.resolveExpr_ne_panic value r m h) (fun r1 => by simp)
  | .Logical l _ rt, r, m, h => by
    simp only [Expr.noNil, Bool.and_eq_true] at h
    simp only [Resolver.resolveExpr]
    exact RRes.andThen_ne_panic (Resolver.resolveExpr_ne_panic l r m h.1)
      (fun r1 => Resolver.resolveExpr_ne_panic rt r1 m h.2)
  | .Call callee _ args, r, m, h => by
    simp only [Expr.noNil, Bool.and_eq_true] at h
    simp only [Resolver.resolveExpr]
    exact RRes.andThen_ne_panic (Resolver.resolveExpr_ne_panic callee r m h.1)
      (fun r1 => Resolver.resolveArguments_ne_panic args r1 m h.2)
  | .Get obj _, r, m, h => by
    simp only [Expr.noNil] at h
    simp only [Resolver.resolveExpr]
    exact Resolver.resolveExpr_ne_panic obj r m h
  | .Set obj _ value, r, m, h => by
    simp only [Expr.noNil, Bool.and_eq_true] at h
    simp only [Resolver.resolveExpr]
    exact RRes.andThen_ne_panic (Resolver.resolveExpr_ne_panic value r m h.2)
      (fun r1 => Resolver.resolveExpr_ne_panic obj r1 m h.1)
  | .This id kw, r, m, h => by
    simp only [Resolver.resolveExpr, Resolver.VisitThisExpr]
    split <;> simp
  | .Super id kw _, r, m, h => by
    simp only [Resolver.resolveExpr, Resolver.VisitSuperExpr]
    split
    · simp
    · split <;> simp
theorem Resolver.resolveArguments_ne_panic : ∀ (args : List Expr) (r : Resolver) (m : String),
    Expr.noNilList args = true → Resolver.resolveArguments args r ≠ RRes.panic m
  | [], r, m, h => by simp [Resolver.resolveArguments]
  | a :: rest, r, m, h => by
    simp only [Expr.noNilList, Bool.and_eq_true] at h
    simp only [Resolver.resolveArguments]
    exact RRes.andThen_ne_panic (Resolver.resolveExpr_ne_panic a r m h.1)
      (fun r1 => Resolver.resolveArguments_ne_panic rest r1 m h.2)
end

theorem Expr.noNil_of_mem : ∀ (args : List Expr) (a : Expr), a ∈ args →
    Expr.noNilList args = true → a.noNil = true
  | [], a, h, _ => by simp at h
  | b :: rest, a, h, hn => by
    simp only [Expr.noNilList, Bool.and_eq_true] at hn
    rcases List.mem_cons.mp h with h | h
    · subst h; exact hn.1
    · exact Expr.noNil_of_mem rest a h hn.2

/-- Without panic, a result is an error or is `ok`. -/
theorem RRes.ok_or_err (x : RRes) (h : ∀ m, x ≠ RRes.panic m) :
    (∃ r, x = RRes.ok r) ∨ ∃ m r, x = RRes.err m r := by
  cases x with
  | ok r => exact Or.inl ⟨r, rfl⟩
  | err m r => exact Or.inr ⟨m, r, rfl⟩
  | panic m => exact absurd rfl (h m)

/-- The arguments of a call: if one of them cannot be resolved from any state with the
given scopes, the loop over them returns an error. -/
theorem Resolver.resolveArguments_err_of_mem (scopes : List (Map String Bool)) :
    ∀ (args : List Expr) (a : Expr), a ∈ args → Expr.noNilList args = true →
    (∀ r : Resolver, r.scopes = scopes → ∃ m r', Resolver.resolveExpr a r = RRes.err m r') →
    ∀ r : Resolver, r.scopes = scopes → ∃ m r', Resolver.resolveArguments args r = RRes.err m r'
  | [], a, h, _, _, _, _ => by simp at h
  | b :: rest, a, h, hn, ha, r, hr => by
    simp only [Expr.noNilList, Bool.and_eq_true] at hn
    simp only [Resolver.resolveArguments]
    rcases List.mem_cons.mp h with h | h
    · subst h
      obtain ⟨m, r', he⟩ := ha r hr
      exact ⟨m, r', by rw [he]; rfl⟩
    · rcases RRes.ok_or_err (Resolver.resolveExpr b r)
        (fun m => Resolver.resolveExpr_ne_panic b r m hn.1) with ⟨r1, h1⟩ | ⟨m, r1, h1⟩
      · rw [h1]
        have hk := Resolver.resolveExpr_kept b r r1 h1
        exact Resolver.resolveArguments_err_of_mem scopes rest a h hn.2 ha r1
          (hk.scopes.trans hr)
      · exact ⟨m, r1, by rw [h1]; rfl⟩

/-- An expression that reads a name declared but not yet defined in the innermost
scope is not resolved: `resolveExpr` returns an error. -/
theorem Resolver.resolveExpr_err_of_reads (name : String) (scope : Map String Bool)
    (rest : List (Map String Bool)) (hdecl : Map.get scope name = some false) :
    ∀ (e : Expr), Reads name e → e.noNil = true →
    ∀ r : Resolver, r.scopes = scope :: rest → ∃ m r', Resolver.resolveExpr e r = RRes.err m r' := by
  intro e hreads
  induction hreads with
  | read v hv =>
    intro _ r hr
    refine ⟨"Cannot read local variable '" ++ v.Name.Lexeme ++ "' in its own initializer.", r, ?_⟩
    simp only [Resolver.resolveExpr, Resolver.VisitVariableExpr, hr, hv, hdecl]
  | @binaryLeft l op rt _ ih =>
    intro hn r hr
    simp only [Expr.noNil, Bool.and_eq_true] at hn
    obtain ⟨m, r', he⟩ := ih hn.1 r hr
    exact ⟨m, r', by simp only [Resolver.resolveExpr, he]; rfl⟩
  | @binaryRight l op rt _ ih =>
    intro hn r hr
    simp only [Expr.noNil, Bool.and_eq_true] at hn
    simp only [Resolver.resolveExpr]
    rcases RRes.ok_or_err (Resolver.resolveExpr l r)
      (fun m => Resolver.resolveExpr_ne_panic l r m hn.1) with ⟨r1, h1⟩ | ⟨m, r1, h1⟩
    · rw [h1]
      exact ih hn.2 r1 ((Resolver.resolveExpr_kept l r r1 h1).scopes.trans hr)
    · exact ⟨m, r1, by rw [h1]; rfl⟩
  | @grouping e _ ih =>
    intro hn r hr
    simp only [Expr.noNil] at hn
    simp only [Resolver.resolveExpr]
    exact ih hn r hr
  | @unary op rt _ ih =>
    intro hn r hr
    simp only [Expr.noNil] at hn
    simp only [Resolver.resolveExpr]
    exact ih hn r hr
  | @assign id n value _ ih =>
    intro hn r hr
    simp only [Expr.noNil] at hn
    obtain ⟨m, r', he⟩ := ih hn r hr
    exact ⟨m, r', by simp only [Resolver.resolveExpr, he]; rfl⟩
  | @logicalLeft l op rt _ ih =>
    intro hn r hr
    simp only [Expr.noNil, Bool.and_eq_true] at hn
    obtain ⟨m, r', he⟩ := ih hn.1 r hr
    exact ⟨m, r', by simp only [Resolver.resolveExpr, he]; rfl⟩
  | @logicalRight l op rt _ ih =>
    intro hn r hr
    simp only [Expr.noNil, Bool.and_eq_true] at hn
    simp only [Resolver.resolveExpr]
    rcases RRes.ok_or_err (Resolver.resolveExpr l r)
      (fun m => Resolver.resolveExpr_ne_panic l r m hn.1) with ⟨r1, h1⟩ | ⟨m, r1, h1⟩
    · rw [h1]
      exact ih hn.2 r1 ((Resolver.resolveExpr_kept l r r1 h1).scopes.trans hr)
    · exact ⟨m, r1, by rw [h1]; rfl⟩
  | @callee c paren args _ ih =>
    intro hn r hr
    simp only [Expr.noNil, Bool.and_eq_true] at hn
    obtain ⟨m, r', he⟩ := ih hn.1 r hr
    exact ⟨m, r', by simp only [Resolver.resolveExpr, he]; rfl⟩
  | @argument c paren args a hmem _ ih =>
    intro hn r hr
    simp only [Expr.noNil, Bool.and_eq_true] at hn
    simp only [Resolver.resolveExpr]
    rcases RRes.ok_or_err (Resolver.resolveExpr c r)
      (fun m => Resolver.resolveExpr_ne_panic c r m hn.1) with ⟨r1, h1⟩ | ⟨m, r1, h1⟩
    · rw [h1]
      exact Resolver.resolveArguments_err_of_mem (scope :: rest) args a hmem hn.2
        (fun r2 hr2 => ih (Expr.noNil_of_mem args a hmem hn.2) r2 hr2) r1
        ((Resolver.resolveExpr_kept c r r1 h1).scopes.trans hr)
    · exact ⟨m, r1, by rw [h1]; rfl⟩
  | @getObject obj n _ ih =>
    intro hn r hr
    simp only [Expr.noNil] at hn
    simp only [Resolver.resolveExpr]
    exact ih hn r hr
  | @setObject obj n value _ ih =>
    intro hn r hr
    simp only [Expr.noNil, Bool.and_eq_true] at hn
    simp only [Resolver.resolveExpr]
    rcases RRes.ok_or_err (Resolver.resolveExpr value r)
      (fun m => Resolver.resolveExpr_ne_panic value r m hn.2) with ⟨r1, h1⟩ | ⟨m, r1, h1⟩
    · rw [h1]
      exact ih hn.1 r1 ((Resolver.resolveExpr_kept value r r1 h1).scopes.trans hr)
    · exact ⟨m, r1, by rw [h1]; rfl⟩
  | @setValue obj n value _ ih =>
    intro hn r hr
    simp only [Expr.noNil, Bool.and_eq_true] at hn
    obtain ⟨m, r', he⟩ := ih hn.2 r hr
    exact ⟨m, r', by simp only [Resolver.resolveExpr, he]; rfl⟩

/-! ## The resolver on statements -/

theorem Resolver.declare_ok {r r' : Resolver} {name : Token} (h : r.declare name = RRes.ok r') :
    Resolver.Same r r' := by
  unfold Resolver.declare at h
  cases hs : r.scopes with
  | nil =>
    rw [hs] at h
    cases h; exact Resolver.Same.same_refl r
  | cons scope rest =>
    rw [hs] at h
    simp only at h
    split at h
    · cases h
    · cases h
      exact ⟨by simp [hs], rfl, rfl⟩

theorem Resolver.declare_err {r r' : Resolver} {name : Token} {m : String}
    (h : r.declare name = RRes.err m r') : r' = r := by
  unfold Resolver.declare at h
  cases hs : r.scopes with
  | nil => rw [hs] at h; cases h
  | cons scope rest =>
    rw [hs] at h
    simp only at h
    split at h
    · cases h; rfl
    · cases h

theorem Resolver.define_same (r : Resolver) (name : Token) : Resolver.Same r (r.define name) := by
  unfold Resolver.define
  cases hs : r.scopes with
  | nil => exact Resolver.Same.same_refl r
  | cons scope rest => exact ⟨by simp [hs], rfl, rfl⟩

theorem Resolver.endScope_ok {r r' : Resolver} (h : r.endScope = RRes.ok r') :
    r'.scopes.length + 1 = r.scopes.length ∧ r'.currentFunction = r.currentFunction ∧
      r'.currentClass = r.currentClass := by
  unfold Resolver.endScope at h
  cases hs : r.scopes with
  | nil => rw [hs] at h; cases h
  | cons scope rest =>
    rw [hs] at h
    cases h
    exact ⟨by simp, rfl, rfl⟩

theorem Resolver.setTop_ok {r r' : Resolver} {key : String} (h : r.setTop key = RRes.ok r') :
    Resolver.Same r r' := by
  unfold Resolver.setTop at h
  cases hs : r.scopes with
  | nil => rw [hs] at h; cases h
  | cons scope rest =>
    rw [hs] at h
    cases h
    exact ⟨by simp [hs], rfl, rfl⟩

theorem Resolver.declareParams_ok : ∀ (params : List Token) (r r' : Resolver),
    Resolver.declareParams params r = RRes.ok r' → Resolver.Same r r'
  | [], r, r', h => by
    simp only [Resolver.declareParams] at h
    cases h; exact Resolver.Same.same_refl r
  | p :: ps, r, r', h => by
    simp only [Resolver.declareParams] at h
    obtain ⟨r1, h1, h2⟩ := RRes.andThen_ok h
    exact (Resolver.declare_ok h1).andSame
      ((Resolver.define_same r1 p).andSame (Resolver.declareParams_ok ps _ r' h2))

theorem Resolver.declareDroppingError_same (r : Resolver) (name : Token) :
    Resolver.Same r (r.declareDroppingError name) := by
  unfold Resolver.declareDroppingError
  cases hd : r.declare name with
  | ok r2 => exact Resolver.declare_ok hd
  | err m r2 => rw [Resolver.declare_err hd]; exact Resolver.Same.same_refl r
  | panic m => exact Resolver.Same.same_refl r

/-- The state after the part of `VisitClassStmt` before the methods: one scope more
(two with a superclass), the class state set, the function state unchanged. -/
theorem Resolver.beginClass_ok {r r' : Resolver} {name : Token} {sc : Option Variable}
    (h : r.beginClass name sc = RRes.ok r') :
    r'.scopes.length = r.scopes.length + (if sc.isSome then 2 else 1) ∧
    r'.currentFunction = r.currentFunction ∧
    r'.currentClass =
      (if sc.isSome then ClassType.ClassTypeSubclass else ClassType.ClassTypeClass) := by
  unfold Resolver.beginClass at h
  simp only at h
  obtain ⟨r1, h1, h2⟩ := RRes.andThen_ok h
  have hs2 := Resolver.setTop_ok h2
  have hdef := (Resolver.declareDroppingError_same
    { r with currentClass := ClassType.ClassTypeClass } name).andSame (Resolver.define_same _ name)
  generalize Resolver.define (Resolver.declareDroppingError
    { r with currentClass := ClassType.ClassTypeClass } name) name = rd at h1 hdef
  have d1 := hdef.depth
  have d2 := hdef.fn
  have d3 := hdef.cls
  have a1 := hs2.depth
  have a2 := hs2.fn
  have a3 := hs2.cls
  simp only [Resolver.beginScope, List.length_cons] at a1 a2 a3 d1 d2 d3
  cases sc with
  | none =>
    simp only at h1
    cases h1
    refine ⟨?_, ?_, ?_⟩
    · simp only [Option.isSome_none, Bool.false_eq_true, if_false]
      omega
    · rw [a2, d2]
    · rw [a3, d3]
      rfl
  | some v =>
    simp only at h1
    split at h1
    · cases h1
    · obtain ⟨r3, h3, h4⟩ := RRes.andThen_ok h1
      have hk := (Resolver.resolveExpr_kept _ _ _ h3).same
      have hs4 := Resolver.setTop_ok h4
      have b1 := hs4.depth
      have b2 := hs4.fn
      have b3 := hs4.cls
      have c1 := hk.depth
      have c2 := hk.fn
      have c3 := hk.cls
      simp only [Resolver.beginScope, List.length_cons] at b1 b2 b3 c1 c2 c3
      refine ⟨?_, ?_, ?_⟩
      · simp only [Option.isSome_some, if_true]
        omega
      · rw [a2, b2, c2, d2]
      · rw [a3, b3, c3]
        rfl

theorem Resolver.endClass_ok {r r' : Resolver} {sc : Option Variable} {cc : ClassType}
    (h : r.endClass sc cc = RRes.ok r') :
    r'.scopes.length + (if sc.isSome then 2 else 1) = r.scopes.length ∧
    r'.currentFunction = r.currentFunction ∧ r'.currentClass = cc := by
  unfold Resolver.endClass at h
  obtain ⟨r1, h1, h2⟩ := RRes.andThen_ok h
  obtain ⟨r2, h3, h4⟩ := RRes.andThen_ok h2
  cases h4
  have a := Resolver.endScope_ok h1
  cases sc with
  | none =>
    cases h3
    exact ⟨by simpa using a.1, a.2.1, rfl⟩
  | some v =>
    have b := Resolver.endScope_ok h3
    refine ⟨?_, b.2.1.trans a.2.1, rfl⟩
    simp only [Option.isSome_some, if_true]
    omega

mutual
theorem Resolver.resolveStmt_same : ∀ (s : Stmt) (r r' : Resolver),
    Resolver.resolveStmt s r = RRes.ok r' → Resolver.Same r r'
  | .nil, r, r', h => by simp [Resolver.resolveStmt] at h
  | .ExpressionStmt e, r, r', h => by
    simp only [Resolver.resolveStmt] at h
    exact (Resolver.resolveExpr_kept e r r' h).same
  | .PrintStmt e, r, r', h => by
    simp only [Resolver.resolveStmt] at h
    exact (Resolver.resolveExpr_kept e r r' h).same
  | .VarStmt name init, r, r', h => by
    simp only [Resolver.resolveStmt] at h
    obtain ⟨r1, h1, h2⟩ := RRes.andThen_ok h
    obtain ⟨r2, h3, h4⟩ := RRes.andThen_ok h2
    cases h4
    refine (Resolver.declare_ok h1).andSame (Resolver.Same.andSame ?_ (Resolver.define_same r2 name))
    split at h3
    · cases h3; exact Resolver.Same.same_refl r1
    · exact (Resolver.resolveExpr_kept init r1 r2 h3).same
  | .BlockStmt stmts, r, r', h => by
    simp only [Resolver.resolveStmt] at h
    obtain ⟨r1, h1, h2⟩ := RRes.andThen_ok h
    have a := Resolver.resolveStatements_same stmts _ r1 h1
    have b := Resolver.endScope_ok h2
    refine ⟨?_, b.2.1.trans a.fn, b.2.2.trans a.cls⟩
    have := a.depth
    simp only [Resolver.beginScope, List.length_cons] at this
    omega
  | .IfStmt cond th el, r, r', h => by
    simp only [Resolver.resolveStmt] at h
    obtain ⟨r1, h1, h2⟩ := RRes.andThen_ok h
    obtain ⟨r2, h3, h4⟩ := RRes.andThen_ok h2
    have a := (Resolver.resolveExpr_kept cond r r1 h1).same
    have b := Resolver.resolveStmt_same th r1 r2 h3
    refine a.andSame (b.andSame ?_)
    split at h4
    · cases h4; exact Resolver.Same.same_refl _
    · exact Resolver.resolveStmt_same el r2 r' h4
  | .WhileStmt cond body, r, r', h => by
    simp only [Resolver.resolveStmt] at h
    obtain ⟨r1, h1, h2⟩ := RRes.andThen_ok h
    exact (Resolver.resolveExpr_kept cond r r1 h1).same.andSame
      (Resolver.resolveStmt_same body r1 r' h2)
  | .Function f, r, r', h => by
    simp only [Resolver.resolveStmt] at h
    obtain ⟨r1, h1, h2⟩ := RRes.andThen_ok h
    exact (Resolver.declare_ok h1).andSame ((Resolver.define_same r1 f.Name).andSame
      (Resolver.resolveFunction_same f _ _ r' h2))
  | .ReturnStmt _ value, r, r', h => by
    simp only [Resolver.resolveStmt] at h
    split at h
    · cases h
    · split at h
      · cases h
      · split at h
        · exact (Resolver.resolveExpr_kept value r r' h).same
        · cases h; exact Resolver.Same.same_refl r
  | .ClassStmt name sc methods, r, r', h => by
    simp only [Resolver.resolveStmt] at h
    obtain ⟨r1, h1, h2⟩ := RRes.andThen_ok h
    obtain ⟨r2, h3, h4⟩ := RRes.andThen_ok h2
    have a := Resolver.beginClass_ok h1
    have b := Resolver.resolveMethods_same methods r1 r2 h3
    have c := Resolver.endClass_ok h4
    refine ⟨?_, c.2.1.trans (b.fn.trans a.2.1), c.2.2⟩
    have := b.depth
    omega
theorem Resolver.resolveStatements_same : ∀ (ss : List Stmt) (r r' : Resolver),
    Resolver.resolveStatements ss r = RRes.ok r' → Resolver.Same r r'
  | [], r, r', h => by
    simp only [Resolver.resolveStatements] at h
    cases h; exact Resolver.Same.same_refl r
  | s :: rest, r, r', h => by
    simp only [Resolver.resolveStatements] at h
    obtain ⟨r1, h1, h2⟩ := RRes.andThen_ok h
    exact (Resolver.resolveStmt_same s r r1 h1).andSame
      (Resolver.resolveStatements_same rest r1 r' h2)
theorem Resolver.resolveFunction_same : ∀ (f : FunctionStmt) (ft : FunctionType)
    (r r' : Resolver), Resolver.resolveFunction f ft r = RRes.ok r' → Resolver.Same r r'
  | .mk _ params body, ft, r, r', h => by
    simp only [Resolver.resolveFunction] at h
    obtain ⟨r1, h1, h2⟩ := RRes.andThen_ok h
    obtain ⟨r2, h3, h4⟩ := RRes.andThen_ok h2
    obtain ⟨r3, h5, h6⟩ := RRes.andThen_ok h4
    cases h6
    have a := Resolver.declareParams_ok params _ r1 h1
    have b := Resolver.resolveStatements_same body r1 r2 h3
    have c := Resolver.endScope_ok h5
    refine ⟨?_, rfl, ?_⟩
    · have a1 := a.depth
      have b1 := b.depth
      simp only [Resolver.beginScope, List.length_cons] at a1
      show r3.scopes.length = r.scopes.length
      omega
    · have a1 := a.cls
      simp only [Resolver.beginScope] at a1
      show r3.currentClass = r.currentClass
      rw [c.2.2, b.cls, a1]
theorem Resolver.resolveMethods_same : ∀ (ms : List FunctionStmt) (r r' : Resolver),
    Resolver.resolveMethods ms r = RRes.ok r' → Resolver.Same r r'
  | [], r, r', h => by
    simp only [Resolver.resolveMethods] at h
    cases h; exact Resolver.Same.same_refl r
  | m :: rest, r, r', h => by
    simp only [Resolver.resolveMethods] at h
    obtain ⟨r1, h1, h2⟩ := RRes.andThen_ok h
    exact (Resolver.resolveFunction_same m _ r r1 h1).andSame
      (Resolver.resolveMethods_same rest r1 r' h2)
end

/-! ## Errors reach `Resolve` unchanged -/

theorem RRes.andThen_err {x : RRes} {f : Resolver → RRes} {m : String} {r' : Resolver}
    (h : x = RRes.err m r') : x.andThen f = RRes.err m r' := by
  rw [h]; rfl

theorem RRes.andThen_of_ok {x : RRes} {f : Resolver → RRes} {r1 : Resolver}
    (h : x = RRes.ok r1) : x.andThen f = f r1 := by
  rw [h]; rfl

/-- An error that `resolveStmt` returns for a statement the resolver reaches is the
error returned for the whole node. -/
theorem Reaches.err {path : List Frame} {r : Resolver} {node : Node} {r' : Resolver} {t : Stmt}
    (h : Reaches path r node r' t) {m : String} {r'' : Resolver}
    (ht : Resolver.resolveStmt t r' = RRes.err m r'') : node.resolve r = RRes.err m r'' := by
  induction h with
  | here r s => exact ht
  | block _ ih =>
    simp only [Node.resolve, Resolver.resolveStmt]
    exact RRes.andThen_err (ih ht)
  | ifThen hc _ ih =>
    simp only [Node.resolve, Resolver.resolveStmt]
    rw [RRes.andThen_of_ok hc]
    exact RRes.andThen_err (ih ht)
  | @ifElse path r c th el r1 r2 r' t hc hth hnil _ ih =>
    simp only [Node.resolve, Resolver.resolveStmt]
    rw [RRes.andThen_of_ok hc, RRes.andThen_of_ok hth]
    cases el with
    | nil => simp [Stmt.isNil] at hnil
    | _ => exact ih ht
  | whileBody hc _ ih =>
    simp only [Node.resolve, Resolver.resolveStmt]
    rw [RRes.andThen_of_ok hc]
    exact ih ht
  | functionBody hd _ ih =>
    simp only [Node.resolve, Resolver.resolveStmt]
    rw [RRes.andThen_of_ok hd]
    exact ih ht
  | classBody hb _ ih =>
    simp only [Node.resolve, Resolver.resolveStmt]
    rw [RRes.andThen_of_ok hb]
    exact RRes.andThen_err (ih ht)
  | head _ ih =>
    simp only [Node.resolve, Resolver.resolveStatements]
    exact RRes.andThen_err (ih ht)
  | tail hs _ ih =>
    simp only [Node.resolve, Resolver.resolveStatements]
    rw [RRes.andThen_of_ok hs]
    exact ih ht
  | body hp _ ih =>
    simp only [Node.resolve, Resolver.resolveFunction]
    rw [RRes.andThen_of_ok hp]
    exact RRes.andThen_err (ih ht)
  | method _ ih =>
    simp only [Node.resolve, Resolver.resolveMethods]
    exact RRes.andThen_err (ih ht)
  | nextMethod hf _ ih =>
    simp only [Node.resolve, Resolver.resolveMethods]
    simp only [methodType] at hf
    rw [RRes.andThen_of_ok hf]
    exact ih ht

/-- Where the resolver is when it reaches a statement: the function state is that of
the nearest enclosing function or method, the class state that of the nearest
enclosing class body, and the scope stack is deeper by the scopes the enclosing
constructs open. -/
theorem Reaches.state {path : List Frame} {r : Resolver} {node : Node} {r' : Resolver}
    {t : Stmt} (h : Reaches path r node r' t) :
    r'.currentFunction = enclosingFunction path (node.functionAt r) ∧
    r'.currentClass = enclosingClass path r.currentClass ∧
    r'.scopes.length = node.depthAt r + scopesOpened path := by
  induction h with
  | here r s => exact ⟨rfl, rfl, rfl⟩
  | block _ ih =>
    obtain ⟨a, b, c⟩ := ih
    refine ⟨a, b, ?_⟩
    simp only [Node.depthAt, Resolver.beginScope, List.length_cons] at c
    simp only [Node.depthAt, scopesOpened]
    omega
  | ifThen hc _ ih =>
    obtain ⟨a, b, c⟩ := ih
    have k := Resolver.resolveExpr_kept _ _ _ hc
    simp only [Node.functionAt, Node.depthAt] at a c ⊢
    exact ⟨by rw [a, k.fn], by rw [b, k.cls], by rw [c, k.scopes]⟩
  | ifElse hc hth _ _ ih =>
    obtain ⟨a, b, c⟩ := ih
    have k := (Resolver.resolveExpr_kept _ _ _ hc).same.andSame (Resolver.resolveStmt_same _ _ _ hth)
    simp only [Node.functionAt, Node.depthAt] at a c ⊢
    exact ⟨by rw [a, k.fn], by rw [b, k.cls], by rw [c, k.depth]⟩
  | whileBody hc _ ih =>
    obtain ⟨a, b, c⟩ := ih
    have k := Resolver.resolveExpr_kept _ _ _ hc
    simp only [Node.functionAt, Node.depthAt] at a c ⊢
    exact ⟨by rw [a, k.fn], by rw [b, k.cls], by rw [c, k.scopes]⟩
  | @functionBody path r f r1 r' t hd _ ih =>
    obtain ⟨a, b, c⟩ := ih
    have k := (Resolver.declare_ok hd).andSame (Resolver.define_same r1 f.Name)
    simp only [Node.functionAt, Node.depthAt] at a c ⊢
    refine ⟨by rw [a]; rfl, by rw [b, k.cls]; rfl, ?_⟩
    rw [c, k.depth]
    simp only [scopesOpened]
    omega
  | @classBody path r name sc ms r1 r' t hb _ ih =>
    obtain ⟨a, b, c⟩ := ih
    have k := Resolver.beginClass_ok hb
    simp only [Node.functionAt, Node.depthAt] at a c ⊢
    cases sc with
    | none =>
      simp only [Option.isSome_none, Bool.false_eq_true, if_false] at k
      refine ⟨by rw [a, k.2.1]; rfl, by rw [b, k.2.2]; rfl, ?_⟩
      rw [c, k.1]
      simp only [Option.isSome_none, scopesOpened]
      omega
    | some v =>
      simp only [Option.isSome_some, if_true] at k
      refine ⟨by rw [a, k.2.1]; rfl, by rw [b, k.2.2]; rfl, ?_⟩
      rw [c, k.1]
      simp only [Option.isSome_some, scopesOpened]
      omega
  | head _ ih => exact ih
  | tail hs _ ih =>
    obtain ⟨a, b, c⟩ := ih
    have k := Resolver.resolveStmt_same _ _ _ hs
    simp only [Node.functionAt, Node.depthAt] at a c ⊢
    exact ⟨by rw [a, k.fn], by rw [b, k.cls], by rw [c, k.depth]⟩
  | @body path r name params body ft r1 r' t hp _ ih =>
    obtain ⟨a, b, c⟩ := ih
    have k := Resolver.declareParams_ok _ _ _ hp
    have k1 := k.depth
    have k2 := k.fn
    have k3 := k.cls
    simp only [Resolver.beginScope, List.length_cons] at k1 k2 k3
    simp only [Node.functionAt, Node.depthAt] at a c ⊢
    exact ⟨by rw [a, k2], by rw [b, k3], by rw [c, k1]⟩
  | @method path r m ms r' t _ ih =>
    obtain ⟨a, b, c⟩ := ih
    simp only [Node.functionAt, Node.depthAt] at a c ⊢
    refine ⟨by rw [a]; rfl, by rw [b]; rfl, ?_⟩
    rw [c]
    simp only [scopesOpened]
    omega
  | nextMethod hf _ ih =>
    obtain ⟨a, b, c⟩ := ih
    have k := Resolver.resolveFunction_same _ _ _ _ hf
    simp only [Node.functionAt, Node.depthAt] at a c ⊢
    exact ⟨by rw [a, k.fn], by rw [b, k.cls], by rw [c, k.depth]⟩

theorem enclosingFunction_append : ∀ (outer inner : List Frame) (x : FunctionType),
    enclosingFunction (outer ++ inner) x = enclosingFunction inner (enclosingFunction outer x)
  | [], inner, x => rfl
  | fr :: outer, inner, x => by
    cases fr <;> simp only [List.cons_append, enclosingFunction] <;>
      exact enclosingFunction_append outer inner _

theorem enclosingFunction_of_no_function : ∀ (path : List Frame) (x : FunctionType),
    (∀ fr ∈ path, fr.isFunction = false) → enclosingFunction path x = x
  | [], x, _ => rfl
  | fr :: path, x, h => by
    have h1 := h fr (List.mem_cons_self _ _)
    have h2 : ∀ g ∈ path, g.isFunction = false := fun g hg => h g (List.mem_cons_of_mem _ hg)
    cases fr with
    | block => simp only [enclosingFunction]; exact enclosingFunction_of_no_function path x h2
    | function => simp [Frame.isFunction] at h1
    | method n => simp [Frame.isFunction] at h1
    | classBody b =>
      simp only [enclosingFunction]; exact enclosingFunction_of_no_function path x h2

/-- `Resolve` returns, reported, the error that `resolveStmt` returns for a statement it
reaches. -/
theorem Resolve_err_of_reaches {path : List Frame} {r : Resolver} {statements : List Stmt}
    {r' : Resolver} {t : Stmt} (h : Reaches path r (Node.stmts statements) r' t)
    {m : String} {r'' : Resolver} (ht : Resolver.resolveStmt t r' = RRes.err m r'') :
    r.Resolve statements = RRes.err m { r'' with errors := ReportResolverError r''.errors m } := by
  have := Reaches.err h ht
  simp only [Node.resolve] at this
  simp only [Resolver.Resolve, this]

/-- C10: let the resolver, started by `Resolve` on a program, reach a return statement
nested under the constructs `path`.  If no function or method is among them, `Resolve`
returns "Can't return from top-level code.".  If the nearest function or method among
them is a method named `init` and the return has a value, `Resolve` returns "Can't
return a value from an initializer."; a bare return there is accepted.  If the nearest
one is a function declaration or a method of another name, the return statement is
accepted: the result is that of resolving its value, if it has one. -/
theorem Resolve_checks_return (locals : Map Nat Nat) (errors : Errors)
    (statements : List Stmt) (path : List Frame) (r' : Resolver) (keyword : Token)
    (value : Expr)
    (h : Reaches path (NewResolver locals errors) (Node.stmts statements) r'
      (Stmt.ReturnStmt keyword value)) :
    ((∀ fr ∈ path, fr.isFunction = false) →
      (NewResolver locals errors).Resolve statements =
        RRes.err "Can't return from top-level code."
          { r' with errors := ReportResolverError r'.errors "Can't return from top-level code." }) ∧
    (∀ outer inner : List Frame, path = outer ++ Frame.method "init" :: inner →
      (∀ fr ∈ inner, fr.isFunction = false) →
      (value.isNil = false →
        (NewResolver locals errors).Resolve statements =
          RRes.err "Can't return a value from an initializer."
            { r' with errors :=
                ReportResolverError r'.errors "Can't return a value from an initializer." }) ∧
      (value.isNil = true →
        Resolver.resolveStmt (Stmt.ReturnStmt keyword value) r' = RRes.ok r')) ∧
    (∀ (outer inner : List Frame) (fr : Frame), path = outer ++ fr :: inner →
      (fr = Frame.function ∨ ∃ n, fr = Frame.method n ∧ n ≠ "init") →
      (∀ g ∈ inner, g.isFunction = false) →
      Resolver.resolveStmt (Stmt.ReturnStmt keyword value) r' =
        if value.isNil then RRes.ok r' else Resolver.resolveExpr value r') := by
  have hst := (Reaches.state h).1
  simp only [Node.functionAt, NewResolver] at hst
  refine ⟨?_, ?_, ?_⟩
  · intro hpath
    rw [enclosingFunction_of_no_function path _ hpath] at hst
    apply Resolve_err_of_reaches h
    simp only [Resolver.resolveStmt, hst, if_true]
  · intro outer inner hp hinner
    have hfn : r'.currentFunction = FunctionType.FunctionTypeInitializer := by
      rw [hst, hp, enclosingFunction_append]
      simp only [enclosingFunction, methodType, if_true]
      exact enclosingFunction_of_no_function inner _ hinner
    constructor
    · intro hv
      apply Resolve_err_of_reaches h
      simp [Resolver.resolveStmt, hfn, hv]
    · intro hv
      simp [Resolver.resolveStmt, hfn, hv]
  · intro outer inner fr hp hfr hinner
    have hfn : r'.currentFunction = FunctionType.FunctionTypeFunction ∨
        r'.currentFunction = FunctionType.FunctionTypeMethod := by
      rw [hst, hp, enclosingFunction_append]
      rcases hfr with hfr | ⟨n, hfr, hn⟩
      · subst hfr
        simp only [enclosingFunction]
        exact Or.inl (enclosingFunction_of_no_function inner _ hinner)
      · subst hfr
        simp only [enclosingFunction, methodType, hn, if_false]
        exact Or.inr (enclosingFunction_of_no_function inner _ hinner)
    rcases hfn with hfn | hfn <;> cases hv : value.isNil <;>
      simp [Resolver.resolveStmt, hfn, hv]

/-- C10 at the program `return "x";`: the return statement is reached at top level and
`Resolve` returns the error, reported once. -/
theorem Resolve_checks_return_witness :
    Reaches [] (NewResolver [] Errors.init)
      (Node.stmts [Stmt.ReturnStmt (sampleToken TokenType.RETURN "return")
        (Expr.Literal (LiteralValue.string "x"))]) (NewResolver [] Errors.init)
      (Stmt.ReturnStmt (sampleToken TokenType.RETURN "return")
        (Expr.Literal (LiteralValue.string "x"))) ∧
    (NewResolver [] Errors.init).Resolve
        [Stmt.ReturnStmt (sampleToken TokenType.RETURN "return")
          (Expr.Literal (LiteralValue.string "x"))] =
      RRes.err "Can't return from top-level code."
        { NewResolver [] Errors.init with
          errors := ⟨true, false, ["Resolver Error: Can't return from top-level code."]⟩ } :=
  ⟨Reaches.head (Reaches.here _ _),
    (Resolve_checks_return [] Errors.init _ [] _ _ _ (Reaches.head (Reaches.here _ _))).1
      (by simp)⟩

theorem scopesOpened_pos : ∀ (path : List Frame), path ≠ [] → 0 < scopesOpened path
  | [], h => absurd rfl h
  | fr :: path, _ => by
    cases fr with
    | classBody b => cases b <;> simp [scopesOpened]
    | _ => simp [scopesOpened]

theorem Resolver.resolveLocal_global (r : Resolver) (id : Nat) (name : Token)
    (h : r.scopes = []) : r.resolveLocal id name = r := by
  simp [Resolver.resolveLocal, h, Resolver.resolveLocalLoop]

mutual
/-- At global scope an expression without `this`, `super` and nil sub-expressions is
resolved without error and nothing is recorded for it. -/
theorem Resolver.resolveExpr_global : ∀ (e : Expr) (r : Resolver), r.scopes = [] →
    e.noNil = true → e.noThisSuper = true → Resolver.resolveExpr e r = RRes.ok r
  | .nil, r, _, h, _ => by simp [Expr.noNil] at h
  | .Binary l _ rt, r, hs, hn, ht => by
    simp only [Expr.noNil, Expr.noThisSuper, Bool.and_eq_true] at hn ht
    simp only [Resolver.resolveExpr, Resolver.resolveExpr_global l r hs hn.1 ht.1,
      RRes.andThen, Resolver.resolveExpr_global rt r hs hn.2 ht.2]
  | .Grouping e, r, hs, hn, ht => by
    simp only [Expr.noNil, Expr.noThisSuper] at hn ht
    simp only [Resolver.resolveExpr, Resolver.resolveExpr_global e r hs hn ht]
  | .Literal _, r, _, _, _ => by simp [Resolver.resolveExpr]
  | .Unary _ rt, r, hs, hn, ht => by
    simp only [Expr.noNil, Expr.noThisSuper] at hn ht
    simp only [Resolver.resolveExpr, Resolver.resolveExpr_global rt r hs hn ht]
  | .Variable v, r, hs, _, _ => by
    simp only [Resolver.resolveExpr, Resolver.VisitVariableExpr, hs,
      Resolver.resolveLocal_global r v.id v.Name hs]
  | .Assign id name value, r, hs, hn, ht => by
    simp only [Expr.noNil, Expr.noThisSuper] at hn ht
    simp only [Resolver.resolveExpr, Resolver.resolveExpr_global value r hs hn ht,
      RRes.andThen, Resolver.resolveLocal_global r id name hs]
  | .Logical l _ rt, r, hs, hn, ht => by
    simp only [Expr.noNil, Expr.noThisSuper, Bool.and_eq_true] at hn ht
    simp only [Resolver.resolveExpr, Resolver.resolveExpr_global l r hs hn.1 ht.1,
      RRes.andThen, Resolver.resolveExpr_global rt r hs hn.2 ht.2]
  | .Call callee _ args, r, hs, hn, ht => by
    simp only [Expr.noNil, Expr.noThisSuper, Bool.and_eq_true] at hn ht
    simp only [Resolver.resolveExpr, Resolver.resolveExpr_global callee r hs hn.1 ht.1,
      RRes.andThen, Resolver.resolveArguments_global args r hs hn.2 ht.2]
  | .Get obj _, r, hs, hn, ht => by
    simp only [Expr.noNil, Expr.noThisSuper] at hn ht
    simp only [Resolver.resolveExpr, Resolver.resolveExpr_global obj r hs hn ht]
  | .Set obj _ value, r, hs, hn, ht => by
    simp only [Expr.noNil, Expr.noThisSuper, Bool.and_eq_true] at hn ht
    simp only [Resolver.resolveExpr, Resolver.resolveExpr_global value r hs hn.2 ht.2,
      RRes.andThen, Resolver.resolveExpr_global obj r hs hn.1 ht.1]
  | .This _ _, r, _, _, ht => by simp [Expr.noThisSuper] at ht
  | .Super _ _ _, r, _, _, ht => by simp [Expr.noThisSuper] at ht
theorem Resolver.resolveArguments_global : ∀ (args : List Expr) (r : Resolver), r.scopes = [] →
    Expr.noNilList args = true → Expr.noThisSuperList args = true →
    Resolver.resolveArguments args r = RRes.ok r
  | [], r, _, _, _ => by simp [Resolver.resolveArguments]
  | a :: rest, r, hs, hn, ht => by
    simp only [Expr.noNilList, Expr.noThisSuperList, Bool.and_eq_true] at hn ht
    simp only [Resolver.resolveArguments, Resolver.resolveExpr_global a r hs hn.1 ht.1,
      RRes.andThen, Resolver.resolveArguments_global rest r hs hn.2 ht.2]
end

/-- In a state with at least one scope, a var declaration whose initializer reads the
declared name is not resolved. -/
theorem Resolver.resolveStmt_var_reading_itself (r : Resolver) (name : Token) (init : Expr)
    (hs : r.scopes ≠ []) (hreads : Reads name.Lexeme init) (hn : init.noNil = true) :
    ∃ m r', Resolver.resolveStmt (Stmt.VarStmt name init) r = RRes.err m r' := by
  cases hsc : r.scopes with
  | nil => exact absurd hsc hs
  | cons scope rest =>
    have hnil : init.isNil = false := by
      cases init <;> simp [Expr.isNil, Expr.noNil] at hn ⊢
    simp only [Resolver.resolveStmt, Resolver.declare, hsc]
    cases hg : Map.get scope name.Lexeme with
    | some b => exact ⟨_, r, rfl⟩
    | none =>
      simp only [RRes.andThen, hnil]
      obtain ⟨m, r'', he⟩ := Resolver.resolveExpr_err_of_reads name.Lexeme
        (Map.set scope name.Lexeme false) rest (Map.get_set_self scope name.Lexeme false)
        init hreads hn { r with scopes := Map.set scope name.Lexeme false :: rest } rfl
      exact ⟨m, r'', by simp [he]⟩

/-- C9: let the resolver, started by `Resolve` on a program, reach a var declaration
nested under the constructs `path`.  If it is inside a block, function, method or class
(`path` is not empty) and its initializer, an expression without nil sub-expression,
reads the declared name, then `Resolve` returns an error.  At global scope (`path`
empty) the declaration is accepted, also when the initializer reads the declared
name, provided the initializer has no nil sub-expression, no `this` and no `super`. -/
theorem Resolve_rejects_read_in_own_initializer (locals : Map Nat Nat) (errors : Errors)
    (statements : List Stmt) (path : List Frame) (r' : Resolver) (name : Token) (init : Expr)
    (h : Reaches path (NewResolver locals errors) (Node.stmts statements) r'
      (Stmt.VarStmt name init)) :
    (path ≠ [] → Reads name.Lexeme init → init.noNil = true →
      ∃ m r'', (NewResolver locals errors).Resolve statements = RRes.err m r'') ∧
    (path = [] → init.noNil = true → init.noThisSuper = true →
      Resolver.resolveStmt (Stmt.VarStmt name init) r' = RRes.ok r') := by
  have hst := (Reaches.state h).2.2
  simp only [Node.depthAt, NewResolver, List.length_nil, Nat.zero_add] at hst
  constructor
  · intro hpath hreads hn
    have hpos := scopesOpened_pos path hpath
    have hs : r'.scopes ≠ [] := by
      intro he
      rw [he] at hst
      simp at hst
      omega
    obtain ⟨m, r'', he⟩ := Resolver.resolveStmt_var_reading_itself r' name init hs hreads hn
    have := Reaches.err h he
    simp only [Node.resolve] at this
    exact ⟨m, { r'' with errors := ReportResolverError r''.errors m },
      by simp only [Resolver.Resolve, this]⟩
  · intro hpath hn ht
    subst hpath
    simp only [scopesOpened] at hst
    have hs : r'.scopes = [] := List.length_eq_zero.mp hst
    have hd : r'.declare name = RRes.ok r' := by simp [Resolver.declare, hs]
    have hdef : r'.define name = r' := by simp [Resolver.define, hs]
    simp only [Resolver.resolveStmt, hd, RRes.andThen,
      Resolver.resolveExpr_global init r' hs hn ht, ite_self, hdef]

/-- C9 at the program `{ var a = a; }`, and `var a = a;` at global scope. -/
theorem Resolve_rejects_read_in_own_initializer_witness :
    Reaches [Frame.block] (NewResolver [] Errors.init)
      (Node.stmts [Stmt.BlockStmt [Stmt.VarStmt (sampleToken TokenType.IDENTIFIER "a")
        (Expr.Variable ⟨0, sampleToken TokenType.IDENTIFIER "a"⟩)]])
      (NewResolver [] Errors.init).beginScope
      (Stmt.VarStmt (sampleToken TokenType.IDENTIFIER "a")
        (Expr.Variable ⟨0, sampleToken TokenType.IDENTIFIER "a"⟩)) ∧
    ∃ m r'', (NewResolver [] Errors.init).Resolve
      [Stmt.BlockStmt [Stmt.VarStmt (sampleToken TokenType.IDENTIFIER "a")
        (Expr.Variable ⟨0, sampleToken TokenType.IDENTIFIER "a"⟩)]] = RRes.err m r'' :=
  ⟨Reaches.head (Reaches.block (Reaches.head (Reaches.here _ _))),
    (Resolve_rejects_read_in_own_initializer [] Errors.init _ [Frame.block] _ _ _
      (Reaches.head (Reaches.block (Reaches.head (Reaches.here _ _))))).1
      (by simp) (Reads.read _ rfl) rfl⟩

/-- C12: once the left operand of a Logical node has evaluated to `lv` in state `i1`:
with `or`, a truthy `lv` is the result, in the state `i1` (the right operand is not
evaluated), and otherwise the result is that of evaluating the right operand from `i1`;
with any other operator (`and`), a falsey `lv` is the result, in the state `i1`, and
otherwise the result is that of evaluating the right operand from `i1`. -/
theorem Logical_short_circuits (n : Nat) (left right : Expr) (operator : Token)
    (i i1 : Interpreter) (lv : Value) (hl : evaluate n left i = Res.ok lv i1) :
    (operator.type = TokenType.OR → isTruthy lv = true →
      evaluate (n + 1) (Expr.Logical left operator right) i = Res.ok lv i1) ∧
    (operator.type = TokenType.OR → isTruthy lv = false →
      evaluate (n + 1) (Expr.Logical left operator right) i = evaluate n right i1) ∧
    (operator.type ≠ TokenType.OR → isTruthy lv = false →
      evaluate (n + 1) (Expr.Logical left operator right) i = Res.ok lv i1) ∧
    (operator.type ≠ TokenType.OR → isTruthy lv = true →
      evaluate (n + 1) (Expr.Logical left operator right) i = evaluate n right i1) := by
  refine ⟨?_, ?_, ?_, ?_⟩ <;> intro hop ht <;>
    simp [evaluate, hl, Res.bind, hop, ht]

/-- C12 at `"a" or nil` and `nil and "b"`: the left value is returned as it is. -/
theorem Logical_short_circuits_witness :
    evaluate 1 (Expr.Literal (LiteralValue.string "a")) sampleInterpreter =
      Res.ok (Value.string "a") sampleInterpreter ∧
    evaluate 2 (Expr.Logical (Expr.Literal (LiteralValue.string "a"))
        (sampleToken TokenType.OR "or") (Expr.Literal LiteralValue.nil)) sampleInterpreter =
      Res.ok (Value.string "a") sampleInterpreter :=
  ⟨rfl, (Logical_short_circuits 1 (Expr.Literal (LiteralValue.string "a"))
    (Expr.Literal LiteralValue.nil) (sampleToken TokenType.OR "or") sampleInterpreter
    sampleInterpreter (Value.string "a") rfl).1 rfl rfl⟩

/-- C13: once the operands of a Binary node with operator `+` have evaluated to `a` and
`b`, leaving the state `i2`: two numbers give their sum, two strings give the left one
followed by the right one, and every other pair of values gives the runtime error
"Operands must be two numbers or two strings." at the operator. -/
theorem Plus_adds_numbers_and_joins_strings (n : Nat) (left right : Expr) (operator : Token)
    (i i1 i2 : Interpreter) (a b : Value) (hop : operator.type = TokenType.PLUS)
    (hl : evaluate n left i = Res.ok a i1) (hr : evaluate n right i1 = Res.ok b i2) :
    (∀ x y : Float, a = Value.number x → b = Value.number y →
      evaluate (n + 1) (Expr.Binary left operator right) i = Res.ok (Value.number (x + y)) i2) ∧
    (∀ x y : String, a = Value.string x → b = Value.string y →
      evaluate (n + 1) (Expr.Binary left operator right) i = Res.ok (Value.string (x ++ y)) i2) ∧
    (¬ (a.kind = Kind.number ∧ b.kind = Kind.number) →
      ¬ (a.kind = Kind.string ∧ b.kind = Kind.string) →
      evaluate (n + 1) (Expr.Binary left operator right) i =
        Res.err (Err.RuntimeError operator "Operands must be two numbers or two strings.") i2) := by
  refine ⟨?_, ?_, ?_⟩
  · intro x y ha hb
    subst ha hb
    simp [evaluate, hl, hr, Res.bind, binaryOp, hop, Out.toRes]
  · intro x y ha hb
    subst ha hb
    simp [evaluate, hl, hr, Res.bind, binaryOp, hop, Out.toRes]
  · intro h1 h2
    cases a <;> cases b <;>
      simp [Value.kind] at h1 h2 <;>
      simp [evaluate, hl, hr, Res.bind, binaryOp, hop, Out.toRes, newRuntimeError]

/-- C13 at `"foo" + "bar"` and `"x" + nil`. -/
theorem Plus_adds_numbers_and_joins_strings_witness :
    (sampleToken TokenType.PLUS "+").type = TokenType.PLUS ∧
    evaluate 2 (Expr.Binary (Expr.Literal (LiteralValue.string "foo"))
        (sampleToken TokenType.PLUS "+") (Expr.Literal (LiteralValue.string "bar")))
        sampleInterpreter = Res.ok (Value.string ("foo" ++ "bar")) sampleInterpreter ∧
    evaluate 2 (Expr.Binary (Expr.Literal (LiteralValue.string "x"))
        (sampleToken TokenType.PLUS "+") (Expr.Literal LiteralValue.nil))
        sampleInterpreter =
      Res.err (Err.RuntimeError (sampleToken TokenType.PLUS "+")
        "Operands must be two numbers or two strings.") sampleInterpreter :=
  ⟨rfl,
    (Plus_adds_numbers_and_joins_strings 1 (Expr.Literal (LiteralValue.string "foo"))
      (Expr.Literal (LiteralValue.string "bar")) (sampleToken TokenType.PLUS "+")
      sampleInterpreter sampleInterpreter sampleInterpreter (Value.string "foo")
      (Value.string "bar") rfl rfl rfl).2.1 "foo" "bar" rfl rfl,
    (Plus_adds_numbers_and_joins_strings 1 (Expr.Literal (LiteralValue.string "x"))
      (Expr.Literal LiteralValue.nil) (sampleToken TokenType.PLUS "+")
      sampleInterpreter sampleInterpreter sampleInterpreter (Value.string "x")
      Value.nil rfl rfl rfl).2.2 (by simp [Value.kind]) (by simp [Value.kind])⟩

/-- C14: once the operands of a Binary node with operator `/` have evaluated to `a` and
`b`, leaving the state `i2`: for two numbers `x` and `y` the result is the runtime error
"Division by zero." exactly when `y == 0`, and the quotient `x / y` otherwise; if one of
the values is not a number the result is the runtime error "Operands must be numbers.". -/
theorem Slash_divides_unless_divisor_is_zero (n : Nat) (left right : Expr) (operator : Token)
    (i i1 i2 : Interpreter) (a b : Value) (hop : operator.type = TokenType.SLASH)
    (hl : evaluate n left i = Res.ok a i1) (hr : evaluate n right i1 = Res.ok b i2) :
    (∀ x y : Float, a = Value.number x → b = Value.number y →
      ((y == 0) = true →
        evaluate (n + 1) (Expr.Binary left operator right) i =
          Res.err (Err.RuntimeError operator "Division by zero.") i2) ∧
      ((y == 0) = false →
        evaluate (n + 1) (Expr.Binary left operator right) i =
          Res.ok (Value.number (x / y)) i2)) ∧
    (a.kind ≠ Kind.number ∨ b.kind ≠ Kind.number →
      evaluate (n + 1) (Expr.Binary left operator right) i =
        Res.err (Err.RuntimeError operator "Operands must be numbers.") i2) := by
  refine ⟨?_, ?_⟩
  · intro x y ha hb
    subst ha hb
    constructor <;> intro hy <;>
      simp [evaluate, hl, hr, Res.bind, binaryOp, hop, Out.toRes, numberOperands, hy,
        newRuntimeError]
  · intro h
    cases a <;> cases b <;>
      simp [Value.kind] at h <;>
      simp [evaluate, hl, hr, Res.bind, binaryOp, hop, Out.toRes, numberOperands,
        newRuntimeError]

/-- C14 at `"x" / nil`. -/
theorem Slash_divides_unless_divisor_is_zero_witness :
    (sampleToken TokenType.SLASH "/").type = TokenType.SLASH ∧
    evaluate 2 (Expr.Binary (Expr.Literal (LiteralValue.string "x"))
        (sampleToken TokenType.SLASH "/") (Expr.Literal LiteralValue.nil))
        sampleInterpreter =
      Res.err (Err.RuntimeError (sampleToken TokenType.SLASH "/")
        "Operands must be numbers.") sampleInterpreter :=
  ⟨rfl,
    (Slash_divides_unless_divisor_is_zero 1 (Expr.Literal (LiteralValue.string "x"))
      (Expr.Literal LiteralValue.nil) (sampleToken TokenType.SLASH "/")
      sampleInterpreter sampleInterpreter sampleInterpreter (Value.string "x")
      Value.nil rfl rfl rfl).2 (Or.inl (by simp [Value.kind]))⟩

/-- C15: `isEqual` is true on two nils, false when exactly one value is nil, false on
values of different kinds, the comparison `==` of the two values on two numbers, two
booleans or two strings, and on two functions, two classes or two instances it is true
exactly when they are the same object (the same allocation); `!=` evaluates to the
negation of what `==` evaluates to. -/
theorem isEqual_compares_by_kind :
    isEqual Value.nil Value.nil = true ∧
    (∀ b : Value, b.kind ≠ Kind.nil → isEqual Value.nil b = false ∧ isEqual b Value.nil = false) ∧
    (∀ a b : Value, a.kind ≠ b.kind → isEqual a b = false) ∧
    (∀ x y : Float, isEqual (Value.number x) (Value.number y) = (x == y)) ∧
    (∀ x y : Bool, isEqual (Value.bool x) (Value.bool y) = (x == y)) ∧
    (∀ x y : String, isEqual (Value.string x) (Value.string y) = (x == y)) ∧
    (∀ f g : LoxFunction, isEqual (Value.function f) (Value.function g) = true ↔ f.ptr = g.ptr) ∧
    (∀ c d : LoxClass, isEqual (Value.class c) (Value.class d) = true ↔ c.ptr = d.ptr) ∧
    (∀ x y : Nat, isEqual (Value.instance x) (Value.instance y) = true ↔ x = y) ∧
    (∀ (operator : Token) (a b : Value),
      (operator.type = TokenType.EQUAL_EQUAL →
        binaryOp operator a b = Out.ok (Value.bool (isEqual a b))) ∧
      (operator.type = TokenType.BANG_EQUAL →
        binaryOp operator a b = Out.ok (Value.bool (!isEqual a b)))) := by
  refine ⟨rfl, ?_, ?_, fun _ _ => rfl, fun _ _ => rfl, fun _ _ => rfl, ?_, ?_, ?_, ?_⟩
  · intro b hb
    cases b <;> simp [Value.kind] at hb <;> simp [isEqual]
  · intro a b h
    cases a <;> cases b <;> simp [Value.kind] at h <;> simp [isEqual]
  · intro f g; simp [isEqual]
  · intro c d; simp [isEqual]
  · intro x y; simp [isEqual]
  · intro operator a b
    constructor <;> intro h <;> simp [binaryOp, h]

/-- C16: `isTruthy` is false on nil and on `false` and true on every other value, the
number 0, the empty string, callables and instances included; unary `!` yields the
negation of `isTruthy` of its operand. -/
theorem isTruthy_false_only_on_nil_and_false :
    isTruthy Value.nil = false ∧
    isTruthy (Value.bool false) = false ∧
    (∀ v : Value, v.kind ≠ Kind.nil → v.kind ≠ Kind.bool → isTruthy v = true) ∧
    isTruthy (Value.bool true) = true ∧
    isTruthy (Value.number 0) = true ∧
    isTruthy (Value.string "") = true ∧
    (∀ (operator : Token) (v : Value), operator.type = TokenType.BANG →
      unaryOp operator v = Out.ok (Value.bool (!isTruthy v))) ∧
    (∀ (n : Nat) (operator : Token) (right : Expr) (i i1 : Interpreter) (v : Value),
      operator.type = TokenType.BANG → evaluate n right i = Res.ok v i1 →
      evaluate (n + 1) (Expr.Unary operator right) i = Res.ok (Value.bool (!isTruthy v)) i1) := by
  refine ⟨rfl, rfl, ?_, rfl, rfl, rfl, ?_, ?_⟩
  · intro v h1 h2
    cases v <;> simp [Value.kind] at h1 h2 <;> simp [isTruthy]
  · intro operator v h
    simp [unaryOp, h]
  · intro n operator right i i1 v h hv
    simp [evaluate, hv, Res.bind, unaryOp, h, Out.toRes]

/-! ## Classes and instances -/

theorem LoxClass.findMethod_chain : ∀ (c : LoxClass) (n : String),
    c.findMethod n = c.chain.findSome? (fun k => Map.get k.Methods n)
  | .mk p nm ms none, n => by
    simp only [LoxClass.findMethod, LoxClass.chain, List.findSome?, LoxClass.Methods]
    cases Map.get ms n <;> rfl
  | .mk p nm ms (some sc), n => by
    have ih := LoxClass.findMethod_chain sc n
    simp only [LoxClass.findMethod, LoxClass.chain, List.findSome?, LoxClass.Methods]
    cases Map.get ms n
    · exact ih
    · rfl

theorem LoxClass.findMethod_first (c : LoxClass) (n : String) (pre : List LoxClass)
    (k : LoxClass) (rest : List LoxClass) (m : LoxFunction)
    (hc : c.chain = pre ++ k :: rest) (hpre : ∀ x ∈ pre, Map.get x.Methods n = none)
    (hk : Map.get k.Methods n = some m) : c.findMethod n = some m := by
  rw [LoxClass.findMethod_chain, hc]
  clear hc
  induction pre with
  | nil => simp [List.findSome?, hk]
  | cons x xs ih =>
    have hx := hpre x (by simp)
    simp only [List.cons_append, List.findSome?, hx]
    exact ih (fun y hy => hpre y (by simp [hy]))

theorem LoxClass.findMethod_none (c : LoxClass) (n : String)
    (h : ∀ k ∈ c.chain, Map.get k.Methods n = none) : c.findMethod n = none := by
  rw [LoxClass.findMethod_chain]
  generalize c.chain = l at h
  induction l with
  | nil => rfl
  | cons x xs ih =>
    simp only [List.findSome?, h x (by simp)]
    exact ih (fun y hy => h y (by simp [hy]))

theorem LoxFunction.bind_this (f : LoxFunction) (ref : Nat) (i : Interpreter) :
    GetAt (f.bind ref i).2.envs (f.bind ref i).1.Closure 0 "this" = Out.ok (Value.instance ref) := by
  simp [LoxFunction.bind, NewEnvironment, Interpreter.Define, setFrame_last, GetAt, ancestor,
    Map.set, Map.get]

theorem setFrame_getElem (envs : List Environment) (env : Nat) (fr : Environment)
    (name : String) (v : Value) (h : envs[env]? = some fr) :
    (setFrame envs env name v)[env]? = some { fr with values := Map.set fr.values name v } := by
  have hlt : env < envs.length := by
    rcases List.getElem?_eq_some.1 h with ⟨hl, _⟩
    exact hl
  simp [setFrame, h, List.getElem?_set, hlt]

theorem setFrame_getElem_ne (envs : List Environment) (env k : Nat) (name : String)
    (v : Value) (h : k ≠ env) : (setFrame envs env name v)[k]? = envs[k]? := by
  unfold setFrame
  cases envs[env]? with
  | none => rfl
  | some fr => simp [List.getElem?_set, Ne.symm h]

/-- C19: `findMethod(C, n)` is the entry for `n` in the method table of the first class of
the chain `C`, superclass of `C`, ... whose own table has an entry for `n`, and nil when
no class of the chain has one.  On an instance without a field `n`, `Get(n)` returns that
method bound to the instance (a function over a new frame in which `this` is the
instance), and the runtime error "Undefined property 'n'." when there is no such method. -/
theorem findMethod_walks_superclass_chain (c : LoxClass) (n : String) :
    (∀ (pre : List LoxClass) (k : LoxClass) (rest : List LoxClass) (m : LoxFunction),
      c.chain = pre ++ k :: rest → (∀ x ∈ pre, Map.get x.Methods n = none) →
      Map.get k.Methods n = some m → c.findMethod n = some m) ∧
    ((∀ k ∈ c.chain, Map.get k.Methods n = none) → c.findMethod n = none) ∧
    (∀ (ref : Nat) (name : Token) (i : Interpreter) (li : LoxInstance),
      name.Lexeme = n → i.instances[ref]? = some li → li.Class = c →
      Map.get li.Fields n = none →
      (∀ m : LoxFunction, c.findMethod n = some m →
        instanceGet ref name i = Res.ok (Value.function (m.bind ref i).1) (m.bind ref i).2 ∧
        (m.bind ref i).1.Declaration = m.Declaration ∧
        GetAt (m.bind ref i).2.envs (m.bind ref i).1.Closure 0 "this" =
          Out.ok (Value.instance ref)) ∧
      (c.findMethod n = none →
        instanceGet ref name i =
          Res.err (Err.RuntimeError name ("Undefined property '" ++ n ++ "'.")) i)) := by
  refine ⟨fun pre k rest m hc hpre hk => LoxClass.findMethod_first c n pre k rest m hc hpre hk,
    LoxClass.findMethod_none c n, ?_⟩
  intro ref name i li hname hli hcl hfield
  subst hname hcl
  refine ⟨fun m hm => ⟨?_, rfl, LoxFunction.bind_this m ref i⟩, fun hm => ?_⟩
  · simp only [instanceGet, hli, hfield, hm]
  · simp only [instanceGet, hli, hfield, hm]

/-- C19 at a class `B` without methods whose superclass `A` defines `f`: lookup of `f`
from `B` finds the method of `A`. -/
theorem findMethod_walks_superclass_chain_witness :
    (LoxClass.mk 1 "B" [] (some (LoxClass.mk 0 "A" [("f", sampleFunction)] none))).findMethod "f" =
      some sampleFunction :=
  (findMethod_walks_superclass_chain
    (LoxClass.mk 1 "B" [] (some (LoxClass.mk 0 "A" [("f", sampleFunction)] none))) "f").1
    [LoxClass.mk 1 "B" [] (some (LoxClass.mk 0 "A" [("f", sampleFunction)] none))]
    (LoxClass.mk 0 "A" [("f", sampleFunction)] none) [] sampleFunction rfl
    (by simp [LoxClass.Methods, Map.get]) rfl

/-- C20: on an instance, after `Set(n, v)` the field `n` holds `v` and `Get(n)` returns
`v`, whether or not `n` was a field before and whatever methods the class and its
superclasses define; every other field of the instance, and every other instance, is as
before.  The Set node itself evaluates to the value, without error, once its object has
evaluated to an instance and its value to `v`. -/
theorem Set_then_Get_returns_value (ref : Nat) (name : Token) (v : Value) (i : Interpreter)
    (li : LoxInstance) (hli : i.instances[ref]? = some li) :
    instanceGet ref name (instanceSet ref name v i) = Res.ok v (instanceSet ref name v i) ∧
    (∃ li2 : LoxInstance, (instanceSet ref name v i).instances[ref]? = some li2 ∧
      li2.Class = li.Class ∧ Map.get li2.Fields name.Lexeme = some v ∧
      ∀ other : String, other ≠ name.Lexeme → Map.get li2.Fields other = Map.get li.Fields other) ∧
    (∀ k : Nat, k ≠ ref → (instanceSet ref name v i).instances[k]? = i.instances[k]?) ∧
    (∀ (n : Nat) (object value : Expr) (i0 i1 : Interpreter),
      evaluate n object i0 = Res.ok (Value.instance ref) i1 → evaluate n value i1 = Res.ok v i →
      evaluate (n + 1) (Expr.Set object name value) i0 = Res.ok v (instanceSet ref name v i)) := by
  have hlt : ref < i.instances.length := by
    rcases List.getElem?_eq_some.1 hli with ⟨hl, _⟩
    exact hl
  have hget : (instanceSet ref name v i).instances[ref]? =
      some { li with Fields := Map.set li.Fields name.Lexeme v } := by
    simp [instanceSet, hli, List.getElem?_set, hlt]
  refine ⟨?_, ⟨_, hget, rfl, Map.get_set_self _ _ _, ?_⟩, ?_, ?_⟩
  · simp only [instanceGet, hget, Map.get_set_self]
  · intro other ho
    exact Map.get_set_ne _ _ _ _ (Ne.symm ho)
  · intro k hk
    simp [instanceSet, hli, List.getElem?_set, Ne.symm hk]
  · intro n object value i0 i1 ho hv
    simp [evaluate, ho, hv, Res.bind]

/-- C20 on an instance whose class defines a method `m`: after `Set(m, "v")`, `Get(m)`
returns the field. -/
theorem Set_then_Get_returns_value_witness :
    instanceGet 0 (sampleToken TokenType.IDENTIFIER "f")
      (instanceSet 0 (sampleToken TokenType.IDENTIFIER "f") (Value.string "v")
        { sampleInterpreter with
          instances := [⟨LoxClass.mk 0 "A" [("f", sampleFunction)] none, []⟩] }) =
    Res.ok (Value.string "v")
      (instanceSet 0 (sampleToken TokenType.IDENTIFIER "f") (Value.string "v")
        { sampleInterpreter with
          instances := [⟨LoxClass.mk 0 "A" [("f", sampleFunction)] none, []⟩] }) :=
  (Set_then_Get_returns_value 0 (sampleToken TokenType.IDENTIFIER "f") (Value.string "v")
    { sampleInterpreter with
      instances := [⟨LoxClass.mk 0 "A" [("f", sampleFunction)] none, []⟩] }
    ⟨LoxClass.mk 0 "A" [("f", sampleFunction)] none, []⟩ rfl).1

/-- C22: `C.Arity()` is the number of parameters of the `init` method that method lookup
from `C` finds, which is the `init` of the first class of the chain `C`, superclass of
`C`, ... that has one, and 0 when no class of the chain defines `init`. -/
theorem LoxClass_Arity_is_arity_of_init (c : LoxClass) :
    (∀ f : LoxFunction, c.findMethod "init" = some f → c.Arity = f.Declaration.Params.length) ∧
    (∀ (pre : List LoxClass) (k : LoxClass) (rest : List LoxClass) (f : LoxFunction),
      c.chain = pre ++ k :: rest → (∀ x ∈ pre, Map.get x.Methods "init" = none) →
      Map.get k.Methods "init" = some f → c.Arity = f.Declaration.Params.length) ∧
    ((∀ k ∈ c.chain, Map.get k.Methods "init" = none) → c.Arity = 0) := by
  refine ⟨?_, ?_, ?_⟩
  · intro f hf
    simp [LoxClass.Arity, hf, LoxFunction.Arity]
  · intro pre k rest f hc hpre hk
    simp [LoxClass.Arity, LoxClass.findMethod_first c "init" pre k rest f hc hpre hk,
      LoxFunction.Arity]
  · intro h
    simp [LoxClass.Arity, LoxClass.findMethod_none c "init" h]

/-- C22 at a class `B` without methods whose superclass `A` defines `init(a, b)`: the arity
of `B` is 2. -/
theorem LoxClass_Arity_is_arity_of_init_witness :
    (LoxClass.mk 1 "B" [] (some (LoxClass.mk 0 "A" [("init", sampleFunction)] none))).Arity = 2 :=
  (LoxClass_Arity_is_arity_of_init
    (LoxClass.mk 1 "B" [] (some (LoxClass.mk 0 "A" [("init", sampleFunction)] none)))).2.1
    [LoxClass.mk 1 "B" [] (some (LoxClass.mk 0 "A" [("init", sampleFunction)] none))]
    (LoxClass.mk 0 "A" [("init", sampleFunction)] none) [] sampleFunction rfl
    (by simp [LoxClass.Methods, Map.get]) rfl

/-- C23: once the callee of a Call node has evaluated to `cv` and its arguments to `vs`,
leaving the state `i2`: a value that is not a function, a class or the native function
gives the runtime error "Can only call functions and classes."; a callable whose arity
differs from the number of arguments gives "Expected <arity> arguments but got <n>." in
the state `i2`, nothing of the callee having run; and with equal counts the result is
that of the call of the callee on `vs` from `i2`. -/
theorem Call_checks_callable_and_arity (n : Nat) (callee : Expr) (paren : Token)
    (arguments : List Expr) (i i1 i2 : Interpreter) (cv : Value) (vs : List Value)
    (hc : evaluate n callee i = Res.ok cv i1)
    (ha : evaluateArguments (evaluate n) arguments [] i1 = Res.ok vs i2) :
    (cv.isCallable = false →
      evaluate (n + 1) (Expr.Call callee paren arguments) i =
        Res.err (Err.RuntimeError paren "Can only call functions and classes.") i2) ∧
    (∀ f : LoxFunction, cv = Value.function f →
      (vs.length ≠ f.Arity →
        evaluate (n + 1) (Expr.Call callee paren arguments) i =
          Res.err (Err.RuntimeError paren ("Expected " ++ toString f.Arity ++
            " arguments but got " ++ toString vs.length ++ ".")) i2) ∧
      (vs.length = f.Arity →
        evaluate (n + 1) (Expr.Call callee paren arguments) i = callFunction n f vs i2)) ∧
    (∀ c : LoxClass, cv = Value.class c →
      (vs.length ≠ c.Arity →
        evaluate (n + 1) (Expr.Call callee paren arguments) i =
          Res.err (Err.RuntimeError paren ("Expected " ++ toString c.Arity ++
            " arguments but got " ++ toString vs.length ++ ".")) i2) ∧
      (vs.length = c.Arity →
        evaluate (n + 1) (Expr.Call callee paren arguments) i = callClass n c vs i2)) ∧
    (cv = Value.clock →
      (vs.length ≠ 0 →
        evaluate (n + 1) (Expr.Call callee paren arguments) i =
          Res.err (Err.RuntimeError paren ("Expected 0 arguments but got " ++
            toString vs.length ++ ".")) i2) ∧
      (vs.length = 0 →
        evaluate (n + 1) (Expr.Call callee paren arguments) i =
          Res.ok (Value.number (i2.clock i2.ticks)) { i2 with ticks := i2.ticks + 1 })) := by
  refine ⟨?_, ?_, ?_, ?_⟩
  · intro h
    cases cv <;> simp [Value.isCallable] at h <;> simp [evaluate, hc, ha, Res.bind]
  · intro f hf
    subst hf
    constructor <;> intro h <;> simp [evaluate, hc, ha, Res.bind, h]
  · intro c hcv
    subst hcv
    constructor <;> intro h <;> simp [evaluate, hc, ha, Res.bind, h]
  · intro hcv
    subst hcv
    constructor <;> intro h <;> simp [evaluate, hc, ha, Res.bind, h]

/-- C23 at the call `"s"()` of a string. -/
theorem Call_checks_callable_and_arity_witness :
    evaluate 2 (Expr.Call (Expr.Literal (LiteralValue.string "s"))
        (sampleToken TokenType.RIGHT_PAREN ")") []) sampleInterpreter =
      Res.err (Err.RuntimeError (sampleToken TokenType.RIGHT_PAREN ")")
        "Can only call functions and classes.") sampleInterpreter :=
  (Call_checks_callable_and_arity 1 (Expr.Literal (LiteralValue.string "s"))
    (sampleToken TokenType.RIGHT_PAREN ")") [] sampleInterpreter sampleInterpreter
    sampleInterpreter (Value.string "s") [] rfl rfl).1 rfl

/-- C17: for a Variable or Assign node without a recorded distance, in a state whose
global frame `g` is the root of the chains (it has no enclosing frame): reading returns
the value bound to the name in `g`, and assigning replaces that binding in `g` and leaves
every other frame as it was, whatever the current environment is and binds; when `g` has
no binding for the name, both return the runtime error "Undefined variable '<name>'." and
the state, every frame of it, is the one in which the operation started. -/
theorem Unresolved_names_use_global_frame (i : Interpreter) (name : Token) (id : Nat)
    (g : Environment) (hloc : Map.get i.locals id = none)
    (hg : i.envs[i.globals]? = some g) (hroot : g.Enclosing = none) :
    (∀ v : Value, Map.get g.values name.Lexeme = some v →
      (∀ n : Nat, evaluate (n + 1) (Expr.Variable ⟨id, name⟩) i = Res.ok v i) ∧
      (∀ (n : Nat) (value : Expr) (i0 : Interpreter) (w : Value),
        evaluate n value i0 = Res.ok w i →
        evaluate (n + 1) (Expr.Assign id name value) i0 =
          Res.ok w { i with envs := setFrame i.envs i.globals name.Lexeme w } ∧
        (setFrame i.envs i.globals name.Lexeme w)[i.globals]? =
          some { g with values := Map.set g.values name.Lexeme w } ∧
        Map.get (Map.set g.values name.Lexeme w) name.Lexeme = some w ∧
        ∀ k : Nat, k ≠ i.globals →
          (setFrame i.envs i.globals name.Lexeme w)[k]? = i.envs[k]?)) ∧
    (Map.get g.values name.Lexeme = none →
      (∀ n : Nat, evaluate (n + 1) (Expr.Variable ⟨id, name⟩) i =
        Res.err (Err.RuntimeError name ("Undefined variable '" ++ name.Lexeme ++ "'.")) i) ∧
      (∀ (n : Nat) (value : Expr) (i0 : Interpreter) (w : Value),
        evaluate n value i0 = Res.ok w i →
        evaluate (n + 1) (Expr.Assign id name value) i0 =
          Res.err (Err.RuntimeError name ("Undefined variable '" ++ name.Lexeme ++ "'.")) i)) := by
  refine ⟨fun v hv => ⟨?_, ?_⟩, fun hv => ⟨?_, ?_⟩⟩
  · intro n
    simp [evaluate, lookUpVariable, hloc, envGet, hg, hv, Out.toRes]
  · intro n value i0 w hw
    refine ⟨?_, setFrame_getElem _ _ _ _ _ hg, Map.get_set_self _ _ _,
      fun k hk => setFrame_getElem_ne _ _ _ _ _ hk⟩
    simp [evaluate, hw, Res.bind, hloc, envAssign, hg, hv]
  · intro n
    simp [evaluate, lookUpVariable, hloc, envGet, hg, hv, hroot, Out.toRes]
  · intro n value i0 w hw
    simp [evaluate, hw, Res.bind, hloc, envAssign, hg, hv, hroot]

/-- C17 at the read of `x` in a block frame that binds `x`, with `x` bound to 1 in the
global frame and no distance recorded: the result is the global value. -/
theorem Unresolved_names_use_global_frame_witness :
    evaluate 1 (Expr.Variable ⟨7, sampleToken TokenType.IDENTIFIER "x"⟩)
      { sampleInterpreter with
        environment := 1,
        envs := [⟨none, [("x", Value.string "global")]⟩, ⟨some 0, [("x", Value.string "local")]⟩] } =
    Res.ok (Value.string "global")
      { sampleInterpreter with
        environment := 1,
        envs := [⟨none, [("x", Value.string "global")]⟩, ⟨some 0, [("x", Value.string "local")]⟩] } :=
  ((Unresolved_names_use_global_frame
    { sampleInterpreter with
      environment := 1,
      envs := [⟨none, [("x", Value.string "global")]⟩, ⟨some 0, [("x", Value.string "local")]⟩] }
    (sampleToken TokenType.IDENTIFIER "x") 7 ⟨none, [("x", Value.string "global")]⟩
    rfl rfl rfl).1 (Value.string "global") rfl).1 0

/-- The classes `A`, `B < A` and `C < B` each define `m`; `t`, declared in `B`, returns
`super.m()`.  Called on an instance of `C`, it runs the `m` of `A`, on that instance. -/
theorem super_method_of_declaring_class_example :
    runFile 60 ("class A \x7b m() \x7b this.a = \"a\"; return \"A\"; \x7d \x7d " ++
        "class B < A \x7b m() \x7b return \"B\"; \x7d t() \x7b return super.m(); \x7d \x7d " ++
        "class C < B \x7b m() \x7b return \"C\"; \x7d \x7d " ++
        "var c = C(); print c.t(); print c.a;") =
      some (["A", "a"], ⟨false, false, []⟩) := by
  decide!

/-- A call of `init` on an instance returns the instance, after a bare return and after
the end of the body. -/
theorem initializer_returns_instance_example :
    runFile 60 ("class A \x7b init() \x7b this.a = \"set\"; return; \x7d \x7d " ++
        "class B \x7b init() \x7b this.a = \"end\"; \x7d \x7d " ++
        "print A().init().a; print B().init().a; print B().init();") =
      some (["set", "end", "<B instance>"], ⟨false, false, []⟩) := by
  decide!

/-! ## `this` and `super` in the resolver -/

theorem enclosingClass_append : ∀ (outer inner : List Frame) (x : ClassType),
    enclosingClass (outer ++ inner) x = enclosingClass inner (enclosingClass outer x)
  | [], inner, x => rfl
  | fr :: outer, inner, x => by
    cases fr with
    | classBody b =>
      cases b <;> simp only [List.cons_append, enclosingClass] <;>
        exact enclosingClass_append outer inner _
    | block => simp only [List.cons_append, enclosingClass]; exact enclosingClass_append outer inner _
    | function =>
      simp only [List.cons_append, enclosingClass]; exact enclosingClass_append outer inner _
    | method n =>
      simp only [List.cons_append, enclosingClass]; exact enclosingClass_append outer inner _

theorem enclosingClass_of_no_class : ∀ (path : List Frame) (x : ClassType),
    (∀ fr ∈ path, fr.isClassBody = false) → enclosingClass path x = x
  | [], x, _ => rfl
  | fr :: path, x, h => by
    have h1 := h fr (List.mem_cons_self _ _)
    have h2 : ∀ g ∈ path, g.isClassBody = false := fun g hg => h g (List.mem_cons_of_mem _ hg)
    cases fr with
    | block => simp only [enclosingClass]; exact enclosingClass_of_no_class path x h2
    | function => simp only [enclosingClass]; exact enclosingClass_of_no_class path x h2
    | method n => simp only [enclosingClass]; exact enclosingClass_of_no_class path x h2
    | classBody b => simp [Frame.isClassBody] at h1

/-- The arguments of a call: if one of them cannot be resolved from any state with the
given class state, the loop over them returns an error. -/
theorem Resolver.resolveArguments_err_of_mem_in_class (c : ClassType) :
    ∀ (args : List Expr) (a : Expr), a ∈ args → Expr.noNilList args = true →
    (∀ r : Resolver, r.currentClass = c → ∃ m r', Resolver.resolveExpr a r = RRes.err m r') →
    ∀ r : Resolver, r.currentClass = c → ∃ m r', Resolver.resolveArguments args r = RRes.err m r'
  | [], a, h, _, _, _, _ => by simp at h
  | b :: rest, a, h, hn, ha, r, hr => by
    simp only [Expr.noNilList, Bool.and_eq_true] at hn
    simp only [Resolver.resolveArguments]
    rcases List.mem_cons.mp h with h | h
    · subst h
      obtain ⟨m, r', he⟩ := ha r hr
      exact ⟨m, r', by rw [he]; rfl⟩
    · rcases RRes.ok_or_err (Resolver.resolveExpr b r)
        (fun m => Resolver.resolveExpr_ne_panic b r m hn.1) with ⟨r1, h1⟩ | ⟨m, r1, h1⟩
      · rw [h1]
        have hk := Resolver.resolveExpr_kept b r r1 h1
        exact Resolver.resolveArguments_err_of_mem_in_class c rest a h hn.2 ha r1
          (hk.cls.trans hr)
      · exact ⟨m, r1, by rw [h1]; rfl⟩

/-- An expression with a sub-expression that cannot be resolved in any state with the
given class state is not resolved in such a state: `resolveExpr` returns an error. -/
theorem Resolver.resolveExpr_err_of_occurs (c : ClassType) (s : Expr)
    (hs : ∀ r : Resolver, r.currentClass = c → ∃ m r', Resolver.resolveExpr s r = RRes.err m r') :
    ∀ (e : Expr), Occurs s e → e.noNil = true →
    ∀ r : Resolver, r.currentClass = c → ∃ m r', Resolver.resolveExpr e r = RRes.err m r' := by
  intro e hocc
  induction hocc with
  | here =>
    intro _ r hr
    exact hs r hr
  | @binaryLeft l op rt _ ih =>
    intro hn r hr
    simp only [Expr.noNil, Bool.and_eq_true] at hn
    obtain ⟨m, r', he⟩ := ih hn.1 r hr
    exact ⟨m, r', by simp only [Resolver.resolveExpr, he]; rfl⟩
  | @binaryRight l op rt _ ih =>
    intro hn r hr
    simp only [Expr.noNil, Bool.and_eq_true] at hn
    simp only [Resolver.resolveExpr]
    rcases RRes.ok_or_err (Resolver.resolveExpr l r)
      (fun m => Resolver.resolveExpr_ne_panic l r m hn.1) with ⟨r1, h1⟩ | ⟨m, r1, h1⟩
    · rw [h1]
      exact ih hn.2 r1 ((Resolver.resolveExpr_kept l r r1 h1).cls.trans hr)
    · exact ⟨m, r1, by rw [h1]; rfl⟩
  | @grouping e _ ih =>
    intro hn r hr
    simp only [Expr.noNil] at hn
    simp only [Resolver.resolveExpr]
    exact ih hn r hr
  | @unary op rt _ ih =>
    intro hn r hr
    simp only [Expr.noNil] at hn
    simp only [Resolver.resolveExpr]
    exact ih hn r hr
  | @assign id n value _ ih =>
    intro hn r hr
    simp only [Expr.noNil] at hn
    obtain ⟨m, r', he⟩ := ih hn r hr
    exact ⟨m, r', by simp only [Resolver.resolveExpr, he]; rfl⟩
  | @logicalLeft l op rt _ ih =>
    intro hn r hr
    simp only [Expr.noNil, Bool.and_eq_true] at hn
    obtain ⟨m, r', he⟩ := ih hn.1 r hr
    exact ⟨m, r', by simp only [Resolver.resolveExpr, he]; rfl⟩
  | @logicalRight l op rt _ ih =>
    intro hn r hr
    simp only [Expr.noNil, Bool.and_eq_true] at hn
    simp only [Resolver.resolveExpr]
    rcases RRes.ok_or_err (Resolver.resolveExpr l r)
      (fun m => Resolver.resolveExpr_ne_panic l r m hn.1) with ⟨r1, h1⟩ | ⟨m, r1, h1⟩
    · rw [h1]
      exact ih hn.2 r1 ((Resolver.resolveExpr_kept l r r1 h1).cls.trans hr)
    · exact ⟨m, r1, by rw [h1]; rfl⟩
  | @callee cl paren args _ ih =>
    intro hn r hr
    simp only [Expr.noNil, Bool.and_eq_true] at hn
    obtain ⟨m, r', he⟩ := ih hn.1 r hr
    exact ⟨m, r', by simp only [Resolver.resolveExpr, he]; rfl⟩
  | @argument cl paren args a hmem _ ih =>
    intro hn r hr
    simp only [Expr.noNil, Bool.and_eq_true] at hn
    simp only [Resolver.resolveExpr]
    rcases RRes.ok_or_err (Resolver.resolveExpr cl r)
      (fun m => Resolver.resolveExpr_ne_panic cl r m hn.1) with ⟨r1, h1⟩ | ⟨m, r1, h1⟩
    · rw [h1]
      exact Resolver.resolveArguments_err_of_mem_in_class c args a hmem hn.2
        (fun r2 hr2 => ih (Expr.noNil_of_mem args a hmem hn.2) r2 hr2) r1
        ((Resolver.resolveExpr_kept cl r r1 h1).cls.trans hr)
    · exact ⟨m, r1, by rw [h1]; rfl⟩
  | @getObject obj n _ ih =>
    intro hn r hr
    simp only [Expr.noNil] at hn
    simp only [Resolver.resolveExpr]
    exact ih hn r hr
  | @setObject obj n value _ ih =>
    intro hn r hr
    simp only [Expr.noNil, Bool.and_eq_true] at hn
    simp only [Resolver.resolveExpr]
    rcases RRes.ok_or_err (Resolver.resolveExpr value r)
      (fun m => Resolver.resolveExpr_ne_panic value r m hn.2) with ⟨r1, h1⟩ | ⟨m, r1, h1⟩
    · rw [h1]
      exact ih hn.1 r1 ((Resolver.resolveExpr_kept value r r1 h1).cls.trans hr)
    · exact ⟨m, r1, by rw [h1]; rfl⟩
  | @setValue obj n value _ ih =>
    intro hn r hr
    simp only [Expr.noNil, Bool.and_eq_true] at hn
    obtain ⟨m, r', he⟩ := ih hn.2 r hr
    exact ⟨m, r', by simp only [Resolver.resolveExpr, he]; rfl⟩

theorem enclosingClass_ne_none : ∀ (path : List Frame) (x : ClassType),
    x ≠ ClassType.ClassTypeNone → enclosingClass path x ≠ ClassType.ClassTypeNone
  | [], x, h => h
  | fr :: path, x, h => by
    cases fr with
    | classBody b =>
      cases b <;> simp only [enclosingClass] <;>
        exact enclosingClass_ne_none path _ (by decide)
    | block => simp only [enclosingClass]; exact enclosingClass_ne_none path x h
    | function => simp only [enclosingClass]; exact enclosingClass_ne_none path x h
    | method n => simp only [enclosingClass]; exact enclosingClass_ne_none path x h

theorem Resolver.declare_ne_panic (r : Resolver) (name : Token) (m : String) :
    r.declare name ≠ RRes.panic m := by
  unfold Resolver.declare
  split
  · simp
  · split <;> simp

/-- A statement one of whose own expressions cannot be resolved in any state with the
given class state is not resolved in such a state: `resolveStmt` returns an error. -/
theorem Resolver.resolveStmt_err_of_own (c : ClassType) (e : Expr)
    (herr : ∀ r : Resolver, r.currentClass = c →
      ∃ m r', Resolver.resolveExpr e r = RRes.err m r') :
    ∀ (t : Stmt), e ∈ t.ownExprs → ∀ r : Resolver, r.currentClass = c →
      ∃ m r', Resolver.resolveStmt t r = RRes.err m r' := by
  intro t ht r hr
  cases t with
  | nil => simp [Stmt.ownExprs] at ht
  | ExpressionStmt e0 =>
    simp only [Stmt.ownExprs, List.mem_singleton] at ht
    subst ht
    simp only [Resolver.resolveStmt]
    exact herr r hr
  | PrintStmt e0 =>
    simp only [Stmt.ownExprs, List.mem_singleton] at ht
    subst ht
    simp only [Resolver.resolveStmt]
    exact herr r hr
  | VarStmt name init =>
    simp only [Stmt.ownExprs] at ht
    cases hnil : init.isNil with
    | true => simp [hnil] at ht
    | false =>
      simp only [hnil, Bool.false_eq_true, if_false, List.mem_singleton] at ht
      subst ht
      simp only [Resolver.resolveStmt, hnil, Bool.false_eq_true, if_false]
      rcases RRes.ok_or_err (r.declare name)
        (fun m => Resolver.declare_ne_panic r name m) with ⟨r1, h1⟩ | ⟨m, r1, h1⟩
      · rw [h1]
        obtain ⟨m, r', he⟩ := herr r1 ((Resolver.declare_ok h1).cls.trans hr)
        exact ⟨m, r', by simp only [RRes.andThen, he]⟩
      · exact ⟨m, r1, by rw [h1]; rfl⟩
  | BlockStmt ss => simp [Stmt.ownExprs] at ht
  | IfStmt cond th el =>
    simp only [Stmt.ownExprs, List.mem_singleton] at ht
    subst ht
    obtain ⟨m, r', he⟩ := herr r hr
    exact ⟨m, r', by simp only [Resolver.resolveStmt, he]; rfl⟩
  | WhileStmt cond body =>
    simp only [Stmt.ownExprs, List.mem_singleton] at ht
    subst ht
    obtain ⟨m, r', he⟩ := herr r hr
    exact ⟨m, r', by simp only [Resolver.resolveStmt, he]; rfl⟩
  | Function f => simp [Stmt.ownExprs] at ht
  | ReturnStmt kw value =>
    simp only [Stmt.ownExprs] at ht
    cases hnil : value.isNil with
    | true => simp [hnil] at ht
    | false =>
      simp only [hnil, Bool.false_eq_true, if_false, List.mem_singleton] at ht
      subst ht
      simp only [Resolver.resolveStmt, hnil]
      by_cases h1 : r.currentFunction = FunctionType.FunctionTypeNone
      · exact ⟨"Can't return from top-level code.", r, by simp only [h1, if_true]⟩
      · by_cases h2 : r.currentFunction = FunctionType.FunctionTypeInitializer
        · exact ⟨"Can't return a value from an initializer.", r, by simp [h2]⟩
        · obtain ⟨m, r', he⟩ := herr r hr
          exact ⟨m, r', by simp [h1, h2, he]⟩
  | ClassStmt name sc ms => simp [Stmt.ownExprs] at ht

/-- C11: let the resolver, started by `Resolve` on a program, reach a statement nested
under the constructs `path`, and let `e`, an expression without nil sub-expression, be
one of the expressions of that statement.  If no class body is among the constructs and
`e` contains a `this` or a `super`, `Resolve` returns an error; so it does if `e`
contains a `super` and the nearest class body among them is that of a class without
superclass.  If a class body is among them, every `this` is accepted (resolved as a
local name) in the states in which the expressions of the statement are resolved, those
with the class state of the statement; and so is every `super` if the nearest class body
is that of a class with a superclass. -/
theorem Resolve_checks_this_and_super (locals : Map Nat Nat) (errors : Errors)
    (statements : List Stmt) (path : List Frame) (r' : Resolver) (t : Stmt) (e : Expr)
    (h : Reaches path (NewResolver locals errors) (Node.stmts statements) r' t)
    (he : e ∈ t.ownExprs) (hn : e.noNil = true) :
    ((∀ fr ∈ path, fr.isClassBody = false) →
      ((∃ id kw, Occurs (Expr.This id kw) e) ∨ (∃ id kw method, Occurs (Expr.Super id kw method) e)) →
      ∃ m r'', (NewResolver locals errors).Resolve statements = RRes.err m r'') ∧
    (∀ outer inner : List Frame, path = outer ++ Frame.classBody false :: inner →
      (∀ fr ∈ inner, fr.isClassBody = false) →
      (∃ id kw method, Occurs (Expr.Super id kw method) e) →
      ∃ m r'', (NewResolver locals errors).Resolve statements = RRes.err m r'') ∧
    ((∃ fr ∈ path, fr.isClassBody = true) →
      ∀ (r1 : Resolver) (id : Nat) (kw : Token), r1.currentClass = r'.currentClass →
        Resolver.resolveExpr (Expr.This id kw) r1 = RRes.ok (r1.resolveLocal id kw)) ∧
    (∀ outer inner : List Frame, path = outer ++ Frame.classBody true :: inner →
      (∀ fr ∈ inner, fr.isClassBody = false) →
      ∀ (r1 : Resolver) (id : Nat) (kw method : Token), r1.currentClass = r'.currentClass →
        Resolver.resolveExpr (Expr.Super id kw method) r1 = RRes.ok (r1.resolveLocal id kw)) := by
  have hst := (Reaches.state h).2.1
  simp only [NewResolver] at hst
  have herr : ∀ (c : ClassType) (s : Expr), r'.currentClass = c → Occurs s e →
      (∀ r : Resolver, r.currentClass = c → ∃ m r', Resolver.resolveExpr s r = RRes.err m r') →
      ∃ m r'', (NewResolver locals errors).Resolve statements = RRes.err m r'' := by
    intro c s hc hocc hs
    obtain ⟨m, r'', hr⟩ := Resolver.resolveStmt_err_of_own c e
      (fun r hr => Resolver.resolveExpr_err_of_occurs c s hs e hocc hn r hr) t he r' hc
    have := Reaches.err h hr
    simp only [Node.resolve] at this
    exact ⟨m, { r'' with errors := ReportResolverError r''.errors m },
      by simp only [Resolver.Resolve, this]⟩
  refine ⟨?_, ?_, ?_, ?_⟩
  · intro hpath hocc
    have hc : r'.currentClass = ClassType.ClassTypeNone := by
      rw [hst]; exact enclosingClass_of_no_class path _ hpath
    rcases hocc with ⟨id, kw, hocc⟩ | ⟨id, kw, method, hocc⟩
    · exact herr _ _ hc hocc (fun r hr =>
        ⟨"Can't use 'this' outside of a class.", r,
          by simp only [Resolver.resolveExpr, Resolver.VisitThisExpr, hr, if_true]⟩)
    · exact herr _ _ hc hocc (fun r hr =>
        ⟨"Can't use 'super' outside of a class.", r,
          by simp only [Resolver.resolveExpr, Resolver.VisitSuperExpr, hr, if_true]⟩)
  · intro outer inner hp hinner hocc
    have hc : r'.currentClass = ClassType.ClassTypeClass := by
      rw [hst, hp, enclosingClass_append]
      simp only [enclosingClass]
      exact enclosingClass_of_no_class inner _ hinner
    obtain ⟨id, kw, method, hocc⟩ := hocc
    exact herr _ _ hc hocc (fun r hr =>
      ⟨"Can't use 'super' in a class with no superclass.", r,
        by simp [Resolver.resolveExpr, Resolver.VisitSuperExpr, hr]⟩)
  · intro hpath r1 id kw hr1
    have hc : r'.currentClass ≠ ClassType.ClassTypeNone := by
      obtain ⟨fr, hfr, hcb⟩ := hpath
      obtain ⟨outer, inner, hp⟩ := List.append_of_mem hfr
      rw [hst, hp, enclosingClass_append]
      cases fr with
      | classBody b =>
        clear hp hfr hcb
        generalize enclosingClass outer ClassType.ClassTypeNone = x
        cases b <;> simp only [enclosingClass] <;>
          exact enclosingClass_ne_none inner _ (by decide)
      | block => simp [Frame.isClassBody] at hcb
      | function => simp [Frame.isClassBody] at hcb
      | method n => simp [Frame.isClassBody] at hcb
    simp only [Resolver.resolveExpr, Resolver.VisitThisExpr, hr1, hc, if_false]
  · intro outer inner hp hinner r1 id kw method hr1
    have hc : r'.currentClass = ClassType.ClassTypeSubclass := by
      rw [hst, hp, enclosingClass_append]
      simp only [enclosingClass]
      exact enclosingClass_of_no_class inner _ hinner
    simp [Resolver.resolveExpr, Resolver.VisitSuperExpr, hr1, hc]

/-- C11 at the program `print this;`: the statement is reached at top level and `Resolve`
returns an error. -/
theorem Resolve_checks_this_and_super_witness :
    Reaches [] (NewResolver [] Errors.init)
      (Node.stmts [Stmt.PrintStmt (Expr.This 0 (sampleToken TokenType.THIS "this"))])
      (NewResolver [] Errors.init)
      (Stmt.PrintStmt (Expr.This 0 (sampleToken TokenType.THIS "this"))) ∧
    ∃ m r'', (NewResolver [] Errors.init).Resolve
      [Stmt.PrintStmt (Expr.This 0 (sampleToken TokenType.THIS "this"))] = RRes.err m r'' :=
  ⟨Reaches.head (Reaches.here _ _),
    (Resolve_checks_this_and_super [] Errors.init
      [Stmt.PrintStmt (Expr.This 0 (sampleToken TokenType.THIS "this"))] []
      (NewResolver [] Errors.init)
      (Stmt.PrintStmt (Expr.This 0 (sampleToken TokenType.THIS "this")))
      (Expr.This 0 (sampleToken TokenType.THIS "this"))
      (Reaches.head (Reaches.here _ _)) (by simp [Stmt.ownExprs]) rfl).1
      (by simp) (Or.inl ⟨0, sampleToken TokenType.THIS "this", Occurs.here⟩)⟩

/-- The checks of `this` and `super` on source texts: outside a class, in a class without
superclass, and in a class with one (also inside a function nested in a method). -/
theorem this_and_super_examples :
    resolveReport "print this;" =
      some (some "Can't use 'this' outside of a class.",
        ["Resolver Error: Can't use 'this' outside of a class."]) ∧
    resolveReport "fun f() \x7b return super.x; \x7d" =
      some (some "Can't use 'super' outside of a class.",
        ["Resolver Error: Can't use 'super' outside of a class."]) ∧
    resolveReport "class A \x7b m() \x7b return super.m(); \x7d \x7d" =
      some (some "Can't use 'super' in a class with no superclass.",
        ["Resolver Error: Can't use 'super' in a class with no superclass."]) ∧
    resolveReport ("class A \x7b m() \x7b return this; \x7d \x7d class B < A \x7b m() \x7b " ++
      "fun g() \x7b return super.m; \x7d return this; \x7d \x7d") = some (none, []) := by
  decide!

/-! ## The scanner on identifiers, numbers and strings -/

theorem Scanner.peek_of_drop (s : Scanner) (x : List Char) (h : s.source.drop s.current = x) :
    s.peek = x.headD '\x00' := by
  subst h
  unfold Scanner.peek Scanner.isAtEnd
  by_cases hlt : s.current < s.source.length
  · have : ¬ s.current ≥ s.source.length := by omega
    simp only [this, decide_False, Bool.false_eq_true, if_false]
    rw [List.drop_eq_getElem_cons hlt]
    simp [List.getD, List.getElem?_eq_getElem hlt]
  · have hge : s.current ≥ s.source.length := by omega
    simp only [hge, decide_True, if_true]
    rw [List.drop_eq_nil_of_le hge]
    rfl

theorem Scanner.advance_of_drop (s : Scanner) (c : Char) (x : List Char)
    (h : s.source.drop s.current = c :: x) :
    s.advance = .ok (c, { s with current := s.current + 1 }) ∧
      s.source.drop (s.current + 1) = x := by
  have hlt : s.current < s.source.length := by
    by_contra hge
    rw [List.drop_eq_nil_of_le (by omega)] at h
    cases h
  rw [List.drop_eq_getElem_cons hlt] at h
  injection h with h1 h2
  refine ⟨?_, h2⟩
  unfold Scanner.advance
  rw [List.getElem?_eq_getElem hlt, h1]

theorem Scanner.identifierLoop_run : ∀ (run : List Char) (n : Nat) (s : Scanner)
    (rest : List Char), s.source.drop s.current = run ++ rest →
    (∀ c ∈ run, isAlphaNumeric c = true) → isAlphaNumeric (rest.headD '\x00') = false →
    run.length < n →
    Scanner.identifierLoop n s = .ok { s with current := s.current + run.length }
  | [], n, s, rest, hd, _, hrest, hn => by
    cases n with
    | zero => simp at hn
    | succ n =>
      simp only [List.nil_append] at hd
      simp only [Scanner.identifierLoop, Scanner.peek_of_drop s rest hd, hrest,
        Bool.false_eq_true, if_false, List.length_nil, Nat.add_zero]
      rfl
  | c :: cs, n, s, rest, hd, hrun, hrest, hn => by
    cases n with
    | zero => simp at hn
    | succ n =>
      simp only [List.cons_append] at hd
      obtain ⟨hadv, hd'⟩ := Scanner.advance_of_drop s c (cs ++ rest) hd
      have hc : isAlphaNumeric c = true := hrun c (List.mem_cons_self _ _)
      have ih := Scanner.identifierLoop_run cs n { s with current := s.current + 1 } rest hd'
        (fun x hx => hrun x (List.mem_cons_of_mem _ hx)) hrest
        (by simp only [List.length_cons] at hn; omega)
      simp only [Scanner.identifierLoop, Scanner.peek_of_drop s (c :: cs ++ rest) hd,
        List.cons_append, List.headD_cons, hc, if_true, hadv]
      show Scanner.identifierLoop n { s with current := s.current + 1 } = _
      rw [ih]
      simp only [List.length_cons]
      congr 2
      omega

theorem Scanner.digitLoop_run : ∀ (run : List Char) (n : Nat) (s : Scanner)
    (rest : List Char), s.source.drop s.current = run ++ rest →
    (∀ c ∈ run, isDigit c = true) → isDigit (rest.headD '\x00') = false →
    run.length < n →
    Scanner.digitLoop n s = .ok { s with current := s.current + run.length }
  | [], n, s, rest, hd, _, hrest, hn => by
    cases n with
    | zero => simp at hn
    | succ n =>
      simp only [List.nil_append] at hd
      simp only [Scanner.digitLoop, Scanner.peek_of_drop s rest hd, hrest,
        Bool.false_eq_true, if_false, List.length_nil, Nat.add_zero]
      rfl
  | c :: cs, n, s, rest, hd, hrun, hrest, hn => by
    cases n with
    | zero => simp at hn
    | succ n =>
      simp only [List.cons_append] at hd
      obtain ⟨hadv, hd'⟩ := Scanner.advance_of_drop s c (cs ++ rest) hd
      have hc : isDigit c = true := hrun c (List.mem_cons_self _ _)
      have ih := Scanner.digitLoop_run cs n { s with current := s.current + 1 } rest hd'
        (fun x hx => hrun x (List.mem_cons_of_mem _ hx)) hrest
        (by simp only [List.length_cons] at hn; omega)
      simp only [Scanner.digitLoop, Scanner.peek_of_drop s (c :: cs ++ rest) hd,
        List.cons_append, List.headD_cons, hc, if_true, hadv]
      show Scanner.digitLoop n { s with current := s.current + 1 } = _
      rw [ih]
      simp only [List.length_cons]
      congr 2
      omega

theorem headD_dropWhile (p : Char → Bool) (h0 : p '\x00' = false) : ∀ (l : List Char),
    p ((l.dropWhile p).headD '\x00') = false
  | [] => h0
  | c :: l => by
    by_cases hc : p c = true
    · simp only [List.dropWhile_cons, hc, if_true]
      exact headD_dropWhile p h0 l
    · simp only [List.dropWhile_cons, hc, Bool.false_eq_true, if_false, List.headD_cons]

theorem drop_length_of_append {l run rest : List Char} {k : Nat}
    (h : l.drop k = run ++ rest) (hr : run ≠ []) : k + run.length ≤ l.length := by
  have := congrArg List.length h
  simp only [List.length_drop, List.length_append] at this
  have hpos : 0 < run.length := List.length_pos.mpr hr
  omega

theorem sliceOf_run (source : List Char) (k : Nat) (run rest : List Char)
    (h : source.drop k = run ++ rest) (hr : run ≠ []) :
    sliceOf source k (k + run.length) = .ok (String.mk run) := by
  have hle := drop_length_of_append h hr
  unfold sliceOf
  rw [if_pos ⟨Nat.le_add_right _ _, hle⟩, h]
  simp

/-- The characters that `scanToken` handles before it looks for a string, an identifier
or a number. -/
theorem Scanner.scanToken_other (s s1 : Scanner) (c : Char) (hc : s.advance = .ok (c, s1))
    (hne : c ∉ ['(', ')', '{', '}', ',', '.', '-', '+', ';', '*', '!', '=', '<', '>', '/',
      ' ', '\r', '\t', '\n']) :
    s.scanToken =
      if c = '"' then s1.string
      else if isAlpha c then s1.identifier
      else if isDigit c then s1.number
      else pure { s1 with errors := Error s1.errors s1.line "Unexpected character." } := by
  have h0 : c ≠ '(' := fun h => hne (by simp [h])
  have h1 : c ≠ ')' := fun h => hne (by simp [h])
  have h2 : c ≠ '{' := fun h => hne (by simp [h])
  have h3 : c ≠ '}' := fun h => hne (by simp [h])
  have h4 : c ≠ ',' := fun h => hne (by simp [h])
  have h5 : c ≠ '.' := fun h => hne (by simp [h])
  have h6 : c ≠ '-' := fun h => hne (by simp [h])
  have h7 : c ≠ '+' := fun h => hne (by simp [h])
  have h8 : c ≠ ';' := fun h => hne (by simp [h])
  have h9 : c ≠ '*' := fun h => hne (by simp [h])
  have h10 : c ≠ '!' := fun h => hne (by simp [h])
  have h11 : c ≠ '=' := fun h => hne (by simp [h])
  have h12 : c ≠ '<' := fun h => hne (by simp [h])
  have h13 : c ≠ '>' := fun h => hne (by simp [h])
  have h14 : c ≠ '/' := fun h => hne (by simp [h])
  have hsp : ¬ (c = ' ' ∨ c = '\r' ∨ c = '\t') := fun h => hne (by
    rcases h with h | h | h <;> simp [h])
  have hnl : c ≠ '\n' := fun h => hne (by simp [h])
  unfold Scanner.scanToken
  rw [hc]
  show (if c = '(' then _ else _) = _
  rw [if_neg h0, if_neg h1, if_neg h2, if_neg h3, if_neg h4, if_neg h5, if_neg h6, if_neg h7, if_neg h8, if_neg h9, if_neg h10, if_neg h11, if_neg h12, if_neg h13, if_neg h14, if_neg hsp, if_neg hnl]

theorem isAlpha_not_punctuation (c : Char) (h : isAlpha c = true) :
    c ∉ ['(', ')', '{', '}', ',', '.', '-', '+', ';', '*', '!', '=', '<', '>', '/',
      ' ', '\r', '\t', '\n'] ∧ c ≠ '"' := by
  have key : ∀ x ∈ ['(', ')', '{', '}', ',', '.', '-', '+', ';', '*', '!', '=', '<', '>', '/',
      ' ', '\r', '\t', '\n', '"'], isAlpha x = false := by decide
  constructor
  · intro hm
    have := key c (List.mem_append_left ['"'] hm)
    rw [h] at this
    cases this
  · intro hq
    have := key c (by simp [hq])
    rw [h] at this
    cases this

theorem isDigit_not_punctuation (c : Char) (h : isDigit c = true) :
    c ∉ ['(', ')', '{', '}', ',', '.', '-', '+', ';', '*', '!', '=', '<', '>', '/',
      ' ', '\r', '\t', '\n'] ∧ c ≠ '"' ∧ isAlpha c = false := by
  have key : ∀ x ∈ ['(', ')', '{', '}', ',', '.', '-', '+', ';', '*', '!', '=', '<', '>', '/',
      ' ', '\r', '\t', '\n', '"'], isDigit x = false := by decide
  refine ⟨?_, ?_, ?_⟩
  · intro hm
    have := key c (List.mem_append_left ['"'] hm)
    rw [h] at this
    cases this
  · intro hq
    have := key c (by simp [hq])
    rw [h] at this
    cases this
  · simp only [isDigit, Bool.and_eq_true, decide_eq_true_eq] at h
    have h1 : c.val ≤ '9'.val := h.2
    have h9 : ('9' : Char).val = 57 := rfl
    have hlt : c.val.toNat ≤ 57 := by
      rw [h9] at h1
      exact h1
    simp only [isAlpha, Bool.or_eq_false_iff, Bool.and_eq_false_iff, decide_eq_false_iff_not,
      beq_eq_false_iff_ne]
    refine ⟨⟨Or.inl ?_, Or.inl ?_⟩, ?_⟩
    · intro ha
      have ha' : ('a' : Char).val ≤ c.val := ha
      have : ('a' : Char).val.toNat ≤ c.val.toNat := ha'
      have e : ('a' : Char).val.toNat = 97 := rfl
      omega
    · intro ha
      have ha' : ('A' : Char).val ≤ c.val := ha
      have : ('A' : Char).val.toNat ≤ c.val.toNat := ha'
      have e : ('A' : Char).val.toNat = 65 := rfl
      omega
    · intro hu
      subst hu
      have e : ('_' : Char).val.toNat = 95 := rfl
      omega

theorem Map.get_eq_none_of_not_mem {α : Type} : ∀ (m : Map String α) (k : String),
    k ∉ m.map Prod.fst → Map.get m k = none
  | [], _, _ => rfl
  | (k', v) :: m, k, h => by
    simp only [List.map_cons, List.mem_cons, not_or] at h
    simp only [Map.get]
    rw [if_neg (fun e => h.1 e.symm)]
    exact Map.get_eq_none_of_not_mem m k h.2

/-- The call of `scanToken` at a letter or underscore. -/
theorem Scanner.scanToken_alpha (s : Scanner) (c : Char)
    (hc : s.source[s.current]? = some c) (ha : isAlpha c = true) :
    Scanner.scanToken { s with start := s.current } =
      .ok { s with
        start := s.current
        current := s.current + ((s.source.drop s.current).takeWhile isAlphaNumeric).length
        tokens := s.tokens ++
          [⟨(Map.get keywords (String.mk ((s.source.drop s.current).takeWhile isAlphaNumeric))).getD
              TokenType.IDENTIFIER,
            String.mk ((s.source.drop s.current).takeWhile isAlphaNumeric), LiteralValue.nil,
            s.line⟩] } ∧
    ((s.source.drop s.current).takeWhile isAlphaNumeric).head? = some c ∧
    (∀ x ∈ (s.source.drop s.current).takeWhile isAlphaNumeric, isAlphaNumeric x = true) ∧
    s.source.drop s.current =
      (s.source.drop s.current).takeWhile isAlphaNumeric ++
        s.source.drop
          (s.current + ((s.source.drop s.current).takeWhile isAlphaNumeric).length) ∧
    isAlphaNumeric ((s.source.drop
      (s.current + ((s.source.drop s.current).takeWhile isAlphaNumeric).length)).headD '\x00') =
        false := by
  have hlt : s.current < s.source.length := by
    by_contra hge
    rw [List.getElem?_eq_none (by omega)] at hc
    cases hc
  have hsrc : s.source[s.current] = c := by
    rw [List.getElem?_eq_getElem hlt] at hc
    exact Option.some.inj hc
  have hcn : isAlphaNumeric c = true := by simp [isAlphaNumeric, ha]
  have hdrop : s.source.drop s.current = c :: s.source.drop (s.current + 1) := by
    rw [List.drop_eq_getElem_cons hlt, hsrc]
  generalize hrun : (s.source.drop s.current).takeWhile isAlphaNumeric = run
  have hsplit : s.source.drop s.current =
      run ++ (s.source.drop s.current).dropWhile isAlphaNumeric := by
    rw [← hrun, List.takeWhile_append_dropWhile]
  have hall : ∀ x ∈ run, isAlphaNumeric x = true := by
    intro x hx
    rw [← hrun] at hx
    exact (List.mem_takeWhile_imp hx)
  have hrest : isAlphaNumeric (((s.source.drop s.current).dropWhile isAlphaNumeric).headD '\x00') =
      false := headD_dropWhile isAlphaNumeric (by decide) _
  have hrun' : run = c :: (s.source.drop (s.current + 1)).takeWhile isAlphaNumeric := by
    rw [← hrun, hdrop, List.takeWhile_cons, hcn]
    rfl
  have hdw : (s.source.drop s.current).dropWhile isAlphaNumeric =
      s.source.drop (s.current + run.length) := by
    have h1 : s.source.drop (s.current + run.length) =
        (s.source.drop s.current).drop run.length := by
      rw [List.drop_drop, Nat.add_comm]
    rw [h1]
    conv_rhs => rw [hsplit]
    simp
  rw [hdw] at hsplit hrest
  refine ⟨?_, by rw [hrun']; rfl, hall, hsplit, hrest⟩
  · -- the call of scanToken
    have hne := isAlpha_not_punctuation c ha
    have hadv : Scanner.advance { s with start := s.current } =
        .ok (c, { s with start := s.current, current := s.current + 1 }) := by
      unfold Scanner.advance
      simp only [hc]
    rw [Scanner.scanToken_other _ _ c hadv hne.1, if_neg hne.2, if_pos ha]
    -- the loop over the rest of the run
    have hd1 : s.source.drop (s.current + 1) =
        (s.source.drop (s.current + 1)).takeWhile isAlphaNumeric ++
          s.source.drop (s.current + run.length) := by
      have := hsplit
      rw [hdrop, hrun'] at this
      simp only [List.cons_append, List.cons.injEq, true_and] at this
      rw [hrun']
      exact this
    have hlen : ((s.source.drop (s.current + 1)).takeWhile isAlphaNumeric).length <
        s.source.length + 1 := by
      have := congrArg List.length hd1
      simp only [List.length_drop, List.length_append] at this
      omega
    have hloop := Scanner.identifierLoop_run
      ((s.source.drop (s.current + 1)).takeWhile isAlphaNumeric) (s.source.length + 1)
      { s with start := s.current, current := s.current + 1 }
      (s.source.drop (s.current + run.length)) hd1
      (fun x hx => List.mem_takeWhile_imp hx) hrest hlen
    have hcur : s.current + 1 +
        ((s.source.drop (s.current + 1)).takeWhile isAlphaNumeric).length =
        s.current + run.length := by
      rw [hrun']
      simp only [List.length_cons]
      omega
    have hslice := sliceOf_run s.source s.current run _ hsplit (by rw [hrun']; simp)
    unfold Scanner.identifier
    simp only [hloop, hcur, Scanner.addToken, bind, Except.bind, hslice, pure, Except.pure]
    cases Map.get keywords (String.mk run) <;> rfl

/-- C28: when `scanToken` starts at a letter or underscore, it consumes the longest run
of letters, digits and underscores that starts there (the character after the run, if
any, is none of these) and appends exactly one token, whose lexeme is the whole run, on
the current line; its type is the entry of the keyword table for the run, and IDENTIFIER
when the table has none.  The table has the 16 reserved words, none of them mapped to
IDENTIFIER, so a run gets a keyword type exactly when it is one of them; `orchid` is a
single IDENTIFIER. -/
theorem scanToken_identifier_takes_longest_run (s : Scanner) (c : Char)
    (hc : s.source[s.current]? = some c) (ha : isAlpha c = true) :
    Scanner.scanToken { s with start := s.current } =
      .ok { s with
        start := s.current
        current := s.current + ((s.source.drop s.current).takeWhile isAlphaNumeric).length
        tokens := s.tokens ++
          [⟨(Map.get keywords (String.mk ((s.source.drop s.current).takeWhile isAlphaNumeric))).getD
              TokenType.IDENTIFIER,
            String.mk ((s.source.drop s.current).takeWhile isAlphaNumeric), LiteralValue.nil,
            s.line⟩] } ∧
    ((s.source.drop s.current).takeWhile isAlphaNumeric).head? = some c ∧
    (∀ x ∈ (s.source.drop s.current).takeWhile isAlphaNumeric, isAlphaNumeric x = true) ∧
    s.source.drop s.current =
      (s.source.drop s.current).takeWhile isAlphaNumeric ++
        s.source.drop
          (s.current + ((s.source.drop s.current).takeWhile isAlphaNumeric).length) ∧
    isAlphaNumeric ((s.source.drop
      (s.current + ((s.source.drop s.current).takeWhile isAlphaNumeric).length)).headD '\x00') =
        false ∧
    keywords.map Prod.fst =
      ["and", "class", "else", "false", "for", "fun", "if", "nil", "or", "print", "return",
        "super", "this", "true", "var", "while"] ∧
    (∀ text ∈ keywords.map Prod.fst,
      (Map.get keywords text).getD TokenType.IDENTIFIER ≠ TokenType.IDENTIFIER) ∧
    (∀ text : String, text ∉ keywords.map Prod.fst →
      (Map.get keywords text).getD TokenType.IDENTIFIER = TokenType.IDENTIFIER) ∧
    scanReport "orchid" = ([(TokenType.IDENTIFIER, "orchid"), (TokenType.EOF, "")], []) := by
  obtain ⟨h1, h2, h3, h4, h5⟩ := Scanner.scanToken_alpha s c hc ha
  refine ⟨h1, h2, h3, h4, h5, rfl, by decide, ?_, by decide!⟩
  intro text htext
  rw [Map.get_eq_none_of_not_mem keywords text htext]
  rfl

/-- C28 at the source `or2 x`, scanned from its start: the run is `or2`. -/
theorem scanToken_identifier_takes_longest_run_witness :
    Scanner.scanToken (NewScanner "or2 x" Errors.init) =
      .ok { NewScanner "or2 x" Errors.init with
        current := 3
        tokens := [⟨TokenType.IDENTIFIER, "or2", LiteralValue.nil, 1⟩] } :=
  (scanToken_identifier_takes_longest_run (NewScanner "or2 x" Errors.init) 'o' rfl rfl).1

/-! ## Numbers -/

theorem takeWhile_append_stop (p : Char → Bool) : ∀ (a : List Char) (x : Char) (b : List Char),
    (∀ c ∈ a, p c = true) → p x = false →
    (a ++ x :: b).takeWhile p = a ∧ (a ++ x :: b).dropWhile p = x :: b
  | [], x, b, _, hx => by simp [List.takeWhile_cons, List.dropWhile_cons, hx]
  | c :: a, x, b, ha, hx => by
    have hc := ha c (List.mem_cons_self _ _)
    have ih := takeWhile_append_stop p a x b (fun y hy => ha y (List.mem_cons_of_mem _ hy)) hx
    simp only [List.cons_append, List.takeWhile_cons, List.dropWhile_cons, hc, if_true, ih,
      and_self]

theorem takeWhile_all (p : Char → Bool) : ∀ (a : List Char),
    (∀ c ∈ a, p c = true) → a.takeWhile p = a ∧ a.dropWhile p = []
  | [], _ => by simp
  | c :: a, ha => by
    have hc := ha c (List.mem_cons_self _ _)
    have ih := takeWhile_all p a (fun y hy => ha y (List.mem_cons_of_mem _ hy))
    simp only [List.takeWhile_cons, List.dropWhile_cons, hc, if_true, ih, and_self]

theorem takeWhile_append_all (p : Char → Bool) : ∀ (a u : List Char),
    (∀ c ∈ a, p c = true) → (a ++ u).takeWhile p = a ++ u.takeWhile p
  | [], u, _ => by simp
  | c :: a, u, ha => by
    have hc := ha c (List.mem_cons_self _ _)
    have ih := takeWhile_append_all p a u (fun y hy => ha y (List.mem_cons_of_mem _ hy))
    simp only [List.cons_append, List.takeWhile_cons, hc, if_true, ih]

theorem Scanner.peekNext_of_drop (s : Scanner) (x : List Char)
    (h : s.source.drop s.current = x) : s.peekNext = x.tail.headD '\x00' := by
  subst h
  rw [List.tail_drop]
  unfold Scanner.peekNext
  by_cases hlt : s.current + 1 < s.source.length
  · have : ¬ s.current + 1 ≥ s.source.length := by omega
    simp only [this, if_false]
    rw [List.drop_eq_getElem_cons hlt]
    simp [List.getD, List.getElem?_eq_getElem hlt]
  · have hge : s.current + 1 ≥ s.source.length := by omega
    simp only [hge, if_true]
    rw [List.drop_eq_nil_of_le hge]
    rfl

theorem numberLexeme_starts_source (rest : List Char) : numberLexeme rest <+: rest := by
  have hsplit := List.takeWhile_append_dropWhile isDigit rest
  unfold numberLexeme
  simp only
  split
  · rename_i hcond
    obtain ⟨hh, hd⟩ := hcond
    generalize rest.dropWhile isDigit = after at hsplit hh hd
    cases after with
    | nil => simp at hh
    | cons x t =>
      simp only [List.head?_cons, Option.some.injEq] at hh
      subst hh
      simp only [List.tail_cons] at hd ⊢
      have h2 := List.takeWhile_append_dropWhile isDigit t
      refine ⟨t.dropWhile isDigit, ?_⟩
      conv_rhs => rw [← hsplit, ← h2]
      simp
  · exact ⟨rest.dropWhile isDigit, hsplit⟩

theorem numberLexeme_append (rest : List Char) :
    rest = numberLexeme rest ++ rest.drop (numberLexeme rest).length :=
  (List.prefix_iff_eq_append.mp (numberLexeme_starts_source rest)).symm

theorem takeWhile_isDigit_all (l : List Char) : ∀ c ∈ l.takeWhile isDigit, isDigit c = true :=
  fun _ hc => List.mem_takeWhile_imp hc

theorem isNumberForm_digits (a : List Char) (ha : a ≠ []) (hall : ∀ c ∈ a, isDigit c = true) :
    isNumberForm a = true := by
  obtain ⟨h1, h2⟩ := takeWhile_all isDigit a hall
  unfold isNumberForm
  simp only [h1, h2]
  cases a with
  | nil => exact absurd rfl ha
  | cons x t => simp

theorem isNumberForm_fraction (a b : List Char) (ha : a ≠ []) (hb : b ≠ [])
    (halla : ∀ c ∈ a, isDigit c = true) (hallb : ∀ c ∈ b, isDigit c = true) :
    isNumberForm (a ++ '.' :: b) = true := by
  obtain ⟨h1, h2⟩ := takeWhile_append_stop isDigit a '.' b halla (by decide)
  unfold isNumberForm
  simp only [h1, h2]
  cases a with
  | nil => exact absurd rfl ha
  | cons x t =>
    cases b with
    | nil => exact absurd rfl hb
    | cons y u =>
      simp only [List.isEmpty_cons, Bool.not_false, List.head?_cons, List.tail_cons,
        beq_self_eq_true, Bool.true_and, Bool.false_or, List.all_eq_true]
      exact hallb

theorem numberLexeme_form (rest : List Char) (c : Char) (h : rest.head? = some c)
    (hd : isDigit c = true) : isNumberForm (numberLexeme rest) = true := by
  have hne : rest.takeWhile isDigit ≠ [] := by
    cases rest with
    | nil => simp at h
    | cons x t =>
      simp only [List.head?_cons, Option.some.injEq] at h
      subst h
      simp [List.takeWhile_cons, hd]
  unfold numberLexeme
  simp only
  split
  · rename_i hcond
    obtain ⟨hh, hdig⟩ := hcond
    apply isNumberForm_fraction _ _ hne _ (takeWhile_isDigit_all rest)
      (takeWhile_isDigit_all _)
    generalize (rest.dropWhile isDigit).tail = t at hdig
    cases t with
    | nil => simp [isDigit] at hdig
    | cons y u =>
      simp only [List.headD_cons] at hdig
      simp [List.takeWhile_cons, hdig]
  · exact isNumberForm_digits _ hne (takeWhile_isDigit_all rest)

theorem isNumberForm_cases (l : List Char) (h : isNumberForm l = true) :
    (l ≠ [] ∧ ∀ c ∈ l, isDigit c = true) ∨
    ∃ a b, l = a ++ '.' :: b ∧ a ≠ [] ∧ b ≠ [] ∧ (∀ c ∈ a, isDigit c = true) ∧
      ∀ c ∈ b, isDigit c = true := by
  have hsplit := List.takeWhile_append_dropWhile isDigit l
  unfold isNumberForm at h
  simp only [Bool.and_eq_true, Bool.not_eq_true', Bool.or_eq_true, beq_iff_eq,
    List.all_eq_true] at h
  obtain ⟨h1, h2⟩ := h
  have hne : l.takeWhile isDigit ≠ [] := by
    intro he
    rw [he] at h1
    simp at h1
  rcases h2 with h2 | ⟨⟨h2, h3⟩, h4⟩
  · left
    have hdw : l.dropWhile isDigit = [] := by simpa using h2
    rw [hdw, List.append_nil] at hsplit
    refine ⟨by rw [← hsplit]; exact hne, ?_⟩
    intro c hc
    rw [← hsplit] at hc
    exact takeWhile_isDigit_all l c hc
  · right
    generalize l.dropWhile isDigit = after at hsplit h2 h3 h4
    cases after with
    | nil => simp at h2
    | cons x t =>
      simp only [List.head?_cons, Option.some.injEq] at h2
      subst h2
      simp only [List.tail_cons] at h3 h4
      refine ⟨l.takeWhile isDigit, t, hsplit.symm, hne, ?_, takeWhile_isDigit_all l, h4⟩
      intro ht
      rw [ht] at h3
      simp at h3

/-- The lexeme of `number` is at least as long as every prefix of the source that has the
form of a number. -/
theorem numberLexeme_longest (rest l : List Char) (hl : l <+: rest)
    (hf : isNumberForm l = true) : l.length ≤ (numberLexeme rest).length := by
  obtain ⟨u, hu⟩ := hl
  rcases isNumberForm_cases l hf with ⟨_, hall⟩ | ⟨a, b, hab, _, hb, halla, hallb⟩
  · have h1 : rest.takeWhile isDigit = l ++ u.takeWhile isDigit := by
      rw [← hu]
      exact takeWhile_append_all isDigit l u hall
    have h2 : l.length ≤ (rest.takeWhile isDigit).length := by
      rw [h1]
      simp
    unfold numberLexeme
    simp only
    split
    · simp only [List.length_append, List.length_cons]
      omega
    · exact h2
  · have hrest : rest = a ++ '.' :: (b ++ u) := by
      rw [← hu, hab]
      simp
    obtain ⟨h1, h2⟩ := takeWhile_append_stop isDigit a '.' (b ++ u) halla (by decide)
    rw [← hrest] at h1 h2
    have h3 : (b ++ u).takeWhile isDigit = b ++ u.takeWhile isDigit :=
      takeWhile_append_all isDigit b u hallb
    have h4 : isDigit ((b ++ u).headD '\x00') = true := by
      cases b with
      | nil => exact absurd rfl hb
      | cons y t => exact hallb y (List.mem_cons_self _ _)
    unfold numberLexeme
    simp only [h1, h2, List.head?_cons, List.tail_cons, h4, and_self, if_true, h3, hab,
      List.length_append, List.length_cons]
    omega

/-- The two loops of `number`, started after the first digit: they stop after the lexeme. -/
theorem Scanner.number_loops (s1 : Scanner) (k : Nat) (c : Char) (hcur : s1.current = k + 1)
    (hdrop : s1.source.drop k = c :: s1.source.drop (k + 1)) (hd : isDigit c = true) :
    (Scanner.digitLoop (s1.source.length + 1) s1 >>= fun s =>
      if s.peek = '.' && isDigit s.peekNext then
        s.advance >>= fun p => Scanner.digitLoop (p.2.source.length + 1) p.2
      else pure s) =
    .ok { s1 with current := k + (numberLexeme (s1.source.drop k)).length } := by
  -- the digits before the dot
  have hsplit1 := List.takeWhile_append_dropWhile isDigit (s1.source.drop (k + 1))
  generalize hd1 : (s1.source.drop (k + 1)).takeWhile isDigit = d1 at hsplit1
  generalize hr1 : (s1.source.drop (k + 1)).dropWhile isDigit = r1 at hsplit1
  have hall1 : ∀ x ∈ d1, isDigit x = true := by
    rw [← hd1]; exact takeWhile_isDigit_all _
  have hstop1 : isDigit (r1.headD '\x00') = false := by
    rw [← hr1]; exact headD_dropWhile isDigit (by decide) _
  have hlen1 : d1.length < s1.source.length + 1 := by
    have := congrArg List.length hsplit1
    simp only [List.length_drop, List.length_append] at this
    omega
  have hloop1 := Scanner.digitLoop_run d1 (s1.source.length + 1) s1 r1
    (by rw [hcur]; exact hsplit1.symm) hall1 hstop1 hlen1
  have hdrop2 : s1.source.drop (k + 1 + d1.length) = r1 := by
    rw [← List.drop_drop, ← hsplit1]
    simp
  have htw : (s1.source.drop k).takeWhile isDigit = c :: d1 := by
    rw [hdrop, List.takeWhile_cons, hd, if_pos rfl, hd1]
  have hdw : (s1.source.drop k).dropWhile isDigit = r1 := by
    rw [hdrop, List.dropWhile_cons, hd, if_pos rfl, hr1]
  have hpeek := Scanner.peek_of_drop { s1 with current := s1.current + d1.length } r1
    (by simp only [hcur]; exact hdrop2)
  have hpeekNext := Scanner.peekNext_of_drop { s1 with current := s1.current + d1.length } r1
    (by simp only [hcur]; exact hdrop2)
  simp only [bind, Except.bind, hloop1, hpeek, hpeekNext]
  unfold numberLexeme
  simp only [htw, hdw]
  by_cases hcond : r1.head? = some '.' ∧ isDigit (r1.tail.headD '\x00') = true
  · obtain ⟨hh, hdig⟩ := hcond
    cases r1 with
    | nil => simp at hh
    | cons x t =>
      simp only [List.head?_cons, Option.some.injEq] at hh
      subst hh
      simp only [List.tail_cons] at hdig ⊢
      have hadv := Scanner.advance_of_drop { s1 with current := s1.current + d1.length } '.' t
        (by simp only [hcur]; exact hdrop2)
      have hsplit2 := List.takeWhile_append_dropWhile isDigit t
      have hlen2 : (t.takeWhile isDigit).length < s1.source.length + 1 := by
        have h1 := congrArg List.length hsplit2
        have h2 := congrArg List.length hdrop2
        simp only [List.length_drop, List.length_append, List.length_cons] at h1 h2
        omega
      have hloop2 := Scanner.digitLoop_run (t.takeWhile isDigit) (s1.source.length + 1)
        { s1 with current := s1.current + d1.length + 1 } (t.dropWhile isDigit)
        (by rw [hsplit2]; exact hadv.2) (takeWhile_isDigit_all t)
        (headD_dropWhile isDigit (by decide) t) hlen2
      simp only [List.headD_cons, hdig, decide_True, Bool.and_self, if_true, hadv.1,
        List.head?_cons, and_self]
      rw [hloop2]
      simp only [hcur, List.length_append, List.length_cons]
      congr 2
      omega
  · have hc2 : (decide (r1.headD '\x00' = '.') && isDigit (r1.tail.headD '\x00')) = false := by
      rw [Bool.and_eq_false_iff]
      by_cases hh : r1.head? = some '.'
      · right
        have := fun h => hcond ⟨hh, h⟩
        simpa using this
      · left
        cases r1 with
        | nil => simp
        | cons x t =>
          simp only [List.head?_cons, Option.some.injEq] at hh
          simp [hh]
    simp only [hc2, Bool.false_eq_true, if_false, hcond, pure, Except.pure, hcur,
      List.length_cons]
    congr 2
    omega

/-- C29, amended: when `scanToken` starts at a digit, it consumes the lexeme
`numberLexeme` of the remaining source, which is a prefix of it of the form digits, or
digits followed by `.` and at least one digit, and the longest such prefix; a `.` that no
digit follows is not part of it.  If the library converts the lexeme to a `float64`,
exactly one token is appended, a NUMBER with that lexeme and value; if the conversion
fails (the literal is out of range), "Invalid number." is reported on the current line
and no token is appended.  `1.` scans as NUMBER `1`, DOT, EOF and `1.5` as NUMBER `1.5`,
EOF. -/
theorem scanToken_number_takes_longest_number (s : Scanner) (c : Char)
    (hc : s.source[s.current]? = some c) (hd : isDigit c = true) :
    Scanner.scanToken { s with start := s.current } =
      .ok (match parseFloat (String.mk (numberLexeme (s.source.drop s.current))) with
        | some value =>
          { s with
            start := s.current
            current := s.current + (numberLexeme (s.source.drop s.current)).length
            tokens := s.tokens ++
              [⟨TokenType.NUMBER, String.mk (numberLexeme (s.source.drop s.current)),
                LiteralValue.number value, s.line⟩] }
        | none =>
          { s with
            start := s.current
            current := s.current + (numberLexeme (s.source.drop s.current)).length
            errors := Error s.errors s.line "Invalid number." }) ∧
    numberLexeme (s.source.drop s.current) <+: s.source.drop s.current ∧
    isNumberForm (numberLexeme (s.source.drop s.current)) = true ∧
    (∀ l : List Char, l <+: s.source.drop s.current → isNumberForm l = true →
      l.length ≤ (numberLexeme (s.source.drop s.current)).length) ∧
    (∀ t : List Char, (s.source.drop s.current).dropWhile isDigit = '.' :: t →
      isDigit (t.headD '\x00') = false →
      numberLexeme (s.source.drop s.current) = (s.source.drop s.current).takeWhile isDigit) ∧
    scanReport "1." =
      ([(TokenType.NUMBER, "1"), (TokenType.DOT, "."), (TokenType.EOF, "")], []) ∧
    scanReport "1.5" = ([(TokenType.NUMBER, "1.5"), (TokenType.EOF, "")], []) := by
  have hlt : s.current < s.source.length := by
    by_contra hge
    rw [List.getElem?_eq_none (by omega)] at hc
    cases hc
  have hsrc : s.source[s.current] = c := by
    rw [List.getElem?_eq_getElem hlt] at hc
    exact Option.some.inj hc
  have hdrop : s.source.drop s.current = c :: s.source.drop (s.current + 1) := by
    rw [List.drop_eq_getElem_cons hlt, hsrc]
  have hhead : (s.source.drop s.current).head? = some c := by rw [hdrop]; rfl
  refine ⟨?_, numberLexeme_starts_source _, numberLexeme_form _ c hhead hd,
    fun l hl hf => numberLexeme_longest _ l hl hf, ?_, by decide!, by decide!⟩
  · have hne := isDigit_not_punctuation c hd
    have hadv : Scanner.advance { s with start := s.current } =
        .ok (c, { s with start := s.current, current := s.current + 1 }) := by
      unfold Scanner.advance
      simp only [hc]
    have hna : ¬ (isAlpha c = true) := by rw [hne.2.2]; simp
    rw [Scanner.scanToken_other _ _ c hadv hne.1, if_neg hne.2.1, if_neg hna, if_pos hd]
    have hloops := Scanner.number_loops { s with start := s.current, current := s.current + 1 }
      s.current c rfl hdrop hd
    have hlexne : numberLexeme (s.source.drop s.current) ≠ [] := by
      intro he
      have := numberLexeme_form _ c hhead hd
      rw [he] at this
      simp [isNumberForm] at this
    have hslice := sliceOf_run s.source s.current (numberLexeme (s.source.drop s.current)) _
      (numberLexeme_append (s.source.drop s.current)) hlexne
    unfold Scanner.number
    simp only [bind, Except.bind] at hloops ⊢
    cases hl1 : Scanner.digitLoop (s.source.length + 1)
        { s with start := s.current, current := s.current + 1 } with
    | error e =>
      rw [hl1] at hloops
      cases hloops
    | ok s2 =>
      rw [hl1] at hloops
      simp only at hloops ⊢
      rw [hloops]
      simp only [hslice]
      cases parseFloat (String.mk (numberLexeme (s.source.drop s.current))) with
      | none => rfl
      | some value =>
        simp only [Scanner.addToken, bind, Except.bind, hslice, pure, Except.pure]
  · intro t ht hdig
    unfold numberLexeme
    simp only [ht, List.head?_cons, List.tail_cons, hdig, Bool.false_eq_true, and_false,
      if_false]

/-- C29, amended, at the source `12.x`, scanned from its start: the lexeme is `12`. -/
theorem scanToken_number_takes_longest_number_witness :
    numberLexeme "12.x".toList = "12".toList ∧
    (∀ l : List Char, l <+: "12.x".toList → isNumberForm l = true →
      l.length ≤ (numberLexeme "12.x".toList).length) :=
  ⟨by decide,
    (scanToken_number_takes_longest_number (NewScanner "12.x" Errors.init) '1' rfl rfl).2.2.2.1⟩

/-- C29 as stated fails: on a literal of 310 digits the conversion to `float64` fails
with a range error, `number` reports "Invalid number." and no NUMBER token is emitted. -/
theorem number_out_of_range_emits_no_token :
    scanReport (String.mk (List.replicate 310 '9')) =
      ([(TokenType.EOF, "")], ["[line 1] Error: Invalid number."]) := by
  decide!

/-! ## Strings -/

theorem Scanner.isAtEnd_of_drop (s : Scanner) (x : List Char)
    (h : s.source.drop s.current = x) : s.isAtEnd = x.isEmpty := by
  subst h
  unfold Scanner.isAtEnd
  by_cases hlt : s.current < s.source.length
  · apply Bool.eq_iff_iff.mpr
    simp only [decide_eq_true_eq, List.isEmpty_iff_length_eq_zero, List.length_drop]
    omega
  · apply Bool.eq_iff_iff.mpr
    simp only [decide_eq_true_eq, List.isEmpty_iff_length_eq_zero, List.length_drop]
    omega

theorem Scanner.stringLoop_run : ∀ (run : List Char) (n : Nat) (s : Scanner)
    (rest : List Char), s.source.drop s.current = run ++ rest →
    (∀ c ∈ run, c ≠ '"') → (rest = [] ∨ rest.head? = some '"') →
    run.length < n →
    Scanner.stringLoop n s =
      .ok { s with current := s.current + run.length, line := s.line + run.count '\n' }
  | [], n, s, rest, hd, _, hrest, hn => by
    cases n with
    | zero => simp at hn
    | succ n =>
      simp only [List.nil_append] at hd
      have hcond : (decide (s.peek ≠ '"') && !s.isAtEnd) = false := by
        rw [Scanner.peek_of_drop s rest hd, Scanner.isAtEnd_of_drop s rest hd]
        rcases hrest with h | h
        · subst h; simp
        · cases rest with
          | nil => simp at h
          | cons x t =>
            simp only [List.head?_cons, Option.some.injEq] at h
            subst h
            simp
      simp only [Scanner.stringLoop, hcond, Bool.false_eq_true, if_false, List.length_nil,
        Nat.add_zero, List.count_nil]
      rfl
  | c :: cs, n, s, rest, hd, hrun, hrest, hn => by
    cases n with
    | zero => simp at hn
    | succ n =>
      simp only [List.cons_append] at hd
      have hc : c ≠ '"' := hrun c (List.mem_cons_self _ _)
      have hpeek := Scanner.peek_of_drop s (c :: (cs ++ rest)) hd
      simp only [List.headD_cons] at hpeek
      have hcond : (decide (s.peek ≠ '"') && !s.isAtEnd) = true := by
        rw [hpeek, Scanner.isAtEnd_of_drop s _ hd]
        simp [hc]
      rw [hpeek] at hcond
      by_cases hnl : c = '\n'
      · subst hnl
        obtain ⟨hadv, hd'⟩ := Scanner.advance_of_drop { s with line := s.line + 1 } '\n'
          (cs ++ rest) hd
        have ih := Scanner.stringLoop_run cs n
          { s with line := s.line + 1, current := s.current + 1 } rest hd'
          (fun x hx => hrun x (List.mem_cons_of_mem _ hx)) hrest
          (by simp only [List.length_cons] at hn; omega)
        simp only [Scanner.stringLoop, hcond, if_true, hpeek, bind, Except.bind, hadv]
        rw [ih]
        simp only [List.length_cons, List.count_cons_self]
        rw [show s.current + 1 + cs.length = s.current + (cs.length + 1) from by omega,
          show s.line + 1 + cs.count '\n' = s.line + (cs.count '\n' + 1) from by omega]
      · obtain ⟨hadv, hd'⟩ := Scanner.advance_of_drop s c (cs ++ rest) hd
        have ih := Scanner.stringLoop_run cs n { s with current := s.current + 1 } rest hd'
          (fun x hx => hrun x (List.mem_cons_of_mem _ hx)) hrest
          (by simp only [List.length_cons] at hn; omega)
        simp only [Scanner.stringLoop, hcond, if_true, hpeek, hnl, if_false, bind, Except.bind,
          hadv]
        rw [ih]
        have hcnt : (c :: cs).count '\n' = cs.count '\n' := by
          rw [List.count_cons_of_ne (Ne.symm hnl)]
        simp only [List.length_cons, hcnt]
        rw [show s.current + 1 + cs.length = s.current + (cs.length + 1) from by omega]

theorem sliceOf_run_le (source : List Char) (k : Nat) (run rest : List Char)
    (h : source.drop k = run ++ rest) (hk : k ≤ source.length) :
    sliceOf source k (k + run.length) = .ok (String.mk run) := by
  have hle : k + run.length ≤ source.length := by
    have := congrArg List.length h
    simp only [List.length_drop, List.length_append] at this
    omega
  unfold sliceOf
  rw [if_pos ⟨Nat.le_add_right _ _, hle⟩, h]
  simp

/-- C30: when `scanToken` starts at a `"`: if no `"` follows in the source, it consumes
the rest of the source, reports "Unterminated string." at the line reached at the end of
input (the line of the opening quote plus the newlines after it) and appends no token;
if a `"` follows, it appends exactly one STRING token, on the line of the closing quote,
whose literal is the text between the quotes and whose lexeme is that text with the
quotes.  `ScanTokens` returns for every source, with a token list that ends in EOF. -/
theorem scanToken_string_reports_unterminated (s : Scanner)
    (hc : s.source[s.current]? = some '"') :
    ('"' ∉ s.source.drop (s.current + 1) →
      Scanner.scanToken { s with start := s.current } =
        .ok { s with
          start := s.current
          current := s.source.length
          line := s.line + (s.source.drop (s.current + 1)).count '\n'
          errors := Error s.errors (s.line + (s.source.drop (s.current + 1)).count '\n')
            "Unterminated string." }) ∧
    (∀ body rest : List Char, s.source.drop (s.current + 1) = body ++ '"' :: rest →
      '"' ∉ body →
      Scanner.scanToken { s with start := s.current } =
        .ok { s with
          start := s.current
          current := s.current + body.length + 2
          line := s.line + body.count '\n'
          tokens := s.tokens ++
            [⟨TokenType.STRING, String.mk ('"' :: body ++ ['"']),
              LiteralValue.string (String.mk body), s.line + body.count '\n'⟩] }) ∧
    (∀ (source : String) (errors : Errors), ∃ (s' : Scanner) (toks : List Token),
      (NewScanner source errors).ScanTokens = Except.ok s' ∧
      s'.tokens = toks ++ [⟨TokenType.EOF, "", LiteralValue.nil, s'.line⟩]) ∧
    scanReport "x \"ab\ncd" =
      ([(TokenType.IDENTIFIER, "x"), (TokenType.EOF, "")],
        ["[line 2] Error: Unterminated string."]) ∧
    scanReport "\"ab\ncd\" x" =
      ([(TokenType.STRING, "\"ab\ncd\""), (TokenType.IDENTIFIER, "x"), (TokenType.EOF, "")],
        []) := by
  have hlt : s.current < s.source.length := by
    by_contra hge
    rw [List.getElem?_eq_none (by omega)] at hc
    cases hc
  have hsrc : s.source[s.current] = '"' := by
    rw [List.getElem?_eq_getElem hlt] at hc
    exact Option.some.inj hc
  have hdrop : s.source.drop s.current = '"' :: s.source.drop (s.current + 1) := by
    rw [List.drop_eq_getElem_cons hlt, hsrc]
  have hadv : Scanner.advance { s with start := s.current } =
      .ok ('"', { s with start := s.current, current := s.current + 1 }) := by
    unfold Scanner.advance
    simp only [hc]
  have hscan : Scanner.scanToken { s with start := s.current } =
      Scanner.string { s with start := s.current, current := s.current + 1 } := by
    rw [Scanner.scanToken_other _ _ '"' hadv (by decide), if_pos rfl]
  refine ⟨?_, ?_, ?_, by decide!, by decide!⟩
  · intro hno
    have hloop := Scanner.stringLoop_run (s.source.drop (s.current + 1)) (s.source.length + 1)
      { s with start := s.current, current := s.current + 1 } []
      (by simp) (fun x hx hq => hno (hq ▸ hx)) (Or.inl rfl)
      (by simp only [List.length_drop]; omega)
    have hcur : s.current + 1 + (s.source.drop (s.current + 1)).length = s.source.length := by
      simp only [List.length_drop]
      omega
    rw [hscan]
    unfold Scanner.string
    simp only [hloop, hcur, bind, Except.bind]
    have hend : Scanner.isAtEnd
        { s with
          start := s.current
          current := s.source.length
          line := s.line + (s.source.drop (s.current + 1)).count '\n' } = true := by
      simp [Scanner.isAtEnd]
    simp only [hend, if_true]
    rfl
  · intro body rest hbody hno
    have hlen : body.length < s.source.length + 1 := by
      have := congrArg List.length hbody
      simp only [List.length_drop, List.length_append, List.length_cons] at this
      omega
    have hloop := Scanner.stringLoop_run body (s.source.length + 1)
      { s with start := s.current, current := s.current + 1 } ('"' :: rest)
      hbody (fun x hx hq => hno (hq ▸ hx)) (Or.inr rfl) hlen
    have hd2 : s.source.drop (s.current + 1 + body.length) = '"' :: rest := by
      rw [← List.drop_drop, hbody]
      simp
    have hend : Scanner.isAtEnd
        { s with
          start := s.current
          current := s.current + 1 + body.length
          line := s.line + body.count '\n' } = false := by
      rw [Scanner.isAtEnd_of_drop _ _ hd2]
      rfl
    have hadv2 := (Scanner.advance_of_drop
        { s with
          start := s.current
          current := s.current + 1 + body.length
          line := s.line + body.count '\n' } '"' rest hd2).1
    have hs1 := sliceOf_run_le s.source (s.current + 1) body ('"' :: rest) hbody (by omega)
    have hs2 : sliceOf s.source s.current (s.current + body.length + 2) =
        .ok (String.mk ('"' :: body ++ ['"'])) := by
      have := sliceOf_run_le s.source s.current ('"' :: body ++ ['"']) rest
        (by rw [hdrop, hbody]; simp) (by omega)
      simpa [Nat.add_assoc] using this
    rw [hscan]
    unfold Scanner.string
    simp only [hloop, bind, Except.bind, hend, Bool.false_eq_true, if_false, hadv2,
      Nat.add_sub_cancel, hs1, Scanner.addToken, pure, Except.pure]
    rw [show s.current + 1 + body.length + 1 = s.current + body.length + 2 from by omega, hs2]
  · intro source errors
    obtain ⟨s1, hs1, _, _, _, _⟩ := Scanner.scanLoop_ok
      ((NewScanner source errors).source.length + 1)
      (NewScanner source errors) (Nat.zero_le _) (by simp [NewScanner])
    refine ⟨{ s1 with tokens := s1.tokens ++ [⟨TokenType.EOF, "", LiteralValue.nil, s1.line⟩] },
      s1.tokens, ?_, rfl⟩
    unfold Scanner.ScanTokens
    simp only [hs1, bind, Except.bind, pure, Except.pure]

/-- C30 at the source `"a` followed by a newline and `b`, scanned from its start. -/
theorem scanToken_string_reports_unterminated_witness :
    Scanner.scanToken (NewScanner "\"a\nb" Errors.init) =
      .ok { NewScanner "\"a\nb" Errors.init with
        current := 4
        line := 2
        errors := ⟨true, false, ["[line 2] Error: Unterminated string."]⟩ } :=
  (scanToken_string_reports_unterminated (NewScanner "\"a\nb" Errors.init) rfl).1 (by decide)

/-! ## The primitives of the parser at a token -/

theorem Parser.peek_at {p : Parser} {t : Token} (h : p.tokens[p.current]? = some t) :
    p.peek = .ok t p := by
  simp only [Parser.peek, h]

theorem Parser.isAtEnd_at {p : Parser} {t : Token} (h : p.tokens[p.current]? = some t) :
    p.isAtEnd = .ok (t.type == TokenType.EOF) p := by
  simp only [Parser.isAtEnd, Parser.peek_at h, PRes.bind]

theorem Parser.check_at {p : Parser} {t : Token} (h : p.tokens[p.current]? = some t)
    (ty : TokenType) :
    p.check ty = .ok (if t.type = TokenType.EOF then false else t.type == ty) p := by
  simp only [Parser.check, Parser.isAtEnd_at h, PRes.bind, Parser.peek_at h]
  by_cases he : t.type = TokenType.EOF
  · simp [he]
  · simp [he]

theorem Parser.advance_at {p : Parser} {t : Token} (h : p.tokens[p.current]? = some t)
    (hne : t.type ≠ TokenType.EOF) :
    p.advance = .ok t { p with current := p.current + 1 } := by
  simp only [Parser.advance, Parser.isAtEnd_at h, PRes.bind]
  have : (t.type == TokenType.EOF) = false := by simpa using hne
  simp only [this, Bool.not_false, if_true, Parser.previous, Nat.add_sub_cancel, h]
  simp

theorem Parser.match_at_pos {p : Parser} {t : Token} (h : p.tokens[p.current]? = some t)
    (hne : t.type ≠ TokenType.EOF) :
    ∀ (types : List TokenType), t.type ∈ types →
      Parser.match p types = .ok true { p with current := p.current + 1 }
  | [], hm => by simp at hm
  | ty :: rest, hm => by
    simp only [Parser.match, Parser.check_at h, PRes.bind, if_neg hne]
    by_cases hty : t.type = ty
    · simp [hty, Parser.advance_at h hne, PRes.bind]
    · have hm' : t.type ∈ rest := by
        rcases List.mem_cons.mp hm with h1 | h1
        · exact absurd h1 hty
        · exact h1
      have : (t.type == ty) = false := by simpa using hty
      simp only [this, Bool.false_eq_true, if_false]
      exact Parser.match_at_pos h hne rest hm'

theorem Parser.match_at_neg {p : Parser} {t : Token} (h : p.tokens[p.current]? = some t) :
    ∀ (types : List TokenType), t.type ∉ types → Parser.match p types = .ok false p
  | [], _ => rfl
  | ty :: rest, hm => by
    simp only [List.mem_cons, not_or] at hm
    simp only [Parser.match, Parser.check_at h, PRes.bind]
    have : (if t.type = TokenType.EOF then false else t.type == ty) = false := by
      split
      · rfl
      · simpa using hm.1
    simp only [this, Bool.false_eq_true, if_false]
    exact Parser.match_at_neg h rest hm.2

theorem Parser.match_at_eof {p : Parser} {t : Token} (h : p.tokens[p.current]? = some t)
    (he : t.type = TokenType.EOF) :
    ∀ (types : List TokenType), Parser.match p types = .ok false p
  | [] => rfl
  | ty :: rest => by
    simp only [Parser.match, Parser.check_at h, PRes.bind, he, if_true, Bool.false_eq_true,
      if_false]
    exact Parser.match_at_eof h he rest

theorem Parser.consume_at_pos {p : Parser} {t : Token} (h : p.tokens[p.current]? = some t)
    (hne : t.type ≠ TokenType.EOF) (ty : TokenType) (message : String) (hty : t.type = ty) :
    p.consume ty message = .ok t { p with current := p.current + 1 } := by
  simp only [Parser.consume, Parser.check_at h, PRes.bind, if_neg hne]
  simp [hty, Parser.advance_at h hne]

theorem Parser.consume_at_neg {p : Parser} {t : Token} (h : p.tokens[p.current]? = some t)
    (ty : TokenType) (message : String) (hty : t.type ≠ ty) :
    p.consume ty message = .err (p.error t message) := by
  simp only [Parser.consume, Parser.check_at h, PRes.bind]
  have : (if t.type = TokenType.EOF then false else t.type == ty) = false := by
    split
    · rfl
    · simpa using hty
  simp only [this, Bool.false_eq_true, if_false, Parser.peek_at h]

theorem Parser.consume_at_eof {p : Parser} {t : Token} (h : p.tokens[p.current]? = some t)
    (ty : TokenType) (message : String) (he : t.type = TokenType.EOF) :
    p.consume ty message = .err (p.error t message) := by
  simp only [Parser.consume, Parser.check_at h, PRes.bind, he, if_true, Bool.false_eq_true,
    if_false, Parser.peek_at h]

/-! ## Printing a function value -/

/-- C24 fails in the code: `stringify` of a user-defined function is never "<fn>".
`*LoxFunction` has no `String` method, so `%v` prints the struct behind the pointer,
"&" followed by its fields in braces; `fun f() {} print f;` prints such a line. -/
theorem stringify_function_is_not_fn :
    (∀ (instances : List LoxInstance) (f : LoxFunction),
      stringify instances (Value.function f) ≠ "<fn>" ∧
      (stringify instances (Value.function f)).data.head? = some '&') ∧
    stringify [] Value.clock = "<native fn>" ∧
    runFile 40 "fun f() \x7b\x7d print f; print clock;" =
      some (["&\x7b0x0 0x0 false\x7d", "<native fn>"], ⟨false, false, []⟩) := by
  refine ⟨fun instances f => ?_, rfl, by decide!⟩
  have h : (stringify instances (Value.function f)).data.head? = some '&' := by
    simp only [stringify, String.data_append, String.append_assoc]
    rfl
  refine ⟨fun he => ?_, h⟩
  rw [he] at h
  exact absurd h (by decide)

/-! ## Assignment targets -/

/-- C25: after the left-hand side has been parsed by `logic_or` to `lhs`, an `=` has
been matched (`equals` is that token) and the right-hand side has been parsed by
`assignment` to `value`: for a Variable node the parser returns Assign(name, value), for
a Get node it returns Set(object, name, value), and for every other `lhs` it reports
"Invalid assignment target." at `equals`, returns no error, and yields `lhs`. -/
theorem assignment_rewrites_target (n : Nat) (p p1 p2 p3 : Parser) (lhs value : Expr)
    (equals : Token) (hl : Parser.logic_or n p = .ok lhs p1)
    (hm : Parser.match p1 [TokenType.EQUAL] = .ok true p2)
    (hprev : p2.previous = .ok equals p2) (hv : Parser.assignment n p2 = .ok value p3) :
    (∀ v : Variable, lhs = Expr.Variable v →
      Parser.assignment (n + 1) p =
        .ok (Expr.Assign p3.nextId v.Name value) { p3 with nextId := p3.nextId + 1 }) ∧
    (∀ (object : Expr) (name : Token), lhs = Expr.Get object name →
      Parser.assignment (n + 1) p = .ok (Expr.Set object name value) p3) ∧
    ((∀ v : Variable, lhs ≠ Expr.Variable v) →
      (∀ (object : Expr) (name : Token), lhs ≠ Expr.Get object name) →
      Parser.assignment (n + 1) p =
        .ok lhs
          { p3 with
            errors := ReportParseError p3.errors equals.Line equals.Lexeme
              (equals.type == TokenType.EOF) "Invalid assignment target." }) ∧
    printParsed "a = b" = some (some "(assign a b)", []) ∧
    printParsed "a.b = c" = some (some "(set b a c)", []) ∧
    printParsed "(a) = b" =
      some (some "(group a)", ["[line 1] Error at '=': Invalid assignment target."]) := by
  refine ⟨?_, ?_, ?_, by decide!, by decide!, by decide!⟩
  · intro v hv'
    subst hv'
    simp only [Parser.assignment, hl, PRes.bind, hm, if_true, hprev, hv]
  · intro object name hg
    subst hg
    simp only [Parser.assignment, hl, PRes.bind, hm, if_true, hprev, hv]
  · intro h1 h2
    simp only [Parser.assignment, hl, PRes.bind, hm, if_true, hprev, hv]
    cases lhs with
    | Variable v => exact absurd rfl (h1 v)
    | Get object name => exact absurd rfl (h2 object name)
    | _ => rfl

/-- C25 at the tokens of `true = false`: the target is a literal, the parser reports
the diagnostic at `=` and returns the literal. -/
theorem assignment_rewrites_target_witness :
    Parser.assignment 13
      (NewParser [sampleToken TokenType.TRUE "true", sampleToken TokenType.EQUAL "=",
        sampleToken TokenType.FALSE "false", sampleToken TokenType.EOF ""] Errors.init) =
    .ok (Expr.Literal (LiteralValue.bool true))
      { NewParser [sampleToken TokenType.TRUE "true", sampleToken TokenType.EQUAL "=",
          sampleToken TokenType.FALSE "false", sampleToken TokenType.EOF ""] Errors.init with
        current := 3
        errors := ⟨true, false, ["[line 1] Error at '=': Invalid assignment target."]⟩ } :=
  (assignment_rewrites_target 12
    (NewParser [sampleToken TokenType.TRUE "true", sampleToken TokenType.EQUAL "=",
      sampleToken TokenType.FALSE "false", sampleToken TokenType.EOF ""] Errors.init)
    { NewParser [sampleToken TokenType.TRUE "true", sampleToken TokenType.EQUAL "=",
        sampleToken TokenType.FALSE "false", sampleToken TokenType.EOF ""] Errors.init with
      current := 1 }
    { NewParser [sampleToken TokenType.TRUE "true", sampleToken TokenType.EQUAL "=",
        sampleToken TokenType.FALSE "false", sampleToken TokenType.EOF ""] Errors.init with
      current := 2 }
    { NewParser [sampleToken TokenType.TRUE "true", sampleToken TokenType.EQUAL "=",
        sampleToken TokenType.FALSE "false", sampleToken TokenType.EOF ""] Errors.init with
      current := 3 }
    (Expr.Literal (LiteralValue.bool true)) (Expr.Literal (LiteralValue.bool false))
    (sampleToken TokenType.EQUAL "=") rfl rfl rfl rfl).2.2.1
    (fun _ h => by cases h) (fun _ _ h => by cases h)

/-! ## Lists of parameters and of arguments -/

theorem getElem?_of_drop_cons {α : Type} {l : List α} {k : Nat} {x : α} {xs : List α}
    (h : l.drop k = x :: xs) : l[k]? = some x ∧ l.drop (k + 1) = xs := by
  have hlt : k < l.length := by
    by_contra hge
    rw [List.drop_eq_nil_of_le (by omega)] at h
    cases h
  rw [List.drop_eq_getElem_cons hlt] at h
  injection h with h1 h2
  exact ⟨by rw [List.getElem?_eq_getElem hlt, h1], h2⟩

theorem excessReports_within (message : String) : ∀ (tokens : List Token) (count : Nat)
    (e : Errors), count + tokens.length ≤ 255 → excessReports message count tokens e = e
  | [], _, _, _ => rfl
  | t :: rest, count, e, h => by
    simp only [List.length_cons] at h
    have hc : ¬ count ≥ 255 := by omega
    simp only [excessReports, hc, if_false]
    exact excessReports_within message rest (count + 1) e (by omega)

theorem excessReports_stderr (message : String) : ∀ (tokens : List Token) (count : Nat)
    (e : Errors),
    (excessReports message count tokens e).stderr.length =
      e.stderr.length + (tokens.length - (255 - count)) ∧
    ((excessReports message count tokens e).HadError =
      (e.HadError || decide (tokens.length > 255 - count)))
  | [], count, e => by simp [excessReports]
  | t :: rest, count, e => by
    by_cases hc : count ≥ 255
    · obtain ⟨h1, h2⟩ := excessReports_stderr message rest (count + 1)
        (ReportParseError e t.Line t.Lexeme (t.type == TokenType.EOF) message)
      simp only [excessReports, hc, if_true, h1, h2, List.length_cons]
      constructor
      · have : (ReportParseError e t.Line t.Lexeme (t.type == TokenType.EOF) message).stderr.length
            = e.stderr.length + 1 := by
          unfold ReportParseError
          split <;> simp [report]
        rw [this]
        omega
      · have : (ReportParseError e t.Line t.Lexeme (t.type == TokenType.EOF) message).HadError
            = true := by
          unfold ReportParseError
          split <;> simp [report]
        rw [this]
        have : rest.length + 1 > 255 - count := by omega
        simp [this]
    · obtain ⟨h1, h2⟩ := excessReports_stderr message rest (count + 1) e
      simp only [excessReports, hc, if_false, h1, h2, List.length_cons]
      constructor
      · omega
      · congr 2
        apply propext
        constructor <;> intro h <;> omega

theorem PRes.bind_ok {α β : Type} (a : α) (p : Parser) (f : α → Parser → PRes β) :
    (PRes.ok a p).bind f = f a p := rfl

/-- One turn of the loop over the parameters, after its test of the count. -/
theorem parametersLoop_turn (n : Nat) (acc : List Token) (p0 : Parser) (t next : Token)
    (h0 : p0.tokens[p0.current]? = some t) (ht : t.type = TokenType.IDENTIFIER)
    (h1 : p0.tokens[p0.current + 1]? = some next) :
    ((p0.consume TokenType.IDENTIFIER "Expect parameter name.").bind fun param p =>
      (Parser.match p [TokenType.COMMA]).bind fun more p =>
      if more then Parser.parametersLoop n (acc ++ [param]) p
      else .ok (acc ++ [param]) p) =
    if next.type = TokenType.COMMA then
      Parser.parametersLoop n (acc ++ [t]) { p0 with current := p0.current + 1 + 1 }
    else .ok (acc ++ [t]) { p0 with current := p0.current + 1 } := by
  have hne : t.type ≠ TokenType.EOF := by rw [ht]; decide
  rw [Parser.consume_at_pos h0 hne TokenType.IDENTIFIER "Expect parameter name." ht]
  simp only [PRes.bind]
  by_cases hc : next.type = TokenType.COMMA
  · have hnc : next.type ≠ TokenType.EOF := by rw [hc]; decide
    rw [Parser.match_at_pos (p := { p0 with current := p0.current + 1 }) h1 hnc
      [TokenType.COMMA] (by simp [hc])]
    simp only [if_true, hc]
  · rw [Parser.match_at_neg (p := { p0 with current := p0.current + 1 }) h1
      [TokenType.COMMA] (by simpa using hc)]
    simp only [Bool.false_eq_true, if_false, hc]

theorem parametersLoop_reads {toks params : List Token} (h : ParamTokens toks params) :
    ∀ (n : Nat) (acc : List Token) (p : Parser) (stop : Token) (after : List Token),
    p.tokens.drop p.current = toks ++ stop :: after → stop.type ≠ TokenType.COMMA →
    params.length ≤ n →
    Parser.parametersLoop n acc p =
      .ok (acc ++ params)
        { p with
          current := p.current + toks.length
          errors := excessReports "Cannot have more than 255 parameters." acc.length params
            p.errors } := by
  induction h with
  | last t ht =>
    intro n acc p stop after hd hstop hn
    cases n with
    | zero => simp at hn
    | succ n =>
      obtain ⟨h0, h1⟩ := getElem?_of_drop_cons hd
      obtain ⟨h2, _⟩ := getElem?_of_drop_cons h1
      unfold Parser.parametersLoop
      by_cases hc : acc.length ≥ 255
      · rw [if_pos hc, Parser.peek_at h0, PRes.bind_ok, PRes.bind_ok]
        rw [parametersLoop_turn n acc (p.error t "Cannot have more than 255 parameters.") t stop
          h0 ht h2, if_neg hstop]
        simp only [excessReports, hc, if_true, List.length_singleton]
        rfl
      · rw [if_neg hc, PRes.bind_ok]
        rw [parametersLoop_turn n acc p t stop h0 ht h2, if_neg hstop]
        simp only [excessReports, hc, if_false, List.length_singleton]
  | more t c rest params ht hcomma _ ih =>
    intro n acc p stop after hd hstop hn
    cases n with
    | zero => simp at hn
    | succ n =>
      simp only [List.cons_append] at hd
      obtain ⟨h0, h1⟩ := getElem?_of_drop_cons hd
      obtain ⟨h2, h3⟩ := getElem?_of_drop_cons h1
      simp only [List.length_cons] at hn
      unfold Parser.parametersLoop
      by_cases hc : acc.length ≥ 255
      · rw [if_pos hc, Parser.peek_at h0, PRes.bind_ok, PRes.bind_ok]
        rw [parametersLoop_turn n acc (p.error t "Cannot have more than 255 parameters.") t c
          h0 ht h2, if_pos hcomma]
        refine (ih n (acc ++ [t])
          { p.error t "Cannot have more than 255 parameters." with
            current := p.current + 1 + 1 } stop after h3 hstop (by omega)).trans ?_
        simp only [excessReports, hc, if_true, List.length_append, List.length_singleton,
          List.length_cons, List.append_assoc, List.singleton_append, Parser.error]
        rw [show p.current + 1 + 1 + rest.length = p.current + (rest.length + 1 + 1) from by
          omega]
        rfl
      · rw [if_neg hc, PRes.bind_ok]
        rw [parametersLoop_turn n acc p t c h0 ht h2, if_pos hcomma]
        refine (ih n (acc ++ [t]) { p with current := p.current + 1 + 1 } stop after h3 hstop
          (by omega)).trans ?_
        simp only [excessReports, hc, if_false, List.length_append, List.length_singleton,
          List.length_cons, List.append_assoc, List.singleton_append]
        rw [show p.current + 1 + 1 + rest.length = p.current + (rest.length + 1 + 1) from by
          omega]
        rfl

/-! ## An expression that is a single token -/

/-- At a token that ends an expression, no operator is matched. -/
theorem Parser.match_stop {p : Parser} {next : Token} (h : p.tokens[p.current]? = some next)
    (hs : next.type ∈ [TokenType.EOF, TokenType.COMMA, TokenType.RIGHT_PAREN,
      TokenType.SEMICOLON])
    (types : List TokenType)
    (hd : ∀ ty ∈ types, ty ∉ [TokenType.EOF, TokenType.COMMA, TokenType.RIGHT_PAREN,
      TokenType.SEMICOLON]) :
    Parser.match p types = .ok false p := by
  by_cases he : next.type = TokenType.EOF
  · exact Parser.match_at_eof h he types
  · exact Parser.match_at_neg h types (fun hm => hd _ hm hs)

/-- From `primary` up to `expression`, when the token after the primary expression ends
the expression and the first token is no unary operator. -/
theorem Parser.expression_of_primary (m : Nat) (p p' : Parser) (e : Expr) (t next : Token)
    (h0 : p.tokens[p.current]? = some t) (ht : t.type ∉ [TokenType.BANG, TokenType.MINUS])
    (hprim : Parser.primary (m + 1) p = .ok e p')
    (h1 : p'.tokens[p'.current]? = some next)
    (hs : next.type ∈ [TokenType.EOF, TokenType.COMMA, TokenType.RIGHT_PAREN,
      TokenType.SEMICOLON]) :
    Parser.expression (m + 11) p = .ok e p' := by
  have hstop := fun types hd => Parser.match_stop h1 hs types hd
  have hcall : Parser.call (m + 2) p = .ok e p' := by
    simp only [Parser.call, hprim, PRes.bind, Parser.callLoop,
      hstop [TokenType.LEFT_PAREN] (by decide), hstop [TokenType.DOT] (by decide),
      Bool.false_eq_true, if_false]
  have hunary : Parser.unary (m + 3) p = .ok e p' := by
    simp only [Parser.unary, Parser.match_at_neg h0 _ ht, PRes.bind, Bool.false_eq_true,
      if_false, hcall]
  have hfactor : Parser.factor (m + 4) p = .ok e p' := by
    simp only [Parser.factor, hunary, PRes.bind, Parser.factorLoop,
      hstop [TokenType.SLASH, TokenType.STAR] (by decide), Bool.false_eq_true, if_false]
  have hterm : Parser.term (m + 5) p = .ok e p' := by
    simp only [Parser.term, hfactor, PRes.bind, Parser.termLoop,
      hstop [TokenType.MINUS, TokenType.PLUS] (by decide), Bool.false_eq_true, if_false]
  have hcomparison : Parser.comparison (m + 6) p = .ok e p' := by
    simp only [Parser.comparison, hterm, PRes.bind, Parser.comparisonLoop,
      hstop [TokenType.GREATER, TokenType.GREATER_EQUAL, TokenType.LESS, TokenType.LESS_EQUAL]
        (by decide), Bool.false_eq_true, if_false]
  have hequality : Parser.equality (m + 7) p = .ok e p' := by
    simp only [Parser.equality, hcomparison, PRes.bind, Parser.equalityLoop,
      hstop [TokenType.BANG_EQUAL, TokenType.EQUAL_EQUAL] (by decide), Bool.false_eq_true,
      if_false]
  have hand : Parser.logic_and (m + 8) p = .ok e p' := by
    simp only [Parser.logic_and, hequality, PRes.bind, Parser.logic_andLoop,
      hstop [TokenType.AND] (by decide), Bool.false_eq_true, if_false]
  have hor : Parser.logic_or (m + 9) p = .ok e p' := by
    simp only [Parser.logic_or, hand, PRes.bind, Parser.logic_orLoop,
      hstop [TokenType.OR] (by decide), Bool.false_eq_true, if_false]
  have hassign : Parser.assignment (m + 10) p = .ok e p' := by
    simp only [Parser.assignment, hor, PRes.bind, hstop [TokenType.EQUAL] (by decide),
      Bool.false_eq_true, if_false]
  simp only [Parser.expression, hassign]

theorem Parser.previous_after {p : Parser} {t : Token} (h : p.tokens[p.current]? = some t) :
    Parser.previous { p with current := p.current + 1 } =
      .ok t { p with current := p.current + 1 } := by
  simp [Parser.previous, h]

/-- The primary expression of an identifier. -/
theorem Parser.primary_identifier (m : Nat) (p : Parser) (t : Token)
    (h0 : p.tokens[p.current]? = some t) (ht : t.type = TokenType.IDENTIFIER) :
    Parser.primary (m + 1) p =
      .ok (Expr.Variable ⟨p.nextId, t⟩)
        { p with current := p.current + 1, nextId := p.nextId + 1 } := by
  have hne : t.type ≠ TokenType.EOF := by rw [ht]; decide
  have hno := fun types (hn : TokenType.IDENTIFIER ∉ types) =>
    Parser.match_at_neg h0 types (by rw [ht]; exact hn)
  simp only [Parser.primary, hno [TokenType.FALSE] (by decide), PRes.bind, Bool.false_eq_true,
    if_false, hno [TokenType.TRUE] (by decide), hno [TokenType.NIL] (by decide),
    hno [TokenType.NUMBER, TokenType.STRING] (by decide), hno [TokenType.SUPER] (by decide),
    hno [TokenType.THIS] (by decide),
    Parser.match_at_pos h0 hne [TokenType.IDENTIFIER] (by simp [ht]), if_true,
    Parser.previous_after h0]

/-! ## Arguments that are identifiers -/

theorem argumentsLoop_reads {toks names : List Token} (h : ParamTokens toks names) :
    ∀ (n : Nat) (args : List Expr) (p : Parser) (stop : Token) (after : List Token),
    p.tokens.drop p.current = toks ++ stop :: after →
    stop.type ∈ [TokenType.EOF, TokenType.RIGHT_PAREN, TokenType.SEMICOLON] →
    names.length + 11 ≤ n →
    Parser.argumentsLoop n args p =
      .ok (args ++ variablesFrom p.nextId names)
        { p with
          current := p.current + toks.length
          nextId := p.nextId + names.length
          errors := excessReports "Cannot have more than 255 arguments." args.length names
            p.errors } := by
  induction h with
  | last t ht =>
    intro n args p stop after hd hstop hn
    obtain ⟨k, rfl⟩ : ∃ k, n = k + 11 + 1 := ⟨n - 12, by simp at hn; omega⟩
    obtain ⟨h0, h1⟩ := getElem?_of_drop_cons hd
    obtain ⟨h2, _⟩ := getElem?_of_drop_cons h1
    have hs : stop.type ∈ [TokenType.EOF, TokenType.COMMA, TokenType.RIGHT_PAREN,
        TokenType.SEMICOLON] := by
      simp only [List.mem_cons, List.mem_singleton, List.not_mem_nil, or_false] at hstop ⊢
      tauto
    have hnc : stop.type ≠ TokenType.COMMA := by
      intro hc
      rw [hc] at hstop
      revert hstop
      decide
    have hexp : ∀ q : Parser, q.tokens = p.tokens → q.current = p.current →
        Parser.expression (k + 11) q =
          .ok (Expr.Variable ⟨q.nextId, t⟩)
            { q with current := q.current + 1, nextId := q.nextId + 1 } := by
      intro q hq1 hq2
      exact Parser.expression_of_primary k q _ _ t stop (by rw [hq1, hq2]; exact h0)
        (by rw [ht]; decide) (Parser.primary_identifier k q t (by rw [hq1, hq2]; exact h0) ht)
        (by simp only [hq1, hq2]; exact h2) hs
    conv_lhs => unfold Parser.argumentsLoop
    by_cases hc : args.length ≥ 255
    · rw [if_pos hc, Parser.peek_at h0, PRes.bind_ok, PRes.bind_ok,
        hexp (p.error t "Cannot have more than 255 arguments.") rfl rfl, PRes.bind_ok,
        Parser.match_at_neg (t := stop) (by exact h2) [TokenType.COMMA] (by simpa using hnc),
        PRes.bind_ok]
      simp only [Bool.false_eq_true, if_false, variablesFrom, excessReports, hc, if_true,
        List.length_singleton, Parser.error]
    · rw [if_neg hc, PRes.bind_ok, hexp p rfl rfl, PRes.bind_ok,
        Parser.match_at_neg (t := stop) (by exact h2) [TokenType.COMMA] (by simpa using hnc),
        PRes.bind_ok]
      simp only [Bool.false_eq_true, if_false, variablesFrom, excessReports, hc,
        List.length_singleton]
  | more t c rest names ht hcomma _ ih =>
    intro n args p stop after hd hstop hn
    obtain ⟨k, rfl⟩ : ∃ k, n = k + 11 + 1 := ⟨n - 12, by simp at hn; omega⟩
    simp only [List.cons_append] at hd
    obtain ⟨h0, h1⟩ := getElem?_of_drop_cons hd
    obtain ⟨h2, h3⟩ := getElem?_of_drop_cons h1
    have hs : c.type ∈ [TokenType.EOF, TokenType.COMMA, TokenType.RIGHT_PAREN,
        TokenType.SEMICOLON] := by simp [hcomma]
    have hcne : c.type ≠ TokenType.EOF := by rw [hcomma]; decide
    have hexp : ∀ q : Parser, q.tokens = p.tokens → q.current = p.current →
        Parser.expression (k + 11) q =
          .ok (Expr.Variable ⟨q.nextId, t⟩)
            { q with current := q.current + 1, nextId := q.nextId + 1 } := by
      intro q hq1 hq2
      exact Parser.expression_of_primary k q _ _ t c (by rw [hq1, hq2]; exact h0)
        (by rw [ht]; decide) (Parser.primary_identifier k q t (by rw [hq1, hq2]; exact h0) ht)
        (by simp only [hq1, hq2]; exact h2) hs
    simp only [List.length_cons] at hn
    conv_lhs => unfold Parser.argumentsLoop
    by_cases hc : args.length ≥ 255
    · rw [if_pos hc, Parser.peek_at h0, PRes.bind_ok, PRes.bind_ok,
        hexp (p.error t "Cannot have more than 255 arguments.") rfl rfl, PRes.bind_ok,
        Parser.match_at_pos (t := c) (by exact h2) hcne [TokenType.COMMA] (by simp [hcomma]),
        PRes.bind_ok, if_pos rfl]
      refine (ih (k + 11) (args ++ [Expr.Variable ⟨p.nextId, t⟩]) _ stop after h3 hstop
        (by omega)).trans ?_
      simp only [excessReports, hc, if_true, List.length_append, List.length_singleton,
        List.length_cons, List.append_assoc, List.singleton_append, Parser.error,
        variablesFrom]
      rw [show p.current + 1 + 1 + rest.length = p.current + (rest.length + 1 + 1) from by
        omega, show p.nextId + 1 + names.length = p.nextId + (names.length + 1) from by omega]
      rfl
    · rw [if_neg hc, PRes.bind_ok, hexp p rfl rfl, PRes.bind_ok,
        Parser.match_at_pos (t := c) (by exact h2) hcne [TokenType.COMMA] (by simp [hcomma]),
        PRes.bind_ok, if_pos rfl]
      refine (ih (k + 11) (args ++ [Expr.Variable ⟨p.nextId, t⟩]) _ stop after h3 hstop
        (by omega)).trans ?_
      simp only [excessReports, hc, if_false, List.length_append, List.length_singleton,
        List.length_cons, List.append_assoc, List.singleton_append, variablesFrom]
      rw [show p.current + 1 + 1 + rest.length = p.current + (rest.length + 1 + 1) from by
        omega, show p.nextId + 1 + names.length = p.nextId + (names.length + 1) from by omega]
      rfl

/-- C26: the loop over the parameters of a function or method, on identifiers separated
by commas and followed by a token that is no comma, returns all of them, without error;
it reports "Cannot have more than 255 parameters." once for every parameter that has 255
or more before it, at that parameter, and so not at all for 255 or fewer.  A turn of the
loop over the arguments of a call reports "Cannot have more than 255 arguments." exactly
when 255 or more arguments were parsed before, and in both cases parses the argument,
appends it and goes on; on arguments that are identifiers separated by commas it returns
the Variable nodes of all of them, without error, with one report for every argument
that has 255 or more before it. -/
theorem parser_reports_more_than_255_entries {toks params : List Token}
    (h : ParamTokens toks params) (n : Nat) (acc : List Token) (p : Parser) (stop : Token)
    (after : List Token) (hd : p.tokens.drop p.current = toks ++ stop :: after)
    (hstop : stop.type ≠ TokenType.COMMA) (hn : params.length ≤ n) :
    Parser.parametersLoop n acc p =
      .ok (acc ++ params)
        { p with
          current := p.current + toks.length
          errors := excessReports "Cannot have more than 255 parameters." acc.length params
            p.errors } ∧
    (acc.length + params.length ≤ 255 →
      excessReports "Cannot have more than 255 parameters." acc.length params p.errors =
        p.errors) ∧
    (excessReports "Cannot have more than 255 parameters." acc.length params
        p.errors).stderr.length =
      p.errors.stderr.length + (params.length - (255 - acc.length)) ∧
    (params.length > 255 - acc.length →
      (excessReports "Cannot have more than 255 parameters." acc.length params
        p.errors).HadError = true) ∧
    (∀ (k : Nat) (args : List Expr) (q q1 q2 : Parser) (t : Token) (argument : Expr)
      (more : Bool), q.tokens[q.current]? = some t →
      Parser.expression k
        (if args.length ≥ 255 then q.error t "Cannot have more than 255 arguments." else q) =
          .ok argument q1 →
      Parser.match q1 [TokenType.COMMA] = .ok more q2 →
      Parser.argumentsLoop (k + 1) args q =
        if more then Parser.argumentsLoop k (args ++ [argument]) q2
        else .ok (args ++ [argument]) q2) ∧
    (∀ (k : Nat) (args : List Expr) (q : Parser) (last : Token) (rest : List Token),
      q.tokens.drop q.current = toks ++ last :: rest →
      last.type ∈ [TokenType.EOF, TokenType.RIGHT_PAREN, TokenType.SEMICOLON] →
      params.length + 11 ≤ k →
      Parser.argumentsLoop k args q =
        .ok (args ++ variablesFrom q.nextId params)
          { q with
            current := q.current + toks.length
            nextId := q.nextId + params.length
            errors := excessReports "Cannot have more than 255 arguments." args.length params
              q.errors }) := by
  refine ⟨parametersLoop_reads h n acc p stop after hd hstop hn,
    fun hle => excessReports_within _ params acc.length p.errors hle,
    (excessReports_stderr _ params acc.length p.errors).1, ?_, ?_,
    fun k args q last rest hq hl hk => argumentsLoop_reads h k args q last rest hq hl hk⟩
  · intro hgt
    rw [(excessReports_stderr _ params acc.length p.errors).2]
    simp [hgt]
  · intro k args q q1 q2 t argument more ht he hm
    conv_lhs => unfold Parser.argumentsLoop
    by_cases hc : args.length ≥ 255
    · rw [if_pos hc] at he
      rw [if_pos hc, Parser.peek_at ht, PRes.bind_ok, PRes.bind_ok, he, PRes.bind_ok, hm,
        PRes.bind_ok]
    · rw [if_neg hc] at he
      rw [if_neg hc, PRes.bind_ok, he, PRes.bind_ok, hm, PRes.bind_ok]

/-- C26 at the parameters `a, b` followed by `)`. -/
theorem parser_reports_more_than_255_entries_witness :
    Parser.parametersLoop 2 []
      (NewParser [sampleToken TokenType.IDENTIFIER "a", sampleToken TokenType.COMMA ",",
        sampleToken TokenType.IDENTIFIER "b", sampleToken TokenType.RIGHT_PAREN ")"]
        Errors.init) =
    .ok [sampleToken TokenType.IDENTIFIER "a", sampleToken TokenType.IDENTIFIER "b"]
      { NewParser [sampleToken TokenType.IDENTIFIER "a", sampleToken TokenType.COMMA ",",
          sampleToken TokenType.IDENTIFIER "b", sampleToken TokenType.RIGHT_PAREN ")"]
          Errors.init with current := 3 } :=
  (parser_reports_more_than_255_entries
    (ParamTokens.more (sampleToken TokenType.IDENTIFIER "a") (sampleToken TokenType.COMMA ",")
      [sampleToken TokenType.IDENTIFIER "b"] [sampleToken TokenType.IDENTIFIER "b"] rfl rfl
      (ParamTokens.last (sampleToken TokenType.IDENTIFIER "b") rfl))
    2 []
    (NewParser [sampleToken TokenType.IDENTIFIER "a", sampleToken TokenType.COMMA ",",
      sampleToken TokenType.IDENTIFIER "b", sampleToken TokenType.RIGHT_PAREN ")"]
      Errors.init)
    (sampleToken TokenType.RIGHT_PAREN ")") [] rfl (by decide) (by decide)).1

/-! ## Printing and parsing again -/

theorem Scanner.scanLoop_one (n : Nat) (s s1 : Scanner) (hlt : s.current < s.source.length)
    (h : Scanner.scanToken { s with start := s.current } = .ok s1)
    (hend : s1.current ≥ s1.source.length) : Scanner.scanLoop (n + 2) s = .ok s1 := by
  have h0 : s.isAtEnd = false := by
    simp only [Scanner.isAtEnd, decide_eq_false_iff_not]
    omega
  have h2 : s1.isAtEnd = true := by
    simp only [Scanner.isAtEnd, decide_eq_true_eq]
    exact hend
  simp only [Scanner.scanLoop, h0, Bool.not_false, if_true, bind, Except.bind, h, h2,
    Bool.not_true, Bool.false_eq_true, if_false, pure, Except.pure]

/-- The tokens of a source text that is one identifier. -/
theorem ScanTokens_identifier (c : Char) (cs : List Char) (errors : Errors)
    (ha : isAlpha c = true) (hcs : ∀ x ∈ cs, isAlphaNumeric x = true) :
    (NewScanner (String.mk (c :: cs)) errors).ScanTokens =
      .ok { NewScanner (String.mk (c :: cs)) errors with
        current := cs.length + 1
        tokens := [⟨(Map.get keywords (String.mk (c :: cs))).getD TokenType.IDENTIFIER,
            String.mk (c :: cs), LiteralValue.nil, 1⟩,
          ⟨TokenType.EOF, "", LiteralValue.nil, 1⟩] } := by
  have hcn : isAlphaNumeric c = true := by simp [isAlphaNumeric, ha]
  have hall : ∀ x ∈ c :: cs, isAlphaNumeric x = true := by
    intro x hx
    rcases List.mem_cons.mp hx with h | h
    · rw [h]; exact hcn
    · exact hcs x h
  have htw : (c :: cs).takeWhile isAlphaNumeric = c :: cs :=
    List.takeWhile_eq_self_iff.mpr (by simpa using hall)
  have hsrc : (NewScanner (String.mk (c :: cs)) errors).source = c :: cs := rfl
  have hcur : (NewScanner (String.mk (c :: cs)) errors).current = 0 := rfl
  have h1 := (Scanner.scanToken_alpha (NewScanner (String.mk (c :: cs)) errors) c
    (by rw [hsrc, hcur]; simp) ha).1
  rw [hsrc, hcur, List.drop_zero, htw] at h1
  have hloop := Scanner.scanLoop_one cs.length (NewScanner (String.mk (c :: cs)) errors) _
    (by rw [hsrc, hcur]; simp) h1 (by simp [hsrc])
  unfold Scanner.ScanTokens
  rw [hsrc]
  simp only [List.length_cons] at hloop ⊢
  rw [show cs.length + 1 + 1 = cs.length + 2 from rfl, hloop]
  simp only [bind, Except.bind, pure, Except.pure, Nat.zero_add]
  rfl

/-! ## Chains of binary operators -/

theorem factorLoop_chain {n : Nat} {p : Parser} {chain : List (Token × Expr)} {p' : Parser}
    (h : OperatorChain [TokenType.SLASH, TokenType.STAR] Parser.unary n p chain p') :
    ∀ expr : Expr, Parser.factorLoop n expr p =
      .ok (chain.foldl (fun e x => Expr.Binary e x.1 x.2) expr) p' := by
  induction h with
  | done hm => intro expr; simp only [Parser.factorLoop, hm, PRes.bind, List.foldl_nil]; rfl
  | step hm hp ho _ ih =>
    intro expr
    simp only [Parser.factorLoop, hm, PRes.bind, if_true, hp, ho, List.foldl_cons]
    exact ih _

theorem termLoop_chain {n : Nat} {p : Parser} {chain : List (Token × Expr)} {p' : Parser}
    (h : OperatorChain [TokenType.MINUS, TokenType.PLUS] Parser.factor n p chain p') :
    ∀ expr : Expr, Parser.termLoop n expr p =
      .ok (chain.foldl (fun e x => Expr.Binary e x.1 x.2) expr) p' := by
  induction h with
  | done hm => intro expr; simp only [Parser.termLoop, hm, PRes.bind, List.foldl_nil]; rfl
  | step hm hp ho _ ih =>
    intro expr
    simp only [Parser.termLoop, hm, PRes.bind, if_true, hp, ho, List.foldl_cons]
    exact ih _

theorem comparisonLoop_chain {n : Nat} {p : Parser} {chain : List (Token × Expr)}
    {p' : Parser}
    (h : OperatorChain [TokenType.GREATER, TokenType.GREATER_EQUAL, TokenType.LESS,
      TokenType.LESS_EQUAL] Parser.term n p chain p') :
    ∀ expr : Expr, Parser.comparisonLoop n expr p =
      .ok (chain.foldl (fun e x => Expr.Binary e x.1 x.2) expr) p' := by
  induction h with
  | done hm => intro expr; simp only [Parser.comparisonLoop, hm, PRes.bind, List.foldl_nil]; rfl
  | step hm hp ho _ ih =>
    intro expr
    simp only [Parser.comparisonLoop, hm, PRes.bind, if_true, hp, ho, List.foldl_cons]
    exact ih _

theorem equalityLoop_chain {n : Nat} {p : Parser} {chain : List (Token × Expr)} {p' : Parser}
    (h : OperatorChain [TokenType.BANG_EQUAL, TokenType.EQUAL_EQUAL] Parser.comparison n p
      chain p') :
    ∀ expr : Expr, Parser.equalityLoop n expr p =
      .ok (chain.foldl (fun e x => Expr.Binary e x.1 x.2) expr) p' := by
  induction h with
  | done hm => intro expr; simp only [Parser.equalityLoop, hm, PRes.bind, List.foldl_nil]; rfl
  | step hm hp ho _ ih =>
    intro expr
    simp only [Parser.equalityLoop, hm, PRes.bind, if_true, hp, ho, List.foldl_cons]
    exact ih _

theorem logic_andLoop_chain {n : Nat} {p : Parser} {chain : List (Token × Expr)} {p' : Parser}
    (h : OperatorChain [TokenType.AND] Parser.equality n p chain p') :
    ∀ expr : Expr, Parser.logic_andLoop n expr p =
      .ok (chain.foldl (fun e x => Expr.Logical e x.1 x.2) expr) p' := by
  induction h with
  | done hm => intro expr; simp only [Parser.logic_andLoop, hm, PRes.bind, List.foldl_nil]; rfl
  | step hm hp ho _ ih =>
    intro expr
    simp only [Parser.logic_andLoop, hm, PRes.bind, if_true, hp, ho, List.foldl_cons]
    exact ih _

theorem logic_orLoop_chain {n : Nat} {p : Parser} {chain : List (Token × Expr)} {p' : Parser}
    (h : OperatorChain [TokenType.OR] Parser.logic_and n p chain p') :
    ∀ expr : Expr, Parser.logic_orLoop n expr p =
      .ok (chain.foldl (fun e x => Expr.Logical e x.1 x.2) expr) p' := by
  induction h with
  | done hm => intro expr; simp only [Parser.logic_orLoop, hm, PRes.bind, List.foldl_nil]; rfl
  | step hm hp ho _ ih =>
    intro expr
    simp only [Parser.logic_orLoop, hm, PRes.bind, if_true, hp, ho, List.foldl_cons]
    exact ih _

/-- C35: at each of the six levels of binary operators, when the first operand has been
parsed and then a chain of operators of the level, each followed by an operand (parsed at
the next higher level), up to a token that is no operator of the level, the parser
returns the left-nested tree: the tree of the operands so far is the left child of the
node made for the next operator.  Operands are parsed at the higher level, so operators
of a higher level bind tighter.  `a - b - c` parses to Binary(Binary(a, -, b), -, c),
`a + b * c` to Binary(a, +, Binary(b, *, c)) and `a = b = c` to Assign(a, Assign(b, c)). -/
theorem binary_operators_nest_to_the_left :
    (∀ (n : Nat) (p p1 p' : Parser) (first : Expr) (chain : List (Token × Expr)),
      Parser.unary n p = .ok first p1 →
      OperatorChain [TokenType.SLASH, TokenType.STAR] Parser.unary n p1 chain p' →
      Parser.factor (n + 1) p =
        .ok (chain.foldl (fun e x => Expr.Binary e x.1 x.2) first) p') ∧
    (∀ (n : Nat) (p p1 p' : Parser) (first : Expr) (chain : List (Token × Expr)),
      Parser.factor n p = .ok first p1 →
      OperatorChain [TokenType.MINUS, TokenType.PLUS] Parser.factor n p1 chain p' →
      Parser.term (n + 1) p =
        .ok (chain.foldl (fun e x => Expr.Binary e x.1 x.2) first) p') ∧
    (∀ (n : Nat) (p p1 p' : Parser) (first : Expr) (chain : List (Token × Expr)),
      Parser.term n p = .ok first p1 →
      OperatorChain [TokenType.GREATER, TokenType.GREATER_EQUAL, TokenType.LESS,
        TokenType.LESS_EQUAL] Parser.term n p1 chain p' →
      Parser.comparison (n + 1) p =
        .ok (chain.foldl (fun e x => Expr.Binary e x.1 x.2) first) p') ∧
    (∀ (n : Nat) (p p1 p' : Parser) (first : Expr) (chain : List (Token × Expr)),
      Parser.comparison n p = .ok first p1 →
      OperatorChain [TokenType.BANG_EQUAL, TokenType.EQUAL_EQUAL] Parser.comparison n p1 chain p' →
      Parser.equality (n + 1) p =
        .ok (chain.foldl (fun e x => Expr.Binary e x.1 x.2) first) p') ∧
    (∀ (n : Nat) (p p1 p' : Parser) (first : Expr) (chain : List (Token × Expr)),
      Parser.equality n p = .ok first p1 →
      OperatorChain [TokenType.AND] Parser.equality n p1 chain p' →
      Parser.logic_and (n + 1) p =
        .ok (chain.foldl (fun e x => Expr.Logical e x.1 x.2) first) p') ∧
    (∀ (n : Nat) (p p1 p' : Parser) (first : Expr) (chain : List (Token × Expr)),
      Parser.logic_and n p = .ok first p1 →
      OperatorChain [TokenType.OR] Parser.logic_and n p1 chain p' →
      Parser.logic_or (n + 1) p =
        .ok (chain.foldl (fun e x => Expr.Logical e x.1 x.2) first) p') ∧
    printParsed "a - b - c" = some (some "(- (- a b) c)", []) ∧
    printParsed "a + b * c" = some (some "(+ a (* b c))", []) ∧
    printParsed "a = b = c" = some (some "(assign a (assign b c))", []) ∧
    printParsed "a or b or c" = some (some "(or (or a b) c)", []) ∧
    printParsed "a and b and c" = some (some "(and (and a b) c)", []) ∧
    printParsed "a == b != c" = some (some "(!= (== a b) c)", []) ∧
    printParsed "a < b <= c" = some (some "(<= (< a b) c)", []) ∧
    printParsed "a * b / c" = some (some "(/ (* a b) c)", []) ∧
    printParsed "a or b and c == d < e + f * g" =
      some (some "(or a (and b (== c (< d (+ e (* f g))))))", []) ∧
    printParsed "a * b + c < d == e and f or g" =
      some (some "(or (and (== (< (+ (* a b) c) d) e) f) g)", []) := by
  refine ⟨?_, ?_, ?_, ?_, ?_, ?_, by decide!, by decide!, by decide!, by decide!, by decide!,
    by decide!, by decide!, by decide!, by decide!, by decide!⟩
  · intro n p p1 p' first chain hf hc
    simp only [Parser.factor, hf, PRes.bind]
    exact factorLoop_chain hc first
  · intro n p p1 p' first chain hf hc
    simp only [Parser.term, hf, PRes.bind]
    exact termLoop_chain hc first
  · intro n p p1 p' first chain hf hc
    simp only [Parser.comparison, hf, PRes.bind]
    exact comparisonLoop_chain hc first
  · intro n p p1 p' first chain hf hc
    simp only [Parser.equality, hf, PRes.bind]
    exact equalityLoop_chain hc first
  · intro n p p1 p' first chain hf hc
    simp only [Parser.logic_and, hf, PRes.bind]
    exact logic_andLoop_chain hc first
  · intro n p p1 p' first chain hf hc
    simp only [Parser.logic_or, hf, PRes.bind]
    exact logic_orLoop_chain hc first

/-- C35 at the tokens of `nil - true - false`: the tree nests to the left. -/
theorem binary_operators_nest_to_the_left_witness :
    Parser.term 12 (sampleChainParser 0) =
      .ok (Expr.Binary
          (Expr.Binary (Expr.Literal LiteralValue.nil) (sampleToken TokenType.MINUS "-")
            (Expr.Literal (LiteralValue.bool true)))
          (sampleToken TokenType.MINUS "-") (Expr.Literal (LiteralValue.bool false)))
        (sampleChainParser 5) :=
  binary_operators_nest_to_the_left.2.1 11 (sampleChainParser 0) (sampleChainParser 1)
    (sampleChainParser 5) (Expr.Literal LiteralValue.nil)
    [(sampleToken TokenType.MINUS "-", Expr.Literal (LiteralValue.bool true)),
      (sampleToken TokenType.MINUS "-", Expr.Literal (LiteralValue.bool false))] rfl
    (@OperatorChain.step [TokenType.MINUS, TokenType.PLUS] Parser.factor 10
      (sampleChainParser 1) (sampleChainParser 2) (sampleToken TokenType.MINUS "-")
      (Expr.Literal (LiteralValue.bool true)) (sampleChainParser 3) _ (sampleChainParser 5)
      rfl rfl rfl
      (@OperatorChain.step [TokenType.MINUS, TokenType.PLUS] Parser.factor 9
        (sampleChainParser 3) (sampleChainParser 4) (sampleToken TokenType.MINUS "-")
        (Expr.Literal (LiteralValue.bool false)) (sampleChainParser 5) _ (sampleChainParser 5)
        rfl rfl rfl
        (@OperatorChain.done [TokenType.MINUS, TokenType.PLUS] Parser.factor 8
          (sampleChainParser 5) (sampleChainParser 5) rfl)))

/-! ## The for statement -/

/-- C34: after `for`, when the clauses and the body have been parsed without error
(`initializer` is nil when the first clause is just `;`, `condition` is nil when the
second is empty, `increment` is nil when the third is empty), `forStatement` returns
Block[initializer, While(condition, Block[body, ExpressionStmt(increment)])]; without
initializer it returns the While itself, without condition the condition of the While is
Literal(true), and without increment the body of the While is `body` itself. -/
theorem forStatement_desugars_to_while (n : Nat) (p p1 p2 p3 p4 p5 p6 p7 : Parser)
    (t1 t4 t6 : Token) (initializer body : Stmt) (condition increment : Expr)
    (hparen : p.consume TokenType.LEFT_PAREN "Expect '(' after 'for'." = .ok t1 p1)
    (hinit : (Parser.match p1 [TokenType.SEMICOLON] = .ok true p2 ∧ initializer = Stmt.nil) ∨
      ∃ q : Parser, Parser.match p1 [TokenType.SEMICOLON] = .ok false q ∧
        ((∃ q' : Parser, Parser.match q [TokenType.VAR] = .ok true q' ∧
            Parser.varDeclaration n q' = .ok initializer p2) ∨
          (∃ q' : Parser, Parser.match q [TokenType.VAR] = .ok false q' ∧
            Parser.expressionStatement n q' = .ok initializer p2)))
    (hcond : (p2.check TokenType.SEMICOLON = .ok true p3 ∧ condition = Expr.nil) ∨
      ∃ q : Parser, p2.check TokenType.SEMICOLON = .ok false q ∧
        Parser.expression n q = .ok condition p3)
    (hsemi : p3.consume TokenType.SEMICOLON "Expect ';' after loop condition." = .ok t4 p4)
    (hincr : (p4.check TokenType.RIGHT_PAREN = .ok true p5 ∧ increment = Expr.nil) ∨
      ∃ q : Parser, p4.check TokenType.RIGHT_PAREN = .ok false q ∧
        Parser.expression n q = .ok increment p5)
    (hclose : p5.consume TokenType.RIGHT_PAREN "Expect ')' after for clauses." = .ok t6 p6)
    (hbody : Parser.statement n p6 = .ok body p7) :
    (initializer.isNil = false → condition.isNil = false → increment.isNil = false →
      Parser.forStatement (n + 1) p =
        .ok (Stmt.BlockStmt [initializer,
          Stmt.WhileStmt condition
            (Stmt.BlockStmt [body, Stmt.ExpressionStmt increment])]) p7) ∧
    (initializer.isNil = true →
      Parser.forStatement (n + 1) p =
        .ok (Stmt.WhileStmt
          (if condition.isNil then Expr.Literal (LiteralValue.bool true) else condition)
          (if increment.isNil then body
            else Stmt.BlockStmt [body, Stmt.ExpressionStmt increment])) p7) ∧
    (condition.isNil = true →
      Parser.forStatement (n + 1) p =
        .ok ((fun w => if initializer.isNil then w else Stmt.BlockStmt [initializer, w])
          (Stmt.WhileStmt (Expr.Literal (LiteralValue.bool true))
            (if increment.isNil then body
              else Stmt.BlockStmt [body, Stmt.ExpressionStmt increment]))) p7) ∧
    (increment.isNil = true →
      Parser.forStatement (n + 1) p =
        .ok ((fun w => if initializer.isNil then w else Stmt.BlockStmt [initializer, w])
          (Stmt.WhileStmt
            (if condition.isNil then Expr.Literal (LiteralValue.bool true) else condition)
            body)) p7) := by
  have h1 : ((Parser.match p1 [TokenType.SEMICOLON]).bind fun m p =>
      if m then PRes.ok Stmt.nil p else
      (Parser.match p [TokenType.VAR]).bind fun m p =>
      if m then Parser.varDeclaration n p else Parser.expressionStatement n p) =
      .ok initializer p2 := by
    rcases hinit with ⟨h, hi⟩ | ⟨q, h, ⟨q', hv, hd⟩ | ⟨q', hv, hd⟩⟩
    · rw [h, hi]; rfl
    · rw [h]; simp only [PRes.bind, Bool.false_eq_true, if_false, hv, if_true, hd]
    · rw [h]; simp only [PRes.bind, Bool.false_eq_true, if_false, hv, hd]
  have h2 : ((p2.check TokenType.SEMICOLON).bind fun c p =>
      (if !c then Parser.expression n p else PRes.ok Expr.nil p)) = .ok condition p3 := by
    rcases hcond with ⟨h, hi⟩ | ⟨q, h, he⟩
    · rw [h, hi]; rfl
    · rw [h]; simp only [PRes.bind, Bool.not_false, if_true, he]
  have h3 : ((p4.check TokenType.RIGHT_PAREN).bind fun c p =>
      (if !c then Parser.expression n p else PRes.ok Expr.nil p)) = .ok increment p5 := by
    rcases hincr with ⟨h, hi⟩ | ⟨q, h, he⟩
    · rw [h, hi]; rfl
    · rw [h]; simp only [PRes.bind, Bool.not_false, if_true, he]
  have key : Parser.forStatement (n + 1) p =
      .ok ((fun w => if initializer.isNil then w else Stmt.BlockStmt [initializer, w])
        (Stmt.WhileStmt
          (if condition.isNil then Expr.Literal (LiteralValue.bool true) else condition)
          (if increment.isNil then body
            else Stmt.BlockStmt [body, Stmt.ExpressionStmt increment]))) p7 := by
    unfold Parser.forStatement
    rw [hparen, PRes.bind_ok, h1, PRes.bind_ok]
    cases hc2 : p2.check TokenType.SEMICOLON with
    | ok c q =>
      rw [hc2, PRes.bind_ok] at h2
      rw [PRes.bind_ok, h2, PRes.bind_ok, hsemi, PRes.bind_ok]
      cases hc4 : p4.check TokenType.RIGHT_PAREN with
      | ok c' q' =>
        rw [hc4, PRes.bind_ok] at h3
        rw [PRes.bind_ok, h3, PRes.bind_ok, hclose, PRes.bind_ok, hbody, PRes.bind_ok]
        cases initializer.isNil <;> cases condition.isNil <;> cases increment.isNil <;> rfl
      | err q' => rw [hc4] at h3; cases h3
      | panic m => rw [hc4] at h3; cases h3
      | outOfFuel => rw [hc4] at h3; cases h3
    | err q => rw [hc2] at h2; cases h2
    | panic m => rw [hc2] at h2; cases h2
    | outOfFuel => rw [hc2] at h2; cases h2
  refine ⟨fun hi hc hn => ?_, fun hi => ?_, fun hc => ?_, fun hn => ?_⟩
  · rw [key]; simp only [hi, hc, hn, Bool.false_eq_true, if_false]
  · rw [key]; simp only [hi, if_true]
  · rw [key]; simp only [hc, if_true]
  · rw [key]; simp only [hn, if_true]

/-- C34 at `for (;;) nil;`: the statement is While(Literal(true), ExpressionStmt(nil)). -/
theorem forStatement_desugars_to_while_witness :
    Parser.forStatement 16 (sampleForParser 0) =
      .ok (Stmt.WhileStmt (Expr.Literal (LiteralValue.bool true))
        (Stmt.ExpressionStmt (Expr.Literal LiteralValue.nil))) (sampleForParser 6) :=
  (forStatement_desugars_to_while 15 (sampleForParser 0) (sampleForParser 1)
    (sampleForParser 2) (sampleForParser 2) (sampleForParser 3) (sampleForParser 3)
    (sampleForParser 4) (sampleForParser 6) (sampleToken TokenType.LEFT_PAREN "(")
    (sampleToken TokenType.SEMICOLON ";") (sampleToken TokenType.RIGHT_PAREN ")")
    Stmt.nil (Stmt.ExpressionStmt (Expr.Literal LiteralValue.nil)) Expr.nil Expr.nil
    rfl (Or.inl ⟨rfl, rfl⟩) (Or.inl ⟨rfl, rfl⟩) rfl (Or.inl ⟨rfl, rfl⟩) rfl rfl).2.1 rfl

/-! ## A token that cannot start an expression -/

/-- C40: at a token that starts no expression, `primary` reports "Expect expression." at
that token and returns the nil expression with a nil error, without consuming the token.
On the tokens of `print ;`, `Parse` returns a nil error and the statement PrintStmt(nil),
the diagnostic having been reported. -/
theorem primary_reports_and_returns_nil (m : Nat) (p : Parser) (t : Token)
    (h0 : p.tokens[p.current]? = some t)
    (ht : t.type ∉ [TokenType.FALSE, TokenType.TRUE, TokenType.NIL, TokenType.NUMBER,
      TokenType.STRING, TokenType.SUPER, TokenType.THIS, TokenType.IDENTIFIER,
      TokenType.LEFT_PAREN]) :
    Parser.primary (m + 1) p =
      .ok Expr.nil
        { p with
          errors := ReportParseError p.errors t.Line t.Lexeme (t.type == TokenType.EOF)
            "Expect expression." } ∧
    (ReportParseError p.errors t.Line t.Lexeme (t.type == TokenType.EOF)
      "Expect expression.").HadError = true ∧
    (NewParser (tokensOf "print ;") Errors.init).Parse =
      .ok [Stmt.PrintStmt Expr.nil]
        { NewParser (tokensOf "print ;") Errors.init with
          current := 2
          errors := ⟨true, false, ["[line 1] Error at ';': Expect expression."]⟩ } := by
  refine ⟨?_, ?_, rfl⟩
  · have hno : ∀ types : List TokenType,
        (∀ ty ∈ types, ty ∈ [TokenType.FALSE, TokenType.TRUE, TokenType.NIL, TokenType.NUMBER,
          TokenType.STRING, TokenType.SUPER, TokenType.THIS, TokenType.IDENTIFIER,
          TokenType.LEFT_PAREN]) → Parser.match p types = .ok false p :=
      fun types hsub => Parser.match_at_neg h0 types (fun hm => ht (hsub _ hm))
    simp only [Parser.primary, hno [TokenType.FALSE] (by decide), PRes.bind,
      Bool.false_eq_true, if_false, hno [TokenType.TRUE] (by decide),
      hno [TokenType.NIL] (by decide), hno [TokenType.NUMBER, TokenType.STRING] (by decide),
      hno [TokenType.SUPER] (by decide), hno [TokenType.THIS] (by decide),
      hno [TokenType.IDENTIFIER] (by decide), hno [TokenType.LEFT_PAREN] (by decide),
      Parser.peek_at h0, Parser.error]
  · unfold ReportParseError
    split <;> rfl

/-- C40 at the token `;`. -/
theorem primary_reports_and_returns_nil_witness :
    Parser.primary 1 (sampleForParser 1) =
      .ok Expr.nil
        { sampleForParser 1 with
          errors := ⟨true, false, ["[line 1] Error at ';': Expect expression."]⟩ } :=
  (primary_reports_and_returns_nil 0 (sampleForParser 1) (sampleToken TokenType.SEMICOLON ";")
    rfl (by decide)).1

/-! ## The distance that `resolveLocal` records -/

theorem Resolver.resolveLocalLoop_found (r : Resolver) (id : Nat) (name : Token) :
    ∀ (above : List (Map String Bool)) (scope : Map String Bool)
      (below : List (Map String Bool)) (depth : Nat),
    (∀ sc ∈ above, Map.get sc name.Lexeme = none) → Map.get scope name.Lexeme ≠ none →
    (Resolver.resolveLocalLoop r id name (above ++ scope :: below) depth).locals =
      Map.set r.locals id (depth + above.length)
  | [], scope, below, depth, _, hs => by
    cases hg : Map.get scope name.Lexeme with
    | none => exact absurd hg hs
    | some b =>
      simp only [List.nil_append, Resolver.resolveLocalLoop, hg, List.length_nil, Nat.add_zero]
      cases b <;> rfl
  | sc :: above, scope, below, depth, ha, hs => by
    have h0 := ha sc (List.mem_cons_self _ _)
    simp only [List.cons_append, Resolver.resolveLocalLoop, h0, List.length_cons]
    have ih := Resolver.resolveLocalLoop_found r id name above scope below (depth + 1)
      (fun x hx => ha x (List.mem_cons_of_mem _ hx)) hs
    rw [show depth + (above.length + 1) = depth + 1 + above.length from by omega]
    exact ih

theorem Resolver.resolveLocalLoop_not_found (r : Resolver) (id : Nat) (name : Token) :
    ∀ (scopes : List (Map String Bool)) (depth : Nat),
    (∀ sc ∈ scopes, Map.get sc name.Lexeme = none) →
    Resolver.resolveLocalLoop r id name scopes depth = r
  | [], _, _ => rfl
  | sc :: rest, depth, ha => by
    have h0 := ha sc (List.mem_cons_self _ _)
    simp only [Resolver.resolveLocalLoop, h0]
    exact Resolver.resolveLocalLoop_not_found r id name rest (depth + 1)
      (fun x hx => ha x (List.mem_cons_of_mem _ hx))

/-- C32: `resolveLocal`, called for a node while the scope stack is `above ++ scope ::
below` (innermost first), where `scope` is the innermost scope that contains the name,
records for the node the number of scopes in `above`; when no scope contains the name it
changes nothing, and the evaluator, finding no distance for the node, uses the global
frame.  The resolver calls it for every Variable, This and Super node it accepts, with
the scope stack in which it visits the node, and for every Assign node after its value
has been resolved, which leaves the scope stack as it was. -/
theorem resolveLocal_records_distance (r : Resolver) (id : Nat) (name : Token) :
    (∀ (above : List (Map String Bool)) (scope : Map String Bool)
      (below : List (Map String Bool)), r.scopes = above ++ scope :: below →
      (∀ sc ∈ above, Map.get sc name.Lexeme = none) → Map.get scope name.Lexeme ≠ none →
      (r.resolveLocal id name).locals = Map.set r.locals id above.length ∧
      Map.get (r.resolveLocal id name).locals id = some above.length) ∧
    ((∀ sc ∈ r.scopes, Map.get sc name.Lexeme = none) → r.resolveLocal id name = r) ∧
    (∀ (v : Variable) (r' : Resolver), Resolver.resolveExpr (Expr.Variable v) r = RRes.ok r' →
      r' = r.resolveLocal v.id v.Name) ∧
    (∀ (value : Expr) (r1 : Resolver), Resolver.resolveExpr value r = RRes.ok r1 →
      Resolver.resolveExpr (Expr.Assign id name value) r = RRes.ok (r1.resolveLocal id name) ∧
      r1.scopes = r.scopes) ∧
    (∀ r' : Resolver, Resolver.resolveExpr (Expr.This id name) r = RRes.ok r' →
      r' = r.resolveLocal id name) ∧
    (∀ (method : Token) (r' : Resolver),
      Resolver.resolveExpr (Expr.Super id name method) r = RRes.ok r' →
      r' = r.resolveLocal id name) ∧
    (∀ i : Interpreter, Map.get i.locals id = none →
      lookUpVariable i name id = (envGet i.envs (i.envs.length + 1) i.globals name).toRes i) := by
  refine ⟨?_, ?_, ?_, ?_, ?_, ?_, ?_⟩
  · intro above scope below hs ha hsc
    have h := Resolver.resolveLocalLoop_found r id name above scope below 0 ha hsc
    simp only [Nat.zero_add] at h
    have h2 : (r.resolveLocal id name).locals = Map.set r.locals id above.length := by
      unfold Resolver.resolveLocal
      rw [hs]
      exact h
    exact ⟨h2, by rw [h2]; exact Map.get_set_self _ _ _⟩
  · intro hn
    exact Resolver.resolveLocalLoop_not_found r id name r.scopes 0 hn
  · intro v r' h
    simp only [Resolver.resolveExpr, Resolver.VisitVariableExpr] at h
    split at h
    · split at h
      · cases h
      · cases h; rfl
    · cases h; rfl
  · intro value r1 h
    refine ⟨?_, (Resolver.resolveExpr_kept value r r1 h).scopes⟩
    simp only [Resolver.resolveExpr, h, RRes.andThen]
  · intro r' h
    simp only [Resolver.resolveExpr, Resolver.VisitThisExpr] at h
    split at h
    · cases h
    · cases h; rfl
  · intro method r' h
    simp only [Resolver.resolveExpr, Resolver.VisitSuperExpr] at h
    split at h
    · cases h
    · split at h
      · cases h
      · cases h; rfl
  · intro i hi
    simp only [lookUpVariable, hi]

/-- C32 at a read of `a` with the scopes `{b}, {a}, {a}`: the recorded distance is 1. -/
theorem resolveLocal_records_distance_witness :
    Map.get ((Resolver.resolveLocal
      { NewResolver [] Errors.init with
        scopes := [[("b", true)], [("a", true)], [("a", true)]] }
      7 (sampleToken TokenType.IDENTIFIER "a")).locals) 7 = some 1 :=
  ((resolveLocal_records_distance
    { NewResolver [] Errors.init with scopes := [[("b", true)], [("a", true)], [("a", true)]] }
    7 (sampleToken TokenType.IDENTIFIER "a")).1 [[("b", true)]] [("a", true)] [[("a", true)]]
    rfl (by decide) (by decide)).2

/-! ## What a statement resolved without error leaves of the scopes -/

theorem Resolver.Grown.grown_refl (p : String → Bool) (r : Resolver) : Resolver.Grown p r r :=
  ⟨rfl, rfl, fun _ _ => rfl⟩

theorem Resolver.Grown.andGrown {p : String → Bool} {a b c : Resolver}
    (h1 : Resolver.Grown p a b) (h2 : Resolver.Grown p b c) : Resolver.Grown p a c :=
  ⟨h2.tail.trans h1.tail, h2.depth.trans h1.depth,
    fun key hk => (h2.bindings key hk).trans (h1.bindings key hk)⟩

theorem Resolver.Grown.weaken {p q : String → Bool} {a b : Resolver}
    (h : Resolver.Grown p a b) (hpq : ∀ key, q key = false → p key = false) :
    Resolver.Grown q a b :=
  ⟨h.tail, h.depth, fun key hk => h.bindings key (hpq key hk)⟩

theorem Resolver.Grown.of_scopes {p : String → Bool} {a b : Resolver}
    (h : b.scopes = a.scopes) : Resolver.Grown p a b :=
  ⟨by rw [h], by rw [h], fun key _ => by simp only [Resolver.bindings, h]⟩

theorem Resolver.declare_grown {r r' : Resolver} {name : Token}
    (h : r.declare name = RRes.ok r') : Resolver.Grown (fun key => name.Lexeme == key) r r' := by
  unfold Resolver.declare at h
  cases hs : r.scopes with
  | nil =>
    rw [hs] at h
    cases h; exact Resolver.Grown.grown_refl _ r
  | cons scope rest =>
    rw [hs] at h
    simp only at h
    split at h
    · cases h
    · cases h
      refine ⟨by simp [hs], by simp [hs], fun key hk => ?_⟩
      have hne : name.Lexeme ≠ key := by simpa using hk
      simp only [Resolver.bindings, hs, List.map_cons, Map.get_set_ne _ _ _ _ hne]

theorem Resolver.define_grown (r : Resolver) (name : Token) :
    Resolver.Grown (fun key => name.Lexeme == key) r (r.define name) := by
  unfold Resolver.define
  cases hs : r.scopes with
  | nil => exact Resolver.Grown.grown_refl _ r
  | cons scope rest =>
    refine ⟨by simp [hs], by simp [hs], fun key hk => ?_⟩
    have hne : name.Lexeme ≠ key := by simpa using hk
    simp only [Resolver.bindings, hs, List.map_cons, Map.get_set_ne _ _ _ _ hne]

theorem Resolver.declareDroppingError_grown (r : Resolver) (name : Token) :
    Resolver.Grown (fun key => name.Lexeme == key) r (r.declareDroppingError name) := by
  unfold Resolver.declareDroppingError
  cases hd : r.declare name with
  | ok r2 => exact Resolver.declare_grown hd
  | err m r2 => rw [Resolver.declare_err hd]; exact Resolver.Grown.grown_refl _ r
  | panic m => exact Resolver.Grown.grown_refl _ r

theorem Resolver.declareParams_grown : ∀ (params : List Token) (r r' : Resolver),
    Resolver.declareParams params r = RRes.ok r' →
    Resolver.Grown (fun key => params.any fun param => param.Lexeme == key) r r'
  | [], r, r', h => by
    simp only [Resolver.declareParams] at h
    cases h; exact Resolver.Grown.grown_refl _ r
  | p :: ps, r, r', h => by
    simp only [Resolver.declareParams] at h
    obtain ⟨r1, h1, h2⟩ := RRes.andThen_ok h
    have a := (Resolver.declare_grown h1).andGrown (Resolver.define_grown r1 p)
    have b := Resolver.declareParams_grown ps _ r' h2
    refine Resolver.Grown.andGrown (a.weaken ?_) (b.weaken ?_)
    · intro key hk
      simp only [List.any_cons, Bool.or_eq_false_iff] at hk
      exact hk.1
    · intro key hk
      simp only [List.any_cons, Bool.or_eq_false_iff] at hk
      exact hk.2

theorem Resolver.endScope_scopes {r r' : Resolver} (h : r.endScope = RRes.ok r') :
    r'.scopes = r.scopes.tail := by
  unfold Resolver.endScope at h
  cases hs : r.scopes with
  | nil => rw [hs] at h; cases h
  | cons scope rest =>
    rw [hs] at h
    cases h
    rfl

theorem Resolver.setTop_beginScope (r : Resolver) (key : String) :
    r.beginScope.setTop key = RRes.ok { r with scopes := [(key, true)] :: r.scopes } := rfl

/-- The scopes after the part of `VisitClassStmt` before the methods: those after the
declaration of the class name, under the scope of `super`, if there is a superclass, and
the scope of `this`. -/
theorem Resolver.beginClass_scopes {r r' : Resolver} {name : Token} {sc : Option Variable}
    (h : r.beginClass name sc = RRes.ok r') :
    ∃ rd : Resolver, Resolver.Grown (fun key => name.Lexeme == key) r rd ∧
      r'.scopes = (if sc.isSome then [[("this", true)], [("super", true)]]
        else [[("this", true)]]) ++ rd.scopes := by
  unfold Resolver.beginClass at h
  simp only at h
  obtain ⟨r1, h1, h2⟩ := RRes.andThen_ok h
  have hdef : Resolver.Grown (fun key => name.Lexeme == key) r
      (Resolver.define (Resolver.declareDroppingError
        { r with currentClass := ClassType.ClassTypeClass } name) name) :=
    Resolver.Grown.andGrown
      (Resolver.Grown.andGrown (@Resolver.Grown.of_scopes _ r
        { r with currentClass := ClassType.ClassTypeClass } rfl)
        (Resolver.declareDroppingError_grown _ name)) (Resolver.define_grown _ name)
  generalize Resolver.define (Resolver.declareDroppingError
    { r with currentClass := ClassType.ClassTypeClass } name) name = rd at h1 hdef
  rw [Resolver.setTop_beginScope] at h2
  cases h2
  cases sc with
  | none =>
    simp only at h1
    cases h1
    exact ⟨r1, hdef, rfl⟩
  | some v =>
    simp only at h1
    split at h1
    · cases h1
    · obtain ⟨r3, h3, h4⟩ := RRes.andThen_ok h1
      have hk := Resolver.resolveExpr_kept _ _ _ h3
      rw [Resolver.setTop_beginScope] at h4
      cases h4
      refine ⟨rd, hdef, ?_⟩
      have := hk.scopes
      simp only at this
      simp [this]

theorem Resolver.endClass_scopes {r r' : Resolver} {sc : Option Variable} {cc : ClassType}
    (h : r.endClass sc cc = RRes.ok r') :
    r'.scopes = r.scopes.drop (if sc.isSome then 2 else 1) := by
  unfold Resolver.endClass at h
  obtain ⟨r1, h1, h2⟩ := RRes.andThen_ok h
  obtain ⟨r2, h3, h4⟩ := RRes.andThen_ok h2
  cases h4
  have a := Resolver.endScope_scopes h1
  cases sc with
  | none =>
    cases h3
    simp [a]
  | some v =>
    have b := Resolver.endScope_scopes h3
    show r2.scopes = _
    rw [b, a]
    simp only [Option.isSome_some, if_true]
    generalize r.scopes = l
    cases l with
    | nil => rfl
    | cons x xs => cases xs <;> rfl

theorem Resolver.Grown.scopes_of_begun {p : String → Bool} {r a b : Resolver}
    (h : Resolver.Grown p r.beginScope a) (hb : b.scopes = a.scopes.tail) :
    b.scopes = r.scopes := by
  rw [hb, h.tail]
  rfl

mutual
theorem Resolver.resolveStmt_grown : ∀ (s : Stmt) (r r' : Resolver),
    Resolver.resolveStmt s r = RRes.ok r' → Resolver.Grown (fun key => s.declares key) r r'
  | .nil, r, r', h => by simp [Resolver.resolveStmt] at h
  | .ExpressionStmt e, r, r', h => by
    simp only [Resolver.resolveStmt] at h
    exact Resolver.Grown.of_scopes (Resolver.resolveExpr_kept e r r' h).scopes
  | .PrintStmt e, r, r', h => by
    simp only [Resolver.resolveStmt] at h
    exact Resolver.Grown.of_scopes (Resolver.resolveExpr_kept e r r' h).scopes
  | .VarStmt name init, r, r', h => by
    simp only [Resolver.resolveStmt] at h
    obtain ⟨r1, h1, h2⟩ := RRes.andThen_ok h
    obtain ⟨r2, h3, h4⟩ := RRes.andThen_ok h2
    cases h4
    have hd : Resolver.Grown (fun key => (Stmt.VarStmt name init).declares key) r r1 :=
      (Resolver.declare_grown h1).weaken (fun key hk => by simpa [Stmt.declares] using hk)
    have hf : Resolver.Grown (fun key => (Stmt.VarStmt name init).declares key) r2
        (r2.define name) :=
      (Resolver.define_grown r2 name).weaken (fun key hk => by simpa [Stmt.declares] using hk)
    refine hd.andGrown (Resolver.Grown.andGrown ?_ hf)
    split at h3
    · cases h3; exact Resolver.Grown.grown_refl _ r1
    · exact Resolver.Grown.of_scopes (Resolver.resolveExpr_kept init r1 r2 h3).scopes
  | .BlockStmt stmts, r, r', h => by
    simp only [Resolver.resolveStmt] at h
    obtain ⟨r1, h1, h2⟩ := RRes.andThen_ok h
    have a := Resolver.resolveStatements_grown stmts _ r1 h1
    exact Resolver.Grown.of_scopes (a.scopes_of_begun (Resolver.endScope_scopes h2))
  | .IfStmt cond th el, r, r', h => by
    simp only [Resolver.resolveStmt] at h
    obtain ⟨r1, h1, h2⟩ := RRes.andThen_ok h
    obtain ⟨r2, h3, h4⟩ := RRes.andThen_ok h2
    have a : Resolver.Grown (fun key => (Stmt.IfStmt cond th el).declares key) r r1 :=
      Resolver.Grown.of_scopes (Resolver.resolveExpr_kept cond r r1 h1).scopes
    have b := (Resolver.resolveStmt_grown th r1 r2 h3).weaken
      (q := fun key => (Stmt.IfStmt cond th el).declares key)
      (fun key hk => by
        simp only [Stmt.declares, Bool.or_eq_false_iff] at hk
        exact hk.1)
    refine a.andGrown (b.andGrown ?_)
    split at h4
    · cases h4; exact Resolver.Grown.grown_refl _ _
    · exact (Resolver.resolveStmt_grown el r2 r' h4).weaken (fun key hk => by
        simp only [Stmt.declares, Bool.or_eq_false_iff] at hk
        exact hk.2)
  | .WhileStmt cond body, r, r', h => by
    simp only [Resolver.resolveStmt] at h
    obtain ⟨r1, h1, h2⟩ := RRes.andThen_ok h
    have a : Resolver.Grown (fun key => (Stmt.WhileStmt cond body).declares key) r r1 :=
      Resolver.Grown.of_scopes (Resolver.resolveExpr_kept cond r r1 h1).scopes
    exact a.andGrown ((Resolver.resolveStmt_grown body r1 r' h2).weaken (fun key hk => by
      simpa only [Stmt.declares] using hk))
  | .Function f, r, r', h => by
    simp only [Resolver.resolveStmt] at h
    obtain ⟨r1, h1, h2⟩ := RRes.andThen_ok h
    have hname : ∀ key, (Stmt.Function f).declares key = false → (f.Name.Lexeme == key) = false := by
      intro key hk
      cases f with
      | mk name params body =>
        simp only [Stmt.declares, FunctionStmt.declares, Bool.or_eq_false_iff] at hk
        exact hk.1.1
    have a := ((Resolver.declare_grown h1).andGrown (Resolver.define_grown r1 f.Name)).weaken hname
    exact a.andGrown (Resolver.Grown.of_scopes (Resolver.resolveFunction_scopes f _ _ r' h2))
  | .ReturnStmt _ value, r, r', h => by
    simp only [Resolver.resolveStmt] at h
    split at h
    · cases h
    · split at h
      · cases h
      · split at h
        · exact Resolver.Grown.of_scopes (Resolver.resolveExpr_kept value r r' h).scopes
        · cases h; exact Resolver.Grown.grown_refl _ r
  | .ClassStmt name sc methods, r, r', h => by
    simp only [Resolver.resolveStmt] at h
    obtain ⟨r1, h1, h2⟩ := RRes.andThen_ok h
    obtain ⟨r2, h3, h4⟩ := RRes.andThen_ok h2
    obtain ⟨rd, hrd, hsc⟩ := Resolver.beginClass_scopes h1
    have b := Resolver.resolveMethods_scopes methods r1 r2 h3
    have c := Resolver.endClass_scopes h4
    have hs : r'.scopes = rd.scopes := by
      rw [c, b, hsc]
      cases sc <;> simp
    refine (hrd.weaken ?_).andGrown (Resolver.Grown.of_scopes hs)
    intro key hk
    simp only [Stmt.declares, Bool.or_eq_false_iff] at hk
    exact hk.1
theorem Resolver.resolveStatements_grown : ∀ (ss : List Stmt) (r r' : Resolver),
    Resolver.resolveStatements ss r = RRes.ok r' →
    Resolver.Grown (fun key => Stmt.declaresAny key ss) r r'
  | [], r, r', h => by
    simp only [Resolver.resolveStatements] at h
    cases h; exact Resolver.Grown.grown_refl _ r
  | s :: rest, r, r', h => by
    simp only [Resolver.resolveStatements] at h
    obtain ⟨r1, h1, h2⟩ := RRes.andThen_ok h
    refine Resolver.Grown.andGrown
      ((Resolver.resolveStmt_grown s r r1 h1).weaken ?_)
      ((Resolver.resolveStatements_grown rest r1 r' h2).weaken ?_)
    · intro key hk
      simp only [Stmt.declaresAny, Bool.or_eq_false_iff] at hk
      exact hk.1
    · intro key hk
      simp only [Stmt.declaresAny, Bool.or_eq_false_iff] at hk
      exact hk.2
theorem Resolver.resolveFunction_scopes : ∀ (f : FunctionStmt) (ft : FunctionType)
    (r r' : Resolver), Resolver.resolveFunction f ft r = RRes.ok r' → r'.scopes = r.scopes
  | .mk _ params body, ft, r, r', h => by
    simp only [Resolver.resolveFunction] at h
    obtain ⟨r1, h1, h2⟩ := RRes.andThen_ok h
    obtain ⟨r2, h3, h4⟩ := RRes.andThen_ok h2
    obtain ⟨r3, h5, h6⟩ := RRes.andThen_ok h4
    cases h6
    have a := Resolver.declareParams_grown params _ r1 h1
    have b := Resolver.resolveStatements_grown body r1 r2 h3
    have c := Resolver.endScope_scopes h5
    show r3.scopes = r.scopes
    rw [c, b.tail, a.tail]
    rfl
theorem Resolver.resolveMethods_scopes : ∀ (ms : List FunctionStmt) (r r' : Resolver),
    Resolver.resolveMethods ms r = RRes.ok r' → r'.scopes = r.scopes
  | [], r, r', h => by
    simp only [Resolver.resolveMethods] at h
    cases h; rfl
  | m :: rest, r, r', h => by
    simp only [Resolver.resolveMethods] at h
    obtain ⟨r1, h1, h2⟩ := RRes.andThen_ok h
    exact (Resolver.resolveMethods_scopes rest r1 r' h2).trans
      (Resolver.resolveFunction_scopes m _ r r1 h1)
end

theorem Resolver.Resolve_ok {r r' : Resolver} {statements : List Stmt}
    (h : r.Resolve statements = RRes.ok r') :
    Resolver.resolveStatements statements r = RRes.ok r' := by
  unfold Resolver.Resolve at h
  split at h
  · cases h
  · exact h

/-- C37: when `Resolve` returns no error, the scope stack has the depth it had, the
scopes below the innermost one are those it had, and the innermost one holds for every
name that the statements do not declare what it held; a stack that is empty, as
`NewResolver` makes it, is empty afterwards; a block, a function and a class each end
the scopes they begin, so that a block leaves the scopes with the contents they had;
and `currentFunction` and `currentClass` have the values they had. -/
theorem Resolve_keeps_scopes_and_states (r r' : Resolver) (statements : List Stmt)
    (h : r.Resolve statements = RRes.ok r') :
    r'.scopes.length = r.scopes.length ∧
    r'.scopes.tail = r.scopes.tail ∧
    (∀ key, Stmt.declaresAny key statements = false → r'.bindings key = r.bindings key) ∧
    (r.scopes = [] → r'.scopes = []) ∧
    r'.currentFunction = r.currentFunction ∧
    r'.currentClass = r.currentClass ∧
    (∀ (ss : List Stmt) (a b : Resolver),
      Resolver.resolveStmt (Stmt.BlockStmt ss) a = RRes.ok b → b.scopes = a.scopes) ∧
    (∀ (f : FunctionStmt) (ft : FunctionType) (a b : Resolver),
      Resolver.resolveFunction f ft a = RRes.ok b → b.scopes = a.scopes) := by
  have h1 := Resolver.Resolve_ok h
  have g := Resolver.resolveStatements_grown statements r r' h1
  have s := Resolver.resolveStatements_same statements r r' h1
  refine ⟨g.depth, g.tail, g.bindings, ?_, s.fn, s.cls, ?_, ?_⟩
  · intro he
    have := g.depth
    rw [he] at this
    exact List.length_eq_zero.mp this
  · intro ss a b hb
    simp only [Resolver.resolveStmt] at hb
    obtain ⟨r1, h1, h2⟩ := RRes.andThen_ok hb
    exact (Resolver.resolveStatements_grown ss _ r1 h1).scopes_of_begun
      (Resolver.endScope_scopes h2)
  · intro f ft a b hb
    exact Resolver.resolveFunction_scopes f ft a b hb

/-- C37 on the block `\x7b var a; \x7d`, resolved from the state of `NewResolver`. -/
theorem Resolve_keeps_scopes_and_states_witness :
    (NewResolver [] Errors.init).Resolve
        [Stmt.BlockStmt [Stmt.VarStmt (sampleToken TokenType.IDENTIFIER "a") Expr.nil]] =
      RRes.ok (NewResolver [] Errors.init) ∧
    (NewResolver [] Errors.init).scopes.length = (NewResolver [] Errors.init).scopes.length :=
  ⟨rfl, (Resolve_keeps_scopes_and_states (NewResolver [] Errors.init) (NewResolver [] Errors.init)
    [Stmt.BlockStmt [Stmt.VarStmt (sampleToken TokenType.IDENTIFIER "a") Expr.nil]] rfl).1⟩

/-- C33 evaluated: after `Resolve` has returned an error from inside the body of a
function, of a method or of a class, `currentFunction`, `currentClass` and the number of
scopes are not those of before the call (none, none, 0): the paths that return an error
restore nothing. Without an error they are. -/
theorem Resolve_error_leaves_function_and_class_state :
    resolveState "fun f() \x7b var a; var a; \x7d" =
      some (some "Already a variable with this name in this scope.",
        FunctionType.FunctionTypeFunction, ClassType.ClassTypeNone, 1) ∧
    resolveState "class A \x7b m() \x7b return super.x; \x7d \x7d" =
      some (some "Can't use 'super' in a class with no superclass.",
        FunctionType.FunctionTypeMethod, ClassType.ClassTypeClass, 2) ∧
    resolveState "class A \x7b init() \x7b return 1; \x7d \x7d" =
      some (some "Can't return a value from an initializer.",
        FunctionType.FunctionTypeInitializer, ClassType.ClassTypeClass, 2) ∧
    resolveState "class A < A \x7b \x7d" =
      some (some "A class cannot inherit from itself.",
        FunctionType.FunctionTypeNone, ClassType.ClassTypeClass, 0) ∧
    resolveState "fun f() \x7b var a; \x7d class A \x7b m() \x7b \x7d \x7d" =
      some (none, FunctionType.FunctionTypeNone, ClassType.ClassTypeNone, 0) := by
  refine ⟨?_, ?_, ?_, ?_, ?_⟩ <;> decide!

/-! ## The scopes of `this` and `super` -/

/-- Where `this` lies below `super`, the innermost binding of `super` is at a distance of
at least 1 and `this` is bound one scope nearer. -/
theorem thisBelowSuper_distance : ∀ {ths sups : List (Option Bool)},
    ThisBelowSuper ths sups → some true ∈ sups →
    ∃ d, 1 ≤ d ∧ sups[d]? = some (some true) ∧ (∀ k, k < d → sups[k]? = some none) ∧
      ths[d - 1]? = some (some true) := by
  intro ths sups h
  induction h with
  | none => intro hm; simp at hm
  | @scope t this super h ih =>
    intro hm
    have hm2 : some true ∈ super := by simpa using hm
    obtain ⟨d, hd, h1, h2, h3⟩ := ih hm2
    refine ⟨d + 1, by omega, by simpa using h1, ?_, ?_⟩
    · intro k hk
      cases k with
      | zero => simp
      | succ k => simpa using h2 k (by omega)
    · obtain ⟨e, rfl⟩ : ∃ e, d = e + 1 := ⟨d - 1, by omega⟩
      simpa using h3
  | @class_ t this super h ih =>
    intro _
    refine ⟨1, le_refl 1, by simp, ?_, by simp⟩
    intro k hk
    obtain rfl : k = 0 := by omega
    simp

theorem Resolver.resolveLocalLoop_at (r : Resolver) (id : Nat) (name : Token) (b : Bool) :
    ∀ (scopes : List (Map String Bool)) (depth d : Nat),
    (∀ k, k < d → (scopes.map fun scope => Map.get scope name.Lexeme)[k]? = some none) →
    (scopes.map fun scope => Map.get scope name.Lexeme)[d]? = some (some b) →
    (Resolver.resolveLocalLoop r id name scopes depth).locals = Map.set r.locals id (depth + d)
  | [], depth, d, _, hd => by simp at hd
  | sc :: rest, depth, 0, _, hd => by
    have hg : Map.get sc name.Lexeme = some b := by simpa using hd
    simp only [Resolver.resolveLocalLoop, hg, Nat.add_zero]
    cases b <;> rfl
  | sc :: rest, depth, d + 1, hk, hd => by
    have h0 : Map.get sc name.Lexeme = none := by simpa using hk 0 (by omega)
    simp only [Resolver.resolveLocalLoop, h0]
    rw [Resolver.resolveLocalLoop_at r id name b rest (depth + 1) d
      (fun k hkd => by simpa using hk (k + 1) (by omega)) (by simpa using hd)]
    congr 1
    omega

theorem SuperScopes.of_bindings {r r' : Resolver}
    (hthis : r'.bindings "this" = r.bindings "this")
    (hsuper : r'.bindings "super" = r.bindings "super")
    (hcls : r'.currentClass = r.currentClass) (h : SuperScopes r) : SuperScopes r' := by
  unfold SuperScopes at *
  rw [hthis, hsuper, hcls]
  exact h

theorem SuperScopes.of_same_scopes {r r' : Resolver} (hs : r'.scopes = r.scopes)
    (hcls : r'.currentClass = r.currentClass) (h : SuperScopes r) : SuperScopes r' :=
  SuperScopes.of_bindings (by simp only [Resolver.bindings, hs])
    (by simp only [Resolver.bindings, hs]) hcls h

theorem SuperScopes.of_grown {p : String → Bool} {r r' : Resolver} (g : Resolver.Grown p r r')
    (hthis : p "this" = false) (hsuper : p "super" = false)
    (hcls : r'.currentClass = r.currentClass) (h : SuperScopes r) : SuperScopes r' :=
  SuperScopes.of_bindings (g.bindings "this" hthis) (g.bindings "super" hsuper) hcls h

theorem SuperScopes.beginScope {r : Resolver} (h : SuperScopes r) : SuperScopes r.beginScope := by
  unfold SuperScopes at *
  refine ⟨ThisBelowSuper.scope h.1, fun hc => ?_⟩
  exact List.mem_cons_of_mem _ (h.2 hc)

theorem SuperScopes.beginClass {r r1 : Resolver} {name : Token} {sc : Option Variable}
    (hb : r.beginClass name sc = RRes.ok r1) (hthis : (name.Lexeme == "this") = false)
    (hsuper : (name.Lexeme == "super") = false) (h : SuperScopes r) : SuperScopes r1 := by
  obtain ⟨rd, hrd, hsc⟩ := Resolver.beginClass_scopes hb
  have hc := (Resolver.beginClass_ok hb).2.2
  have h1 := hrd.bindings "this" hthis
  have h2 := hrd.bindings "super" hsuper
  unfold SuperScopes at *
  cases sc with
  | none =>
    simp only [Option.isSome_none, Bool.false_eq_true, if_false] at hsc hc
    have e1 : r1.bindings "this" = some true :: r.bindings "this" := by
      rw [← h1]
      simp [Resolver.bindings, hsc, Map.get]
    have e2 : r1.bindings "super" = none :: r.bindings "super" := by
      rw [← h2]
      simp [Resolver.bindings, hsc, Map.get]
    rw [e1, e2]
    refine ⟨ThisBelowSuper.scope h.1, fun hcs => ?_⟩
    rw [hc] at hcs
    cases hcs
  | some v =>
    simp only [Option.isSome_some, if_true] at hsc hc
    have e1 : r1.bindings "this" = some true :: none :: r.bindings "this" := by
      rw [← h1]
      simp [Resolver.bindings, hsc, Map.get]
    have e2 : r1.bindings "super" = none :: some true :: r.bindings "super" := by
      rw [← h2]
      simp [Resolver.bindings, hsc, Map.get]
    rw [e1, e2]
    exact ⟨ThisBelowSuper.class_ h.1, fun _ => by simp⟩

/-- The state in which the resolver reaches a statement of a program that declares
neither `this` nor `super` keeps `this` below `super`. -/
theorem Reaches.superScopes {path : List Frame} {r : Resolver} {node : Node} {r' : Resolver}
    {t : Stmt} (h : Reaches path r node r' t) :
    node.declares "this" = false → node.declares "super" = false → SuperScopes r →
    SuperScopes r' ∧ t.declares "this" = false ∧ t.declares "super" = false := by
  induction h with
  | here r s => exact fun h1 h2 hs => ⟨hs, h1, h2⟩
  | block _ ih =>
    intro h1 h2 hs
    exact ih (by simpa [Node.declares, Stmt.declares] using h1)
      (by simpa [Node.declares, Stmt.declares] using h2) hs.beginScope
  | ifThen hc _ ih =>
    intro h1 h2 hs
    simp only [Node.declares, Stmt.declares, Bool.or_eq_false_iff] at h1 h2
    have k := Resolver.resolveExpr_kept _ _ _ hc
    exact ih h1.1 h2.1 (SuperScopes.of_same_scopes k.scopes k.cls hs)
  | ifElse hc hth _ _ ih =>
    intro h1 h2 hs
    simp only [Node.declares, Stmt.declares, Bool.or_eq_false_iff] at h1 h2
    have k := Resolver.resolveExpr_kept _ _ _ hc
    have g := Resolver.resolveStmt_grown _ _ _ hth
    have s := Resolver.resolveStmt_same _ _ _ hth
    exact ih h1.2 h2.2 (SuperScopes.of_grown g h1.1 h2.1 s.cls
      (SuperScopes.of_same_scopes k.scopes k.cls hs))
  | whileBody hc _ ih =>
    intro h1 h2 hs
    simp only [Node.declares, Stmt.declares] at h1 h2
    have k := Resolver.resolveExpr_kept _ _ _ hc
    exact ih h1 h2 (SuperScopes.of_same_scopes k.scopes k.cls hs)
  | @functionBody path r f r1 r' t hd _ ih =>
    intro h1 h2 hs
    simp only [Node.declares, Stmt.declares] at h1 h2
    have n1 : (f.Name.Lexeme == "this") = false := by
      cases f with
      | mk name params body =>
        simp only [FunctionStmt.declares, Bool.or_eq_false_iff] at h1
        exact h1.1.1
    have n2 : (f.Name.Lexeme == "super") = false := by
      cases f with
      | mk name params body =>
        simp only [FunctionStmt.declares, Bool.or_eq_false_iff] at h2
        exact h2.1.1
    have g := (Resolver.declare_grown hd).andGrown (Resolver.define_grown r1 f.Name)
    have s := (Resolver.declare_ok hd).andSame (Resolver.define_same r1 f.Name)
    exact ih h1 h2 (SuperScopes.of_grown g n1 n2 s.cls hs)
  | classBody hb _ ih =>
    intro h1 h2 hs
    simp only [Node.declares, Stmt.declares, Bool.or_eq_false_iff] at h1 h2
    exact ih h1.2 h2.2 (SuperScopes.beginClass hb h1.1 h2.1 hs)
  | head _ ih =>
    intro h1 h2 hs
    simp only [Node.declares, Stmt.declaresAny, Bool.or_eq_false_iff] at h1 h2
    exact ih h1.1 h2.1 hs
  | tail hst _ ih =>
    intro h1 h2 hs
    simp only [Node.declares, Stmt.declaresAny, Bool.or_eq_false_iff] at h1 h2
    have g := Resolver.resolveStmt_grown _ _ _ hst
    have s := Resolver.resolveStmt_same _ _ _ hst
    exact ih h1.2 h2.2 (SuperScopes.of_grown g h1.1 h2.1 s.cls hs)
  | @body path r name params body functionType r1 r' t hp _ ih =>
    intro h1 h2 hs
    simp only [Node.declares, FunctionStmt.declares, Bool.or_eq_false_iff] at h1 h2
    have g := Resolver.declareParams_grown _ _ _ hp
    have s := Resolver.declareParams_ok _ _ _ hp
    have hs0 : SuperScopes { r with currentFunction := functionType } :=
      SuperScopes.of_same_scopes rfl rfl hs
    exact ih h1.2 h2.2 (SuperScopes.of_grown g h1.1.2 h2.1.2 s.cls hs0.beginScope)
  | method _ ih =>
    intro h1 h2 hs
    simp only [Node.declares, FunctionStmt.declaresAny, Bool.or_eq_false_iff] at h1 h2
    exact ih h1.1 h2.1 hs
  | nextMethod hf _ ih =>
    intro h1 h2 hs
    simp only [Node.declares, FunctionStmt.declaresAny, Bool.or_eq_false_iff] at h1 h2
    have k := Resolver.resolveFunction_scopes _ _ _ _ hf
    have s := Resolver.resolveFunction_same _ _ _ _ hf
    exact ih h1.2 h2.2 (SuperScopes.of_same_scopes k s.cls hs)

/-- The state in which a sub-expression is resolved has the scopes and the class state
of the state in which its expression is. -/
theorem VisitsExpr.kept {r : Resolver} {e : Expr} {r' : Resolver} {s : Expr}
    (h : VisitsExpr r e r' s) : Resolver.Kept r r' := by
  induction h with
  | here r e => exact Resolver.Kept.kept_refl r
  | binaryLeft _ ih => exact ih
  | binaryRight hl _ ih => exact (Resolver.resolveExpr_kept _ _ _ hl).andKept ih
  | grouping _ ih => exact ih
  | unary _ ih => exact ih
  | assign _ ih => exact ih
  | logicalLeft _ ih => exact ih
  | logicalRight hl _ ih => exact (Resolver.resolveExpr_kept _ _ _ hl).andKept ih
  | callee _ ih => exact ih
  | argument hc hb _ ih =>
    exact (Resolver.resolveExpr_kept _ _ _ hc).andKept
      ((Resolver.resolveArguments_kept _ _ _ hb).andKept ih)
  | getObject _ ih => exact ih
  | setValue _ ih => exact ih
  | setObject hv _ ih => exact (Resolver.resolveExpr_kept _ _ _ hv).andKept ih

theorem VisitsExpr.of_variable {r : Resolver} {v : Variable} {r' : Resolver} {s : Expr}
    (h : VisitsExpr r (Expr.Variable v) r' s) : s = Expr.Variable v := by
  cases h
  rfl

/-- The distance that an accepted `super` records, in a state that keeps `this` below
`super`. -/
theorem SuperScopes.resolveSuper {r r' : Resolver} {id : Nat} {kw method : Token}
    (hs : SuperScopes r) (hkw : kw.Lexeme = "super")
    (hok : Resolver.resolveExpr (Expr.Super id kw method) r = RRes.ok r') :
    ∃ d, 1 ≤ d ∧ r' = r.resolveLocal id kw ∧ Map.get r'.locals id = some d ∧
      (∃ scope, r.scopes[d]? = some scope ∧ Map.get scope "super" = some true) ∧
      (∀ k, k < d → ∃ scope, r.scopes[k]? = some scope ∧ Map.get scope "super" = none) ∧
      (∃ scope, r.scopes[d - 1]? = some scope ∧ Map.get scope "this" = some true) := by
  simp only [Resolver.resolveExpr, Resolver.VisitSuperExpr] at hok
  split at hok
  · cases hok
  · split at hok
    · cases hok
    · rename_i hne hsub
      have hsub2 : r.currentClass = ClassType.ClassTypeSubclass := by
        by_contra hc
        exact hsub hc
      cases hok
      obtain ⟨d, hd, h1, h2, h3⟩ := thisBelowSuper_distance hs.1 (hs.2 hsub2)
      have hloc : (r.resolveLocal id kw).locals = Map.set r.locals id d := by
        have := Resolver.resolveLocalLoop_at r id kw true r.scopes 0 d
          (by rw [hkw]; exact h2) (by rw [hkw]; exact h1)
        simpa [Resolver.resolveLocal] using this
      refine ⟨d, hd, rfl, by rw [hloc]; exact Map.get_set_self _ _ _, ?_, ?_, ?_⟩
      · simp only [Resolver.bindings, List.getElem?_map, Option.map_eq_some'] at h1
        exact h1
      · intro k hk
        have := h2 k hk
        simp only [Resolver.bindings, List.getElem?_map, Option.map_eq_some'] at this
        exact this
      · simp only [Resolver.bindings, List.getElem?_map, Option.map_eq_some'] at h3
        exact h3

/-! ## The environment pointer after a call of the evaluator -/

theorem Res.keepsEnvironment_bind {α β : Type} {x : Res α} {f : α → Interpreter → Res β}
    {environment : Nat} (hx : x.keepsEnvironment environment)
    (hf : ∀ a j, j.environment = environment → (f a j).keepsEnvironment environment) :
    (x.bind f).keepsEnvironment environment := by
  cases x with
  | ok a j => exact hf a j hx
  | err e j => exact hx
  | panic m j => trivial
  | outOfFuel => trivial

theorem Out.toRes_keepsEnvironment {α : Type} (x : Out α) (i : Interpreter) :
    (x.toRes i).keepsEnvironment i.environment := by
  cases x <;> simp [Out.toRes, Res.keepsEnvironment]

theorem Out.toRes_keepsEnvironment_of {α : Type} (x : Out α) {i : Interpreter} {environment : Nat}
    (h : i.environment = environment) : (x.toRes i).keepsEnvironment environment :=
  h ▸ Out.toRes_keepsEnvironment x i

theorem lookUpVariable_keepsEnvironment (i : Interpreter) (name : Token) (id : Nat) :
    (lookUpVariable i name id).keepsEnvironment i.environment := by
  unfold lookUpVariable
  split <;> exact Out.toRes_keepsEnvironment _ i

theorem restoreEnvironment_keepsEnvironment {α : Type} (previous : Nat) (x : Res α) :
    (restoreEnvironment previous x).keepsEnvironment previous := by
  cases x <;> simp [restoreEnvironment, Res.keepsEnvironment]

theorem evaluateArguments_keepsEnvironment (eval : Expr → Interpreter → Res Value)
    (heval : ∀ e i, (eval e i).keepsEnvironment i.environment) :
    ∀ (arguments : List Expr) (values : List Value) (i : Interpreter),
    (evaluateArguments eval arguments values i).keepsEnvironment i.environment
  | [], values, i => rfl
  | a :: rest, values, i => by
    simp only [evaluateArguments]
    refine Res.keepsEnvironment_bind (heval a i) (fun v j hj => ?_)
    rw [← hj]
    exact evaluateArguments_keepsEnvironment eval heval rest _ j

theorem defineParams_keepsEnvironment (environment : Nat) :
    ∀ (params : List Token) (arguments : List Value) (i : Interpreter),
    (defineParams environment params arguments i).keepsEnvironment i.environment
  | [], _, i => rfl
  | _ :: _, [], i => trivial
  | p :: params, a :: arguments, i => by
    simp only [defineParams]
    exact defineParams_keepsEnvironment environment params arguments _

theorem LoxFunction.bind_environment (f : LoxFunction) (ref : Nat) (i : Interpreter) :
    (f.bind ref i).2.environment = i.environment := rfl

theorem instanceGet_keepsEnvironment (ref : Nat) (name : Token) (i : Interpreter) :
    (instanceGet ref name i).keepsEnvironment i.environment := by
  unfold instanceGet
  split
  · trivial
  · split
    · rfl
    · split
      · rfl
      · rfl

theorem instanceSet_environment (ref : Nat) (name : Token) (value : Value) (i : Interpreter) :
    (instanceSet ref name value i).environment = i.environment := by
  unfold instanceSet
  split <;> rfl

theorem buildMethods_environment (environment : Nat) :
    ∀ (ms : List FunctionStmt) (table : Map String LoxFunction) (i : Interpreter),
    (buildMethods environment ms table i).2.environment = i.environment
  | [], table, i => rfl
  | m :: rest, table, i => by
    simp only [buildMethods]
    exact buildMethods_environment environment rest _ _

theorem buildMethods_envs (environment : Nat) :
    ∀ (ms : List FunctionStmt) (table : Map String LoxFunction) (i : Interpreter),
    (buildMethods environment ms table i).2.envs = i.envs
  | [], table, i => rfl
  | m :: rest, table, i => by
    simp only [buildMethods]
    exact buildMethods_envs environment rest _ _

theorem executeBlock_keepsEnvironment (exec : Stmt → Interpreter → Res Unit)
    (statements : List Stmt) (environment : Nat) (i : Interpreter) :
    (executeBlock exec statements environment i).keepsEnvironment i.environment :=
  restoreEnvironment_keepsEnvironment _ _

theorem executeBlockWithReturn_keepsEnvironment (exec : Stmt → Interpreter → Res Unit)
    (statements : List Stmt) (environment : Nat) (i : Interpreter) :
    (executeBlockWithReturn exec statements environment i).keepsEnvironment i.environment :=
  restoreEnvironment_keepsEnvironment _ _

/-- The class statement: the frame of `super` that it enters is left again. -/
theorem classStmt_keepsEnvironment (n : Nat) (name : Token) (sc : Option Variable)
    (methods : List FunctionStmt) (i : Interpreter)
    (heval : ∀ e i, (evaluate n e i).keepsEnvironment i.environment) :
    (execute (n + 1) (Stmt.ClassStmt name sc methods) i).keepsEnvironment i.environment := by
  simp only [execute]
  refine Res.keepsEnvironment_bind ?_ (fun superclass j hj => ?_)
  · cases sc with
    | none => rfl
    | some v =>
      refine Res.keepsEnvironment_bind (heval _ i) (fun a j hj => ?_)
      cases a <;> exact hj
  · cases superclass with
    | none =>
      simp only
      refine Res.keepsEnvironment_bind ?_ (fun _ k hk => ?_)
      · exact ((buildMethods_environment _ methods [] _).trans hj)
      · split
        · exact hk
        · exact hk
        · trivial
        · trivial
    | some c =>
      simp only
      refine Res.keepsEnvironment_bind ?_ (fun _ k hk => ?_)
      · simp only [NewEnvironment, Interpreter.Define, setFrame_last, buildMethods_envs,
          buildMethods_environment, List.getElem?_concat_length]
        exact hj
      · split
        · exact hk
        · exact hk
        · trivial
        · trivial

theorem callFunction_keepsEnvironment (n : Nat) (f : LoxFunction) (arguments : List Value)
    (i : Interpreter) : (callFunction (n + 1) f arguments i).keepsEnvironment i.environment := by
  simp only [callFunction, NewEnvironment]
  refine Res.keepsEnvironment_bind (defineParams_keepsEnvironment _ _ _ _) (fun _ j hj => ?_)
  have hx := executeBlockWithReturn_keepsEnvironment (execute n) f.Declaration.Body
    i.envs.length j
  rw [hj] at hx
  generalize executeBlockWithReturn (execute n) f.Declaration.Body i.envs.length j = x at hx
  cases x with
  | ok a k =>
    simp only
    split
    · exact Out.toRes_keepsEnvironment_of _ hx
    · exact hx
  | err e k =>
    cases e with
    | Return v =>
      simp only
      split
      · exact Out.toRes_keepsEnvironment_of _ hx
      · exact hx
    | RuntimeError t m => exact hx
    | errorString m => exact hx
  | panic m k => trivial
  | outOfFuel => trivial

theorem callClass_keepsEnvironment (n : Nat) (c : LoxClass) (arguments : List Value)
    (i : Interpreter)
    (hcall : ∀ f a i, (callFunction n f a i).keepsEnvironment i.environment) :
    (callClass (n + 1) c arguments i).keepsEnvironment i.environment := by
  simp only [callClass, NewLoxInstance]
  split
  · rename_i initializer _
    have hx := hcall (initializer.bind i.instances.length
        { i with instances := i.instances ++ [⟨c, []⟩] }).1 arguments
      (initializer.bind i.instances.length
        { i with instances := i.instances ++ [⟨c, []⟩] }).2
    rw [LoxFunction.bind_environment] at hx
    simp only at hx ⊢
    generalize callFunction n _ arguments _ = x at hx
    cases x with
    | ok a k => exact hx
    | err e k => exact hx
    | panic m k => trivial
    | outOfFuel => trivial
  · rfl

/-- Every call of the evaluator that returns leaves the environment pointer where it
found it. -/
theorem keepsEnvironment_all : ∀ n : Nat,
    (∀ e i, (evaluate n e i).keepsEnvironment i.environment) ∧
    (∀ s i, (execute n s i).keepsEnvironment i.environment) ∧
    (∀ c b i, (whileLoop n c b i).keepsEnvironment i.environment) ∧
    (∀ f a i, (callFunction n f a i).keepsEnvironment i.environment) ∧
    (∀ c a i, (callClass n c a i).keepsEnvironment i.environment)
  | 0 => by
    refine ⟨fun e i => ?_, fun s i => ?_, fun c b i => ?_, fun f a i => ?_, fun c a i => ?_⟩
    · simp only [evaluate]; trivial
    · simp only [execute]; trivial
    · simp only [whileLoop]; trivial
    · simp only [callFunction]; trivial
    · simp only [callClass]; trivial
  | n + 1 => by
    obtain ⟨hev, hex, hwh, hcf, hcc⟩ := keepsEnvironment_all n
    have hev' : ∀ e i environment, i.environment = environment →
        (evaluate n e i).keepsEnvironment environment := fun e i _ h => h ▸ hev e i
    have hex' : ∀ s i environment, i.environment = environment →
        (execute n s i).keepsEnvironment environment := fun s i _ h => h ▸ hex s i
    refine ⟨fun e i => ?_, fun s i => ?_, fun c b i => ?_,
      fun f a i => callFunction_keepsEnvironment n f a i,
      fun c a i => callClass_keepsEnvironment n c a i hcf⟩
    · cases e with
      | nil => simp only [evaluate]; trivial
      | Literal v => simp only [evaluate]; rfl
      | Grouping e => simp only [evaluate]; exact hev e i
      | Unary op r =>
        simp only [evaluate]
        exact Res.keepsEnvironment_bind (hev r i)
          (fun v j hj => Out.toRes_keepsEnvironment_of _ hj)
      | Binary l op r =>
        simp only [evaluate]
        exact Res.keepsEnvironment_bind (hev l i) (fun v j hj =>
          Res.keepsEnvironment_bind (hev' r j _ hj)
            (fun w k hk => Out.toRes_keepsEnvironment_of _ hk))
      | Variable v => simp only [evaluate]; exact lookUpVariable_keepsEnvironment i _ _
      | Assign id name value =>
        simp only [evaluate]
        refine Res.keepsEnvironment_bind (hev value i) (fun v j hj => ?_)
        split
        · exact hj
        · exact hj
        · trivial
        · trivial
      | Logical l op r =>
        simp only [evaluate]
        refine Res.keepsEnvironment_bind (hev l i) (fun v j hj => ?_)
        split
        · split
          · exact hj
          · exact hev' r j _ hj
        · split
          · exact hj
          · exact hev' r j _ hj
      | Call callee paren args =>
        simp only [evaluate]
        refine Res.keepsEnvironment_bind (hev callee i) (fun v j hj => ?_)
        have ha := evaluateArguments_keepsEnvironment (evaluate n) hev args [] j
        rw [hj] at ha
        refine Res.keepsEnvironment_bind ha (fun vs k hk => ?_)
        split
        · split
          · exact hk
          · exact hk
        · split
          · exact hk
          · exact hk ▸ hcf _ _ k
        · split
          · exact hk
          · exact hk ▸ hcc _ _ k
        · exact hk
      | Get obj name =>
        simp only [evaluate]
        refine Res.keepsEnvironment_bind (hev obj i) (fun v j hj => ?_)
        split
        · exact hj ▸ instanceGet_keepsEnvironment _ _ j
        · exact hj
      | Set obj name value =>
        simp only [evaluate]
        refine Res.keepsEnvironment_bind (hev obj i) (fun v j hj => ?_)
        split
        · refine Res.keepsEnvironment_bind (hev' value j _ hj) (fun w k hk => ?_)
          exact (instanceSet_environment _ _ _ k).trans hk
        · exact hj
      | This id kw => simp only [evaluate]; exact lookUpVariable_keepsEnvironment i _ _
      | Super id kw method =>
        simp only [evaluate]
        split
        · rfl
        · refine Res.keepsEnvironment_bind (Out.toRes_keepsEnvironment _ i) (fun v j hj => ?_)
          split
          · refine Res.keepsEnvironment_bind (Out.toRes_keepsEnvironment_of _ hj)
              (fun w k hk => ?_)
            split
            · split
              · exact hk
              · exact hk
            · trivial
          · trivial
    · cases s with
      | nil => simp only [execute]; trivial
      | ExpressionStmt e =>
        simp only [execute]
        exact Res.keepsEnvironment_bind (hev e i) (fun v j hj => hj)
      | PrintStmt e =>
        simp only [execute]
        exact Res.keepsEnvironment_bind (hev e i) (fun v j hj => hj)
      | VarStmt name init =>
        simp only [execute]
        refine Res.keepsEnvironment_bind ?_ (fun v j hj => hj)
        split
        · rfl
        · exact hev init i
      | BlockStmt ss =>
        simp only [execute, NewEnvironment]
        exact executeBlock_keepsEnvironment (execute n) ss _ _
      | IfStmt c th el =>
        simp only [execute]
        refine Res.keepsEnvironment_bind (hev c i) (fun v j hj => ?_)
        split
        · exact hex' th j _ hj
        · split
          · exact hex' el j _ hj
          · exact hj
      | WhileStmt c b => simp only [execute]; exact hwh c b i
      | Function f => simp only [execute]; rfl
      | ReturnStmt kw value =>
        simp only [execute]
        refine Res.keepsEnvironment_bind ?_ (fun v j hj => hj)
        split
        · rfl
        · exact hev value i
      | ClassStmt name sc methods => exact classStmt_keepsEnvironment n name sc methods i hev
    · simp only [whileLoop]
      refine Res.keepsEnvironment_bind (hev c i) (fun v j hj => ?_)
      split
      · exact hj
      · exact Res.keepsEnvironment_bind (hex' b j _ hj) (fun _ k hk => hk ▸ hwh c b k)

/-- C31: when `execute` returns, normally or with an error (a runtime error or a return
signal), the environment pointer of the interpreter is the one it had before the call;
so it is after `executeBlock` has returned an error, after the call of a function has
returned a value or an error, and after the evaluation of an expression has returned an
error. -/
theorem execute_restores_environment (n : Nat) (s : Stmt) (i : Interpreter) :
    (∀ j, execute n s i = Res.ok () j → j.environment = i.environment) ∧
    (∀ e j, execute n s i = Res.err e j → j.environment = i.environment) ∧
    (∀ (ss : List Stmt) (environment : Nat) (e : Err) (j : Interpreter),
      executeBlock (execute n) ss environment i = Res.err e j →
      j.environment = i.environment) ∧
    (∀ (f : LoxFunction) (arguments : List Value) (v : Value) (j : Interpreter),
      callFunction n f arguments i = Res.ok v j → j.environment = i.environment) ∧
    (∀ (f : LoxFunction) (arguments : List Value) (e : Err) (j : Interpreter),
      callFunction n f arguments i = Res.err e j → j.environment = i.environment) ∧
    (∀ (x : Expr) (e : Err) (j : Interpreter),
      evaluate n x i = Res.err e j → j.environment = i.environment) := by
  obtain ⟨hev, hex, _, hcf, _⟩ := keepsEnvironment_all n
  refine ⟨fun j h => ?_, fun e j h => ?_, fun ss environment e j h => ?_,
    fun f a v j h => ?_, fun f a e j h => ?_, fun x e j h => ?_⟩
  · have := hex s i
    rw [h] at this
    exact this
  · have := hex s i
    rw [h] at this
    exact this
  · have := executeBlock_keepsEnvironment (execute n) ss environment i
    rw [h] at this
    exact this
  · have := hcf f a i
    rw [h] at this
    exact this
  · have := hcf f a i
    rw [h] at this
    exact this
  · have := hev x i
    rw [h] at this
    exact this

/-! ## The lines of the tokens -/

theorem lineAt_succ (source : List Char) (k : Nat) (c : Char) (h : source[k]? = some c) :
    lineAt source (k + 1) = lineAt source k + (if c = '\n' then 1 else 0) := by
  unfold lineAt
  rw [List.take_succ, h]
  simp only [Option.toList_some, List.count_append, List.count_singleton]
  by_cases hc : c = '\n'
  · subst hc
    simp
    omega
  · have : ('\n' == c) = false := by
      simp
      exact fun h => hc h.symm
    simp [hc, this]

theorem lineAt_mono (source : List Char) {a b : Nat} (h : a ≤ b) :
    lineAt source a ≤ lineAt source b := by
  unfold lineAt
  have : source.take a = (source.take b).take a := by
    rw [List.take_take, Nat.min_eq_left h]
  rw [this]
  exact Nat.add_le_add_left ((List.take_sublist a (source.take b)).count_le _) 1

theorem Scanner.peek_eq (s : Scanner) (h : s.current < s.source.length) :
    s.source[s.current]? = some s.peek := by
  have hne : s.isAtEnd = false := by simp [Scanner.isAtEnd, h]
  simp [Scanner.peek, hne, List.getD_eq_getElem?_getD, List.getElem?_eq_getElem h]

theorem Scanner.advance_peek (s : Scanner) (h : s.current < s.source.length) :
    s.advance = .ok (s.peek, { s with current := s.current + 1 }) := by
  unfold Scanner.advance
  rw [Scanner.peek_eq s h]

theorem Scanner.Moved.still (s : Scanner) (h : s.current ≤ s.source.length) : Scanner.Moved s s :=
  ⟨rfl, rfl, rfl, Nat.le_refl _, h, id⟩

theorem Scanner.Moved.andMoved {a b c : Scanner} (h1 : Scanner.Moved a b) (h2 : Scanner.Moved b c) :
    Scanner.Moved a c :=
  ⟨h2.source.trans h1.source, h2.start.trans h1.start, h2.tokens.trans h1.tokens,
    Nat.le_trans h1.cur h2.cur, h2.le, fun h => h2.line (h1.line h)⟩

/-- One character that is not a newline is consumed. -/
theorem Scanner.Moved.over (s : Scanner) (h : s.current < s.source.length)
    (hc : s.peek ≠ '\n') : Scanner.Moved s { s with current := s.current + 1 } := by
  refine ⟨rfl, rfl, rfl, Nat.le_succ _, h, fun hl => ?_⟩
  unfold Scanner.lineOk at *
  simp only
  rw [lineAt_succ s.source s.current s.peek (Scanner.peek_eq s h), if_neg hc]
  exact hl

/-- A newline is consumed and counted. -/
theorem Scanner.Moved.newline (s : Scanner) (h : s.current < s.source.length)
    (hc : s.peek = '\n') :
    Scanner.Moved s { s with current := s.current + 1, line := s.line + 1 } := by
  refine ⟨rfl, rfl, rfl, Nat.le_succ _, h, fun hl => ?_⟩
  unfold Scanner.lineOk at *
  simp only
  rw [lineAt_succ s.source s.current s.peek (Scanner.peek_eq s h), if_pos hc, hl]

/-- An error is recorded. -/
theorem Scanner.Moved.report (s : Scanner) (e : Errors) (h : s.current ≤ s.source.length) :
    Scanner.Moved s { s with errors := e } :=
  ⟨rfl, rfl, rfl, Nat.le_refl _, h, id⟩

theorem Scanner.commentLoop_moved : ∀ (n : Nat) (s : Scanner), s.current ≤ s.source.length →
    s.source.length - s.current < n →
    ∃ s', Scanner.commentLoop n s = .ok s' ∧ Scanner.Moved s s'
  | 0, s, _, hn => by omega
  | n + 1, s, hle, hn => by
    unfold Scanner.commentLoop
    split
    · rename_i hc
      simp only [Bool.and_eq_true, decide_eq_true_eq, Bool.not_eq_true',
        bne_iff_ne, ne_eq, Bool.not_eq_eq_eq_not, Bool.not_true] at hc
      have hlt : s.current < s.source.length := Scanner.isAtEnd_false hc.2
      obtain ⟨s', hs', hm'⟩ := Scanner.commentLoop_moved n { s with current := s.current + 1 }
        hlt (by simp; omega)
      refine ⟨s', ?_, (Scanner.Moved.over s hlt hc.1).andMoved hm'⟩
      simp [Scanner.advance_peek s hlt, bind, Except.bind, hs']
    · exact ⟨s, rfl, Scanner.Moved.still s hle⟩

theorem Scanner.stringLoop_moved : ∀ (n : Nat) (s : Scanner), s.current ≤ s.source.length →
    s.source.length - s.current < n →
    ∃ s', Scanner.stringLoop n s = .ok s' ∧ Scanner.Moved s s' ∧
      (s'.current < s'.source.length → s'.peek = '"')
  | 0, s, _, hn => by omega
  | n + 1, s, hle, hn => by
    unfold Scanner.stringLoop
    split
    · rename_i hc
      simp only [Bool.and_eq_true, decide_eq_true_eq, Bool.not_eq_true',
        bne_iff_ne, ne_eq, Bool.not_eq_eq_eq_not, Bool.not_true] at hc
      have hlt : s.current < s.source.length := Scanner.isAtEnd_false hc.2
      by_cases hnl : s.peek = '\n'
      · obtain ⟨s', hs', hm', hq⟩ := Scanner.stringLoop_moved n
          { s with current := s.current + 1, line := s.line + 1 } hlt (by simp; omega)
        refine ⟨s', ?_, (Scanner.Moved.newline s hlt hnl).andMoved hm', hq⟩
        have ha := Scanner.advance_peek { s with line := s.line + 1 } hlt
        simp only [hnl, if_true]
        simp [ha, bind, Except.bind, hs']
      · obtain ⟨s', hs', hm', hq⟩ := Scanner.stringLoop_moved n
          { s with current := s.current + 1 } hlt (by simp; omega)
        refine ⟨s', ?_, (Scanner.Moved.over s hlt hnl).andMoved hm', hq⟩
        simp only [hnl, if_false]
        simp [Scanner.advance_peek s hlt, bind, Except.bind, hs']
    · rename_i hc
      refine ⟨s, rfl, Scanner.Moved.still s hle, fun hlt => ?_⟩
      have hne : s.isAtEnd = false := by simp [Scanner.isAtEnd, hlt]
      simpa [hne] using hc

theorem isDigit_ne_newline {c : Char} (h : isDigit c = true) : c ≠ '\n' := by
  intro hc
  subst hc
  revert h
  decide

theorem isAlphaNumeric_ne_newline {c : Char} (h : isAlphaNumeric c = true) : c ≠ '\n' := by
  intro hc
  subst hc
  revert h
  decide

theorem Scanner.digitLoop_moved : ∀ (n : Nat) (s : Scanner), s.current ≤ s.source.length →
    s.source.length - s.current < n →
    ∃ s', Scanner.digitLoop n s = .ok s' ∧ Scanner.Moved s s'
  | 0, s, _, hn => by omega
  | n + 1, s, hle, hn => by
    unfold Scanner.digitLoop
    split
    · rename_i hc
      have hlt : s.current < s.source.length := Scanner.peek_ne_zero (isDigit_ne_zero hc)
      obtain ⟨s', hs', hm'⟩ := Scanner.digitLoop_moved n { s with current := s.current + 1 }
        hlt (by simp; omega)
      refine ⟨s', ?_, (Scanner.Moved.over s hlt (isDigit_ne_newline hc)).andMoved hm'⟩
      simp [Scanner.advance_peek s hlt, bind, Except.bind, hs']
    · exact ⟨s, rfl, Scanner.Moved.still s hle⟩

theorem Scanner.identifierLoop_moved : ∀ (n : Nat) (s : Scanner), s.current ≤ s.source.length →
    s.source.length - s.current < n →
    ∃ s', Scanner.identifierLoop n s = .ok s' ∧ Scanner.Moved s s'
  | 0, s, _, hn => by omega
  | n + 1, s, hle, hn => by
    unfold Scanner.identifierLoop
    split
    · rename_i hc
      have hlt : s.current < s.source.length :=
        Scanner.peek_ne_zero (isAlphaNumeric_ne_zero hc)
      obtain ⟨s', hs', hm'⟩ := Scanner.identifierLoop_moved n { s with current := s.current + 1 }
        hlt (by simp; omega)
      refine ⟨s', ?_, (Scanner.Moved.over s hlt (isAlphaNumeric_ne_newline hc)).andMoved hm'⟩
      simp [Scanner.advance_peek s hlt, bind, Except.bind, hs']
    · exact ⟨s, rfl, Scanner.Moved.still s hle⟩

theorem Scanner.Scanned.of_moved {s s' : Scanner} (h : Scanner.Moved s s') :
    Scanner.Scanned s s' :=
  ⟨h.source, h.cur, h.le, h.line, Or.inl h.tokens⟩

/-- The call of `addToken` that ends a call of `scanToken`. -/
theorem Scanner.addToken_scanned {s s' : Scanner} (ty : TokenType) (lit : LiteralValue)
    (h : Scanner.Moved s s') (h1 : s.start ≤ s.current) :
    ∃ s'', s'.addToken ty lit = .ok s'' ∧ Scanner.Scanned s s'' ∧ s''.current = s'.current := by
  have h1' : s'.start ≤ s'.current := by
    have := h.start
    have := h.cur
    omega
  obtain ⟨t, htx⟩ := sliceOf_ok s'.source s'.start s'.current h1' h.le
  refine ⟨{ s' with tokens := s'.tokens ++ [⟨ty, t, lit, s'.line⟩] }, ?_, ?_, rfl⟩
  · simp [Scanner.addToken, htx, bind, Except.bind, pure, Except.pure]
  · refine ⟨h.source, h.cur, h.le, h.line, Or.inr ⟨⟨ty, t, lit, s'.line⟩, ?_, ?_, rfl⟩⟩
    · simp only
      rw [h.tokens]
    · unfold sliceOf at htx
      rw [if_pos ⟨h1', h.le⟩] at htx
      cases htx
      simp only
      rw [h.source, h.start]

theorem Scanner.match_moved (s : Scanner) (expected : Char) (he : expected ≠ '\n')
    (h : s.current ≤ s.source.length) : Scanner.Moved s (s.match expected).2 := by
  unfold Scanner.match
  split
  · exact Scanner.Moved.still s h
  · rename_i hend
    have hlt := Scanner.isAtEnd_false (by simpa using hend)
    split
    · exact Scanner.Moved.still s h
    · rename_i hx
      refine Scanner.Moved.over s hlt ?_
      have hne : s.isAtEnd = false := by simpa using hend
      have hp : s.peek = expected := by
        simp only [Scanner.peek, hne]
        simpa using hx
      rw [hp]
      exact he

theorem Scanner.string_scanned {s0 s : Scanner} (h0 : Scanner.Moved s0 s)
    (h1 : s0.start + 1 ≤ s.current) (h2 : s0.start ≤ s0.current) :
    ∃ s', s.string = .ok s' ∧ Scanner.Scanned s0 s' ∧ s.current ≤ s'.current := by
  obtain ⟨s1, hs1, hm1, hq⟩ := Scanner.stringLoop_moved (s.source.length + 1) s h0.le (by omega)
  unfold Scanner.string
  simp only [hs1, bind, Except.bind]
  by_cases he : s1.isAtEnd = true
  · simp only [he, if_true]
    exact ⟨_, rfl, Scanner.Scanned.of_moved
      ((h0.andMoved hm1).andMoved (Scanner.Moved.report s1 _ hm1.le)), hm1.cur⟩
  · have hlt := Scanner.isAtEnd_false (by simpa using he)
    have hst : s1.start = s0.start := hm1.start.trans h0.start
    have hcur := hm1.cur
    obtain ⟨v, hv⟩ := sliceOf_ok s1.source (s1.start + 1) s1.current
      (by omega) (by omega)
    have hover : Scanner.Moved s1 { s1 with current := s1.current + 1 } :=
      Scanner.Moved.over s1 hlt (by rw [hq hlt]; decide)
    obtain ⟨s2, hs2, hsc, hcur2⟩ := Scanner.addToken_scanned TokenType.STRING
      (LiteralValue.string v) ((h0.andMoved hm1).andMoved hover) h2
    refine ⟨s2, ?_, hsc, ?_⟩
    · simp only [he]
      simp [Scanner.advance_peek s1 hlt, hv, hs2]
    · rw [hcur2]
      exact Nat.le_succ_of_le hcur

theorem Scanner.number_scanned {s0 s : Scanner} (h0 : Scanner.Moved s0 s)
    (h1 : s0.start ≤ s0.current) :
    ∃ s', s.number = .ok s' ∧ Scanner.Scanned s0 s' ∧ s.current ≤ s'.current := by
  obtain ⟨s1, hs1, hm1⟩ := Scanner.digitLoop_moved (s.source.length + 1) s h0.le (by omega)
  have hfrac : ∃ s2, (if (s1.peek = '.' && isDigit s1.peekNext) = true then
        s1.advance >>= fun p => Scanner.digitLoop (p.2.source.length + 1) p.2
      else pure s1) = Except.ok s2 ∧ Scanner.Moved s1 s2 := by
    split
    · rename_i hc
      simp only [Bool.and_eq_true, decide_eq_true_eq] at hc
      have hlt : s1.current < s1.source.length := by
        apply Scanner.peek_ne_zero
        rw [hc.1]
        decide
      obtain ⟨s2, hs2, hm2⟩ := Scanner.digitLoop_moved (s1.source.length + 1)
        { s1 with current := s1.current + 1 } hlt (by simp; omega)
      refine ⟨s2, ?_, (Scanner.Moved.over s1 hlt (by rw [hc.1]; decide)).andMoved hm2⟩
      simp only [Scanner.advance_peek s1 hlt, bind, Except.bind, hs2]
    · exact ⟨s1, rfl, Scanner.Moved.still s1 hm1.le⟩
  obtain ⟨s2, hs2, hm2⟩ := hfrac
  have hm := (h0.andMoved hm1).andMoved hm2
  obtain ⟨v, hv⟩ := sliceOf_ok s2.source s2.start s2.current
    (by have := hm.start; have := hm.cur; omega) hm.le
  unfold Scanner.number
  simp only [hs1, bind, Except.bind] at hs2 ⊢
  simp only [hs2, hv]
  cases hp : parseFloat v with
  | none =>
    exact ⟨_, rfl, Scanner.Scanned.of_moved (hm.andMoved (Scanner.Moved.report s2 _ hm.le)),
      (hm1.andMoved hm2).cur⟩
  | some f =>
    obtain ⟨s3, hs3, hsc, hcur3⟩ :=
      Scanner.addToken_scanned TokenType.NUMBER (LiteralValue.number f) hm h1
    exact ⟨s3, hs3, hsc, hcur3 ▸ (hm1.andMoved hm2).cur⟩

theorem Scanner.identifier_scanned {s0 s : Scanner} (h0 : Scanner.Moved s0 s)
    (h1 : s0.start ≤ s0.current) :
    ∃ s', s.identifier = .ok s' ∧ Scanner.Scanned s0 s' ∧ s.current ≤ s'.current := by
  obtain ⟨s1, hs1, hm1⟩ := Scanner.identifierLoop_moved (s.source.length + 1) s h0.le (by omega)
  have hm := h0.andMoved hm1
  obtain ⟨v, hv⟩ := sliceOf_ok s1.source s1.start s1.current
    (by have := hm.start; have := hm.cur; omega) hm.le
  unfold Scanner.identifier
  simp only [hs1, bind, Except.bind, hv]
  obtain ⟨s3, hs3, hsc, hcur3⟩ := Scanner.addToken_scanned _ LiteralValue.nil hm h1
  exact ⟨s3, hs3, hsc, hcur3 ▸ hm1.cur⟩

theorem isAlpha_ne_newline {c : Char} (h : isAlpha c = true) : c ≠ '\n' := by
  intro hc
  subst hc
  revert h
  decide

theorem Scanner.scanToken_scanned (s : Scanner) (h1 : s.start = s.current)
    (h2 : s.current < s.source.length) :
    ∃ s', s.scanToken = .ok s' ∧ Scanner.Scanned s s' ∧ s.current < s'.current := by
  have hc := Scanner.advance_peek s h2
  have hle1 : s.start ≤ s.current := Nat.le_of_eq h1
  suffices h : ∃ s', s.scanToken = .ok s' ∧ Scanner.Scanned s s' ∧
      s.current + 1 ≤ s'.current by
    obtain ⟨s', hs', hsc, hlt⟩ := h
    exact ⟨s', hs', hsc, hlt⟩
  have hover : s.peek ≠ '\n' → Scanner.Moved s { s with current := s.current + 1 } :=
    fun hne => Scanner.Moved.over s h2 hne
  have hadd : ∀ (ty : TokenType) (s1 : Scanner), Scanner.Moved s s1 →
      s.current + 1 ≤ s1.current →
      ∃ s', s1.addToken ty LiteralValue.nil = .ok s' ∧ Scanner.Scanned s s' ∧
        s.current + 1 ≤ s'.current := by
    intro ty s1 hm hcur
    obtain ⟨s', hs', hsc, hcur'⟩ := Scanner.addToken_scanned ty LiteralValue.nil hm hle1
    exact ⟨s', hs', hsc, hcur' ▸ hcur⟩
  have hm : ∀ e : Char, e ≠ '\n' → s.peek ≠ '\n' →
      Scanner.Moved s (Scanner.match { s with current := s.current + 1 } e).2 ∧
      s.current + 1 ≤ (Scanner.match { s with current := s.current + 1 } e).2.current :=
    fun e he hne =>
      ⟨(hover hne).andMoved (Scanner.match_moved _ e he h2),
        (Scanner.match_moved { s with current := s.current + 1 } e he h2).cur⟩
  unfold Scanner.scanToken
  rw [hc]
  generalize hpk : s.peek = c at *
  show ∃ s', (if c = '(' then _ else _) = Except.ok s' ∧ _
  by_cases h : c = '('
  · rw [if_pos h]; exact hadd _ _ (hover (by rw [h]; decide)) (Nat.le_refl _)
  rw [if_neg h]; clear h
  by_cases h : c = ')'
  · rw [if_pos h]; exact hadd _ _ (hover (by rw [h]; decide)) (Nat.le_refl _)
  rw [if_neg h]; clear h
  by_cases h : c = '{'
  · rw [if_pos h]; exact hadd _ _ (hover (by rw [h]; decide)) (Nat.le_refl _)
  rw [if_neg h]; clear h
  by_cases h : c = '}'
  · rw [if_pos h]; exact hadd _ _ (hover (by rw [h]; decide)) (Nat.le_refl _)
  rw [if_neg h]; clear h
  by_cases h : c = ','
  · rw [if_pos h]; exact hadd _ _ (hover (by rw [h]; decide)) (Nat.le_refl _)
  rw [if_neg h]; clear h
  by_cases h : c = '.'
  · rw [if_pos h]; exact hadd _ _ (hover (by rw [h]; decide)) (Nat.le_refl _)
  rw [if_neg h]; clear h
  by_cases h : c = '-'
  · rw [if_pos h]; exact hadd _ _ (hover (by rw [h]; decide)) (Nat.le_refl _)
  rw [if_neg h]; clear h
  by_cases h : c = '+'
  · rw [if_pos h]; exact hadd _ _ (hover (by rw [h]; decide)) (Nat.le_refl _)
  rw [if_neg h]; clear h
  by_cases h : c = ';'
  · rw [if_pos h]; exact hadd _ _ (hover (by rw [h]; decide)) (Nat.le_refl _)
  rw [if_neg h]; clear h
  by_cases h : c = '*'
  · rw [if_pos h]; exact hadd _ _ (hover (by rw [h]; decide)) (Nat.le_refl _)
  rw [if_neg h]; clear h
  by_cases h : c = '!'
  · rw [if_pos h]
    have hx := hm '=' (by decide) (by rw [h]; decide)
    split
    · rename_i b s1 hb
      rw [hb] at hx
      exact hadd _ _ hx.1 hx.2
    · rename_i b s1 hb
      rw [hb] at hx
      exact hadd _ _ hx.1 hx.2
  rw [if_neg h]; clear h
  by_cases h : c = '='
  · rw [if_pos h]
    have hx := hm '=' (by decide) (by rw [h]; decide)
    split
    · rename_i b s1 hb
      rw [hb] at hx
      exact hadd _ _ hx.1 hx.2
    · rename_i b s1 hb
      rw [hb] at hx
      exact hadd _ _ hx.1 hx.2
  rw [if_neg h]; clear h
  by_cases h : c = '<'
  · rw [if_pos h]
    have hx := hm '=' (by decide) (by rw [h]; decide)
    split
    · rename_i b s1 hb
      rw [hb] at hx
      exact hadd _ _ hx.1 hx.2
    · rename_i b s1 hb
      rw [hb] at hx
      exact hadd _ _ hx.1 hx.2
  rw [if_neg h]; clear h
  by_cases h : c = '>'
  · rw [if_pos h]
    have hx := hm '=' (by decide) (by rw [h]; decide)
    split
    · rename_i b s1 hb
      rw [hb] at hx
      exact hadd _ _ hx.1 hx.2
    · rename_i b s1 hb
      rw [hb] at hx
      exact hadd _ _ hx.1 hx.2
  rw [if_neg h]; clear h
  by_cases h : c = '/'
  · rw [if_pos h]
    have hx := hm '/' (by decide) (by rw [h]; decide)
    split
    · rename_i b s1 hb
      rw [hb] at hx
      obtain ⟨s', hs', hm'⟩ := Scanner.commentLoop_moved (s1.source.length + 1) s1 hx.1.le
        (by omega)
      exact ⟨s', hs', Scanner.Scanned.of_moved (hx.1.andMoved hm'), Nat.le_trans hx.2 hm'.cur⟩
    · rename_i b s1 hb
      rw [hb] at hx
      exact hadd _ _ hx.1 hx.2
  rw [if_neg h]; clear h
  by_cases h : c = ' ' ∨ c = '\r' ∨ c = '\t'
  · rw [if_pos h]
    have hne : c ≠ '\n' := by
      rcases h with h | h | h <;> rw [h] <;> decide
    exact ⟨_, rfl, Scanner.Scanned.of_moved (hover hne), Nat.le_refl _⟩
  rw [if_neg h]; clear h
  by_cases h : c = '\n'
  · rw [if_pos h]
    exact ⟨_, rfl, Scanner.Scanned.of_moved (Scanner.Moved.newline s h2 (hpk.trans h)),
      Nat.le_refl _⟩
  rw [if_neg h]
  have hmv := hover h
  by_cases h' : c = '"'
  · rw [if_pos h']
    obtain ⟨s', hs', hsc, hcur'⟩ := Scanner.string_scanned hmv (by simp; omega) hle1
    exact ⟨s', hs', hsc, hcur'⟩
  rw [if_neg h']; clear h'
  by_cases h' : isAlpha c = true
  · rw [if_pos h']
    obtain ⟨s', hs', hsc, hcur'⟩ := Scanner.identifier_scanned hmv hle1
    exact ⟨s', hs', hsc, hcur'⟩
  rw [if_neg h']; clear h'
  by_cases h' : isDigit c = true
  · rw [if_pos h']
    obtain ⟨s', hs', hsc, hcur'⟩ := Scanner.number_scanned hmv hle1
    exact ⟨s', hs', hsc, hcur'⟩
  rw [if_neg h']; clear h'
  exact ⟨_, rfl, Scanner.Scanned.of_moved (hmv.andMoved (Scanner.Moved.report _ _ h2)), Nat.le_refl _⟩

theorem TokensAt.from_earlier {source : List Char} {a b : Nat} {tokens : List Token}
    (hab : a ≤ b) (h : TokensAt source b tokens) : TokensAt source a tokens := by
  cases h with
  | done => exact TokensAt.done a
  | token h1 h2 h3 h4 h5 h6 => exact TokensAt.token (Nat.le_trans hab h1) h2 h3 h4 h5 h6

/-- The lines of tokens that lie one after the other never decrease, and lie between the
line of the position they start from and the line of the end of the source. -/
theorem TokensAt.lines {source : List Char} : ∀ {start : Nat} {tokens : List Token},
    TokensAt source start tokens →
    (∀ t ∈ tokens, lineAt source start ≤ t.Line ∧ t.Line ≤ lineAt source source.length) ∧
    List.Pairwise (fun a b : Token => a.Line ≤ b.Line) tokens
  | _, _, TokensAt.done _ => ⟨by simp, List.Pairwise.nil⟩
  | _, _, @TokensAt.token _ start lo hi tok rest h1 h2 h3 h4 h5 h6 => by
    obtain ⟨ha, hp⟩ := TokensAt.lines h6
    have hlo : lineAt source start ≤ lineAt source hi := lineAt_mono source (Nat.le_trans h1 h2)
    refine ⟨?_, List.Pairwise.cons (fun t ht => ?_) hp⟩
    · intro t ht
      rcases List.mem_cons.mp ht with h | h
      · subst h
        rw [h5]
        exact ⟨hlo, lineAt_mono source h3⟩
      · exact ⟨Nat.le_trans hlo (ha t h).1, (ha t h).2⟩
    · rw [h5]
      exact (ha t ht).1

theorem Scanner.scanLoop_tokens : ∀ (n : Nat) (s : Scanner), s.current ≤ s.source.length →
    s.source.length - s.current < n → s.lineOk →
    ∃ s', Scanner.scanLoop n s = .ok s' ∧ s'.source = s.source ∧ s'.lineOk ∧
      s'.current = s'.source.length ∧
      ∃ ex, s'.tokens = s.tokens ++ ex ∧ TokensAt s.source s.current ex
  | 0, s, _, hn, _ => by omega
  | n + 1, s, hle, hn, hl => by
    unfold Scanner.scanLoop
    split
    · rename_i hc
      have hlt : s.current < s.source.length := Scanner.isAtEnd_false (by simpa using hc)
      obtain ⟨s1, hs1, hsc, hlt1⟩ :=
        Scanner.scanToken_scanned { s with start := s.current } rfl hlt
      have hsrc : s1.source = s.source := hsc.source
      have hl1 : s1.lineOk := hsc.line hl
      obtain ⟨s2, hs2, hsrc2, hl2, hend, ex2, he2, ht2⟩ := Scanner.scanLoop_tokens n s1 hsc.le
        (by rw [hsrc]; simp at hlt1; omega) hl1
      rw [hsrc] at ht2
      simp only at hlt1
      rcases hsc.tokens with htok | ⟨tok, htok, hlex, hline⟩
      · refine ⟨s2, ?_, hsrc2.trans hsrc, hl2, hend, ex2, ?_, ht2.from_earlier (Nat.le_of_lt hlt1)⟩
        · simp only [hs1, bind, Except.bind, hs2]
        · rw [he2, htok]
      · refine ⟨s2, ?_, hsrc2.trans hsrc, hl2, hend, tok :: ex2, ?_, ?_⟩
        · simp only [hs1, bind, Except.bind, hs2]
        · rw [he2, htok]
          simp
        · refine TokensAt.token (Nat.le_refl _) (Nat.le_of_lt hlt1) ?_ hlex ?_ ht2
          · have := hsc.le
            rw [hsrc] at this
            exact this
          · rw [hline, hl1, hsrc]
    · rename_i hc
      have hge : s.source.length ≤ s.current := by
        simpa [Scanner.isAtEnd] using hc
      exact ⟨s, rfl, rfl, hl, Nat.le_antisymm hle hge, [], by simp, TokensAt.done _⟩

/-- C38: `ScanTokens` returns for every source, and the tokens it returns before the EOF
token lie in the source one after the other: the lexeme of each is the text between two
positions, and its line is 1 plus the number of newlines before the second of them, the
end of the lexeme; the line of the EOF token is 1 plus the number of newlines of the
source; and the lines of the tokens never decrease along the list.  A string over two
lines has the line of its closing quote. -/
theorem token_line_counts_newlines_before_lexeme_end (source : String) (errors : Errors) :
    (∃ (s' : Scanner) (toks : List Token) (eof : Token),
      (NewScanner source errors).ScanTokens = Except.ok s' ∧
      s'.tokens = toks ++ [eof] ∧
      TokensAt source.toList 0 toks ∧
      eof.type = TokenType.EOF ∧
      eof.Line = lineAt source.toList source.toList.length ∧
      List.Pairwise (fun a b : Token => a.Line ≤ b.Line) s'.tokens) ∧
    (tokensOf "\"a\nb\" c\nd").map (fun t => (t.Lexeme, t.Line)) =
      [("\"a\nb\"", 2), ("c", 2), ("d", 3), ("", 3)] := by
  refine ⟨?_, by decide⟩
  obtain ⟨s1, hs1, hsrc, hl1, hend, ex, hex, hat⟩ :=
    Scanner.scanLoop_tokens ((NewScanner source errors).source.length + 1)
      (NewScanner source errors) (Nat.zero_le _) (by simp [NewScanner])
      (by simp [Scanner.lineOk, NewScanner, lineAt])
  have hsrc' : s1.source = source.toList := hsrc
  have hat' : TokensAt source.toList 0 ex := hat
  have heof : s1.line = lineAt source.toList source.toList.length := by
    have := hl1
    unfold Scanner.lineOk at this
    rw [this, hend, hsrc']
  refine ⟨{ s1 with tokens := s1.tokens ++ [⟨TokenType.EOF, "", LiteralValue.nil, s1.line⟩] },
    ex, ⟨TokenType.EOF, "", LiteralValue.nil, s1.line⟩, ?_, ?_, hat', rfl, heof, ?_⟩
  · unfold Scanner.ScanTokens
    simp only [hs1, bind, Except.bind, pure, Except.pure]
  · simp [hex, NewScanner]
  · have hx : s1.tokens = ex := by simpa [NewScanner] using hex
    simp only [hx]
    obtain ⟨ha, hp⟩ := hat'.lines
    rw [List.pairwise_append]
    refine ⟨hp, List.pairwise_singleton _ _, fun a ha' b hb => ?_⟩
    rw [List.mem_singleton] at hb
    subst hb
    simp only
    rw [heof]
    exact (ha a ha').2

/-! ## The parser stays inside a token list that ends in EOF -/

theorem Parser.Within.here {p : Parser} (h : p.current < p.tokens.length) : Parser.Within p p :=
  ⟨rfl, Nat.le_refl _, h⟩

theorem Parser.Within.next {a b c : Parser} (h1 : Parser.Within a b) (h2 : Parser.Within b c) :
    Parser.Within a c :=
  ⟨h2.tokens.trans h1.tokens, Nat.le_trans h1.current h2.current, h2.inside⟩

theorem Parser.Within.len {a b : Parser} (h : Parser.Within a b) :
    b.tokens.length = a.tokens.length := by
  rw [h.tokens]

theorem Parser.Within.ready {a b : Parser} (h : Parser.Within a b) (ha : endsInEOF a.tokens) :
    b.ready :=
  ⟨h.tokens ▸ ha, h.inside⟩

/-- Recording an error moves nothing. -/
theorem Parser.Within.error {a b : Parser} (h : Parser.Within a b) (t : Token) (m : String) :
    Parser.Within a (b.error t m) :=
  ⟨h.tokens, h.current, h.inside⟩

/-- Allocating a node identity moves nothing. -/
theorem Parser.Within.alloc {a b : Parser} (h : Parser.Within a b) (k : Nat) :
    Parser.Within a { b with nextId := k } :=
  ⟨h.tokens, h.current, h.inside⟩

/-- The token at the position of a ready parser; a token other than EOF is not the last. -/
theorem Parser.ready_token {p : Parser} (h : p.ready) :
    ∃ t, p.tokens[p.current]? = some t ∧
      (t.type ≠ TokenType.EOF → p.current + 1 < p.tokens.length) := by
  obtain ⟨⟨before, eof, htok, heof⟩, hin⟩ := h
  refine ⟨p.tokens[p.current], List.getElem?_eq_getElem hin, fun hne => ?_⟩
  by_contra hlast
  have hlen : p.tokens.length = before.length + 1 := by rw [htok]; simp
  have hcur : p.current = before.length := by omega
  apply hne
  have : p.tokens[p.current]? = some eof := by
    rw [htok, hcur]
    simp
  rw [List.getElem?_eq_getElem hin] at this
  cases this
  exact heof

theorem PRes.within_of {α : Type} {res : PRes α} {p0 p : Parser} {s s' : Bool}
    (h : res.within p s) (hw : Parser.Within p0 p)
    (hs : s' = true → s = true ∨ p0.current < p.current) : res.within p0 s' := by
  cases res with
  | ok a p1 =>
    obtain ⟨h1, h2⟩ := h
    refine ⟨hw.next h1, fun hs' => ?_⟩
    rcases hs hs' with h3 | h3
    · exact Nat.lt_of_le_of_lt hw.current (h2 h3)
    · exact Nat.lt_of_lt_of_le h3 h1.current
  | err p1 => exact hw.next h
  | panic m => exact h
  | outOfFuel => exact h

/-- Sequencing after a call that returns within the list. -/
theorem PRes.within_bind {α β : Type} {x : PRes α} {f : α → Parser → PRes β} {p0 p : Parser}
    {b s : Bool} (hw : Parser.Within p0 p) (hx : x.within p b)
    (hf : ∀ a p1, Parser.Within p0 p1 → p.current ≤ p1.current →
      (b = true → p.current < p1.current) → (f a p1).within p0 s) :
    (x.bind f).within p0 s := by
  cases x with
  | ok a p1 => exact hf a p1 (hw.next hx.1) hx.1.current hx.2
  | err p1 => exact hw.next hx
  | panic m => exact hx
  | outOfFuel => exact hx

theorem Parser.match_within {α : Type} {p0 p : Parser} {s : Bool} (types : List TokenType)
    (f : Bool → Parser → PRes α) (heof : endsInEOF p0.tokens) (hw : Parser.Within p0 p)
    (htrue : ∀ p1, Parser.Within p0 p1 → p1.current = p.current + 1 →
      (f true p1).within p0 s)
    (hfalse : (f false p).within p0 s) : ((Parser.match p types).bind f).within p0 s := by
  obtain ⟨t, ht, hnext⟩ := Parser.ready_token (hw.ready heof)
  by_cases he : t.type = TokenType.EOF
  · rw [Parser.match_at_eof ht he]
    exact hfalse
  · by_cases hm : t.type ∈ types
    · rw [Parser.match_at_pos ht he types hm]
      exact htrue _ ⟨hw.tokens, Nat.le_succ_of_le hw.current, hnext he⟩ rfl
    · rw [Parser.match_at_neg ht types hm]
      exact hfalse

theorem Parser.consume_within {α : Type} {p0 p : Parser} {s : Bool} (ty : TokenType)
    (message : String) (f : Token → Parser → PRes α) (heof : endsInEOF p0.tokens)
    (hw : Parser.Within p0 p)
    (hok : ∀ t p1, Parser.Within p0 p1 → p1.current = p.current + 1 →
      (f t p1).within p0 s) :
    ((p.consume ty message).bind f).within p0 s := by
  obtain ⟨t, ht, hnext⟩ := Parser.ready_token (hw.ready heof)
  by_cases he : t.type = TokenType.EOF
  · rw [Parser.consume_at_eof ht ty message he]
    exact hw.error t message
  · by_cases hty : t.type = ty
    · rw [Parser.consume_at_pos ht he ty message hty]
      exact hok _ _ ⟨hw.tokens, Nat.le_succ_of_le hw.current, hnext he⟩ rfl
    · rw [Parser.consume_at_neg ht ty message hty]
      exact hw.error t message

theorem Parser.check_within {α : Type} {p0 p : Parser} {s : Bool} (ty : TokenType)
    (f : Bool → Parser → PRes α) (heof : endsInEOF p0.tokens) (hw : Parser.Within p0 p)
    (h : ∀ b, (f b p).within p0 s) : ((p.check ty).bind f).within p0 s := by
  obtain ⟨t, ht, _⟩ := Parser.ready_token (hw.ready heof)
  rw [Parser.check_at ht]
  exact h _

theorem Parser.isAtEnd_within {α : Type} {p0 p : Parser} {s : Bool}
    (f : Bool → Parser → PRes α) (heof : endsInEOF p0.tokens) (hw : Parser.Within p0 p)
    (h : ∀ b, (b = false → ∃ u, p.tokens[p.current]? = some u ∧ u.type ≠ TokenType.EOF) →
      (f b p).within p0 s) :
    (p.isAtEnd.bind f).within p0 s := by
  obtain ⟨t, ht, hnext⟩ := Parser.ready_token (hw.ready heof)
  rw [Parser.isAtEnd_at ht]
  exact h _ (fun hb => ⟨t, ht, by simpa using hb⟩)

theorem Parser.peek_within {α : Type} {p0 p : Parser} {s : Bool}
    (f : Token → Parser → PRes α) (heof : endsInEOF p0.tokens) (hw : Parser.Within p0 p)
    (h : ∀ t, (f t p).within p0 s) : (p.peek.bind f).within p0 s := by
  obtain ⟨t, ht, _⟩ := Parser.ready_token (hw.ready heof)
  rw [Parser.peek_at ht]
  exact h _

theorem Parser.previous_within {α : Type} {p0 p : Parser} {s : Bool}
    (f : Token → Parser → PRes α) (hw : Parser.Within p0 p) (h1 : 1 ≤ p.current)
    (h : ∀ t, (f t p).within p0 s) : (p.previous.bind f).within p0 s := by
  have hin := hw.inside
  have hlt : p.current - 1 < p.tokens.length := by omega
  have : p.previous = .ok p.tokens[p.current - 1] p := by
    unfold Parser.previous
    rw [if_neg (by omega), List.getElem?_eq_getElem hlt]
  rw [this]
  exact h _

/-- The end of a method: a value is returned. -/
theorem PRes.within_ok {α : Type} {p0 p : Parser} {s : Bool} (a : α)
    (hw : Parser.Within p0 p) (hs : s = true → p0.current < p.current) :
    (PRes.ok a p).within p0 s :=
  ⟨hw, hs⟩

theorem PRes.within_value {α : Type} {p0 p : Parser} (a : α) (hw : Parser.Within p0 p) :
    (PRes.ok a p).within p0 false :=
  ⟨hw, fun h => by cases h⟩

/-- Fuel for a call made before a token is consumed. -/
theorem Parser.fuel_same {p0 p1 : Parser} {l0 l1 n : Nat} (hw : Parser.Within p0 p1)
    (hf : p0.fuelFor l0 ≤ n + 1) (hl : l1 + 1 ≤ l0) : p1.fuelFor l1 ≤ n := by
  have h1 := hw.len
  have h2 := hw.current
  have h3 := hw.inside
  simp only [Parser.fuelFor] at hf ⊢
  omega

/-- Fuel for a call made after a token was consumed. -/
theorem Parser.fuel_next {p0 p1 : Parser} {l0 l1 n : Nat} (hw : Parser.Within p0 p1)
    (hlt : p0.current < p1.current) (hf : p0.fuelFor l0 ≤ n + 1) (hl : l1 ≤ 19 + l0) :
    p1.fuelFor l1 ≤ n := by
  have h1 := hw.len
  have h3 := hw.inside
  simp only [Parser.fuelFor] at hf ⊢
  omega

theorem Parser.primary_within {n : Nat} (ih : Parser.ExprWithin n) (p : Parser) (hr : p.ready)
    (hf : p.fuelFor 1 ≤ n + 1) : (Parser.primary (n + 1) p).within p false := by
  have heof := hr.1
  have hw := Parser.Within.here hr.2
  simp only [Parser.primary]
  refine Parser.match_within _ _ heof hw (fun p1 hw1 h1 => ?_) ?_
  · exact PRes.within_value _ hw1
  simp only [Bool.false_eq_true, if_false]
  refine Parser.match_within _ _ heof hw (fun p1 hw1 h1 => ?_) ?_
  · exact PRes.within_value _ hw1
  simp only [Bool.false_eq_true, if_false]
  refine Parser.match_within _ _ heof hw (fun p1 hw1 h1 => ?_) ?_
  · exact PRes.within_value _ hw1
  simp only [Bool.false_eq_true, if_false]
  refine Parser.match_within _ _ heof hw (fun p1 hw1 h1 => ?_) ?_
  · exact Parser.previous_within _ hw1 (by omega) (fun t => PRes.within_value _ hw1)
  simp only [Bool.false_eq_true, if_false]
  refine Parser.match_within _ _ heof hw (fun p1 hw1 h1 => ?_) ?_
  · refine Parser.previous_within _ hw1 (by omega) (fun keyword => ?_)
    refine Parser.consume_within _ _ _ heof hw1 (fun _ p2 hw2 h2 => ?_)
    refine Parser.consume_within _ _ _ heof hw2 (fun method p3 hw3 h3 => ?_)
    exact PRes.within_value _ (hw3.alloc _)
  simp only [Bool.false_eq_true, if_false]
  refine Parser.match_within _ _ heof hw (fun p1 hw1 h1 => ?_) ?_
  · refine Parser.previous_within _ hw1 (by omega) (fun keyword => ?_)
    exact PRes.within_value _ (hw1.alloc _)
  simp only [Bool.false_eq_true, if_false]
  refine Parser.match_within _ _ heof hw (fun p1 hw1 h1 => ?_) ?_
  · refine Parser.previous_within _ hw1 (by omega) (fun name => ?_)
    exact PRes.within_value _ (hw1.alloc _)
  simp only [Bool.false_eq_true, if_false]
  refine Parser.match_within _ _ heof hw (fun p1 hw1 h1 => ?_) ?_
  · refine PRes.within_bind hw1 (ih.expression p1 (hw1.ready heof)
      (Parser.fuel_next hw1 (by omega) hf (by decide))) (fun e p2 hw2 _ _ => ?_)
    refine Parser.consume_within _ _ _ heof hw2 (fun _ p3 hw3 h3 => ?_)
    exact PRes.within_value _ hw3
  simp only [Bool.false_eq_true, if_false]
  exact Parser.peek_within _ heof hw (fun t => PRes.within_value _ (hw.error _ _))

theorem Parser.argumentsLoop_within {n : Nat} (ih : Parser.ExprWithin n) (p : Parser)
    (arguments : List Expr) (hr : p.ready) (hf : p.fuelFor 12 ≤ n + 1) :
    (Parser.argumentsLoop (n + 1) arguments p).within p false := by
  have heof := hr.1
  have hw := Parser.Within.here hr.2
  simp only [Parser.argumentsLoop]
  have hrest : ∀ p0 : Parser, Parser.Within p p0 →
      ((Parser.expression n p0).bind fun argument p =>
        (Parser.match p [TokenType.COMMA]).bind fun more p =>
          if more = true then Parser.argumentsLoop n (arguments ++ [argument]) p
          else PRes.ok (arguments ++ [argument]) p).within p false := by
    intro p0 hw0
    refine PRes.within_bind hw0 (ih.expression p0 (hw0.ready heof)
      (Parser.fuel_same hw0 hf (by decide))) (fun argument p1 hw1 h1 _ => ?_)
    refine Parser.match_within _ _ heof hw1 (fun p2 hw2 h2 => ?_) ?_
    · exact PRes.within_of (ih.argumentsLoop p2 _ (hw2.ready heof)
        (Parser.fuel_next hw2 (by have := hw0.current; omega) hf (by decide))) hw2
        (fun h => by cases h)
    · exact PRes.within_value _ hw1
  refine PRes.within_bind hw (b := false) ?_ (fun _ p0 hw0 _ _ => hrest p0 hw0)
  split
  · exact Parser.peek_within _ heof hw (fun t => PRes.within_value _ (hw.error _ _))
  · exact PRes.within_value _ hw

theorem Parser.finishCall_within {n : Nat} (ih : Parser.ExprWithin n) (p : Parser)
    (callee : Expr) (hr : p.ready) (hf : p.fuelFor 13 ≤ n + 1) :
    (Parser.finishCall (n + 1) callee p).within p true := by
  have heof := hr.1
  have hw := Parser.Within.here hr.2
  simp only [Parser.finishCall]
  refine Parser.check_within _ _ heof hw (fun c => ?_)
  have hargs : (if (!c) = true then Parser.argumentsLoop n [] p else PRes.ok [] p).within p false := by
    split
    · exact ih.argumentsLoop p _ hr (Parser.fuel_same hw hf (by decide))
    · exact PRes.within_value _ hw
  refine PRes.within_bind hw hargs (fun arguments p1 hw1 h1 _ => ?_)
  refine Parser.consume_within _ _ _ heof hw1 (fun paren p2 hw2 h2 => ?_)
  exact PRes.within_ok _ hw2 (fun _ => by omega)

theorem Parser.callLoop_within {n : Nat} (ih : Parser.ExprWithin n) (p : Parser) (expr : Expr)
    (hr : p.ready) (hf : p.fuelFor 1 ≤ n + 1) :
    (Parser.callLoop (n + 1) expr p).within p false := by
  have heof := hr.1
  have hw := Parser.Within.here hr.2
  simp only [Parser.callLoop]
  refine Parser.match_within _ _ heof hw (fun p1 hw1 h1 => ?_) ?_
  · refine PRes.within_bind hw1 (ih.finishCall p1 _ (hw1.ready heof)
      (Parser.fuel_next hw1 (by omega) hf (by decide))) (fun e p2 hw2 h2 _ => ?_)
    exact PRes.within_of (ih.callLoop p2 _ (hw2.ready heof)
      (Parser.fuel_next hw2 (by omega) hf (by decide))) hw2 (fun h => by cases h)
  simp only [Bool.false_eq_true, if_false]
  refine Parser.match_within _ _ heof hw (fun p1 hw1 h1 => ?_) ?_
  · refine Parser.consume_within _ _ _ heof hw1 (fun name p2 hw2 h2 => ?_)
    exact PRes.within_of (ih.callLoop p2 _ (hw2.ready heof)
      (Parser.fuel_next hw2 (by omega) hf (by decide))) hw2 (fun h => by cases h)
  · exact PRes.within_value _ hw

theorem Parser.call_within {n : Nat} (ih : Parser.ExprWithin n) (p : Parser) (hr : p.ready)
    (hf : p.fuelFor 2 ≤ n + 1) : (Parser.call (n + 1) p).within p false := by
  have heof := hr.1
  have hw := Parser.Within.here hr.2
  simp only [Parser.call]
  refine PRes.within_bind hw (ih.primary p hr (Parser.fuel_same hw hf (by decide)))
    (fun expr p1 hw1 h1 _ => ?_)
  exact PRes.within_of (ih.callLoop p1 _ (hw1.ready heof)
    (Parser.fuel_same hw1 hf (by decide))) hw1 (fun h => by cases h)

theorem Parser.unary_within {n : Nat} (ih : Parser.ExprWithin n) (p : Parser) (hr : p.ready)
    (hf : p.fuelFor 3 ≤ n + 1) : (Parser.unary (n + 1) p).within p false := by
  have heof := hr.1
  have hw := Parser.Within.here hr.2
  simp only [Parser.unary]
  refine Parser.match_within _ _ heof hw (fun p1 hw1 h1 => ?_) ?_
  · refine Parser.previous_within _ hw1 (by omega) (fun operator => ?_)
    refine PRes.within_bind hw1 (ih.unary p1 (hw1.ready heof)
      (Parser.fuel_next hw1 (by omega) hf (by decide))) (fun right p2 hw2 h2 _ => ?_)
    exact PRes.within_value _ hw2
  · exact ih.call p hr (Parser.fuel_same hw hf (by decide))

theorem Parser.factorLoop_within {n : Nat} (ih : Parser.ExprWithin n) (p : Parser) (expr : Expr)
    (hr : p.ready) (hf : p.fuelFor 1 ≤ n + 1) :
    (Parser.factorLoop (n + 1) expr p).within p false := by
  have heof := hr.1
  have hw := Parser.Within.here hr.2
  simp only [Parser.factorLoop]
  refine Parser.match_within _ _ heof hw (fun p1 hw1 h1 => ?_) ?_
  · refine Parser.previous_within _ hw1 (by omega) (fun operator => ?_)
    refine PRes.within_bind hw1 (ih.unary p1 (hw1.ready heof)
      (Parser.fuel_next hw1 (by omega) hf (by decide))) (fun right p2 hw2 h2 _ => ?_)
    exact PRes.within_of (ih.factorLoop p2 _ (hw2.ready heof)
      (Parser.fuel_next hw2 (by omega) hf (by decide))) hw2 (fun h => by cases h)
  · exact PRes.within_value _ hw

theorem Parser.factor_within {n : Nat} (ih : Parser.ExprWithin n) (p : Parser) (hr : p.ready)
    (hf : p.fuelFor 4 ≤ n + 1) : (Parser.factor (n + 1) p).within p false := by
  have heof := hr.1
  have hw := Parser.Within.here hr.2
  simp only [Parser.factor]
  refine PRes.within_bind hw (ih.unary p hr (Parser.fuel_same hw hf (by decide)))
    (fun expr p1 hw1 h1 _ => ?_)
  exact PRes.within_of (ih.factorLoop p1 _ (hw1.ready heof)
    (Parser.fuel_same hw1 hf (by decide))) hw1 (fun h => by cases h)

theorem Parser.termLoop_within {n : Nat} (ih : Parser.ExprWithin n) (p : Parser) (expr : Expr)
    (hr : p.ready) (hf : p.fuelFor 1 ≤ n + 1) :
    (Parser.termLoop (n + 1) expr p).within p false := by
  have heof := hr.1
  have hw := Parser.Within.here hr.2
  simp only [Parser.termLoop]
  refine Parser.match_within _ _ heof hw (fun p1 hw1 h1 => ?_) ?_
  · refine Parser.previous_within _ hw1 (by omega) (fun operator => ?_)
    refine PRes.within_bind hw1 (ih.factor p1 (hw1.ready heof)
      (Parser.fuel_next hw1 (by omega) hf (by decide))) (fun right p2 hw2 h2 _ => ?_)
    exact PRes.within_of (ih.termLoop p2 _ (hw2.ready heof)
      (Parser.fuel_next hw2 (by omega) hf (by decide))) hw2 (fun h => by cases h)
  · exact PRes.within_value _ hw

theorem Parser.term_within {n : Nat} (ih : Parser.ExprWithin n) (p : Parser) (hr : p.ready)
    (hf : p.fuelFor 5 ≤ n + 1) : (Parser.term (n + 1) p).within p false := by
  have heof := hr.1
  have hw := Parser.Within.here hr.2
  simp only [Parser.term]
  refine PRes.within_bind hw (ih.factor p hr (Parser.fuel_same hw hf (by decide)))
    (fun expr p1 hw1 h1 _ => ?_)
  exact PRes.within_of (ih.termLoop p1 _ (hw1.ready heof)
    (Parser.fuel_same hw1 hf (by decide))) hw1 (fun h => by cases h)

theorem Parser.comparisonLoop_within {n : Nat} (ih : Parser.ExprWithin n) (p : Parser) (expr : Expr)
    (hr : p.ready) (hf : p.fuelFor 1 ≤ n + 1) :
    (Parser.comparisonLoop (n + 1) expr p).within p false := by
  have heof := hr.1
  have hw := Parser.Within.here hr.2
  simp only [Parser.comparisonLoop]
  refine Parser.match_within _ _ heof hw (fun p1 hw1 h1 => ?_) ?_
  · refine Parser.previous_within _ hw1 (by omega) (fun operator => ?_)
    refine PRes.within_bind hw1 (ih.term p1 (hw1.ready heof)
      (Parser.fuel_next hw1 (by omega) hf (by decide))) (fun right p2 hw2 h2 _ => ?_)
    exact PRes.within_of (ih.comparisonLoop p2 _ (hw2.ready heof)
      (Parser.fuel_next hw2 (by omega) hf (by decide))) hw2 (fun h => by cases h)
  · exact PRes.within_value _ hw

theorem Parser.comparison_within {n : Nat} (ih : Parser.ExprWithin n) (p : Parser) (hr : p.ready)
    (hf : p.fuelFor 6 ≤ n + 1) : (Parser.comparison (n + 1) p).within p false := by
  have heof := hr.1
  have hw := Parser.Within.here hr.2
  simp only [Parser.comparison]
  refine PRes.within_bind hw (ih.term p hr (Parser.fuel_same hw hf (by decide)))
    (fun expr p1 hw1 h1 _ => ?_)
  exact PRes.within_of (ih.comparisonLoop p1 _ (hw1.ready heof)
    (Parser.fuel_same hw1 hf (by decide))) hw1 (fun h => by cases h)

theorem Parser.equalityLoop_within {n : Nat} (ih : Parser.ExprWithin n) (p : Parser) (expr : Expr)
    (hr : p.ready) (hf : p.fuelFor 1 ≤ n + 1) :
    (Parser.equalityLoop (n + 1) expr p).within p false := by
  have heof := hr.1
  have hw := Parser.Within.here hr.2
  simp only [Parser.equalityLoop]
  refine Parser.match_within _ _ heof hw (fun p1 hw1 h1 => ?_) ?_
  · refine Parser.previous_within _ hw1 (by omega) (fun operator => ?_)
    refine PRes.within_bind hw1 (ih.comparison p1 (hw1.ready heof)
      (Parser.fuel_next hw1 (by omega) hf (by decide))) (fun right p2 hw2 h2 _ => ?_)
    exact PRes.within_of (ih.equalityLoop p2 _ (hw2.ready heof)
      (Parser.fuel_next hw2 (by omega) hf (by decide))) hw2 (fun h => by cases h)
  · exact PRes.within_value _ hw

theorem Parser.equality_within {n : Nat} (ih : Parser.ExprWithin n) (p : Parser) (hr : p.ready)
    (hf : p.fuelFor 7 ≤ n + 1) : (Parser.equality (n + 1) p).within p false := by
  have heof := hr.1
  have hw := Parser.Within.here hr.2
  simp only [Parser.equality]
  refine PRes.within_bind hw (ih.comparison p hr (Parser.fuel_same hw hf (by decide)))
    (fun expr p1 hw1 h1 _ => ?_)
  exact PRes.within_of (ih.equalityLoop p1 _ (hw1.ready heof)
    (Parser.fuel_same hw1 hf (by decide))) hw1 (fun h => by cases h)

theorem Parser.logic_andLoop_within {n : Nat} (ih : Parser.ExprWithin n) (p : Parser) (expr : Expr)
    (hr : p.ready) (hf : p.fuelFor 1 ≤ n + 1) :
    (Parser.logic_andLoop (n + 1) expr p).within p false := by
  have heof := hr.1
  have hw := Parser.Within.here hr.2
  simp only [Parser.logic_andLoop]
  refine Parser.match_within _ _ heof hw (fun p1 hw1 h1 => ?_) ?_
  · refine Parser.previous_within _ hw1 (by omega) (fun operator => ?_)
    refine PRes.within_bind hw1 (ih.equality p1 (hw1.ready heof)
      (Parser.fuel_next hw1 (by omega) hf (by decide))) (fun right p2 hw2 h2 _ => ?_)
    exact PRes.within_of (ih.logic_andLoop p2 _ (hw2.ready heof)
      (Parser.fuel_next hw2 (by omega) hf (by decide))) hw2 (fun h => by cases h)
  · exact PRes.within_value _ hw

theorem Parser.logic_and_within {n : Nat} (ih : Parser.ExprWithin n) (p : Parser) (hr : p.ready)
    (hf : p.fuelFor 8 ≤ n + 1) : (Parser.logic_and (n + 1) p).within p false := by
  have heof := hr.1
  have hw := Parser.Within.here hr.2
  simp only [Parser.logic_and]
  refine PRes.within_bind hw (ih.equality p hr (Parser.fuel_same hw hf (by decide)))
    (fun expr p1 hw1 h1 _ => ?_)
  exact PRes.within_of (ih.logic_andLoop p1 _ (hw1.ready heof)
    (Parser.fuel_same hw1 hf (by decide))) hw1 (fun h => by cases h)

theorem Parser.logic_orLoop_within {n : Nat} (ih : Parser.ExprWithin n) (p : Parser) (expr : Expr)
    (hr : p.ready) (hf : p.fuelFor 1 ≤ n + 1) :
    (Parser.logic_orLoop (n + 1) expr p).within p false := by
  have heof := hr.1
  have hw := Parser.Within.here hr.2
  simp only [Parser.logic_orLoop]
  refine Parser.match_within _ _ heof hw (fun p1 hw1 h1 => ?_) ?_
  · refine Parser.previous_within _ hw1 (by omega) (fun operator => ?_)
    refine PRes.within_bind hw1 (ih.logic_and p1 (hw1.ready heof)
      (Parser.fuel_next hw1 (by omega) hf (by decide))) (fun right p2 hw2 h2 _ => ?_)
    exact PRes.within_of (ih.logic_orLoop p2 _ (hw2.ready heof)
      (Parser.fuel_next hw2 (by omega) hf (by decide))) hw2 (fun h => by cases h)
  · exact PRes.within_value _ hw

theorem Parser.logic_or_within {n : Nat} (ih : Parser.ExprWithin n) (p : Parser) (hr : p.ready)
    (hf : p.fuelFor 9 ≤ n + 1) : (Parser.logic_or (n + 1) p).within p false := by
  have heof := hr.1
  have hw := Parser.Within.here hr.2
  simp only [Parser.logic_or]
  refine PRes.within_bind hw (ih.logic_and p hr (Parser.fuel_same hw hf (by decide)))
    (fun expr p1 hw1 h1 _ => ?_)
  exact PRes.within_of (ih.logic_orLoop p1 _ (hw1.ready heof)
    (Parser.fuel_same hw1 hf (by decide))) hw1 (fun h => by cases h)

theorem Parser.assignment_within {n : Nat} (ih : Parser.ExprWithin n) (p : Parser)
    (hr : p.ready) (hf : p.fuelFor 10 ≤ n + 1) :
    (Parser.assignment (n + 1) p).within p false := by
  have heof := hr.1
  have hw := Parser.Within.here hr.2
  simp only [Parser.assignment]
  refine PRes.within_bind hw (ih.logic_or p hr (Parser.fuel_same hw hf (by decide)))
    (fun expr p1 hw1 h1 _ => ?_)
  refine Parser.match_within _ _ heof hw1 (fun p2 hw2 h2 => ?_) ?_
  · refine Parser.previous_within _ hw2 (by omega) (fun equals => ?_)
    refine PRes.within_bind hw2 (ih.assignment p2 (hw2.ready heof)
      (Parser.fuel_next hw2 (by omega) hf (by decide))) (fun value p3 hw3 h3 _ => ?_)
    split
    · exact PRes.within_value _ hw3
    · exact PRes.within_value _ (hw3.alloc _)
    · exact PRes.within_value _ (hw3.error _ _)
  · exact PRes.within_value _ hw1

theorem Parser.expression_within {n : Nat} (ih : Parser.ExprWithin n) (p : Parser)
    (hr : p.ready) (hf : p.fuelFor 11 ≤ n + 1) :
    (Parser.expression (n + 1) p).within p false := by
  simp only [Parser.expression]
  exact ih.assignment p hr (Parser.fuel_same (Parser.Within.here hr.2) hf (by decide))

theorem Parser.fuelFor_pos (level : Nat) (p : Parser) (hl : 1 ≤ level) : ¬ p.fuelFor level ≤ 0 := by
  simp only [Parser.fuelFor]
  omega

/-- With enough fuel every method for expressions returns, inside the token list. -/
theorem Parser.exprWithin : ∀ n : Nat, Parser.ExprWithin n
  | 0 =>
    { primary := fun p _ hf => absurd hf (Parser.fuelFor_pos _ p (by decide))
      argumentsLoop := fun p _ _ hf => absurd hf (Parser.fuelFor_pos _ p (by decide))
      finishCall := fun p _ _ hf => absurd hf (Parser.fuelFor_pos _ p (by decide))
      callLoop := fun p _ _ hf => absurd hf (Parser.fuelFor_pos _ p (by decide))
      call := fun p _ hf => absurd hf (Parser.fuelFor_pos _ p (by decide))
      unary := fun p _ hf => absurd hf (Parser.fuelFor_pos _ p (by decide))
      factorLoop := fun p _ _ hf => absurd hf (Parser.fuelFor_pos _ p (by decide))
      factor := fun p _ hf => absurd hf (Parser.fuelFor_pos _ p (by decide))
      termLoop := fun p _ _ hf => absurd hf (Parser.fuelFor_pos _ p (by decide))
      term := fun p _ hf => absurd hf (Parser.fuelFor_pos _ p (by decide))
      comparisonLoop := fun p _ _ hf => absurd hf (Parser.fuelFor_pos _ p (by decide))
      comparison := fun p _ hf => absurd hf (Parser.fuelFor_pos _ p (by decide))
      equalityLoop := fun p _ _ hf => absurd hf (Parser.fuelFor_pos _ p (by decide))
      equality := fun p _ hf => absurd hf (Parser.fuelFor_pos _ p (by decide))
      logic_andLoop := fun p _ _ hf => absurd hf (Parser.fuelFor_pos _ p (by decide))
      logic_and := fun p _ hf => absurd hf (Parser.fuelFor_pos _ p (by decide))
      logic_orLoop := fun p _ _ hf => absurd hf (Parser.fuelFor_pos _ p (by decide))
      logic_or := fun p _ hf => absurd hf (Parser.fuelFor_pos _ p (by decide))
      assignment := fun p _ hf => absurd hf (Parser.fuelFor_pos _ p (by decide))
      expression := fun p _ hf => absurd hf (Parser.fuelFor_pos _ p (by decide)) }
  | n + 1 =>
    have ih := Parser.exprWithin n
    { primary := Parser.primary_within ih
      argumentsLoop := Parser.argumentsLoop_within ih
      finishCall := Parser.finishCall_within ih
      callLoop := Parser.callLoop_within ih
      call := Parser.call_within ih
      unary := Parser.unary_within ih
      factorLoop := Parser.factorLoop_within ih
      factor := Parser.factor_within ih
      termLoop := Parser.termLoop_within ih
      term := Parser.term_within ih
      comparisonLoop := Parser.comparisonLoop_within ih
      comparison := Parser.comparison_within ih
      equalityLoop := Parser.equalityLoop_within ih
      equality := Parser.equality_within ih
      logic_andLoop := Parser.logic_andLoop_within ih
      logic_and := Parser.logic_and_within ih
      logic_orLoop := Parser.logic_orLoop_within ih
      logic_or := Parser.logic_or_within ih
      assignment := Parser.assignment_within ih
      expression := Parser.expression_within ih }

/-! ## Statements and declarations stay inside the token list -/

theorem Parser.fuel_mono {p0 p1 : Parser} {l n : Nat} (hw : Parser.Within p0 p1)
    (hf : p0.fuelFor l ≤ n) : p1.fuelFor l ≤ n := by
  have h1 := hw.len
  have h2 := hw.current
  simp only [Parser.fuelFor] at hf ⊢
  omega

theorem PRes.within_weaken {α : Type} {res : PRes α} {p : Parser} {s : Bool}
    (h : res.within p s) : res.within p false := by
  cases res with
  | ok a p1 => exact ⟨h.1, fun h' => by cases h'⟩
  | err p1 => exact h
  | panic m => exact h
  | outOfFuel => exact h

/-- An optional expression: `expression` is called or nil is taken. -/
theorem Parser.optional_within (n : Nat) (c : Bool) (p : Parser) (hr : p.ready)
    (hf : p.fuelFor 11 ≤ n) :
    (if c = true then Parser.expression n p else PRes.ok Expr.nil p).within p false := by
  split
  · exact (Parser.exprWithin n).expression p hr hf
  · exact PRes.within_value _ (Parser.Within.here hr.2)

theorem Parser.printStatement_within (n : Nat) (p : Parser) (hr : p.ready)
    (hf : p.fuelFor 11 ≤ n) : (Parser.printStatement n p).within p true := by
  have heof := hr.1
  have hw := Parser.Within.here hr.2
  simp only [Parser.printStatement]
  refine PRes.within_bind hw ((Parser.exprWithin n).expression p hr hf)
    (fun value p1 hw1 h1 _ => ?_)
  refine Parser.consume_within _ _ _ heof hw1 (fun _ p2 hw2 h2 => ?_)
  exact PRes.within_ok _ hw2 (fun _ => by omega)

theorem Parser.expressionStatement_within (n : Nat) (p : Parser) (hr : p.ready)
    (hf : p.fuelFor 11 ≤ n) : (Parser.expressionStatement n p).within p true := by
  have heof := hr.1
  have hw := Parser.Within.here hr.2
  simp only [Parser.expressionStatement]
  refine PRes.within_bind hw ((Parser.exprWithin n).expression p hr hf)
    (fun value p1 hw1 h1 _ => ?_)
  refine Parser.consume_within _ _ _ heof hw1 (fun _ p2 hw2 h2 => ?_)
  exact PRes.within_ok _ hw2 (fun _ => by omega)

theorem Parser.varDeclaration_within (n : Nat) (p : Parser) (hr : p.ready)
    (hf : p.fuelFor 11 ≤ n) : (Parser.varDeclaration n p).within p true := by
  have heof := hr.1
  have hw := Parser.Within.here hr.2
  simp only [Parser.varDeclaration]
  refine Parser.consume_within _ _ _ heof hw (fun name p1 hw1 h1 => ?_)
  have hinit : ∀ (m : Bool) (p2 : Parser), Parser.Within p p2 → p1.current ≤ p2.current →
      ((if m = true then Parser.expression n p2 else PRes.ok Expr.nil p2).bind
        fun initializer p =>
        (p.consume TokenType.SEMICOLON "Expect ';' after variable declaration.").bind
          fun _ p => PRes.ok (Stmt.VarStmt name initializer) p).within p true := by
    intro m p2 hw2 h2
    refine PRes.within_bind hw2 (Parser.optional_within n m p2 (hw2.ready heof)
      (Parser.fuel_mono hw2 hf)) (fun initializer p3 hw3 h3 _ => ?_)
    refine Parser.consume_within _ _ _ heof hw3 (fun _ p4 hw4 h4 => ?_)
    exact PRes.within_ok _ hw4 (fun _ => by omega)
  refine Parser.match_within _ _ heof hw1 (fun p2 hw2 h2 => ?_) ?_
  · exact hinit true p2 hw2 (by omega)
  · exact hinit false p1 hw1 (Nat.le_refl _)

theorem Parser.returnStatement_within (n : Nat) (p : Parser) (hr : p.ready)
    (h1 : 1 ≤ p.current) (hf : p.fuelFor 11 ≤ n) :
    (Parser.returnStatement n p).within p false := by
  have heof := hr.1
  have hw := Parser.Within.here hr.2
  simp only [Parser.returnStatement]
  refine Parser.previous_within _ hw h1 (fun keyword => ?_)
  refine Parser.check_within _ _ heof hw (fun c => ?_)
  refine PRes.within_bind hw (Parser.optional_within n (!c) p hr hf)
    (fun value p1 hw1 _ _ => ?_)
  refine Parser.consume_within _ _ _ heof hw1 (fun _ p2 hw2 h2 => ?_)
  exact PRes.within_value _ hw2

theorem Parser.parametersLoop_within : ∀ (m : Nat) (parameters : List Token) (p : Parser),
    p.ready → p.tokens.length - p.current < m →
    (Parser.parametersLoop m parameters p).within p true
  | 0, _, _, _, hm => by omega
  | m + 1, parameters, p, hr, hm => by
    have heof := hr.1
    have hw := Parser.Within.here hr.2
    simp only [Parser.parametersLoop]
    refine PRes.within_bind hw (b := false) ?_ (fun _ p0 hw0 h0 _ => ?_)
    · split
      · exact Parser.peek_within _ heof hw (fun t => PRes.within_value _ (hw.error _ _))
      · exact PRes.within_value _ hw
    · refine Parser.consume_within _ _ _ heof hw0 (fun param p1 hw1 h1 => ?_)
      refine Parser.match_within _ _ heof hw1 (fun p2 hw2 h2 => ?_) ?_
      · refine PRes.within_of (Parser.parametersLoop_within m _ p2 (hw2.ready heof) ?_) hw2
          (fun _ => Or.inl rfl)
        have := hw2.len
        have := hw2.inside
        omega
      · exact PRes.within_ok _ hw1 (fun _ => by omega)

/-- The method `advance` from a position that is not the first: it moves one token on,
unless the token is EOF. -/
theorem Parser.advance_within {α : Type} {p0 p : Parser} {s : Bool}
    (f : Token → Parser → PRes α) (heof : endsInEOF p0.tokens) (hw : Parser.Within p0 p)
    (h1 : 1 ≤ p.current)
    (h : ∀ t p1, Parser.Within p0 p1 → p.current ≤ p1.current →
      ((∃ u, p.tokens[p.current]? = some u ∧ u.type ≠ TokenType.EOF) →
        p1.current = p.current + 1) → (f t p1).within p0 s) :
    (p.advance.bind f).within p0 s := by
  obtain ⟨t, ht, hnext⟩ := Parser.ready_token (hw.ready heof)
  by_cases he : t.type = TokenType.EOF
  · have hlt : p.current - 1 < p.tokens.length := by
      have := hw.inside
      omega
    have : p.advance = .ok p.tokens[p.current - 1] p := by
      simp only [Parser.advance, Parser.isAtEnd_at ht, PRes.bind, he, beq_self_eq_true,
        Bool.not_true, Bool.false_eq_true, if_false, Parser.previous]
      rw [if_neg (by omega), List.getElem?_eq_getElem hlt]
    rw [this]
    refine h _ p hw (Nat.le_refl _) (fun hx => ?_)
    obtain ⟨u, hu, hne⟩ := hx
    rw [ht] at hu
    cases hu
    exact absurd he hne
  · rw [Parser.advance_at ht he]
    exact h _ _ ⟨hw.tokens, Nat.le_succ_of_le hw.current, hnext he⟩ (Nat.le_succ _)
      (fun _ => rfl)

theorem Parser.synchronizeLoop_within : ∀ (m : Nat) (p : Parser), p.ready → 1 ≤ p.current →
    p.tokens.length - p.current < m → (Parser.synchronizeLoop m p).within p false
  | 0, _, _, _, hm => by omega
  | m + 1, p, hr, h1, hm => by
    have heof := hr.1
    have hw := Parser.Within.here hr.2
    simp only [Parser.synchronizeLoop]
    refine Parser.isAtEnd_within _ heof hw (fun atEnd hb => ?_)
    split
    · exact PRes.within_value _ hw
    · rename_i hne
      have hb' := hb (by simpa using hne)
      refine Parser.previous_within _ hw h1 (fun prev => ?_)
      split
      · exact PRes.within_value _ hw
      · refine Parser.peek_within _ heof hw (fun t => ?_)
        split
        · exact PRes.within_value _ hw
        · refine Parser.advance_within _ heof hw h1 (fun _ p1 hw1 hle hstep => ?_)
          have hcur : p1.current = p.current + 1 := hstep hb'
          refine PRes.within_of (Parser.synchronizeLoop_within m p1 (hw1.ready heof)
            (by omega) ?_) hw1 (fun h => by cases h)
          have := hw1.len
          have := hr.2
          omega

/-- The method `synchronize`, called after a token was consumed, returns inside the
token list; it consumes at least one token unless the parser is at EOF. -/
theorem Parser.synchronize_within (p : Parser) (hr : p.ready) (h1 : 1 ≤ p.current) :
    p.synchronize.within p false ∧
    ((∃ u, p.tokens[p.current]? = some u ∧ u.type ≠ TokenType.EOF) →
      p.synchronize.within p true) ∧
    ((∃ u, p.tokens[p.current]? = some u ∧ u.type = TokenType.EOF) →
      ∃ p', p.synchronize = PRes.ok () p' ∧ p'.current = p.current) := by
  have heof := hr.1
  have hw := Parser.Within.here hr.2
  have hloop : ∀ p1 : Parser, Parser.Within p p1 →
      (Parser.synchronizeLoop (p1.tokens.length + 1) p1).within p1 false := by
    intro p1 hw1
    refine Parser.synchronizeLoop_within _ p1 (hw1.ready heof) ?_ (by omega)
    have := hw1.current
    omega
  refine ⟨?_, fun hne => ?_, fun hat => ?_⟩
  · simp only [Parser.synchronize]
    refine Parser.advance_within _ heof hw h1 (fun _ p1 hw1 hle hstep => ?_)
    exact PRes.within_of (hloop p1 hw1) hw1 (fun h => by cases h)
  · simp only [Parser.synchronize]
    refine Parser.advance_within _ heof hw h1 (fun _ p1 hw1 hle hstep => ?_)
    have hcur := hstep hne
    exact PRes.within_of (hloop p1 hw1) hw1 (fun _ => Or.inr (by omega))
  · obtain ⟨u, hu, he⟩ := hat
    have hlt : p.current - 1 < p.tokens.length := by
      have := hr.2
      omega
    have hadv : p.advance = .ok p.tokens[p.current - 1] p := by
      simp only [Parser.advance, Parser.isAtEnd_at hu, PRes.bind, he, beq_self_eq_true,
        Bool.not_true, Bool.false_eq_true, if_false, Parser.previous]
      rw [if_neg (by omega), List.getElem?_eq_getElem hlt]
    refine ⟨p, ?_, rfl⟩
    simp only [Parser.synchronize, hadv, PRes.bind, Parser.synchronizeLoop,
      Parser.isAtEnd_at hu, he, beq_self_eq_true, if_true]

theorem Parser.block_within {n : Nat} (ih : Parser.StmtWithin n) (p : Parser) (hr : p.ready)
    (h1 : 1 ≤ p.current) (hf : p.fuelFor 15 ≤ n + 1) :
    (Parser.block (n + 1) p).within p true := by
  have heof := hr.1
  have hw := Parser.Within.here hr.2
  simp only [Parser.block]
  refine PRes.within_bind hw (ih.blockLoop p [] hr h1 (Parser.fuel_same hw hf (by decide)))
    (fun statements p1 hw1 _ _ => ?_)
  refine Parser.consume_within _ _ _ heof hw1 (fun _ p2 hw2 h2 => ?_)
  exact PRes.within_ok _ hw2 (fun _ => by omega)

theorem Parser.blockLoop_within {n : Nat} (ih : Parser.StmtWithin n) (p : Parser)
    (statements : List Stmt) (hr : p.ready) (h1 : 1 ≤ p.current)
    (hf : p.fuelFor 14 ≤ n + 1) :
    (Parser.blockLoop (n + 1) statements p).within p false := by
  have heof := hr.1
  have hw := Parser.Within.here hr.2
  simp only [Parser.blockLoop]
  refine Parser.check_within _ _ heof hw (fun c => ?_)
  refine Parser.isAtEnd_within _ heof hw (fun atEnd hb => ?_)
  split
  · rename_i hcond
    have hne : atEnd = false := by
      simp only [Bool.and_eq_true, Bool.not_eq_true'] at hcond
      exact hcond.2
    obtain ⟨u, hu, hue⟩ := hb hne
    have hd := ih.declaration p hr (Parser.fuel_same hw hf (by decide))
    generalize Parser.declaration n p = x at hd
    cases x with
    | ok stmt p1 =>
      exact PRes.within_of (ih.blockLoop p1 _ (hd.1.ready heof)
        (by have := hd.1.current; omega)
        (Parser.fuel_next hd.1 (hd.2 rfl) hf (by decide))) hd.1 (fun h => by cases h)
    | err p1 =>
      have hw1 : Parser.Within p p1 := hd
      have hs := Parser.synchronize_within p1 (hw1.ready heof)
        (by have := hw1.current; omega)
      by_cases hmoved : p.current < p1.current
      · refine PRes.within_bind hw1 hs.1 (fun _ p2 hw2 h2 _ => ?_)
        exact PRes.within_of (ih.blockLoop p2 _ (hw2.ready heof)
          (by have := hw2.current; omega)
          (Parser.fuel_next hw2 (by omega) hf (by decide))) hw2 (fun h => by cases h)
      · have hsame : p1.current = p.current := by
          have := hw1.current
          omega
        have hu1 : p1.tokens[p1.current]? = some u := by
          rw [hw1.tokens, hsame]
          exact hu
        refine PRes.within_bind hw1 (hs.2.1 ⟨u, hu1, hue⟩) (fun _ p2 hw2 h2 hlt => ?_)
        exact PRes.within_of (ih.blockLoop p2 _ (hw2.ready heof)
          (by have := hw2.current; omega)
          (Parser.fuel_next hw2 (by have := hlt rfl; omega) hf (by decide))) hw2
          (fun h => by cases h)
    | panic m => exact hd.elim
    | outOfFuel => exact hd.elim
  · exact PRes.within_value _ hw

theorem Parser.ifStatement_within {n : Nat} (ih : Parser.StmtWithin n) (p : Parser)
    (hr : p.ready) (hf : p.fuelFor 1 ≤ n + 1) :
    (Parser.ifStatement (n + 1) p).within p true := by
  have heof := hr.1
  have hw := Parser.Within.here hr.2
  simp only [Parser.ifStatement]
  refine Parser.consume_within _ _ _ heof hw (fun _ p1 hw1 h1 => ?_)
  refine PRes.within_bind hw1 ((Parser.exprWithin n).expression p1 (hw1.ready heof)
    (Parser.fuel_next hw1 (by omega) hf (by decide))) (fun condition p2 hw2 h2 _ => ?_)
  refine Parser.consume_within _ _ _ heof hw2 (fun _ p3 hw3 h3 => ?_)
  refine PRes.within_bind hw3 (ih.statement p3 (hw3.ready heof)
    (Parser.fuel_next hw3 (by omega) hf (by decide))) (fun thenBranch p4 hw4 h4 _ => ?_)
  have helse : ∀ (m : Bool) (p5 : Parser), Parser.Within p p5 → p4.current ≤ p5.current →
      ((if m = true then Parser.statement n p5 else PRes.ok Stmt.nil p5).bind
        fun elseBranch p =>
          PRes.ok (Stmt.IfStmt condition thenBranch elseBranch) p).within p true := by
    intro m p5 hw5 h5
    refine PRes.within_bind hw5 (b := false) ?_ (fun elseBranch p6 hw6 h6 _ => ?_)
    · split
      · exact PRes.within_weaken (ih.statement p5 (hw5.ready heof)
          (Parser.fuel_next hw5 (by omega) hf (by decide)))
      · exact PRes.within_value _ (Parser.Within.here hw5.inside)
    · exact PRes.within_ok _ hw6 (fun _ => by omega)
  refine Parser.match_within _ _ heof hw4 (fun p5 hw5 h5 => ?_) ?_
  · exact helse true p5 hw5 (by omega)
  · exact helse false p4 hw4 (Nat.le_refl _)

theorem Parser.whileStatement_within {n : Nat} (ih : Parser.StmtWithin n) (p : Parser)
    (hr : p.ready) (hf : p.fuelFor 1 ≤ n + 1) :
    (Parser.whileStatement (n + 1) p).within p true := by
  have heof := hr.1
  have hw := Parser.Within.here hr.2
  simp only [Parser.whileStatement]
  refine Parser.consume_within _ _ _ heof hw (fun _ p1 hw1 h1 => ?_)
  refine PRes.within_bind hw1 ((Parser.exprWithin n).expression p1 (hw1.ready heof)
    (Parser.fuel_next hw1 (by omega) hf (by decide))) (fun condition p2 hw2 h2 _ => ?_)
  refine Parser.consume_within _ _ _ heof hw2 (fun _ p3 hw3 h3 => ?_)
  refine PRes.within_bind hw3 (ih.statement p3 (hw3.ready heof)
    (Parser.fuel_next hw3 (by omega) hf (by decide))) (fun body p4 hw4 h4 _ => ?_)
  exact PRes.within_ok _ hw4 (fun _ => by omega)

theorem Parser.forStatement_within {n : Nat} (ih : Parser.StmtWithin n) (p : Parser)
    (hr : p.ready) (hf : p.fuelFor 1 ≤ n + 1) :
    (Parser.forStatement (n + 1) p).within p true := by
  have heof := hr.1
  have hw := Parser.Within.here hr.2
  simp only [Parser.forStatement]
  refine Parser.consume_within _ _ _ heof hw (fun _ p1 hw1 h1 => ?_)
  have hfuel : ∀ p2 : Parser, Parser.Within p p2 → p1.current ≤ p2.current →
      p2.fuelFor 11 ≤ n :=
    fun p2 hw2 h2 => Parser.fuel_next hw2 (by omega) hf (by decide)
  refine PRes.within_bind hw1 (b := false) ?_ (fun initializer p2 hw2 h2 _ => ?_)
  · have hw11 := Parser.Within.here hw1.inside
    have hr1 := hw1.ready heof
    refine Parser.match_within _ _ hr1.1 hw11 (fun p2 hw2 h2 => ?_) ?_
    · exact PRes.within_value _ hw2
    simp only [Bool.false_eq_true, if_false]
    refine Parser.match_within _ _ hr1.1 hw11 (fun p2 hw2 h2 => ?_) ?_
    · exact PRes.within_of (Parser.varDeclaration_within n p2 (hw2.ready hr1.1)
        (hfuel p2 (hw1.next hw2) hw2.current)) hw2 (fun h => by cases h)
    · exact PRes.within_weaken (Parser.expressionStatement_within n p1 hr1
        (hfuel p1 hw1 (Nat.le_refl _)))
  refine Parser.check_within _ _ heof hw2 (fun c => ?_)
  refine PRes.within_bind hw2 (Parser.optional_within n (!c) p2 (hw2.ready heof)
    (hfuel p2 hw2 h2)) (fun condition p3 hw3 h3 _ => ?_)
  refine Parser.consume_within _ _ _ heof hw3 (fun _ p4 hw4 h4 => ?_)
  refine Parser.check_within _ _ heof hw4 (fun c' => ?_)
  refine PRes.within_bind hw4 (Parser.optional_within n (!c') p4 (hw4.ready heof)
    (hfuel p4 hw4 (by omega))) (fun increment p5 hw5 h5 _ => ?_)
  refine Parser.consume_within _ _ _ heof hw5 (fun _ p6 hw6 h6 => ?_)
  refine PRes.within_bind hw6 (ih.statement p6 (hw6.ready heof)
    (Parser.fuel_next hw6 (by omega) hf (by decide))) (fun body p7 hw7 h7 _ => ?_)
  exact PRes.within_ok _ hw7 (fun _ => by omega)

theorem Parser.function_within {n : Nat} (ih : Parser.StmtWithin n) (p : Parser)
    (kind : String) (hr : p.ready) (hf : p.fuelFor 1 ≤ n + 1) :
    (Parser.function (n + 1) kind p).within p true := by
  have heof := hr.1
  have hw := Parser.Within.here hr.2
  simp only [Parser.function]
  refine Parser.consume_within _ _ _ heof hw (fun name p1 hw1 h1 => ?_)
  refine Parser.consume_within _ _ _ heof hw1 (fun _ p2 hw2 h2 => ?_)
  refine Parser.check_within _ _ heof hw2 (fun c => ?_)
  refine PRes.within_bind hw2 (b := false) ?_ (fun parameters p3 hw3 h3 _ => ?_)
  · split
    · exact PRes.within_weaken (Parser.parametersLoop_within (p2.tokens.length + 1) [] p2
        (hw2.ready heof) (by omega))
    · exact PRes.within_value _ (Parser.Within.here hw2.inside)
  refine Parser.consume_within _ _ _ heof hw3 (fun _ p4 hw4 h4 => ?_)
  refine Parser.consume_within _ _ _ heof hw4 (fun _ p5 hw5 h5 => ?_)
  refine PRes.within_bind hw5 (ih.block p5 (hw5.ready heof) (by omega)
    (Parser.fuel_next hw5 (by omega) hf (by decide))) (fun body p6 hw6 h6 _ => ?_)
  exact PRes.within_ok _ hw6 (fun _ => by omega)

theorem Parser.methodsLoop_within {n : Nat} (ih : Parser.StmtWithin n) (p : Parser)
    (methods : List FunctionStmt) (hr : p.ready) (hf : p.fuelFor 2 ≤ n + 1) :
    (Parser.methodsLoop (n + 1) methods p).within p false := by
  have heof := hr.1
  have hw := Parser.Within.here hr.2
  simp only [Parser.methodsLoop]
  refine Parser.check_within _ _ heof hw (fun c => ?_)
  refine Parser.isAtEnd_within _ heof hw (fun atEnd hb => ?_)
  split
  · refine PRes.within_bind hw (ih.function p "method" hr (Parser.fuel_same hw hf (by decide)))
      (fun method p1 hw1 h1 hlt => ?_)
    exact PRes.within_of (ih.methodsLoop p1 _ (hw1.ready heof)
      (Parser.fuel_next hw1 (hlt rfl) hf (by decide))) hw1 (fun h => by cases h)
  · exact PRes.within_value _ hw

theorem Parser.classDeclaration_within {n : Nat} (ih : Parser.StmtWithin n) (p : Parser)
    (hr : p.ready) (hf : p.fuelFor 1 ≤ n + 1) :
    (Parser.classDeclaration (n + 1) p).within p true := by
  have heof := hr.1
  have hw := Parser.Within.here hr.2
  simp only [Parser.classDeclaration]
  refine Parser.consume_within _ _ _ heof hw (fun name p1 hw1 h1 => ?_)
  have hrest : ∀ (superclass : Option Variable) (p3 : Parser), Parser.Within p p3 →
      p1.current ≤ p3.current →
      ((p3.consume TokenType.LEFT_BRACE "Expect '\x7b' before class body.").bind fun _ p =>
        (Parser.methodsLoop n [] p).bind fun methods p =>
          (p.consume TokenType.RIGHT_BRACE "Expect '\x7d' after class body.").bind fun _ p =>
            PRes.ok (Stmt.ClassStmt name superclass methods) p).within p true := by
    intro superclass p3 hw3 h3
    refine Parser.consume_within _ _ _ heof hw3 (fun _ p4 hw4 h4 => ?_)
    refine PRes.within_bind hw4 (ih.methodsLoop p4 [] (hw4.ready heof)
      (Parser.fuel_next hw4 (by omega) hf (by decide))) (fun methods p5 hw5 h5 _ => ?_)
    refine Parser.consume_within _ _ _ heof hw5 (fun _ p6 hw6 h6 => ?_)
    exact PRes.within_ok _ hw6 (fun _ => by omega)
  refine Parser.match_within _ _ heof hw1 (fun p2 hw2 h2 => ?_) ?_
  · refine PRes.within_bind hw2 (b := false) ?_
      (fun superclass p3 hw3 h3 _ => hrest superclass p3 hw3 (by omega))
    have hw22 := Parser.Within.here hw2.inside
    have hr2 := hw2.ready heof
    refine Parser.consume_within _ _ _ hr2.1 hw22 (fun _ p3 hw3 h3 => ?_)
    refine Parser.previous_within _ hw3 (by omega) (fun t => ?_)
    exact PRes.within_value _ (hw3.alloc _)
  · exact hrest none p1 hw1 (Nat.le_refl _)

theorem Parser.statement_within {n : Nat} (ih : Parser.StmtWithin n) (p : Parser)
    (hr : p.ready) (hf : p.fuelFor 12 ≤ n + 1) :
    (Parser.statement (n + 1) p).within p true := by
  have heof := hr.1
  have hw := Parser.Within.here hr.2
  simp only [Parser.statement]
  refine Parser.match_within _ _ heof hw (fun p1 hw1 h1 => ?_) ?_
  · exact PRes.within_of (ih.forStatement p1 (hw1.ready heof)
      (Parser.fuel_next hw1 (by omega) hf (by decide))) hw1 (fun _ => Or.inl rfl)
  simp only [Bool.false_eq_true, if_false]
  refine Parser.match_within _ _ heof hw (fun p1 hw1 h1 => ?_) ?_
  · exact PRes.within_of (ih.ifStatement p1 (hw1.ready heof)
      (Parser.fuel_next hw1 (by omega) hf (by decide))) hw1 (fun _ => Or.inl rfl)
  simp only [Bool.false_eq_true, if_false]
  refine Parser.match_within _ _ heof hw (fun p1 hw1 h1 => ?_) ?_
  · exact PRes.within_of (ih.whileStatement p1 (hw1.ready heof)
      (Parser.fuel_next hw1 (by omega) hf (by decide))) hw1 (fun _ => Or.inl rfl)
  simp only [Bool.false_eq_true, if_false]
  refine Parser.match_within _ _ heof hw (fun p1 hw1 h1 => ?_) ?_
  · exact PRes.within_of (Parser.printStatement_within n p1 (hw1.ready heof)
      (Parser.fuel_next hw1 (by omega) hf (by decide))) hw1 (fun _ => Or.inl rfl)
  simp only [Bool.false_eq_true, if_false]
  refine Parser.match_within _ _ heof hw (fun p1 hw1 h1 => ?_) ?_
  · exact PRes.within_of (Parser.returnStatement_within n p1 (hw1.ready heof) (by omega)
      (Parser.fuel_next hw1 (by omega) hf (by decide))) hw1 (fun _ => Or.inr (by omega))
  simp only [Bool.false_eq_true, if_false]
  refine Parser.match_within _ _ heof hw (fun p1 hw1 h1 => ?_) ?_
  · refine PRes.within_bind hw1 (ih.block p1 (hw1.ready heof) (by omega)
      (Parser.fuel_next hw1 (by omega) hf (by decide))) (fun statements p2 hw2 h2 _ => ?_)
    exact PRes.within_ok _ hw2 (fun _ => by omega)
  simp only [Bool.false_eq_true, if_false]
  exact Parser.expressionStatement_within n p hr (Parser.fuel_same hw hf (by decide))

theorem Parser.declaration_within {n : Nat} (ih : Parser.StmtWithin n) (p : Parser)
    (hr : p.ready) (hf : p.fuelFor 13 ≤ n + 1) :
    (Parser.declaration (n + 1) p).within p true := by
  have heof := hr.1
  have hw := Parser.Within.here hr.2
  simp only [Parser.declaration]
  refine Parser.match_within _ _ heof hw (fun p1 hw1 h1 => ?_) ?_
  · exact PRes.within_of (ih.classDeclaration p1 (hw1.ready heof)
      (Parser.fuel_next hw1 (by omega) hf (by decide))) hw1 (fun _ => Or.inl rfl)
  simp only [Bool.false_eq_true, if_false]
  refine Parser.match_within _ _ heof hw (fun p1 hw1 h1 => ?_) ?_
  · refine PRes.within_bind hw1 (ih.function p1 "function" (hw1.ready heof)
      (Parser.fuel_next hw1 (by omega) hf (by decide))) (fun f p2 hw2 h2 _ => ?_)
    exact PRes.within_ok _ hw2 (fun _ => by omega)
  simp only [Bool.false_eq_true, if_false]
  refine Parser.match_within _ _ heof hw (fun p1 hw1 h1 => ?_) ?_
  · exact PRes.within_of (Parser.varDeclaration_within n p1 (hw1.ready heof)
      (Parser.fuel_next hw1 (by omega) hf (by decide))) hw1 (fun _ => Or.inl rfl)
  simp only [Bool.false_eq_true, if_false]
  exact ih.statement p hr (Parser.fuel_same hw hf (by decide))

/-- With enough fuel every method for statements and declarations returns, inside the
token list. -/
theorem Parser.stmtWithin : ∀ n : Nat, Parser.StmtWithin n
  | 0 =>
    { declaration := fun p _ hf => absurd hf (Parser.fuelFor_pos _ p (by decide))
      statement := fun p _ hf => absurd hf (Parser.fuelFor_pos _ p (by decide))
      blockLoop := fun p _ _ _ hf => absurd hf (Parser.fuelFor_pos _ p (by decide))
      block := fun p _ _ hf => absurd hf (Parser.fuelFor_pos _ p (by decide))
      ifStatement := fun p _ hf => absurd hf (Parser.fuelFor_pos _ p (by decide))
      whileStatement := fun p _ hf => absurd hf (Parser.fuelFor_pos _ p (by decide))
      forStatement := fun p _ hf => absurd hf (Parser.fuelFor_pos _ p (by decide))
      function := fun p _ _ hf => absurd hf (Parser.fuelFor_pos _ p (by decide))
      methodsLoop := fun p _ _ hf => absurd hf (Parser.fuelFor_pos _ p (by decide))
      classDeclaration := fun p _ hf => absurd hf (Parser.fuelFor_pos _ p (by decide)) }
  | n + 1 =>
    have ih := Parser.stmtWithin n
    { declaration := Parser.declaration_within ih
      statement := Parser.statement_within ih
      blockLoop := Parser.blockLoop_within ih
      block := Parser.block_within ih
      ifStatement := Parser.ifStatement_within ih
      whileStatement := Parser.whileStatement_within ih
      forStatement := Parser.forStatement_within ih
      function := Parser.function_within ih
      methodsLoop := Parser.methodsLoop_within ih
      classDeclaration := Parser.classDeclaration_within ih }

theorem Parser.parseLoop_within : ∀ (n : Nat) (statements : List Stmt) (p : Parser),
    p.ready → p.fuelFor 14 ≤ n → (Parser.parseLoop n statements p).within p false
  | 0, _, p, _, hf => absurd hf (Parser.fuelFor_pos _ p (by decide))
  | n + 1, statements, p, hr, hf => by
    have heof := hr.1
    have hw := Parser.Within.here hr.2
    simp only [Parser.parseLoop]
    refine Parser.isAtEnd_within _ heof hw (fun atEnd hb => ?_)
    split
    · refine PRes.within_bind hw ((Parser.stmtWithin n).declaration p hr
        (Parser.fuel_same hw hf (by decide))) (fun stmt p1 hw1 h1 hlt => ?_)
      exact PRes.within_of (Parser.parseLoop_within n _ p1 (hw1.ready heof)
        (Parser.fuel_next hw1 (hlt rfl) hf (by decide))) hw1 (fun h => by cases h)
    · exact PRes.within_value _ hw

theorem PRes.bind_ne_err {α β : Type} {x : PRes α} {f : α → Parser → PRes β}
    (hx : ∀ p', x ≠ PRes.err p') (hf : ∀ a p p', f a p ≠ PRes.err p') :
    ∀ p', x.bind f ≠ PRes.err p' := by
  intro p'
  cases x with
  | ok a p => exact hf a p p'
  | err p => exact absurd rfl (hx p)
  | panic m => simp [PRes.bind]
  | outOfFuel => simp [PRes.bind]

theorem Parser.peek_ne_err (p p' : Parser) : p.peek ≠ PRes.err p' := by
  unfold Parser.peek
  split <;> simp

theorem Parser.previous_ne_err (p p' : Parser) : p.previous ≠ PRes.err p' := by
  unfold Parser.previous
  split
  · simp
  · split <;> simp

theorem Parser.isAtEnd_ne_err (p p' : Parser) : p.isAtEnd ≠ PRes.err p' :=
  PRes.bind_ne_err (Parser.peek_ne_err p) (fun _ _ _ => by simp) p'

theorem Parser.advance_ne_err (p p' : Parser) : p.advance ≠ PRes.err p' :=
  PRes.bind_ne_err (Parser.isAtEnd_ne_err p) (fun _ _ _ => Parser.previous_ne_err _ _) p'

theorem Parser.synchronizeLoop_ne_err : ∀ (m : Nat) (p p' : Parser),
    Parser.synchronizeLoop m p ≠ PRes.err p'
  | 0, _, _ => by simp [Parser.synchronizeLoop]
  | m + 1, p, p' => by
    simp only [Parser.synchronizeLoop]
    refine PRes.bind_ne_err (Parser.isAtEnd_ne_err p) (fun atEnd p1 p2 => ?_) p'
    split
    · simp
    · refine PRes.bind_ne_err (Parser.previous_ne_err p1) (fun prev p3 p4 => ?_) p2
      split
      · simp
      · refine PRes.bind_ne_err (Parser.peek_ne_err p3) (fun t p5 p6 => ?_) p4
        split
        · simp
        · exact PRes.bind_ne_err (Parser.advance_ne_err p5)
            (fun _ p7 p8 => Parser.synchronizeLoop_ne_err m p7 p8) p6

/-- The method `synchronize` returns no error. -/
theorem Parser.synchronize_ne_err (p p' : Parser) : p.synchronize ≠ PRes.err p' :=
  PRes.bind_ne_err (Parser.advance_ne_err p)
    (fun _ p1 p2 => Parser.synchronizeLoop_ne_err _ p1 p2) p'

theorem PRes.within_cases {α : Type} {res : PRes α} {p : Parser} {s : Bool}
    (h : res.within p s) :
    (∃ a p', res = PRes.ok a p' ∧ Parser.Within p p' ∧ (s = true → p.current < p'.current)) ∨
    (∃ p', res = PRes.err p' ∧ Parser.Within p p') := by
  cases res with
  | ok a p1 => exact Or.inl ⟨a, p1, rfl, h.1, h.2⟩
  | err p1 => exact Or.inr ⟨p1, rfl, h⟩
  | panic m => exact h.elim
  | outOfFuel => exact h.elim

/-- C39: on a token list that ends in an EOF token, `Parse` returns, a list of
statements or an error, without a panic (an index outside the list) and within the fuel
of the model, with the parser at a position inside the list.  Every call of
`declaration` from a position inside the list, given fuel for the tokens that are left,
returns a statement after consuming at least one token, or returns an error, the
position still inside the list.  `synchronize`, which `block` calls after a token has
been consumed, returns with the position inside the list; it has consumed at least one
token unless the parser was at EOF, where it consumes none. -/
theorem Parse_returns_inside_token_list (tokens : List Token) (errors : Errors)
    (h : endsInEOF tokens) :
    ((∃ statements p', (NewParser tokens errors).Parse = PRes.ok statements p' ∧
        p'.tokens = tokens ∧ p'.current < tokens.length) ∨
      (∃ p', (NewParser tokens errors).Parse = PRes.err p' ∧
        p'.tokens = tokens ∧ p'.current < tokens.length)) ∧
    (∀ (n : Nat) (p : Parser), p.tokens = tokens → p.current < tokens.length →
      p.fuelFor 13 ≤ n →
      (∃ stmt p', Parser.declaration n p = PRes.ok stmt p' ∧ p'.tokens = tokens ∧
        p.current < p'.current ∧ p'.current < tokens.length) ∨
      (∃ p', Parser.declaration n p = PRes.err p' ∧ p'.tokens = tokens ∧
        p.current ≤ p'.current ∧ p'.current < tokens.length)) ∧
    (∀ p : Parser, p.tokens = tokens → p.current < tokens.length → 1 ≤ p.current →
      ∃ p', p.synchronize = PRes.ok () p' ∧ p'.tokens = tokens ∧
        p.current ≤ p'.current ∧ p'.current < tokens.length ∧
        ((∃ u, tokens[p.current]? = some u ∧ u.type ≠ TokenType.EOF) →
          p.current < p'.current) ∧
        ((∃ u, tokens[p.current]? = some u ∧ u.type = TokenType.EOF) →
          p'.current = p.current)) := by
  have hlen : 0 < tokens.length := by
    obtain ⟨before, eof, ht, _⟩ := h
    rw [ht]
    simp
  refine ⟨?_, fun n p ht hc hf => ?_, fun p ht hc h1 => ?_⟩
  · have hr : (NewParser tokens errors).ready := ⟨h, hlen⟩
    have hw := Parser.parseLoop_within (20 * tokens.length + 20) [] (NewParser tokens errors) hr
      (by simp only [Parser.fuelFor, NewParser]; omega)
    rcases PRes.within_cases hw with ⟨a, p', he, hw', _⟩ | ⟨p', he, hw'⟩
    · exact Or.inl ⟨a, p', he, hw'.tokens, hw'.len ▸ hw'.inside⟩
    · exact Or.inr ⟨p', he, hw'.tokens, hw'.len ▸ hw'.inside⟩
  · have hr : p.ready := ⟨ht ▸ h, ht ▸ hc⟩
    rcases PRes.within_cases ((Parser.stmtWithin n).declaration p hr hf) with
      ⟨a, p', he, hw', hs⟩ | ⟨p', he, hw'⟩
    · refine Or.inl ⟨a, p', he, hw'.tokens.trans ht, hs rfl, ?_⟩
      have := hw'.inside
      rw [hw'.tokens, ht] at this
      exact this
    · refine Or.inr ⟨p', he, hw'.tokens.trans ht, hw'.current, ?_⟩
      have := hw'.inside
      rw [hw'.tokens, ht] at this
      exact this
  · have hr : p.ready := ⟨ht ▸ h, ht ▸ hc⟩
    obtain ⟨hs1, hs2, hs3⟩ := Parser.synchronize_within p hr h1
    rcases PRes.within_cases hs1 with ⟨a, p', he, hw', _⟩ | ⟨p', he, hw'⟩
    · have hin := hw'.inside
      rw [hw'.tokens, ht] at hin
      refine ⟨p', he, hw'.tokens.trans ht, hw'.current, hin, fun hne => ?_, fun hat => ?_⟩
      · have := hs2 (ht ▸ hne)
        rw [he] at this
        exact this.2 rfl
      · obtain ⟨p'', he', hcur⟩ := hs3 (ht ▸ hat)
        rw [he] at he'
        cases he'
        exact hcur
    · exact absurd he (Parser.synchronize_ne_err p p')

/-- C39 on the token list that holds only the EOF token. -/
theorem Parse_returns_inside_token_list_witness :
    endsInEOF [sampleToken TokenType.EOF ""] ∧
    ((∃ statements p', (NewParser [sampleToken TokenType.EOF ""] Errors.init).Parse =
        PRes.ok statements p' ∧ p'.tokens = [sampleToken TokenType.EOF ""] ∧
        p'.current < [sampleToken TokenType.EOF ""].length) ∨
      (∃ p', (NewParser [sampleToken TokenType.EOF ""] Errors.init).Parse = PRes.err p' ∧
        p'.tokens = [sampleToken TokenType.EOF ""] ∧
        p'.current < [sampleToken TokenType.EOF ""].length)) :=
  ⟨⟨[], sampleToken TokenType.EOF "", rfl, rfl⟩,
    (Parse_returns_inside_token_list [sampleToken TokenType.EOF ""] Errors.init
      ⟨[], sampleToken TokenType.EOF "", rfl, rfl⟩).1⟩

/-! ## The heap of frames -/

theorem Token.declarable.not_reserved {name : Token} (h : name.declarable) :
    ¬ reservedName name.Lexeme := by
  rintro (h1 | h1)
  · exact h.1 h1
  · exact h.2 h1

theorem Token.word.declarable {name : Token} (h : name.word) : name.declarable := by
  obtain ⟨c, cs, _, _, _, h4⟩ := h
  constructor
  · intro h5
    rw [h5] at h4
    revert h4
    decide
  · intro h5
    rw [h5] at h4
    revert h4
    decide

theorem Grows.grows_same (envs : List Environment) : Grows envs envs :=
  fun _ fr h => ⟨fr, h, rfl, fun _ hx => hx, fun _ _ _ hx => hx⟩

theorem Grows.andGrows {a b c : List Environment} (h1 : Grows a b) (h2 : Grows b c) :
    Grows a c := by
  intro k fr h
  obtain ⟨fr1, h3, h4, h5, h5'⟩ := h1 k fr h
  obtain ⟨fr2, h6, h7, h8, h8'⟩ := h2 k fr1 h3
  exact ⟨fr2, h6, h7.trans h4, fun x hx => h8 x (h5 x hx),
    fun x w hr hx => h8' x w hr (h5' x w hr hx)⟩

theorem Grows.grows_push (envs : List Environment) (fr : Environment) : Grows envs (envs ++ [fr]) := by
  intro k f h
  have hlt : k < envs.length := (List.getElem?_eq_some.1 h).1
  exact ⟨f, by rw [List.getElem?_append_left hlt]; exact h, rfl, fun _ hx => hx,
    fun _ _ _ hx => hx⟩

theorem Map.get_set_ne_none {κ α : Type} [DecidableEq κ] (m : Map κ α) (k x : κ) (v : α)
    (h : Map.get m x ≠ none) : Map.get (Map.set m k v) x ≠ none := by
  by_cases hk : k = x
  · subst hk
    rw [Map.get_set_self]
    simp
  · rw [Map.get_set_ne m k x v hk]
    exact h

theorem Map.get_set_cases {κ α : Type} [DecidableEq κ] (m : Map κ α) (k x : κ) (v w : α)
    (h : Map.get (Map.set m k v) x = some w) : w = v ∨ Map.get m x = some w := by
  by_cases hk : k = x
  · subst hk
    rw [Map.get_set_self] at h
    cases h
    exact Or.inl rfl
  · rw [Map.get_set_ne m k x v hk] at h
    exact Or.inr h

/-- What the update of one frame keeps of every frame: its place, its enclosing frame,
the names it held, and the value of every name but the updated one. -/
theorem setFrame_keeps (envs : List Environment) (env : Nat) (name : String) (v : Value)
    (k : Nat) (fr : Environment) (h : envs[k]? = some fr) :
    ∃ fr' : Environment, (setFrame envs env name v)[k]? = some fr' ∧
      fr'.Enclosing = fr.Enclosing ∧
      (∀ x, Map.get fr.values x ≠ none → Map.get fr'.values x ≠ none) ∧
      (∀ x w, (x ≠ name ∨ (env = k → Map.get fr.values name = none)) →
        Map.get fr.values x = some w → Map.get fr'.values x = some w) := by
  unfold Lox.setFrame
  cases he : envs[env]? with
  | none => exact ⟨fr, h, rfl, fun _ hx => hx, fun _ _ _ hx => hx⟩
  | some f0 =>
    simp only
    have hlt : env < envs.length := (List.getElem?_eq_some.1 he).1
    by_cases hk : env = k
    · subst hk
      rw [he] at h
      cases h
      refine ⟨{ fr with values := Map.set fr.values name v }, ?_, rfl, fun x hx => ?_,
        fun x w hxn hx => ?_⟩
      · simp [List.getElem?_set, hlt]
      · exact Map.get_set_ne_none _ _ _ _ hx
      · by_cases hnx : name = x
        · subst hnx
          rcases hxn with hxn | hxn
          · exact absurd rfl hxn
          · rw [hxn rfl] at hx
            cases hx
        · simp only [Map.get_set_ne _ _ _ _ hnx]
          exact hx
    · refine ⟨fr, ?_, rfl, fun _ hx => hx, fun _ _ _ hx => hx⟩
      rw [List.getElem?_set_ne hk]
      exact h

/-- The update of a frame at a name that is not reserved. -/
theorem Grows.grows_setFrame (envs : List Environment) (env : Nat) {name : String} (v : Value)
    (hn : ¬ reservedName name) : Grows envs (setFrame envs env name v) := by
  intro k fr h
  obtain ⟨fr', h1, h2, h3, h4⟩ := setFrame_keeps envs env name v k fr h
  refine ⟨fr', h1, h2, h3, fun x w hr hx => h4 x w (Or.inl ?_) hx⟩
  rintro rfl
  exact hn hr

/-- The update of a frame that does not hold the name. -/
theorem Grows.setFrame_fresh (envs : List Environment) (env : Nat) (name : String) (v : Value)
    (hf : ∀ fr, envs[env]? = some fr → Map.get fr.values name = none) :
    Grows envs (Lox.setFrame envs env name v) := by
  intro k fr h
  obtain ⟨fr', h1, h2, h3, h4⟩ := setFrame_keeps envs env name v k fr h
  exact ⟨fr', h1, h2, h3, fun x w _ hx => h4 x w (Or.inr fun hk => hf fr (hk ▸ h)) hx⟩

/-- A chain of frames in a heap that keeps the frames, their enclosing frames and the
names they hold. -/
theorem FrameChain.keep {envs envs' : List Environment}
    (hg : ∀ (k : Nat) (fr : Environment), envs[k]? = some fr →
      ∃ fr' : Environment, envs'[k]? = some fr' ∧ fr'.Enclosing = fr.Enclosing ∧
        ∀ name, Map.get fr.values name ≠ none → Map.get fr'.values name ≠ none) :
    ∀ (scopes : List (Map String Bool)) (env : Nat), FrameChain envs env scopes →
      FrameChain envs' env scopes
  | [], _, _ => trivial
  | scope :: rest, env, h => by
    obtain ⟨fr, h1, h2, up, h3, h4⟩ := h
    obtain ⟨fr', h5, h6, h7⟩ := hg env fr h1
    exact ⟨fr', h5, fun x hx => h7 x (h2 x hx), up, h6.trans h3,
      FrameChain.keep hg rest up h4⟩

theorem FrameChain.frameChain_mono {envs envs' : List Environment} (hg : Grows envs envs') :
    ∀ (scopes : List (Map String Bool)) (env : Nat), FrameChain envs env scopes →
      FrameChain envs' env scopes
  | scopes, env, h =>
    FrameChain.keep (fun k fr hk => by
      obtain ⟨fr', h1, h2, h3, _⟩ := hg k fr hk
      exact ⟨fr', h1, h2, h3⟩) scopes env h

/-- The frame of a scope after a name was defined in it. -/
theorem FrameChain.define {envs : List Environment} {env : Nat}
    {scopes : List (Map String Bool)} (h : FrameChain envs env scopes) (name : String)
    (v : Value) : FrameChain (setFrame envs env name v) env (defineTop scopes name) := by
  cases scopes with
  | nil => trivial
  | cons scope rest =>
    obtain ⟨fr, h1, h2, up, h3, h4⟩ := h
    have hlt : env < envs.length := (List.getElem?_eq_some.1 h1).1
    refine ⟨{ fr with values := Map.set fr.values name v }, ?_, fun x hx => ?_, up, h3,
      FrameChain.keep (fun k f hk => by
        obtain ⟨fr', h5, h6, h7, _⟩ := setFrame_keeps envs env name v k f hk
        exact ⟨fr', h5, h6, h7⟩) rest up h4⟩
    · simp [Lox.setFrame, h1, List.getElem?_set, hlt]
    · by_cases hk : name = x
      · subst hk
        rw [Map.get_set_self]
        simp
      · rw [Map.get_set_ne _ _ _ _ hk] at hx
        rw [Map.get_set_ne _ _ _ _ hk]
        exact h2 x hx

/-- A new frame over a chain, for a scope whose names it holds. -/
theorem FrameChain.frameChain_push {envs : List Environment} {env : Nat}
    {scopes : List (Map String Bool)} (h : FrameChain envs env scopes)
    (scope : Map String Bool) (values : Map String Value)
    (hv : ∀ x, Map.get scope x = some true → Map.get values x ≠ none) :
    FrameChain (envs ++ [⟨some env, values⟩]) envs.length (scope :: scopes) :=
  ⟨⟨some env, values⟩, by simp, hv, env, rfl, FrameChain.frameChain_mono (Grows.grows_push envs _) scopes env h⟩

/-- The walk of `ancestor` along a chain of frames. -/
theorem FrameChain.ancestor {envs : List Environment} :
    ∀ (d : Nat) (scopes : List (Map String Bool)) (env : Nat) (scope : Map String Bool),
    FrameChain envs env scopes → scopes[d]? = some scope →
    ∃ a fr, Lox.ancestor envs d (some env) = Out.ok (some a) ∧ envs[a]? = some fr ∧
      ∀ x, Map.get scope x = some true → Map.get fr.values x ≠ none
  | _, [], _, _, _, hd => by simp at hd
  | 0, s :: rest, env, scope, h, hd => by
    obtain ⟨fr, h1, h2, _⟩ := h
    simp only [List.getElem?_cons_zero, Option.some.injEq] at hd
    subst hd
    exact ⟨env, fr, rfl, h1, h2⟩
  | d + 1, s :: rest, env, scope, h, hd => by
    obtain ⟨fr, h1, _, up, h3, h4⟩ := h
    simp only [List.getElem?_cons_succ] at hd
    obtain ⟨a, fa, h5, h6, h7⟩ := FrameChain.ancestor d rest up scope h4 hd
    refine ⟨a, fa, ?_, h6, h7⟩
    simp only [Lox.ancestor, h1, h3]
    exact h5

/-- The lookup at a recorded distance finds the name. -/
theorem FrameChain.GetAt {envs : List Environment} {env d : Nat}
    {scopes : List (Map String Bool)} {scope : Map String Bool} {name : String}
    (h : FrameChain envs env scopes) (hd : scopes[d]? = some scope)
    (hn : Map.get scope name = some true) :
    ∃ v fr, Lox.GetAt envs env d name = Out.ok v ∧ fr ∈ envs ∧
      Map.get fr.values name = some v := by
  obtain ⟨a, fr, h1, h2, h3⟩ := FrameChain.ancestor d scopes env scope h hd
  have hx := h3 name hn
  cases hv : Map.get fr.values name with
  | none => exact absurd hv hx
  | some v =>
    refine ⟨v, fr, ?_, List.getElem?_mem h2, hv⟩
    simp only [Lox.GetAt, h1, h2, hv]

/-- The assignment at a recorded distance finds the name. -/
theorem FrameChain.AssignAt {envs : List Environment} {env d : Nat}
    {scopes : List (Map String Bool)} {scope : Map String Bool} {name : Token}
    (h : FrameChain envs env scopes) (hd : scopes[d]? = some scope)
    (hn : Map.get scope name.Lexeme = some true) (v : Value) :
    ∃ a, Lox.AssignAt envs env d name v = Out.ok (setFrame envs a name.Lexeme v) := by
  obtain ⟨a, fr, h1, h2, h3⟩ := FrameChain.ancestor d scopes env scope h hd
  have hx := h3 name.Lexeme hn
  cases hv : Map.get fr.values name.Lexeme with
  | none => exact absurd hv hx
  | some w =>
    refine ⟨a, ?_⟩
    simp only [Lox.AssignAt, h1, h2, hv]

theorem FunOk.funOk_mono {locals : Map Nat Nat} {envs envs' : List Environment} (hg : Grows envs envs')
    {f : LoxFunction} (h : FunOk locals envs f) : FunOk locals envs' f := by
  obtain ⟨scopes, h1, h2⟩ := h
  exact ⟨scopes, FrameChain.frameChain_mono hg scopes _ h1, h2⟩

theorem MethodOk.methodOk_mono {locals : Map Nat Nat} {envs envs' : List Environment}
    (hg : Grows envs envs') {m : LoxFunction} (h : MethodOk locals envs m) :
    MethodOk locals envs' m := by
  obtain ⟨scopes, h1, h2⟩ := h
  exact ⟨scopes, FrameChain.frameChain_mono hg scopes _ h1, h2⟩

theorem ClassOk.classOk_mono {locals : Map Nat Nat} {envs envs' : List Environment}
    (hg : Grows envs envs') {c : LoxClass} (h : ClassOk locals envs c) :
    ClassOk locals envs' c := by
  intro k hk name m hm
  refine ⟨MethodOk.methodOk_mono hg (h k hk name m hm).1, fun A hA => ?_⟩
  obtain ⟨fr, h1, h2⟩ := (h k hk name m hm).2 A hA
  obtain ⟨fr', h3, _, _, h4⟩ := hg _ fr h1
  exact ⟨fr', h3, h4 "super" _ (Or.inr rfl) h2⟩

theorem ValOk.valOk_mono {locals : Map Nat Nat} {envs envs' : List Environment} (hg : Grows envs envs')
    {v : Value} (h : ValOk locals envs v) : ValOk locals envs' v := by
  cases v with
  | function f => exact FunOk.funOk_mono hg h
  | «class» c => exact ClassOk.classOk_mono hg h
  | _ => trivial

/-! ## The heap stays in order -/

/-- Only the side table, the frames and the instances matter. -/
theorem HeapOk.heapOk_of_eq {locals : Map Nat Nat} {i j : Interpreter} (h : HeapOk locals i)
    (h1 : j.locals = i.locals) (h2 : j.envs = i.envs) (h3 : j.instances = i.instances) :
    HeapOk locals j := by
  refine ⟨h1 ▸ h.table, ?_, ?_, ?_, ?_⟩
  · rw [h2]; exact h.frames
  · rw [h2, h3]; exact h.classes
  · rw [h2, h3]; exact h.fields
  · rw [h2]; exact h.reserved

/-- New frames over a heap in order, each value of which is in order. -/
theorem HeapOk.of_grows {locals : Map Nat Nat} {i j : Interpreter} (h : HeapOk locals i)
    (h1 : j.locals = i.locals) (h3 : j.instances = i.instances) (hg : Grows i.envs j.envs)
    (hf : ∀ fr ∈ j.envs, ∀ name v, Map.get fr.values name = some v →
      ValOk locals j.envs v ∧ reservedValue name v ∨
        ∃ fr0 ∈ i.envs, Map.get fr0.values name = some v) :
    HeapOk locals j := by
  refine ⟨h1 ▸ h.table, ?_, ?_, ?_, ?_⟩
  · intro fr hfr name v hv
    rcases hf fr hfr name v hv with h5 | ⟨fr0, h6, h7⟩
    · exact h5.1
    · exact ValOk.valOk_mono hg (h.frames fr0 h6 name v h7)
  · rw [h3]
    exact fun li hli => ClassOk.classOk_mono hg (h.classes li hli)
  · rw [h3]
    exact fun li hli name v hv => ValOk.valOk_mono hg (h.fields li hli name v hv)
  · intro fr hfr name v hv
    rcases hf fr hfr name v hv with h5 | ⟨fr0, h6, h7⟩
    · exact h5.2
    · exact h.reserved fr0 h6 name v h7

theorem mem_setFrame {envs : List Environment} {env : Nat} {name : String} {v : Value}
    {fr : Environment} (h : fr ∈ setFrame envs env name v) :
    fr ∈ envs ∨ ∃ fr0 ∈ envs, fr = { fr0 with values := Map.set fr0.values name v } := by
  unfold Lox.setFrame at h
  cases he : envs[env]? with
  | none => rw [he] at h; exact Or.inl h
  | some f0 =>
    rw [he] at h
    simp only at h
    rcases List.mem_or_eq_of_mem_set h with h1 | h1
    · exact Or.inl h1
    · exact Or.inr ⟨f0, List.getElem?_mem he, h1⟩

theorem reservedValue.of_not_reserved {name : String} (v : Value)
    (h : ¬ reservedName name) : reservedValue name v :=
  ⟨fun h1 => absurd (Or.inl h1) h, fun h1 => absurd (Or.inr h1) h⟩

/-- A store into a frame of a value that is in order in the heap after the store. -/
theorem HeapOk.heapOk_setFrame {locals : Map Nat Nat} {i j : Interpreter} (h : HeapOk locals i)
    (env : Nat) (name : String) (v : Value)
    (hv : ValOk locals (Lox.setFrame i.envs env name v) v)
    (h1 : j.locals = i.locals) (h2 : j.envs = Lox.setFrame i.envs env name v)
    (h3 : j.instances = i.instances)
    (hg : Grows i.envs (Lox.setFrame i.envs env name v)) (ht : reservedValue name v) :
    HeapOk locals j := by
  have hg : Grows i.envs j.envs := h2 ▸ hg
  refine HeapOk.of_grows h h1 h3 hg fun fr hfr x w hw => ?_
  rw [h2] at hfr
  rcases mem_setFrame hfr with h5 | ⟨fr0, h6, h7⟩
  · exact Or.inr ⟨fr, h5, hw⟩
  · subst h7
    rcases Map.get_set_cases _ _ _ _ _ hw with h8 | h8
    · subst h8
      refine Or.inl ⟨h2 ▸ hv, ?_⟩
      by_cases hx : name = x
      · exact hx ▸ ht
      · rw [Map.get_set_ne _ _ _ _ hx] at hw
        exact h.reserved fr0 h6 x w hw
    · exact Or.inr ⟨fr0, h6, h8⟩

/-- The definition of a name that is not reserved. -/
theorem HeapOk.Define {locals : Map Nat Nat} {i : Interpreter} (h : HeapOk locals i)
    (env : Nat) {name : String} (v : Value) (hv : ValOk locals i.envs v)
    (hn : ¬ reservedName name) : HeapOk locals (i.Define env name v) :=
  HeapOk.heapOk_setFrame h env name v (ValOk.valOk_mono (Grows.grows_setFrame _ _ _ hn) hv) rfl rfl rfl
    (Grows.grows_setFrame _ _ _ hn) (reservedValue.of_not_reserved v hn)

/-- The definition of a name in a frame that does not hold it. -/
theorem HeapOk.Define_fresh {locals : Map Nat Nat} {i : Interpreter} (h : HeapOk locals i)
    (env : Nat) (name : String) (v : Value) (hv : ValOk locals i.envs v)
    (hf : ∀ fr, i.envs[env]? = some fr → Map.get fr.values name = none)
    (ht : reservedValue name v) : HeapOk locals (i.Define env name v) :=
  HeapOk.heapOk_setFrame h env name v (ValOk.valOk_mono (Grows.setFrame_fresh _ _ _ _ hf) hv) rfl rfl rfl
    (Grows.setFrame_fresh _ _ _ _ hf) ht

/-- A new, empty frame. -/
theorem HeapOk.NewEnvironment {locals : Map Nat Nat} {i : Interpreter} (h : HeapOk locals i)
    (enclosing : Option Nat) : HeapOk locals (Lox.NewEnvironment i enclosing).2 := by
  refine HeapOk.of_grows h rfl rfl (Grows.grows_push i.envs _) fun fr hfr x w hw => ?_
  simp only [Lox.NewEnvironment, List.mem_append, List.mem_singleton] at hfr
  rcases hfr with h5 | h5
  · exact Or.inr ⟨fr, h5, hw⟩
  · subst h5
    simp [Map.get] at hw

theorem GetAt_value {envs : List Environment} {env d : Nat} {name : String} {v : Value}
    (h : GetAt envs env d name = Out.ok v) :
    ∃ fr ∈ envs, Map.get fr.values name = some v := by
  unfold GetAt at h
  split at h
  · rename_i a _
    split at h
    · cases h
    · rename_i fr hfr
      split at h
      · rename_i w hw
        cases h
        exact ⟨fr, List.getElem?_mem hfr, hw⟩
      · cases h
  all_goals cases h

theorem GetAt_not_return {envs : List Environment} {env d : Nat} {name : String} {v : Value} :
    GetAt envs env d name ≠ Out.err (Err.Return v) := by
  intro h
  have ha : ∀ (d : Nat) (e : Option Nat) (x : Err), ancestor envs d e ≠ Out.err x := by
    intro d
    induction d with
    | zero => intro e x; simp [ancestor]
    | succ d ih =>
      intro e x
      cases e with
      | none => simp [ancestor]
      | some e =>
        simp only [ancestor]
        split
        · simp
        · exact ih _ x
  unfold GetAt at h
  split at h
  · split at h
    · cases h
    · split at h <;> cases h
  · cases h
  · rename_i e he; exact ha _ _ _ he
  · cases h
  · cases h

theorem envGet_value {envs : List Environment} : ∀ (n env : Nat) (name : Token) (v : Value),
    envGet envs n env name = Out.ok v → ∃ fr ∈ envs, Map.get fr.values name.Lexeme = some v
  | 0, _, _, _, h => by simp [envGet] at h
  | n + 1, env, name, v, h => by
    simp only [envGet] at h
    split at h
    · cases h
    · rename_i fr hfr
      split at h
      · rename_i w hw
        cases h
        exact ⟨fr, List.getElem?_mem hfr, hw⟩
      · split at h
        · exact envGet_value n _ name v h
        · cases h

theorem envGet_not_return {envs : List Environment} : ∀ (n env : Nat) (name : Token) (v : Value),
    envGet envs n env name ≠ Out.err (Err.Return v)
  | 0, _, _, _, h => by simp [envGet] at h
  | n + 1, env, name, v, h => by
    simp only [envGet] at h
    split at h
    · cases h
    · split at h
      · cases h
      · split at h
        · exact envGet_not_return n _ name v h
        · cases h

theorem envAssign_value {envs : List Environment} :
    ∀ (n env : Nat) (name : Token) (v : Value) (envs' : List Environment),
    envAssign envs n env name v = Out.ok envs' → ∃ a, envs' = setFrame envs a name.Lexeme v
  | 0, _, _, _, _, h => by simp [envAssign] at h
  | n + 1, env, name, v, envs', h => by
    simp only [envAssign] at h
    split at h
    · cases h
    · split at h
      · cases h
        exact ⟨env, rfl⟩
      · split at h
        · exact envAssign_value n _ name v envs' h
        · cases h

theorem envAssign_not_return {envs : List Environment} :
    ∀ (n env : Nat) (name : Token) (v w : Value),
    envAssign envs n env name v ≠ Out.err (Err.Return w)
  | 0, _, _, _, _, h => by simp [envAssign] at h
  | n + 1, env, name, v, w, h => by
    simp only [envAssign] at h
    split at h
    · cases h
    · split at h
      · cases h
      · split at h
        · exact envAssign_not_return n _ name v w h
        · cases h

theorem AssignAt_value {envs : List Environment} {env d : Nat} {name : Token} {v : Value}
    {envs' : List Environment} (h : AssignAt envs env d name v = Out.ok envs') :
    ∃ a, envs' = setFrame envs a name.Lexeme v := by
  unfold AssignAt at h
  split at h
  · rename_i a _
    split at h
    · cases h
    · split at h
      · cases h
        exact ⟨a, rfl⟩
      · cases h
  all_goals cases h

theorem AssignAt_not_return {envs : List Environment} {env d : Nat} {name : Token}
    {v w : Value} : AssignAt envs env d name v ≠ Out.err (Err.Return w) := by
  intro h
  have ha : ∀ (d : Nat) (e : Option Nat) (x : Err), ancestor envs d e ≠ Out.err x := by
    intro d
    induction d with
    | zero => intro e x; simp [ancestor]
    | succ d ih =>
      intro e x
      cases e with
      | none => simp [ancestor]
      | some e =>
        simp only [ancestor]
        split
        · simp
        · exact ih _ x
  unfold AssignAt at h
  split at h
  · split at h
    · cases h
    · split at h <;> cases h
  · cases h
  · rename_i e he; exact ha _ _ _ he
  · cases h
  · cases h

/-! ## What the calls of the evaluator leave -/

theorem Res.kept_bind {α β : Type} {locals : Map Nat Nat} {envs : List Environment}
    {P : α → Interpreter → Prop} {Q : β → Interpreter → Prop} {x : Res α}
    {f : α → Interpreter → Res β} (hx : x.kept locals envs P)
    (hf : ∀ a j, x = Res.ok a j → HeapOk locals j → Grows envs j.envs → P a j →
      (f a j).kept locals envs Q) : (x.bind f).kept locals envs Q := by
  cases x with
  | ok a j => exact hf a j rfl hx.1 hx.2.1 hx.2.2
  | err e j => exact hx
  | panic m j => trivial
  | outOfFuel => trivial

theorem Res.kept_of_grows {α : Type} {locals : Map Nat Nat} {envs envs' : List Environment}
    {post : α → Interpreter → Prop} {x : Res α} (hg : Grows envs envs')
    (hx : x.kept locals envs' post) : x.kept locals envs post := by
  cases x with
  | ok a j => exact ⟨hx.1, hg.andGrows hx.2.1, hx.2.2⟩
  | err e j => exact ⟨hx.1, hg.andGrows hx.2.1, hx.2.2⟩
  | panic m j => trivial
  | outOfFuel => trivial

theorem Res.kept_post {α : Type} {locals : Map Nat Nat} {envs : List Environment}
    {post post' : α → Interpreter → Prop} {x : Res α} (hx : x.kept locals envs post)
    (hp : ∀ a j, x = Res.ok a j → HeapOk locals j → Grows envs j.envs → post a j → post' a j) :
    x.kept locals envs post' := by
  cases x with
  | ok a j => exact ⟨hx.1, hx.2.1, hp a j rfl hx.1 hx.2.1 hx.2.2⟩
  | err e j => exact hx
  | panic m j => trivial
  | outOfFuel => trivial

theorem Out.toRes_kept {α : Type} {locals : Map Nat Nat} {envs : List Environment}
    {post : α → Interpreter → Prop} {x : Out α} {i : Interpreter} (h : HeapOk locals i)
    (hg : Grows envs i.envs) (hok : ∀ a, x = Out.ok a → post a i)
    (herr : ∀ v, x ≠ Out.err (Err.Return v)) : (x.toRes i).kept locals envs post := by
  cases x with
  | ok a => exact ⟨h, hg, hok a rfl⟩
  | err e => exact ⟨h, hg, fun v hv => absurd (congrArg Out.err hv) (herr v)⟩
  | panic m => trivial
  | outOfFuel => trivial

theorem lookUpVariable_kept {locals : Map Nat Nat} {envs : List Environment} {i : Interpreter}
    (h : HeapOk locals i) (hg : Grows envs i.envs) (name : Token) (id : Nat) :
    (lookUpVariable i name id).kept locals envs fun v j => ValOk locals j.envs v := by
  unfold lookUpVariable
  split
  · refine Out.toRes_kept h hg (fun v hv => ?_) fun v => GetAt_not_return
    obtain ⟨fr, h1, h2⟩ := GetAt_value hv
    exact h.frames fr h1 _ v h2
  · refine Out.toRes_kept h hg (fun v hv => ?_) fun v => envGet_not_return _ _ _ v
    obtain ⟨fr, h1, h2⟩ := envGet_value _ _ _ v hv
    exact h.frames fr h1 _ v h2

theorem unaryOp_value {locals : Map Nat Nat} {envs : List Environment} {operator : Token}
    {right v : Value} (h : unaryOp operator right = Out.ok v) : ValOk locals envs v := by
  unfold unaryOp at h
  split at h
  · split at h <;> cases h
    trivial
  · cases h; trivial
  · cases h; trivial

theorem unaryOp_not_return {operator : Token} {right v : Value} :
    unaryOp operator right ≠ Out.err (Err.Return v) := by
  intro h
  unfold unaryOp at h
  split at h
  · split at h <;> cases h
  · cases h
  · cases h

theorem numberOperands_value {locals : Map Nat Nat} {envs : List Environment}
    {operator : Token} {l r v : Value} {f : Float → Float → Out Value}
    (hf : ∀ a b w, f a b = Out.ok w → ValOk locals envs w)
    (h : numberOperands operator l r f = Out.ok v) : ValOk locals envs v := by
  unfold numberOperands at h
  split at h
  · exact hf _ _ _ h
  · cases h

theorem numberOperands_not_return {operator : Token} {l r v : Value}
    {f : Float → Float → Out Value} (hf : ∀ a b, f a b ≠ Out.err (Err.Return v)) :
    numberOperands operator l r f ≠ Out.err (Err.Return v) := by
  intro h
  unfold numberOperands at h
  split at h
  · exact hf _ _ h
  · cases h

theorem binaryOp_value {locals : Map Nat Nat} {envs : List Environment} {operator : Token}
    {l r v : Value} (h : binaryOp operator l r = Out.ok v) : ValOk locals envs v := by
  unfold binaryOp at h
  split at h
  · exact numberOperands_value (fun a b w hw => by cases hw; trivial) h
  · refine numberOperands_value (fun a b w hw => ?_) h
    split at hw <;> cases hw
    trivial
  · exact numberOperands_value (fun a b w hw => by cases hw; trivial) h
  · split at h <;> cases h <;> trivial
  · exact numberOperands_value (fun a b w hw => by cases hw; trivial) h
  · exact numberOperands_value (fun a b w hw => by cases hw; trivial) h
  · exact numberOperands_value (fun a b w hw => by cases hw; trivial) h
  · exact numberOperands_value (fun a b w hw => by cases hw; trivial) h
  · cases h; trivial
  · cases h; trivial
  · cases h; trivial

theorem binaryOp_not_return {operator : Token} {l r v : Value} :
    binaryOp operator l r ≠ Out.err (Err.Return v) := by
  intro h
  unfold binaryOp at h
  split at h
  · exact numberOperands_not_return (fun a b hw => by cases hw) h
  · refine numberOperands_not_return (fun a b hw => ?_) h
    split at hw <;> cases hw
  · exact numberOperands_not_return (fun a b hw => by cases hw) h
  · split at h <;> cases h
  · exact numberOperands_not_return (fun a b hw => by cases hw) h
  · exact numberOperands_not_return (fun a b hw => by cases hw) h
  · exact numberOperands_not_return (fun a b hw => by cases hw) h
  · exact numberOperands_not_return (fun a b hw => by cases hw) h
  · cases h
  · cases h
  · cases h

theorem ClassOk.findMethod {locals : Map Nat Nat} {E : List Environment} {c : LoxClass}
    (h : ClassOk locals E c) {name : String} {m : LoxFunction}
    (hm : c.findMethod name = some m) : MethodOk locals E m := by
  rw [LoxClass.findMethod_chain] at hm
  obtain ⟨k, hk, h1⟩ := List.exists_of_findSome?_eq_some hm
  exact (h k hk name m h1).1

/-- The method `bind` on a method of a class in order: the bound function is in order. -/
theorem MethodOk.bind {locals : Map Nat Nat} {i : Interpreter} {m : LoxFunction}
    (h : HeapOk locals i) (hm : MethodOk locals i.envs m) (ref : Nat) :
    HeapOk locals (m.bind ref i).2 ∧ Grows i.envs (m.bind ref i).2.envs ∧
      FunOk locals (m.bind ref i).2.envs (m.bind ref i).1 := by
  obtain ⟨scopes, h1, h2⟩ := hm
  have h3 := HeapOk.NewEnvironment h (some m.Closure)
  have h4 : HeapOk locals ((Lox.NewEnvironment i (some m.Closure)).2.Define
      (Lox.NewEnvironment i (some m.Closure)).1 "this" (Value.instance ref)) :=
    HeapOk.Define_fresh h3 _ _ _ trivial
      (fun fr hfr => by
        simp only [Lox.NewEnvironment, List.getElem?_concat_length, Option.some.injEq] at hfr
        subst hfr
        rfl)
      ⟨fun _ => ⟨ref, rfl⟩, fun h5 => absurd h5 (by decide)⟩
  have hg : Grows i.envs (m.bind ref i).2.envs :=
    (Grows.grows_push i.envs _).andGrows (Grows.setFrame_fresh _ _ _ _ (fun fr hfr => by
        simp only [Lox.NewEnvironment, List.getElem?_concat_length, Option.some.injEq] at hfr
        subst hfr
        rfl))
  refine ⟨HeapOk.heapOk_of_eq h4 rfl rfl rfl, hg, [("this", true)] :: scopes, ?_, h2⟩
  exact FrameChain.define (FrameChain.frameChain_push h1 [] [] (fun x hx => by simp [Map.get] at hx))
    "this" (Value.instance ref)

theorem instanceGet_kept {locals : Map Nat Nat} {i : Interpreter} (h : HeapOk locals i)
    (ref : Nat) (name : Token) :
    (instanceGet ref name i).kept locals i.envs fun v j => ValOk locals j.envs v := by
  unfold instanceGet
  cases hli : i.instances[ref]? with
  | none => trivial
  | some li =>
    have hmem : li ∈ i.instances := List.getElem?_mem hli
    simp only
    cases hf : Map.get li.Fields name.Lexeme with
    | some value => exact ⟨h, Grows.grows_same _, h.fields li hmem _ _ hf⟩
    | none =>
      simp only
      cases hm : li.Class.findMethod name.Lexeme with
      | none => exact ⟨h, Grows.grows_same _, fun v hv => by cases hv⟩
      | some method =>
        obtain ⟨h1, h2, h3⟩ := MethodOk.bind h ((h.classes li hmem).findMethod hm) ref
        exact ⟨h1, h2, h3⟩

theorem instanceSet_envs (ref : Nat) (name : Token) (v : Value) (i : Interpreter) :
    (instanceSet ref name v i).envs = i.envs := by
  unfold instanceSet
  split <;> rfl

theorem instanceSet_locals (ref : Nat) (name : Token) (v : Value) (i : Interpreter) :
    (instanceSet ref name v i).locals = i.locals := by
  unfold instanceSet
  split <;> rfl

theorem HeapOk.instanceSet {locals : Map Nat Nat} {i : Interpreter} (h : HeapOk locals i)
    (ref : Nat) (name : Token) (v : Value) (hv : ValOk locals i.envs v) :
    HeapOk locals (Lox.instanceSet ref name v i) := by
  have he := instanceSet_envs ref name v i
  refine ⟨(instanceSet_locals ref name v i).trans h.table, ?_, ?_, ?_, ?_⟩
  rotate_right
  · rw [he]; exact h.reserved
  · rw [he]; exact h.frames
  · rw [he]
    intro li hli
    unfold Lox.instanceSet at hli
    cases h0 : i.instances[ref]? with
    | none => rw [h0] at hli; exact h.classes li hli
    | some l0 =>
      rw [h0] at hli
      rcases List.mem_or_eq_of_mem_set hli with h1 | h1
      · exact h.classes li h1
      · subst h1
        exact h.classes l0 (List.getElem?_mem h0)
  · rw [he]
    intro li hli x w hw
    unfold Lox.instanceSet at hli
    cases h0 : i.instances[ref]? with
    | none => rw [h0] at hli; exact h.fields li hli x w hw
    | some l0 =>
      rw [h0] at hli
      rcases List.mem_or_eq_of_mem_set hli with h1 | h1
      · exact h.fields li h1 x w hw
      · subst h1
        rcases Map.get_set_cases _ _ _ _ _ hw with h2 | h2
        · subst h2; exact hv
        · exact h.fields l0 (List.getElem?_mem h0) x w h2

theorem HeapOk.NewLoxInstance {locals : Map Nat Nat} {i : Interpreter} (h : HeapOk locals i)
    (c : LoxClass) (hc : ClassOk locals i.envs c) :
    HeapOk locals (Lox.NewLoxInstance c i).2 := by
  refine ⟨h.table, h.frames, ?_, ?_, h.reserved⟩
  · intro li hli
    simp only [Lox.NewLoxInstance, List.mem_append, List.mem_singleton] at hli
    rcases hli with h1 | h1
    · exact h.classes li h1
    · subst h1; exact hc
  · intro li hli x w hw
    simp only [Lox.NewLoxInstance, List.mem_append, List.mem_singleton] at hli
    rcases hli with h1 | h1
    · exact h.fields li h1 x w hw
    · subst h1
      simp [Map.get] at hw

theorem ScopedFun_eq (locals : Map Nat Nat) (scopes : List (Map String Bool))
    (f : FunctionStmt) :
    ScopedFun locals scopes f = (ScopedStmts locals (paramScope f.Params :: scopes) f.Body ∧
      ∀ param ∈ f.Params, param.declarable) := by
  cases f
  simp only [ScopedFun, FunctionStmt.Params, FunctionStmt.Body]

/-- The loop that defines the parameters: the frame holds every parameter. -/
theorem defineParams_kept {locals : Map Nat Nat} (env : Nat) (rest : List (Map String Bool)) :
    ∀ (params : List Token) (arguments : List Value) (i j : Interpreter)
      (scope : Map String Bool),
    defineParams env params arguments i = Res.ok () j → HeapOk locals i →
    (∀ a ∈ arguments, ValOk locals i.envs a) → FrameChain i.envs env (scope :: rest) →
    (∀ param ∈ params, param.declarable) →
    HeapOk locals j ∧ Grows i.envs j.envs ∧ j.environment = i.environment ∧
      FrameChain j.envs env
        (params.foldl (fun scope param => Map.set scope param.Lexeme true) scope :: rest)
  | [], _, i, j, scope, h, hh, _, hc, _ => by
    simp only [defineParams] at h
    cases h
    exact ⟨hh, Grows.grows_same _, rfl, hc⟩
  | _ :: _, [], i, j, scope, h, _, _, _, _ => by
    simp only [defineParams] at h
    cases h
  | param :: params, argument :: arguments, i, j, scope, h, hh, ha, hc, hd => by
    simp only [defineParams] at h
    have hn : ¬ reservedName param.Lexeme := (hd param (by simp)).not_reserved
    have hg : Grows i.envs (i.Define env param.Lexeme argument).envs :=
      Grows.grows_setFrame _ _ _ hn
    obtain ⟨h1, h2, h3, h4⟩ := defineParams_kept env rest params arguments _ j
      (Map.set scope param.Lexeme true) h
      (HeapOk.Define hh env argument (ha argument (by simp)) hn)
      (fun a hm => ValOk.valOk_mono hg (ha a (by simp [hm])))
      (FrameChain.define hc param.Lexeme argument)
      (fun q hq => hd q (by simp [hq]))
    exact ⟨h1, hg.andGrows h2, h3, h4⟩

theorem buildMethods_locals (environment : Nat) :
    ∀ (ms : List FunctionStmt) (table : Map String LoxFunction) (i : Interpreter),
    (buildMethods environment ms table i).2.locals = i.locals
  | [], table, i => rfl
  | m :: rest, table, i => by
    simp only [buildMethods]
    exact buildMethods_locals environment rest _ _

theorem buildMethods_instances (environment : Nat) :
    ∀ (ms : List FunctionStmt) (table : Map String LoxFunction) (i : Interpreter),
    (buildMethods environment ms table i).2.instances = i.instances
  | [], table, i => rfl
  | m :: rest, table, i => by
    simp only [buildMethods]
    exact buildMethods_instances environment rest _ _

/-- The method table: every method is a declaration of the class, closed over the
environment of the class. -/
theorem buildMethods_table (environment : Nat) :
    ∀ (ms : List FunctionStmt) (table : Map String LoxFunction) (i : Interpreter)
      (name : String) (m : LoxFunction),
    Map.get (buildMethods environment ms table i).1 name = some m →
    Map.get table name = some m ∨ (m.Closure = environment ∧ m.Declaration ∈ ms)
  | [], table, i, name, m, h => Or.inl h
  | d :: rest, table, i, name, m, h => by
    simp only [buildMethods] at h
    rcases buildMethods_table environment rest _ _ name m h with h1 | ⟨h1, h2⟩
    · rcases Map.get_set_cases _ _ _ _ _ h1 with h3 | h3
      · subst h3
        exact Or.inr ⟨rfl, by simp⟩
      · exact Or.inl h3
    · exact Or.inr ⟨h1, by simp [h2]⟩

theorem ScopedMethods.of_mem {locals : Map Nat Nat} {scopes : List (Map String Bool)} :
    ∀ {ms : List FunctionStmt}, ScopedMethods locals scopes ms → ∀ d ∈ ms,
      ScopedFun locals scopes d
  | [], _, d, hd => by simp at hd
  | m :: rest, h, d, hd => by
    simp only [ScopedMethods] at h
    rcases List.mem_cons.1 hd with h1 | h1
    · subst h1; exact h.1
    · exact ScopedMethods.of_mem h.2 d h1

theorem restoreEnvironment_kept {α : Type} {locals : Map Nat Nat} {envs : List Environment}
    {post post' : α → Interpreter → Prop} {x : Res α} (previous : Nat)
    (hx : x.kept locals envs post)
    (hp : ∀ a j, HeapOk locals j → Grows envs j.envs → post a j →
      post' a { j with environment := previous }) :
    (restoreEnvironment previous x).kept locals envs post' := by
  cases x with
  | ok a j => exact ⟨HeapOk.heapOk_of_eq hx.1 rfl rfl rfl, hx.2.1, hp a j hx.1 hx.2.1 hx.2.2⟩
  | err e j => exact ⟨HeapOk.heapOk_of_eq hx.1 rfl rfl rfl, hx.2.1, hx.2.2⟩
  | panic m j => trivial
  | outOfFuel => trivial

/-- The statements of a block or of a body, each in the scopes after those before it. -/
theorem executeStatements_kept {locals : Map Nat Nat} {exec : Stmt → Interpreter → Res Unit}
    (hk : ∀ s i, (exec s i).keepsEnvironment i.environment)
    (hex : ∀ s i scopes, HeapOk locals i → FrameChain i.envs i.environment scopes →
      ScopedStmt locals scopes s →
      (exec s i).kept locals i.envs fun _ j => FrameChain j.envs j.environment (scopesAfter scopes s)) :
    ∀ (statements : List Stmt) (i : Interpreter) (scopes : List (Map String Bool)),
    HeapOk locals i → FrameChain i.envs i.environment scopes →
    ScopedStmts locals scopes statements →
    (executeStatements exec statements i).kept locals i.envs fun _ _ => True
  | [], i, scopes, h, _, _ => ⟨h, Grows.grows_same _, trivial⟩
  | s :: rest, i, scopes, h, hc, hs => by
    simp only [ScopedStmts] at hs
    simp only [executeStatements]
    refine Res.kept_bind (hex s i scopes h hc hs.1) fun _ j _ hj hg hp => ?_
    exact Res.kept_of_grows hg (executeStatements_kept hk hex rest j _ hj hp hs.2)

/-- The arguments of a call, evaluated in order. -/
theorem evaluateArguments_kept {locals : Map Nat Nat} {eval : Expr → Interpreter → Res Value}
    (hk : ∀ e i, (eval e i).keepsEnvironment i.environment)
    (hev : ∀ e i scopes, HeapOk locals i → FrameChain i.envs i.environment scopes →
      ScopedExpr locals scopes e → (eval e i).kept locals i.envs fun v j => ValOk locals j.envs v) :
    ∀ (arguments : List Expr) (values : List Value) (i : Interpreter)
      (scopes : List (Map String Bool)),
    HeapOk locals i → FrameChain i.envs i.environment scopes →
    ScopedExprs locals scopes arguments → (∀ a ∈ values, ValOk locals i.envs a) →
    (evaluateArguments eval arguments values i).kept locals i.envs
      fun vs j => ∀ a ∈ vs, ValOk locals j.envs a
  | [], values, i, scopes, h, _, _, hv => ⟨h, Grows.grows_same _, hv⟩
  | e :: rest, values, i, scopes, h, hc, hs, hv => by
    simp only [ScopedExprs] at hs
    simp only [evaluateArguments]
    refine Res.kept_bind (hev e i scopes h hc hs.1) fun v j hres hj hg hp => ?_
    have henv : j.environment = i.environment := by
      have := hk e i
      rw [hres] at this
      exact this
    refine Res.kept_of_grows hg (evaluateArguments_kept hk hev rest _ j scopes hj
      (henv ▸ FrameChain.frameChain_mono hg scopes _ hc) hs.2 fun a ha => ?_)
    rcases List.mem_append.1 ha with h1 | h1
    · exact ValOk.valOk_mono hg (hv a h1)
    · simp only [List.mem_singleton] at h1
      subst h1
      exact hp

theorem Res.keepsEnvironment_ok {α : Type} {x : Res α} {environment : Nat}
    (h : x.keepsEnvironment environment) {a : α} {j : Interpreter} (hx : x = Res.ok a j) :
    j.environment = environment := by
  subst hx
  exact h

theorem evaluate_environment {n : Nat} {e : Expr} {i j : Interpreter} {v : Value}
    (h : evaluate n e i = Res.ok v j) : j.environment = i.environment :=
  Res.keepsEnvironment_ok ((keepsEnvironment_all n).1 e i) h

theorem execute_environment {n : Nat} {s : Stmt} {i j : Interpreter}
    (h : execute n s i = Res.ok () j) : j.environment = i.environment :=
  Res.keepsEnvironment_ok ((keepsEnvironment_all n).2.1 s i) h

/-- The frames of the scopes are still there after a call that returned. -/
theorem FrameChain.frameChain_after {i j : Interpreter}
    {scopes : List (Map String Bool)} (hc : FrameChain i.envs i.environment scopes)
    (hg : Grows i.envs j.envs) (he : j.environment = i.environment) :
    FrameChain j.envs j.environment scopes :=
  he ▸ FrameChain.frameChain_mono hg scopes _ hc

theorem literal_value (locals : Map Nat Nat) (envs : List Environment) (v : LiteralValue) :
    ValOk locals envs v.toValue := by
  cases v <;> trivial

theorem evaluate_keepsHeap {locals : Map Nat Nat} {n : Nat} (ih : KeepsHeap locals n)
    (e : Expr) (i : Interpreter) (scopes : List (Map String Bool)) (h : HeapOk locals i)
    (hc : FrameChain i.envs i.environment scopes) (hs : ScopedExpr locals scopes e) :
    (evaluate (n + 1) e i).kept locals i.envs fun v j => ValOk locals j.envs v := by
  cases e with
  | nil => simp only [evaluate]; trivial
  | Literal v => simp only [evaluate]; exact ⟨h, Grows.grows_same _, literal_value _ _ v⟩
  | Grouping e =>
    simp only [evaluate]
    simp only [ScopedExpr] at hs
    exact ih.evaluate e i scopes h hc hs
  | Unary op r =>
    simp only [evaluate]
    simp only [ScopedExpr] at hs
    refine Res.kept_bind (ih.evaluate r i scopes h hc hs) fun v j _ hj hg _ => ?_
    exact Out.toRes_kept hj hg (fun a ha => unaryOp_value ha) fun w => unaryOp_not_return
  | Binary l op r =>
    simp only [evaluate]
    simp only [ScopedExpr] at hs
    refine Res.kept_bind (ih.evaluate l i scopes h hc hs.1) fun v j hres hj hg _ => ?_
    have hcj := FrameChain.frameChain_after hc hg (evaluate_environment hres)
    refine Res.kept_of_grows hg ?_
    refine Res.kept_bind (ih.evaluate r j scopes hj hcj hs.2) fun w k _ hk hg2 _ => ?_
    exact Out.toRes_kept hk hg2 (fun a ha => binaryOp_value ha) fun w => binaryOp_not_return
  | Variable v =>
    simp only [evaluate]
    exact lookUpVariable_kept h (Grows.grows_same _) _ _
  | Assign id name value =>
    simp only [evaluate]
    simp only [ScopedExpr] at hs
    refine Res.kept_bind (ih.evaluate value i scopes h hc hs.1) fun v j hres hj hg hv => ?_
    cases hd : Map.get j.locals id with
    | some d =>
      simp only
      cases ha : AssignAt j.envs j.environment d name v with
      | ok envs =>
        obtain ⟨a, h1⟩ := AssignAt_value ha
        subst h1
        have hn : ¬ reservedName name.Lexeme := hs.2.2.not_reserved
        exact ⟨HeapOk.heapOk_setFrame hj a name.Lexeme v (ValOk.valOk_mono (Grows.grows_setFrame _ _ _ hn) hv)
          rfl rfl rfl (Grows.grows_setFrame _ _ _ hn) (reservedValue.of_not_reserved v hn),
          hg.andGrows (Grows.grows_setFrame _ _ _ hn), ValOk.valOk_mono (Grows.grows_setFrame _ _ _ hn) hv⟩
      | err e => exact ⟨hj, hg, fun w hw => absurd (hw ▸ ha) AssignAt_not_return⟩
      | panic m => trivial
      | outOfFuel => trivial
    | none =>
      simp only
      cases ha : envAssign j.envs (j.envs.length + 1) j.globals name v with
      | ok envs =>
        obtain ⟨a, h1⟩ := envAssign_value _ _ _ _ _ ha
        subst h1
        have hn : ¬ reservedName name.Lexeme := hs.2.2.not_reserved
        exact ⟨HeapOk.heapOk_setFrame hj a name.Lexeme v (ValOk.valOk_mono (Grows.grows_setFrame _ _ _ hn) hv)
          rfl rfl rfl (Grows.grows_setFrame _ _ _ hn) (reservedValue.of_not_reserved v hn),
          hg.andGrows (Grows.grows_setFrame _ _ _ hn), ValOk.valOk_mono (Grows.grows_setFrame _ _ _ hn) hv⟩
      | err e => exact ⟨hj, hg, fun w hw => absurd (hw ▸ ha) (envAssign_not_return _ _ _ _ _)⟩
      | panic m => trivial
      | outOfFuel => trivial
  | Logical l op r =>
    simp only [evaluate]
    simp only [ScopedExpr] at hs
    refine Res.kept_bind (ih.evaluate l i scopes h hc hs.1) fun v j hres hj hg hv => ?_
    have hcj := FrameChain.frameChain_after hc hg (evaluate_environment hres)
    have hr := Res.kept_of_grows hg (ih.evaluate r j scopes hj hcj hs.2)
    split
    · split
      · exact ⟨hj, hg, hv⟩
      · exact hr
    · split
      · exact ⟨hj, hg, hv⟩
      · exact hr
  | Call callee paren arguments =>
    simp only [evaluate]
    simp only [ScopedExpr] at hs
    refine Res.kept_bind (ih.evaluate callee i scopes h hc hs.1) fun v j hres hj hg hv => ?_
    have hcj := FrameChain.frameChain_after hc hg (evaluate_environment hres)
    refine Res.kept_of_grows hg ?_
    refine Res.kept_bind (evaluateArguments_kept (keepsEnvironment_all n).1
      ih.evaluate arguments [] j scopes hj hcj hs.2 (fun a ha => by simp at ha))
      fun vs k _ hk hg2 hvs => ?_
    refine Res.kept_of_grows hg2 ?_
    have hv2 := ValOk.valOk_mono hg2 hv
    cases v with
    | clock =>
      simp only
      split
      · exact ⟨hk, Grows.grows_same _, fun w hw => by cases hw⟩
      · exact ⟨HeapOk.heapOk_of_eq hk rfl rfl rfl, Grows.grows_same _, trivial⟩
    | function f =>
      simp only
      split
      · exact ⟨hk, Grows.grows_same _, fun w hw => by cases hw⟩
      · exact ih.callFunction f vs k hk hv2 hvs
    | «class» c =>
      simp only
      split
      · exact ⟨hk, Grows.grows_same _, fun w hw => by cases hw⟩
      · exact ih.callClass c vs k hk hv2 hvs
    | _ => exact ⟨hk, Grows.grows_same _, fun w hw => by cases hw⟩
  | Get obj name =>
    simp only [evaluate]
    simp only [ScopedExpr] at hs
    refine Res.kept_bind (ih.evaluate obj i scopes h hc hs) fun v j hres hj hg hv => ?_
    refine Res.kept_of_grows hg ?_
    cases v with
    | «instance» ref => exact instanceGet_kept hj ref name
    | _ => exact ⟨hj, Grows.grows_same _, fun w hw => by cases hw⟩
  | Set obj name value =>
    simp only [evaluate]
    simp only [ScopedExpr] at hs
    refine Res.kept_bind (ih.evaluate obj i scopes h hc hs.1) fun v j hres hj hg hv => ?_
    have hcj := FrameChain.frameChain_after hc hg (evaluate_environment hres)
    refine Res.kept_of_grows hg ?_
    cases v with
    | «instance» ref =>
      simp only
      refine Res.kept_bind (ih.evaluate value j scopes hj hcj hs.2) fun w k _ hk hg2 hw => ?_
      refine ⟨HeapOk.instanceSet hk ref name w hw, ?_, ?_⟩
      · rw [instanceSet_envs]; exact hg2
      · show ValOk locals (instanceSet ref name w k).envs w
        rw [instanceSet_envs]; exact hw
    | _ => exact ⟨hj, Grows.grows_same _, fun w hw => by cases hw⟩
  | This id kw =>
    simp only [evaluate]
    exact lookUpVariable_kept h (Grows.grows_same _) _ _
  | Super id kw method =>
    simp only [evaluate]
    cases hd : Map.get i.locals id with
    | none => exact ⟨h, Grows.grows_same _, fun w hw => by cases hw⟩
    | some d =>
      simp only
      refine Res.kept_bind (P := fun v j => ValOk locals j.envs v ∧ j = i)
        (Out.toRes_kept h (Grows.grows_same _) (fun v hv => ?_) fun v => GetAt_not_return)
        fun v j _ hj hg hv => ?_
      · obtain ⟨fr, h1, h2⟩ := GetAt_value hv
        exact ⟨h.frames fr h1 _ v h2, rfl⟩
      · obtain ⟨hv, rfl⟩ := hv
        cases v with
        | «class» superclass =>
          simp only
          refine Res.kept_bind (P := fun v j' => j' = j)
            (Out.toRes_kept hj (Grows.grows_same _) (fun v hv => rfl) fun v => GetAt_not_return)
            fun w j' _ hj' hg' hw => ?_
          subst hw
          cases w with
          | «instance» object =>
            simp only
            cases hm : superclass.findMethod method.Lexeme with
            | none => exact ⟨hj', Grows.grows_same _, fun w hw => by cases hw⟩
            | some m =>
              obtain ⟨h1, h2, h3⟩ := MethodOk.bind hj' (ClassOk.findMethod hv hm) object
              exact ⟨h1, h2, h3⟩
          | _ => trivial
        | _ => trivial

/-- The class that a class statement builds is in order. -/
theorem buildMethods_classOk {locals : Map Nat Nat} {i : Interpreter} {e : Nat}
    {scopes : List (Map String Bool)} {methods : List FunctionStmt}
    {u : Option LoxClass} (hc : FrameChain i.envs e scopes)
    (hm : ScopedMethods locals ([("this", true)] :: scopes) methods)
    (hsup : ∀ c, u = some c → ClassOk locals i.envs c)
    (hsuper : ∀ A, u = some A →
      ∃ fr, i.envs[e]? = some fr ∧ Map.get fr.values "super" = some (.class A))
    (ptr : Nat) (name : String) :
    ClassOk locals i.envs
      (LoxClass.mk ptr name (buildMethods e methods [] i).1 u) := by
  intro k hk x m hx
  unfold LoxClass.chain at hk
  rcases List.mem_cons.1 hk with h1 | h1
  · subst h1
    rcases buildMethods_table e methods [] i x m hx with h2 | ⟨h2, h3⟩
    · simp [Map.get] at h2
    · exact ⟨⟨scopes, h2 ▸ hc, ScopedMethods.of_mem hm _ h3⟩, fun A hA => h2 ▸ hsuper A hA⟩
  · cases u with
    | none => simp at h1
    | some c => exact hsup c rfl k h1 x m hx

/-- The last step of a class statement: the class is assigned to its name. -/
theorem assignClass_kept {locals : Map Nat Nat} {i : Interpreter} (h : HeapOk locals i)
    (fuel : Nat) (name : Token) (v : Value) (hv : ValOk locals i.envs v)
    (hn : ¬ reservedName name.Lexeme) :
    (match envAssign i.envs fuel i.environment name v with
      | .ok envs => Res.ok () { i with envs := envs }
      | .err e => Res.err e i
      | .panic m => Res.panic m i
      | .outOfFuel => Res.outOfFuel).kept locals i.envs
      fun _ j => j.environment = i.environment := by
  cases ha : envAssign i.envs fuel i.environment name v with
  | ok envs =>
    obtain ⟨a, h1⟩ := envAssign_value _ _ _ _ _ ha
    subst h1
    exact ⟨HeapOk.heapOk_setFrame h a name.Lexeme v (ValOk.valOk_mono (Grows.grows_setFrame _ _ _ hn) hv)
      rfl rfl rfl (Grows.grows_setFrame _ _ _ hn) (reservedValue.of_not_reserved v hn),
      Grows.grows_setFrame _ _ _ hn, rfl⟩
  | err e => exact ⟨h, Grows.grows_same _, fun w hw => absurd (hw ▸ ha) (envAssign_not_return _ _ _ _ _)⟩
  | panic m => trivial
  | outOfFuel => trivial

theorem classStmt_keepsHeap {locals : Map Nat Nat} {n : Nat} (ih : KeepsHeap locals n)
    (name : Token) (sc : Option Variable) (methods : List FunctionStmt) (i : Interpreter)
    (scopes : List (Map String Bool)) (h : HeapOk locals i)
    (hc : FrameChain i.envs i.environment scopes)
    (hs : ScopedStmt locals scopes (Stmt.ClassStmt name sc methods)) :
    (execute (n + 1) (Stmt.ClassStmt name sc methods) i).kept locals i.envs fun _ j =>
      FrameChain j.envs j.environment (defineTop scopes name.Lexeme) := by
  simp only [ScopedStmt] at hs
  simp only [execute]
  refine Res.kept_bind
    (P := fun sup j => (∀ c, sup = some c → ClassOk locals j.envs c) ∧
      sup.isSome = sc.isSome ∧ j.environment = i.environment) ?_
    fun sup i1 _ h1 hg1 hp => ?_
  · cases sc with
    | none => exact ⟨h, Grows.grows_same _, (fun c h0 => by cases h0), rfl, rfl⟩
    | some v =>
      simp only
      refine Res.kept_bind (ih.evaluate (Expr.Variable v) i scopes h hc hs.1)
        fun w j hres hj hg hw => ?_
      cases w with
      | «class» c =>
        exact ⟨hj, hg, (fun c' h0 => by cases h0; exact hw), rfl, evaluate_environment hres⟩
      | _ => exact ⟨hj, hg, fun w hw => by cases hw⟩
  · obtain ⟨hsup, hsome, henv⟩ := hp
    have hn : ¬ reservedName name.Lexeme := hs.2.2.not_reserved
    have hc1 : FrameChain i1.envs i1.environment scopes := FrameChain.frameChain_after hc hg1 henv
    refine Res.kept_of_grows hg1 ?_
    have h2 : HeapOk locals (i1.Define i1.environment name.Lexeme Value.nil) :=
      HeapOk.Define h1 _ _ trivial hn
    have hg2 : Grows i1.envs (i1.Define i1.environment name.Lexeme Value.nil).envs :=
      Grows.grows_setFrame _ _ _ hn
    have hc2 : FrameChain (i1.Define i1.environment name.Lexeme Value.nil).envs i1.environment
        (defineTop scopes name.Lexeme) := FrameChain.define hc1 _ _
    cases sup with
    | none =>
      have hsc : sc.isSome = false := hsome ▸ rfl
      rw [hsc] at hs
      simp only [Res.bind]
      have hcls := buildMethods_classOk (i := i1.Define i1.environment name.Lexeme Value.nil)
        (e := i1.environment) (u := none) hc2 hs.2.1
        (fun c h0 => by cases h0) (fun c h0 => by cases h0)
        (buildMethods i1.environment methods [] (i1.Define i1.environment name.Lexeme Value.nil)).2.nextPtr
        name.Lexeme
      refine Res.kept_of_grows hg2 ?_
      have h5 : HeapOk locals
          { (buildMethods i1.environment methods []
              (i1.Define i1.environment name.Lexeme Value.nil)).2 with
            nextPtr := (buildMethods i1.environment methods []
              (i1.Define i1.environment name.Lexeme Value.nil)).2.nextPtr + 1 } :=
        HeapOk.heapOk_of_eq h2 (buildMethods_locals _ _ _ _) (buildMethods_envs _ _ _ _)
          (buildMethods_instances _ _ _ _)
      have henvs : (buildMethods i1.environment methods []
          (i1.Define i1.environment name.Lexeme Value.nil)).2.envs =
          (i1.Define i1.environment name.Lexeme Value.nil).envs := buildMethods_envs _ _ _ _
      have hkept := assignClass_kept h5
        ((buildMethods i1.environment methods []
          (i1.Define i1.environment name.Lexeme Value.nil)).2.envs.length + 1) name
        (Value.class (LoxClass.mk (buildMethods i1.environment methods []
          (i1.Define i1.environment name.Lexeme Value.nil)).2.nextPtr name.Lexeme
          (buildMethods i1.environment methods []
            (i1.Define i1.environment name.Lexeme Value.nil)).1 none))
        (by show ClassOk locals _ _; rw [henvs]; exact hcls) hn
      rw [← henvs]
      refine Res.kept_post hkept fun _ j _ hj hg he => ?_
      rw [he]
      show FrameChain j.envs (buildMethods i1.environment methods []
        (i1.Define i1.environment name.Lexeme Value.nil)).2.environment _
      rw [buildMethods_environment]
      exact FrameChain.frameChain_mono (henvs ▸ hg) _ _ hc2
    | some c =>
      have hsc : sc.isSome = true := hsome ▸ rfl
      rw [hsc] at hs
      simp only
      set i2 := i1.Define i1.environment name.Lexeme Value.nil with hi2
      set i3 := ({ (NewEnvironment i2 (some i2.environment)).2 with
        environment := (NewEnvironment i2 (some i2.environment)).1 } : Interpreter).Define
        (NewEnvironment i2 (some i2.environment)).1 "super" (Value.class c) with hi3
      have hv3 : ValOk locals (NewEnvironment i2 (some i2.environment)).2.envs (Value.class c) :=
        ClassOk.classOk_mono (hg2.andGrows (Grows.grows_push _ _)) (hsup c rfl)
      have hfresh : ∀ fr, (NewEnvironment i2 (some i2.environment)).2.envs[
          (NewEnvironment i2 (some i2.environment)).1]? = some fr →
          Map.get fr.values "super" = none := by
        intro fr hfr
        simp only [NewEnvironment, List.getElem?_concat_length, Option.some.injEq] at hfr
        subst hfr
        rfl
      have h3 : HeapOk locals i3 :=
        HeapOk.Define_fresh (i := { (NewEnvironment i2 (some i2.environment)).2 with
            environment := (NewEnvironment i2 (some i2.environment)).1 })
          (HeapOk.heapOk_of_eq (HeapOk.NewEnvironment h2 (some i2.environment)) rfl rfl rfl)
          (NewEnvironment i2 (some i2.environment)).1 "super" (Value.class c) hv3 hfresh
          ⟨fun h5 => absurd h5 (by decide), fun _ => ⟨c, rfl⟩⟩
      have hg3 : Grows i2.envs i3.envs :=
        (Grows.grows_push _ _).andGrows (Grows.setFrame_fresh _ _ _ _ hfresh)
      have hc3 : FrameChain i3.envs i3.environment
          ([("super", true)] :: defineTop scopes name.Lexeme) :=
        FrameChain.define (FrameChain.frameChain_push hc2 [] [] (fun x hx => by simp [Map.get] at hx))
          "super" (Value.class c)
      have hup : i3.envs[i3.environment]? =
          some ⟨some i1.environment, Map.set [] "super" (Value.class c)⟩ := by
        simp only [hi3, hi2, NewEnvironment, Interpreter.Define, setFrame_last,
          List.getElem?_concat_length]
      have hcls := buildMethods_classOk (i := i3) (e := i3.environment)
        (u := some c) hc3 hs.2.1
        (fun c' h0 => by cases h0; exact ClassOk.classOk_mono (hg2.andGrows hg3) (hsup c rfl))
        (fun c' h0 => by cases h0; exact ⟨_, hup, Map.get_set_self _ _ _⟩)
        (buildMethods i3.environment methods [] i3).2.nextPtr name.Lexeme
      have henvs : (buildMethods i3.environment methods [] i3).2.envs = i3.envs :=
        buildMethods_envs _ _ _ _
      rw [buildMethods_envs, buildMethods_environment, hup]
      simp only [Res.bind]
      refine Res.kept_of_grows (hg2.andGrows hg3) ?_
      have h5 : HeapOk locals
          { (buildMethods i3.environment methods [] i3).2 with
            environment := i1.environment
            nextPtr := (buildMethods i3.environment methods [] i3).2.nextPtr + 1 } :=
        HeapOk.heapOk_of_eq h3 (buildMethods_locals _ _ _ _) (buildMethods_envs _ _ _ _)
          (buildMethods_instances _ _ _ _)
      have hkept := assignClass_kept h5
        ((buildMethods i3.environment methods [] i3).2.envs.length + 1) name
        (Value.class (LoxClass.mk (buildMethods i3.environment methods [] i3).2.nextPtr
          name.Lexeme (buildMethods i3.environment methods [] i3).1 (some c)))
        (by show ClassOk locals _ _; rw [henvs]; exact hcls) hn
      rw [← henvs]
      refine Res.kept_post hkept fun _ j _ hj hg he => ?_
      rw [he]
      exact FrameChain.frameChain_mono (hg3.andGrows (henvs ▸ hg)) _ _ hc2

theorem executeBlock_kept {locals : Map Nat Nat} {n : Nat} (ih : KeepsHeap locals n)
    (statements : List Stmt) (environment : Nat) (i : Interpreter)
    (scopes : List (Map String Bool)) (h : HeapOk locals i)
    (hc : FrameChain i.envs environment scopes) (hs : ScopedStmts locals scopes statements) :
    (restoreEnvironment i.environment
      (executeStatements (execute n) statements { i with environment := environment })).kept
      locals i.envs fun _ j => j.environment = i.environment :=
  restoreEnvironment_kept i.environment
    (executeStatements_kept (keepsEnvironment_all n).2.1 ih.execute statements
      { i with environment := environment } scopes (HeapOk.heapOk_of_eq h rfl rfl rfl) hc hs)
    fun _ _ _ _ _ => rfl

theorem execute_keepsHeap {locals : Map Nat Nat} {n : Nat} (ih : KeepsHeap locals n)
    (s : Stmt) (i : Interpreter) (scopes : List (Map String Bool)) (h : HeapOk locals i)
    (hc : FrameChain i.envs i.environment scopes) (hs : ScopedStmt locals scopes s) :
    (execute (n + 1) s i).kept locals i.envs fun _ j =>
      FrameChain j.envs j.environment (scopesAfter scopes s) := by
  cases s with
  | nil => simp only [execute]; trivial
  | ExpressionStmt e =>
    simp only [execute]
    simp only [ScopedStmt] at hs
    refine Res.kept_bind (ih.evaluate e i scopes h hc hs) fun v j hres hj hg _ => ?_
    exact ⟨hj, hg, FrameChain.frameChain_after hc hg (evaluate_environment hres)⟩
  | PrintStmt e =>
    simp only [execute]
    simp only [ScopedStmt] at hs
    refine Res.kept_bind (ih.evaluate e i scopes h hc hs) fun v j hres hj hg _ => ?_
    exact ⟨HeapOk.heapOk_of_eq hj rfl rfl rfl, hg,
      FrameChain.frameChain_after (j := j) hc hg (evaluate_environment hres)⟩
  | VarStmt name init =>
    simp only [execute]
    simp only [ScopedStmt] at hs
    refine Res.kept_bind
      (P := fun v j => ValOk locals j.envs v ∧ j.environment = i.environment) ?_
      fun v j _ hj hg hv => ?_
    · split
      · exact ⟨h, Grows.grows_same _, trivial, rfl⟩
      · exact Res.kept_post (ih.evaluate init i scopes h hc hs.1)
          fun v j hres _ _ hv => ⟨hv, evaluate_environment hres⟩
    · refine ⟨HeapOk.Define hj _ _ hv.1 hs.2.not_reserved,
        hg.andGrows (Grows.grows_setFrame _ _ _ hs.2.not_reserved), ?_⟩
      exact FrameChain.define (FrameChain.frameChain_after hc hg hv.2) name.Lexeme v
  | BlockStmt statements =>
    simp only [execute]
    simp only [ScopedStmt] at hs
    have hk := executeBlock_kept ih statements (NewEnvironment i (some i.environment)).1
      (NewEnvironment i (some i.environment)).2 ([] :: scopes)
      (HeapOk.NewEnvironment h _)
      (FrameChain.frameChain_push hc [] [] (fun x hx => by simp [Map.get] at hx)) hs
    refine Res.kept_of_grows (Grows.grows_push i.envs ⟨some i.environment, []⟩) ?_
    refine Res.kept_post hk fun _ j _ hj hg he => ?_
    have he' : j.environment = i.environment := he
    rw [he']
    exact FrameChain.frameChain_mono ((Grows.grows_push i.envs ⟨some i.environment, []⟩).andGrows hg) _ _ hc
  | IfStmt c th el =>
    simp only [execute]
    simp only [ScopedStmt] at hs
    refine Res.kept_bind (ih.evaluate c i scopes h hc hs.1) fun v j hres hj hg _ => ?_
    have hcj := FrameChain.frameChain_after hc hg (evaluate_environment hres)
    have hth := ih.execute th j scopes hj hcj hs.2.1
    have hel := ih.execute el j scopes hj hcj hs.2.2.2.1
    simp only [scopesAfter, hs.2.2.1, hs.2.2.2.2] at hth hel
    split
    · exact Res.kept_of_grows hg hth
    · split
      · exact Res.kept_of_grows hg hel
      · exact ⟨hj, hg, hcj⟩
  | WhileStmt c b =>
    simp only [execute]
    simp only [ScopedStmt] at hs
    refine Res.kept_post (ih.whileLoop c b i scopes h hc hs.1 hs.2.1 hs.2.2)
      fun _ j hres _ hg _ => ?_
    exact FrameChain.frameChain_after hc hg
      (Res.keepsEnvironment_ok ((keepsEnvironment_all n).2.2.1 c b i) hres)
  | Function f =>
    simp only [execute]
    simp only [ScopedStmt] at hs
    have hcd := FrameChain.define hc f.Name.Lexeme
      (Value.function ⟨i.nextPtr, f, i.environment, false⟩)
    refine ⟨HeapOk.heapOk_setFrame h i.environment f.Name.Lexeme _ ?_ rfl rfl rfl
      (Grows.grows_setFrame _ _ _ hs.2.not_reserved)
      (reservedValue.of_not_reserved _ hs.2.not_reserved),
      Grows.grows_setFrame _ _ _ hs.2.not_reserved, hcd⟩
    exact ⟨defineTop scopes f.Name.Lexeme, hcd, hs.1⟩
  | ReturnStmt kw value =>
    simp only [execute]
    simp only [ScopedStmt] at hs
    refine Res.kept_bind (P := fun v j => ValOk locals j.envs v) ?_
      fun v j _ hj hg hv => ?_
    · split
      · exact ⟨h, Grows.grows_same _, trivial⟩
      · exact ih.evaluate value i scopes h hc hs
    · exact ⟨hj, hg, fun w hw => by cases hw; exact hv⟩
  | ClassStmt name sc methods => exact classStmt_keepsHeap ih name sc methods i scopes h hc hs

theorem whileLoop_keepsHeap {locals : Map Nat Nat} {n : Nat} (ih : KeepsHeap locals n)
    (c : Expr) (b : Stmt) (i : Interpreter) (scopes : List (Map String Bool))
    (h : HeapOk locals i) (hc : FrameChain i.envs i.environment scopes)
    (hsc : ScopedExpr locals scopes c) (hsb : ScopedStmt locals scopes b)
    (hb : b.declared = none) :
    (whileLoop (n + 1) c b i).kept locals i.envs fun _ _ => True := by
  simp only [whileLoop]
  refine Res.kept_bind (ih.evaluate c i scopes h hc hsc) fun v j hres hj hg _ => ?_
  have hcj := FrameChain.frameChain_after hc hg (evaluate_environment hres)
  split
  · exact ⟨hj, hg, trivial⟩
  · refine Res.kept_of_grows hg ?_
    refine Res.kept_bind (ih.execute b j scopes hj hcj hsb) fun _ k _ hk hg2 hp => ?_
    simp only [scopesAfter, hb] at hp
    exact Res.kept_of_grows hg2 (ih.whileLoop c b k scopes hk hp hsc hsb hb)

theorem defineParams_ne_err (env : Nat) :
    ∀ (params : List Token) (arguments : List Value) (i : Interpreter) (e : Err)
      (j : Interpreter), defineParams env params arguments i ≠ Res.err e j
  | [], _, i, e, j => by simp [defineParams]
  | _ :: _, [], i, e, j => by simp [defineParams]
  | param :: params, argument :: arguments, i, e, j => by
    simp only [defineParams]
    exact defineParams_ne_err env params arguments _ e j

theorem callFunction_keepsHeap {locals : Map Nat Nat} {n : Nat} (ih : KeepsHeap locals n)
    (f : LoxFunction) (arguments : List Value) (i : Interpreter) (h : HeapOk locals i)
    (hf : FunOk locals i.envs f) (ha : ∀ a ∈ arguments, ValOk locals i.envs a) :
    (callFunction (n + 1) f arguments i).kept locals i.envs fun v j => ValOk locals j.envs v := by
  obtain ⟨scopes, hc, hs⟩ := hf
  rw [ScopedFun_eq] at hs
  simp only [callFunction]
  have hg1 : Grows i.envs (NewEnvironment i (some f.Closure)).2.envs := Grows.grows_push _ _
  refine Res.kept_of_grows hg1 ?_
  cases hd : defineParams (NewEnvironment i (some f.Closure)).1 f.Declaration.Params arguments
      (NewEnvironment i (some f.Closure)).2 with
  | ok u j =>
    obtain ⟨hj, hg2, he, hcj⟩ := defineParams_kept (NewEnvironment i (some f.Closure)).1 scopes
      f.Declaration.Params arguments _ j [] hd (HeapOk.NewEnvironment h _)
      (fun a hm => ValOk.valOk_mono hg1 (ha a hm))
      (FrameChain.frameChain_push hc [] [] (fun x hx => by simp [Map.get] at hx)) hs.2
    simp only [Res.bind, executeBlockWithReturn]
    refine Res.kept_of_grows hg2 ?_
    have hk := executeBlock_kept ih f.Declaration.Body (NewEnvironment i (some f.Closure)).1
      j (paramScope f.Declaration.Params :: scopes) hj hcj hs.1
    generalize restoreEnvironment j.environment (executeStatements (execute n)
      f.Declaration.Body { j with environment := (NewEnvironment i (some f.Closure)).1 }) = res
      at hk
    have hget : ∀ k : Interpreter, HeapOk locals k → Grows j.envs k.envs →
        ((GetAt k.envs f.Closure 0 "this").toRes k).kept locals j.envs
          fun v j => ValOk locals j.envs v := fun k hk hg =>
      Out.toRes_kept hk hg (fun v hv => by
        obtain ⟨fr, h1, h2⟩ := GetAt_value hv
        exact hk.frames fr h1 _ v h2) fun v => GetAt_not_return
    cases res with
    | ok u k =>
      simp only
      split
      · exact hget k hk.1 hk.2.1
      · exact ⟨hk.1, hk.2.1, trivial⟩
    | err e k =>
      cases e with
      | Return v =>
        simp only
        split
        · exact hget k hk.1 hk.2.1
        · exact ⟨hk.1, hk.2.1, hk.2.2 v rfl⟩
      | RuntimeError t m => exact ⟨hk.1, hk.2.1, fun w hw => by cases hw⟩
      | errorString m => exact ⟨hk.1, hk.2.1, fun w hw => by cases hw⟩
    | panic m k => trivial
    | outOfFuel => trivial
  | err e j => exact absurd hd (defineParams_ne_err _ _ _ _ e j)
  | panic m j => trivial
  | outOfFuel => trivial

theorem callClass_keepsHeap {locals : Map Nat Nat} {n : Nat} (ih : KeepsHeap locals n)
    (c : LoxClass) (arguments : List Value) (i : Interpreter) (h : HeapOk locals i)
    (hcl : ClassOk locals i.envs c) (ha : ∀ a ∈ arguments, ValOk locals i.envs a) :
    (callClass (n + 1) c arguments i).kept locals i.envs fun v j => ValOk locals j.envs v := by
  simp only [callClass]
  have h1 := HeapOk.NewLoxInstance h c hcl
  cases hm : c.findMethod "init" with
  | none => exact ⟨h1, Grows.grows_same _, trivial⟩
  | some m =>
    simp only
    have hmo : MethodOk locals (NewLoxInstance c i).2.envs m := ClassOk.findMethod hcl hm
    obtain ⟨h2, hg2, h3⟩ := MethodOk.bind h1 hmo (NewLoxInstance c i).1
    have hg2' : Grows i.envs (m.bind (NewLoxInstance c i).1 (NewLoxInstance c i).2).2.envs := hg2
    have hk := ih.callFunction _ arguments _ h2 h3 (fun a hm => ValOk.valOk_mono hg2' (ha a hm))
    refine Res.kept_of_grows hg2' ?_
    generalize callFunction n (m.bind (NewLoxInstance c i).1 (NewLoxInstance c i).2).1 arguments
      (m.bind (NewLoxInstance c i).1 (NewLoxInstance c i).2).2 = res at hk
    cases res with
    | ok v k => exact ⟨hk.1, hk.2.1, trivial⟩
    | err e k => exact ⟨hk.1, hk.2.1, trivial⟩
    | panic m k => trivial
    | outOfFuel => trivial

/-- Every call of the evaluator keeps the heap in order, whatever the fuel. -/
theorem keepsHeap (locals : Map Nat Nat) : ∀ n : Nat, KeepsHeap locals n
  | 0 =>
    { evaluate := fun e i _ _ _ _ => by simp only [evaluate]; trivial
      execute := fun s i _ _ _ _ => by simp only [execute]; trivial
      whileLoop := fun c b i _ _ _ _ _ _ => by simp only [whileLoop]; trivial
      callFunction := fun f a i _ _ _ => by simp only [callFunction]; trivial
      callClass := fun c a i _ _ _ => by simp only [callClass]; trivial }
  | n + 1 =>
    { evaluate := evaluate_keepsHeap (keepsHeap locals n)
      execute := execute_keepsHeap (keepsHeap locals n)
      whileLoop := whileLoop_keepsHeap (keepsHeap locals n)
      callFunction := callFunction_keepsHeap (keepsHeap locals n)
      callClass := callClass_keepsHeap (keepsHeap locals n) }

/-! ## Every call of the evaluator starts from a heap in order -/

theorem evaluate_after {locals : Map Nat Nat} {n : Nat} {e : Expr} {i j : Interpreter}
    {v : Value} {scopes : List (Map String Bool)} (h : HeapOk locals i)
    (hc : FrameChain i.envs i.environment scopes) (hs : ScopedExpr locals scopes e)
    (hres : evaluate n e i = Res.ok v j) :
    HeapOk locals j ∧ Grows i.envs j.envs ∧ ValOk locals j.envs v ∧
      FrameChain j.envs j.environment scopes := by
  have hk := (keepsHeap locals n).evaluate e i scopes h hc hs
  rw [hres] at hk
  exact ⟨hk.1, hk.2.1, hk.2.2, FrameChain.frameChain_after hc hk.2.1 (evaluate_environment hres)⟩

theorem execute_after {locals : Map Nat Nat} {n : Nat} {s : Stmt} {i j : Interpreter}
    {S : List (Map String Bool)} (h : HeapOk locals i)
    (hc : FrameChain i.envs i.environment S) (hs : ScopedStmt locals S s)
    (hres : execute n s i = Res.ok () j) :
    HeapOk locals j ∧ Grows i.envs j.envs ∧
      FrameChain j.envs j.environment (scopesAfter S s) := by
  have hk := (keepsHeap locals n).execute s i S h hc hs
  rw [hres] at hk
  exact hk

theorem execute_after_error {locals : Map Nat Nat} {n : Nat} {s : Stmt} {i j : Interpreter}
    {e : Err} {S : List (Map String Bool)} (h : HeapOk locals i)
    (hc : FrameChain i.envs i.environment S) (hs : ScopedStmt locals S s)
    (hres : execute n s i = Res.err e j) : HeapOk locals j := by
  have hk := (keepsHeap locals n).execute s i S h hc hs
  rw [hres] at hk
  exact hk.1

theorem evaluateArguments_after {locals : Map Nat Nat} {n : Nat} {arguments : List Expr}
    {i j : Interpreter} {vs : List Value} {scopes : List (Map String Bool)}
    (h : HeapOk locals i) (hc : FrameChain i.envs i.environment scopes)
    (hs : ScopedExprs locals scopes arguments)
    (hres : evaluateArguments (evaluate n) arguments [] i = Res.ok vs j) :
    HeapOk locals j ∧ Grows i.envs j.envs ∧ ∀ a ∈ vs, ValOk locals j.envs a := by
  have hk := evaluateArguments_kept (keepsEnvironment_all n).1 (keepsHeap locals n).evaluate
    arguments [] i scopes h hc hs (fun a ha => by simp at ha)
  rw [hres] at hk
  exact hk

theorem scopesAfter_nil (s : Stmt) : scopesAfter [] s = [] := by
  unfold scopesAfter
  split <;> rfl

/-- Wherever the evaluator is called, the heap is in order; where it calls `evaluate`,
the frames from the current environment upwards are frames of scopes in which the
recorded distances of the expression name scopes that define the names, and where it
calls a function, the function and its arguments are in order. -/
theorem Evals.evals_ready {locals : Map Nat Nat} {n : Nat} {site : Site} {i : Interpreter}
    {t : Site} {j : Interpreter} (hev : Evals n site i t j) :
    HeapOk locals i → site.ready locals i →
    HeapOk locals j ∧ t.ready locals j := by
  induction hev with
  | here n site i => exact fun h hr => ⟨h, hr⟩
  | grouping _ ih =>
    rintro h ⟨scopes, hc, hs⟩
    simp only [ScopedExpr] at hs
    exact ih h ⟨scopes, hc, hs⟩
  | unary _ ih =>
    rintro h ⟨scopes, hc, hs⟩
    simp only [ScopedExpr] at hs
    exact ih h ⟨scopes, hc, hs⟩
  | binaryLeft _ ih =>
    rintro h ⟨scopes, hc, hs⟩
    simp only [ScopedExpr] at hs
    exact ih h ⟨scopes, hc, hs.1⟩
  | binaryRight hl _ ih =>
    rintro h ⟨scopes, hc, hs⟩
    simp only [ScopedExpr] at hs
    obtain ⟨hj, _, _, hcj⟩ := evaluate_after h hc hs.1 hl
    exact ih hj ⟨scopes, hcj, hs.2⟩
  | assignValue _ ih =>
    rintro h ⟨scopes, hc, hs⟩
    simp only [ScopedExpr] at hs
    exact ih h ⟨scopes, hc, hs.1⟩
  | logicalLeft _ ih =>
    rintro h ⟨scopes, hc, hs⟩
    simp only [ScopedExpr] at hs
    exact ih h ⟨scopes, hc, hs.1⟩
  | logicalRight hl _ _ ih =>
    rintro h ⟨scopes, hc, hs⟩
    simp only [ScopedExpr] at hs
    obtain ⟨hj, _, _, hcj⟩ := evaluate_after h hc hs.1 hl
    exact ih hj ⟨scopes, hcj, hs.2⟩
  | callee _ ih =>
    rintro h ⟨scopes, hc, hs⟩
    simp only [ScopedExpr] at hs
    exact ih h ⟨scopes, hc, hs.1⟩
  | arguments hcallee _ ih =>
    rintro h ⟨scopes, hc, hs⟩
    simp only [ScopedExpr] at hs
    obtain ⟨hj, _, _, hcj⟩ := evaluate_after h hc hs.1 hcallee
    exact ih hj ⟨scopes, hcj, hs.2⟩
  | callFunction hcallee hargs _ _ ih =>
    rintro h ⟨scopes, hc, hs⟩
    simp only [ScopedExpr] at hs
    obtain ⟨hj, _, hv, hcj⟩ := evaluate_after h hc hs.1 hcallee
    obtain ⟨hk, hg, hvs⟩ := evaluateArguments_after hj hcj hs.2 hargs
    exact ih hk ⟨FunOk.funOk_mono hg hv, hvs⟩
  | callClass hcallee hargs _ _ ih =>
    rintro h ⟨scopes, hc, hs⟩
    simp only [ScopedExpr] at hs
    obtain ⟨hj, _, hv, hcj⟩ := evaluate_after h hc hs.1 hcallee
    obtain ⟨hk, hg, hvs⟩ := evaluateArguments_after hj hcj hs.2 hargs
    exact ih hk ⟨ClassOk.classOk_mono hg hv, hvs⟩
  | getObject _ ih =>
    rintro h ⟨scopes, hc, hs⟩
    simp only [ScopedExpr] at hs
    exact ih h ⟨scopes, hc, hs⟩
  | setObject _ ih =>
    rintro h ⟨scopes, hc, hs⟩
    simp only [ScopedExpr] at hs
    exact ih h ⟨scopes, hc, hs.1⟩
  | setValue hobj _ ih =>
    rintro h ⟨scopes, hc, hs⟩
    simp only [ScopedExpr] at hs
    obtain ⟨hj, _, _, hcj⟩ := evaluate_after h hc hs.1 hobj
    exact ih hj ⟨scopes, hcj, hs.2⟩
  | argument _ ih =>
    rintro h ⟨scopes, hc, hs⟩
    simp only [ScopedExprs] at hs
    exact ih h ⟨scopes, hc, hs.1⟩
  | nextArgument ha _ ih =>
    rintro h ⟨scopes, hc, hs⟩
    simp only [ScopedExprs] at hs
    obtain ⟨hj, _, _, hcj⟩ := evaluate_after h hc hs.1 ha
    exact ih hj ⟨scopes, hcj, hs.2⟩
  | expressionStmt _ ih =>
    rintro h ⟨scopes, hc, hs⟩
    simp only [ScopedStmt] at hs
    exact ih h ⟨scopes, hc, hs⟩
  | printStmt _ ih =>
    rintro h ⟨scopes, hc, hs⟩
    simp only [ScopedStmt] at hs
    exact ih h ⟨scopes, hc, hs⟩
  | varInitializer _ _ ih =>
    rintro h ⟨scopes, hc, hs⟩
    simp only [ScopedStmt] at hs
    exact ih h ⟨scopes, hc, hs.1⟩
  | block _ ih =>
    rintro h ⟨scopes, hc, hs⟩
    simp only [ScopedStmt] at hs
    exact ih (HeapOk.heapOk_of_eq (HeapOk.NewEnvironment h _) rfl rfl rfl)
      ⟨[] :: scopes, FrameChain.frameChain_push hc [] [] (fun x hx => by simp [Map.get] at hx), hs⟩
  | ifCondition _ ih =>
    rintro h ⟨scopes, hc, hs⟩
    simp only [ScopedStmt] at hs
    exact ih h ⟨scopes, hc, hs.1⟩
  | ifThen hcond _ _ ih =>
    rintro h ⟨scopes, hc, hs⟩
    simp only [ScopedStmt] at hs
    obtain ⟨hj, _, _, hcj⟩ := evaluate_after h hc hs.1 hcond
    exact ih hj ⟨scopes, hcj, hs.2.1⟩
  | ifElse hcond _ _ _ ih =>
    rintro h ⟨scopes, hc, hs⟩
    simp only [ScopedStmt] at hs
    obtain ⟨hj, _, _, hcj⟩ := evaluate_after h hc hs.1 hcond
    exact ih hj ⟨scopes, hcj, hs.2.2.2.1⟩
  | whileStmt _ ih =>
    rintro h ⟨scopes, hc, hs⟩
    simp only [ScopedStmt] at hs
    exact ih h ⟨scopes, hc, hs.1, hs.2.1, hs.2.2⟩
  | returnValue _ _ ih =>
    rintro h ⟨scopes, hc, hs⟩
    simp only [ScopedStmt] at hs
    exact ih h ⟨scopes, hc, hs⟩
  | superclass _ ih =>
    rintro h ⟨scopes, hc, hs⟩
    simp only [ScopedStmt] at hs
    exact ih h ⟨scopes, hc, hs.1⟩
  | statement _ ih =>
    rintro h ⟨scopes, hc, hs⟩
    simp only [ScopedStmts] at hs
    exact ih h ⟨scopes, hc, hs.1⟩
  | nextStatement hs1 _ ih =>
    rintro h ⟨scopes, hc, hs⟩
    simp only [ScopedStmts] at hs
    obtain ⟨hj, _, hcj⟩ := execute_after h hc hs.1 hs1
    exact ih hj ⟨_, hcj, hs.2⟩
  | loopCondition _ ih =>
    rintro h ⟨scopes, hc, hs⟩
    exact ih h ⟨scopes, hc, hs.1⟩
  | loopBody hcond _ _ ih =>
    rintro h ⟨scopes, hc, hs⟩
    obtain ⟨hj, _, _, hcj⟩ := evaluate_after h hc hs.1 hcond
    exact ih hj ⟨scopes, hcj, hs.2.1⟩
  | loopAgain hcond _ hbody _ ih =>
    rintro h ⟨scopes, hc, hs⟩
    obtain ⟨hj, _, _, hcj⟩ := evaluate_after h hc hs.1 hcond
    obtain ⟨hk, _, hck⟩ := execute_after hj hcj hs.2.1 hbody
    simp only [scopesAfter, hs.2.2] at hck
    exact ih hk ⟨scopes, hck, hs⟩
  | body hparams _ ih =>
    rintro h ⟨⟨scopes, hc, hs⟩, ha⟩
    rw [ScopedFun_eq] at hs
    rename_i n f arguments i j e' i' _
    obtain ⟨hj, _, _, hcj⟩ := defineParams_kept (NewEnvironment i (some f.Closure)).1 scopes
      f.Declaration.Params arguments _ j [] hparams (HeapOk.NewEnvironment h _)
      (fun a hm => ValOk.valOk_mono (Grows.grows_push _ _) (ha a hm))
      (FrameChain.frameChain_push hc [] [] (fun x hx => by simp [Map.get] at hx)) hs.2
    exact ih (HeapOk.heapOk_of_eq hj rfl rfl rfl) ⟨_, hcj, hs.1⟩
  | initializer hm _ ih =>
    rintro h ⟨hcl, ha⟩
    rename_i n c arguments i m e' i' _
    have h1 := HeapOk.NewLoxInstance h c hcl
    obtain ⟨h2, hg2, h3⟩ := MethodOk.bind h1 (ClassOk.findMethod (E := (NewLoxInstance c i).2.envs)
      hcl hm) (NewLoxInstance c i).1
    have hg2' : Grows i.envs (m.bind (NewLoxInstance c i).1 (NewLoxInstance c i).2).2.envs := hg2
    exact ih h2 ⟨h3, fun a hm => ValOk.valOk_mono hg2' (ha a hm)⟩
  | first _ ih =>
    intro h hs
    simp only [Site.ready, ScopedStmts] at hs
    exact ih h ⟨[], trivial, hs.1⟩
  | next hs1 _ ih =>
    intro h hs
    simp only [Site.ready, ScopedStmts] at hs
    obtain ⟨hj, _, _⟩ := execute_after (S := []) h trivial hs.1 hs1
    rw [scopesAfter_nil] at hs
    exact ih hj hs.2
  | nextAfterError hs1 _ _ ih =>
    intro h hs
    simp only [Site.ready, ScopedStmts] at hs
    rw [scopesAfter_nil] at hs
    exact ih (execute_after_error (S := []) h trivial hs.1 hs1) hs.2

theorem Map.set_set {κ α : Type} [DecidableEq κ] : ∀ (m : Map κ α) (k : κ) (a b : α),
    Map.set (Map.set m k a) k b = Map.set m k b
  | [], k, a, b => by simp [Map.set]
  | (k', w) :: m, k, a, b => by
    by_cases h : k' = k
    · simp [Map.set, h]
    · simp [Map.set, h, Map.set_set m k a b]

/-- `NodeOk` reads the side table at the node only. -/
theorem NodeOk.nodeOk_congr {locals locals' : Map Nat Nat} {scopes : List (Map String Bool)}
    {id : Nat} {name : String} (h : Map.get locals' id = Map.get locals id)
    (hn : NodeOk locals scopes id name) : NodeOk locals' scopes id name :=
  fun d hd => hn d (h ▸ hd)

theorem SuperOk.superOk_congr {locals locals' : Map Nat Nat} {scopes : List (Map String Bool)}
    {id : Nat} (h : Map.get locals' id = Map.get locals id)
    (hn : SuperOk locals scopes id) : SuperOk locals' scopes id :=
  fun d hd => hn d (h ▸ hd)

mutual
/-- `ScopedExpr` reads the side table at the nodes of the expression only. -/
theorem ScopedExpr.scopedExpr_congr {locals locals' : Map Nat Nat} {scopes : List (Map String Bool)} :
    ∀ (e : Expr), (∀ id ∈ e.ids, Map.get locals' id = Map.get locals id) →
      ScopedExpr locals scopes e → ScopedExpr locals' scopes e
  | .nil, _, _ => trivial
  | .Literal _, _, _ => trivial
  | .Grouping e, h, hs => by
    simp only [ScopedExpr] at hs ⊢
    exact ScopedExpr.scopedExpr_congr e (by simpa [Expr.ids] using h) hs
  | .Unary _ r, h, hs => by
    simp only [ScopedExpr] at hs ⊢
    exact ScopedExpr.scopedExpr_congr r (by simpa [Expr.ids] using h) hs
  | .Binary l _ r, h, hs => by
    simp only [ScopedExpr] at hs ⊢
    simp only [Expr.ids, List.mem_append] at h
    exact ⟨ScopedExpr.scopedExpr_congr l (fun id hid => h id (Or.inl hid)) hs.1,
      ScopedExpr.scopedExpr_congr r (fun id hid => h id (Or.inr hid)) hs.2⟩
  | .Logical l _ r, h, hs => by
    simp only [ScopedExpr] at hs ⊢
    simp only [Expr.ids, List.mem_append] at h
    exact ⟨ScopedExpr.scopedExpr_congr l (fun id hid => h id (Or.inl hid)) hs.1,
      ScopedExpr.scopedExpr_congr r (fun id hid => h id (Or.inr hid)) hs.2⟩
  | .Variable v, h, hs => by
    simp only [ScopedExpr] at hs ⊢
    exact NodeOk.nodeOk_congr (h v.id (by simp [Expr.ids])) hs
  | .Assign id name value, h, hs => by
    simp only [ScopedExpr] at hs ⊢
    simp only [Expr.ids, List.mem_cons] at h
    exact ⟨ScopedExpr.scopedExpr_congr value (fun x hx => h x (Or.inr hx)) hs.1,
      NodeOk.nodeOk_congr (h id (Or.inl rfl)) hs.2.1, hs.2.2⟩
  | .Call callee _ args, h, hs => by
    simp only [ScopedExpr] at hs ⊢
    simp only [Expr.ids, List.mem_append] at h
    exact ⟨ScopedExpr.scopedExpr_congr callee (fun id hid => h id (Or.inl hid)) hs.1,
      ScopedExprs.scopedExprs_congr args (fun id hid => h id (Or.inr hid)) hs.2⟩
  | .Get obj _, h, hs => by
    simp only [ScopedExpr] at hs ⊢
    exact ScopedExpr.scopedExpr_congr obj (by simpa [Expr.ids] using h) hs
  | .Set obj _ value, h, hs => by
    simp only [ScopedExpr] at hs ⊢
    simp only [Expr.ids, List.mem_append] at h
    exact ⟨ScopedExpr.scopedExpr_congr obj (fun id hid => h id (Or.inl hid)) hs.1,
      ScopedExpr.scopedExpr_congr value (fun id hid => h id (Or.inr hid)) hs.2⟩
  | .This id kw, h, hs => by
    simp only [ScopedExpr] at hs ⊢
    exact NodeOk.nodeOk_congr (h id (by simp [Expr.ids])) hs
  | .Super id kw m, h, hs => by
    simp only [ScopedExpr] at hs ⊢
    exact SuperOk.superOk_congr (h id (by simp [Expr.ids])) hs
theorem ScopedExprs.scopedExprs_congr {locals locals' : Map Nat Nat} {scopes : List (Map String Bool)} :
    ∀ (args : List Expr), (∀ id ∈ Expr.idsAll args, Map.get locals' id = Map.get locals id) →
      ScopedExprs locals scopes args → ScopedExprs locals' scopes args
  | [], _, _ => trivial
  | e :: rest, h, hs => by
    simp only [ScopedExprs] at hs ⊢
    simp only [Expr.idsAll, List.mem_append] at h
    exact ⟨ScopedExpr.scopedExpr_congr e (fun id hid => h id (Or.inl hid)) hs.1,
      ScopedExprs.scopedExprs_congr rest (fun id hid => h id (Or.inr hid)) hs.2⟩
end

mutual
/-- `ScopedStmt` reads the side table at the nodes of the statement only. -/
theorem ScopedStmt.scopedStmt_congr {locals locals' : Map Nat Nat} :
    ∀ (s : Stmt) (scopes : List (Map String Bool)),
      (∀ id ∈ s.ids, Map.get locals' id = Map.get locals id) →
      ScopedStmt locals scopes s → ScopedStmt locals' scopes s
  | .nil, _, _, _ => by simp only [ScopedStmt]
  | .ExpressionStmt e, scopes, h, hs => by
    simp only [ScopedStmt] at hs ⊢
    exact ScopedExpr.scopedExpr_congr e (by simpa [Stmt.ids] using h) hs
  | .PrintStmt e, scopes, h, hs => by
    simp only [ScopedStmt] at hs ⊢
    exact ScopedExpr.scopedExpr_congr e (by simpa [Stmt.ids] using h) hs
  | .VarStmt _ init, scopes, h, hs => by
    simp only [ScopedStmt] at hs ⊢
    exact ⟨ScopedExpr.scopedExpr_congr init (by simpa [Stmt.ids] using h) hs.1, hs.2⟩
  | .BlockStmt statements, scopes, h, hs => by
    simp only [ScopedStmt] at hs ⊢
    exact ScopedStmts.scopedStmts_congr statements _ (by simpa [Stmt.ids] using h) hs
  | .IfStmt c th el, scopes, h, hs => by
    simp only [ScopedStmt] at hs ⊢
    simp only [Stmt.ids, List.mem_append] at h
    exact ⟨ScopedExpr.scopedExpr_congr c (fun id hid => h id (Or.inl hid)) hs.1,
      ScopedStmt.scopedStmt_congr th scopes (fun id hid => h id (Or.inr (Or.inl hid))) hs.2.1, hs.2.2.1,
      ScopedStmt.scopedStmt_congr el scopes (fun id hid => h id (Or.inr (Or.inr hid))) hs.2.2.2.1,
      hs.2.2.2.2⟩
  | .WhileStmt c b, scopes, h, hs => by
    simp only [ScopedStmt] at hs ⊢
    simp only [Stmt.ids, List.mem_append] at h
    exact ⟨ScopedExpr.scopedExpr_congr c (fun id hid => h id (Or.inl hid)) hs.1,
      ScopedStmt.scopedStmt_congr b scopes (fun id hid => h id (Or.inr hid)) hs.2.1, hs.2.2⟩
  | .Function f, scopes, h, hs => by
    simp only [ScopedStmt] at hs ⊢
    exact ⟨ScopedFun.scopedFun_congr f _ (by simpa [Stmt.ids] using h) hs.1, hs.2⟩
  | .ReturnStmt _ value, scopes, h, hs => by
    simp only [ScopedStmt] at hs ⊢
    exact ScopedExpr.scopedExpr_congr value (by simpa [Stmt.ids] using h) hs
  | .ClassStmt name sc methods, scopes, h, hs => by
    simp only [ScopedStmt] at hs ⊢
    simp only [Stmt.ids, List.mem_append] at h
    refine ⟨?_, ScopedMethods.scopedMethods_congr methods _ (fun id hid => h id (Or.inr hid)) hs.2.1,
      hs.2.2⟩
    cases sc with
    | none => trivial
    | some v => exact NodeOk.nodeOk_congr (h v.id (Or.inl (by simp))) hs.1
theorem ScopedStmts.scopedStmts_congr {locals locals' : Map Nat Nat} :
    ∀ (statements : List Stmt) (scopes : List (Map String Bool)),
      (∀ id ∈ Stmt.idsAll statements, Map.get locals' id = Map.get locals id) →
      ScopedStmts locals scopes statements → ScopedStmts locals' scopes statements
  | [], _, _, _ => by simp only [ScopedStmts]
  | s :: rest, scopes, h, hs => by
    simp only [ScopedStmts] at hs ⊢
    simp only [Stmt.idsAll, List.mem_append] at h
    exact ⟨ScopedStmt.scopedStmt_congr s scopes (fun id hid => h id (Or.inl hid)) hs.1,
      ScopedStmts.scopedStmts_congr rest _ (fun id hid => h id (Or.inr hid)) hs.2⟩
theorem ScopedFun.scopedFun_congr {locals locals' : Map Nat Nat} :
    ∀ (f : FunctionStmt) (scopes : List (Map String Bool)),
      (∀ id ∈ f.ids, Map.get locals' id = Map.get locals id) →
      ScopedFun locals scopes f → ScopedFun locals' scopes f
  | .mk _ params body, scopes, h, hs => by
    simp only [ScopedFun] at hs ⊢
    exact ⟨ScopedStmts.scopedStmts_congr body _ (by simpa [FunctionStmt.ids] using h) hs.1, hs.2⟩
theorem ScopedMethods.scopedMethods_congr {locals locals' : Map Nat Nat} :
    ∀ (methods : List FunctionStmt) (scopes : List (Map String Bool)),
      (∀ id ∈ FunctionStmt.idsAll methods, Map.get locals' id = Map.get locals id) →
      ScopedMethods locals scopes methods → ScopedMethods locals' scopes methods
  | [], _, _, _ => by simp only [ScopedMethods]
  | m :: rest, scopes, h, hs => by
    simp only [ScopedMethods] at hs ⊢
    simp only [FunctionStmt.idsAll, List.mem_append] at h
    exact ⟨ScopedFun.scopedFun_congr m scopes (fun id hid => h id (Or.inl hid)) hs.1,
      ScopedMethods.scopedMethods_congr rest scopes (fun id hid => h id (Or.inr hid)) hs.2⟩
end

/-- `scopes` defines at least what `scopes'` defines, scope by scope. -/
theorem NodeOk.nodeOk_mono {locals : Map Nat Nat} {scopes scopes' : List (Map String Bool)}
    (hle : ∀ (d : Nat) (scope : Map String Bool) (name : String),
      scopes'[d]? = some scope → Map.get scope name = some true →
      ∃ scope0, scopes[d]? = some scope0 ∧ Map.get scope0 name = some true)
    {id : Nat} {name : String} (h : NodeOk locals scopes' id name) :
    NodeOk locals scopes id name := by
  intro d hd
  obtain ⟨scope, h1, h2⟩ := h d hd
  exact hle d scope name h1 h2

theorem SuperOk.superOk_mono {locals : Map Nat Nat} {scopes scopes' : List (Map String Bool)}
    (hle : ∀ (d : Nat) (scope : Map String Bool) (name : String),
      scopes'[d]? = some scope → Map.get scope name = some true →
      ∃ scope0, scopes[d]? = some scope0 ∧ Map.get scope0 name = some true)
    {id : Nat} (h : SuperOk locals scopes' id) : SuperOk locals scopes id := by
  intro d hd
  obtain ⟨h0, ⟨s1, h1, h2⟩, ⟨s2, h3, h4⟩⟩ := h d hd
  exact ⟨h0, hle d s1 _ h1 h2, hle (d - 1) s2 _ h3 h4⟩

mutual
theorem ScopedExpr.scopedExpr_mono {locals : Map Nat Nat} {scopes scopes' : List (Map String Bool)}
    (hle : ∀ (d : Nat) (scope : Map String Bool) (name : String),
      scopes'[d]? = some scope → Map.get scope name = some true →
      ∃ scope0, scopes[d]? = some scope0 ∧ Map.get scope0 name = some true) :
    ∀ (e : Expr), ScopedExpr locals scopes' e → ScopedExpr locals scopes e
  | .nil, _ => trivial
  | .Literal _, _ => trivial
  | .Grouping e, hs => by
    simp only [ScopedExpr] at hs ⊢
    exact ScopedExpr.scopedExpr_mono hle e hs
  | .Unary _ r, hs => by
    simp only [ScopedExpr] at hs ⊢
    exact ScopedExpr.scopedExpr_mono hle r hs
  | .Binary l _ r, hs => by
    simp only [ScopedExpr] at hs ⊢
    exact ⟨ScopedExpr.scopedExpr_mono hle l hs.1, ScopedExpr.scopedExpr_mono hle r hs.2⟩
  | .Logical l _ r, hs => by
    simp only [ScopedExpr] at hs ⊢
    exact ⟨ScopedExpr.scopedExpr_mono hle l hs.1, ScopedExpr.scopedExpr_mono hle r hs.2⟩
  | .Variable v, hs => by
    simp only [ScopedExpr] at hs ⊢
    exact NodeOk.nodeOk_mono hle hs
  | .Assign id name value, hs => by
    simp only [ScopedExpr] at hs ⊢
    exact ⟨ScopedExpr.scopedExpr_mono hle value hs.1, NodeOk.nodeOk_mono hle hs.2.1, hs.2.2⟩
  | .Call callee _ args, hs => by
    simp only [ScopedExpr] at hs ⊢
    exact ⟨ScopedExpr.scopedExpr_mono hle callee hs.1, ScopedExprs.scopedExprs_mono hle args hs.2⟩
  | .Get obj _, hs => by
    simp only [ScopedExpr] at hs ⊢
    exact ScopedExpr.scopedExpr_mono hle obj hs
  | .Set obj _ value, hs => by
    simp only [ScopedExpr] at hs ⊢
    exact ⟨ScopedExpr.scopedExpr_mono hle obj hs.1, ScopedExpr.scopedExpr_mono hle value hs.2⟩
  | .This id kw, hs => by
    simp only [ScopedExpr] at hs ⊢
    exact NodeOk.nodeOk_mono hle hs
  | .Super id kw m, hs => by
    simp only [ScopedExpr] at hs ⊢
    exact SuperOk.superOk_mono hle hs
theorem ScopedExprs.scopedExprs_mono {locals : Map Nat Nat} {scopes scopes' : List (Map String Bool)}
    (hle : ∀ (d : Nat) (scope : Map String Bool) (name : String),
      scopes'[d]? = some scope → Map.get scope name = some true →
      ∃ scope0, scopes[d]? = some scope0 ∧ Map.get scope0 name = some true) :
    ∀ (args : List Expr), ScopedExprs locals scopes' args → ScopedExprs locals scopes args
  | [], _ => trivial
  | e :: rest, hs => by
    simp only [ScopedExprs] at hs ⊢
    exact ⟨ScopedExpr.scopedExpr_mono hle e hs.1, ScopedExprs.scopedExprs_mono hle rest hs.2⟩
end

theorem Resolver.Wrote.nothing (ids : List Nat) (r : Resolver) : Resolver.Wrote ids r r :=
  ⟨fun h => h, fun _ _ => rfl⟩

theorem Resolver.Wrote.andWrote {a b : List Nat} {r r1 r' : Resolver}
    (h1 : Resolver.Wrote a r r1) (h2 : Resolver.Wrote b r1 r') :
    Resolver.Wrote (a ++ b) r r' :=
  ⟨fun h => h1.errors (h2.errors h), fun id hid => by
    simp only [List.mem_append, not_or] at hid
    rw [h2.others id hid.2, h1.others id hid.1]⟩

theorem Resolver.Wrote.of_subset {a b : List Nat} {r r' : Resolver}
    (h : Resolver.Wrote a r r') (hs : ∀ id ∈ a, id ∈ b) : Resolver.Wrote b r r' :=
  ⟨h.errors, fun id hid => h.others id fun ha => hid (hs id ha)⟩

theorem Resolver.Wrote.wrote_of_eq {ids : List Nat} {r r' : Resolver}
    (he : r'.errors = r.errors) (hl : r'.locals = r.locals) : Resolver.Wrote ids r r' :=
  ⟨fun h => he ▸ h, fun _ _ => by rw [hl]⟩

/-- The nodes not yet visited are still without a distance. -/
theorem Resolver.Wrote.fresh {a b : List Nat} {r r1 : Resolver} (h : Resolver.Wrote a r r1)
    (hn : (a ++ b).Nodup) (hf : ∀ id ∈ a ++ b, Map.get r.locals id = none) :
    ∀ id ∈ b, Map.get r1.locals id = none := by
  intro id hid
  have hna : id ∉ a := fun ha => (List.nodup_append.1 hn).2.2 ha hid
  rw [h.others id hna]
  exact hf id (List.mem_append_right _ hid)

theorem Resolver.resolveLocalLoop_sound (r : Resolver) (id : Nat) (name : Token) :
    ∀ (scopes : List (Map String Bool)) (depth : Nat),
    Resolver.Wrote [id] r (r.resolveLocalLoop id name scopes depth) ∧
    ((r.resolveLocalLoop id name scopes depth).errors.HadError = false →
      (r.resolveLocalLoop id name scopes depth).locals = r.locals ∨
      ∃ k scope, Map.get (r.resolveLocalLoop id name scopes depth).locals id = some (depth + k) ∧
        scopes[k]? = some scope ∧ Map.get scope name.Lexeme = some true)
  | [], depth => ⟨Resolver.Wrote.nothing _ _, fun _ => Or.inl rfl⟩
  | scope :: rest, depth => by
    simp only [Resolver.resolveLocalLoop]
    cases hg : Map.get scope name.Lexeme with
    | none =>
      simp only
      obtain ⟨h1, h2⟩ := Resolver.resolveLocalLoop_sound r id name rest (depth + 1)
      refine ⟨h1, fun he => ?_⟩
      rcases h2 he with h3 | ⟨k, sc, h3, h4, h5⟩
      · exact Or.inl h3
      · exact Or.inr ⟨k + 1, sc, by rw [h3]; congr 1; omega, by simpa using h4, h5⟩
    | some b =>
      cases b with
      | false =>
        simp only [Bool.not_false, if_true]
        refine ⟨⟨fun he => ?_, fun id' hid => ?_⟩, fun he => ?_⟩
        · simp [Error, report] at he
        · simp only [List.mem_singleton] at hid
          exact Map.get_set_ne _ _ _ _ (fun h => hid h.symm)
        · simp [Error, report] at he
      | true =>
        simp only [Bool.not_true, Bool.false_eq_true, if_false]
        refine ⟨⟨fun he => he, fun id' hid => ?_⟩, fun _ => Or.inr ⟨0, scope, ?_, by simp, hg⟩⟩
        · simp only [List.mem_singleton] at hid
          exact Map.get_set_ne _ _ _ _ (fun h => hid h.symm)
        · exact Map.get_set_self _ _ _

theorem Resolver.resolveLocal_wrote (r : Resolver) (id : Nat) (name : Token) :
    Resolver.Wrote [id] r (r.resolveLocal id name) :=
  (Resolver.resolveLocalLoop_sound r id name r.scopes 0).1

/-- The distance that `resolveLocal` records for a node names a scope that defines the
name, if nothing is reported. -/
theorem Resolver.resolveLocal_nodeOk (r : Resolver) (id : Nat) (name : Token)
    (he : (r.resolveLocal id name).errors.HadError = false)
    (hf : Map.get r.locals id = none) :
    NodeOk (r.resolveLocal id name).locals r.scopes id name.Lexeme := by
  intro d hd
  rcases (Resolver.resolveLocalLoop_sound r id name r.scopes 0).2 he with h | ⟨k, sc, h1, h2, h3⟩
  · have h' : (r.resolveLocal id name).locals = r.locals := h
    rw [h', hf] at hd
    cases hd
  · have h1' : Map.get (r.resolveLocal id name).locals id = some (0 + k) := h1
    rw [h1'] at hd
    cases hd
    exact ⟨sc, by simpa using h2, h3⟩

/-- The distance that `resolveLocal` records for `super`. -/
theorem Resolver.resolveLocal_superOk (r : Resolver) (id : Nat) (name : Token)
    (he : (r.resolveLocal id name).errors.HadError = false)
    (hf : Map.get r.locals id = none) (hn : name.Lexeme = "super") (hi : SuperInv r.scopes) :
    SuperOk (r.resolveLocal id name).locals r.scopes id := by
  intro d hd
  obtain ⟨sc, h1, h2⟩ := Resolver.resolveLocal_nodeOk r id name he hf d hd
  rw [hn] at h2
  obtain ⟨_, k, inner, h4, h5, h6⟩ := hi d sc h1 (by rw [h2]; simp)
  subst h4
  exact ⟨by omega, ⟨sc, h1, h2⟩, ⟨inner, by simpa using h5, h6⟩⟩

theorem Resolver.VisitVariableExpr_ok {r r' : Resolver} {v : Variable}
    (h : r.VisitVariableExpr v = RRes.ok r') : r' = r.resolveLocal v.id v.Name := by
  unfold Resolver.VisitVariableExpr at h
  split at h
  · split at h
    · cases h
    · cases h; rfl
  · cases h; rfl

theorem Resolver.VisitThisExpr_ok {r r' : Resolver} {id : Nat} {kw : Token}
    (h : r.VisitThisExpr id kw = RRes.ok r') : r' = r.resolveLocal id kw := by
  unfold Resolver.VisitThisExpr at h
  split at h
  · cases h
  · cases h; rfl

theorem Resolver.VisitSuperExpr_ok {r r' : Resolver} {id : Nat} {kw : Token}
    (h : r.VisitSuperExpr id kw = RRes.ok r') : r' = r.resolveLocal id kw := by
  unfold Resolver.VisitSuperExpr at h
  split at h
  · cases h
  · split at h
    · cases h
    · cases h; rfl

mutual
/-- The resolver writes the side table at the nodes of the expression only. -/
theorem Resolver.resolveExpr_wrote : ∀ (e : Expr) (r r' : Resolver),
    Resolver.resolveExpr e r = RRes.ok r' → Resolver.Wrote e.ids r r'
  | .nil, r, r', h => by simp [Resolver.resolveExpr] at h
  | .Literal _, r, r', h => by
    simp only [Resolver.resolveExpr] at h
    cases h
    exact Resolver.Wrote.nothing _ _
  | .Grouping e, r, r', h => by
    simp only [Resolver.resolveExpr] at h
    exact Resolver.resolveExpr_wrote e r r' h
  | .Unary _ rt, r, r', h => by
    simp only [Resolver.resolveExpr] at h
    exact Resolver.resolveExpr_wrote rt r r' h
  | .Binary l _ rt, r, r', h => by
    simp only [Resolver.resolveExpr] at h
    obtain ⟨r1, h1, h2⟩ := RRes.andThen_ok h
    exact (Resolver.resolveExpr_wrote l r r1 h1).andWrote (Resolver.resolveExpr_wrote rt r1 r' h2)
  | .Logical l _ rt, r, r', h => by
    simp only [Resolver.resolveExpr] at h
    obtain ⟨r1, h1, h2⟩ := RRes.andThen_ok h
    exact (Resolver.resolveExpr_wrote l r r1 h1).andWrote (Resolver.resolveExpr_wrote rt r1 r' h2)
  | .Variable v, r, r', h => by
    simp only [Resolver.resolveExpr] at h
    rw [Resolver.VisitVariableExpr_ok h]
    exact Resolver.resolveLocal_wrote r v.id v.Name
  | .Assign id name value, r, r', h => by
    simp only [Resolver.resolveExpr] at h
    obtain ⟨r1, h1, h2⟩ := RRes.andThen_ok h
    cases h2
    exact ((Resolver.resolveExpr_wrote value r r1 h1).andWrote
      (Resolver.resolveLocal_wrote r1 id name)).of_subset (by simp [Expr.ids]; tauto)
  | .Call callee _ args, r, r', h => by
    simp only [Resolver.resolveExpr] at h
    obtain ⟨r1, h1, h2⟩ := RRes.andThen_ok h
    exact (Resolver.resolveExpr_wrote callee r r1 h1).andWrote
      (Resolver.resolveArguments_wrote args r1 r' h2)
  | .Get obj _, r, r', h => by
    simp only [Resolver.resolveExpr] at h
    exact Resolver.resolveExpr_wrote obj r r' h
  | .Set obj _ value, r, r', h => by
    simp only [Resolver.resolveExpr] at h
    obtain ⟨r1, h1, h2⟩ := RRes.andThen_ok h
    exact ((Resolver.resolveExpr_wrote value r r1 h1).andWrote
      (Resolver.resolveExpr_wrote obj r1 r' h2)).of_subset (by simp [Expr.ids]; tauto)
  | .This id kw, r, r', h => by
    simp only [Resolver.resolveExpr] at h
    rw [Resolver.VisitThisExpr_ok h]
    exact Resolver.resolveLocal_wrote r id kw
  | .Super id kw _, r, r', h => by
    simp only [Resolver.resolveExpr] at h
    rw [Resolver.VisitSuperExpr_ok h]
    exact Resolver.resolveLocal_wrote r id kw
theorem Resolver.resolveArguments_wrote : ∀ (args : List Expr) (r r' : Resolver),
    Resolver.resolveArguments args r = RRes.ok r' → Resolver.Wrote (Expr.idsAll args) r r'
  | [], r, r', h => by
    simp only [Resolver.resolveArguments] at h
    cases h
    exact Resolver.Wrote.nothing _ _
  | a :: rest, r, r', h => by
    simp only [Resolver.resolveArguments] at h
    obtain ⟨r1, h1, h2⟩ := RRes.andThen_ok h
    exact (Resolver.resolveExpr_wrote a r r1 h1).andWrote
      (Resolver.resolveArguments_wrote rest r1 r' h2)
end

/-- What was recorded for an expression stays when other nodes are visited. -/
theorem ScopedExpr.scopedExpr_after {scopes : List (Map String Bool)} {e : Expr} {r1 r' : Resolver}
    {b : List Nat} (w : Resolver.Wrote b r1 r') (hd : ∀ id ∈ e.ids, id ∉ b)
    (hs : ScopedExpr r1.locals scopes e) : ScopedExpr r'.locals scopes e :=
  ScopedExpr.scopedExpr_congr e (fun id hid => w.others id (hd id hid)) hs

theorem ScopedExprs.scopedExprs_after {scopes : List (Map String Bool)} {args : List Expr}
    {r1 r' : Resolver} {b : List Nat} (w : Resolver.Wrote b r1 r')
    (hd : ∀ id ∈ Expr.idsAll args, id ∉ b) (hs : ScopedExprs r1.locals scopes args) :
    ScopedExprs r'.locals scopes args :=
  ScopedExprs.scopedExprs_congr args (fun id hid => w.others id (hd id hid)) hs

theorem nodup_left_not_right {a b : List Nat} (h : (a ++ b).Nodup) :
    ∀ id ∈ a, id ∉ b :=
  fun _ ha hb => (List.nodup_append.1 h).2.2 ha hb

theorem nodup_right_not_left {a b : List Nat} (h : (a ++ b).Nodup) :
    ∀ id ∈ b, id ∉ a :=
  fun _ hb ha => (List.nodup_append.1 h).2.2 ha hb

mutual
/-- Every distance that the resolver records in an expression without reporting anything
names a scope of its stack that defines the name. -/
theorem Resolver.resolveExpr_sound : ∀ (e : Expr) (r r' : Resolver),
    Resolver.resolveExpr e r = RRes.ok r' → r'.errors.HadError = false → e.shaped →
    SuperInv r.scopes → e.ids.Nodup → (∀ id ∈ e.ids, Map.get r.locals id = none) →
    ScopedExpr r'.locals r.scopes e
  | .nil, r, r', h, _, _, _, _, _ => by simp [Resolver.resolveExpr] at h
  | .Literal _, r, r', h, _, _, _, _, _ => trivial
  | .Grouping e, r, r', h, he, hw, hi, hn, hf => by
    simp only [Resolver.resolveExpr] at h
    simp only [ScopedExpr]
    exact Resolver.resolveExpr_sound e r r' h he hw hi hn hf
  | .Unary _ rt, r, r', h, he, hw, hi, hn, hf => by
    simp only [Resolver.resolveExpr] at h
    simp only [ScopedExpr]
    exact Resolver.resolveExpr_sound rt r r' h he hw hi hn hf
  | .Binary l _ rt, r, r', h, he, hw, hi, hn, hf => by
    simp only [Resolver.resolveExpr] at h
    obtain ⟨r1, h1, h2⟩ := RRes.andThen_ok h
    simp only [Expr.shaped] at hw
    simp only [Expr.ids] at hn hf
    have w1 := Resolver.resolveExpr_wrote l r r1 h1
    have w2 := Resolver.resolveExpr_wrote rt r1 r' h2
    have k1 := (Resolver.resolveExpr_kept l r r1 h1).scopes
    simp only [ScopedExpr]
    refine ⟨ScopedExpr.scopedExpr_after w2 (nodup_left_not_right hn)
      (Resolver.resolveExpr_sound l r r1 h1 (w2.errors he) hw.1 hi (List.Nodup.of_append_left hn)
        fun id hid => hf id (List.mem_append_left _ hid)), ?_⟩
    rw [← k1]
    exact Resolver.resolveExpr_sound rt r1 r' h2 he hw.2 (k1 ▸ hi) (List.Nodup.of_append_right hn)
      (w1.fresh hn hf)
  | .Logical l _ rt, r, r', h, he, hw, hi, hn, hf => by
    simp only [Resolver.resolveExpr] at h
    obtain ⟨r1, h1, h2⟩ := RRes.andThen_ok h
    simp only [Expr.shaped] at hw
    simp only [Expr.ids] at hn hf
    have w1 := Resolver.resolveExpr_wrote l r r1 h1
    have w2 := Resolver.resolveExpr_wrote rt r1 r' h2
    have k1 := (Resolver.resolveExpr_kept l r r1 h1).scopes
    simp only [ScopedExpr]
    refine ⟨ScopedExpr.scopedExpr_after w2 (nodup_left_not_right hn)
      (Resolver.resolveExpr_sound l r r1 h1 (w2.errors he) hw.1 hi (List.Nodup.of_append_left hn)
        fun id hid => hf id (List.mem_append_left _ hid)), ?_⟩
    rw [← k1]
    exact Resolver.resolveExpr_sound rt r1 r' h2 he hw.2 (k1 ▸ hi) (List.Nodup.of_append_right hn)
      (w1.fresh hn hf)
  | .Variable v, r, r', h, he, _, _, _, hf => by
    simp only [Resolver.resolveExpr] at h
    have hr := Resolver.VisitVariableExpr_ok h
    subst hr
    simp only [ScopedExpr]
    exact Resolver.resolveLocal_nodeOk r v.id v.Name he (hf v.id (by simp [Expr.ids]))
  | .Assign id name value, r, r', h, he, hw, hi, hn, hf => by
    simp only [Resolver.resolveExpr] at h
    obtain ⟨r1, h1, h2⟩ := RRes.andThen_ok h
    cases h2
    simp only [Expr.shaped] at hw
    simp only [Expr.ids, List.nodup_cons] at hn
    simp only [Expr.ids, List.mem_cons] at hf
    have w1 := Resolver.resolveExpr_wrote value r r1 h1
    have w2 := Resolver.resolveLocal_wrote r1 id name
    have k1 := (Resolver.resolveExpr_kept value r r1 h1).scopes
    simp only [ScopedExpr]
    refine ⟨ScopedExpr.scopedExpr_after w2 (fun x hx => by
        simp only [List.mem_singleton]
        rintro rfl
        exact hn.1 hx)
      (Resolver.resolveExpr_sound value r r1 h1 (w2.errors he) hw.2 hi hn.2
        fun x hx => hf x (Or.inr hx)), ?_, hw.1⟩
    rw [← k1]
    refine Resolver.resolveLocal_nodeOk r1 id name he ?_
    rw [w1.others id hn.1]
    exact hf id (Or.inl rfl)
  | .Call callee _ args, r, r', h, he, hw, hi, hn, hf => by
    simp only [Resolver.resolveExpr] at h
    obtain ⟨r1, h1, h2⟩ := RRes.andThen_ok h
    simp only [Expr.shaped] at hw
    simp only [Expr.ids] at hn hf
    have w1 := Resolver.resolveExpr_wrote callee r r1 h1
    have w2 := Resolver.resolveArguments_wrote args r1 r' h2
    have k1 := (Resolver.resolveExpr_kept callee r r1 h1).scopes
    simp only [ScopedExpr]
    refine ⟨ScopedExpr.scopedExpr_after w2 (nodup_left_not_right hn)
      (Resolver.resolveExpr_sound callee r r1 h1 (w2.errors he) hw.1 hi
        (List.Nodup.of_append_left hn) fun id hid => hf id (List.mem_append_left _ hid)), ?_⟩
    rw [← k1]
    exact Resolver.resolveArguments_sound args r1 r' h2 he hw.2 (k1 ▸ hi)
      (List.Nodup.of_append_right hn) (w1.fresh hn hf)
  | .Get obj _, r, r', h, he, hw, hi, hn, hf => by
    simp only [Resolver.resolveExpr] at h
    simp only [ScopedExpr]
    exact Resolver.resolveExpr_sound obj r r' h he hw hi hn hf
  | .Set obj _ value, r, r', h, he, hw, hi, hn, hf => by
    simp only [Resolver.resolveExpr] at h
    obtain ⟨r1, h1, h2⟩ := RRes.andThen_ok h
    simp only [Expr.shaped] at hw
    simp only [Expr.ids] at hn hf
    have hn' : (value.ids ++ obj.ids).Nodup := List.nodup_append_comm.1 hn
    have hf' : ∀ id ∈ value.ids ++ obj.ids, Map.get r.locals id = none := fun id hid =>
      hf id (by simp only [List.mem_append] at hid ⊢; tauto)
    have w1 := Resolver.resolveExpr_wrote value r r1 h1
    have w2 := Resolver.resolveExpr_wrote obj r1 r' h2
    have k1 := (Resolver.resolveExpr_kept value r r1 h1).scopes
    simp only [ScopedExpr]
    refine ⟨?_, ScopedExpr.scopedExpr_after w2 (nodup_left_not_right hn')
      (Resolver.resolveExpr_sound value r r1 h1 (w2.errors he) hw.2 hi
        (List.Nodup.of_append_right hn) fun id hid => hf id (List.mem_append_right _ hid))⟩
    rw [← k1]
    exact Resolver.resolveExpr_sound obj r1 r' h2 he hw.1 (k1 ▸ hi) (List.Nodup.of_append_left hn)
      (w1.fresh hn' hf')
  | .This id kw, r, r', h, he, _, _, _, hf => by
    simp only [Resolver.resolveExpr] at h
    have hr := Resolver.VisitThisExpr_ok h
    subst hr
    simp only [ScopedExpr]
    exact Resolver.resolveLocal_nodeOk r id kw he (hf id (by simp [Expr.ids]))
  | .Super id kw _, r, r', h, he, hw, hi, _, hf => by
    simp only [Resolver.resolveExpr] at h
    have hr := Resolver.VisitSuperExpr_ok h
    subst hr
    simp only [Expr.shaped] at hw
    simp only [ScopedExpr]
    exact Resolver.resolveLocal_superOk r id kw he (hf id (by simp [Expr.ids])) hw hi
theorem Resolver.resolveArguments_sound : ∀ (args : List Expr) (r r' : Resolver),
    Resolver.resolveArguments args r = RRes.ok r' → r'.errors.HadError = false →
    Expr.shapedAll args → SuperInv r.scopes → (Expr.idsAll args).Nodup →
    (∀ id ∈ Expr.idsAll args, Map.get r.locals id = none) →
    ScopedExprs r'.locals r.scopes args
  | [], r, r', h, _, _, _, _, _ => trivial
  | a :: rest, r, r', h, he, hw, hi, hn, hf => by
    simp only [Resolver.resolveArguments] at h
    obtain ⟨r1, h1, h2⟩ := RRes.andThen_ok h
    simp only [Expr.shapedAll] at hw
    simp only [Expr.idsAll] at hn hf
    have w1 := Resolver.resolveExpr_wrote a r r1 h1
    have w2 := Resolver.resolveArguments_wrote rest r1 r' h2
    have k1 := (Resolver.resolveExpr_kept a r r1 h1).scopes
    simp only [ScopedExprs]
    refine ⟨ScopedExpr.scopedExpr_after w2 (nodup_left_not_right hn)
      (Resolver.resolveExpr_sound a r r1 h1 (w2.errors he) hw.1 hi (List.Nodup.of_append_left hn)
        fun id hid => hf id (List.mem_append_left _ hid)), ?_⟩
    rw [← k1]
    exact Resolver.resolveArguments_sound rest r1 r' h2 he hw.2 (k1 ▸ hi)
      (List.Nodup.of_append_right hn) (w1.fresh hn hf)
end

/-! ## The scopes of the resolver after a declaration -/

theorem Resolver.declare_exact {r r' : Resolver} {name : Token}
    (h : r.declare name = RRes.ok r') :
    r'.locals = r.locals ∧ r'.errors = r.errors ∧
    ((r.scopes = [] ∧ r'.scopes = []) ∨
      ∃ top rest, r.scopes = top :: rest ∧ Map.get top name.Lexeme = none ∧
        r'.scopes = Map.set top name.Lexeme false :: rest) := by
  unfold Resolver.declare at h
  cases hs : r.scopes with
  | nil =>
    rw [hs] at h
    cases h
    exact ⟨rfl, rfl, Or.inl ⟨rfl, hs⟩⟩
  | cons top rest =>
    rw [hs] at h
    simp only at h
    cases hg : Map.get top name.Lexeme with
    | some b => rw [hg] at h; cases h
    | none =>
      rw [hg] at h
      cases h
      exact ⟨rfl, rfl, Or.inr ⟨top, rest, rfl, hg, rfl⟩⟩

theorem Resolver.define_scopes (r : Resolver) (name : Token) :
    (r.define name).scopes = defineTop r.scopes name.Lexeme ∧
    (r.define name).locals = r.locals ∧ (r.define name).errors = r.errors := by
  unfold Resolver.define defineTop
  cases hs : r.scopes with
  | nil => simp [hs]
  | cons top rest => simp

/-- After `declare` and `define` the innermost scope defines the name. -/
theorem Resolver.declare_define {r r1 : Resolver} {name : Token}
    (h : r.declare name = RRes.ok r1) :
    (r1.define name).scopes = defineTop r.scopes name.Lexeme := by
  obtain ⟨_, _, h1 | ⟨top, rest, h1, _, h2⟩⟩ := Resolver.declare_exact h
  · rw [(Resolver.define_scopes r1 name).1, h1.1, h1.2]
  · rw [(Resolver.define_scopes r1 name).1, h1, h2]
    simp only [defineTop, Map.set_set]

theorem Resolver.declareDroppingError_define (r : Resolver) (name : Token) :
    ((r.declareDroppingError name).define name).scopes = defineTop r.scopes name.Lexeme ∧
    ((r.declareDroppingError name).define name).locals = r.locals ∧
    ((r.declareDroppingError name).define name).errors = r.errors := by
  unfold Resolver.declareDroppingError
  cases hd : r.declare name with
  | ok r1 =>
    obtain ⟨h1, h2, _⟩ := Resolver.declare_exact hd
    exact ⟨Resolver.declare_define hd, (Resolver.define_scopes r1 name).2.1.trans h1,
      (Resolver.define_scopes r1 name).2.2.trans h2⟩
  | err m r1 =>
    have := Resolver.declare_err hd
    subst this
    exact Resolver.define_scopes r1 name
  | panic m => exact Resolver.define_scopes r name

theorem Resolver.declareParams_exact : ∀ (params : List Token) (r r' : Resolver),
    Resolver.declareParams params r = RRes.ok r' →
    r'.locals = r.locals ∧ r'.errors = r.errors ∧
    ∀ top rest, r.scopes = top :: rest →
      r'.scopes = params.foldl (fun scope param => Map.set scope param.Lexeme true) top :: rest
  | [], r, r', h => by
    simp only [Resolver.declareParams] at h
    cases h
    exact ⟨rfl, rfl, fun top rest hs => hs⟩
  | p :: ps, r, r', h => by
    simp only [Resolver.declareParams] at h
    obtain ⟨r1, h1, h2⟩ := RRes.andThen_ok h
    obtain ⟨a1, a2, a3⟩ := Resolver.declare_exact h1
    obtain ⟨b1, b2, b3⟩ := Resolver.declareParams_exact ps _ r' h2
    have hd := Resolver.declare_define h1
    refine ⟨b1.trans ((Resolver.define_scopes r1 p).2.1.trans a1),
      b2.trans ((Resolver.define_scopes r1 p).2.2.trans a2), fun top rest hs => ?_⟩
    rw [hs] at hd
    exact b3 _ rest hd

/-! ## The scopes that hold `super` -/

theorem SuperInv.top_none {top : Map String Bool} {rest : List (Map String Bool)}
    (h : SuperInv (top :: rest)) : Map.get top "super" = none := by
  by_contra hn
  obtain ⟨_, k, _, hk, _⟩ := h 0 top (by simp) hn
  omega

theorem SuperInv.superInv_push {scopes : List (Map String Bool)} (h : SuperInv scopes)
    (scope : Map String Bool) (hs : Map.get scope "super" = none) :
    SuperInv (scope :: scopes) := by
  intro d sc hd hn
  cases d with
  | zero =>
    simp only [List.getElem?_cons_zero, Option.some.injEq] at hd
    subst hd
    exact absurd hs hn
  | succ d =>
    simp only [List.getElem?_cons_succ] at hd
    obtain ⟨h1, k, inner, h2, h3, h4⟩ := h d sc hd hn
    exact ⟨h1, k + 1, inner, by omega, by simpa using h3, h4⟩

theorem SuperInv.setTop {top top' : Map String Bool} {rest : List (Map String Bool)}
    (h : SuperInv (top :: rest)) (hs : Map.get top' "super" = Map.get top "super")
    (ht : Map.get top "this" = some true → Map.get top' "this" = some true) :
    SuperInv (top' :: rest) := by
  intro d sc hd hn
  cases d with
  | zero =>
    simp only [List.getElem?_cons_zero, Option.some.injEq] at hd
    subst hd
    rw [hs, h.top_none] at hn
    exact absurd rfl hn
  | succ d =>
    simp only [List.getElem?_cons_succ] at hd
    obtain ⟨h1, k, inner, h2, h3, h4⟩ := h (d + 1) sc (by simpa using hd) hn
    refine ⟨h1, k, ?_⟩
    cases k with
    | zero =>
      simp only [List.getElem?_cons_zero, Option.some.injEq] at h3
      subst h3
      exact ⟨top', h2, by simp, ht h4⟩
    | succ k => exact ⟨inner, h2, by simpa using h3, h4⟩

theorem SuperInv.set {top : Map String Bool} {rest : List (Map String Bool)}
    (h : SuperInv (top :: rest)) {name : Token} (hn : name.declarable) (b : Bool) :
    SuperInv (Map.set top name.Lexeme b :: rest) := by
  refine h.setTop ?_ fun ht => ?_
  · exact Map.get_set_ne _ _ _ _ hn.2
  · rw [Map.get_set_ne _ _ _ _ hn.1]
    exact ht

theorem SuperInv.scopesAfter {scopes : List (Map String Bool)} (h : SuperInv scopes)
    {name : Token} (hn : name.declarable) : SuperInv (Lox.defineTop scopes name.Lexeme) := by
  cases scopes with
  | nil => exact h
  | cons top rest => exact h.set hn true

theorem SuperInv.class_ {scopes : List (Map String Bool)}
    (name : String) (hasSuper : Bool) (hd : SuperInv (Lox.defineTop scopes name)) :
    SuperInv (methodScopes scopes name hasSuper) := by
  unfold methodScopes
  cases hasSuper with
  | false => exact hd.superInv_push _ (by decide)
  | true =>
    simp only [if_true]
    intro d sc hd' hn
    cases d with
    | zero =>
      simp only [List.getElem?_cons_zero, Option.some.injEq] at hd'
      subst hd'
      exact absurd (by decide) hn
    | succ d =>
      cases d with
      | zero =>
        simp only [List.getElem?_cons_succ, List.getElem?_cons_zero, Option.some.injEq] at hd'
        subst hd'
        exact ⟨by decide, 0, [("this", true)], rfl, by simp, by decide⟩
      | succ d =>
        simp only [List.getElem?_cons_succ] at hd'
        obtain ⟨h1, k, inner, h2, h3, h4⟩ := hd d sc hd' hn
        exact ⟨h1, k + 2, inner, by omega, by simpa using h3, h4⟩

theorem paramScope_get (x : String) : ∀ (params : List Token) (scope : Map String Bool),
    (∀ p ∈ params, p.Lexeme ≠ x) →
    Map.get (params.foldl (fun scope param => Map.set scope param.Lexeme true) scope) x =
      Map.get scope x
  | [], _, _ => rfl
  | p :: ps, scope, h => by
    simp only [List.foldl_cons]
    rw [paramScope_get x ps _ (fun q hq => h q (List.mem_cons_of_mem _ hq))]
    exact Map.get_set_ne _ _ _ _ (h p (List.mem_cons_self _ _))

theorem SuperInv.params {scopes : List (Map String Bool)} (h : SuperInv scopes)
    (params : List Token) (hp : ∀ p ∈ params, p.declarable) :
    SuperInv (paramScope params :: scopes) :=
  h.superInv_push _ (by
    unfold paramScope
    rw [paramScope_get "super" params [] (fun p hp' => (hp p hp').2)]
    rfl)

theorem SuperInv.superInv_after {scopes : List (Map String Bool)} (h : SuperInv scopes) {s : Stmt}
    (hs : s.shaped) : SuperInv (Lox.scopesAfter scopes s) := by
  unfold Lox.scopesAfter
  cases s with
  | VarStmt name init =>
    simp only [Stmt.shaped] at hs
    exact h.scopesAfter hs.1
  | Function f =>
    cases f with
    | mk name params body =>
      simp only [Stmt.shaped, FunctionStmt.shaped] at hs
      exact h.scopesAfter hs.1
  | ClassStmt name sc methods =>
    simp only [Stmt.shaped] at hs
    exact h.scopesAfter hs.1
  | _ => exact h

/-- A name found in the scopes after a declaration of another name is found before it. -/
theorem NodeOk.of_defineTop {locals : Map Nat Nat} {scopes : List (Map String Bool)}
    {id : Nat} {x name : String} (h : NodeOk locals (defineTop scopes name) id x)
    (hx : name ≠ x) : NodeOk locals scopes id x := by
  intro d hd
  obtain ⟨scope, h1, h2⟩ := h d hd
  cases scopes with
  | nil => simp [defineTop] at h1
  | cons top rest =>
    cases d with
    | zero =>
      simp only [defineTop, List.getElem?_cons_zero, Option.some.injEq] at h1
      subst h1
      rw [Map.get_set_ne _ _ _ _ hx] at h2
      exact ⟨top, by simp, h2⟩
    | succ d =>
      simp only [defineTop, List.getElem?_cons_succ] at h1
      exact ⟨scope, by simpa using h1, h2⟩

/-- The initializer of a variable is resolved with the variable declared, not defined. -/
theorem ScopedExpr.of_declared {locals : Map Nat Nat} {top : Map String Bool}
    {rest : List (Map String Bool)} {name : String} {e : Expr}
    (h : ScopedExpr locals (Map.set top name false :: rest) e) :
    ScopedExpr locals (top :: rest) e := by
  refine ScopedExpr.scopedExpr_mono (fun d scope x hd hx => ?_) e h
  cases d with
  | zero =>
    simp only [List.getElem?_cons_zero, Option.some.injEq] at hd
    subst hd
    by_cases hn : name = x
    · subst hn
      rw [Map.get_set_self] at hx
      cases hx
    · rw [Map.get_set_ne _ _ _ _ hn] at hx
      exact ⟨top, by simp, hx⟩
  | succ d =>
    simp only [List.getElem?_cons_succ] at hd
    exact ⟨scope, by simpa using hd, hx⟩

theorem Resolver.endScope_exact {r r' : Resolver} (h : r.endScope = RRes.ok r') :
    r'.scopes = r.scopes.tail ∧ r'.locals = r.locals ∧ r'.errors = r.errors := by
  refine ⟨Resolver.endScope_scopes h, ?_⟩
  unfold Resolver.endScope at h
  cases hs : r.scopes with
  | nil => rw [hs] at h; cases h
  | cons scope rest =>
    rw [hs] at h
    cases h
    exact ⟨rfl, rfl⟩

theorem Resolver.endClass_exact {r r' : Resolver} {sc : Option Variable} {cc : ClassType}
    (h : r.endClass sc cc = RRes.ok r') :
    r'.scopes = r.scopes.drop (if sc.isSome then 2 else 1) ∧ r'.locals = r.locals ∧
      r'.errors = r.errors := by
  refine ⟨Resolver.endClass_scopes h, ?_⟩
  unfold Resolver.endClass at h
  obtain ⟨r1, h1, h2⟩ := RRes.andThen_ok h
  obtain ⟨r2, h3, h4⟩ := RRes.andThen_ok h2
  cases h4
  obtain ⟨_, a1, a2⟩ := Resolver.endScope_exact h1
  cases sc with
  | none =>
    cases h3
    exact ⟨a1, a2⟩
  | some v =>
    obtain ⟨_, b1, b2⟩ := Resolver.endScope_exact h3
    exact ⟨b1.trans a1, b2.trans a2⟩

/-- The part of `VisitClassStmt` before the methods: the scopes it leaves, and the
superclass, which it resolves after the declaration of the class. -/
theorem Resolver.beginClass_exact {r r' : Resolver} {name : Token} {sc : Option Variable}
    (h : r.beginClass name sc = RRes.ok r') :
    r'.scopes = methodScopes r.scopes name.Lexeme sc.isSome ∧
    match sc with
    | none => r'.locals = r.locals ∧ r'.errors = r.errors
    | some v => name.Lexeme ≠ v.Name.Lexeme ∧
      ∃ ra : Resolver, ra.scopes = defineTop r.scopes name.Lexeme ∧ ra.locals = r.locals ∧
        ra.errors = r.errors ∧ r'.locals = (ra.resolveLocal v.id v.Name).locals ∧
        r'.errors = (ra.resolveLocal v.id v.Name).errors := by
  unfold Resolver.beginClass at h
  simp only at h
  obtain ⟨r1, h1, h2⟩ := RRes.andThen_ok h
  obtain ⟨d1, d2, d3⟩ := Resolver.declareDroppingError_define
    { r with currentClass := ClassType.ClassTypeClass } name
  generalize Resolver.define (Resolver.declareDroppingError
    { r with currentClass := ClassType.ClassTypeClass } name) name = rd at h1 d1 d2 d3
  rw [Resolver.setTop_beginScope] at h2
  cases h2
  cases sc with
  | none =>
    simp only at h1
    cases h1
    exact ⟨by simp [methodScopes, d1], d2, d3⟩
  | some v =>
    simp only at h1
    split at h1
    · cases h1
    · rename_i hne
      obtain ⟨r3, h3, h4⟩ := RRes.andThen_ok h1
      rw [Resolver.setTop_beginScope] at h4
      cases h4
      simp only [Resolver.resolveExpr] at h3
      have h5 := Resolver.VisitVariableExpr_ok h3
      subst h5
      refine ⟨?_, hne, { rd with currentClass := ClassType.ClassTypeSubclass }, d1, d2, d3,
        rfl, rfl⟩
      simp [methodScopes, (Resolver.resolveLocal_scopes _ _ _).1, d1]

theorem Resolver.beginClass_wrote {r r' : Resolver} {name : Token} {sc : Option Variable}
    (h : r.beginClass name sc = RRes.ok r') :
    Resolver.Wrote (match sc with
      | some v => [v.id]
      | none => []) r r' := by
  have h1 := (Resolver.beginClass_exact h).2
  cases sc with
  | none => exact Resolver.Wrote.wrote_of_eq h1.2 h1.1
  | some v =>
    obtain ⟨_, ra, _, a2, a3, a4, a5⟩ := h1
    have w := Resolver.resolveLocal_wrote ra v.id v.Name
    exact ⟨fun he => a3 ▸ w.errors (a5 ▸ he), fun id hid => by
      rw [a4, w.others id hid, a2]⟩

mutual
/-- The resolver writes the side table at the nodes of the statement only. -/
theorem Resolver.resolveStmt_wrote : ∀ (s : Stmt) (r r' : Resolver),
    Resolver.resolveStmt s r = RRes.ok r' → Resolver.Wrote s.ids r r'
  | .nil, r, r', h => by simp [Resolver.resolveStmt] at h
  | .ExpressionStmt e, r, r', h => by
    simp only [Resolver.resolveStmt] at h
    exact Resolver.resolveExpr_wrote e r r' h
  | .PrintStmt e, r, r', h => by
    simp only [Resolver.resolveStmt] at h
    exact Resolver.resolveExpr_wrote e r r' h
  | .VarStmt name init, r, r', h => by
    simp only [Resolver.resolveStmt] at h
    obtain ⟨r1, h1, h2⟩ := RRes.andThen_ok h
    obtain ⟨r2, h3, h4⟩ := RRes.andThen_ok h2
    cases h4
    obtain ⟨a1, a2, _⟩ := Resolver.declare_exact h1
    have w1 : Resolver.Wrote [] r r1 := Resolver.Wrote.wrote_of_eq a2 a1
    have w2 : Resolver.Wrote init.ids r1 r2 := by
      split at h3
      · cases h3; exact Resolver.Wrote.nothing _ _
      · exact Resolver.resolveExpr_wrote init r1 r2 h3
    have w3 : Resolver.Wrote [] r2 (r2.define name) :=
      Resolver.Wrote.wrote_of_eq (Resolver.define_scopes r2 name).2.2 (Resolver.define_scopes r2 name).2.1
    exact ((w1.andWrote w2).andWrote w3).of_subset (by simp [Stmt.ids])
  | .BlockStmt stmts, r, r', h => by
    simp only [Resolver.resolveStmt] at h
    obtain ⟨r1, h1, h2⟩ := RRes.andThen_ok h
    obtain ⟨_, a1, a2⟩ := Resolver.endScope_exact h2
    have w1 := Resolver.resolveStatements_wrote stmts r.beginScope r1 h1
    have w0 : Resolver.Wrote [] r r.beginScope := Resolver.Wrote.wrote_of_eq rfl rfl
    have w2 : Resolver.Wrote [] r1 r' := Resolver.Wrote.wrote_of_eq a2 a1
    exact ((w0.andWrote w1).andWrote w2).of_subset (by simp [Stmt.ids])
  | .IfStmt c th el, r, r', h => by
    simp only [Resolver.resolveStmt] at h
    obtain ⟨r1, h1, h2⟩ := RRes.andThen_ok h
    obtain ⟨r2, h3, h4⟩ := RRes.andThen_ok h2
    have w1 := Resolver.resolveExpr_wrote c r r1 h1
    have w2 := Resolver.resolveStmt_wrote th r1 r2 h3
    have w3 : Resolver.Wrote el.ids r2 r' := by
      cases el with
      | nil => simp only at h4; cases h4; exact Resolver.Wrote.nothing _ _
      | _ => exact Resolver.resolveStmt_wrote _ r2 r' h4
    exact w1.andWrote (w2.andWrote w3)
  | .WhileStmt c b, r, r', h => by
    simp only [Resolver.resolveStmt] at h
    obtain ⟨r1, h1, h2⟩ := RRes.andThen_ok h
    exact (Resolver.resolveExpr_wrote c r r1 h1).andWrote (Resolver.resolveStmt_wrote b r1 r' h2)
  | .Function f, r, r', h => by
    simp only [Resolver.resolveStmt] at h
    obtain ⟨r1, h1, h2⟩ := RRes.andThen_ok h
    obtain ⟨a1, a2, _⟩ := Resolver.declare_exact h1
    have w1 : Resolver.Wrote [] r (r1.define f.Name) :=
      Resolver.Wrote.wrote_of_eq ((Resolver.define_scopes r1 f.Name).2.2.trans a2)
        ((Resolver.define_scopes r1 f.Name).2.1.trans a1)
    exact (w1.andWrote (Resolver.resolveFunction_wrote f _ _ r' h2)).of_subset
      (by simp [Stmt.ids])
  | .ReturnStmt _ value, r, r', h => by
    simp only [Resolver.resolveStmt] at h
    split at h
    · cases h
    · split at h
      · cases h
      · split at h
        · exact Resolver.resolveExpr_wrote value r r' h
        · cases h; exact Resolver.Wrote.nothing _ _
  | .ClassStmt name sc methods, r, r', h => by
    simp only [Resolver.resolveStmt] at h
    obtain ⟨r1, h1, h2⟩ := RRes.andThen_ok h
    obtain ⟨r2, h3, h4⟩ := RRes.andThen_ok h2
    obtain ⟨_, a1, a2⟩ := Resolver.endClass_exact h4
    have w2 := Resolver.resolveMethods_wrote methods r1 r2 h3
    have w3 : Resolver.Wrote [] r2 r' := Resolver.Wrote.wrote_of_eq a2 a1
    cases sc with
    | none =>
      have w1 : Resolver.Wrote [] r r1 := Resolver.beginClass_wrote h1
      exact ((w1.andWrote w2).andWrote w3).of_subset (by simp [Stmt.ids])
    | some v =>
      have w1 : Resolver.Wrote [v.id] r r1 := Resolver.beginClass_wrote h1
      exact ((w1.andWrote w2).andWrote w3).of_subset (by simp [Stmt.ids])
theorem Resolver.resolveStatements_wrote : ∀ (ss : List Stmt) (r r' : Resolver),
    Resolver.resolveStatements ss r = RRes.ok r' → Resolver.Wrote (Stmt.idsAll ss) r r'
  | [], r, r', h => by
    simp only [Resolver.resolveStatements] at h
    cases h
    exact Resolver.Wrote.nothing _ _
  | s :: rest, r, r', h => by
    simp only [Resolver.resolveStatements] at h
    obtain ⟨r1, h1, h2⟩ := RRes.andThen_ok h
    exact (Resolver.resolveStmt_wrote s r r1 h1).andWrote
      (Resolver.resolveStatements_wrote rest r1 r' h2)
theorem Resolver.resolveFunction_wrote : ∀ (f : FunctionStmt) (ft : FunctionType)
    (r r' : Resolver), Resolver.resolveFunction f ft r = RRes.ok r' →
    Resolver.Wrote f.ids r r'
  | .mk _ params body, ft, r, r', h => by
    simp only [Resolver.resolveFunction] at h
    obtain ⟨r1, h1, h2⟩ := RRes.andThen_ok h
    obtain ⟨r2, h3, h4⟩ := RRes.andThen_ok h2
    obtain ⟨r3, h5, h6⟩ := RRes.andThen_ok h4
    cases h6
    obtain ⟨a1, a2, _⟩ := Resolver.declareParams_exact params _ r1 h1
    obtain ⟨_, b1, b2⟩ := Resolver.endScope_exact h5
    have w1 : Resolver.Wrote [] r r1 := Resolver.Wrote.wrote_of_eq a2 a1
    have w2 := Resolver.resolveStatements_wrote body r1 r2 h3
    have w3 : Resolver.Wrote [] r2 { r3 with currentFunction := r.currentFunction } :=
      Resolver.Wrote.wrote_of_eq b2 b1
    exact ((w1.andWrote w2).andWrote w3).of_subset (by simp [FunctionStmt.ids])
theorem Resolver.resolveMethods_wrote : ∀ (ms : List FunctionStmt) (r r' : Resolver),
    Resolver.resolveMethods ms r = RRes.ok r' → Resolver.Wrote (FunctionStmt.idsAll ms) r r'
  | [], r, r', h => by
    simp only [Resolver.resolveMethods] at h
    cases h
    exact Resolver.Wrote.nothing _ _
  | m :: rest, r, r', h => by
    simp only [Resolver.resolveMethods] at h
    obtain ⟨r1, h1, h2⟩ := RRes.andThen_ok h
    exact (Resolver.resolveFunction_wrote m _ r r1 h1).andWrote
      (Resolver.resolveMethods_wrote rest r1 r' h2)
end

theorem ScopedStmt.scopedStmt_after {scopes : List (Map String Bool)} {s : Stmt} {r1 r' : Resolver}
    {b : List Nat} (w : Resolver.Wrote b r1 r') (hd : ∀ id ∈ s.ids, id ∉ b)
    (hs : ScopedStmt r1.locals scopes s) : ScopedStmt r'.locals scopes s :=
  ScopedStmt.scopedStmt_congr s scopes (fun id hid => w.others id (hd id hid)) hs

theorem ScopedFun.scopedFun_after {scopes : List (Map String Bool)} {f : FunctionStmt}
    {r1 r' : Resolver} {b : List Nat} (w : Resolver.Wrote b r1 r')
    (hd : ∀ id ∈ f.ids, id ∉ b) (hs : ScopedFun r1.locals scopes f) :
    ScopedFun r'.locals scopes f :=
  ScopedFun.scopedFun_congr f scopes (fun id hid => w.others id (hd id hid)) hs

theorem scopesAfter_of_none {scopes : List (Map String Bool)} {s : Stmt}
    (h : s.declared = none) : scopesAfter scopes s = scopes := by
  simp only [scopesAfter, h]

theorem Resolver.optional_stmt {el : Stmt} {r2 r' : Resolver}
    (h : (match el with
      | .nil => RRes.ok r2
      | s => Resolver.resolveStmt s r2) = RRes.ok r') :
    (el = Stmt.nil ∧ r' = r2) ∨ Resolver.resolveStmt el r2 = RRes.ok r' := by
  cases el with
  | nil => simp only at h; cases h; exact Or.inl ⟨rfl, rfl⟩
  | _ => exact Or.inr h

mutual
/-- Every distance that the resolver records in a statement without reporting anything
names a scope that defines the name, where the scopes are those that the constructs of
the statement open over the stack of the resolver; and the statement leaves the stack
with the name it declares defined. -/
theorem Resolver.resolveStmt_sound : ∀ (s : Stmt) (r r' : Resolver),
    Resolver.resolveStmt s r = RRes.ok r' → r'.errors.HadError = false → s.shaped →
    SuperInv r.scopes → s.ids.Nodup → (∀ id ∈ s.ids, Map.get r.locals id = none) →
    r'.scopes = scopesAfter r.scopes s ∧ ScopedStmt r'.locals r.scopes s
  | .nil, r, r', h, _, _, _, _, _ => by simp [Resolver.resolveStmt] at h
  | .ExpressionStmt e, r, r', h, he, hw, hi, hn, hf => by
    simp only [Resolver.resolveStmt] at h
    simp only [Stmt.shaped] at hw
    simp only [ScopedStmt]
    exact ⟨(Resolver.resolveExpr_kept e r r' h).scopes,
      Resolver.resolveExpr_sound e r r' h he hw hi hn hf⟩
  | .PrintStmt e, r, r', h, he, hw, hi, hn, hf => by
    simp only [Resolver.resolveStmt] at h
    simp only [Stmt.shaped] at hw
    simp only [ScopedStmt]
    exact ⟨(Resolver.resolveExpr_kept e r r' h).scopes,
      Resolver.resolveExpr_sound e r r' h he hw hi hn hf⟩
  | .VarStmt name init, r, r', h, he, hw, hi, hn, hf => by
    simp only [Resolver.resolveStmt] at h
    obtain ⟨r1, h1, h2⟩ := RRes.andThen_ok h
    obtain ⟨r2, h3, h4⟩ := RRes.andThen_ok h2
    cases h4
    simp only [Stmt.shaped] at hw
    simp only [Stmt.ids] at hn hf
    obtain ⟨a1, a2, a3⟩ := Resolver.declare_exact h1
    have he2 : r2.errors.HadError = false := by
      rw [← (Resolver.define_scopes r2 name).2.2]; exact he
    have hk : r2.scopes = r1.scopes := by
      split at h3
      · cases h3; rfl
      · exact (Resolver.resolveExpr_kept init r1 r2 h3).scopes
    have hsc : (r2.define name).scopes = defineTop r.scopes name.Lexeme := by
      rw [(Resolver.define_scopes r2 name).1, hk, ← (Resolver.define_scopes r1 name).1]
      exact Resolver.declare_define h1
    refine ⟨hsc, ?_⟩
    simp only [ScopedStmt]
    refine ⟨?_, hw.1⟩
    rw [(Resolver.define_scopes r2 name).2.1]
    split at h3
    · rename_i hnil
      cases init with
      | nil => trivial
      | _ => simp [Expr.isNil] at hnil
    · rcases a3 with ⟨b1, b2⟩ | ⟨top, rest, b1, _, b2⟩
      · have := Resolver.resolveExpr_sound init r1 r2 h3 he2 hw.2 (b2 ▸ b1 ▸ hi) hn
          (fun id hid => a1 ▸ hf id hid)
        rw [b2] at this
        rw [b1]
        exact this
      · have := Resolver.resolveExpr_sound init r1 r2 h3 he2 hw.2
          (b2 ▸ SuperInv.set (b1 ▸ hi) hw.1 false) hn (fun id hid => a1 ▸ hf id hid)
        rw [b2] at this
        rw [b1]
        exact ScopedExpr.of_declared this
  | .BlockStmt stmts, r, r', h, he, hw, hi, hn, hf => by
    simp only [Resolver.resolveStmt] at h
    obtain ⟨r1, h1, h2⟩ := RRes.andThen_ok h
    obtain ⟨a0, a1, a2⟩ := Resolver.endScope_exact h2
    simp only [Stmt.shaped] at hw
    simp only [Stmt.ids] at hn hf
    have hs := Resolver.resolveStatements_sound stmts r.beginScope r1 h1 (a2 ▸ he) hw
      (hi.superInv_push [] rfl) hn hf
    refine ⟨Resolver.Grown.scopes_of_begun (Resolver.resolveStatements_grown stmts _ r1 h1) a0, ?_⟩
    simp only [ScopedStmt]
    rw [a1]
    exact hs
  | .IfStmt c th el, r, r', h, he, hw, hi, hn, hf => by
    simp only [Resolver.resolveStmt] at h
    obtain ⟨r1, h1, h2⟩ := RRes.andThen_ok h
    obtain ⟨r2, h3, h4⟩ := RRes.andThen_ok h2
    simp only [Stmt.shaped] at hw
    obtain ⟨hwc, hwt, hdt, hwe, hde⟩ := hw
    simp only [Stmt.ids] at hn hf
    have k1 := (Resolver.resolveExpr_kept c r r1 h1).scopes
    have w1 := Resolver.resolveExpr_wrote c r r1 h1
    have w2 := Resolver.resolveStmt_wrote th r1 r2 h3
    have hn2 := List.Nodup.of_append_right hn
    have hf1 := w1.fresh hn hf
    have hf2 := w2.fresh hn2 hf1
    have hfth : ∀ id ∈ th.ids, Map.get r1.locals id = none := fun id hid =>
      hf1 id (List.mem_append_left _ hid)
    simp only [ScopedStmt]
    rw [scopesAfter_of_none (s := Stmt.IfStmt c th el) rfl]
    rcases Resolver.optional_stmt h4 with ⟨e1, e2⟩ | h5
    · subst e1 e2
      obtain ⟨s1, s2⟩ := Resolver.resolveStmt_sound th r1 r' h3 he hwt (k1 ▸ hi)
        (List.Nodup.of_append_left hn2) hfth
      rw [scopesAfter_of_none hdt] at s1
      rw [k1] at s1 s2
      refine ⟨s1, ScopedExpr.scopedExpr_after w2 (fun id hid hid' =>
          nodup_left_not_right hn id hid (List.mem_append_left _ hid'))
        (Resolver.resolveExpr_sound c r r1 h1 (w2.errors he) hwc hi
          (List.Nodup.of_append_left hn) fun id hid => hf id (List.mem_append_left _ hid)),
        s2, hdt, ?_, hde⟩
      simp only [ScopedStmt]
    · have w3 := Resolver.resolveStmt_wrote el r2 r' h5
      obtain ⟨s1, s2⟩ := Resolver.resolveStmt_sound th r1 r2 h3 (w3.errors he) hwt (k1 ▸ hi)
        (List.Nodup.of_append_left hn2) hfth
      rw [scopesAfter_of_none hdt] at s1
      obtain ⟨t1, t2⟩ := Resolver.resolveStmt_sound el r2 r' h5 he hwe (s1 ▸ k1 ▸ hi)
        (List.Nodup.of_append_right hn2) hf2
      rw [scopesAfter_of_none hde] at t1
      rw [k1] at s1 s2
      rw [s1] at t1 t2
      refine ⟨t1, ScopedExpr.scopedExpr_after (w2.andWrote w3) (nodup_left_not_right hn)
        (Resolver.resolveExpr_sound c r r1 h1 (w2.errors (w3.errors he)) hwc hi
          (List.Nodup.of_append_left hn) fun id hid => hf id (List.mem_append_left _ hid)),
        ScopedStmt.scopedStmt_after w3 (nodup_left_not_right hn2) s2, hdt, t2, hde⟩
  | .WhileStmt c b, r, r', h, he, hw, hi, hn, hf => by
    simp only [Resolver.resolveStmt] at h
    obtain ⟨r1, h1, h2⟩ := RRes.andThen_ok h
    simp only [Stmt.shaped] at hw
    obtain ⟨hwc, hwb, hdb⟩ := hw
    simp only [Stmt.ids] at hn hf
    have k1 := (Resolver.resolveExpr_kept c r r1 h1).scopes
    have w1 := Resolver.resolveExpr_wrote c r r1 h1
    have w2 := Resolver.resolveStmt_wrote b r1 r' h2
    simp only [ScopedStmt]
    rw [scopesAfter_of_none (s := Stmt.WhileStmt c b) rfl]
    obtain ⟨s1, s2⟩ := Resolver.resolveStmt_sound b r1 r' h2 he hwb (k1 ▸ hi)
      (List.Nodup.of_append_right hn) (w1.fresh hn hf)
    rw [scopesAfter_of_none hdb] at s1
    rw [k1] at s1 s2
    exact ⟨s1, ScopedExpr.scopedExpr_after w2 (nodup_left_not_right hn)
      (Resolver.resolveExpr_sound c r r1 h1 (w2.errors he) hwc hi
        (List.Nodup.of_append_left hn) fun id hid => hf id (List.mem_append_left _ hid)),
      s2, hdb⟩
  | .Function f, r, r', h, he, hw, hi, hn, hf => by
    simp only [Resolver.resolveStmt] at h
    obtain ⟨r1, h1, h2⟩ := RRes.andThen_ok h
    simp only [Stmt.shaped] at hw
    simp only [Stmt.ids] at hn hf
    obtain ⟨a1, a2, _⟩ := Resolver.declare_exact h1
    have hd := Resolver.declare_define h1
    have hname : f.Name.declarable := by
      cases f with
      | mk name params body =>
        simp only [FunctionStmt.shaped] at hw
        exact hw.1
    have hs := Resolver.resolveFunction_sound f FunctionType.FunctionTypeFunction
      (r1.define f.Name) r' h2 he hw (hd ▸ hi.scopesAfter hname) hn
      (fun id hid => by
        rw [(Resolver.define_scopes r1 f.Name).2.1, a1]
        exact hf id hid)
    rw [hd] at hs
    refine ⟨?_, ?_⟩
    · rw [Resolver.resolveFunction_scopes f _ _ r' h2, hd]
      rfl
    · simp only [ScopedStmt]
      exact ⟨hs, hname⟩
  | .ReturnStmt _ value, r, r', h, he, hw, hi, hn, hf => by
    simp only [Resolver.resolveStmt] at h
    simp only [Stmt.shaped] at hw
    simp only [Stmt.ids] at hn hf
    simp only [ScopedStmt]
    rw [scopesAfter_of_none (s := Stmt.ReturnStmt _ value) rfl]
    split at h
    · cases h
    · split at h
      · cases h
      · split at h
        · exact ⟨(Resolver.resolveExpr_kept value r r' h).scopes,
            Resolver.resolveExpr_sound value r r' h he hw hi hn hf⟩
        · rename_i hnil
          cases h
          refine ⟨rfl, ?_⟩
          cases value with
          | nil => trivial
          | _ => simp [Expr.isNil] at hnil
  | .ClassStmt name sc methods, r, r', h, he, hw, hi, hn, hf => by
    simp only [Resolver.resolveStmt] at h
    obtain ⟨r1, h1, h2⟩ := RRes.andThen_ok h
    obtain ⟨r2, h3, h4⟩ := RRes.andThen_ok h2
    obtain ⟨a0, a1, a2⟩ := Resolver.endClass_exact h4
    simp only [Stmt.shaped] at hw
    simp only [Stmt.ids] at hn hf
    obtain ⟨b0, b1⟩ := Resolver.beginClass_exact h1
    have w2 := Resolver.resolveMethods_wrote methods r1 r2 h3
    have he2 : r2.errors.HadError = false := a2 ▸ he
    have hi1 : SuperInv r1.scopes :=
      b0 ▸ SuperInv.class_ name.Lexeme sc.isSome (hi.scopesAfter hw.1)
    have hscopes : r'.scopes = defineTop r.scopes name.Lexeme := by
      rw [a0, Resolver.resolveMethods_scopes methods r1 r2 h3, b0]
      unfold methodScopes
      cases sc <;> rfl
    refine ⟨hscopes, ?_⟩
    simp only [ScopedStmt]
    rw [a1]
    cases sc with
    | none =>
      simp only at b1
      have hs := Resolver.resolveMethods_sound methods r1 r2 h3 he2 hw.2 hi1
        (by simpa using hn) (fun id hid => by rw [b1.1]; exact hf id (by simpa using hid))
      rw [b0] at hs
      exact ⟨trivial, hs, hw.1⟩
    | some v =>
      simp only at b1
      obtain ⟨hne, ra, c1, c2, c3, c4, c5⟩ := b1
      have w1 : Resolver.Wrote [v.id] r r1 := Resolver.beginClass_wrote h1
      have hs := Resolver.resolveMethods_sound methods r1 r2 h3 he2 hw.2 hi1
        (List.Nodup.of_append_right hn) (w1.fresh hn hf)
      rw [b0] at hs
      refine ⟨?_, hs, hw.1⟩
      have hv : Map.get ra.locals v.id = none := by
        rw [c2]
        exact hf v.id (by simp)
      have hnode := Resolver.resolveLocal_nodeOk ra v.id v.Name
        (by rw [← c5]; exact w2.errors he2) hv
      rw [← c4, c1] at hnode
      refine NodeOk.nodeOk_congr ?_ (NodeOk.of_defineTop hnode hne)
      exact w2.others v.id (nodup_left_not_right hn v.id (by simp))
theorem Resolver.resolveStatements_sound : ∀ (ss : List Stmt) (r r' : Resolver),
    Resolver.resolveStatements ss r = RRes.ok r' → r'.errors.HadError = false →
    Stmt.shapedAll ss → SuperInv r.scopes → (Stmt.idsAll ss).Nodup →
    (∀ id ∈ Stmt.idsAll ss, Map.get r.locals id = none) →
    ScopedStmts r'.locals r.scopes ss
  | [], r, r', h, _, _, _, _, _ => by simp only [ScopedStmts]
  | s :: rest, r, r', h, he, hw, hi, hn, hf => by
    simp only [Resolver.resolveStatements] at h
    obtain ⟨r1, h1, h2⟩ := RRes.andThen_ok h
    simp only [Stmt.shapedAll] at hw
    simp only [Stmt.idsAll] at hn hf
    have w1 := Resolver.resolveStmt_wrote s r r1 h1
    have w2 := Resolver.resolveStatements_wrote rest r1 r' h2
    obtain ⟨s1, s2⟩ := Resolver.resolveStmt_sound s r r1 h1 (w2.errors he) hw.1 hi
      (List.Nodup.of_append_left hn) fun id hid => hf id (List.mem_append_left _ hid)
    have t := Resolver.resolveStatements_sound rest r1 r' h2 he hw.2 (s1 ▸ hi.superInv_after hw.1)
      (List.Nodup.of_append_right hn) (w1.fresh hn hf)
    rw [s1] at t
    simp only [ScopedStmts]
    exact ⟨ScopedStmt.scopedStmt_after w2 (nodup_left_not_right hn) s2, t⟩
theorem Resolver.resolveFunction_sound : ∀ (f : FunctionStmt) (ft : FunctionType)
    (r r' : Resolver), Resolver.resolveFunction f ft r = RRes.ok r' →
    r'.errors.HadError = false → f.shaped → SuperInv r.scopes → f.ids.Nodup →
    (∀ id ∈ f.ids, Map.get r.locals id = none) → ScopedFun r'.locals r.scopes f
  | .mk name params body, ft, r, r', h, he, hw, hi, hn, hf => by
    simp only [Resolver.resolveFunction] at h
    obtain ⟨r1, h1, h2⟩ := RRes.andThen_ok h
    obtain ⟨r2, h3, h4⟩ := RRes.andThen_ok h2
    obtain ⟨r3, h5, h6⟩ := RRes.andThen_ok h4
    cases h6
    simp only [FunctionStmt.shaped] at hw
    simp only [FunctionStmt.ids] at hn hf
    obtain ⟨a1, a2, a3⟩ := Resolver.declareParams_exact params _ r1 h1
    obtain ⟨_, b1, b2⟩ := Resolver.endScope_exact h5
    have hsc : r1.scopes = paramScope params :: r.scopes := a3 [] r.scopes rfl
    have hs := Resolver.resolveStatements_sound body r1 r2 h3 (b2 ▸ he) hw.2.2
      (hsc ▸ hi.params params hw.2.1) hn (fun id hid => by rw [a1]; exact hf id hid)
    rw [hsc] at hs
    simp only [ScopedFun]
    refine ⟨?_, hw.2.1⟩
    show ScopedStmts r3.locals _ _
    rw [b1]
    exact hs
theorem Resolver.resolveMethods_sound : ∀ (ms : List FunctionStmt) (r r' : Resolver),
    Resolver.resolveMethods ms r = RRes.ok r' → r'.errors.HadError = false →
    FunctionStmt.shapedAll ms → SuperInv r.scopes → (FunctionStmt.idsAll ms).Nodup →
    (∀ id ∈ FunctionStmt.idsAll ms, Map.get r.locals id = none) →
    ScopedMethods r'.locals r.scopes ms
  | [], r, r', h, _, _, _, _, _ => by simp only [ScopedMethods]
  | m :: rest, r, r', h, he, hw, hi, hn, hf => by
    simp only [Resolver.resolveMethods] at h
    obtain ⟨r1, h1, h2⟩ := RRes.andThen_ok h
    simp only [FunctionStmt.shapedAll] at hw
    simp only [FunctionStmt.idsAll] at hn hf
    have w1 := Resolver.resolveFunction_wrote m _ r r1 h1
    have w2 := Resolver.resolveMethods_wrote rest r1 r' h2
    have k1 := Resolver.resolveFunction_scopes m _ r r1 h1
    have s := Resolver.resolveFunction_sound m _ r r1 h1 (w2.errors he) hw.1 hi
      (List.Nodup.of_append_left hn) fun id hid => hf id (List.mem_append_left _ hid)
    have t := Resolver.resolveMethods_sound rest r1 r' h2 he hw.2 (k1 ▸ hi)
      (List.Nodup.of_append_right hn) (w1.fresh hn hf)
    rw [k1] at t
    simp only [ScopedMethods]
    exact ⟨ScopedFun.scopedFun_after w2 (nodup_left_not_right hn) s, t⟩
end

/-! ## The trees that the parser builds: shape and identities -/

theorem PRes.built_bind {α β : Type} {p : Parser} {G : α → Parser → Prop}
    {g : β → Parser → Prop} {x : PRes α} {f : α → Parser → PRes β} (hx : x.built p G)
    (hf : ∀ a p1, p1.tokens = p.tokens → p.nextId ≤ p1.nextId → G a p1 →
      (f a p1).built p g) : (x.bind f).built p g := by
  cases x with
  | ok a p1 => exact hf a p1 hx.1 hx.2.1 hx.2.2
  | err p1 => exact hx
  | panic m => trivial
  | outOfFuel => trivial

theorem PRes.built_of {α : Type} {p p1 : Parser} {g1 g : α → Parser → Prop} {res : PRes α}
    (h : res.built p1 g1) (ht : p1.tokens = p.tokens) (hn : p.nextId ≤ p1.nextId)
    (hg : ∀ a p', p'.tokens = p1.tokens → p1.nextId ≤ p'.nextId → g1 a p' → g a p') :
    res.built p g := by
  cases res with
  | ok a p' => exact ⟨h.1.trans ht, hn.trans h.2.1, hg a p' h.1 h.2.1 h.2.2⟩
  | err p' => exact ⟨h.1.trans ht, hn.trans h.2⟩
  | panic m => trivial
  | outOfFuel => trivial

theorem Parser.scanned.of_tokens {p p1 : Parser} (h : p.scanned) (ht : p1.tokens = p.tokens) :
    p1.scanned := fun t hm => h t (ht ▸ hm)

theorem Parser.peek_built (p : Parser) :
    p.peek.built p fun t p' => p' = p ∧ p.tokens[p.current]? = some t := by
  unfold Parser.peek
  cases h : p.tokens[p.current]? with
  | none => trivial
  | some t => exact ⟨rfl, le_refl _, rfl, rfl⟩

theorem Parser.previous_built (p : Parser) :
    p.previous.built p fun t p' => p' = p ∧ p.previous = PRes.ok t p ∧ t ∈ p.tokens := by
  unfold Parser.previous
  split
  · trivial
  · cases h : p.tokens[p.current - 1]? with
    | none => trivial
    | some t => exact ⟨rfl, le_refl _, rfl, rfl, List.getElem?_mem h⟩

theorem Parser.isAtEnd_built (p : Parser) :
    p.isAtEnd.built p fun b p' => p' = p ∧
      ∃ t, p.tokens[p.current]? = some t ∧ b = (t.type == TokenType.EOF) := by
  unfold Parser.isAtEnd
  refine PRes.built_bind (Parser.peek_built p) fun t p1 _ _ hg => ?_
  obtain ⟨rfl, h⟩ := hg
  exact ⟨rfl, le_refl _, rfl, t, h, rfl⟩

theorem Parser.check_built (p : Parser) (tokenType : TokenType) :
    (p.check tokenType).built p fun b p' => p' = p ∧ (b = true →
      ∃ t, p.tokens[p.current]? = some t ∧ (t.type == TokenType.EOF) = false ∧
        t.type = tokenType) := by
  unfold Parser.check
  refine PRes.built_bind (Parser.isAtEnd_built p) fun atEnd p1 _ _ hg => ?_
  obtain ⟨rfl, t, h1, h2⟩ := hg
  split
  · exact ⟨rfl, le_refl _, rfl, fun h => by cases h⟩
  · rename_i hne
    refine PRes.built_bind (Parser.peek_built p1) fun u p2 _ _ hg2 => ?_
    obtain ⟨rfl, h3⟩ := hg2
    rw [h1] at h3
    cases h3
    refine ⟨rfl, le_refl _, rfl, fun hb => ⟨t, h1, ?_, ?_⟩⟩
    · rw [← h2]
      simpa using hne
    · simpa using hb

/-- The method `advance` on a token that is not the EOF token. -/
theorem Parser.advance_eq {p : Parser} {t : Token} (h : p.tokens[p.current]? = some t)
    (he : (t.type == TokenType.EOF) = false) :
    p.advance = PRes.ok t { p with current := p.current + 1 } := by
  simp [Parser.advance, Parser.isAtEnd, Parser.peek, h, PRes.bind, he, Parser.previous]

theorem Parser.parser_previous_after {p : Parser} {t : Token} (h : p.tokens[p.current]? = some t) :
    Parser.previous { p with current := p.current + 1 } =
      PRes.ok t { p with current := p.current + 1 } := by
  simp [Parser.previous, h]

theorem Parser.match_built (p : Parser) : ∀ types : List TokenType,
    (p.match types).built p fun b p' => p'.nextId = p.nextId ∧
      (b = true → ∃ t, p'.previous = PRes.ok t p' ∧ t.type ∈ types ∧ t ∈ p.tokens)
  | [] => ⟨rfl, le_refl _, rfl, fun h => by cases h⟩
  | tt :: rest => by
    simp only [Parser.match]
    refine PRes.built_bind (Parser.check_built p tt) fun c p1 _ _ hg => ?_
    obtain ⟨rfl, hc⟩ := hg
    split
    · rename_i hct
      obtain ⟨t, h1, h2, h3⟩ := hc hct
      rw [Parser.advance_eq h1 h2]
      exact ⟨rfl, le_refl _, rfl, fun _ => ⟨t, Parser.parser_previous_after h1, by simp [h3],
        List.getElem?_mem h1⟩⟩
    · refine PRes.built_of (Parser.match_built p1 rest) rfl (le_refl _) fun b p' _ _ hg => ?_
      refine ⟨hg.1, fun hb => ?_⟩
      obtain ⟨t, h1, h2, h3⟩ := hg.2 hb
      exact ⟨t, h1, List.mem_cons_of_mem _ h2, h3⟩

theorem Parser.consume_built (p : Parser) (tokenType : TokenType) (message : String) :
    (p.consume tokenType message).built p fun t p' => p'.nextId = p.nextId ∧
      t.type = tokenType ∧ t ∈ p.tokens ∧ p'.previous = PRes.ok t p' := by
  unfold Parser.consume
  refine PRes.built_bind (Parser.check_built p tokenType) fun c p1 _ _ hg => ?_
  obtain ⟨rfl, hc⟩ := hg
  split
  · rename_i hct
    obtain ⟨t, h1, h2, h3⟩ := hc hct
    rw [Parser.advance_eq h1 h2]
    exact ⟨rfl, le_refl _, rfl, h3, List.getElem?_mem h1, Parser.parser_previous_after h1⟩
  · refine PRes.built_bind (Parser.peek_built p1) fun u p2 _ _ hg2 => ?_
    obtain ⟨rfl, _⟩ := hg2
    exact ⟨rfl, le_refl _⟩

theorem Parser.advance_built (p : Parser) :
    p.advance.built p fun _ p' => p'.nextId = p.nextId := by
  unfold Parser.advance
  refine PRes.built_bind (Parser.isAtEnd_built p) fun atEnd p1 _ _ hg => ?_
  obtain ⟨rfl, _⟩ := hg
  split
  · refine PRes.built_of (Parser.previous_built _) rfl (le_refl _) fun t p' _ _ hg => ?_
    rw [hg.1]
  · refine PRes.built_of (Parser.previous_built _) rfl (le_refl _) fun t p' _ _ hg => ?_
    rw [hg.1]

theorem Parser.synchronizeLoop_built : ∀ (n : Nat) (p : Parser),
    (Parser.synchronizeLoop n p).built p fun _ p' => p'.nextId = p.nextId
  | 0, _ => trivial
  | n + 1, p => by
    simp only [Parser.synchronizeLoop]
    refine PRes.built_bind (Parser.isAtEnd_built p) fun atEnd p1 _ _ hg => ?_
    obtain ⟨rfl, _⟩ := hg
    split
    · exact ⟨rfl, le_refl _, rfl⟩
    · refine PRes.built_bind (Parser.previous_built p1) fun prev p2 _ _ hg2 => ?_
      obtain ⟨rfl, _⟩ := hg2
      split
      · exact ⟨rfl, le_refl _, rfl⟩
      · refine PRes.built_bind (Parser.peek_built p2) fun t p3 _ _ hg3 => ?_
        obtain ⟨rfl, _⟩ := hg3
        split
        · exact ⟨rfl, le_refl _, rfl⟩
        · refine PRes.built_bind (Parser.advance_built p3) fun _ p4 ht4 hn4 hg4 => ?_
          exact PRes.built_of (Parser.synchronizeLoop_built n p4) ht4 hn4
            fun _ p' _ _ hg => hg.trans hg4

theorem Parser.synchronize_built (p : Parser) :
    p.synchronize.built p fun _ p' => p'.nextId = p.nextId := by
  unfold Parser.synchronize
  refine PRes.built_bind (Parser.advance_built p) fun _ p1 ht1 hn1 hg1 => ?_
  exact PRes.built_of (Parser.synchronizeLoop_built _ p1) ht1 hn1 fun _ p' _ _ hg => hg.trans hg1

/-! ### Trees built between two values of the counter -/

theorem Built.widen {shaped : Prop} {ids : List Nat} {lo hi lo' hi' : Nat}
    (h : Built shaped ids lo hi) (h1 : lo' ≤ lo) (h2 : hi ≤ hi') : Built shaped ids lo' hi' :=
  ⟨by have := h.1; omega, h.2.1, h.2.2.1, fun id hid => by
    have := h.2.2.2 id hid
    omega⟩

theorem Built.empty {shaped : Prop} (h : shaped) {lo hi : Nat} (hle : lo ≤ hi) :
    Built shaped [] lo hi :=
  ⟨hle, h, List.nodup_nil, fun id hid => by simp at hid⟩

theorem Built.append {s1 s2 : Prop} {a b : List Nat} {lo mid hi : Nat}
    (h1 : Built s1 a lo mid) (h2 : Built s2 b mid hi) : Built (s1 ∧ s2) (a ++ b) lo hi := by
  refine ⟨h1.1.trans h2.1, ⟨h1.2.1, h2.2.1⟩, ?_, fun id hid => ?_⟩
  · refine List.nodup_append.2 ⟨h1.2.2.1, h2.2.2.1, fun x ha hb => ?_⟩
    have := h1.2.2.2 x ha
    have := h2.2.2.2 x hb
    omega
  · rcases List.mem_append.1 hid with h | h
    · have := h1.2.2.2 id h
      have := h2.1
      omega
    · have := h2.2.2.2 id h
      have := h1.1
      omega

theorem Built.cons {s : Prop} {a : List Nat} {lo hi : Nat} (h : Built s a lo hi) :
    Built s (hi :: a) lo (hi + 1) := by
  refine ⟨by have := h.1; omega, h.2.1, List.nodup_cons.2 ⟨fun hm => ?_, h.2.2.1⟩,
    fun id hid => ?_⟩
  · have := h.2.2.2 hi hm
    omega
  · rcases List.mem_cons.1 hid with h1 | h1
    · have := h.1
      omega
    · have := h.2.2.2 id h1
      omega

theorem Built.single {s : Prop} (h : s) (lo : Nat) {hi : Nat} (hle : lo ≤ hi) :
    Built s [hi] lo (hi + 1) :=
  (Built.empty h hle).cons

theorem Built.of_iff {s s' : Prop} {a a' : List Nat} {lo hi : Nat} (h : Built s a lo hi)
    (hs : s → s') (ha : a' = a) : Built s' a' lo hi :=
  ⟨h.1, hs h.2.1, ha ▸ h.2.2.1, ha ▸ h.2.2.2⟩

theorem Expr.expr_builtFrom_of_nextId {lo : Nat} {e : Expr} {p p' : Parser}
    (h : e.builtFrom lo p) (hn : p'.nextId = p.nextId) : e.builtFrom lo p' := by
  unfold Expr.builtFrom at h ⊢
  rw [hn]
  exact h

theorem Expr.builtFrom_leaf {e : Expr} (hs : e.shaped) (hi : e.ids = []) {lo : Nat}
    {p' : Parser} (h : lo ≤ p'.nextId) : e.builtFrom lo p' := by
  unfold Expr.builtFrom
  rw [hi]
  exact Built.empty hs h

theorem Expr.builtFrom_node {e : Expr} {p1 : Parser} (hs : e.shaped) (hi : e.ids = [p1.nextId])
    {lo : Nat} (h : lo ≤ p1.nextId) :
    e.builtFrom lo { p1 with nextId := p1.nextId + 1 } := by
  unfold Expr.builtFrom
  rw [hi]
  exact Built.single hs lo h

/-- A loop over a binary operator: the operands are built one after the other. -/
theorem Parser.binaryLoop_built {types : List TokenType} {operand : Parser → PRes Expr}
    {again : Expr → Parser → PRes Expr} {K : Expr → Token → Expr → Expr}
    (hids : ∀ l op r, (K l op r).ids = l.ids ++ r.ids)
    (hsh : ∀ l op r, l.shaped ∧ r.shaped → (K l op r).shaped)
    (hop : ∀ p : Parser, p.scanned → (operand p).built p (Expr.builtFrom p.nextId))
    (hag : ∀ (p : Parser) (e : Expr) (lo : Nat), p.scanned → e.builtFrom lo p →
      (again e p).built p (Expr.builtFrom lo))
    (p : Parser) (expr : Expr) (lo : Nat) (hs : p.scanned) (hb : expr.builtFrom lo p) :
    ((p.match types).bind fun m p =>
      if m then
        p.previous.bind fun operator p =>
        (operand p).bind fun right p => again (K expr operator right) p
      else PRes.ok expr p).built p (Expr.builtFrom lo) := by
  refine PRes.built_bind (Parser.match_built p types) fun m p1 ht1 hn1 hg1 => ?_
  have hb1 : expr.builtFrom lo p1 := Expr.expr_builtFrom_of_nextId hb hg1.1
  split
  · refine PRes.built_bind (PRes.built_of (Parser.previous_built p1) ht1 hn1
      (fun _ _ _ _ h => h)) fun op p2 ht2 hn2 hg2 => ?_
    obtain ⟨h2, _, _⟩ := hg2
    subst h2
    refine PRes.built_bind (PRes.built_of (hop p2 (hs.of_tokens ht1)) ht1 hn1
      (fun _ _ _ _ h => h)) fun right p3 ht3 hn3 hg3 => ?_
    refine PRes.built_of (hag p3 (K expr op right) lo (hs.of_tokens ht3) ?_) ht3 hn3
      (fun _ _ _ _ h => h)
    exact (Built.append hb1 hg3).of_iff (hsh _ _ _) (hids _ _ _)
  · exact ⟨ht1, hn1, hb1⟩

/-- An operand followed by the loop over the operator. -/
theorem Parser.chain_built {operand : Parser → PRes Expr} {loop : Expr → Parser → PRes Expr}
    (hop : ∀ p : Parser, p.scanned → (operand p).built p (Expr.builtFrom p.nextId))
    (hloop : ∀ (p : Parser) (e : Expr) (lo : Nat), p.scanned → e.builtFrom lo p →
      (loop e p).built p (Expr.builtFrom lo))
    (p : Parser) (hs : p.scanned) :
    ((operand p).bind fun expr p => loop expr p).built p (Expr.builtFrom p.nextId) := by
  refine PRes.built_bind (hop p hs) fun e p1 ht1 hn1 hg1 => ?_
  exact PRes.built_of (hloop p1 e p.nextId (hs.of_tokens ht1) hg1) ht1 hn1 (fun _ _ _ _ h => h)

theorem binary_ids (l : Expr) (op : Token) (r : Expr) :
    (Expr.Binary l op r).ids = l.ids ++ r.ids := by simp only [Expr.ids]

theorem binary_shaped (l : Expr) (op : Token) (r : Expr) (h : l.shaped ∧ r.shaped) :
    (Expr.Binary l op r).shaped := by simp only [Expr.shaped]; exact h

theorem logical_ids (l : Expr) (op : Token) (r : Expr) :
    (Expr.Logical l op r).ids = l.ids ++ r.ids := by simp only [Expr.ids]

theorem logical_shaped (l : Expr) (op : Token) (r : Expr) (h : l.shaped ∧ r.shaped) :
    (Expr.Logical l op r).shaped := by simp only [Expr.shaped]; exact h

theorem Parser.primary_built {n : Nat} (ih : Parser.ExprBuilt n) (p : Parser)
    (hs : p.scanned) : (Parser.primary (n + 1) p).built p (Expr.builtFrom p.nextId) := by
  simp only [Parser.primary]
  refine PRes.built_bind (Parser.match_built p _) fun m p1 ht1 hn1 hg1 => ?_
  split
  · exact ⟨ht1, hn1, Expr.builtFrom_leaf (by simp only [Expr.shaped]) (by simp only [Expr.ids]) hn1⟩
  refine PRes.built_bind (PRes.built_of (Parser.match_built p1 _) ht1 hn1
    (fun _ _ _ _ h => h)) fun m p2 ht2 hn2 hg2 => ?_
  split
  · exact ⟨ht2, hn2, Expr.builtFrom_leaf (by simp only [Expr.shaped]) (by simp only [Expr.ids]) hn2⟩
  refine PRes.built_bind (PRes.built_of (Parser.match_built p2 _) ht2 hn2
    (fun _ _ _ _ h => h)) fun m p3 ht3 hn3 hg3 => ?_
  split
  · exact ⟨ht3, hn3, Expr.builtFrom_leaf (by simp only [Expr.shaped]) (by simp only [Expr.ids]) hn3⟩
  refine PRes.built_bind (PRes.built_of (Parser.match_built p3 _) ht3 hn3
    (fun _ _ _ _ h => h)) fun m p4 ht4 hn4 hg4 => ?_
  split
  · refine PRes.built_bind (PRes.built_of (Parser.previous_built p4) ht4 hn4
      (fun _ _ _ _ h => h)) fun t p5 ht5 hn5 hg5 => ?_
    exact ⟨ht5, hn5, Expr.builtFrom_leaf (by simp only [Expr.shaped]) (by simp only [Expr.ids]) hn5⟩
  refine PRes.built_bind (PRes.built_of (Parser.match_built p4 _) ht4 hn4
    (fun _ _ _ _ h => h)) fun m p5 ht5 hn5 hg5 => ?_
  split
  · rename_i hm
    obtain ⟨t, hprev, htype, hmem⟩ := hg5.2 hm
    simp only [hprev, PRes.bind]
    refine PRes.built_bind (PRes.built_of (Parser.consume_built p5 _ _) ht5 hn5
      (fun _ _ _ _ h => h)) fun _ p6 ht6 hn6 hg6 => ?_
    refine PRes.built_bind (PRes.built_of (Parser.consume_built p6 _ _) ht6 hn6
      (fun _ _ _ _ h => h)) fun method p7 ht7 hn7 hg7 => ?_
    refine ⟨ht7, by show p.nextId ≤ p7.nextId + 1; omega, ?_⟩
    refine Expr.builtFrom_node ?_ (by simp only [Expr.ids]) hn7
    simp only [Expr.shaped]
    have htt : t.type = TokenType.SUPER := by simpa using htype
    exact ((hs.of_tokens ht4) t hmem).2 htt
  refine PRes.built_bind (PRes.built_of (Parser.match_built p5 _) ht5 hn5
    (fun _ _ _ _ h => h)) fun m p6 ht6 hn6 hg6 => ?_
  split
  · refine PRes.built_bind (PRes.built_of (Parser.previous_built p6) ht6 hn6
      (fun _ _ _ _ h => h)) fun t p7 ht7 hn7 hg7 => ?_
    refine ⟨ht7, by show p.nextId ≤ p7.nextId + 1; omega, ?_⟩
    exact Expr.builtFrom_node (by simp only [Expr.shaped]) (by simp only [Expr.ids]) hn7
  refine PRes.built_bind (PRes.built_of (Parser.match_built p6 _) ht6 hn6
    (fun _ _ _ _ h => h)) fun m p7 ht7 hn7 hg7 => ?_
  split
  · rename_i hm
    refine PRes.built_bind (PRes.built_of (Parser.previous_built p7) ht7 hn7
      (fun _ _ _ _ h => h)) fun t p8 ht8 hn8 hg8 => ?_
    refine ⟨ht8, by show p.nextId ≤ p8.nextId + 1; omega, ?_⟩
    refine Expr.builtFrom_node ?_ (by simp only [Expr.ids]) hn8
    simp only [Expr.shaped]
    obtain ⟨t', hprev, htype, hmem⟩ := hg7.2 hm
    have htt : t = t' := by
      have h9 := hg8.2.1
      rw [hprev] at h9
      cases h9
      rfl
    subst htt
    exact ((hs.of_tokens ht6) t hmem).1 (by simpa using htype)
  refine PRes.built_bind (PRes.built_of (Parser.match_built p7 _) ht7 hn7
    (fun _ _ _ _ h => h)) fun m p8 ht8 hn8 hg8 => ?_
  split
  · have h8 : p8.nextId = p.nextId := by
      rw [hg8.1, hg7.1, hg6.1, hg5.1, hg4.1, hg3.1, hg2.1, hg1.1]
    refine PRes.built_bind (PRes.built_of (ih.expression p8 (hs.of_tokens ht8)) ht8 hn8
      (fun _ _ _ _ h => h)) fun e p9 ht9 hn9 hg9 => ?_
    refine PRes.built_bind (PRes.built_of (Parser.consume_built p9 _ _) ht9 hn9
      (fun _ _ _ _ h => h)) fun _ p10 ht10 hn10 hg10 => ?_
    refine ⟨ht10, hn10, ?_⟩
    rw [h8] at hg9
    have := Expr.expr_builtFrom_of_nextId hg9 hg10.1
    unfold Expr.builtFrom at this ⊢
    exact this.of_iff (by simp only [Expr.shaped]; exact id) (by simp only [Expr.ids])
  · refine PRes.built_bind (PRes.built_of (Parser.peek_built p8) ht8 hn8
      (fun _ _ _ _ h => h)) fun t p9 ht9 hn9 hg9 => ?_
    exact ⟨ht9, hn9, Expr.builtFrom_leaf (by simp only [Expr.shaped]) (by simp only [Expr.ids]) hn9⟩

theorem Expr.expr_idsAll_append (a b : List Expr) :
    Expr.idsAll (a ++ b) = Expr.idsAll a ++ Expr.idsAll b := by
  induction a with
  | nil => simp [Expr.idsAll]
  | cons x xs ih => simp [Expr.idsAll, ih]

theorem Expr.expr_shapedAll_append (a b : List Expr) :
    Expr.shapedAll a ∧ Expr.shapedAll b → Expr.shapedAll (a ++ b) := by
  induction a with
  | nil => exact fun h => h.2
  | cons x xs ih =>
    simp only [List.cons_append, Expr.shapedAll]
    exact fun h => ⟨h.1.1, ih ⟨h.1.2, h.2⟩⟩

theorem Expr.expr_allBuiltFrom_snoc {lo : Nat} {arguments : List Expr} {a : Expr} {p1 p2 : Parser}
    (h1 : Expr.allBuiltFrom lo arguments p1) (h2 : a.builtFrom p1.nextId p2) :
    Expr.allBuiltFrom lo (arguments ++ [a]) p2 := by
  unfold Expr.allBuiltFrom Expr.builtFrom at *
  refine (Built.append h1 h2).of_iff (fun h => ?_) ?_
  · exact Expr.expr_shapedAll_append _ _ ⟨h.1, by simp only [Expr.shapedAll]; exact ⟨h.2, trivial⟩⟩
  · simp [Expr.expr_idsAll_append, Expr.idsAll]

/-- The report of too many parameters or arguments. -/
theorem Parser.tooMany_built (p : Parser) (c : Prop) [Decidable c] (message : String) :
    (if c then p.peek.bind fun t p => PRes.ok () (p.error t message)
      else PRes.ok () p).built p fun _ p' => p'.nextId = p.nextId := by
  split
  · refine PRes.built_bind (Parser.peek_built p) fun t p1 _ _ hg => ?_
    obtain ⟨rfl, _⟩ := hg
    exact ⟨rfl, le_refl _, rfl⟩
  · exact ⟨rfl, le_refl _, rfl⟩

theorem Parser.argumentsLoop_built {n : Nat} (ih : Parser.ExprBuilt n) (p : Parser)
    (arguments : List Expr) (lo : Nat) (hs : p.scanned)
    (hb : Expr.allBuiltFrom lo arguments p) :
    (Parser.argumentsLoop (n + 1) arguments p).built p (Expr.allBuiltFrom lo) := by
  simp only [Parser.argumentsLoop]
  refine PRes.built_bind (Parser.tooMany_built p _ _) fun _ p1 ht1 hn1 hg1 => ?_
  refine PRes.built_bind (PRes.built_of (ih.expression p1 (hs.of_tokens ht1)) ht1 hn1
    (fun _ _ _ _ h => h)) fun a p2 ht2 hn2 hg2 => ?_
  refine PRes.built_bind (PRes.built_of (Parser.match_built p2 _) ht2 hn2
    (fun _ _ _ _ h => h)) fun more p3 ht3 hn3 hg3 => ?_
  have hb1 : Expr.allBuiltFrom lo arguments p1 := by
    unfold Expr.allBuiltFrom at hb ⊢
    rw [hg1]
    exact hb
  have hb3 : Expr.allBuiltFrom lo (arguments ++ [a]) p3 := by
    have := Expr.expr_allBuiltFrom_snoc hb1 hg2
    unfold Expr.allBuiltFrom at this ⊢
    rw [hg3.1]
    exact this
  split
  · exact PRes.built_of (ih.argumentsLoop p3 _ lo (hs.of_tokens ht3) hb3) ht3 hn3
      (fun _ _ _ _ h => h)
  · exact ⟨ht3, hn3, hb3⟩

theorem Parser.finishCall_built {n : Nat} (ih : Parser.ExprBuilt n) (p : Parser)
    (callee : Expr) (lo : Nat) (hs : p.scanned) (hb : callee.builtFrom lo p) :
    (Parser.finishCall (n + 1) callee p).built p (Expr.builtFrom lo) := by
  simp only [Parser.finishCall]
  refine PRes.built_bind (Parser.check_built p _) fun c p1 ht1 hn1 hg1 => ?_
  obtain ⟨rfl, _⟩ := hg1
  refine PRes.built_bind (G := Expr.allBuiltFrom p1.nextId) ?_ fun arguments p2 ht2 hn2 hg2 => ?_
  · split
    · exact ih.argumentsLoop p1 [] p1.nextId hs
        (Built.empty (by simp only [Expr.shapedAll]) (le_refl _))
    · exact ⟨rfl, le_refl _, Built.empty (by simp only [Expr.shapedAll]) (le_refl _)⟩
  refine PRes.built_bind (PRes.built_of (Parser.consume_built p2 _ _) ht2 hn2
    (fun _ _ _ _ h => h)) fun paren p3 ht3 hn3 hg3 => ?_
  refine ⟨ht3, hn3, ?_⟩
  unfold Expr.builtFrom Expr.allBuiltFrom at *
  rw [hg3.1]
  exact (Built.append hb hg2).of_iff (by simp only [Expr.shaped]; exact id)
    (by simp only [Expr.ids])

theorem Parser.callLoop_built {n : Nat} (ih : Parser.ExprBuilt n) (p : Parser)
    (expr : Expr) (lo : Nat) (hs : p.scanned) (hb : expr.builtFrom lo p) :
    (Parser.callLoop (n + 1) expr p).built p (Expr.builtFrom lo) := by
  simp only [Parser.callLoop]
  refine PRes.built_bind (Parser.match_built p _) fun m p1 ht1 hn1 hg1 => ?_
  have hb1 := Expr.expr_builtFrom_of_nextId hb hg1.1
  split
  · refine PRes.built_bind (PRes.built_of (ih.finishCall p1 expr lo (hs.of_tokens ht1) hb1)
      ht1 hn1 (fun _ _ _ _ h => h)) fun e p2 ht2 hn2 hg2 => ?_
    exact PRes.built_of (ih.callLoop p2 e lo (hs.of_tokens ht2) hg2) ht2 hn2
      (fun _ _ _ _ h => h)
  refine PRes.built_bind (PRes.built_of (Parser.match_built p1 _) ht1 hn1
    (fun _ _ _ _ h => h)) fun m p2 ht2 hn2 hg2 => ?_
  have hb2 := Expr.expr_builtFrom_of_nextId hb1 hg2.1
  split
  · refine PRes.built_bind (PRes.built_of (Parser.consume_built p2 _ _) ht2 hn2
      (fun _ _ _ _ h => h)) fun name p3 ht3 hn3 hg3 => ?_
    refine PRes.built_of (ih.callLoop p3 (.Get expr name) lo (hs.of_tokens ht3) ?_) ht3 hn3
      (fun _ _ _ _ h => h)
    have := Expr.expr_builtFrom_of_nextId hb2 hg3.1
    unfold Expr.builtFrom at this ⊢
    exact this.of_iff (by simp only [Expr.shaped]; exact id) (by simp only [Expr.ids])
  · exact ⟨ht2, hn2, hb2⟩

theorem Parser.unary_built {n : Nat} (ih : Parser.ExprBuilt n) (p : Parser)
    (hs : p.scanned) : (Parser.unary (n + 1) p).built p (Expr.builtFrom p.nextId) := by
  simp only [Parser.unary]
  refine PRes.built_bind (Parser.match_built p _) fun m p1 ht1 hn1 hg1 => ?_
  split
  · refine PRes.built_bind (PRes.built_of (Parser.previous_built p1) ht1 hn1
      (fun _ _ _ _ h => h)) fun op p2 ht2 hn2 hg2 => ?_
    obtain ⟨h2, _, _⟩ := hg2
    subst h2
    refine PRes.built_bind (PRes.built_of (ih.unary p2 (hs.of_tokens ht1)) ht1 hn1
      (fun _ _ _ _ h => h)) fun right p3 ht3 hn3 hg3 => ?_
    refine ⟨ht3, hn3, ?_⟩
    rw [hg1.1] at hg3
    unfold Expr.builtFrom at hg3 ⊢
    exact hg3.of_iff (by simp only [Expr.shaped]; exact id) (by simp only [Expr.ids])
  · refine PRes.built_of (ih.call p1 (hs.of_tokens ht1)) ht1 hn1 fun e p' _ _ h => ?_
    rw [hg1.1] at h
    exact h

theorem Parser.assignment_built {n : Nat} (ih : Parser.ExprBuilt n) (p : Parser)
    (hs : p.scanned) : (Parser.assignment (n + 1) p).built p (Expr.builtFrom p.nextId) := by
  simp only [Parser.assignment]
  refine PRes.built_bind (ih.logic_or p hs) fun expr p1 ht1 hn1 hg1 => ?_
  refine PRes.built_bind (PRes.built_of (Parser.match_built p1 _) ht1 hn1
    (fun _ _ _ _ h => h)) fun m p2 ht2 hn2 hg2 => ?_
  have hb2 := Expr.expr_builtFrom_of_nextId hg1 hg2.1
  split
  · refine PRes.built_bind (PRes.built_of (Parser.previous_built p2) ht2 hn2
      (fun _ _ _ _ h => h)) fun equals p3 ht3 hn3 hg3 => ?_
    obtain ⟨h3, _, _⟩ := hg3
    subst h3
    refine PRes.built_bind (PRes.built_of (ih.assignment p3 (hs.of_tokens ht2)) ht2 hn2
      (fun _ _ _ _ h => h)) fun value p4 ht4 hn4 hg4 => ?_
    have hle : p3.nextId ≤ p4.nextId := hg4.1
    cases expr with
    | Get object name =>
      refine ⟨ht4, hn4, ?_⟩
      unfold Expr.builtFrom at hb2 hg4 ⊢
      have hobj : Built object.shaped object.ids p.nextId p3.nextId :=
        hb2.of_iff (by simp only [Expr.shaped]; exact id) (by simp only [Expr.ids])
      exact (Built.append hobj hg4).of_iff (by simp only [Expr.shaped]; exact id)
        (by simp only [Expr.ids])
    | Variable v =>
      refine ⟨ht4, by show p.nextId ≤ p4.nextId + 1; omega, ?_⟩
      unfold Expr.builtFrom at hb2 hg4 ⊢
      have hv : v.Name.declarable := by
        have h5 := hb2.2.1
        simp only [Expr.shaped] at h5
        exact h5.declarable
      exact (hg4.widen (by omega) (le_refl _)).cons.of_iff
        (by simp only [Expr.shaped]; exact fun h => ⟨hv, h⟩) (by simp only [Expr.ids])
    | _ =>
      refine ⟨ht4, hn4, ?_⟩
      unfold Expr.builtFrom at hb2 ⊢
      exact hb2.widen (le_refl _) hle
  · exact ⟨ht2, hn2, hb2⟩

/-- Every method of the parser for expressions returns an expression built between the
counters of the two states, whatever the fuel. -/
theorem Parser.exprBuilt : ∀ n : Nat, Parser.ExprBuilt n
  | 0 =>
    { primary := fun _ _ => by simp only [Parser.primary]; trivial
      argumentsLoop := fun _ _ _ _ _ => by simp only [Parser.argumentsLoop]; trivial
      finishCall := fun _ _ _ _ _ => by simp only [Parser.finishCall]; trivial
      callLoop := fun _ _ _ _ _ => by simp only [Parser.callLoop]; trivial
      call := fun _ _ => by simp only [Parser.call]; trivial
      unary := fun _ _ => by simp only [Parser.unary]; trivial
      factorLoop := fun _ _ _ _ _ => by simp only [Parser.factorLoop]; trivial
      factor := fun _ _ => by simp only [Parser.factor]; trivial
      termLoop := fun _ _ _ _ _ => by simp only [Parser.termLoop]; trivial
      term := fun _ _ => by simp only [Parser.term]; trivial
      comparisonLoop := fun _ _ _ _ _ => by simp only [Parser.comparisonLoop]; trivial
      comparison := fun _ _ => by simp only [Parser.comparison]; trivial
      equalityLoop := fun _ _ _ _ _ => by simp only [Parser.equalityLoop]; trivial
      equality := fun _ _ => by simp only [Parser.equality]; trivial
      logic_andLoop := fun _ _ _ _ _ => by simp only [Parser.logic_andLoop]; trivial
      logic_and := fun _ _ => by simp only [Parser.logic_and]; trivial
      logic_orLoop := fun _ _ _ _ _ => by simp only [Parser.logic_orLoop]; trivial
      logic_or := fun _ _ => by simp only [Parser.logic_or]; trivial
      assignment := fun _ _ => by simp only [Parser.assignment]; trivial
      expression := fun _ _ => by simp only [Parser.expression]; trivial }
  | n + 1 =>
    have ih := Parser.exprBuilt n
    { primary := Parser.primary_built ih
      argumentsLoop := Parser.argumentsLoop_built ih
      finishCall := Parser.finishCall_built ih
      callLoop := Parser.callLoop_built ih
      call := fun p hs => by
        simp only [Parser.call]
        exact Parser.chain_built ih.primary ih.callLoop p hs
      unary := Parser.unary_built ih
      factorLoop := fun p e lo hs hb => by
        simp only [Parser.factorLoop]
        exact Parser.binaryLoop_built (K := Expr.Binary) binary_ids binary_shaped ih.unary
          ih.factorLoop p e lo hs hb
      factor := fun p hs => by
        simp only [Parser.factor]
        exact Parser.chain_built ih.unary ih.factorLoop p hs
      termLoop := fun p e lo hs hb => by
        simp only [Parser.termLoop]
        exact Parser.binaryLoop_built (K := Expr.Binary) binary_ids binary_shaped ih.factor
          ih.termLoop p e lo hs hb
      term := fun p hs => by
        simp only [Parser.term]
        exact Parser.chain_built ih.factor ih.termLoop p hs
      comparisonLoop := fun p e lo hs hb => by
        simp only [Parser.comparisonLoop]
        exact Parser.binaryLoop_built (K := Expr.Binary) binary_ids binary_shaped ih.term
          ih.comparisonLoop p e lo hs hb
      comparison := fun p hs => by
        simp only [Parser.comparison]
        exact Parser.chain_built ih.term ih.comparisonLoop p hs
      equalityLoop := fun p e lo hs hb => by
        simp only [Parser.equalityLoop]
        exact Parser.binaryLoop_built (K := Expr.Binary) binary_ids binary_shaped
          ih.comparison ih.equalityLoop p e lo hs hb
      equality := fun p hs => by
        simp only [Parser.equality]
        exact Parser.chain_built ih.comparison ih.equalityLoop p hs
      logic_andLoop := fun p e lo hs hb => by
        simp only [Parser.logic_andLoop]
        exact Parser.binaryLoop_built (K := Expr.Logical) logical_ids logical_shaped
          ih.equality ih.logic_andLoop p e lo hs hb
      logic_and := fun p hs => by
        simp only [Parser.logic_and]
        exact Parser.chain_built ih.equality ih.logic_andLoop p hs
      logic_orLoop := fun p e lo hs hb => by
        simp only [Parser.logic_orLoop]
        exact Parser.binaryLoop_built (K := Expr.Logical) logical_ids logical_shaped
          ih.logic_and ih.logic_orLoop p e lo hs hb
      logic_or := fun p hs => by
        simp only [Parser.logic_or]
        exact Parser.chain_built ih.logic_and ih.logic_orLoop p hs
      assignment := Parser.assignment_built ih
      expression := fun p hs => by
        simp only [Parser.expression]
        exact ih.assignment p hs }

theorem Built.perm {s : Prop} {a b : List Nat} {lo hi : Nat} (h : Built s a lo hi)
    (hp : b.Perm a) : Built s b lo hi :=
  ⟨h.1, h.2.1, hp.nodup_iff.2 h.2.2.1, fun id hid => h.2.2.2 id (hp.mem_iff.1 hid)⟩

theorem Expr.expr_isNil_eq {e : Expr} (h : e.isNil = true) : e = Expr.nil := by
  cases e <;> simp [Expr.isNil] at h ⊢

theorem Stmt.stmt_isNil_eq {s : Stmt} (h : s.isNil = true) : s = Stmt.nil := by
  cases s <;> simp [Stmt.isNil] at h ⊢

theorem Stmt.stmt_idsAll_append (a b : List Stmt) :
    Stmt.idsAll (a ++ b) = Stmt.idsAll a ++ Stmt.idsAll b := by
  induction a with
  | nil => simp [Stmt.idsAll]
  | cons x xs ih => simp [Stmt.idsAll, ih]

theorem Stmt.stmt_shapedAll_append (a b : List Stmt) :
    Stmt.shapedAll a ∧ Stmt.shapedAll b → Stmt.shapedAll (a ++ b) := by
  induction a with
  | nil => exact fun h => h.2
  | cons x xs ih =>
    simp only [List.cons_append, Stmt.shapedAll]
    exact fun h => ⟨h.1.1, ih ⟨h.1.2, h.2⟩⟩

theorem Stmt.stmt_allBuiltFrom_snoc {lo : Nat} {statements : List Stmt} {s : Stmt}
    {p1 p2 : Parser} (h1 : Stmt.allBuiltFrom lo statements p1)
    (h2 : s.builtFrom p1.nextId p2) : Stmt.allBuiltFrom lo (statements ++ [s]) p2 := by
  unfold Stmt.allBuiltFrom Stmt.builtFrom at *
  refine (Built.append h1 h2).of_iff (fun h => ?_) ?_
  · exact Stmt.stmt_shapedAll_append _ _ ⟨h.1, by simp only [Stmt.shapedAll]; exact ⟨h.2, trivial⟩⟩
  · simp [Stmt.stmt_idsAll_append, Stmt.idsAll]

theorem FunctionStmt.functionStmt_idsAll_append (a b : List FunctionStmt) :
    FunctionStmt.idsAll (a ++ b) = FunctionStmt.idsAll a ++ FunctionStmt.idsAll b := by
  induction a with
  | nil => simp [FunctionStmt.idsAll]
  | cons x xs ih => simp [FunctionStmt.idsAll, ih]

theorem FunctionStmt.functionStmt_shapedAll_append (a b : List FunctionStmt) :
    FunctionStmt.shapedAll a ∧ FunctionStmt.shapedAll b → FunctionStmt.shapedAll (a ++ b) := by
  induction a with
  | nil => exact fun h => h.2
  | cons x xs ih =>
    simp only [List.cons_append, FunctionStmt.shapedAll]
    exact fun h => ⟨h.1.1, ih ⟨h.1.2, h.2⟩⟩

theorem FunctionStmt.functionStmt_allBuiltFrom_snoc {lo : Nat} {methods : List FunctionStmt}
    {m : FunctionStmt} {p1 p2 : Parser} (h1 : FunctionStmt.allBuiltFrom lo methods p1)
    (h2 : m.builtFrom p1.nextId p2) : FunctionStmt.allBuiltFrom lo (methods ++ [m]) p2 := by
  unfold FunctionStmt.allBuiltFrom FunctionStmt.builtFrom at *
  refine (Built.append h1 h2).of_iff (fun h => ?_) ?_
  · exact FunctionStmt.functionStmt_shapedAll_append _ _
      ⟨h.1, by simp only [FunctionStmt.shapedAll]; exact ⟨h.2, trivial⟩⟩
  · simp [FunctionStmt.functionStmt_idsAll_append, FunctionStmt.idsAll]

/-- An expression in an optional position: parsed, or nil. -/
theorem Parser.optional_built (n : Nat) (p : Parser) (hs : p.scanned) (c : Prop)
    [Decidable c] :
    (if c then Parser.expression n p else PRes.ok Expr.nil p).built p
      (Expr.builtFrom p.nextId) := by
  split
  · exact (Parser.exprBuilt n).expression p hs
  · exact ⟨rfl, le_refl _, Expr.builtFrom_leaf (by simp only [Expr.shaped])
      (by simp only [Expr.ids]) (le_refl _)⟩

theorem Parser.printStatement_built (n : Nat) (p : Parser) (hs : p.scanned) :
    (Parser.printStatement n p).built p fun s p' =>
      s.builtFrom p.nextId p' ∧ s.declared = none := by
  unfold Parser.printStatement
  refine PRes.built_bind ((Parser.exprBuilt n).expression p hs) fun e p1 ht1 hn1 hg1 => ?_
  refine PRes.built_bind (PRes.built_of (Parser.consume_built p1 _ _) ht1 hn1
    (fun _ _ _ _ h => h)) fun _ p2 ht2 hn2 hg2 => ?_
  refine ⟨ht2, hn2, ?_, rfl⟩
  have := Expr.expr_builtFrom_of_nextId hg1 hg2.1
  unfold Expr.builtFrom at this
  unfold Stmt.builtFrom
  exact this.of_iff (by simp only [Stmt.shaped]; exact id) (by simp only [Stmt.ids])

theorem Parser.expressionStatement_built (n : Nat) (p : Parser) (hs : p.scanned) :
    (Parser.expressionStatement n p).built p fun s p' =>
      s.builtFrom p.nextId p' ∧ s.declared = none := by
  unfold Parser.expressionStatement
  refine PRes.built_bind ((Parser.exprBuilt n).expression p hs) fun e p1 ht1 hn1 hg1 => ?_
  refine PRes.built_bind (PRes.built_of (Parser.consume_built p1 _ _) ht1 hn1
    (fun _ _ _ _ h => h)) fun _ p2 ht2 hn2 hg2 => ?_
  refine ⟨ht2, hn2, ?_, rfl⟩
  have := Expr.expr_builtFrom_of_nextId hg1 hg2.1
  unfold Expr.builtFrom at this
  unfold Stmt.builtFrom
  exact this.of_iff (by simp only [Stmt.shaped]; exact id) (by simp only [Stmt.ids])

theorem Parser.varDeclaration_built (n : Nat) (p : Parser) (hs : p.scanned) :
    (Parser.varDeclaration n p).built p (Stmt.builtFrom p.nextId) := by
  unfold Parser.varDeclaration
  refine PRes.built_bind (Parser.consume_built p _ _) fun name p1 ht1 hn1 hg1 => ?_
  refine PRes.built_bind (PRes.built_of (Parser.match_built p1 _) ht1 hn1
    (fun _ _ _ _ h => h)) fun m p2 ht2 hn2 hg2 => ?_
  refine PRes.built_bind (PRes.built_of (Parser.optional_built n p2 (hs.of_tokens ht2) _) ht2 hn2
    (fun _ _ _ _ h => h)) fun init p3 ht3 hn3 hg3 => ?_
  refine PRes.built_bind (PRes.built_of (Parser.consume_built p3 _ _) ht3 hn3
    (fun _ _ _ _ h => h)) fun _ p4 ht4 hn4 hg4 => ?_
  refine ⟨ht4, hn4, ?_⟩
  have h2 : p2.nextId = p.nextId := hg2.1.trans hg1.1
  rw [h2] at hg3
  have := Expr.expr_builtFrom_of_nextId hg3 hg4.1
  unfold Expr.builtFrom at this
  unfold Stmt.builtFrom
  refine this.of_iff (fun h => ?_) (by simp only [Stmt.ids])
  simp only [Stmt.shaped]
  exact ⟨((hs name hg1.2.2.1).1 hg1.2.1).declarable, h⟩

theorem Parser.returnStatement_built (n : Nat) (p : Parser) (hs : p.scanned) :
    (Parser.returnStatement n p).built p fun s p' =>
      s.builtFrom p.nextId p' ∧ s.declared = none := by
  unfold Parser.returnStatement
  refine PRes.built_bind (Parser.previous_built p) fun kw p1 ht1 hn1 hg1 => ?_
  obtain ⟨h1, _, _⟩ := hg1
  subst h1
  refine PRes.built_bind (Parser.check_built p1 _) fun c p2 ht2 hn2 hg2 => ?_
  obtain ⟨h2, _⟩ := hg2
  subst h2
  refine PRes.built_bind (Parser.optional_built n p2 hs _) fun value p3 ht3 hn3 hg3 => ?_
  refine PRes.built_bind (PRes.built_of (Parser.consume_built p3 _ _) ht3 hn3
    (fun _ _ _ _ h => h)) fun _ p4 ht4 hn4 hg4 => ?_
  refine ⟨ht4, hn4, ?_, rfl⟩
  have := Expr.expr_builtFrom_of_nextId hg3 hg4.1
  unfold Expr.builtFrom at this
  unfold Stmt.builtFrom
  exact this.of_iff (by simp only [Stmt.shaped]; exact id) (by simp only [Stmt.ids])

theorem Parser.parametersLoop_built (hp : Parser) (hs : hp.scanned) :
    ∀ (n : Nat) (parameters : List Token) (p : Parser), p.tokens = hp.tokens →
    (∀ q ∈ parameters, q.declarable) →
    (Parser.parametersLoop n parameters p).built p fun ps p' =>
      p'.nextId = p.nextId ∧ ∀ q ∈ ps, q.declarable
  | 0, _, _, _, _ => trivial
  | n + 1, parameters, p, htk, hq => by
    simp only [Parser.parametersLoop]
    refine PRes.built_bind (Parser.tooMany_built p _ _) fun _ p1 ht1 hn1 hg1 => ?_
    refine PRes.built_bind (PRes.built_of (Parser.consume_built p1 _ _) ht1 hn1
      (fun _ _ _ _ h => h)) fun param p2 ht2 hn2 hg2 => ?_
    refine PRes.built_bind (PRes.built_of (Parser.match_built p2 _) ht2 hn2
      (fun _ _ _ _ h => h)) fun more p3 ht3 hn3 hg3 => ?_
    have h3 : p3.nextId = p.nextId := hg3.1.trans (hg2.1.trans hg1)
    have hq' : ∀ q ∈ parameters ++ [param], q.declarable := by
      intro q hm
      rcases List.mem_append.1 hm with h | h
      · exact hq q h
      · simp only [List.mem_singleton] at h
        subst h
        exact ((hs q (htk ▸ ht1 ▸ hg2.2.2.1)).1 hg2.2.1).declarable
    split
    · refine PRes.built_of (Parser.parametersLoop_built hp hs n _ p3 (ht3.trans htk) hq') ht3 hn3
        fun ps p' _ _ h => ⟨h.1.trans h3, h.2⟩
    · exact ⟨ht3, hn3, h3, hq'⟩

/-- The statement that `forStatement` puts together from the initializer, the condition,
the increment and the body. -/
theorem Parser.for_built {I : Stmt} {C U : Expr} {B : Stmt} {lo a b c d : Nat}
    (hI : Built I.shaped I.ids lo a) (hC : Built C.shaped C.ids a b)
    (hU : Built U.shaped U.ids b c) (hB : Built B.shaped B.ids c d)
    (hBd : B.declared = none) :
    Built
      (if !I.isNil then
        Stmt.BlockStmt [I, Stmt.WhileStmt (if C.isNil then Expr.Literal (.bool true) else C)
          (if !U.isNil then Stmt.BlockStmt [B, .ExpressionStmt U] else B)]
      else Stmt.WhileStmt (if C.isNil then Expr.Literal (.bool true) else C)
          (if !U.isNil then Stmt.BlockStmt [B, .ExpressionStmt U] else B)).shaped
      (if !I.isNil then
        Stmt.BlockStmt [I, Stmt.WhileStmt (if C.isNil then Expr.Literal (.bool true) else C)
          (if !U.isNil then Stmt.BlockStmt [B, .ExpressionStmt U] else B)]
      else Stmt.WhileStmt (if C.isNil then Expr.Literal (.bool true) else C)
          (if !U.isNil then Stmt.BlockStmt [B, .ExpressionStmt U] else B)).ids lo d ∧
    (if !I.isNil then
        Stmt.BlockStmt [I, Stmt.WhileStmt (if C.isNil then Expr.Literal (.bool true) else C)
          (if !U.isNil then Stmt.BlockStmt [B, .ExpressionStmt U] else B)]
      else Stmt.WhileStmt (if C.isNil then Expr.Literal (.bool true) else C)
          (if !U.isNil then Stmt.BlockStmt [B, .ExpressionStmt U] else B)).declared = none := by
  have hbody : Built
      ((if !U.isNil then Stmt.BlockStmt [B, .ExpressionStmt U] else B).shaped ∧
        (if !U.isNil then Stmt.BlockStmt [B, .ExpressionStmt U] else B).declared = none)
      (if !U.isNil then Stmt.BlockStmt [B, .ExpressionStmt U] else B).ids b d := by
    by_cases hu : U.isNil = true
    · have := Expr.expr_isNil_eq hu
      subst this
      simp only [Expr.isNil, Bool.not_true, Bool.false_eq_true, if_false]
      exact (hB.widen hU.1 (le_refl _)).of_iff (fun h => ⟨h, hBd⟩) rfl
    · have hu' : U.isNil = false := by simpa using hu
      simp only [hu', Bool.not_false, if_true]
      refine ((Built.append hU hB).perm (b := B.ids ++ U.ids) ?_).of_iff (fun h => ?_) ?_
      · exact List.perm_append_comm
      · simp only [Stmt.shaped, Stmt.shapedAll, Stmt.declared]
        exact ⟨⟨h.2, h.1, trivial⟩, trivial⟩
      · simp [Stmt.ids, Stmt.idsAll]
  have hcond : Built (if C.isNil then Expr.Literal (.bool true) else C).shaped
      (if C.isNil then Expr.Literal (.bool true) else C).ids a b := by
    split
    · exact Built.empty (by simp only [Expr.shaped]) hC.1
    · exact hC
  have hwhile := Built.append hcond hbody
  have hwhile' : Built (Stmt.WhileStmt (if C.isNil then Expr.Literal (.bool true) else C)
      (if !U.isNil then Stmt.BlockStmt [B, .ExpressionStmt U] else B)).shaped
      (Stmt.WhileStmt (if C.isNil then Expr.Literal (.bool true) else C)
      (if !U.isNil then Stmt.BlockStmt [B, .ExpressionStmt U] else B)).ids a d :=
    hwhile.of_iff (fun h => by simp only [Stmt.shaped]; exact ⟨h.1, h.2.1, h.2.2⟩)
      (by simp only [Stmt.ids])
  by_cases hi : I.isNil = true
  · simp only [hi, Bool.not_true, Bool.false_eq_true, if_false]
    exact ⟨hwhile'.widen hI.1 (le_refl _), rfl⟩
  · simp only [Bool.not_eq_true] at hi
    simp only [hi, Bool.not_false, if_true]
    refine ⟨(Built.append hI hwhile').of_iff (fun h => ?_) ?_, rfl⟩
    · simp only [Stmt.shaped, Stmt.shapedAll]
      simp only [Stmt.shaped] at h
      exact ⟨h.1, h.2, trivial⟩
    · simp [Stmt.ids, Stmt.idsAll]

theorem Stmt.stmt_builtFrom_of_nextId {lo : Nat} {s : Stmt} {p p' : Parser}
    (h : s.builtFrom lo p) (hn : p'.nextId = p.nextId) : s.builtFrom lo p' := by
  unfold Stmt.builtFrom at h ⊢
  rw [hn]
  exact h

theorem Stmt.allBuiltFrom_of_nextId {lo : Nat} {ss : List Stmt} {p p' : Parser}
    (h : Stmt.allBuiltFrom lo ss p) (hn : p'.nextId = p.nextId) :
    Stmt.allBuiltFrom lo ss p' := by
  unfold Stmt.allBuiltFrom at h ⊢
  rw [hn]
  exact h

theorem Stmt.allBuiltFrom_of_le {lo : Nat} {ss : List Stmt} {p p' : Parser}
    (h : Stmt.allBuiltFrom lo ss p) (hn : p.nextId ≤ p'.nextId) :
    Stmt.allBuiltFrom lo ss p' :=
  Built.widen h (le_refl _) hn

theorem Parser.declaration_built {n : Nat} (ih : Parser.StmtBuilt n) (p : Parser)
    (hs : p.scanned) : (Parser.declaration (n + 1) p).built p (Stmt.builtFrom p.nextId) := by
  simp only [Parser.declaration]
  refine PRes.built_bind (Parser.match_built p _) fun m p1 ht1 hn1 hg1 => ?_
  split
  · refine PRes.built_of (ih.classDeclaration p1 (hs.of_tokens ht1)) ht1 hn1 fun s p' _ _ h => ?_
    rw [hg1.1] at h
    exact h
  refine PRes.built_bind (PRes.built_of (Parser.match_built p1 _) ht1 hn1
    (fun _ _ _ _ h => h)) fun m p2 ht2 hn2 hg2 => ?_
  have h2 : p2.nextId = p.nextId := hg2.1.trans hg1.1
  split
  · refine PRes.built_bind (PRes.built_of (ih.function p2 "function" (hs.of_tokens ht2)) ht2 hn2
      (fun _ _ _ _ h => h)) fun f p3 ht3 hn3 hg3 => ?_
    refine ⟨ht3, hn3, ?_⟩
    rw [h2] at hg3
    unfold FunctionStmt.builtFrom at hg3
    unfold Stmt.builtFrom
    exact hg3.of_iff (by simp only [Stmt.shaped]; exact id) (by simp only [Stmt.ids])
  refine PRes.built_bind (PRes.built_of (Parser.match_built p2 _) ht2 hn2
    (fun _ _ _ _ h => h)) fun m p3 ht3 hn3 hg3 => ?_
  have h3 : p3.nextId = p.nextId := hg3.1.trans h2
  split
  · refine PRes.built_of (Parser.varDeclaration_built n p3 (hs.of_tokens ht3)) ht3 hn3
      fun s p' _ _ h => ?_
    rw [h3] at h
    exact h
  · refine PRes.built_of (ih.statement p3 (hs.of_tokens ht3)) ht3 hn3 fun s p' _ _ h => ?_
    rw [h3] at h
    exact h.1

theorem Parser.statement_built {n : Nat} (ih : Parser.StmtBuilt n) (p : Parser)
    (hs : p.scanned) :
    (Parser.statement (n + 1) p).built p fun s p' =>
      s.builtFrom p.nextId p' ∧ s.declared = none := by
  simp only [Parser.statement]
  refine PRes.built_bind (Parser.match_built p _) fun m p1 ht1 hn1 hg1 => ?_
  have h1 : p1.nextId = p.nextId := hg1.1
  split
  · refine PRes.built_of (ih.forStatement p1 (hs.of_tokens ht1)) ht1 hn1 fun s p' _ _ h => ?_
    rw [h1] at h
    exact h
  refine PRes.built_bind (PRes.built_of (Parser.match_built p1 _) ht1 hn1
    (fun _ _ _ _ h => h)) fun m p2 ht2 hn2 hg2 => ?_
  have h2 : p2.nextId = p.nextId := hg2.1.trans h1
  split
  · refine PRes.built_of (ih.ifStatement p2 (hs.of_tokens ht2)) ht2 hn2 fun s p' _ _ h => ?_
    rw [h2] at h
    exact h
  refine PRes.built_bind (PRes.built_of (Parser.match_built p2 _) ht2 hn2
    (fun _ _ _ _ h => h)) fun m p3 ht3 hn3 hg3 => ?_
  have h3 : p3.nextId = p.nextId := hg3.1.trans h2
  split
  · refine PRes.built_of (ih.whileStatement p3 (hs.of_tokens ht3)) ht3 hn3 fun s p' _ _ h => ?_
    rw [h3] at h
    exact h
  refine PRes.built_bind (PRes.built_of (Parser.match_built p3 _) ht3 hn3
    (fun _ _ _ _ h => h)) fun m p4 ht4 hn4 hg4 => ?_
  have h4 : p4.nextId = p.nextId := hg4.1.trans h3
  split
  · refine PRes.built_of (Parser.printStatement_built n p4 (hs.of_tokens ht4)) ht4 hn4
      fun s p' _ _ h => ?_
    rw [h4] at h
    exact h
  refine PRes.built_bind (PRes.built_of (Parser.match_built p4 _) ht4 hn4
    (fun _ _ _ _ h => h)) fun m p5 ht5 hn5 hg5 => ?_
  have h5 : p5.nextId = p.nextId := hg5.1.trans h4
  split
  · refine PRes.built_of (Parser.returnStatement_built n p5 (hs.of_tokens ht5)) ht5 hn5
      fun s p' _ _ h => ?_
    rw [h5] at h
    exact h
  refine PRes.built_bind (PRes.built_of (Parser.match_built p5 _) ht5 hn5
    (fun _ _ _ _ h => h)) fun m p6 ht6 hn6 hg6 => ?_
  have h6 : p6.nextId = p.nextId := hg6.1.trans h5
  split
  · refine PRes.built_bind (PRes.built_of (ih.block p6 (hs.of_tokens ht6)) ht6 hn6
      (fun _ _ _ _ h => h)) fun ss p7 ht7 hn7 hg7 => ?_
    refine ⟨ht7, hn7, ?_, rfl⟩
    rw [h6] at hg7
    unfold Stmt.allBuiltFrom at hg7
    unfold Stmt.builtFrom
    exact hg7.of_iff (by simp only [Stmt.shaped]; exact id) (by simp only [Stmt.ids])
  · refine PRes.built_of (Parser.expressionStatement_built n p6 (hs.of_tokens ht6)) ht6 hn6
      fun s p' _ _ h => ?_
    rw [h6] at h
    exact h

theorem Parser.blockLoop_built {n : Nat} (ih : Parser.StmtBuilt n) (p : Parser)
    (statements : List Stmt) (lo : Nat) (hs : p.scanned)
    (hb : Stmt.allBuiltFrom lo statements p) :
    (Parser.blockLoop (n + 1) statements p).built p (Stmt.allBuiltFrom lo) := by
  simp only [Parser.blockLoop]
  refine PRes.built_bind (Parser.check_built p _) fun c p1 ht1 hn1 hg1 => ?_
  obtain ⟨h1, _⟩ := hg1
  subst h1
  refine PRes.built_bind (Parser.isAtEnd_built p1) fun atEnd p2 ht2 hn2 hg2 => ?_
  obtain ⟨h2, _⟩ := hg2
  subst h2
  split
  · have hd := ih.declaration p2 hs
    cases hres : Parser.declaration n p2 with
    | ok stmt p3 =>
      rw [hres] at hd
      simp only
      exact PRes.built_of (ih.blockLoop p3 _ lo (hs.of_tokens hd.1)
        (Stmt.stmt_allBuiltFrom_snoc hb hd.2.2)) hd.1 hd.2.1 (fun _ _ _ _ h => h)
    | err p3 =>
      rw [hres] at hd
      simp only
      refine PRes.built_bind (PRes.built_of (Parser.synchronize_built p3) hd.1 hd.2
        (fun _ _ _ _ h => h)) fun _ p4 ht4 hn4 hg4 => ?_
      refine PRes.built_of (ih.blockLoop p4 _ lo (hs.of_tokens ht4)
        (Stmt.allBuiltFrom_of_le hb hn4)) ht4 hn4 (fun _ _ _ _ h => h)
    | panic m => trivial
    | outOfFuel => trivial
  · exact ⟨rfl, le_refl _, hb⟩

theorem Parser.block_built {n : Nat} (ih : Parser.StmtBuilt n) (p : Parser)
    (hs : p.scanned) : (Parser.block (n + 1) p).built p (Stmt.allBuiltFrom p.nextId) := by
  simp only [Parser.block]
  refine PRes.built_bind (ih.blockLoop p [] p.nextId hs
    (Built.empty (by simp only [Stmt.shapedAll]) (le_refl _))) fun ss p1 ht1 hn1 hg1 => ?_
  refine PRes.built_bind (PRes.built_of (Parser.consume_built p1 _ _) ht1 hn1
    (fun _ _ _ _ h => h)) fun _ p2 ht2 hn2 hg2 => ?_
  exact ⟨ht2, hn2, Stmt.allBuiltFrom_of_nextId hg1 hg2.1⟩

theorem Parser.ifStatement_built {n : Nat} (ih : Parser.StmtBuilt n) (p : Parser)
    (hs : p.scanned) :
    (Parser.ifStatement (n + 1) p).built p fun s p' =>
      s.builtFrom p.nextId p' ∧ s.declared = none := by
  simp only [Parser.ifStatement]
  refine PRes.built_bind (Parser.consume_built p _ _) fun _ p1 ht1 hn1 hg1 => ?_
  refine PRes.built_bind (PRes.built_of ((Parser.exprBuilt n).expression p1 (hs.of_tokens ht1))
    ht1 hn1 (fun _ _ _ _ h => h)) fun c p2 ht2 hn2 hg2 => ?_
  refine PRes.built_bind (PRes.built_of (Parser.consume_built p2 _ _) ht2 hn2
    (fun _ _ _ _ h => h)) fun _ p3 ht3 hn3 hg3 => ?_
  refine PRes.built_bind (PRes.built_of (ih.statement p3 (hs.of_tokens ht3)) ht3 hn3
    (fun _ _ _ _ h => h)) fun th p4 ht4 hn4 hg4 => ?_
  refine PRes.built_bind (PRes.built_of (Parser.match_built p4 _) ht4 hn4
    (fun _ _ _ _ h => h)) fun m p5 ht5 hn5 hg5 => ?_
  refine PRes.built_bind
    (G := fun (s : Stmt) p' => s.builtFrom p5.nextId p' ∧ s.declared = none) ?_
    fun el p6 ht6 hn6 hg6 => ?_
  · split
    · exact PRes.built_of (ih.statement p5 (hs.of_tokens ht5)) ht5 hn5 (fun _ _ _ _ h => h)
    · exact ⟨ht5, hn5, Built.empty (by simp only [Stmt.shaped]) (le_refl _), rfl⟩
  refine ⟨ht6, hn6, ?_, rfl⟩
  rw [hg1.1] at hg2
  rw [hg3.1] at hg4
  rw [hg5.1] at hg6
  unfold Stmt.builtFrom Expr.builtFrom at *
  refine (Built.append hg2 (Built.append hg4.1 hg6.1)).of_iff (fun h => ?_)
    (by simp only [Stmt.ids])
  simp only [Stmt.shaped]
  exact ⟨h.1, h.2.1, hg4.2, h.2.2, hg6.2⟩

theorem Parser.whileStatement_built {n : Nat} (ih : Parser.StmtBuilt n) (p : Parser)
    (hs : p.scanned) :
    (Parser.whileStatement (n + 1) p).built p fun s p' =>
      s.builtFrom p.nextId p' ∧ s.declared = none := by
  simp only [Parser.whileStatement]
  refine PRes.built_bind (Parser.consume_built p _ _) fun _ p1 ht1 hn1 hg1 => ?_
  refine PRes.built_bind (PRes.built_of ((Parser.exprBuilt n).expression p1 (hs.of_tokens ht1))
    ht1 hn1 (fun _ _ _ _ h => h)) fun c p2 ht2 hn2 hg2 => ?_
  refine PRes.built_bind (PRes.built_of (Parser.consume_built p2 _ _) ht2 hn2
    (fun _ _ _ _ h => h)) fun _ p3 ht3 hn3 hg3 => ?_
  refine PRes.built_bind (PRes.built_of (ih.statement p3 (hs.of_tokens ht3)) ht3 hn3
    (fun _ _ _ _ h => h)) fun b p4 ht4 hn4 hg4 => ?_
  refine ⟨ht4, hn4, ?_, rfl⟩
  rw [hg1.1] at hg2
  rw [hg3.1] at hg4
  unfold Stmt.builtFrom Expr.builtFrom at *
  refine (Built.append hg2 hg4.1).of_iff (fun h => ?_) (by simp only [Stmt.ids])
  simp only [Stmt.shaped]
  exact ⟨h.1, h.2, hg4.2⟩

theorem Parser.forStatement_built {n : Nat} (ih : Parser.StmtBuilt n) (p : Parser)
    (hs : p.scanned) :
    (Parser.forStatement (n + 1) p).built p fun s p' =>
      s.builtFrom p.nextId p' ∧ s.declared = none := by
  simp only [Parser.forStatement]
  refine PRes.built_bind (Parser.consume_built p _ _) fun _ p1 ht1 hn1 hg1 => ?_
  refine PRes.built_bind (G := Stmt.builtFrom p.nextId) ?_ fun init p2 ht2 hn2 hg2 => ?_
  · refine PRes.built_bind (PRes.built_of (Parser.match_built p1 _) ht1 hn1
      (fun _ _ _ _ h => h)) fun m q1 hq1 hm1 hh1 => ?_
    have e1 : q1.nextId = p.nextId := hh1.1.trans hg1.1
    split
    · exact ⟨hq1, hm1, Built.empty (by simp only [Stmt.shaped]) hm1⟩
    refine PRes.built_bind (PRes.built_of (Parser.match_built q1 _) hq1 hm1
      (fun _ _ _ _ h => h)) fun m q2 hq2 hm2 hh2 => ?_
    have e2 : q2.nextId = p.nextId := hh2.1.trans e1
    split
    · refine PRes.built_of (Parser.varDeclaration_built n q2 (hs.of_tokens hq2)) hq2 hm2
        fun s p' _ _ h => ?_
      rw [e2] at h
      exact h
    · refine PRes.built_of (Parser.expressionStatement_built n q2 (hs.of_tokens hq2)) hq2 hm2
        fun s p' _ _ h => ?_
      rw [e2] at h
      exact h.1
  refine PRes.built_bind (PRes.built_of (Parser.check_built p2 _) ht2 hn2
    (fun _ _ _ _ h => h)) fun c p3 ht3 hn3 hg3 => ?_
  obtain ⟨h3, _⟩ := hg3
  subst h3
  refine PRes.built_bind (PRes.built_of (Parser.optional_built n p3 (hs.of_tokens ht2) _) ht2 hn2
    (fun _ _ _ _ h => h)) fun cond p4 ht4 hn4 hg4 => ?_
  refine PRes.built_bind (PRes.built_of (Parser.consume_built p4 _ _) ht4 hn4
    (fun _ _ _ _ h => h)) fun _ p5 ht5 hn5 hg5 => ?_
  refine PRes.built_bind (PRes.built_of (Parser.check_built p5 _) ht5 hn5
    (fun _ _ _ _ h => h)) fun c p6 ht6 hn6 hg6 => ?_
  obtain ⟨h6, _⟩ := hg6
  subst h6
  refine PRes.built_bind (PRes.built_of (Parser.optional_built n p6 (hs.of_tokens ht5) _) ht5 hn5
    (fun _ _ _ _ h => h)) fun incr p7 ht7 hn7 hg7 => ?_
  refine PRes.built_bind (PRes.built_of (Parser.consume_built p7 _ _) ht7 hn7
    (fun _ _ _ _ h => h)) fun _ p8 ht8 hn8 hg8 => ?_
  refine PRes.built_bind (PRes.built_of (ih.statement p8 (hs.of_tokens ht8)) ht8 hn8
    (fun _ _ _ _ h => h)) fun body p9 ht9 hn9 hg9 => ?_
  refine ⟨ht9, hn9, ?_⟩
  rw [hg5.1] at hg7
  rw [hg8.1] at hg9
  unfold Stmt.builtFrom Expr.builtFrom at *
  exact Parser.for_built hg2 hg4 hg7 hg9.1 hg9.2

theorem Parser.function_built {n : Nat} (ih : Parser.StmtBuilt n) (p : Parser)
    (kind : String) (hs : p.scanned) :
    (Parser.function (n + 1) kind p).built p (FunctionStmt.builtFrom p.nextId) := by
  simp only [Parser.function]
  refine PRes.built_bind (Parser.consume_built p _ _) fun name p1 ht1 hn1 hg1 => ?_
  refine PRes.built_bind (PRes.built_of (Parser.consume_built p1 _ _) ht1 hn1
    (fun _ _ _ _ h => h)) fun _ p2 ht2 hn2 hg2 => ?_
  refine PRes.built_bind (PRes.built_of (Parser.check_built p2 _) ht2 hn2
    (fun _ _ _ _ h => h)) fun c p3 ht3 hn3 hg3 => ?_
  obtain ⟨h3, _⟩ := hg3
  subst h3
  refine PRes.built_bind
    (G := fun (ps : List Token) p' => p'.nextId = p3.nextId ∧ ∀ q ∈ ps, q.declarable) ?_
    fun params p4 ht4 hn4 hg4 => ?_
  · split
    · exact PRes.built_of (Parser.parametersLoop_built p hs _ [] p3 ht2
        (fun q hq => by simp at hq)) ht2 hn2 (fun _ _ _ _ h => h)
    · exact ⟨ht2, hn2, rfl, fun q hq => by simp at hq⟩
  refine PRes.built_bind (PRes.built_of (Parser.consume_built p4 _ _) ht4 hn4
    (fun _ _ _ _ h => h)) fun _ p5 ht5 hn5 hg5 => ?_
  refine PRes.built_bind (PRes.built_of (Parser.consume_built p5 _ _) ht5 hn5
    (fun _ _ _ _ h => h)) fun _ p6 ht6 hn6 hg6 => ?_
  refine PRes.built_bind (PRes.built_of (ih.block p6 (hs.of_tokens ht6)) ht6 hn6
    (fun _ _ _ _ h => h)) fun body p7 ht7 hn7 hg7 => ?_
  refine ⟨ht7, hn7, ?_⟩
  have e6 : p6.nextId = p.nextId := by
    rw [hg6.1, hg5.1, hg4.1, hg2.1, hg1.1]
  rw [e6] at hg7
  unfold Stmt.allBuiltFrom at hg7
  unfold FunctionStmt.builtFrom
  refine hg7.of_iff (fun h => ?_) (by simp only [FunctionStmt.ids])
  simp only [FunctionStmt.shaped]
  exact ⟨((hs name hg1.2.2.1).1 hg1.2.1).declarable, hg4.2, h⟩

theorem Parser.methodsLoop_built {n : Nat} (ih : Parser.StmtBuilt n) (p : Parser)
    (methods : List FunctionStmt) (lo : Nat) (hs : p.scanned)
    (hb : FunctionStmt.allBuiltFrom lo methods p) :
    (Parser.methodsLoop (n + 1) methods p).built p (FunctionStmt.allBuiltFrom lo) := by
  simp only [Parser.methodsLoop]
  refine PRes.built_bind (Parser.check_built p _) fun c p1 ht1 hn1 hg1 => ?_
  obtain ⟨h1, _⟩ := hg1
  subst h1
  refine PRes.built_bind (Parser.isAtEnd_built p1) fun atEnd p2 ht2 hn2 hg2 => ?_
  obtain ⟨h2, _⟩ := hg2
  subst h2
  split
  · refine PRes.built_bind (ih.function p2 "method" hs) fun m p3 ht3 hn3 hg3 => ?_
    exact PRes.built_of (ih.methodsLoop p3 _ lo (hs.of_tokens ht3)
      (FunctionStmt.functionStmt_allBuiltFrom_snoc hb hg3)) ht3 hn3 (fun _ _ _ _ h => h)
  · exact ⟨rfl, le_refl _, hb⟩

theorem Parser.classDeclaration_built {n : Nat} (ih : Parser.StmtBuilt n) (p : Parser)
    (hs : p.scanned) :
    (Parser.classDeclaration (n + 1) p).built p (Stmt.builtFrom p.nextId) := by
  simp only [Parser.classDeclaration]
  refine PRes.built_bind (Parser.consume_built p _ _) fun name p1 ht1 hn1 hg1 => ?_
  refine PRes.built_bind (PRes.built_of (Parser.match_built p1 _) ht1 hn1
    (fun _ _ _ _ h => h)) fun m p2 ht2 hn2 hg2 => ?_
  have e2 : p2.nextId = p.nextId := hg2.1.trans hg1.1
  refine PRes.built_bind
    (G := fun (sc : Option Variable) p' => Built True
      (match sc with
        | some v => [v.id]
        | none => []) p.nextId p'.nextId) ?_ fun sc p3 ht3 hn3 hg3 => ?_
  · split
    · refine PRes.built_bind (PRes.built_of (Parser.consume_built p2 _ _) ht2 hn2
        (fun _ _ _ _ h => h)) fun _ q1 hq1 hm1 hh1 => ?_
      refine PRes.built_bind (PRes.built_of (Parser.previous_built q1) hq1 hm1
        (fun _ _ _ _ h => h)) fun t q2 hq2 hm2 hh2 => ?_
      obtain ⟨e, _, _⟩ := hh2
      subst e
      exact ⟨hq2, by show p.nextId ≤ q2.nextId + 1; omega, Built.single trivial _ hm2⟩
    · exact ⟨ht2, hn2, Built.empty trivial hn2⟩
  refine PRes.built_bind (PRes.built_of (Parser.consume_built p3 _ _) ht3 hn3
    (fun _ _ _ _ h => h)) fun _ p4 ht4 hn4 hg4 => ?_
  refine PRes.built_bind (PRes.built_of (ih.methodsLoop p4 [] p4.nextId (hs.of_tokens ht4)
    (Built.empty (by simp only [FunctionStmt.shapedAll]) (le_refl _))) ht4 hn4
    (fun _ _ _ _ h => h)) fun methods p5 ht5 hn5 hg5 => ?_
  refine PRes.built_bind (PRes.built_of (Parser.consume_built p5 _ _) ht5 hn5
    (fun _ _ _ _ h => h)) fun _ p6 ht6 hn6 hg6 => ?_
  refine ⟨ht6, hn6, ?_⟩
  rw [hg4.1] at hg5
  unfold FunctionStmt.allBuiltFrom at hg5
  unfold Stmt.builtFrom
  rw [hg6.1]
  refine (Built.append hg3 hg5).of_iff (fun h => ?_)
    (by simp only [Stmt.ids])
  simp only [Stmt.shaped]
  exact ⟨((hs name hg1.2.2.1).1 hg1.2.1).declarable, h.2⟩

/-- Every method of the parser for statements returns a statement built between the
counters of the two states, whatever the fuel. -/
theorem Parser.stmtBuilt : ∀ n : Nat, Parser.StmtBuilt n
  | 0 =>
    { declaration := fun _ _ => by simp only [Parser.declaration]; trivial
      statement := fun _ _ => by simp only [Parser.statement]; trivial
      blockLoop := fun _ _ _ _ _ => by simp only [Parser.blockLoop]; trivial
      block := fun _ _ => by simp only [Parser.block]; trivial
      ifStatement := fun _ _ => by simp only [Parser.ifStatement]; trivial
      whileStatement := fun _ _ => by simp only [Parser.whileStatement]; trivial
      forStatement := fun _ _ => by simp only [Parser.forStatement]; trivial
      function := fun _ _ _ => by simp only [Parser.function]; trivial
      methodsLoop := fun _ _ _ _ _ => by simp only [Parser.methodsLoop]; trivial
      classDeclaration := fun _ _ => by simp only [Parser.classDeclaration]; trivial }
  | n + 1 =>
    have ih := Parser.stmtBuilt n
    { declaration := Parser.declaration_built ih
      statement := Parser.statement_built ih
      blockLoop := Parser.blockLoop_built ih
      block := Parser.block_built ih
      ifStatement := Parser.ifStatement_built ih
      whileStatement := Parser.whileStatement_built ih
      forStatement := Parser.forStatement_built ih
      function := Parser.function_built ih
      methodsLoop := Parser.methodsLoop_built ih
      classDeclaration := Parser.classDeclaration_built ih }

theorem Parser.parseLoop_built : ∀ (n : Nat) (statements : List Stmt) (p : Parser)
    (lo : Nat), p.scanned → Stmt.allBuiltFrom lo statements p →
    (Parser.parseLoop n statements p).built p (Stmt.allBuiltFrom lo)
  | 0, _, _, _, _, _ => trivial
  | n + 1, statements, p, lo, hs, hb => by
    simp only [Parser.parseLoop]
    refine PRes.built_bind (Parser.isAtEnd_built p) fun atEnd p1 ht1 hn1 hg1 => ?_
    obtain ⟨h1, _⟩ := hg1
    subst h1
    split
    · refine PRes.built_bind ((Parser.stmtBuilt n).declaration p1 hs) fun s p2 ht2 hn2 hg2 => ?_
      refine PRes.built_of (Parser.parseLoop_built n _ p2 lo (hs.of_tokens ht2) ?_) ht2 hn2
        (fun _ _ _ _ h => h)
      split
      · exact Stmt.stmt_allBuiltFrom_snoc hb hg2
      · exact Stmt.allBuiltFrom_of_le hb hn2
    · exact ⟨rfl, le_refl _, hb⟩

/-- The statements that `Parse` returns for tokens of the scanner have the shape of
parsed statements, and the identities of their nodes are distinct. -/
theorem Parser.Parse_built {tokens : List Token} {errors : Errors} {statements : List Stmt}
    {p : Parser} (ht : ∀ t ∈ tokens, t.scanned)
    (h : (NewParser tokens errors).Parse = PRes.ok statements p) :
    Stmt.shapedAll statements ∧ (Stmt.idsAll statements).Nodup := by
  have hb := Parser.parseLoop_built (20 * tokens.length + 20) [] (NewParser tokens errors) 0 ht
    (Built.empty (by simp only [Stmt.shapedAll]) (le_refl _))
  unfold Parser.Parse at h
  rw [show (NewParser tokens errors).tokens = tokens from rfl] at h
  rw [h] at hb
  exact ⟨hb.2.2.2.1, hb.2.2.2.2.1⟩

/-! ## The tokens of the scanner -/

theorem Map.map_get_mem {κ α : Type} [DecidableEq κ] : ∀ {m : Map κ α} {k : κ} {v : α},
    Map.get m k = some v → (k, v) ∈ m
  | [], _, _, h => by simp [Map.get] at h
  | (k', w) :: m, k, v, h => by
    simp only [Map.get] at h
    split at h
    · rename_i hk
      cases h
      subst hk
      exact List.mem_cons_self _ _
    · exact List.mem_cons_of_mem _ (Map.map_get_mem h)

theorem keywords_not_identifier {text : String} {t : TokenType}
    (h : Map.get keywords text = some t) : t ≠ TokenType.IDENTIFIER := by
  rintro rfl
  have hm := Map.map_get_mem h
  simp only [keywords, List.mem_cons, Prod.mk.injEq, List.mem_singleton, reduceCtorEq,
    and_false, false_or, or_false, and_true, List.not_mem_nil] at hm

theorem keywords_super {text : String} (h : Map.get keywords text = some TokenType.SUPER) :
    text = "super" := by
  have hm := Map.map_get_mem h
  simp only [keywords, List.mem_cons, Prod.mk.injEq, List.mem_singleton, reduceCtorEq,
    and_false, false_or, or_false, and_true, List.not_mem_nil] at hm
  exact hm

theorem Scanner.addToken_tokens {s s' : Scanner} {tokenType : TokenType}
    {literal : LiteralValue} (h : s.addToken tokenType literal = .ok s') :
    ∃ text, sliceOf s.source s.start s.current = .ok text ∧
      s'.tokens = s.tokens ++ [⟨tokenType, text, literal, s.line⟩] := by
  unfold Scanner.addToken at h
  cases hs : sliceOf s.source s.start s.current with
  | error e => simp [hs, bind, Except.bind] at h
  | ok text =>
    simp only [hs, bind, Except.bind, pure, Except.pure, Except.ok.injEq] at h
    subst h
    exact ⟨text, rfl, rfl⟩

/-- A token that is neither an identifier nor the keyword `super`. -/
theorem Scanner.addToken_keeps {s s' : Scanner} {tokenType : TokenType}
    {literal : LiteralValue} (h : s.addToken tokenType literal = .ok s')
    (h1 : tokenType ≠ TokenType.IDENTIFIER) (h2 : tokenType ≠ TokenType.SUPER)
    (hp : ∀ t ∈ s.tokens, t.scanned) : ∀ t ∈ s'.tokens, t.scanned := by
  obtain ⟨text, _, ht⟩ := Scanner.addToken_tokens h
  intro t hm
  rw [ht] at hm
  rcases List.mem_append.1 hm with h3 | h3
  · exact hp t h3
  · simp only [List.mem_singleton] at h3
    subst h3
    exact ⟨fun h => absurd h h1, fun h => absurd h h2⟩

theorem Scanner.scanner_advance_ok {s s1 : Scanner} {c : Char} (h : s.advance = .ok (c, s1)) :
    s1.tokens = s.tokens := by
  unfold Scanner.advance at h
  split at h
  · cases h; rfl
  · cases h

theorem Except.except_bind_ok {ε α β : Type} {x : Except ε α} {f : α → Except ε β} {b : β}
    (h : (x >>= f) = .ok b) : ∃ a, x = .ok a ∧ f a = .ok b := by
  cases x with
  | error e => cases h
  | ok a => exact ⟨a, rfl, h⟩

theorem Scanner.commentLoop_keeps : ∀ (n : Nat) (s s' : Scanner),
    Scanner.commentLoop n s = .ok s' → s'.tokens = s.tokens
  | 0, _, _, h => by cases h
  | n + 1, s, s', h => by
    unfold Scanner.commentLoop at h
    split at h
    · obtain ⟨⟨c, s1⟩, h1, h2⟩ := Except.except_bind_ok h
      exact (Scanner.commentLoop_keeps n s1 s' h2).trans (Scanner.scanner_advance_ok h1)
    · cases h; rfl

theorem Scanner.stringLoop_keeps : ∀ (n : Nat) (s s' : Scanner),
    Scanner.stringLoop n s = .ok s' → s'.tokens = s.tokens
  | 0, _, _, h => by cases h
  | n + 1, s, s', h => by
    unfold Scanner.stringLoop at h
    split at h
    · obtain ⟨⟨c, s1⟩, h1, h2⟩ := Except.except_bind_ok h
      refine (Scanner.stringLoop_keeps n s1 s' h2).trans ((Scanner.scanner_advance_ok h1).trans ?_)
      split <;> rfl
    · cases h; rfl

theorem Scanner.digitLoop_keeps : ∀ (n : Nat) (s s' : Scanner),
    Scanner.digitLoop n s = .ok s' → s'.tokens = s.tokens
  | 0, _, _, h => by cases h
  | n + 1, s, s', h => by
    unfold Scanner.digitLoop at h
    split at h
    · obtain ⟨⟨c, s1⟩, h1, h2⟩ := Except.except_bind_ok h
      exact (Scanner.digitLoop_keeps n s1 s' h2).trans (Scanner.scanner_advance_ok h1)
    · cases h; rfl

theorem Scanner.identifierLoop_keeps : ∀ (n : Nat) (s s' : Scanner),
    Scanner.identifierLoop n s = .ok s' → s'.tokens = s.tokens
  | 0, _, _, h => by cases h
  | n + 1, s, s', h => by
    unfold Scanner.identifierLoop at h
    split at h
    · obtain ⟨⟨c, s1⟩, h1, h2⟩ := Except.except_bind_ok h
      exact (Scanner.identifierLoop_keeps n s1 s' h2).trans (Scanner.scanner_advance_ok h1)
    · cases h; rfl

theorem Scanner.match_keeps (s : Scanner) (expected : Char) :
    (s.match expected).2.tokens = s.tokens := by
  unfold Scanner.match
  split
  · rfl
  · split <;> rfl

theorem Scanner.string_keeps {s s' : Scanner} (h : s.string = .ok s')
    (hp : ∀ t ∈ s.tokens, t.scanned) : ∀ t ∈ s'.tokens, t.scanned := by
  unfold Scanner.string at h
  obtain ⟨s1, h1, h2⟩ := Except.except_bind_ok h
  have e1 := Scanner.stringLoop_keeps _ _ _ h1
  split at h2
  · cases h2
    exact fun t ht => hp t (e1 ▸ ht)
  · obtain ⟨⟨c, s2⟩, h3, h4⟩ := Except.except_bind_ok h2
    obtain ⟨v, _, h6⟩ := Except.except_bind_ok h4
    exact Scanner.addToken_keeps h6 (by decide) (by decide)
      fun t ht => hp t (e1 ▸ Scanner.scanner_advance_ok h3 ▸ ht)

theorem Scanner.number_keeps {s s' : Scanner} (h : s.number = .ok s')
    (hp : ∀ t ∈ s.tokens, t.scanned) : ∀ t ∈ s'.tokens, t.scanned := by
  unfold Scanner.number at h
  obtain ⟨s1, h1, h2⟩ := Except.except_bind_ok h
  have e1 := Scanner.digitLoop_keeps _ _ _ h1
  obtain ⟨s2, h3, h4⟩ := Except.except_bind_ok h2
  have e2 : s2.tokens = s1.tokens := by
    split at h3
    · obtain ⟨⟨c, s3⟩, h5, h6⟩ := Except.except_bind_ok h3
      exact (Scanner.digitLoop_keeps _ _ _ h6).trans (Scanner.scanner_advance_ok h5)
    · cases h3; rfl
  obtain ⟨v, _, h8⟩ := Except.except_bind_ok h4
  have hp2 : ∀ t ∈ s2.tokens, t.scanned := fun t ht => hp t (e1 ▸ e2 ▸ ht)
  split at h8
  · cases h8
    exact hp2
  · exact Scanner.addToken_keeps h8 (by decide) (by decide) hp2

theorem Except.ite_ok {P : Prop} [Decidable P] {α : Type} {a b : Except Fail α} {r : α}
    {G : Prop} (h : (if P then a else b) = .ok r) (ha : P → a = .ok r → G)
    (hb : ¬ P → b = .ok r → G) : G := by
  by_cases hp : P
  · rw [if_pos hp] at h
    exact ha hp h
  · rw [if_neg hp] at h
    exact hb hp h

/-- The tokens of `scanToken` for an operator of one or two characters. -/
theorem Scanner.operator_scanned {s1 s' : Scanner} {e : Char} {two one : TokenType}
    (h : (match s1.match e with
      | (true, s) => s.addToken two LiteralValue.nil
      | (false, s) => s.addToken one LiteralValue.nil) = .ok s')
    (h1 : two ≠ TokenType.IDENTIFIER ∧ two ≠ TokenType.SUPER)
    (h2 : one ≠ TokenType.IDENTIFIER ∧ one ≠ TokenType.SUPER)
    (hp : ∀ t ∈ s1.tokens, t.scanned) : ∀ t ∈ s'.tokens, t.scanned := by
  have hk := Scanner.match_keeps s1 e
  cases hm : s1.match e with
  | mk b s2 =>
    rw [hm] at h hk
    have hp2 : ∀ t ∈ s2.tokens, t.scanned := fun t ht => hp t (hk ▸ ht)
    cases b with
    | true => exact Scanner.addToken_keeps h h1.1 h1.2 hp2
    | false => exact Scanner.addToken_keeps h h2.1 h2.2 hp2

/-- A token that `scanToken` adds for a character that is no letter is neither an
identifier nor the keyword `super`. -/
theorem Scanner.scanToken_scanned_other {s s' : Scanner} (h : s.scanToken = .ok s')
    (hna : ∀ c s1, s.advance = .ok (c, s1) → isAlpha c = false)
    (hp : ∀ t ∈ s.tokens, t.scanned) : ∀ t ∈ s'.tokens, t.scanned := by
  unfold Scanner.scanToken at h
  cases hadv : s.advance with
  | error e =>
    rw [hadv] at h
    cases h
  | ok cs =>
    obtain ⟨c, s1⟩ := cs
    rw [hadv] at h
    have hc := hna c s1 hadv
    have hp1 : ∀ t ∈ s1.tokens, t.scanned := fun t ht => hp t (Scanner.scanner_advance_ok hadv ▸ ht)
    replace h : (if c = '(' then s1.addToken TokenType.LEFT_PAREN LiteralValue.nil else _) =
      Except.ok s' := h
    refine Except.ite_ok h
      (fun _ h => Scanner.addToken_keeps h (by decide) (by decide) hp1) fun _ h => ?_
    refine Except.ite_ok h
      (fun _ h => Scanner.addToken_keeps h (by decide) (by decide) hp1) fun _ h => ?_
    refine Except.ite_ok h
      (fun _ h => Scanner.addToken_keeps h (by decide) (by decide) hp1) fun _ h => ?_
    refine Except.ite_ok h
      (fun _ h => Scanner.addToken_keeps h (by decide) (by decide) hp1) fun _ h => ?_
    refine Except.ite_ok h
      (fun _ h => Scanner.addToken_keeps h (by decide) (by decide) hp1) fun _ h => ?_
    refine Except.ite_ok h
      (fun _ h => Scanner.addToken_keeps h (by decide) (by decide) hp1) fun _ h => ?_
    refine Except.ite_ok h
      (fun _ h => Scanner.addToken_keeps h (by decide) (by decide) hp1) fun _ h => ?_
    refine Except.ite_ok h
      (fun _ h => Scanner.addToken_keeps h (by decide) (by decide) hp1) fun _ h => ?_
    refine Except.ite_ok h
      (fun _ h => Scanner.addToken_keeps h (by decide) (by decide) hp1) fun _ h => ?_
    refine Except.ite_ok h
      (fun _ h => Scanner.addToken_keeps h (by decide) (by decide) hp1) fun _ h => ?_
    refine Except.ite_ok h
      (fun _ h => Scanner.operator_scanned h (by decide) (by decide) hp1) fun _ h => ?_
    refine Except.ite_ok h
      (fun _ h => Scanner.operator_scanned h (by decide) (by decide) hp1) fun _ h => ?_
    refine Except.ite_ok h
      (fun _ h => Scanner.operator_scanned h (by decide) (by decide) hp1) fun _ h => ?_
    refine Except.ite_ok h
      (fun _ h => Scanner.operator_scanned h (by decide) (by decide) hp1) fun _ h => ?_
    refine Except.ite_ok h (fun _ h => ?_) fun _ h => ?_
    · have hk := Scanner.match_keeps s1 '/'
      cases hm : s1.match '/' with
      | mk b s2 =>
        rw [hm] at h hk
        have hp2 : ∀ t ∈ s2.tokens, t.scanned := fun t ht => hp1 t (hk ▸ ht)
        cases b with
        | true => exact fun t ht => hp2 t (Scanner.commentLoop_keeps _ _ _ h ▸ ht)
        | false => exact Scanner.addToken_keeps h (by decide) (by decide) hp2
    refine Except.ite_ok h (fun _ h => by cases h; exact hp1) fun _ h => ?_
    refine Except.ite_ok h (fun _ h => by cases h; exact hp1) fun _ h => ?_
    refine Except.ite_ok h (fun _ h => Scanner.string_keeps h hp1) fun _ h => ?_
    refine Except.ite_ok h (fun ha _ => by rw [hc] at ha; cases ha) fun _ h => ?_
    refine Except.ite_ok h (fun _ h => Scanner.number_keeps h hp1) fun _ h => ?_
    cases h
    exact hp1

/-- The token that `scanToken` adds at the start of a token. -/
theorem Scanner.scanner_scanToken_scanned {s s' : Scanner}
    (h : Scanner.scanToken { s with start := s.current } = .ok s')
    (hp : ∀ t ∈ s.tokens, t.scanned) : ∀ t ∈ s'.tokens, t.scanned := by
  cases hc : s.source[s.current]? with
  | none =>
    unfold Scanner.scanToken Scanner.advance at h
    simp only [hc] at h
    cases h
  | some c =>
    cases ha : isAlpha c with
    | false =>
      refine Scanner.scanToken_scanned_other h (fun c' s1 hadv => ?_) hp
      unfold Scanner.advance at hadv
      simp only [hc, Except.ok.injEq, Prod.mk.injEq] at hadv
      rw [← hadv.1]
      exact ha
    | true =>
      obtain ⟨h1, h2, h3, _, _⟩ := Scanner.scanToken_alpha s c hc ha
      rw [h1] at h
      cases h
      intro t ht
      simp only [List.mem_append, List.mem_singleton] at ht
      rcases ht with ht | ht
      · exact hp t ht
      · subst ht
        constructor
        · intro hty
          simp only at hty
          cases hg : Map.get keywords
              (String.mk ((s.source.drop s.current).takeWhile isAlphaNumeric)) with
          | some k =>
            rw [hg] at hty
            exact absurd hty (keywords_not_identifier hg)
          | none =>
            cases hw : (s.source.drop s.current).takeWhile isAlphaNumeric with
            | nil => rw [hw] at h2; cases h2
            | cons c' cs =>
              rw [hw] at h2 h3
              simp only [List.head?_cons, Option.some.injEq] at h2
              subst h2
              refine ⟨c', cs, ?_, ha, fun x hx => h3 x (List.mem_cons_of_mem _ hx), ?_⟩
              · simp only [hw]
              · simp only
                rw [← hw]
                exact hg
        · intro hty
          simp only at hty
          cases hg : Map.get keywords
              (String.mk ((s.source.drop s.current).takeWhile isAlphaNumeric)) with
          | some k =>
            rw [hg] at hty
            simp only [Option.getD_some] at hty
            subst hty
            exact keywords_super hg
          | none =>
            rw [hg] at hty
            cases hty

theorem Scanner.scanLoop_scanned : ∀ (n : Nat) (s s' : Scanner),
    Scanner.scanLoop n s = .ok s' → (∀ t ∈ s.tokens, t.scanned) → ∀ t ∈ s'.tokens, t.scanned
  | 0, _, _, h, _ => by cases h
  | n + 1, s, s', h, hp => by
    unfold Scanner.scanLoop at h
    split at h
    · obtain ⟨s1, h1, h2⟩ := Except.except_bind_ok h
      exact Scanner.scanLoop_scanned n s1 s' h2 (Scanner.scanner_scanToken_scanned h1 hp)
    · cases h
      exact hp

/-- In the tokens that `ScanTokens` returns, the lexeme of an identifier is a word that
is not reserved, and the lexeme of the keyword `super` is `super`. -/
theorem Scanner.ScanTokens_scanned {source : String} {errors : Errors} {s : Scanner}
    (h : (NewScanner source errors).ScanTokens = .ok s) : ∀ t ∈ s.tokens, t.scanned := by
  unfold Scanner.ScanTokens at h
  obtain ⟨s1, h1, h2⟩ := Except.except_bind_ok h
  cases h2
  have := Scanner.scanLoop_scanned _ _ _ h1 (fun t ht => by simp [NewScanner] at ht)
  intro t ht
  rcases List.mem_append.1 ht with h3 | h3
  · exact this t h3
  · simp only [List.mem_singleton] at h3
    subst h3
    exact ⟨(fun h => by cases h), (fun h => by cases h)⟩

/-! ## A run of a program that was scanned, parsed and resolved without a diagnostic -/

/-- The heap of `NewInterpreter` is in order. -/
theorem HeapOk.start (errors : Errors) (clock : Nat → Float) (r : Resolver) :
    HeapOk r.locals (startOf errors clock r) := by
  have henvs : (startOf errors clock r).envs = [⟨none, [("clock", Value.clock)]⟩] := rfl
  refine ⟨rfl, ?_, ?_, ?_, ?_⟩
  · intro fr hfr name v hv
    rw [henvs, List.mem_singleton] at hfr
    subst hfr
    simp only [Map.get] at hv
    split at hv
    · cases hv
      trivial
    · cases hv
  · intro li hli
    cases hli
  · intro li hli
    cases hli
  · intro fr hfr name v hv
    rw [henvs, List.mem_singleton] at hfr
    subst hfr
    simp only [Map.get] at hv
    split at hv
    · rename_i hn
      have hn' : name = "clock" := by simpa using hn.symm
      subst hn'
      exact ⟨fun h => absurd h (by decide), fun h => absurd h (by decide)⟩
    · cases hv

theorem SuperInv.nil : SuperInv [] := by
  intro d scope h
  simp at h

/-- The statements of a program that was scanned, parsed and resolved without a
diagnostic: every recorded distance names a scope that defines the name. -/
theorem ScopedStmts.scopedStmts_of_run {source : String} {errors : Errors} {scanner : Scanner}
    {statements : List Stmt} {p : Parser} {r : Resolver}
    (hscan : (NewScanner source errors).ScanTokens = .ok scanner)
    (hparse : (NewParser scanner.tokens scanner.errors).Parse = .ok statements p)
    (hresolve : (NewResolver [] p.errors).Resolve statements = .ok r)
    (hclean : r.errors.HadError = false) : ScopedStmts r.locals [] statements := by
  obtain ⟨h1, h2⟩ := Parser.Parse_built (Scanner.ScanTokens_scanned hscan) hparse
  exact Resolver.resolveStatements_sound statements (NewResolver [] p.errors) r
    (Resolver.Resolve_ok hresolve) hclean h1 SuperInv.nil h2 (fun id _ => rfl)

/-- Wherever the evaluator is called in a run of such a program, the heap is in order. -/
theorem Evals.evals_of_run {source : String} {errors : Errors} {scanner : Scanner}
    {statements : List Stmt} {p : Parser} {r : Resolver} {errors' : Errors}
    {clock : Nat → Float} {n : Nat} {t : Site} {j : Interpreter}
    (hscan : (NewScanner source errors).ScanTokens = .ok scanner)
    (hparse : (NewParser scanner.tokens scanner.errors).Parse = .ok statements p)
    (hresolve : (NewResolver [] p.errors).Resolve statements = .ok r)
    (hclean : r.errors.HadError = false)
    (hev : Evals n (.program statements) (startOf errors' clock r) t j) :
    HeapOk r.locals j ∧ t.ready r.locals j :=
  hev.evals_ready (HeapOk.start errors' clock r) (ScopedStmts.scopedStmts_of_run hscan hparse hresolve hclean)

/-- One more hop of `ancestor` leads to the enclosing frame. -/
theorem ancestor_succ {envs : List Environment} : ∀ (d : Nat) (env a : Nat) (fr : Environment),
    ancestor envs d (some env) = Out.ok (some a) → envs[a]? = some fr →
    ancestor envs (d + 1) (some env) = Out.ok fr.Enclosing
  | 0, env, a, fr, h, hfr => by
    simp only [ancestor, Out.ok.injEq, Option.some.injEq] at h
    subst h
    simp only [ancestor, hfr]
  | d + 1, env, a, fr, h, hfr => by
    simp only [ancestor] at h
    split at h
    · cases h
    · rename_i f0 hf0
      cases hup : f0.Enclosing with
      | none =>
        rw [hup] at h
        cases d <;> simp [ancestor] at h
      | some up =>
        rw [hup] at h
        have := ancestor_succ d up a fr h hfr
        rw [show ancestor envs (d + 1 + 1) (some env) = ancestor envs (d + 1) f0.Enclosing by
          simp only [ancestor, hf0], hup]
        exact this

/-- The frames that a `super` expression reads in a heap in order: the frame at the
recorded distance binds `super` to a class, the frame one nearer binds `this` to an
instance, and the first is the enclosing frame of the second. -/
theorem superFrames {locals : Map Nat Nat} {j : Interpreter} {id : Nat} {kw m : Token}
    (h : HeapOk locals j) (hr : (Site.expr (Expr.Super id kw m)).ready locals j) {d : Nat}
    (hd : Map.get j.locals id = some d) :
    1 ≤ d ∧ ∃ (T S : Nat) (frT frS : Environment) (x : Nat) (A : LoxClass),
      ancestor j.envs (d - 1) (some j.environment) = Out.ok (some T) ∧
      j.envs[T]? = some frT ∧ Map.get frT.values "this" = some (Value.instance x) ∧
      frT.Enclosing = some S ∧
      ancestor j.envs d (some j.environment) = Out.ok (some S) ∧
      j.envs[S]? = some frS ∧ Map.get frS.values "super" = some (Value.class A) := by
  obtain ⟨scopes, hc, hs⟩ := hr
  rw [h.table] at hd
  obtain ⟨h1, ⟨s1, h2, h3⟩, ⟨s2, h4, h5⟩⟩ := hs d hd
  obtain ⟨S, frS, h6, h7, h8⟩ := FrameChain.ancestor d scopes _ s1 hc h2
  obtain ⟨T, frT, h9, h10, h11⟩ := FrameChain.ancestor (d - 1) scopes _ s2 hc h4
  have hsucc := ancestor_succ (d - 1) _ T frT h9 h10
  rw [show d - 1 + 1 = d by omega, h6] at hsucc
  cases hx : Map.get frT.values "this" with
  | none => exact absurd hx (h11 "this" h5)
  | some vx =>
    obtain ⟨x, hvx⟩ := (h.reserved frT (List.getElem?_mem h10) "this" vx hx).1 rfl
    subst hvx
    cases hA : Map.get frS.values "super" with
    | none => exact absurd hA (h8 "super" h3)
    | some vA =>
      obtain ⟨A, hvA⟩ := (h.reserved frS (List.getElem?_mem h7) "super" vA hA).2 rfl
      subst hvA
      refine ⟨h1, T, S, frT, frS, x, A, h9, h10, hx, ?_, h6, h7, hA⟩
      simp only [Out.ok.injEq] at hsucc
      exact hsucc.symm

/-- A class that the heap holds is in order. -/
theorem HeapOk.holds {locals : Map Nat Nat} {i : Interpreter} (h : HeapOk locals i)
    {c : LoxClass} (hc : i.holds c) : ClassOk locals i.envs c := by
  rcases hc with ⟨fr, hfr, name, hv⟩ | ⟨li, hli, hcl⟩ | ⟨li, hli, name, hv⟩
  · exact h.frames fr hfr name _ hv
  · exact hcl ▸ h.classes li hli
  · exact h.fields li hli name _ hv

/-- The value that `evaluate` returns for a `super` expression, from the frames it reads. -/
theorem evaluate_super {j : Interpreter} {id : Nat} {kw m : Token} {d T S x : Nat}
    {frT frS : Environment} {A : LoxClass} (fuel : Nat)
    (hd : Map.get j.locals id = some d)
    (h1 : ancestor j.envs (d - 1) (some j.environment) = Out.ok (some T))
    (h2 : j.envs[T]? = some frT) (h3 : Map.get frT.values "this" = some (Value.instance x))
    (h4 : ancestor j.envs d (some j.environment) = Out.ok (some S))
    (h5 : j.envs[S]? = some frS) (h6 : Map.get frS.values "super" = some (Value.class A)) :
    evaluate (fuel + 1) (Expr.Super id kw m) j =
      match A.findMethod m.Lexeme with
      | none => Res.err (Err.RuntimeError m ("Undefined property '" ++ m.Lexeme ++ "'.")) j
      | some f => Res.ok (Value.function (f.bind x j).1) (f.bind x j).2 := by
  simp only [evaluate, hd, GetAt, h1, h2, h3, h4, h5, h6, Out.toRes, Res.bind]

/-- The loop that defines the parameters returns when there is an argument for every
parameter. -/
theorem defineParams_returns (env : Nat) : ∀ (params : List Token) (arguments : List Value)
    (i : Interpreter), arguments.length = params.length →
    ∃ j, defineParams env params arguments i = Res.ok () j
  | [], _, i, _ => ⟨i, by simp only [defineParams]⟩
  | _ :: _, [], _, h => by simp at h
  | param :: params, argument :: arguments, i, h => by
    simp only [defineParams]
    exact defineParams_returns env params arguments _ (by simpa using h)

/-- The call of an initializer whose closure binds `this` to an instance, in a heap in
order: whether the body completes or executes a return statement, the call returns the
instance. -/
theorem callFunction_initializer {locals : Map Nat Nat} {k : Interpreter} {g : LoxFunction}
    {vs : List Value} (h : HeapOk locals k) (hr : (Site.fn g vs).ready locals k)
    (hinit : g.IsInitializer = true) {fr : Environment} {x : Nat}
    (hfr : k.envs[g.Closure]? = some fr)
    (hthis : Map.get fr.values "this" = some (Value.instance x)) {ib : Interpreter}
    (hbind : defineParams k.envs.length g.Declaration.Params vs
      { k with envs := k.envs ++ [⟨some g.Closure, []⟩] } = Res.ok () ib) (n : Nat) :
    (∀ j, executeStatements (execute n) g.Declaration.Body
        { ib with environment := k.envs.length } = Res.ok () j →
      GetAt j.envs g.Closure 0 "this" = Out.ok (Value.instance x) ∧
      callFunction (n + 1) g vs k =
        Res.ok (Value.instance x) { j with environment := k.environment }) ∧
    (∀ v j, executeStatements (execute n) g.Declaration.Body
        { ib with environment := k.envs.length } = Res.err (Err.Return v) j →
      GetAt j.envs g.Closure 0 "this" = Out.ok (Value.instance x) ∧
      callFunction (n + 1) g vs k =
        Res.ok (Value.instance x) { j with environment := k.environment }) := by
  obtain ⟨⟨scopes, hc, hs⟩, ha⟩ := hr
  rw [ScopedFun_eq] at hs
  have hg1 : Grows k.envs (NewEnvironment k (some g.Closure)).2.envs := Grows.grows_push _ _
  obtain ⟨hib, hg2, he, hcb⟩ := defineParams_kept (NewEnvironment k (some g.Closure)).1 scopes
    g.Declaration.Params vs _ ib [] hbind (HeapOk.NewEnvironment h _)
    (fun a hm => ValOk.valOk_mono hg1 (ha a hm))
    (FrameChain.frameChain_push hc [] [] (fun x hx => by simp [Map.get] at hx)) hs.2
  have henv : ib.environment = k.environment := he
  have hk := executeStatements_kept (keepsEnvironment_all n).2.1 (keepsHeap locals n).execute
    g.Declaration.Body { ib with environment := k.envs.length }
    (paramScope g.Declaration.Params :: scopes) (HeapOk.heapOk_of_eq hib rfl rfl rfl) hcb hs.1
  have hget : ∀ j : Interpreter, Grows ib.envs j.envs →
      GetAt j.envs g.Closure 0 "this" = Out.ok (Value.instance x) := by
    intro j hg3
    obtain ⟨fr', h1, _, _, h2⟩ := (hg1.andGrows (hg2.andGrows hg3)) _ fr hfr
    simp only [GetAt, ancestor, h1, h2 "this" _ (Or.inl rfl) hthis]
  constructor
  · intro j hj
    rw [hj] at hk
    refine ⟨hget j hk.2.1, ?_⟩
    simp only [callFunction, NewEnvironment, hbind, Res.bind, executeBlockWithReturn, hj,
      restoreEnvironment, hinit, if_true, hget j hk.2.1, Out.toRes, henv]
  · intro v j hj
    rw [hj] at hk
    refine ⟨hget j hk.2.1, ?_⟩
    simp only [callFunction, NewEnvironment, hbind, Res.bind, executeBlockWithReturn, hj,
      restoreEnvironment, hinit, if_true, hget j hk.2.1, Out.toRes, henv]

/-! ## Recorded distances at evaluation time -/

/-- C18: take a run of a program that `ScanTokens`, `Parse` and `Resolve` accept without
a diagnostic, and a call `LoxFunction.Call` that the evaluator makes in it (relation
`Evals`, through a call expression or through the call of a class) on an initializer
`g` whose closure binds `this` to the instance `x` in its frame 0, as `bind` leaves it,
with as many arguments as parameters.  The parameters are bound, and whether the body
completes or executes a return statement, frame 0 of the closure still binds `this` to
`x` and the call returns `x`, with the environment pointer restored. -/
theorem Initializer_call_returns_bound_instance (source : String) (errors errors' : Errors)
    (clock : Nat → Float) (scanner : Scanner) (statements : List Stmt) (p : Parser)
    (r : Resolver) (n : Nat) (g : LoxFunction) (vs : List Value) (k : Interpreter) (x : Nat)
    (hscan : (NewScanner source errors).ScanTokens = .ok scanner)
    (hparse : (NewParser scanner.tokens scanner.errors).Parse = .ok statements p)
    (hresolve : (NewResolver [] p.errors).Resolve statements = .ok r)
    (hclean : r.errors.HadError = false)
    (hev : Evals n (.program statements) (startOf errors' clock r) (.fn g vs) k)
    (hinit : g.IsInitializer = true)
    (hthis : GetAt k.envs g.Closure 0 "this" = Out.ok (Value.instance x))
    (harity : vs.length = g.Arity) :
    ∃ ib, defineParams k.envs.length g.Declaration.Params vs
        { k with envs := k.envs ++ [⟨some g.Closure, []⟩] } = Res.ok () ib ∧
      ∀ m : Nat,
        (∀ j, executeStatements (execute m) g.Declaration.Body
            { ib with environment := k.envs.length } = Res.ok () j →
          GetAt j.envs g.Closure 0 "this" = Out.ok (Value.instance x) ∧
          callFunction (m + 1) g vs k =
            Res.ok (Value.instance x) { j with environment := k.environment }) ∧
        (∀ v j, executeStatements (execute m) g.Declaration.Body
            { ib with environment := k.envs.length } = Res.err (Err.Return v) j →
          GetAt j.envs g.Closure 0 "this" = Out.ok (Value.instance x) ∧
          callFunction (m + 1) g vs k =
            Res.ok (Value.instance x) { j with environment := k.environment }) := by
  obtain ⟨h1, h2⟩ := Evals.evals_of_run hscan hparse hresolve hclean hev
  obtain ⟨ib, hib⟩ := defineParams_returns k.envs.length g.Declaration.Params vs
    { k with envs := k.envs ++ [⟨some g.Closure, []⟩] } harity
  obtain ⟨fr, hfr, hv⟩ : ∃ fr, k.envs[g.Closure]? = some fr ∧
      Map.get fr.values "this" = some (Value.instance x) := by
    simp only [GetAt, ancestor] at hthis
    split at hthis
    · cases hthis
    · rename_i fr hfr
      split at hthis
      · rename_i w hw
        cases hthis
        exact ⟨fr, hfr, hw⟩
      · cases hthis
  refine ⟨ib, hib, fun m => ?_⟩
  exact callFunction_initializer h1 h2 hinit hfr hv hib m

/-- C21: take a run of a program that `ScanTokens`, `Parse` and `Resolve` accept without
a diagnostic, and an evaluation of a `super.m` expression in it, in the state `j`
(relation `Evals`), with recorded distance `d`.  Then `d` is at least 1; the frame `S`
that lies `d` hops up binds `super` to a class `A`; the frame `T` one hop nearer, whose
enclosing frame is `S`, binds `this` to an instance `x`: `T` is the frame that `bind`
made over the closure `S` of the running method.  Every class `B` that the heap holds
and that declares (itself or in a superclass `k`) a method whose closure is `S` has the
superclass `A`, if it has one: `S` is the frame that the class statement of `B` made
around the methods of `B`.  The expression evaluates to the method that lookup from `A`
finds, bound to `x`, and to the runtime error "Undefined property 'm'." when lookup from
`A` finds none. -/
theorem Super_looks_up_from_superclass (source : String) (errors errors' : Errors)
    (clock : Nat → Float) (scanner : Scanner) (statements : List Stmt) (p : Parser)
    (r : Resolver) (n : Nat) (id : Nat) (keyword method : Token) (j : Interpreter) (d : Nat)
    (hscan : (NewScanner source errors).ScanTokens = .ok scanner)
    (hparse : (NewParser scanner.tokens scanner.errors).Parse = .ok statements p)
    (hresolve : (NewResolver [] p.errors).Resolve statements = .ok r)
    (hclean : r.errors.HadError = false)
    (hev : Evals n (.program statements) (startOf errors' clock r)
      (.expr (Expr.Super id keyword method)) j)
    (hd : Map.get j.locals id = some d) :
    1 ≤ d ∧ ∃ (T S : Nat) (frT frS : Environment) (x : Nat) (A : LoxClass),
      ancestor j.envs (d - 1) (some j.environment) = Out.ok (some T) ∧
      j.envs[T]? = some frT ∧ Map.get frT.values "this" = some (Value.instance x) ∧
      frT.Enclosing = some S ∧
      j.envs[S]? = some frS ∧ Map.get frS.values "super" = some (Value.class A) ∧
      (∀ B : LoxClass, j.holds B → ∀ k ∈ B.chain, ∀ (name : String) (f : LoxFunction),
        Map.get k.Methods name = some f → f.Closure = S →
        ∀ A', k.Superclass = some A' → A' = A) ∧
      ∀ fuel : Nat, evaluate (fuel + 1) (Expr.Super id keyword method) j =
        match A.findMethod method.Lexeme with
        | none =>
          Res.err (Err.RuntimeError method ("Undefined property '" ++ method.Lexeme ++ "'.")) j
        | some f => Res.ok (Value.function (f.bind x j).1) (f.bind x j).2 := by
  obtain ⟨h1, h2⟩ := Evals.evals_of_run hscan hparse hresolve hclean hev
  obtain ⟨hd1, T, S, frT, frS, x, A, a1, a2, a3, a4, a5, a6, a7⟩ := superFrames h1 h2 hd
  refine ⟨hd1, T, S, frT, frS, x, A, a1, a2, a3, a4, a6, a7, ?_, fun fuel =>
    evaluate_super fuel hd a1 a2 a3 a5 a6 a7⟩
  intro B hB k hk name f hf hcl A' hA'
  obtain ⟨fr, b1, b2⟩ := ((h1.holds hB) k hk name f hf).2 A' hA'
  rw [hcl, a6] at b1
  cases b1
  rw [a7] at b2
  cases b2
  rfl

/-- C36: the resolver runs from the state of `NewResolver` on a program in which no
declared name is `this` or `super` (the parser takes only identifiers as names). When it
accepts a `super` expression, in whatever statement and expression the expression lies,
it records for it a distance `d` of at least 1: the scope at distance `d` is the
innermost one that binds `super`, and the scope at distance `d - 1` binds `this`. At
evaluation time, in a run of a program that `ScanTokens`, `Parse` and `Resolve` accept
without a diagnostic, wherever a `super` expression is evaluated (relation `Evals`) its
recorded distance `d` is at least 1, `GetAt` finds `super` in the frame `d` hops up and
`this` in the frame `d - 1` hops up, and the second frame lies directly inside the
first. -/
theorem super_is_one_scope_above_this (locals : Map Nat Nat) (errors : Errors)
    (statements : List Stmt) (path : List Frame) (r1 r2 r3 r4 : Resolver) (t : Stmt)
    (e : Expr) (id : Nat) (kw method : Token)
    (hthis : Stmt.declaresAny "this" statements = false)
    (hsuper : Stmt.declaresAny "super" statements = false)
    (hreach : Reaches path (NewResolver locals errors) (Node.stmts statements) r1 t)
    (hstmt : StmtVisits r1 t r2 e)
    (hexpr : VisitsExpr r2 e r3 (Expr.Super id kw method))
    (hkw : kw.Lexeme = "super")
    (hok : Resolver.resolveExpr (Expr.Super id kw method) r3 = RRes.ok r4) :
    (∃ d, 1 ≤ d ∧ r4 = r3.resolveLocal id kw ∧ Map.get r4.locals id = some d ∧
      (∃ scope, r3.scopes[d]? = some scope ∧ Map.get scope "super" = some true) ∧
      (∀ k, k < d → ∃ scope, r3.scopes[k]? = some scope ∧ Map.get scope "super" = none) ∧
      (∃ scope, r3.scopes[d - 1]? = some scope ∧ Map.get scope "this" = some true)) ∧
    (∀ (source : String) (errors0 errors1 : Errors) (clock : Nat → Float) (scanner : Scanner)
      (program : List Stmt) (p : Parser) (r : Resolver) (n : Nat) (id' : Nat)
      (keyword name : Token) (j : Interpreter) (d : Nat),
      (NewScanner source errors0).ScanTokens = .ok scanner →
      (NewParser scanner.tokens scanner.errors).Parse = .ok program p →
      (NewResolver [] p.errors).Resolve program = .ok r →
      r.errors.HadError = false →
      Evals n (.program program) (startOf errors1 clock r)
        (.expr (Expr.Super id' keyword name)) j →
      Map.get j.locals id' = some d →
      1 ≤ d ∧ ∃ (T S : Nat) (frT : Environment) (x : Nat) (A : LoxClass),
        GetAt j.envs j.environment d "super" = Out.ok (Value.class A) ∧
        GetAt j.envs j.environment (d - 1) "this" = Out.ok (Value.instance x) ∧
        ancestor j.envs d (some j.environment) = Out.ok (some S) ∧
        ancestor j.envs (d - 1) (some j.environment) = Out.ok (some T) ∧
        j.envs[T]? = some frT ∧ frT.Enclosing = some S) := by
  have h0 : SuperScopes (NewResolver locals errors) :=
    ⟨ThisBelowSuper.none, fun hc => by cases hc⟩
  obtain ⟨hs1, ht1, ht2⟩ := hreach.superScopes hthis hsuper h0
  have hs2 : SuperScopes r2 := by
    cases hstmt with
    | expression => exact hs1
    | print => exact hs1
    | var hd _ =>
      simp only [Stmt.declares] at ht1 ht2
      exact SuperScopes.of_grown (Resolver.declare_grown hd) ht1 ht2 (Resolver.declare_ok hd).cls hs1
    | ifCondition => exact hs1
    | whileCondition => exact hs1
    | returnValue => exact hs1
    | superclass _ => cases hexpr.of_variable
  have k := hexpr.kept
  have hs3 : SuperScopes r3 := SuperScopes.of_same_scopes k.scopes k.cls hs2
  refine ⟨hs3.resolveSuper hkw hok, ?_⟩
  intro source errors0 errors1 clock scanner program p r n id' keyword name j d hscan hparse
    hresolve hclean hev hd
  obtain ⟨h1, h2⟩ := Evals.evals_of_run hscan hparse hresolve hclean hev
  obtain ⟨hd1, T, S, frT, frS, x, A, a1, a2, a3, a4, a5, a6, a7⟩ := superFrames h1 h2 hd
  refine ⟨hd1, T, S, frT, x, A, ?_, ?_, a5, a1, a2, a4⟩
  · simp only [GetAt, a5, a6, a7]
  · simp only [GetAt, a1, a2, a3]

/-! ## Following a run -/

/-- The steps that `follow` takes are calls that the evaluator makes. -/
theorem follow_sound : ∀ (ms : List Move) (n : Nat) (site : Site) (i : Interpreter) (t : Site)
    (j : Interpreter), follow ms n site i = some (t, j) → Evals n site i t j
  | [], n, site, i, t, j, h => by
    simp only [follow, Option.some.injEq, Prod.mk.injEq] at h
    obtain ⟨h1, h2⟩ := h
    subst h1 h2
    exact Evals.here n site i
  | .first :: ms, n, site, i, t, j, h => by
    rcases site with _ | _ | _ | _ | _ | _ | _ | ss
    all_goals try cases h
    cases ss with
    | nil => simp only [follow] at h; cases h
    | cons s rest =>
      simp only [follow] at h
      exact Evals.first (follow_sound ms n _ i t j h)
  | .next :: ms, n, site, i, t, j, h => by
    rcases site with _ | _ | _ | _ | _ | _ | _ | ss
    all_goals try cases h
    cases ss with
    | nil => simp only [follow] at h; cases h
    | cons s rest =>
      simp only [follow] at h
      split at h
      · rename_i u k hk
        exact Evals.next hk (follow_sound ms n _ k t j h)
      · cases h
  | .expressionStmt :: ms, n, site, i, t, j, h => by
    cases n <;> rcases site with _ | _ | s | _ | _ | _ | _ | _
    all_goals try cases h
    all_goals cases s
    all_goals try cases h
    simp only [follow] at h
    exact Evals.expressionStmt (follow_sound ms _ _ i t j h)
  | .callee :: ms, n, site, i, t, j, h => by
    cases n <;> rcases site with e | _ | _ | _ | _ | _ | _ | _
    all_goals try cases h
    all_goals cases e
    all_goals try cases h
    simp only [follow] at h
    exact Evals.callee (follow_sound ms _ _ i t j h)
  | .getObject :: ms, n, site, i, t, j, h => by
    cases n <;> rcases site with e | _ | _ | _ | _ | _ | _ | _
    all_goals try cases h
    all_goals cases e
    all_goals try cases h
    simp only [follow] at h
    exact Evals.getObject (follow_sound ms _ _ i t j h)
  | .callFunction :: ms, n, site, i, t, j, h => by
    cases n <;> rcases site with e | _ | _ | _ | _ | _ | _ | _
    all_goals try cases h
    all_goals cases e
    all_goals try cases h
    simp only [follow] at h
    split at h
    · rename_i f k hk
      split at h
      · rename_i vs k2 hk2
        split at h
        · rename_i hlen
          exact Evals.callFunction hk hk2 hlen (follow_sound ms _ _ k2 t j h)
        · cases h
      · cases h
    · cases h
  | .callClass :: ms, n, site, i, t, j, h => by
    cases n <;> rcases site with e | _ | _ | _ | _ | _ | _ | _
    all_goals try cases h
    all_goals cases e
    all_goals try cases h
    simp only [follow] at h
    split at h
    · rename_i cl k hk
      split at h
      · rename_i vs k2 hk2
        split at h
        · rename_i hlen
          exact Evals.callClass hk hk2 hlen (follow_sound ms _ _ k2 t j h)
        · cases h
      · cases h
    · cases h
  | .initializer :: ms, n, site, i, t, j, h => by
    cases n <;> rcases site with _ | _ | _ | _ | _ | _ | ⟨c, arguments⟩ | _
    all_goals try cases h
    simp only [follow] at h
    split at h
    · rename_i m hm
      exact Evals.initializer hm (follow_sound ms _ _ _ t j h)
    · cases h
  | .body :: ms, n, site, i, t, j, h => by
    cases n <;> rcases site with _ | _ | _ | _ | _ | ⟨f, arguments⟩ | _ | _
    all_goals try cases h
    simp only [follow] at h
    split at h
    · rename_i u k hk
      exact Evals.body hk (follow_sound ms _ _ _ t j h)
    · cases h
  | .statement :: ms, n, site, i, t, j, h => by
    rcases site with _ | _ | _ | ss | _ | _ | _ | _
    all_goals try cases h
    cases ss with
    | nil => simp only [follow] at h; cases h
    | cons s rest =>
      simp only [follow] at h
      exact Evals.statement (follow_sound ms n _ i t j h)

theorem Site.isSuper_eq {t : Site} (h : t.isSuper = true) :
    t = Site.expr (Expr.Super t.superId t.superKeyword t.superMethod) := by
  cases t with
  | expr e =>
    cases e
    all_goals try cases h
    rfl
  | _ => cases h

theorem Site.isFn_eq {t : Site} (d : LoxFunction) (h : t.isFn = true) :
    t = Site.fn (t.function d) t.arguments := by
  cases t
  all_goals try cases h
  rfl

theorem Out.instance?_eq {o : Out Value} {x : Nat} (h : o.instance? = some x) :
    o = Out.ok (Value.instance x) := by
  cases o with
  | ok v =>
    cases v
    all_goals try cases h
    rfl
  | _ => cases h

theorem scannerOr_eq {x : Except Fail Scanner} (d : Scanner) (h : x.toBool = true) :
    x = Except.ok (scannerOr d x) := by
  cases x with
  | ok a => rfl
  | error e => cases h

theorem PRes.pRes_okOr_eq {α : Type} {x : PRes α} (d : α × Parser) (h : x.isOk = true) :
    x = PRes.ok (x.okOr d).1 (x.okOr d).2 := by
  cases x
  all_goals try cases h
  rfl

theorem exprOr_eq {x : PRes Expr} (d : Expr × Parser) (h : x.isOk = true) :
    x = PRes.ok (exprOr d x).1 (exprOr d x).2 := by
  cases x
  all_goals try cases h
  rfl

theorem RRes.rRes_okOr_eq {x : RRes} (d : Resolver) (h : x.isOk = true) :
    x = RRes.ok (x.okOr d) := by
  cases x
  all_goals try cases h
  rfl

theorem follow_getD {m : List Move} {n : Nat} {s : Site} {i : Interpreter}
    (d : Site × Interpreter) (h : (follow m n s i).isSome = true) :
    Evals n s i ((follow m n s i).getD d).1 ((follow m n s i).getD d).2 := by
  cases hf : follow m n s i with
  | none => rw [hf] at h; cases h
  | some tj => exact follow_sound m n s i tj.1 tj.2 hf

/-! ## The sample run -/

theorem sampleRun_scanned :
    (NewScanner sampleRunSource Errors.init).ScanTokens = .ok sampleRunScanner :=
  scannerOr_eq _ (by decide!)

theorem sampleRun_parsed :
    (NewParser sampleRunScanner.tokens sampleRunScanner.errors).Parse =
      .ok sampleRunParsed.1 sampleRunParsed.2 :=
  PRes.pRes_okOr_eq _ (by decide!)

theorem sampleRun_resolved :
    (NewResolver [] sampleRunParsed.2.errors).Resolve sampleRunParsed.1 =
      .ok sampleRunResolved :=
  RRes.rRes_okOr_eq _ (by decide!)

theorem sampleRun_clean : sampleRunResolved.errors.HadError = false := by
  decide!

theorem sampleRun_super :
    Evals 20 (.program sampleRunParsed.1) sampleRunStart
      (.expr (Expr.Super sampleRunSuper.1.superId sampleRunSuper.1.superKeyword
        sampleRunSuper.1.superMethod)) sampleRunSuper.2 := by
  have h := follow_getD (m := [.next, .next, .first, .expressionStmt, .callFunction, .body,
    .statement, .expressionStmt]) (n := 20) (s := .program sampleRunParsed.1)
    (i := sampleRunStart) (.program [], sampleRunStart) (by decide!)
  have hs : sampleRunSuper.1 = Site.expr (Expr.Super sampleRunSuper.1.superId
      sampleRunSuper.1.superKeyword sampleRunSuper.1.superMethod) :=
    Site.isSuper_eq (by decide!)
  rw [← hs]
  exact h

theorem sampleRun_init :
    Evals 20 (.program sampleRunParsed.1) sampleRunStart
      (.fn (sampleRunInit.1.function sampleFunction) sampleRunInit.1.arguments)
      sampleRunInit.2 := by
  have h := follow_getD (m := [.next, .next, .first, .expressionStmt, .callee, .getObject,
    .callClass, .initializer]) (n := 20) (s := .program sampleRunParsed.1)
    (i := sampleRunStart) (.program [], sampleRunStart) (by decide!)
  have hs : sampleRunInit.1 = Site.fn (sampleRunInit.1.function sampleFunction)
      sampleRunInit.1.arguments := Site.isFn_eq _ (by decide!)
  rw [← hs]
  exact h

/-! ## The theorems on the sample run -/

/-- C18 on the sample program: the call `B()` calls the initializer `init() \x7b return; \x7d`
that `B` inherits, bound to the new instance 0; the body executes a bare return and the
call returns the instance 0. -/
theorem Initializer_call_returns_bound_instance_witness :
    (sampleRunInit.1.function sampleFunction).IsInitializer = true ∧
    GetAt sampleRunInit.2.envs (sampleRunInit.1.function sampleFunction).Closure 0 "this" =
      Out.ok (Value.instance 0) ∧
    ∃ ib, defineParams sampleRunInit.2.envs.length
        (sampleRunInit.1.function sampleFunction).Declaration.Params
        sampleRunInit.1.arguments
        { sampleRunInit.2 with
          envs := sampleRunInit.2.envs ++
            [⟨some (sampleRunInit.1.function sampleFunction).Closure, []⟩] } = Res.ok () ib ∧
      ∀ m : Nat,
        (∀ j, executeStatements (execute m)
            (sampleRunInit.1.function sampleFunction).Declaration.Body
            { ib with environment := sampleRunInit.2.envs.length } = Res.ok () j →
          GetAt j.envs (sampleRunInit.1.function sampleFunction).Closure 0 "this" =
            Out.ok (Value.instance 0) ∧
          callFunction (m + 1) (sampleRunInit.1.function sampleFunction)
              sampleRunInit.1.arguments sampleRunInit.2 =
            Res.ok (Value.instance 0) { j with environment := sampleRunInit.2.environment }) ∧
        (∀ v j, executeStatements (execute m)
            (sampleRunInit.1.function sampleFunction).Declaration.Body
            { ib with environment := sampleRunInit.2.envs.length } = Res.err (Err.Return v) j →
          GetAt j.envs (sampleRunInit.1.function sampleFunction).Closure 0 "this" =
            Out.ok (Value.instance 0) ∧
          callFunction (m + 1) (sampleRunInit.1.function sampleFunction)
              sampleRunInit.1.arguments sampleRunInit.2 =
            Res.ok (Value.instance 0) { j with environment := sampleRunInit.2.environment }) :=
  ⟨by decide!, Out.instance?_eq (by decide!),
    Initializer_call_returns_bound_instance sampleRunSource Errors.init Errors.init
      (fun _ => 0) sampleRunScanner sampleRunParsed.1 sampleRunParsed.2 sampleRunResolved 20
      (sampleRunInit.1.function sampleFunction) sampleRunInit.1.arguments sampleRunInit.2 0
      sampleRun_scanned sampleRun_parsed sampleRun_resolved sampleRun_clean sampleRun_init
      (by decide!) (Out.instance?_eq (by decide!)) (by decide!)⟩

/-- C21 on the sample program: `super.init` in the method `m` of `B < A`, called on a new
instance of `B`, has the recorded distance 2; the frames 2 and 1 hops up bind `super` and
`this`, and the expression evaluates to a function, the `init` of `A` bound to the
instance. -/
theorem Super_looks_up_from_superclass_witness :
    (evaluate 1 (Expr.Super sampleRunSuper.1.superId sampleRunSuper.1.superKeyword
      sampleRunSuper.1.superMethod) sampleRunSuper.2).functionName = some "init" ∧
    (1 ≤ 2 ∧ ∃ (T S : Nat) (frT frS : Environment) (x : Nat) (A : LoxClass),
      ancestor sampleRunSuper.2.envs (2 - 1) (some sampleRunSuper.2.environment) =
        Out.ok (some T) ∧
      sampleRunSuper.2.envs[T]? = some frT ∧
      Map.get frT.values "this" = some (Value.instance x) ∧
      frT.Enclosing = some S ∧
      sampleRunSuper.2.envs[S]? = some frS ∧
      Map.get frS.values "super" = some (Value.class A) ∧
      (∀ B : LoxClass, sampleRunSuper.2.holds B → ∀ k ∈ B.chain,
        ∀ (name : String) (f : LoxFunction),
        Map.get k.Methods name = some f → f.Closure = S →
        ∀ A', k.Superclass = some A' → A' = A) ∧
      ∀ fuel : Nat, evaluate (fuel + 1) (Expr.Super sampleRunSuper.1.superId
          sampleRunSuper.1.superKeyword sampleRunSuper.1.superMethod) sampleRunSuper.2 =
        match A.findMethod sampleRunSuper.1.superMethod.Lexeme with
        | none =>
          Res.err (Err.RuntimeError sampleRunSuper.1.superMethod
            ("Undefined property '" ++ sampleRunSuper.1.superMethod.Lexeme ++ "'."))
            sampleRunSuper.2
        | some f => Res.ok (Value.function (f.bind x sampleRunSuper.2).1)
            (f.bind x sampleRunSuper.2).2) :=
  ⟨by decide!,
    Super_looks_up_from_superclass sampleRunSource Errors.init Errors.init (fun _ => 0)
      sampleRunScanner sampleRunParsed.1 sampleRunParsed.2 sampleRunResolved 20 _ _ _
      sampleRunSuper.2 2 sampleRun_scanned sampleRun_parsed sampleRun_resolved sampleRun_clean
      sampleRun_super (by decide!)⟩

/-- C36 on `class B < A \x7b m() \x7b super.m; \x7d \x7d`: the distance recorded for
`super` is 2, the scope at distance 1 is the scope of `this`; and in the sample run,
where `super.init` is evaluated with the recorded distance 2, `super` is found 2 hops up
and `this` 1 hop up. -/
theorem super_is_one_scope_above_this_witness :
    (∃ d, 1 ≤ d ∧
      { sampleMethodBodyState with locals := [(1, 2)] } =
        sampleMethodBodyState.resolveLocal 1 (sampleToken TokenType.SUPER "super") ∧
      Map.get (Resolver.locals { sampleMethodBodyState with locals := [(1, 2)] }) 1 = some d ∧
      (∃ scope, sampleMethodBodyState.scopes[d]? = some scope ∧
        Map.get scope "super" = some true) ∧
      (∀ k, k < d → ∃ scope, sampleMethodBodyState.scopes[k]? = some scope ∧
        Map.get scope "super" = none) ∧
      (∃ scope, sampleMethodBodyState.scopes[d - 1]? = some scope ∧
        Map.get scope "this" = some true)) ∧
    (1 ≤ 2 ∧ ∃ (T S : Nat) (frT : Environment) (x : Nat) (A : LoxClass),
      GetAt sampleRunSuper.2.envs sampleRunSuper.2.environment 2 "super" =
        Out.ok (Value.class A) ∧
      GetAt sampleRunSuper.2.envs sampleRunSuper.2.environment (2 - 1) "this" =
        Out.ok (Value.instance x) ∧
      ancestor sampleRunSuper.2.envs 2 (some sampleRunSuper.2.environment) = Out.ok (some S) ∧
      ancestor sampleRunSuper.2.envs (2 - 1) (some sampleRunSuper.2.environment) =
        Out.ok (some T) ∧
      sampleRunSuper.2.envs[T]? = some frT ∧ frT.Enclosing = some S) :=
  (fun h => ⟨h.1, h.2 sampleRunSource Errors.init Errors.init (fun _ => 0) sampleRunScanner
      sampleRunParsed.1 sampleRunParsed.2 sampleRunResolved 20 _ _ _ sampleRunSuper.2 2
      sampleRun_scanned sampleRun_parsed sampleRun_resolved sampleRun_clean sampleRun_super
      (by decide!)⟩)
  (super_is_one_scope_above_this [] Errors.init sampleSubclass
    [Frame.classBody true, Frame.method "m"]
    sampleMethodBodyState sampleMethodBodyState sampleMethodBodyState
    { sampleMethodBodyState with locals := [(1, 2)] } sampleSuperStmt
    (Expr.Super 1 (sampleToken TokenType.SUPER "super") (sampleToken TokenType.IDENTIFIER "m"))
    1 (sampleToken TokenType.SUPER "super") (sampleToken TokenType.IDENTIFIER "m")
    rfl rfl
    (@Reaches.head [Frame.classBody true, Frame.method "m"] (NewResolver [] Errors.init)
      (Stmt.ClassStmt (sampleToken TokenType.IDENTIFIER "B")
        (some ⟨0, sampleToken TokenType.IDENTIFIER "A"⟩) [sampleSuperMethod]) []
      sampleMethodBodyState sampleSuperStmt
      (@Reaches.classBody [Frame.method "m"] (NewResolver [] Errors.init)
        (sampleToken TokenType.IDENTIFIER "B") (some ⟨0, sampleToken TokenType.IDENTIFIER "A"⟩)
        [sampleSuperMethod] sampleClassBodyState sampleMethodBodyState sampleSuperStmt rfl
        (@Reaches.method [] sampleClassBodyState sampleSuperMethod [] sampleMethodBodyState
          sampleSuperStmt
          (@Reaches.body [] sampleClassBodyState (sampleToken TokenType.IDENTIFIER "m") []
            [sampleSuperStmt] FunctionType.FunctionTypeMethod sampleMethodBodyState
            sampleMethodBodyState sampleSuperStmt rfl
            (Reaches.head (Reaches.here sampleMethodBodyState sampleSuperStmt))))))
    (StmtVisits.expression _ _) (VisitsExpr.here _ _) rfl rfl)

/-! ## Printing and parsing again, for every source -/

/-- The printed form of a source text that is one identifier. -/
theorem printParsed_word (c : Char) (cs : List Char)
    (ha : isAlpha c = true) (hcs : ∀ x ∈ cs, isAlphaNumeric x = true)
    (hk : Map.get keywords (String.mk (c :: cs)) = none) :
    printParsed (String.mk (c :: cs)) = some (some (String.mk (c :: cs)), []) := by
  have hscan := ScanTokens_identifier c cs Errors.init ha hcs
  have hty : (Map.get keywords (String.mk (c :: cs))).getD TokenType.IDENTIFIER =
      TokenType.IDENTIFIER := by
    rw [hk]
    rfl
  rw [hty] at hscan
  have hparse : Parser.expression 60
      (NewParser [⟨TokenType.IDENTIFIER, String.mk (c :: cs), LiteralValue.nil, 1⟩,
        ⟨TokenType.EOF, "", LiteralValue.nil, 1⟩] Errors.init) =
      .ok (Expr.Variable ⟨0, ⟨TokenType.IDENTIFIER, String.mk (c :: cs), LiteralValue.nil, 1⟩⟩)
        { NewParser [⟨TokenType.IDENTIFIER, String.mk (c :: cs), LiteralValue.nil, 1⟩,
            ⟨TokenType.EOF, "", LiteralValue.nil, 1⟩] Errors.init with
          current := 1, nextId := 1 } :=
    Parser.expression_of_primary 49 _ _ _
      ⟨TokenType.IDENTIFIER, String.mk (c :: cs), LiteralValue.nil, 1⟩
      ⟨TokenType.EOF, "", LiteralValue.nil, 1⟩ (by simp [NewParser]) (by simp)
      (Parser.primary_identifier 49 _ _ (by simp [NewParser]) rfl) (by simp [NewParser])
      (by simp)
  unfold printParsed
  rw [hscan]
  simp only [List.length_cons, List.length_nil]
  rw [show 20 * (0 + 1 + 1) + 20 = 60 from rfl,
    show (NewScanner (String.mk (c :: cs)) Errors.init).errors = Errors.init from rfl, hparse]
  rfl

/-- C27, amended: take a source text on which `ScanTokens` returns and `expression()`
returns an expression without an error, and let the expression be a variable, `this`,
one of the literals `true`, `false` and `nil`, or a string literal whose characters are
an identifier or one of the words `this`, `true`, `false`, `nil` (`Expr.plain`).
`AstPrinter` prints it as a text (the name, the keyword, the characters of the string),
and scanning, parsing and printing that text again succeeds without a diagnostic and
yields the same text. -/
theorem print_then_parse_again_of_names (source : String) (s : Scanner) (e : Expr)
    (p : Parser)
    (hscan : (NewScanner source Errors.init).ScanTokens = .ok s)
    (hparse : Parser.expression (20 * s.tokens.length + 20) (NewParser s.tokens s.errors) =
      .ok e p)
    (hplain : e.plain = true) :
    ∃ text : String, AstPrinter.Print e = .ok text ∧
      printParsed source = some (some text, p.errors.stderr) ∧
      printParsed text = some (some text, []) := by
  have hfirst : ∀ text : String, AstPrinter.Print e = .ok text →
      printParsed source = some (some text, p.errors.stderr) := by
    intro text ht
    unfold printParsed
    rw [hscan]
    simp only
    rw [hparse]
    simp only [ht]
  cases e with
  | Variable v =>
    have hs0 : (NewParser s.tokens s.errors).scanned :=
      fun t ht => Scanner.ScanTokens_scanned hscan t ht
    have hb := (Parser.exprBuilt (20 * s.tokens.length + 20)).expression
      (NewParser s.tokens s.errors) hs0
    rw [hparse] at hb
    have hw : v.Name.word := by
      have h1 := hb.2.2.2.1
      simp only [Expr.shaped] at h1
      exact h1
    obtain ⟨c, cs, hlex, ha, hcs, hk⟩ := hw
    refine ⟨v.Name.Lexeme, rfl, hfirst _ rfl, ?_⟩
    rw [hlex] at hk ⊢
    exact printParsed_word c cs ha hcs hk
  | This id kw => exact ⟨"this", rfl, hfirst _ rfl, by decide!⟩
  | Literal v =>
    cases v with
    | nil => exact ⟨"nil", rfl, hfirst _ rfl, by decide!⟩
    | bool b =>
      cases b with
      | true => exact ⟨"true", rfl, hfirst _ rfl, by decide!⟩
      | false => exact ⟨"false", rfl, hfirst _ rfl, by decide!⟩
    | number f => cases hplain
    | string t =>
      refine ⟨t, rfl, hfirst _ rfl, ?_⟩
      simp only [Expr.plain, isName, Bool.or_eq_true, beq_iff_eq] at hplain
      rcases hplain with (((h | h) | h) | h) | h
      · obtain ⟨l⟩ := t
        cases l with
        | nil => simp at h
        | cons c cs =>
          simp only [Bool.and_eq_true, List.all_eq_true, Option.isNone_iff_eq_none] at h
          exact printParsed_word c cs h.1.1 h.1.2 h.2
      · subst h; decide!
      · subst h; decide!
      · subst h; decide!
      · subst h; decide!
  | _ => cases hplain

/-- C27, amended, at the source ` orchid // a flower`: the expression is the variable
`orchid`, printed as `orchid`, which parses and prints as `orchid` again. -/
theorem print_then_parse_again_of_names_witness :
    ∃ text : String,
      AstPrinter.Print (exprOr (Expr.nil, NewParser [] Errors.init)
        (Parser.expression 60
          (NewParser (scannerOr (NewScanner "" Errors.init)
            (NewScanner " orchid // a flower" Errors.init).ScanTokens).tokens
            Errors.init))).1 = .ok text ∧
      printParsed " orchid // a flower" = some (some text, []) ∧
      printParsed text = some (some text, []) :=
  print_then_parse_again_of_names " orchid // a flower"
    (scannerOr (NewScanner "" Errors.init)
      (NewScanner " orchid // a flower" Errors.init).ScanTokens)
    (exprOr (Expr.nil, NewParser [] Errors.init)
      (Parser.expression 60
        (NewParser (scannerOr (NewScanner "" Errors.init)
          (NewScanner " orchid // a flower" Errors.init).ScanTokens).tokens
          Errors.init))).1
    (exprOr (Expr.nil, NewParser [] Errors.init)
      (Parser.expression 60
        (NewParser (scannerOr (NewScanner "" Errors.init)
          (NewScanner " orchid // a flower" Errors.init).ScanTokens).tokens
          Errors.init))).2
    (scannerOr_eq _ (by decide!)) (exprOr_eq _ (by decide!)) (by decide!)

/-- C27 as stated fails: `a + b` parses without a parse error and prints as `(+ a b)`,
on which the parser reports "Expect expression." and returns an error; `-a` prints as
`(- a)`, which parses, to a tree that prints differently, `(group (- a))`; `super.m`
prints as `super`, which does not parse; the string literal `"a b"` prints as `a b`,
which parses to a tree that prints as `a`. -/
theorem printed_form_does_not_parse_again :
    printParsed "a + b" = some (some "(+ a b)", []) ∧
    printParsed "(+ a b)" =
      some (none, ["[line 1] Error at '+': Expect expression.",
        "[line 1] Error at 'b': Expect ')' after expression."]) ∧
    printParsed "-a" = some (some "(- a)", []) ∧
    printParsed "(- a)" = some (some "(group (- a))", []) ∧
    printParsed "super.m" = some (some "super", []) ∧
    printParsed "super" = some (none, ["[line 1] Error at end: Expect '.' after 'super'."]) ∧
    printParsed "\"a b\"" = some (some "a b", []) ∧
    printParsed "a b" = some (some "a", []) := by
  decide!

end Lox
